import Mathlib

/-!
# RSat 2.01 (HW4/rsat_2.01_release): a shallow embedding of the search engine

The C sources keep one global manager `my_m`; here every function takes the
manager explicitly and returns the updated one.  C arrays are total maps
`Nat → _` (an index is the offset from the array base), pointers into the
assignment stack are offsets from `my_m->assign`, clause pointers are handles
into a clause memory `cl`, and `NULL` is `none`.  Machine `int`s that can
overflow are wrapped explicitly.
-/

set_option autoImplicit false
set_option maxRecDepth 4000
set_option maxHeartbeats 1000000

namespace RSat

/-! ## Literal algebra (`structures.h`) -/

/-- The macro `sign(l) = l&1`. -/
def sign (l : Nat) : Nat := l &&& 1

/-- The macro `neg(l) = l^1`. -/
def neg (l : Nat) : Nat := l ^^^ 1

/-- The macro `var(l) = l>>1`. -/
def var (l : Nat) : Nat := l >>> 1

/-- The macro `plit(v) = v<<1`. -/
def plit (v : Nat) : Nat := v <<< 1

/-- The macro `nlit(v) = (v<<1)|1`. -/
def nlit (v : Nat) : Nat := (v <<< 1) ||| 1

/-- The macro `watched_index(l) = 2*(var(l)-1)+sign(l)`; literals of the
variables `1..vc` are at least 2, so the subtraction does not go below zero. -/
def watched_index (l : Nat) : Nat := 2 * (var l - 1) + sign l

/-! ## Data structures (`structures.h`) -/

/-- The struct `heap` (also used as `implication_queue`): `order[i]` is the
variable at heap position `i` (position 0 is unused), `indices[x]` the
position of variable `x` (0 when `x` is not in the heap). -/
structure heap where
  order : Nat → Nat
  indices : Nat → Nat
  size : Nat

/-- The struct `my_clause`; the field `size` of the C struct always equals the
length of the literal array and is read off the array here. -/
structure my_clause where
  index : Int
  lits : List Nat

/-- The field `size` of a clause. -/
def my_clause.size (c : my_clause) : Nat := c.lits.length

/-- The struct `my_manager`, restricted to the fields the search engine reads
or writes.  `cl` is the memory holding the clause structs, keyed by clause
pointer; `alloc_next` is the next pointer `calloc` hands out.  Scores are
`double`s in the source; they are only finite values, compared with `>`, and
are kept as rationals.  Capacities of growable arrays are not tracked. -/
structure my_manager where
  vc : Nat
  cl : Nat → my_clause
  alloc_next : Nat
  original_clauses : List Nat
  learned_clauses : List Nat
  level : Nat → Nat
  assign : Nat → Nat
  assign_top : Nat
  decision_lit : Nat → Nat
  status : Nat → Nat
  reason : Nat → Option Nat
  score : Nat → ℚ
  watched : Nat → List Nat
  decision_level : Nat
  max_decision_level : Nat
  stack_offset : Int
  conflicting_clause : Option Nat
  conflict_clause : Option Nat
  assertion_level : Nat
  conflict_level : Nat
  imp : heap
  var_order_heap : heap
  save_progress : Nat
  saved : Nat → Nat
  cdc : Nat → Nat
  cdc_index : Nat
  decisions : Nat
  conflicts : Int
  on_th : Int
  on_th_inc : Int
  off_th : Int
  off_th_inc : Int
  next_sp_switch : Int
  score_inc : ℚ
  score_inc_factor : ℚ
  clause_score_inc : ℚ
  learned_clause_scores : Nat → ℚ
  simplify_orig_kb : Nat
  simplify_learned_kb : Nat
  ok : Nat
  restart : Int
  next_restart_conflict : Int
  luby_unit : Int
  max_learned_clauses : ℚ
  num_conflicts_for_next_simplify : Int
  next_simplify_increment : Int

/-- The macro `set(l)`: `status[var(l)]==l`. -/
def lit_set (status : Nat → Nat) (l : Nat) : Bool := decide (status (var l) = l)

/-- The macro `unresolved(l)`: `status[var(l)]!=neg(l)`. -/
def unresolved (status : Nat → Nat) (l : Nat) : Bool := decide (status (var l) ≠ neg l)

/-- The macro `resolved(l)`: `status[var(l)]==neg(l)`. -/
def resolved (status : Nat → Nat) (l : Nat) : Bool := decide (status (var l) = neg l)

/-- The macro `free_lit(l)`: `status[var(l)]==0`. -/
def free_lit (status : Nat → Nat) (l : Nat) : Bool := decide (status (var l) = 0)

/-! ## Variable heap (`heap.cpp`) -/

/-- The function `gt(v1,v2)`: the score of `v1` is greater than that of `v2`. -/
def gt (score : Nat → ℚ) (v1 v2 : Nat) : Bool := decide (score v1 > score v2)

/-- The while loop of `percolate_up`; the position `i` halves in every
iteration, so `i` iterations of fuel are never used up. -/
def percolate_up_loop (score : Nat → ℚ) (v : Nat) :
    Nat → (Nat → Nat) → (Nat → Nat) → Nat → (Nat → Nat) × (Nat → Nat) × Nat
  | 0, order, indices, i => (order, indices, i)
  | f + 1, order, indices, i =>
    if i / 2 ≠ 0 ∧ gt score v (order (i / 2)) = true then
      percolate_up_loop score v f (Function.update order i (order (i / 2)))
        (Function.update indices (order (i / 2)) i) (i / 2)
    else (order, indices, i)

/-- The function `percolate_up(h,i)`. -/
def percolate_up (score : Nat → ℚ) (h : heap) (i : Nat) : heap :=
  let v := h.order i
  let r := percolate_up_loop score v i h.order h.indices i
  { h with order := Function.update r.1 r.2.2 v, indices := Function.update r.2.1 v r.2.2 }

/-- The while loop of `percolate_down`; from a position `i ≥ 1` the position
at least doubles in every iteration, so `h_size` iterations of fuel are never
used up. -/
def percolate_down_loop (score : Nat → ℚ) (v h_size : Nat) :
    Nat → (Nat → Nat) → (Nat → Nat) → Nat → (Nat → Nat) × (Nat → Nat) × Nat
  | 0, order, indices, i => (order, indices, i)
  | f + 1, order, indices, i =>
    if 2 * i ≤ h_size then
      let bigger_child :=
        if 2 * i + 1 ≤ h_size ∧ gt score (order (2 * i + 1)) (order (2 * i)) = true
        then 2 * i + 1 else 2 * i
      if gt score (order bigger_child) v = true then
        percolate_down_loop score v h_size f (Function.update order i (order bigger_child))
          (Function.update indices (order bigger_child) i) bigger_child
      else (order, indices, i)
    else (order, indices, i)

/-- The function `percolate_down(h,i)`. -/
def percolate_down (score : Nat → ℚ) (h : heap) (i : Nat) : heap :=
  let v := h.order i
  let r := percolate_down_loop score v h.size h.size h.order h.indices i
  { h with order := Function.update r.1 r.2.2 v, indices := Function.update r.2.1 v r.2.2 }

/-- The function `insert(h,v)`. -/
def insert (score : Nat → ℚ) (h : heap) (v : Nat) : heap :=
  let position := h.size + 1
  percolate_up score
    { order := Function.update h.order position v,
      indices := Function.update h.indices v position,
      size := position } position

/-- The function `get_min_element(h)`: the removed variable and the heap left.
It is only called on a non-empty heap. -/
def get_min_element (score : Nat → ℚ) (h : heap) : Nat × heap :=
  let r := h.order 1
  let order := Function.update h.order 1 (h.order h.size)
  let size := h.size - 1
  let indices := Function.update (Function.update h.indices (order 1) 1) r 0
  let h1 : heap := { order := order, indices := indices, size := size }
  (r, if size > 1 then percolate_down score h1 1 else h1)

/-- The function `empty(h)`. -/
def empty (h : heap) : Bool := decide (h.size = 0)

/-- The function `in_heap(h,v)`. -/
def in_heap (h : heap) (v : Nat) : Bool := decide (h.indices v ≠ 0)

/-- The function `undo(h,v)`: put `v` back in the heap unless it is there. -/
def undo (score : Nat → ℚ) (h : heap) (v : Nat) : heap :=
  if in_heap h v = true then h else insert score h v

/-- The function `dequeue(h)`: 0 when the queue is empty. -/
def dequeue (score : Nat → ℚ) (h : heap) : Nat × heap :=
  if empty h = true then (0, h) else get_min_element score h

/-- The loop `while((v=dequeue(q))!=0){}` of `bcp`; every `dequeue` of a
non-empty queue shrinks it, so `size + 1` iterations of fuel are never used
up. -/
def flush_queue (score : Nat → ℚ) : Nat → heap → heap
  | 0, h => h
  | f + 1, h => if (dequeue score h).1 = 0 then (dequeue score h).2
      else flush_queue score f (dequeue score h).2

/-! ## Watched lists (`watched_list.cpp`) -/

/-- The function `add_watched_clause(l,clause)`: append to the list of `l`. -/
def add_watched_clause (s : my_manager) (l : Nat) (clause : Nat) : my_manager :=
  { s with
    watched := (Function.update s.watched (watched_index l)
      (s.watched (watched_index l) ++ [clause])) }

/-! ## Activity scores (`heap.cpp`) -/

/-- The function `update(h,v)`: `increase` (a `percolate_up` from the position
of `v`) when `v` is in the heap. -/
def update (score : Nat → ℚ) (h : heap) (v : Nat) : heap :=
  if in_heap h v = true then percolate_up score h (h.indices v) else h

/-- The function `rescale_variable_scores()`, with `SCORE_DIVIDER = 1e-100`. -/
def rescale_variable_scores (s : my_manager) : my_manager :=
  { s with
    score := (fun i => if 1 ≤ i ∧ i ≤ s.vc then s.score i * (1 / 10 ^ 100) else s.score i),
    score_inc := (s.score_inc * (1 / 10 ^ 100)) }

/-- The function `increment_literal_score(l)`, with `SCORE_LIMIT = 1e100`. -/
def increment_literal_score (s : my_manager) (l : Nat) : my_manager :=
  let s1 : my_manager :=
    { s with score := (Function.update s.score (var l) (s.score (var l) + s.score_inc)) }
  let s2 := if s1.score (var l) > 10 ^ 100 then rescale_variable_scores s1 else s1
  { s2 with var_order_heap := (update s2.score s2.var_order_heap (var l)) }

/-- The function `rescale_clause_scores()`, with `CLAUSE_SCORE_DIVIDER = 1e-20`;
`cur_cdc_count` is the length of the learned store. -/
def rescale_clause_scores (s : my_manager) : my_manager :=
  { s with
    learned_clause_scores := (fun i => if i < s.learned_clauses.length
      then s.learned_clause_scores i * (1 / 10 ^ 20) else s.learned_clause_scores i),
    clause_score_inc := (s.clause_score_inc * (1 / 10 ^ 20)) }

/-- The function `increment_clause_score(c)`, with `CLAUSE_SCORE_LIMIT = 1e20`;
it is called on learned clauses only, whose `index` is not negative. -/
def increment_clause_score (s : my_manager) (c : Nat) : my_manager :=
  let ix := ((s.cl c).index).toNat
  let s1 : my_manager :=
    { s with learned_clause_scores :=
        (Function.update s.learned_clause_scores ix
          (s.learned_clause_scores ix + s.clause_score_inc)) }
  if s1.learned_clause_scores ix > 10 ^ 20 then rescale_clause_scores s1 else s1

/-! ## Unit propagation (`solver.cpp`, `bcp`) -/

/-- Overwrite the literal array of the clause at pointer `c`. -/
def set_lits (s : my_manager) (c : Nat) (lits : List Nat) : my_manager :=
  { s with cl := (Function.update s.cl c { s.cl c with lits := lits }) }

/-- The search `for(;k<clause_size;k++)` of `bcp` for the first position
holding an unresolved literal, over the literals from position `k` on. -/
def find_unresolved (status : Nat → Nat) : List Nat → Nat → Option Nat
  | [], _ => none
  | x :: xs, k =>
    if unresolved status x = true then some k else find_unresolved status xs (k + 1)

/-- The block of `bcp` for a literal implied for the first time: `unit_lit`
gets the reason `clause`, its status and the level `slevel`, its variable
enters the implication queue and the literal is pushed at `last`. -/
def bcp_imply (slevel : Nat) (s : my_manager) (last clause unit_lit : Nat) : my_manager :=
  { s with
    reason := (Function.update s.reason (var unit_lit) (some clause)),
    status := (Function.update s.status (var unit_lit) unit_lit),
    level := (Function.update s.level (var unit_lit) slevel),
    imp := (undo s.score s.imp (var unit_lit)),
    assign := (Function.update s.assign last unit_lit) }

/-- What the body of the loop `while(watched_list<end)` of `bcp` does with
one clause: it writes the clause back through `pointer` and goes on (with
the manager and `last`), or it has moved the clause to the list of a new
watched literal, or it has met a contradiction. -/
inductive clause_outcome where
  | kept (s : my_manager) (last : Nat)
  | moved (s : my_manager)
  | conflict (s : my_manager)

/-- The body of the loop `while(watched_list<end)` of `bcp` for the clause at
pointer `clause`, after the swap that brings `neg_lit` to position 1 has left
the literal array `lits1`, up to the point where the clause is written back,
moved or found contradicted.  For `clause_size ≤ 2` there is no literal from
position 2 on to search. -/
def bcp_clause_at (slevel : Nat) (s : my_manager) (last clause : Nat) (lits1 : List Nat) :
    clause_outcome :=
  let s1 := set_lits s clause lits1
  if lit_set s1.status (lits1.getD 0 0) = true then clause_outcome.kept s1 last
  else
    match find_unresolved s1.status (lits1.drop 2) 2 with
    | some k =>
      let temp := lits1.getD 1 0
      let temp2 := lits1.getD k 0
      let s2 := set_lits s1 clause ((lits1.set 1 temp2).set k temp)
      clause_outcome.moved (add_watched_clause s2 temp2 clause)
    | none =>
      let other_lit := lits1.getD 0 0
      if s1.status (var other_lit) = neg other_lit then clause_outcome.conflict s1
      else
        if s1.status (var other_lit) = 0 then
          clause_outcome.kept (bcp_imply slevel s1 last clause other_lit) (last + 1)
        else clause_outcome.kept s1 last

/-- The body of the loop `while(watched_list<end)` of `bcp` for the clause at
pointer `clause`: the swap `if(first_lit!=neg_lit)` and the rest. -/
def bcp_clause (slevel neg_lit : Nat) (s : my_manager) (last : Nat) (clause : Nat) :
    clause_outcome :=
  let lits0 := (s.cl clause).lits
  let first_lit := lits0.getD 1 0
  bcp_clause_at slevel s last clause
    (if first_lit ≠ neg_lit then (lits0.set 1 (lits0.getD 0 0)).set 0 first_lit else lits0)

/-- State of the walk over one watched list in `bcp`: the manager, the local
`last`, the clauses written back through `pointer` so far, and whether the
walk ended in a conflict. -/
structure watch_result where
  m : my_manager
  last : Nat
  kept : List Nat
  conflict : Bool

/-- The loop `while(watched_list<end)` of `bcp` over the clauses still to be
read from the watched list of `neg_lit`.  The list is compacted in place in
the source (`pointer` never passes `watched_list`); here the clauses written
through `pointer` are collected in `kept` and stored by the caller.  The list
appended to by `add_watched_clause` is the list of an unresolved literal,
hence not the one being walked.  On a contradiction the queue is emptied,
`assign_top` is set and the rest of the list is written back. -/
def bcp_watch_loop (slevel neg_lit : Nat) :
    List Nat → my_manager → Nat → List Nat → watch_result
  | [], s, last, kept => { m := s, last := last, kept := kept, conflict := false }
  | clause :: rest, s, last, kept =>
    match bcp_clause slevel neg_lit s last clause with
    | clause_outcome.kept s1 last1 =>
      bcp_watch_loop slevel neg_lit rest s1 last1 (kept ++ [clause])
    | clause_outcome.moved s1 => bcp_watch_loop slevel neg_lit rest s1 last kept
    | clause_outcome.conflict s1 =>
      { m := { s1 with
            imp := (flush_queue s1.score (s1.imp.size + 1) s1.imp),
            assign_top := last,
            conflicting_clause := some clause },
        last := last,
        kept := kept ++ clause :: rest,
        conflict := true }

/-- The loop `while((v=dequeue(q))!=0)` of `bcp`.  The result is `none` when
the fuel runs out, else the returned `char` (`true` for 1, `false` for 0) and
the manager. -/
def bcp_loop (slevel : Nat) : Nat → my_manager → Nat → Option (Bool × my_manager)
  | 0, _, _ => none
  | f + 1, s, last =>
    let d := dequeue s.score s.imp
    if d.1 = 0 then some (true, { s with imp := d.2, assign_top := last })
    else
      let s0 : my_manager := { s with imp := d.2 }
      let neg_lit := neg (s0.status d.1)
      let wi := watched_index neg_lit
      let r := bcp_watch_loop slevel neg_lit (s0.watched wi) s0 last []
      let s1 : my_manager := { r.m with watched := (Function.update r.m.watched wi r.kept) }
      if r.conflict = true then some (false, s1) else bcp_loop slevel f s1 r.last

/-- The function `bcp(l)`, with the number of iterations of its outer loop
bounded by `fuel`. -/
def bcp (fuel : Nat) (s : my_manager) (l : Nat) : Option (Bool × my_manager) :=
  let last := s.assign_top
  let slevel := s.level (var l)
  let s1 : my_manager :=
    { s with
      imp := (undo s.score s.imp (var l)),
      assign := (Function.update s.assign last l),
      status := (Function.update s.status (var l) l) }
  bcp_loop slevel fuel s1 (((last : Int) + 1 + s.stack_offset).toNat)

/-- The part of `set_decision(l)` before its call of `bcp`; the growth of the
`decision_lit` array is a change of capacity only. -/
def set_decision_start (s : my_manager) (l : Nat) : my_manager :=
  let s1 : my_manager :=
    if s.decision_level > s.max_decision_level
    then { s with max_decision_level := s.decision_level } else s
  let level := s1.decision_level + 1
  { s1 with
    decision_level := level,
    decisions := s1.decisions + 1,
    level := (Function.update s1.level (var l) level),
    reason := (Function.update s1.reason (var l) none),
    decision_lit := (Function.update s1.decision_lit level s1.assign_top) }

/-- The function `set_decision(l)`. -/
def set_decision (fuel : Nat) (s : my_manager) (l : Nat) : Option (Bool × my_manager) :=
  bcp fuel (set_decision_start s l) l

/-! ## Backtracking (`solver.cpp`, `backtrack`) -/

/-- One iteration of the loop `while(stack>target)` of `backtrack`, entered
with the pointer `stack`; `relate` is 0 in the source, so an undone literal
is saved as it is when `save_progress` is 1. -/
def backtrack_step (s : my_manager) (stack : Nat) : my_manager :=
  let l := s.assign (stack - 1)
  let v := var l
  let s1 : my_manager :=
    if s.save_progress = 1 then { s with saved := (Function.update s.saved v l) } else s
  { s1 with
    reason := (Function.update s1.reason v none),
    level := (Function.update s1.level v 0),
    status := (Function.update s1.status v 0),
    var_order_heap := (undo s1.score s1.var_order_heap v) }

/-- The loop `while(stack>target)` of `backtrack`, run for the `n` entries
between `target` and `stack`. -/
def backtrack_loop : Nat → my_manager → Nat → my_manager
  | 0, s, _ => s
  | n + 1, s, stack => backtrack_loop n (backtrack_step s stack) (stack - 1)

/-- The function `backtrack(dest)`. -/
def backtrack (s : my_manager) (dest : Nat) : my_manager :=
  if s.decision_level < dest then s
  else
    let target := s.decision_lit dest
    let s1 := backtrack_loop (s.assign_top - target) s s.assign_top
    { s1 with
      assign_top := (if s.assign_top > target then target else s.assign_top),
      decision_level := dest - 1 }

/-! ## Conflict analysis (`solver.cpp`) -/

/-- Outcome of the scan of one reason clause in `removable`: either the
literal in question is not removable (the marks recorded in `save` are
already cleared in the `seen` array returned), or the scan went through. -/
inductive removable_scan_result where
  | failed (seen : Nat → Bool)
  | ok (seen : Nat → Bool) (stack : List Nat) (save : List Nat)

/-- The loop `for(int j=0;j<size;j++) seen[save[j]] = 0` of `removable`. -/
def clear_seen (seen : Nat → Bool) : List Nat → Nat → Bool
  | [] => seen
  | x :: xs => clear_seen (Function.update seen x false) xs

/-- The test `(1<<level) & minl` of `removable`: the `int` 1 is shifted by
the level as it is (the source has no mask here, unlike the line
`minl |= 1 << (level & 31)` of `derive_conflict_clause`), and the result is
reduced to the 32 bits of the word before the `&` with the `unsigned int`
mask.  For `level ≥ 32` C leaves the shift undefined; what the model keeps
there is what the 32-bit word holds of the bit shifted out of it, namely
nothing. -/
def level_bit_set (level minl : Nat) : Bool :=
  decide (((1 <<< level) % 4294967296) &&& minl ≠ 0)

/-- The loop `for(int i=begin;i<rsize;i++)` of `removable` over the literals
of one reason from position 1 on.  `stack` has its top first; `save` lists
the variables marked during this call. -/
def removable_scan (s : my_manager) (minl : Nat) :
    List Nat → (Nat → Bool) → List Nat → List Nat → removable_scan_result
  | [], seen, stack, save => removable_scan_result.ok seen stack save
  | cur_lit :: rest, seen, stack, save =>
    let index := var cur_lit
    let level := s.level index
    if seen index = false ∧ level ≠ 1 then
      if (s.reason index).isSome = true ∧ level_bit_set level minl = true then
        removable_scan s minl rest (Function.update seen index true)
          (cur_lit :: stack) (save ++ [index])
      else removable_scan_result.failed (clear_seen seen save)
    else removable_scan s minl rest seen stack save

/-- The loop `while(stack_index>0)` of `removable`.  The result is `none` when
the fuel runs out or a `NULL` reason would be read, else the returned `char`
and the `seen` array. -/
def removable_loop (s : my_manager) (minl : Nat) :
    Nat → (Nat → Bool) → List Nat → List Nat → Option (Bool × (Nat → Bool))
  | 0, _, _, _ => none
  | _ + 1, seen, [], _ => some (true, seen)
  | f + 1, seen, cur :: stack, save =>
    match s.reason (var cur) with
    | none => none
    | some r =>
      match removable_scan s minl ((s.cl r).lits.drop 1) seen stack save with
      | removable_scan_result.failed seen1 => some (false, seen1)
      | removable_scan_result.ok seen1 stack1 save1 =>
        removable_loop s minl f seen1 stack1 save1

/-- The function `removable(l,minl)` on the `seen` array; every iteration of
its loop pops one literal and every push marks a variable, so `vc + 2`
iterations suffice for literals over `1..vc`. -/
def removable (s : my_manager) (seen : Nat → Bool) (l minl : Nat) :
    Option (Bool × (Nat → Bool)) :=
  removable_loop s minl (s.vc + 2) seen [l] []

/-- Local state of `derive_conflict_clause`: the manager (for `cdc`,
`cdc_index` and the activity scores), the `seen` array and the counter
`num_lits_at_clevel`. -/
structure dcc_state where
  m : my_manager
  seen : Nat → Bool
  num_lits_at_clevel : Int

/-- The loop `for(int i=begin;i<size;i++)` of `derive_conflict_clause` over
the literals of `conf` from `begin` on. -/
def dcc_scan (clevel : Nat) : List Nat → dcc_state → dcc_state
  | [], st => st
  | cur_lit :: rest, st =>
    let index := var cur_lit
    let level := st.m.level index
    if st.seen index = false ∧ level > 1 then
      let m1 := increment_literal_score st.m cur_lit
      if level = clevel then
        dcc_scan clevel rest
          { m := m1, seen := Function.update st.seen index true,
            num_lits_at_clevel := st.num_lits_at_clevel + 1 }
      else
        dcc_scan clevel rest
          { m := { m1 with
                cdc := (Function.update m1.cdc m1.cdc_index cur_lit),
                cdc_index := m1.cdc_index + 1 },
            seen := Function.update st.seen index true,
            num_lits_at_clevel := st.num_lits_at_clevel }
    else dcc_scan clevel rest st

/-- The loop `while(1)` of `derive_conflict_clause` that moves
`next_on_stack` down to the next seen variable; `none` when the assertion
`next_on_stack>=my_m->assign` fails. -/
def dcc_walk (assign : Nat → Nat) (seen : Nat → Bool) : Nat → Option Nat
  | 0 => none
  | n + 1 => if seen (var (assign n)) = true then some n else dcc_walk assign seen n

/-- The `do ... while(num_lits_at_clevel>0)` loop of `derive_conflict_clause`.
The result is `none` when `conf` is `NULL` (the source prints and exits) or
the walk down the stack fails; every iteration lowers `next_on_stack`, so the
fuel `assign_top + 1` given by the caller is not what ends the loop. -/
def dcc_loop (clevel : Nat) :
    Nat → Option Nat → Nat → Nat → dcc_state → Option (dcc_state × Nat)
  | 0, _, _, _, _ => none
  | _ + 1, none, _, _, _ => none
  | f + 1, some conf, next_lit, next_on_stack, st =>
    let lits := (st.m.cl conf).lits
    let begin := if next_lit = 0 then 0 else 1
    let st1 := dcc_scan clevel (lits.drop begin) st
    match dcc_walk st1.m.assign st1.seen next_on_stack with
    | none => none
    | some n =>
      let next_lit1 := st1.m.assign n
      let next_var := var next_lit1
      let seen2 := Function.update st1.seen next_var false
      let num2 := st1.num_lits_at_clevel - 1
      let m2 : my_manager :=
        match st1.m.reason next_var with
        | some r => if (st1.m.cl r).index ≥ 0 then increment_clause_score st1.m r else st1.m
        | none => st1.m
      let st2 : dcc_state := { m := m2, seen := seen2, num_lits_at_clevel := num2 }
      if num2 > 0 then dcc_loop clevel f (st1.m.reason next_var) next_lit1 n st2
      else some (st2, next_lit1)

/-- The loop `for (i = 1; i<size; i++) minl |= 1 << (level & 31)` of
`derive_conflict_clause` for the positions `i, i+1, ..` (`n` of them). -/
def dcc_minl (s : my_manager) : Nat → Nat → Nat → Nat
  | 0, _, minl => minl
  | n + 1, i, minl => dcc_minl s n (i + 1) (minl ||| (1 <<< (s.level (var (s.cdc i)) % 32)))

/-- Local state of the minimisation loop of `derive_conflict_clause`. -/
structure dcc_min_state where
  m : my_manager
  seen : Nat → Bool
  j : Nat
  assertion_level : Nat

/-- The loop `for (i = j = start; i < size; i++)` of `derive_conflict_clause`
for the positions `i, i+1, ..` (`n` of them); `none` when `removable` gives
no result. -/
def dcc_min_loop (minl : Nat) : Nat → Nat → dcc_min_state → Option dcc_min_state
  | 0, _, st => some st
  | n + 1, i, st =>
    let cur := st.m.cdc i
    let cur_v := var cur
    let keep (seen : Nat → Bool) : dcc_min_state :=
      { m := { st.m with cdc := (Function.update st.m.cdc st.j (st.m.cdc i)) },
        seen := seen,
        j := st.j + 1,
        assertion_level :=
          if st.m.level cur_v > st.assertion_level then st.m.level cur_v
          else st.assertion_level }
    if st.m.reason cur_v = none then dcc_min_loop minl n (i + 1) (keep st.seen)
    else
      match removable st.m st.seen cur minl with
      | none => none
      | some (true, seen1) => dcc_min_loop minl n (i + 1) { st with seen := seen1 }
      | some (false, seen1) => dcc_min_loop minl n (i + 1) (keep seen1)

/-- The function `derive_conflict_clause(conf,clevel,alevel)`: the returned
size, the value stored through `alevel`, and the manager (whose `cdc` holds
the clause).  `seen` is allocated zeroed and freed inside the call. -/
def derive_conflict_clause (s : my_manager) (conf : Option Nat) (clevel : Nat) :
    Option (Nat × Nat × my_manager) :=
  let s1 : my_manager :=
    { s with assertion_level := 1, cdc := (Function.update s.cdc 0 0), cdc_index := 1 }
  if clevel ≤ 1 then
    some (0, 0, { s1 with cdc := (Function.update (Function.update s1.cdc 0 0) 1 0) })
  else
    match dcc_loop clevel (s1.assign_top + 1) conf 0 s1.assign_top
        { m := s1, seen := fun _ => false, num_lits_at_clevel := 0 } with
    | none => none
    | some (st, next_lit) =>
      let m3 : my_manager := { st.m with cdc := (Function.update st.m.cdc 0 (neg next_lit)) }
      let seen3 := Function.update st.seen (var next_lit) true
      let size := m3.cdc_index
      let minl := dcc_minl m3 (size - 1) 1 0
      match dcc_min_loop minl (size - 1) 1
          { m := m3, seen := seen3, j := 1, assertion_level := 1 } with
      | none => none
      | some r => some (r.j, r.assertion_level, r.m)

/-- Reduction of a mathematical integer to the value a 32-bit two's
complement `int` holds after the operation. -/
def wrap32 (x : Int) : Int := (x + 2147483648) % 4294967296 - 2147483648

/-- The function `analyze_conflict(conflicting_clause,clevel)`; the new clause
struct is allocated at the pointer `alloc_next`.  The fields `on_th`,
`off_th` and `next_sp_switch` are `int`s (`structures.h`), so the three
additions `on_th += on_th_inc`, `off_th += off_th_inc` and
`next_sp_switch += inc` are 32-bit additions; the counter `conflicts` is an
`int64`, and the comparison `conflicts>=next_sp_switch` is made on 64 bits,
the `int` being sign-extended. -/
def analyze_conflict (s : my_manager) (conflicting_clause : Option Nat) (clevel : Nat) :
    Option my_manager :=
  let s1 : my_manager :=
    if s.conflicts ≥ s.next_sp_switch then
      let sp := 1 - s.save_progress
      if sp ≠ 0 then
        { s with save_progress := sp, on_th := wrap32 (s.on_th + s.on_th_inc),
                 next_sp_switch := wrap32 (s.next_sp_switch + s.off_th) }
      else
        { s with save_progress := sp, off_th := wrap32 (s.off_th + s.off_th_inc),
                 next_sp_switch := wrap32 (s.next_sp_switch + s.on_th) }
    else s
  let s2 : my_manager := { s1 with conflict_level := clevel, conflicts := s1.conflicts + 1 }
  match derive_conflict_clause s2 conflicting_clause clevel with
  | none => none
  | some (size, assertion_level, s3) =>
    let s4 : my_manager := { s3 with assertion_level := assertion_level }
    if size > 0 then
      some { s4 with
        cl := (Function.update s4.cl s4.alloc_next
          { index := 1, lits := List.map s4.cdc (List.range size) }),
        conflict_clause := some s4.alloc_next,
        alloc_next := s4.alloc_next + 1 }
    else
      some { s4 with assertion_level := 0, conflict_clause := none }

/-! ## Learning (`kb_management.cpp`, `solver.cpp`) -/

/-- The loop `for(int i=0;i<size;i++)` of `add_conflict_clause` on the clause
at pointer `c`, for the positions `i, i+1, ..` (`n` of them). -/
def add_conflict_clause_loop (c : Nat) : Nat → Nat → my_manager → Bool → my_manager
  | 0, _, s, _ => s
  | n + 1, i, s, found =>
    let lits := (s.cl c).lits
    let l := lits.getD i 0
    let s1 := increment_literal_score s l
    if found = false ∧ s1.level (var l) = s1.assertion_level then
      add_conflict_clause_loop c n (i + 1)
        (set_lits s1 c ((lits.set 1 (lits.getD i 0)).set i (lits.getD 1 0))) true
    else add_conflict_clause_loop c n (i + 1) s1 found

/-- The function `declare_watched_literals(c)` for a clause of size at least
2 (the source prints and exits otherwise). -/
def declare_watched_literals (s : my_manager) (c : Nat) : my_manager :=
  let s1 := add_watched_clause s ((s.cl c).lits.getD 0 0) c
  add_watched_clause s1 ((s1.cl c).lits.getD 1 0) c

/-- The function `add_conflict_clause()` for the clause at pointer `cdc` held
in `conflict_clause`; `cur_cdc_count` is the length of the learned store, and
the counters kept for statistics only are left out. -/
def add_conflict_clause (s : my_manager) (cdc : Nat) : my_manager :=
  let s1 := add_conflict_clause_loop cdc (s.cl cdc).size 0 s false
  let s2 := declare_watched_literals s1 cdc
  let n := s2.learned_clauses.length
  let s3 : my_manager :=
    { s2 with
      learned_clauses := s2.learned_clauses ++ [cdc],
      learned_clause_scores := (Function.update s2.learned_clause_scores n 0),
      cl := (Function.update s2.cl cdc { s2.cl cdc with index := (n : Int) }) }
  increment_clause_score s3 cdc

/-- The function `assert_conflict_clause()`; `none` when `conflict_clause` is
`NULL` or `bcp` runs out of fuel.  `CLAUSE_SCORE_INC_FACTOR` is the decimal
expansion of `1/0.999`.  The shrinking of the `decision_lit` array is a
change of capacity only. -/
def assert_conflict_clause (fuel : Nat) (s : my_manager) : Option (Bool × my_manager) :=
  match s.conflict_clause with
  | none => none
  | some conflict_clause =>
    let size := (s.cl conflict_clause).size
    let s1 := if size > 1 then add_conflict_clause s conflict_clause else s
    let fuip := (s1.cl conflict_clause).lits.getD 0 0
    let s2 : my_manager :=
      { s1 with
        level := (Function.update s1.level (var fuip) s1.assertion_level),
        reason := (Function.update s1.reason (var fuip)
          (if size > 1 then some conflict_clause else none)) }
    let s3 : my_manager :=
      if size = 1 then
        { s2 with conflict_clause := none, simplify_orig_kb := 1, simplify_learned_kb := 1 }
      else s2
    let s4 : my_manager :=
      { s3 with
        score_inc := s3.score_inc * s3.score_inc_factor,
        clause_score_inc := (s3.clause_score_inc * (1000 / 999)) }
    bcp fuel s4 fuip

/-- The loop `while(res!=1)` of `solve` that deals with a conflict, entered
with the value `res` of `set_decision`: the value of `result` on leaving it
(`-2` when no contradiction remains, `0` for UNSAT, after which `solve`
breaks out of its main loop and returns 0) and the manager.  `fuel` bounds
the number of conflicts handled, `bfuel` each run of `bcp`. -/
def solve_conflict_loop (bfuel : Nat) : Nat → my_manager → Bool → Option (Int × my_manager)
  | 0, _, _ => none
  | f + 1, s, res =>
    if res = true then some (-2, s)
    else
      match analyze_conflict s s.conflicting_clause s.decision_level with
      | none => none
      | some s1 =>
        if s1.assertion_level = 0 then some (0, s1)
        else
          match assert_conflict_clause bfuel (backtrack s1 (s1.assertion_level + 1)) with
          | none => none
          | some (res1, s3) => solve_conflict_loop bfuel f s3 res1

/-! ## Restart schedule (`solver.cpp`, `get_luby`) -/

/-- The value of `floor(log2(n))` for `n ≥ 1`, by repeated halving. -/
def floor_log2_aux : Nat → Nat → Nat
  | 0, _ => 0
  | f + 1, n => if n < 2 then 0 else floor_log2_aux f (n / 2) + 1

/-- The value of `floor(log2(n))` for `n ≥ 1`. -/
def floor_log2 (n : Nat) : Nat := floor_log2_aux n n

/-- The function `get_luby(i)` with `my_m->luby_unit` passed explicitly.
`double k = log2(i+1)` is an integer exactly when `i+1` is a power of two
(on the range of `int` the library `log2` and `pow(2,_)` are exact), in which
case `(int)pow(2,k-1)` is `2^(k-1)` (and `0` for `k = 0`, the cast of `0.5`);
otherwise `k` becomes `floor(k)`.  The product is an `int` multiplication. -/
def get_luby (luby_unit : Int) (i : Nat) : Int :=
  if i = 1 then luby_unit
  else
    if 2 ^ floor_log2 (i + 1) = i + 1 then
      wrap32 ((if floor_log2 (i + 1) = 0 then 0 else 2 ^ (floor_log2 (i + 1) - 1)) * luby_unit)
    else get_luby luby_unit (i - 2 ^ floor_log2 (i + 1) + 1)
termination_by i
decreasing_by
  rename_i h1 h2
  have hi : 2 ≤ i := by
    rcases Nat.lt_or_ge i 2 with h | h
    · exfalso
      have h0 : i = 0 := by omega
      subst h0
      exact h2 (by decide)
    · exact h
  have hk : 1 ≤ floor_log2 (i + 1) := by
    unfold floor_log2
    rw [floor_log2_aux, if_neg (by omega)]
    omega
  have hp : 2 ^ 1 ≤ 2 ^ floor_log2 (i + 1) := Nat.pow_le_pow_right (by norm_num) hk
  generalize 2 ^ floor_log2 (i + 1) = a at *
  omega

/-- The Luby sequence as the specification words it: `luby(1) = 1`; otherwise
with `k = floor(log2(i+1))`, `luby(i) = 2^(k-1)` if `i+1` is a power of two,
else `luby(i) = luby(i - 2^k + 1)`. -/
def luby_spec (i : Nat) : Nat :=
  if i = 1 then 1
  else
    if 2 ^ Nat.log 2 (i + 1) = i + 1 then 2 ^ (Nat.log 2 (i + 1) - 1)
    else luby_spec (i - 2 ^ Nat.log 2 (i + 1) + 1)
termination_by i
decreasing_by
  rename_i h1 h2
  have hi : 2 ≤ i := by
    rcases Nat.lt_or_ge i 2 with h | h
    · exfalso
      have h0 : i = 0 := by omega
      subst h0
      exact h2 (by simp)
    · exact h
  have hk : 1 ≤ Nat.log 2 (i + 1) := by
    rw [Nat.log_of_one_lt_of_le (by norm_num) (by omega)]
    omega
  have hp : 2 ^ 1 ≤ 2 ^ Nat.log 2 (i + 1) := Nat.pow_le_pow_right (by norm_num) hk
  generalize 2 ^ Nat.log 2 (i + 1) = a at *
  omega

/-! ## Variable selection (`solver.cpp`, `select_variable`) -/

/-- The loop `while(!empty(h))` of `select_variable` (`USE_RANDOM_ORDER` is
0): the variable returned (0 when the heap runs empty) and the manager.  Every
iteration removes one variable, so `size + 1` iterations of fuel are never
used up. -/
def select_variable_loop : Nat → my_manager → Option (Nat × my_manager)
  | 0, _ => none
  | f + 1, s =>
    if empty s.var_order_heap = true then some (0, s)
    else
      let r := get_min_element s.score s.var_order_heap
      let s1 : my_manager := { s with var_order_heap := r.2 }
      if s1.level r.1 = 0 then some (r.1, s1) else select_variable_loop f s1

/-- The function `select_variable()`. -/
def select_variable (s : my_manager) : Option (Nat × my_manager) :=
  select_variable_loop (s.var_order_heap.size + 1) s

/-! ## Management of the knowledge base (`kb_management.cpp`, `watched_list.cpp`) -/

/-- The function `remove_watched_clause(l,clause)`: the first occurrence of
`clause` leaves the list of `l`.  The result is `none` when the source exits
(a clause of size at most 1) or its search `for(i=0;clause!=clauses[i];i++)`
would run off the list. -/
def remove_watched_clause (s : my_manager) (l clause : Nat) : Option my_manager :=
  if (s.cl clause).size ≤ 1 then none
  else if clause ∈ s.watched (watched_index l) then
    some { s with
      watched := (Function.update s.watched (watched_index l)
        ((s.watched (watched_index l)).erase clause)) }
  else none

/-- The function `remove_clause(c)`; freeing the clause is a no-op on the
clause memory. -/
def remove_clause (s : my_manager) (c : Nat) : Option my_manager :=
  let l0 := (s.cl c).lits.getD 0 0
  let l1 := (s.cl c).lits.getD 1 0
  let s1 : my_manager :=
    if s.reason (var l0) = some c then
      { s with reason := (Function.update s.reason (var l0) none) }
    else if s.reason (var l1) = some c then
      { s with reason := (Function.update s.reason (var l1) none) }
    else s
  match remove_watched_clause s1 l0 c with
  | none => none
  | some s2 => remove_watched_clause s2 l1 c

/-- The function `satisfied(c)`: some literal of the clause is set. -/
def satisfied (s : my_manager) (c : Nat) : Bool :=
  (s.cl c).lits.any (fun l => lit_set s.status l)

/-- The loop of `simplify_kb` over the learned clauses from position `i` on,
`j` clauses kept so far (`kept`, in order). -/
def simplify_kb_loop : List Nat → Nat → Nat → my_manager → List Nat →
    Option (my_manager × List Nat)
  | [], _, _, s, kept => some (s, kept)
  | c :: rest, i, j, s, kept =>
    if satisfied s c = true then
      match remove_clause s c with
      | none => none
      | some s1 => simplify_kb_loop rest (i + 1) j s1 kept
    else
      simplify_kb_loop rest (i + 1) (j + 1)
        { s with
          cl := (Function.update s.cl c { s.cl c with index := (j : Int) }),
          learned_clause_scores :=
            (Function.update s.learned_clause_scores j (s.learned_clause_scores i)) }
        (kept ++ [c])

/-- The conversion `(int)x` of a `double` that is not negative. -/
def trunc_int (x : ℚ) : Int := Int.floor x

/-- The function `simplify_kb()`.  The ratio of removed clauses is a quotient
of two `int`s compared with `0.01`; the counters kept for statistics only are
left out. -/
def simplify_kb (s : my_manager) : Option my_manager :=
  if s.simplify_learned_kb = 0 then some s
  else if s.learned_clauses.length = 0 then some s
  else
    match simplify_kb_loop s.learned_clauses 0 0 s [] with
    | none => none
    | some (s1, kept) =>
      let size := s.learned_clauses.length
      let removed_ratio : ℚ := ((size : ℚ) - (kept.length : ℚ)) / (size : ℚ)
      some { s1 with
        learned_clauses := kept,
        num_conflicts_for_next_simplify := s1.conflicts + s1.next_simplify_increment,
        next_simplify_increment :=
          (if removed_ratio < 1 / 100
           then trunc_int ((s1.next_simplify_increment : ℚ) * (11 / 10))
           else trunc_int ((s1.next_simplify_increment : ℚ) * (9 / 10))),
        simplify_learned_kb := 0 }

/-- The loop of `simplify_original_kb` over the original clauses. -/
def simplify_original_kb_loop : List Nat → my_manager → List Nat →
    Option (my_manager × List Nat)
  | [], s, kept => some (s, kept)
  | c :: rest, s, kept =>
    if satisfied s c = true then
      match remove_clause s c with
      | none => none
      | some s1 => simplify_original_kb_loop rest s1 kept
    else simplify_original_kb_loop rest s (kept ++ [c])

/-- The function `simplify_original_kb()`. -/
def simplify_original_kb (s : my_manager) : Option my_manager :=
  if s.simplify_orig_kb = 0 then some s
  else
    match simplify_original_kb_loop s.original_clauses s [] with
    | none => none
    | some (s1, kept) => some { s1 with original_clauses := kept, simplify_orig_kb := 0 }

/-- The local state of one pass of `sort_clauses_by_scores`: the read
positions, the counters of the two blocks, the arrays being filled, and the
clause memory (for the `index` fields). -/
structure sort_state where
  lindex : Nat
  rindex : Nat
  l : Nat
  r : Nat
  target : Nat → Option Nat
  starget : Nat → ℚ
  cl : Nat → my_clause

/-- The body of the loop `for(int j=0;j<size;j++)` of
`sort_clauses_by_scores` for the position `j`. -/
def sort_step (block_size : Nat) (arr : Nat → Option Nat) (score : Nat → ℚ) (j : Nat)
    (st : sort_state) : sort_state :=
  let fresh : Bool := decide (st.l = block_size ∧ st.r = block_size)
  let lindex := if fresh = true then st.lindex + block_size else st.lindex
  let rindex := if fresh = true then st.rindex + block_size else st.rindex
  let l := if fresh = true then 0 else st.l
  let r := if fresh = true then 0 else st.r
  let left : Bool :=
    if fresh = true then decide (score lindex < score rindex)
    else if l = block_size then false
    else if r = block_size then true
    else decide (score lindex < score rindex)
  let from_index := if left = true then lindex else rindex
  let cl1 : Nat → my_clause :=
    match arr from_index with
    | some c => Function.update st.cl c { st.cl c with index := (j : Int) }
    | none => st.cl
  { lindex := (if left = true then lindex + 1 else lindex),
    rindex := (if left = true then rindex else rindex + 1),
    l := (if left = true then l + 1 else l),
    r := (if left = true then r else r + 1),
    target := Function.update st.target j (arr from_index),
    starget := Function.update st.starget j (score from_index),
    cl := cl1 }

/-- The loop `for(int j=0;j<size;j++)` of `sort_clauses_by_scores` for the
positions `j, j+1, ..` (`n` of them). -/
def sort_pass (block_size : Nat) (arr : Nat → Option Nat) (score : Nat → ℚ) :
    Nat → Nat → sort_state → sort_state
  | 0, _, st => st
  | n + 1, j, st => sort_pass block_size arr score n (j + 1) (sort_step block_size arr score j st)

/-- The loop `for(;;i++)` of `sort_clauses_by_scores` entered with
`block_size = 2^i`; the block size doubles in every pass, so `size` passes of
fuel are never used up.  The arrays `arr` and `target` (and the two score
arrays) change roles after every pass. -/
def sort_passes (size : Nat) :
    Nat → Nat → (Nat → Option Nat) → (Nat → ℚ) → (Nat → Option Nat) → (Nat → ℚ) →
    (Nat → my_clause) → (Nat → Option Nat) × (Nat → ℚ) × (Nat → my_clause)
  | 0, _, arr, score, _, _, cl => (arr, score, cl)
  | f + 1, block_size, arr, score, target, starget, cl =>
    if block_size > size / 2 then (arr, score, cl)
    else
      let st := sort_pass block_size arr score size 0
        { lindex := 0, rindex := block_size, l := 0, r := 0,
          target := target, starget := starget, cl := cl }
      sort_passes size f (2 * block_size) st.target st.starget arr score st.cl

/-- The function `sort_clauses_by_scores(&arr,&score,size)`: the arrays
handed back through the two pointers and the clause memory.  `target` and
`starget` are allocated zeroed. -/
def sort_clauses_by_scores (cl : Nat → my_clause) (arr : Nat → Option Nat)
    (score : Nat → ℚ) (size : Nat) : (Nat → Option Nat) × (Nat → ℚ) × (Nat → my_clause) :=
  sort_passes size size 1 arr score (fun _ => none) (fun _ => 0) cl

/-- The function `locked(c)`. -/
def locked (s : my_manager) (c : Nat) : Bool :=
  if (s.cl c).size ≤ 1 then true
  else decide (s.reason (var ((s.cl c).lits.getD 0 0)) = some c
    ∨ s.reason (var ((s.cl c).lits.getD 1 0)) = some c)

/-- The least power of two that is at least `n`, reached from `p` by
doubling. -/
def next_pow2_aux : Nat → Nat → Nat → Nat
  | 0, p, _ => p
  | f + 1, p, n => if n ≤ p then p else next_pow2_aux f (2 * p) n

/-- The value `(int)pow(2,ceil(log2(n)))` computed by `reduce_kb` for
`n ≥ 1`: the least power of two that is at least `n`. -/
def next_pow2 (n : Nat) : Nat := next_pow2_aux n 1 n

/-- The two removal loops of `reduce_kb` over the sorted learned clauses from
position `i` on (`n` clauses in all), `j` clauses kept so far: a clause of
the first half goes when it is not locked and not binary, a clause of the
second half when in addition its score is below `extra_lim`. -/
def reduce_kb_loop (n : Nat) (extra_lim : ℚ) : List Nat → Nat → Nat → my_manager →
    List Nat → Option (my_manager × List Nat)
  | [], _, _, s, kept => some (s, kept)
  | c :: rest, i, j, s, kept =>
    if locked s c = false ∧ (i < n / 2 ∨ s.learned_clause_scores i < extra_lim)
        ∧ ¬ (s.cl c).size ≤ 2 then
      match remove_clause s c with
      | none => none
      | some s1 => reduce_kb_loop n extra_lim rest (i + 1) j s1 kept
    else
      reduce_kb_loop n extra_lim rest (i + 1) (j + 1)
        { s with
          cl := (Function.update s.cl c { s.cl c with index := (j : Int) }),
          learned_clause_scores :=
            (Function.update s.learned_clause_scores j (s.learned_clause_scores i)) }
        (kept ++ [c])

/-- The function `reduce_kb()`.  The result is `none` when a `NULL` entry of
the sorted array would be dereferenced or `remove_clause` fails.
`MAX_LEARNED_CLAUSES_MULTIPLIER` is 1.5. -/
def reduce_kb (s : my_manager) : Option my_manager :=
  let n := s.learned_clauses.length
  if n = 0 then some s
  else
    let extra_lim : ℚ := s.clause_score_inc / (n : ℚ)
    let new_size := next_pow2 n
    let arr : Nat → Option Nat := fun i => if i < n then s.learned_clauses.get? i else none
    let score_arr : Nat → ℚ := fun i => if i < n then s.learned_clause_scores i else -100
    let r := sort_clauses_by_scores s.cl arr score_arr new_size
    let sorted : List (Option Nat) :=
      (List.range n).map (fun kk => r.1 (new_size - n + kk))
    let s1 : my_manager :=
      { s with
        cl := r.2.2,
        learned_clause_scores :=
          (fun kk => if kk < n then r.2.1 (new_size - n + kk) else s.learned_clause_scores kk) }
    if sorted.all Option.isSome = true then
      match reduce_kb_loop n extra_lim (sorted.filterMap id) 0 0 s1 [] with
      | none => none
      | some (s2, kept) =>
        some { s2 with
          learned_clauses := kept,
          max_learned_clauses := s2.max_learned_clauses * (3 / 2) }
    else none

/-! ## Reading the input (`parse_input.cpp`, `manager.cpp`)

The input is taken after tokenisation: the two numbers of the line
`p cnf vc cc` and, for every clause line, the integers `parse_int` returns
before the closing 0. -/

/-- The macro `lit_from_int(in)`. -/
def lit_from_int (x : Int) : Nat :=
  if x < 0 then (((-x).toNat) <<< 1) ||| 1 else (x.toNat) <<< 1

/-- The macro `var_ind(x)`. -/
def var_ind (x : Int) : Int := if x < 0 then -x else x

/-- The function `init_manager()` with `m->vc` already set; the clause memory
is empty and the first pointer handed out is 1.  `score_inc_factor` is
`1/SCORE_INC_PARAM = 1/0.95`. -/
def init_manager (vc : Nat) : my_manager :=
  { vc := vc,
    cl := fun _ => ⟨0, []⟩,
    alloc_next := 1,
    original_clauses := [],
    learned_clauses := [],
    level := fun _ => 0,
    assign := fun _ => 0,
    assign_top := 0,
    decision_lit := fun _ => 0,
    status := fun _ => 0,
    reason := fun _ => none,
    score := fun _ => 0,
    watched := fun _ => [],
    decision_level := 1,
    max_decision_level := 0,
    stack_offset := 0,
    conflicting_clause := none,
    conflict_clause := none,
    assertion_level := 0,
    conflict_level := 0,
    imp := { order := fun _ => 0, indices := fun _ => 0, size := 0 },
    var_order_heap := { order := fun _ => 0, indices := fun _ => 0, size := 0 },
    save_progress := 0,
    saved := fun _ => 0,
    cdc := fun _ => 0,
    cdc_index := 0,
    decisions := 0,
    conflicts := 0,
    on_th := 100,
    on_th_inc := 0,
    off_th := 400,
    off_th_inc := 0,
    next_sp_switch := 100,
    score_inc := 1,
    score_inc_factor := 20 / 19,
    clause_score_inc := 1,
    learned_clause_scores := fun _ => 0,
    simplify_orig_kb := 0,
    simplify_learned_kb := 0,
    ok := 1,
    restart := 0,
    next_restart_conflict := 512,
    luby_unit := 512,
    max_learned_clauses := 0,
    num_conflicts_for_next_simplify := 0,
    next_simplify_increment := 0 }

/-- The function `enqueue(l)`. -/
def enqueue (s : my_manager) (l : Nat) : my_manager :=
  { s with
    status := (Function.update s.status (var l) l),
    level := (Function.update s.level (var l) 1),
    reason := (Function.update s.reason (var l) none),
    imp := (undo s.score s.imp (var l)),
    assign := (Function.update s.assign s.stack_offset.toNat l),
    stack_offset := s.stack_offset + 1 }

/-- The loop `while(1)` of `read_cnf` over the integers of one clause line:
the literals kept (in `literals[0..j)`) and whether the clause was found
satisfied.  A literal of a set variable is dropped when false and ends the
loop when true.  The result is `none` when a variable lies outside `1..vc`
(the `status` array would be read out of bounds). -/
def read_literals (vc : Nat) (status : Nat → Nat) :
    List Int → List Int → Option (List Int × Bool)
  | [], kept => some (kept, false)
  | x :: rest, kept =>
    let var_index := (var_ind x).toNat
    if var_index = 0 ∨ vc < var_index then none
    else
      let st := status var_index
      if st = 0 then read_literals vc status rest (kept ++ [x])
      else if (x < 0 ∧ st ≠ plit var_index) ∨ (¬ x < 0 ∧ st = plit var_index) then
        some (kept, true)
      else read_literals vc status rest kept

/-- The inner loop `for(int j=i+1;j<size;j++)` of `sort_literals`: the
position of the first entry with the least variable. -/
def sort_find_best (arr : List Int) : Nat → Nat → Int → Nat → Nat
  | 0, _, _, best_index => best_index
  | n + 1, j, best, best_index =>
    if var_ind (arr.getD j 0) < best then
      sort_find_best arr n (j + 1) (var_ind (arr.getD j 0)) j
    else sort_find_best arr n (j + 1) best best_index

/-- The outer loop `for(int i=0;i<size-1;i++)` of `sort_literals`. -/
def sort_literals_loop : Nat → Nat → List Int → List Int
  | 0, _, arr => arr
  | n + 1, i, arr =>
    let best_index := sort_find_best arr (arr.length - (i + 1)) (i + 1) (var_ind (arr.getD i 0)) i
    sort_literals_loop n (i + 1)
      ((arr.set i (arr.getD best_index 0)).set best_index (arr.getD i 0))

/-- The function `sort_literals(arr,size)` on the first `size` entries of the
buffer, given as a list. -/
def sort_literals (arr : List Int) : List Int :=
  sort_literals_loop (arr.length - 1) 0 arr

/-- The loop `for(int x=0; x<k; x++)` of `read_cnf` for the positions
`x, x+1, ..` (`n` of them): 1 for a duplicate of `literals[k]`, 2 for its
negation, 0 for neither. -/
def dedupe_scan (lits : List Int) (k : Nat) : Nat → Nat → Nat
  | 0, _ => 0
  | n + 1, x =>
    if lits.getD x 0 = lits.getD k 0 then 1
    else if (lits.getD x 0).natAbs = (lits.getD k 0).natAbs then 2
    else dedupe_scan lits k n (x + 1)

/-- The loop `while(k<=j)` of `read_cnf` on the buffer (the literals kept and
the closing 0) for the positions `k, k+1, ..` (`n` of them): the buffer and
the count `n` of entries retained, or `none` when a literal and its negation
are met (`goto add_clause`). -/
def dedupe_loop : Nat → Nat → Nat → List Int → Option (List Int × Nat)
  | 0, _, n, lits => some (lits, n)
  | f + 1, k, n, lits =>
    match dedupe_scan lits k k 0 with
    | 0 => dedupe_loop f (k + 1) (n + 1) (lits.set n (lits.getD k 0))
    | 1 => dedupe_loop f (k + 1) n lits
    | _ => none

/-- The function `init_clause(literals,index,size)`: a new clause struct with
the index `-(index+1)` is appended to the original store. -/
def init_clause (s : my_manager) (literals : List Int) (index : Nat) : my_manager :=
  { s with
    cl := (Function.update s.cl s.alloc_next
      { index := -((index : Int) + 1), lits := literals.map lit_from_int }),
    original_clauses := s.original_clauses ++ [s.alloc_next],
    alloc_next := s.alloc_next + 1 }

/-- What `read_cnf` does with one clause line, `cur_clause_index` being the
length of the original store.  The result is `none` when a variable is out
of range, the literal buffer (`MAX_CLAUSE_LEN = 1025` entries) overflows or
the source exits on its length test, or the array of `cc` original clauses is
full. -/
def read_clause (cc : Nat) (s : my_manager) (line : List Int) : Option my_manager :=
  match read_literals s.vc s.status line [] with
  | none => none
  | some (kept, skip) =>
    if 1024 < kept.length ∨ (kept.length = 1024 ∧ skip = true) then none
    else if skip = true then some s
    else
      match dedupe_loop (kept.length + 1) 0 0 (sort_literals kept ++ [0]) with
      | none => some s
      | some (lits, n) =>
        if n = 2 then
          let l := lit_from_int (lits.getD 0 0)
          if s.status (var l) = 0 then
            some (enqueue
              { s with level := (Function.update s.level (var l) 1),
                       reason := (Function.update s.reason (var l) none) } l)
          else some s
        else
          let s1 : my_manager := if n = 1 then { s with ok := 0 } else s
          if s1.original_clauses.length < cc then
            some (init_clause s1 (lits.take (n - 1)) s1.original_clauses.length)
          else none

/-- The clause lines of `read_cnf`, in order. -/
def read_clauses (cc : Nat) : List (List Int) → my_manager → Option my_manager
  | [], s => some s
  | line :: rest, s =>
    match read_clause cc s line with
    | none => none
    | some s1 => read_clauses cc rest s1

/-- The function `read_cnf` on the tokenised input. -/
def read_cnf (vc cc : Nat) (lines : List (List Int)) : Option my_manager :=
  read_clauses cc lines (init_manager vc)

/-- The function `init_watched_literals()`: every original clause is declared
on the lists of its first two literals; `none` when `declare_watched_literals`
exits on a clause of size below 2. -/
def init_watched_literals : List Nat → my_manager → Option my_manager
  | [], s => some s
  | c :: rest, s =>
    if (s.cl c).size < 2 then none
    else init_watched_literals rest (declare_watched_literals s c)

/-- The loop `for(int i=1; i<=n; i++) insert(my_m->var_order_heap,i)` of
`finish_up_init_manager` for the variables `i, i+1, ..` (`n` of them). -/
def insert_all : Nat → Nat → my_manager → my_manager
  | 0, _, s => s
  | n + 1, i, s =>
    insert_all n (i + 1) { s with var_order_heap := (insert s.score s.var_order_heap i) }

/-- The function `process_unit_literal_queue()`. -/
def process_unit_literal_queue (fuel : Nat) (s : my_manager) : Option (Bool × my_manager) :=
  let r := dequeue s.score s.imp
  if r.1 ≠ 0 then
    let s1 : my_manager :=
      { s with imp := r.2, simplify_orig_kb := 1, simplify_learned_kb := 1,
               stack_offset := s.stack_offset - 1 }
    match bcp fuel s1 (s1.status r.1) with
    | none => none
    | some (res, s2) => some (res, { s2 with stack_offset := 0 })
  else some (true, { s with imp := r.2 })

/-- The function `finish_up_init_manager()`; `max_learned_clauses` is the
quotient `cur_cc/3` of two integers. -/
def finish_up_init_manager (fuel : Nat) (s : my_manager) : Option (Bool × my_manager) :=
  match init_watched_literals s.original_clauses s with
  | none => none
  | some s1 =>
    match process_unit_literal_queue fuel (insert_all s1.vc 1 s1) with
    | none => none
    | some (res, s3) =>
      if res = false then some (false, s3)
      else
        match simplify_original_kb s3 with
        | none => none
        | some s4 =>
          some (true, { s4 with
            max_learned_clauses := (((s4.original_clauses.length / 3 : Nat) : ℚ)) })

/-! ## The main loop (`solver.cpp`, `solve`) -/

/-- The restart block of `solve`. -/
def solve_restart (s : my_manager) : Option my_manager :=
  if s.conflicts ≥ s.next_restart_conflict then
    let s1 := backtrack s 2
    let restart := s1.restart + 1
    simplify_original_kb
      { s1 with
        restart := restart,
        next_restart_conflict := s1.conflicts + get_luby s1.luby_unit ((restart + 1).toNat) }
  else some s

/-- The part of an iteration of `solve` before the decision: restart,
simplification of the learned clauses, deletion of learned clauses. -/
def solve_manage (s : my_manager) : Option my_manager :=
  match solve_restart s with
  | none => none
  | some s1 =>
    match (if s1.simplify_learned_kb ≠ 0 ∧ s1.decision_level = 1
              ∧ s1.conflicts ≥ s1.num_conflicts_for_next_simplify
           then simplify_kb s1 else some s1) with
    | none => none
    | some s2 =>
      if ((s2.learned_clauses.length : ℚ)) ≥ s2.max_learned_clauses + (s2.assign_top : ℚ)
      then reduce_kb s2 else some s2

/-- The loop `while(1)` of `solve`.  `time_up` stands for the test
`elapsed > time_out` (with `time_out > 0`) on the clock, as met in each
iteration; `fuel` bounds the number of decisions, `cfuel` the conflicts after
one decision and `bfuel` each run of `bcp`.  On the result 1 the manager
returned is the one in which `select_variable` returned 0, before
`backtrack(2)`. -/
def solve_loop (bfuel cfuel : Nat) (time_up : Nat → Bool) :
    Nat → my_manager → Option (Int × my_manager)
  | 0, _ => none
  | f + 1, s =>
    if s.decisions % 2000 = 0 ∧ time_up f = true then some (-1, backtrack s 2)
    else
      match solve_manage s with
      | none => none
      | some s3 =>
        match select_variable s3 with
        | none => none
        | some (dec_var, s4) =>
          if dec_var = 0 then some (1, s4)
          else
            let literal :=
              if s4.saved dec_var = 0 ∨ s4.save_progress = 0 then nlit dec_var
              else s4.saved dec_var
            match set_decision bfuel s4 literal with
            | none => none
            | some (res, s5) =>
              match solve_conflict_loop bfuel cfuel s5 res with
              | none => none
              | some (result, s6) =>
                if result = 0 then some (0, s6)
                else solve_loop bfuel cfuel time_up f s6

/-- The function `solve()`: the value returned and the manager left. -/
def solve (bfuel cfuel : Nat) (time_up : Nat → Bool) (fuel : Nat) (s : my_manager) :
    Option (Int × my_manager) :=
  match solve_loop bfuel cfuel time_up fuel s with
  | none => none
  | some (result, s1) => if result = 1 then some (1, backtrack s1 2) else some (result, s1)

/-! ## The driver (`main.cpp`, `main`) -/

/-- The value `result` of `main` on the tokenised input: 0 (UNSAT) when `ok`
is 0 after `read_cnf` or `finish_up_init_manager` returns 0; else the value
of `solve()`, which is called when `my_m->cc >= 1` (the number of clauses
that `read_cnf` has stored); else 1.  The call `backtrack(1)` after `solve`
and the printing do not change the value. -/
def main_result (bfuel cfuel : Nat) (time_up : Nat → Bool) (fuel vc cc : Nat)
    (lines : List (List Int)) : Option Int :=
  match read_cnf vc cc lines with
  | none => none
  | some s0 =>
    if s0.ok = 0 then some 0
    else
      match finish_up_init_manager bfuel s0 with
      | none => none
      | some (res, s1) =>
        if res = false then some 0
        else if s0.original_clauses.length ≥ 1 then
          match solve bfuel cfuel time_up fuel { s1 with ok := 1 } with
          | none => none
          | some (result, _) => some result
        else some 1

/-! ## Growable arrays (`utils.cpp`, `manager.cpp`)

An array is given by its entries and its capacity; the entries below the
capacity are the ones allocated.  An entry of `decision_lit` is a pointer into
`assign`, kept as the position it points to. -/

/-- The function `double_array_len(old_arr,cap,unit_size)`: the array
returned (`calloc` zeroes the `2*cap` entries and `memcpy` copies the first
`cap` of `old_arr`) and the capacity stored through `cap`.  The product is
taken for capacities below `2^30`, where an `int` holds it. -/
def double_array_len (old_arr : Nat → Nat) (cap : Nat) : (Nat → Nat) × Nat :=
  (fun i => if i < cap then old_arr i else 0, 2 * cap)

/-- The function `double_decision_lit_len()` on the array `decision_lit` and
its capacity `decision_lit_size`: the call of `double_array_len`, after which
the function does not return (as `double_stack_len`, `double_save_len` and
`double_cdc_len` do) but reads the capacity again and doubles the array by
hand. -/
def double_decision_lit_len (decision_lit : Nat → Nat) (decision_lit_size : Nat) :
    (Nat → Nat) × Nat :=
  let r := double_array_len decision_lit decision_lit_size
  let old_len := r.2
  let new_len := old_len * 2
  (fun i => if i < old_len then r.1 i else 0, new_len)

/-- The function `half_decision_lit_len()`. -/
def half_decision_lit_len (decision_lit : Nat → Nat) (decision_lit_size : Nat) :
    (Nat → Nat) × Nat :=
  if decision_lit_size = 1 then (decision_lit, decision_lit_size)
  else (fun i => if i < decision_lit_size / 2 then decision_lit i else 0, decision_lit_size / 2)

/-- The value `init_decision_lit_size` of `init_manager`, the capacity with
which `decision_lit` is allocated; `VC_THRESHOLD` is 100000. -/
def init_decision_lit_size (vc : Nat) : Nat := if vc > 100000 then vc / 10 else vc

/-- The index of the one access to `decision_lit` in `init_manager`, the
write `m->decision_lit[1] = m->assign`. -/
def init_manager_decision_lit_index : Nat := 1

/-- The accesses to `decision_lit` in `set_decision` entered at the decision
level `decision_level` with the capacity `decision_lit_size`: the capacity
after the test `if(level>=my_m->decision_lit_size)` and the index `level`
written. -/
def set_decision_decision_lit_access (decision_level decision_lit_size : Nat) : Nat × Nat :=
  let level := decision_level + 1
  let size :=
    if level ≥ decision_lit_size then (double_decision_lit_len (fun _ => 0) decision_lit_size).2
    else decision_lit_size
  (size, level)

/-! ## Invariants of the clause store and the watched index -/

/-- The pointers of the clauses in the original and the learned store. -/
def clause_ptrs (s : my_manager) : List Nat := s.original_clauses ++ s.learned_clauses

/-- A literal of one of the variables `1..vc`. -/
def lit_ok (vc l : Nat) : Prop := 2 ≤ l ∧ l ≤ 2 * vc + 1

instance (vc l : Nat) : Decidable (lit_ok vc l) := by
  unfold lit_ok
  infer_instance

/-- The literal `l` is one of the two watched literals (positions 0 and 1)
of the clause. -/
def watches (c : my_clause) (l : Nat) : Prop := c.lits.getD 0 0 = l ∨ c.lits.getD 1 0 = l

instance (c : my_clause) (l : Nat) : Decidable (watches c l) := by
  unfold watches
  infer_instance

/-- Every stored clause has at least two literals, pairwise distinct, over
the variables `1..vc`. -/
def clauses_ok (vc : Nat) (ptrs : List Nat) (cl : Nat → my_clause) : Prop :=
  ∀ c ∈ ptrs, 2 ≤ (cl c).lits.length ∧ (cl c).lits.Nodup ∧ ∀ x ∈ (cl c).lits, lit_ok vc x

/-- Every watched list is duplicate-free and holds only stored clauses that
watch the literal of the list. -/
def watch_sound (vc : Nat) (ptrs : List Nat) (cl : Nat → my_clause)
    (watched : Nat → List Nat) : Prop :=
  ∀ l, 2 ≤ l → l ≤ 2 * vc + 1 →
    (watched (watched_index l)).Nodup ∧
    ∀ c ∈ watched (watched_index l), c ∈ ptrs ∧ watches (cl c) l

/-- Every stored clause is on the watched lists of its literals at positions
0 and 1. -/
def watch_complete (ptrs : List Nat) (cl : Nat → my_clause)
    (watched : Nat → List Nat) : Prop :=
  ∀ c ∈ ptrs, c ∈ watched (watched_index ((cl c).lits.getD 0 0))
    ∧ c ∈ watched (watched_index ((cl c).lits.getD 1 0))

/-- The two-watched-literal invariant on the clause memory `cl` and the
watched index `watched`. -/
def kb_inv (vc : Nat) (ptrs : List Nat) (cl : Nat → my_clause)
    (watched : Nat → List Nat) : Prop :=
  clauses_ok vc ptrs cl ∧ watch_sound vc ptrs cl watched ∧ watch_complete ptrs cl watched

/-- The two-watched-literal invariant of a manager. -/
def watched_inv (s : my_manager) : Prop :=
  kb_inv s.vc (clause_ptrs s) s.cl s.watched

instance (s : my_manager) : Decidable (watched_inv s) := by
  unfold watched_inv kb_inv clauses_ok watch_sound watch_complete
  infer_instance

/-- The status of a variable of `0..vc` is 0 or one of its two literals. -/
def status_ok (vc : Nat) (status : Nat → Nat) : Prop :=
  ∀ v, v ≤ vc → status v ≠ 0 → var (status v) = v

instance (vc : Nat) (status : Nat → Nat) : Decidable (status_ok vc status) := by
  unfold status_ok
  infer_instance

/-- The variable `v` is at one of the positions `1..size` of the heap. -/
def heap_mem (h : heap) (v : Nat) : Prop := ∃ i, i < h.size + 1 ∧ 1 ≤ i ∧ h.order i = v

instance (h : heap) (v : Nat) : Decidable (heap_mem h v) := by
  unfold heap_mem
  infer_instance

/-- The implication queue holds assigned variables of `1..vc` only, and a
variable of `0..vc` with a non-zero position is in it. -/
def queue_ok (vc : Nat) (status : Nat → Nat) (q : heap) : Prop :=
  (∀ i, 1 ≤ i → i ≤ q.size → 1 ≤ q.order i ∧ q.order i ≤ vc ∧ status (q.order i) ≠ 0)
  ∧ (∀ v, v ≤ vc → q.indices v ≠ 0 → heap_mem q v)

instance (vc : Nat) (status : Nat → Nat) (q : heap) : Decidable (queue_ok vc status q) := by
  unfold queue_ok
  infer_instance

/-- A watched literal that is false, and whose variable is not waiting in
the implication queue, has the other watched literal of its clause true. -/
def twl (ptrs : List Nat) (cl : Nat → my_clause) (status : Nat → Nat) (q : heap) : Prop :=
  ∀ c ∈ ptrs,
    (status (var ((cl c).lits.getD 0 0)) = neg ((cl c).lits.getD 0 0) →
      heap_mem q (var ((cl c).lits.getD 0 0))
      ∨ status (var ((cl c).lits.getD 1 0)) = (cl c).lits.getD 1 0)
    ∧ (status (var ((cl c).lits.getD 1 0)) = neg ((cl c).lits.getD 1 0) →
      heap_mem q (var ((cl c).lits.getD 1 0))
      ∨ status (var ((cl c).lits.getD 0 0)) = (cl c).lits.getD 0 0)

instance (ptrs : List Nat) (cl : Nat → my_clause) (status : Nat → Nat) (q : heap) :
    Decidable (twl ptrs cl status q) := by
  unfold twl
  infer_instance

/-- The invariant `twl` while the watched list of `neg_lit` is walked: the
clauses still to be read (`rest`) may have the false watch `neg_lit` without
the other watch being true. -/
def twl_ex (ptrs : List Nat) (cl : Nat → my_clause) (status : Nat → Nat) (q : heap)
    (neg_lit : Nat) (rest : List Nat) : Prop :=
  ∀ c ∈ ptrs,
    (status (var ((cl c).lits.getD 0 0)) = neg ((cl c).lits.getD 0 0) →
      heap_mem q (var ((cl c).lits.getD 0 0))
      ∨ status (var ((cl c).lits.getD 1 0)) = (cl c).lits.getD 1 0
      ∨ ((cl c).lits.getD 0 0 = neg_lit ∧ c ∈ rest))
    ∧ (status (var ((cl c).lits.getD 1 0)) = neg ((cl c).lits.getD 1 0) →
      heap_mem q (var ((cl c).lits.getD 1 0))
      ∨ status (var ((cl c).lits.getD 0 0)) = (cl c).lits.getD 0 0
      ∨ ((cl c).lits.getD 1 0 = neg_lit ∧ c ∈ rest))

/-- What `bcp` needs of the manager: the two-watched-literal invariant, a
well-formed status array and a well-formed implication queue. -/
def bcp_inv (s : my_manager) : Prop :=
  watched_inv s ∧ status_ok s.vc s.status ∧ queue_ok s.vc s.status s.imp

instance (s : my_manager) : Decidable (bcp_inv s) := by
  unfold bcp_inv
  infer_instance

/-- The number of unassigned variables among `1..vc`. -/
def unassigned_count (vc : Nat) (status : Nat → Nat) : Nat :=
  ((Finset.Icc 1 vc).filter (fun v => status v = 0)).card

/-! ## What `bcp` changes of the assignment -/

/-- The managers `s` and `s1` hold the same assignment: status, level and
reason of every variable, the stack entries, the decision level and the
level markers. -/
def same_assignment (s s1 : my_manager) : Prop :=
  s1.status = s.status ∧ s1.level = s.level ∧ s1.reason = s.reason ∧ s1.assign = s.assign
  ∧ s1.decision_level = s.decision_level ∧ s1.decision_lit = s.decision_lit

/-- How the manager `s` with the local `last`, met inside `bcp`, relates to
the manager `s0` on which `bcp` was called with `assign_top = top0`: a
variable has its status, level and reason of `s0`, or it was unassigned in
`s0` and has an entry between `top0` and `last`; every entry between `top0`
and `last` is of a variable unassigned in `s0`; the decision level and the
level markers are those of `s0`. -/
def bcp_trace (s0 : my_manager) (top0 : Nat) (s : my_manager) (last : Nat) : Prop :=
  (∀ v, (s.status v = s0.status v ∧ s.level v = s0.level v ∧ s.reason v = s0.reason v)
      ∨ (s0.status v = 0 ∧ ∃ p, top0 ≤ p ∧ p < last ∧ var (s.assign p) = v))
  ∧ (∀ p, top0 ≤ p → p < last → s0.status (var (s.assign p)) = 0)
  ∧ s.decision_level = s0.decision_level ∧ s.decision_lit = s0.decision_lit
  ∧ top0 < last

/-! ## Invariants of the assignment stack -/

/-- The stack is partitioned by `decision_lit`: for every level `L` in use
the entries from `decision_lit[L]` on are exactly those assigned at level
`L` or above. -/
def trail_levels (s : my_manager) : Prop :=
  ∀ L, 1 ≤ L → L ≤ s.decision_level →
    s.decision_lit L ≤ s.assign_top ∧
    ∀ p, p < s.assign_top → (s.decision_lit L ≤ p ↔ L ≤ s.level (var (s.assign p)))

instance (s : my_manager) : Decidable (trail_levels s) := by
  unfold trail_levels
  infer_instance

/-- Every variable of `1..vc` with a level has an entry on the stack. -/
def assigned_on_trail (s : my_manager) : Prop :=
  ∀ v, 1 ≤ v → v ≤ s.vc → s.level v ≠ 0 → ∃ p, p < s.assign_top ∧ var (s.assign p) = v

instance (s : my_manager) : Decidable (assigned_on_trail s) := by
  unfold assigned_on_trail
  infer_instance

/-! ## What conflict analysis needs of the state -/

/-- The variable `v` has an entry on the stack below the position `n`. -/
def on_trail (s : my_manager) (v n : Nat) : Prop :=
  ∃ p, p < n ∧ var (s.assign p) = v

instance (s : my_manager) (v n : Nat) : Decidable (on_trail s v n) := by
  unfold on_trail
  infer_instance

/-- What is asked of the reason of the stack entry `p`: a decision of the
level `clevel` (no reason) is the first entry of its level; the literals of a
reason from position 1 on are false and were pushed before the entry. -/
def reason_ok (s : my_manager) (clevel p : Nat) : Option Nat → Prop
  | none => s.level (var (s.assign p)) = clevel →
      ∀ q, q < p → s.level (var (s.assign q)) ≠ clevel
  | some r => ∀ x ∈ (s.cl r).lits.drop 1, s.status (var x) = neg x ∧ on_trail s (var x) p

instance (s : my_manager) (clevel p : Nat) (o : Option Nat) :
    Decidable (reason_ok s clevel p o) := by
  cases o
  · unfold reason_ok
    infer_instance
  · unfold reason_ok
    infer_instance

/-- The state in which a conflict at the level `clevel` is analysed: every
stack entry is a literal of `1..vc` at a level up to `clevel`, the entries are
of distinct variables and in the order of their levels, and every reason is
as `reason_ok` asks. -/
def analysis_inv (s : my_manager) (clevel : Nat) : Prop :=
  ∀ p, p < s.assign_top →
    lit_ok s.vc (s.assign p) ∧ s.level (var (s.assign p)) ≤ clevel
    ∧ (∀ q, q < p → var (s.assign q) ≠ var (s.assign p)
        ∧ s.level (var (s.assign q)) ≤ s.level (var (s.assign p)))
    ∧ reason_ok s clevel p (s.reason (var (s.assign p)))

instance (s : my_manager) (clevel : Nat) : Decidable (analysis_inv s clevel) := by
  unfold analysis_inv
  infer_instance

/-- The clause at the pointer `c` is falsified by variables of the stack, one
of them assigned at the level `clevel`. -/
def falsified_at (s : my_manager) (c clevel : Nat) : Prop :=
  (∀ x ∈ (s.cl c).lits, s.status (var x) = neg x ∧ on_trail s (var x) s.assign_top)
  ∧ ∃ x ∈ (s.cl c).lits, s.level (var x) = clevel

instance (s : my_manager) (c clevel : Nat) : Decidable (falsified_at s c clevel) := by
  unfold falsified_at
  infer_instance

/-- The manager `m` holds the assignment, the stack and the clauses of `s`. -/
def dcc_frame (s m : my_manager) : Prop :=
  m.level = s.level ∧ m.status = s.status ∧ m.reason = s.reason ∧ m.assign = s.assign
  ∧ m.cl = s.cl ∧ m.vc = s.vc ∧ m.assign_top = s.assign_top

/-- The number of stack entries below `n` that are marked in `seen` and
assigned at the level `clevel`. -/
def seen_count (s : my_manager) (clevel : Nat) (seen : Nat → Bool) (n : Nat) : Nat :=
  ((Finset.range n).filter
    (fun p => seen (var (s.assign p)) = true ∧ s.level (var (s.assign p)) = clevel)).card

/-- The number of variables among `1..vc` not marked in `seen`. -/
def unseen_count (vc : Nat) (seen : Nat → Bool) : Nat :=
  ((Finset.Icc 1 vc).filter (fun v => seen v = false)).card

/-- A literal of the learned clause other than the asserting one: false, at a
level above 1 and below `clevel`, of a variable on the stack. -/
def cdc_lit_ok (s : my_manager) (clevel x : Nat) : Prop :=
  s.status (var x) = neg x ∧ 1 < s.level (var x) ∧ s.level (var x) < clevel
  ∧ on_trail s (var x) s.assign_top

/-- The invariant of the resolution loop of `derive_conflict_clause` with the
stack pointer at `n`: the counter is the number of marked entries of the level
`clevel` below `n`, and `cdc[1..cdc_index)` holds literals as `cdc_lit_ok`
asks. -/
def dcc_inv (s : my_manager) (clevel n : Nat) (st : dcc_state) : Prop :=
  dcc_frame s st.m
  ∧ st.num_lits_at_clevel = (seen_count s clevel st.seen n : Int)
  ∧ 1 ≤ st.m.cdc_index
  ∧ ∀ i, 1 ≤ i → i < st.m.cdc_index → cdc_lit_ok s clevel (st.m.cdc i)

/-! ## The invariant of the search -/

/-- The manager reached by one clause step of `bcp`. -/
def clause_outcome.state : clause_outcome → my_manager
  | clause_outcome.kept s _ => s
  | clause_outcome.moved s => s
  | clause_outcome.conflict s => s

/-- The local `last` after one clause step of `bcp` entered with `last`. -/
def clause_outcome.top (last : Nat) : clause_outcome → Nat
  | clause_outcome.kept _ l => l
  | clause_outcome.moved _ => last
  | clause_outcome.conflict _ => last

/-- What is asked of the reason of the stack entry `p`: an entry without
reason at a level from 2 on is the first entry of its level (the decision); a
reason is a stored clause whose first literal is the entry and whose other
literals are false and were pushed before it. -/
def reason_shape (s : my_manager) (p : Nat) : Option Nat → Prop
  | none => 2 ≤ s.level (var (s.assign p)) →
      ∀ q, q < p → s.level (var (s.assign q)) < s.level (var (s.assign p))
  | some r => r ∈ clause_ptrs s ∧ (s.cl r).lits.getD 0 0 = s.assign p
      ∧ ∀ x ∈ (s.cl r).lits.drop 1, s.status (var x) = neg x ∧ on_trail s (var x) p

/-- The assignment stack below `top`: every entry is a true literal of
`1..vc` with a level between 1 and the decision level, the entries are of
distinct variables and in the order of their levels, every reason is as
`reason_shape` asks, every assigned variable has its entry, and an unassigned
variable has level 0. -/
def trail_inv (s : my_manager) (top : Nat) : Prop :=
  (∀ p, p < top →
    lit_ok s.vc (s.assign p) ∧ s.status (var (s.assign p)) = s.assign p
    ∧ 1 ≤ s.level (var (s.assign p)) ∧ s.level (var (s.assign p)) ≤ s.decision_level
    ∧ (∀ q, q < p → var (s.assign q) ≠ var (s.assign p)
        ∧ s.level (var (s.assign q)) ≤ s.level (var (s.assign p)))
    ∧ reason_shape s p (s.reason (var (s.assign p))))
  ∧ (∀ v, v ≤ s.vc → s.status v ≠ 0 → on_trail s v top)
  ∧ (∀ v, v ≤ s.vc → s.status v = 0 → s.level v = 0)

/-- The stack below `top` is partitioned by `decision_lit`: for every level
`L` from 2 to the decision level the entries from `decision_lit[L]` on are
exactly those assigned at level `L` or above. -/
def trail_marks (s : my_manager) (top : Nat) : Prop :=
  ∀ L, 2 ≤ L → L ≤ s.decision_level →
    s.decision_lit L ≤ top ∧
    ∀ p, p < top → (s.decision_lit L ≤ p ↔ L ≤ s.level (var (s.assign p)))

/-- Every variable waiting in the queue `q` is assigned at the level
`slevel`. -/
def queue_lv (q : heap) (level : Nat → Nat) (slevel : Nat) : Prop :=
  ∀ w, heap_mem q w → level w = slevel

/-- The stack part of the invariant of the loops of `bcp`, run at the level
`slevel` with the local top `last`. -/
def bcp_trail (s : my_manager) (last slevel : Nat) : Prop :=
  trail_inv s last ∧ trail_marks s last ∧ queue_lv s.imp s.level slevel
  ∧ slevel = s.decision_level ∧ 1 ≤ slevel

/-- The two-watched-literal invariant with levels: a watched literal that is
false, and whose variable is not waiting in the queue, has the other watched
literal of its clause true at a level that is not higher. -/
def twl_lv (ptrs : List Nat) (cl : Nat → my_clause) (status level : Nat → Nat) (q : heap) :
    Prop :=
  ∀ c ∈ ptrs,
    (status (var ((cl c).lits.getD 0 0)) = neg ((cl c).lits.getD 0 0) →
      heap_mem q (var ((cl c).lits.getD 0 0))
      ∨ (status (var ((cl c).lits.getD 1 0)) = (cl c).lits.getD 1 0
          ∧ level (var ((cl c).lits.getD 1 0)) ≤ level (var ((cl c).lits.getD 0 0))))
    ∧ (status (var ((cl c).lits.getD 1 0)) = neg ((cl c).lits.getD 1 0) →
      heap_mem q (var ((cl c).lits.getD 1 0))
      ∨ (status (var ((cl c).lits.getD 0 0)) = (cl c).lits.getD 0 0
          ∧ level (var ((cl c).lits.getD 0 0)) ≤ level (var ((cl c).lits.getD 1 0))))

/-- The invariant `twl_lv` while the watched list of `neg_lit` is walked: the
clauses still to be read (`rest`) may have the false watch `neg_lit` without
the other watch being true. -/
def twl_lv_ex (ptrs : List Nat) (cl : Nat → my_clause) (status level : Nat → Nat) (q : heap)
    (neg_lit : Nat) (rest : List Nat) : Prop :=
  ∀ c ∈ ptrs,
    (status (var ((cl c).lits.getD 0 0)) = neg ((cl c).lits.getD 0 0) →
      heap_mem q (var ((cl c).lits.getD 0 0))
      ∨ (status (var ((cl c).lits.getD 1 0)) = (cl c).lits.getD 1 0
          ∧ level (var ((cl c).lits.getD 1 0)) ≤ level (var ((cl c).lits.getD 0 0)))
      ∨ ((cl c).lits.getD 0 0 = neg_lit ∧ c ∈ rest))
    ∧ (status (var ((cl c).lits.getD 1 0)) = neg ((cl c).lits.getD 1 0) →
      heap_mem q (var ((cl c).lits.getD 1 0))
      ∨ (status (var ((cl c).lits.getD 0 0)) = (cl c).lits.getD 0 0
          ∧ level (var ((cl c).lits.getD 0 0)) ≤ level (var ((cl c).lits.getD 1 0)))
      ∨ ((cl c).lits.getD 1 0 = neg_lit ∧ c ∈ rest))

/-- The part of `twl_lv` that a conflict leaves standing: a watched literal
that is false at a level below `slevel` has the other watched literal of its
clause true at a level that is not higher. -/
def twl_low (ptrs : List Nat) (cl : Nat → my_clause) (status level : Nat → Nat)
    (slevel : Nat) : Prop :=
  ∀ c ∈ ptrs,
    (status (var ((cl c).lits.getD 0 0)) = neg ((cl c).lits.getD 0 0) →
      level (var ((cl c).lits.getD 0 0)) < slevel →
      status (var ((cl c).lits.getD 1 0)) = (cl c).lits.getD 1 0
        ∧ level (var ((cl c).lits.getD 1 0)) ≤ level (var ((cl c).lits.getD 0 0)))
    ∧ (status (var ((cl c).lits.getD 1 0)) = neg ((cl c).lits.getD 1 0) →
      level (var ((cl c).lits.getD 1 0)) < slevel →
      status (var ((cl c).lits.getD 0 0)) = (cl c).lits.getD 0 0
        ∧ level (var ((cl c).lits.getD 0 0)) ≤ level (var ((cl c).lits.getD 1 0)))

/-- What `bcp` leaves as it is: the stores, the variable heap and its
scores, the level markers, the literals of every clause up to their order,
and the status, level and reason of every variable assigned before. -/
def bcp_frame (s s1 : my_manager) : Prop :=
  s1.vc = s.vc ∧ s1.original_clauses = s.original_clauses
  ∧ s1.learned_clauses = s.learned_clauses ∧ s1.alloc_next = s.alloc_next
  ∧ s1.var_order_heap = s.var_order_heap ∧ s1.score = s.score
  ∧ s1.decision_level = s.decision_level ∧ s1.decision_lit = s.decision_lit
  ∧ s1.stack_offset = s.stack_offset ∧ s1.ok = s.ok
  ∧ (∀ c, ((s1.cl c).lits).Perm ((s.cl c).lits) ∧ (s1.cl c).index = (s.cl c).index)
  ∧ (∀ v, s.status v ≠ 0 →
      s1.status v = s.status v ∧ s1.level v = s.level v ∧ s1.reason v = s.reason v)

/-! ## Invariants of the search -/

/-- The arrays `order` and `indices` of a heap are inverse to each other on
the positions `1..size` and the variables with a position. -/
def heap_wf (h : heap) : Prop :=
  (∀ i, 1 ≤ i → i ≤ h.size → h.indices (h.order i) = i)
  ∧ (∀ v, h.indices v ≠ 0 → h.indices v ≤ h.size ∧ h.order (h.indices v) = v)

/-- The state of the arrays inside `percolate_up` and `percolate_down`: they
are inverse to each other away from the position `i`, where the variable `v`
is still to be written. -/
def heap_hole (order indices : Nat → Nat) (n i v : Nat) : Prop :=
  (∀ j, 1 ≤ j → j ≤ n → j ≠ i → indices (order j) = j ∧ order j ≠ v)
  ∧ (∀ w, w ≠ v → indices w ≠ 0 → indices w ≤ n ∧ indices w ≠ i ∧ order (indices w) = w)

/-- The variable heap is well formed, holds variables of `1..vc` only, and
every unassigned variable of `1..vc` is in it. -/
def heap_inv (s : my_manager) : Prop :=
  heap_wf s.var_order_heap
  ∧ (∀ w, heap_mem s.var_order_heap w → 1 ≤ w ∧ w ≤ s.vc)
  ∧ (∀ v, 1 ≤ v → v ≤ s.vc → s.status v = 0 → s.var_order_heap.indices v ≠ 0)

/-- How `backtrack(dest)` changes the assignment: a variable of `1..vc`
assigned at level `dest` or above is unassigned, every other one is left as
it is. -/
def undone (s s1 : my_manager) (dest : Nat) : Prop :=
  (∀ v, v ≤ s.vc → s.status v ≠ 0 → dest ≤ s.level v →
      s1.status v = 0 ∧ s1.level v = 0 ∧ s1.reason v = none)
  ∧ (∀ v, v ≤ s.vc → (s.status v = 0 ∨ s.level v < dest) →
      s1.status v = s.status v ∧ s1.level v = s.level v ∧ s1.reason v = s.reason v)

/-- The fields that `backtrack` leaves as they are. -/
def backtrack_frame (s s1 : my_manager) : Prop :=
  s1.vc = s.vc ∧ s1.cl = s.cl ∧ s1.original_clauses = s.original_clauses
  ∧ s1.learned_clauses = s.learned_clauses ∧ s1.alloc_next = s.alloc_next
  ∧ s1.watched = s.watched ∧ s1.imp = s.imp ∧ s1.score = s.score
  ∧ s1.decision_lit = s.decision_lit ∧ s1.stack_offset = s.stack_offset ∧ s1.ok = s.ok
  ∧ s1.assign = s.assign ∧ s1.conflict_clause = s.conflict_clause
  ∧ s1.assertion_level = s.assertion_level ∧ s1.conflicts = s.conflicts

/-! ## Truth assignments -/

/-- The value of the literal `x` under the truth assignment `M` of the
variables. -/
def lit_val (M : Nat → Bool) (x : Nat) : Bool := if sign x = 0 then M (var x) else !M (var x)

/-- Every truth assignment of the class `P` makes a literal of the clause
`C` true. -/
def valid (P : (Nat → Bool) → Prop) (C : List Nat) : Prop :=
  ∀ M, P M → ∃ x ∈ C, lit_val M x = true

/-- The stack with respect to the truth assignments of the class `P`: every
entry is the status of its variable, every reason on the stack is a clause
valid in `P` that begins with the entry, and every entry of level 1 is true
in every assignment of `P`. -/
def trail_valid (P : (Nat → Bool) → Prop) (s : my_manager) : Prop :=
  (∀ p, p < s.assign_top → s.status (var (s.assign p)) = s.assign p)
  ∧ (∀ p, p < s.assign_top → ∀ r, s.reason (var (s.assign p)) = some r →
      (s.cl r).lits.getD 0 0 = s.assign p ∧ valid P (s.cl r).lits)
  ∧ (∀ p, p < s.assign_top → s.level (var (s.assign p)) ≤ 1 →
      ∀ M, P M → lit_val M (s.assign p) = true)

/-- The marks of `derive_conflict_clause` with the stack pointer at `n`: the
variables of `cdc[1..cdc_index)` are marked and pairwise distinct, and a
marked variable is one of them or is on the stack below `n` at the level
`clevel`. -/
def dcc_marks (s : my_manager) (clevel n : Nat) (st : dcc_state) : Prop :=
  (∀ i, 1 ≤ i → i < st.m.cdc_index → st.seen (var (st.m.cdc i)) = true)
  ∧ (∀ i j, 1 ≤ i → i < j → j < st.m.cdc_index → var (st.m.cdc i) ≠ var (st.m.cdc j))
  ∧ (∀ v, st.seen v = true → (s.level v = clevel ∧ on_trail s v n)
      ∨ ∃ i, 1 ≤ i ∧ i < st.m.cdc_index ∧ var (st.m.cdc i) = v)

/-- The truth assignment `M` satisfies the clause that `derive_conflict_clause`
holds with the stack pointer at `n`: a literal of `cdc[1..cdc_index)` is true
or a marked stack entry of the level `clevel` below `n` is false. -/
def dcc_val (s : my_manager) (clevel n : Nat) (st : dcc_state) (M : Nat → Bool) : Prop :=
  (∃ i, 1 ≤ i ∧ i < st.m.cdc_index ∧ lit_val M (st.m.cdc i) = true)
  ∨ (∃ p, p < n ∧ st.seen (var (s.assign p)) = true ∧ s.level (var (s.assign p)) = clevel
      ∧ lit_val M (s.assign p) = false)

/-- The variable `v` has a reason all of whose literals from position 1 on
are of level 1 or of a variable marked in `seen`. -/
def seen_cert (s : my_manager) (seen : Nat → Bool) (v : Nat) : Prop :=
  ∃ r, s.reason v = some r
    ∧ ∀ x ∈ (s.cl r).lits.drop 1, s.level (var x) = 1 ∨ seen (var x) = true

/-- The marks inside `removable`, entered with the marks `seen0`: the marked
variables are those of `seen0` and those recorded in `save`, which were not
marked in `seen0`. -/
def save_inv (seen0 seen : Nat → Bool) (save : List Nat) : Prop :=
  (∀ v, seen v = true ↔ (seen0 v = true ∨ v ∈ save))
  ∧ ∀ v ∈ save, seen0 v = false

/-- The manager with respect to the truth assignments of the class `P`:
every stored clause is valid in `P`, and the status of a variable assigned at
level 1 is true in every assignment of `P`. -/
def ent_inv (P : (Nat → Bool) → Prop) (s : my_manager) : Prop :=
  (∀ c ∈ clause_ptrs s, valid P (s.cl c).lits)
  ∧ (∀ v, v ≤ s.vc → s.status v ≠ 0 → s.level v = 1 →
      ∀ M, P M → lit_val M (s.status v) = true)

/-- What conflict analysis leaves as it is besides the assignment: the
stores, the watched index, the level markers, the queue; the variable heap
keeps its members. -/
def search_frame (s s1 : my_manager) : Prop :=
  s1.original_clauses = s.original_clauses ∧ s1.learned_clauses = s.learned_clauses
  ∧ s1.watched = s.watched ∧ s1.alloc_next = s.alloc_next
  ∧ s1.decision_level = s.decision_level ∧ s1.decision_lit = s.decision_lit
  ∧ s1.imp = s.imp ∧ s1.stack_offset = s.stack_offset ∧ s1.ok = s.ok
  ∧ s1.conflicting_clause = s.conflicting_clause
  ∧ (heap_wf s.var_order_heap → heap_wf s1.var_order_heap
      ∧ ∀ w, s1.var_order_heap.indices w ≠ 0 ↔ s.var_order_heap.indices w ≠ 0)

/-- The clause stores hold pairwise distinct pointers, all below the next
pointer to be handed out. -/
def store_inv (s : my_manager) : Prop :=
  (clause_ptrs s).Nodup ∧ ∀ c ∈ clause_ptrs s, c < s.alloc_next

/-- The invariant of the search between two operations of `solve`: the
invariant of `bcp` with an empty queue, the invariants of the stack and of
its level markers, of the variable heap and of the clause stores. -/
def search_inv (s : my_manager) : Prop :=
  bcp_inv s ∧ s.imp.size = 0 ∧ s.stack_offset = 0 ∧ 1 ≤ s.decision_level
  ∧ trail_inv s s.assign_top ∧ trail_marks s s.assign_top ∧ heap_inv s ∧ store_inv s

/-- The state after `bcp` has returned 0: `conflicting_clause` is a stored
clause with all literals false, the one at position 1 assigned at the current
decision level. -/
def conflict_inv (s : my_manager) : Prop :=
  ∃ c, s.conflicting_clause = some c ∧ c ∈ clause_ptrs s
    ∧ (∀ x ∈ (s.cl c).lits, s.status (var x) = neg x)
    ∧ s.level (var ((s.cl c).lits.getD 1 0)) = s.decision_level

/-- Every clause of the formula `F` has a literal true at level 1, or holds
a literal of `1..vc` together with its negation, or contains all literals of
a clause of the original store. -/
def cover (F : List (List Nat)) (s : my_manager) : Prop :=
  ∀ C ∈ F, (∃ x ∈ C, lit_ok s.vc x ∧ s.status (var x) = x ∧ s.level (var x) = 1)
    ∨ (∃ x ∈ C, neg x ∈ C ∧ lit_ok s.vc x)
    ∨ (∃ c ∈ s.original_clauses, ∀ x ∈ (s.cl c).lits, x ∈ C)

/-- The max-heap property over the scores: no variable of the heap has a
higher score than the one at its parent position. -/
def heap_max (score : Nat → ℚ) (h : heap) : Prop :=
  ∀ i, 2 ≤ i → i ≤ h.size → score (h.order i) ≤ score (h.order (i / 2))

/-- Well-formedness of a heap as the specification words it: the position
recorded for a member is within the heap and holds the member, the members at
the positions `1..size` are pairwise distinct, a non-member has the position
0, and the score at a position is at most the score at its parent position. -/
def heap_well_formed (score : Nat → ℚ) (h : heap) : Prop :=
  (∀ v, heap_mem h v → 1 ≤ h.indices v ∧ h.indices v ≤ h.size ∧ h.order (h.indices v) = v)
  ∧ (∀ i j, 1 ≤ i → i ≤ h.size → 1 ≤ j → j ≤ h.size → h.order i = h.order j → i = j)
  ∧ (∀ v, ¬ heap_mem h v → h.indices v = 0)
  ∧ (∀ i, 2 ≤ i → i ≤ h.size → score (h.order (i / 2)) ≥ score (h.order i))

/-- The scores inside `percolate_up` with the position `i` still to be
filled by `v`: the max-heap property holds away from `i`, and the variables
at the children of `i` have scores at most that of `v` and at most that of
the variable at the parent of `i`. -/
def up_hole (score : Nat → ℚ) (order : Nat → Nat) (n i v : Nat) : Prop :=
  (∀ j, 2 ≤ j → j ≤ n → j ≠ i → j / 2 ≠ i → score (order j) ≤ score (order (j / 2)))
  ∧ (∀ j, 2 ≤ j → j ≤ n → j / 2 = i → score (order j) ≤ score v)
  ∧ (∀ j, 2 ≤ j → j ≤ n → j / 2 = i → 2 ≤ i → score (order j) ≤ score (order (i / 2)))

/-- The scores inside `percolate_down` with the position `i` still to be
filled by `v`: the max-heap property holds away from `i`, the score of `v` is
at most that of the variable at the parent of `i`, and so are the scores of
the variables at the children of `i`. -/
def down_hole (score : Nat → ℚ) (order : Nat → Nat) (n i v : Nat) : Prop :=
  (∀ j, 2 ≤ j → j ≤ n → j ≠ i → j / 2 ≠ i → score (order j) ≤ score (order (j / 2)))
  ∧ (2 ≤ i → score v ≤ score (order (i / 2)))
  ∧ (∀ j, 2 ≤ j → j ≤ n → j / 2 = i → 2 ≤ i → score (order j) ≤ score (order (i / 2)))

/-- The fields of the restart schedule are those of `s`. -/
def restart_frame (s s1 : my_manager) : Prop :=
  s1.restart = s.restart ∧ s1.next_restart_conflict = s.next_restart_conflict
  ∧ s1.luby_unit = s.luby_unit

/-- The saved phases, the number of variables and the flag `ok` are those of
`s`. -/
def aux_frame (s s1 : my_manager) : Prop :=
  s1.saved = s.saved ∧ s1.vc = s.vc ∧ s1.ok = s.ok

/-- A saved phase of a variable is one of its two literals. -/
def saved_ok (s : my_manager) : Prop := ∀ v, s.saved v ≠ 0 → var (s.saved v) = v

/-- The learned clause `L` in the state `s` of the conflict at the level
`clevel`: every literal is a false literal of `1..vc` on the stack, the first
one was assigned at the level `clevel`, the others at levels above 1 and up to
`alevel`, which one of them attains (or `alevel = 1` when there is none), and
the variables are pairwise distinct. -/
def learned_at (s : my_manager) (L : List Nat) (clevel alevel : Nat) : Prop :=
  1 ≤ L.length
  ∧ (∀ x ∈ L, lit_ok s.vc x ∧ s.status (var x) = neg x ∧ on_trail s (var x) s.assign_top)
  ∧ s.level (var (L.getD 0 0)) = clevel
  ∧ (∀ k, 1 ≤ k → k < L.length →
      1 < s.level (var (L.getD k 0)) ∧ s.level (var (L.getD k 0)) ≤ alevel)
  ∧ ((L.length = 1 ∧ alevel = 1)
      ∨ ∃ k, 1 ≤ k ∧ k < L.length ∧ s.level (var (L.getD k 0)) = alevel)
  ∧ 1 ≤ alevel ∧ alevel < clevel
  ∧ (L.map var).Nodup

/-- The invariant of the search at the entry of an iteration of `solve`, and
after every decision or assertion whose propagation ends without conflict:
`search_inv`, the two-watched-literal invariant with levels, and well-formed
saved phases. -/
def solve_inv (s : my_manager) : Prop :=
  search_inv s ∧ twl_lv (clause_ptrs s) s.cl s.status s.level s.imp ∧ saved_ok s

/-- The state of the search after a propagation that ended in a conflict. -/
def conflict_state (s : my_manager) : Prop :=
  search_inv s ∧ twl_low (clause_ptrs s) s.cl s.status s.level s.decision_level
  ∧ saved_ok s ∧ conflict_inv s

/-- The manager `s1` differs from `s` in nothing the invariants of the search
look at: the assignment, the stack, the stores, the watched lists, the queue
and the saved phases are the same, every stored clause has the same literals,
the variable heap is still well-formed with the same members, and the next
clause pointer has not gone down. -/
def same_search (s s1 : my_manager) : Prop :=
  s1.vc = s.vc ∧ s1.status = s.status ∧ s1.level = s.level ∧ s1.reason = s.reason
  ∧ s1.assign = s.assign ∧ s1.assign_top = s.assign_top
  ∧ s1.decision_level = s.decision_level ∧ s1.decision_lit = s.decision_lit
  ∧ s1.original_clauses = s.original_clauses ∧ s1.learned_clauses = s.learned_clauses
  ∧ s1.watched = s.watched ∧ s1.imp = s.imp ∧ s1.stack_offset = s.stack_offset
  ∧ s1.saved = s.saved ∧ s1.conflicting_clause = s.conflicting_clause
  ∧ (∀ c ∈ clause_ptrs s, (s1.cl c).lits = (s.cl c).lits)
  ∧ (heap_wf s.var_order_heap → heap_wf s1.var_order_heap
      ∧ ∀ w, s1.var_order_heap.indices w ≠ 0 ↔ s.var_order_heap.indices w ≠ 0)
  ∧ s.alloc_next ≤ s1.alloc_next

/-- The learned clause at the pointer `c` in the state `s` reached by
`backtrack(assertion_level + 1)`: its literals are literals of pairwise
distinct variables of `1..vc`, the first one is unassigned, every other one
is false at a level up to the assertion level, which one of them attains
(or the clause is a unit and the assertion level is 1), and the decision
level is the assertion level. -/
def learned_now (s : my_manager) (c : Nat) : Prop :=
  1 ≤ (s.cl c).lits.length
  ∧ (∀ x ∈ (s.cl c).lits, lit_ok s.vc x)
  ∧ ((s.cl c).lits.map var).Nodup
  ∧ s.status (var ((s.cl c).lits.getD 0 0)) = 0
  ∧ (∀ x ∈ (s.cl c).lits, x ≠ (s.cl c).lits.getD 0 0 →
      s.status (var x) = neg x ∧ s.level (var x) ≤ s.assertion_level)
  ∧ (((s.cl c).lits.length = 1 ∧ s.assertion_level = 1)
      ∨ ∃ k, 1 ≤ k ∧ k < (s.cl c).lits.length
          ∧ s.level (var ((s.cl c).lits.getD k 0)) = s.assertion_level)
  ∧ s.decision_level = s.assertion_level ∧ 1 ≤ s.assertion_level

/-- The invariant of one pass of `sort_clauses_by_scores` with blocks of
`bs` entries, before the position `j` is filled: `k` pairs of blocks are
done, `l` entries of the left block and `r` of the right block of the current
pair are used up, and the target holds, up to order, the entries read. -/
def sort_pass_inv (bs : Nat) (arr : Nat → Option Nat) (j : Nat) (st : sort_state) : Prop :=
  ∃ k, st.lindex = 2 * bs * k + st.l ∧ st.rindex = 2 * bs * k + bs + st.r
    ∧ st.l ≤ bs ∧ st.r ≤ bs ∧ j = 2 * bs * k + st.l + st.r ∧ (0 < j → 1 ≤ st.l + st.r)
    ∧ ((List.range j).map st.target).Perm
        ((List.range (2 * bs * k)).map arr ++ (List.range' (2 * bs * k) st.l).map arr
          ++ (List.range' (2 * bs * k + bs) st.r).map arr)

/-- The entry `i` of a clause array together with its score. -/
def sort_pair (arr : Nat → Option Nat) (score : Nat → ℚ) (i : Nat) : Option Nat × ℚ :=
  (arr i, score i)

/-- The invariant of one pass of `sort_clauses_by_scores` with blocks of `bs`
entries for the merge, before the position `j` is filled: the counters are
as in `sort_pass_inv`; the target holds, up to order, the (clause, score)
pairs read; its scores do not go down inside a block of `2 * bs` entries; the
last score written is at most the next score of either source block; and
every clause in the target has the greatest position that holds it as its
`index`. -/
def sort_merge_inv (bs : Nat) (arr : Nat → Option Nat) (score : Nat → ℚ) (j : Nat)
    (st : sort_state) : Prop :=
  ∃ k, st.lindex = 2 * bs * k + st.l ∧ st.rindex = 2 * bs * k + bs + st.r
    ∧ st.l ≤ bs ∧ st.r ≤ bs ∧ j = 2 * bs * k + st.l + st.r ∧ (0 < j → 1 ≤ st.l + st.r)
    ∧ ((List.range j).map (sort_pair st.target st.starget)).Perm
        ((List.range (2 * bs * k)).map (sort_pair arr score)
          ++ (List.range' (2 * bs * k) st.l).map (sort_pair arr score)
          ++ (List.range' (2 * bs * k + bs) st.r).map (sort_pair arr score))
    ∧ (∀ i, i + 1 < j → (i + 1) % (2 * bs) ≠ 0 → st.starget i ≤ st.starget (i + 1))
    ∧ (0 < j → (st.l < bs → st.starget (j - 1) ≤ score st.lindex)
        ∧ (st.r < bs → st.starget (j - 1) ≤ score st.rindex))
    ∧ (∀ i, i < j → ∀ c, st.target i = some c →
        ∃ i', i' < j ∧ i ≤ i' ∧ st.target i' = some c ∧ (st.cl c).index = (i' : Int))

/-- What `read_cnf` maintains while it reads the clause lines: nothing is
learned, decided or scored; the unit literals read so far are the entries
`assign[0..stack_offset)` of pairwise distinct variables, set at level 1
without a reason, and their variables are the members of the queue `imp`,
whose first entry is the variable of `assign[0]`; a stored clause holds
literals of pairwise distinct variables of `1..vc`. -/
def load_inv (s : my_manager) : Prop :=
  s.learned_clauses = [] ∧ s.assign_top = 0 ∧ s.decision_level = 1
  ∧ (∀ v, s.score v = 0) ∧ (∀ v, s.saved v = 0)
  ∧ store_inv s
  ∧ (∀ c ∈ s.original_clauses,
      ((s.cl c).lits.map var).Nodup ∧ ∀ x ∈ (s.cl c).lits, lit_ok s.vc x)
  ∧ 0 ≤ s.stack_offset ∧ s.imp.size = s.stack_offset.toNat
  ∧ heap_wf s.imp ∧ (∀ v, heap_mem s.imp v ↔ s.status v ≠ 0)
  ∧ (1 ≤ s.imp.size → s.imp.order 1 = var (s.assign 0))
  ∧ (∀ p, p < s.stack_offset.toNat →
      lit_ok s.vc (s.assign p) ∧ s.status (var (s.assign p)) = s.assign p
      ∧ ∀ q, q < p → var (s.assign q) ≠ var (s.assign p))
  ∧ (∀ v, s.status v ≠ 0 → on_trail s v s.stack_offset.toNat)
  ∧ (∀ v, s.status v ≠ 0 → s.level v = 1 ∧ s.reason v = none)
  ∧ (∀ v, s.status v = 0 → s.level v = 0)

/-- The watched lists and the variable heap before `finish_up_init_manager`:
both are empty. -/
def unwatched (s : my_manager) : Prop :=
  (∀ i, s.watched i = []) ∧ s.var_order_heap.size = 0
  ∧ ∀ v, s.var_order_heap.indices v = 0

/-! ## The states of a run

The points of a run of the solver at which the invariants of the search are
stated: the entries of the main loop of `solve`, and the conflicts its inner
loop meets. -/

/-- The states in which the loop `while(1)` of `solve` is entered in a run on
a formula read by `read_cnf`: the state in which `finish_up_init_manager`
returns 1, and the state at the end of an iteration that leaves `result`
other than 0 (the steps of the iteration are those of `solve_loop`). -/
inductive loop_entry (bfuel cfuel : Nat) : my_manager → Prop
  | first (vc cc : Nat) (lines : List (List Int)) (s0 s : my_manager) :
      read_cnf vc cc lines = some s0 →
      finish_up_init_manager bfuel s0 = some (true, s) →
      loop_entry bfuel cfuel s
  | next (s s3 s4 s5 s6 : my_manager) (v : Nat) (res : Bool) (result : Int) :
      loop_entry bfuel cfuel s →
      solve_manage s = some s3 →
      select_variable s3 = some (v, s4) → v ≠ 0 →
      set_decision bfuel s4
        (if s4.saved v = 0 ∨ s4.save_progress = 0 then nlit v else s4.saved v)
          = some (res, s5) →
      solve_conflict_loop bfuel cfuel s5 res = some (result, s6) → result ≠ 0 →
      loop_entry bfuel cfuel s6

/-- The states in which the loop `while(res!=1)` of `solve` starts an
iteration: the state in which `set_decision` returned 0, and the state in
which `assert_conflict_clause` returned 0 after the analysis of the conflict
before and `backtrack(assertion_level+1)`. -/
inductive conflict_point (bfuel cfuel : Nat) : my_manager → Prop
  | decided (s s3 s4 s5 : my_manager) (v : Nat) :
      loop_entry bfuel cfuel s →
      solve_manage s = some s3 →
      select_variable s3 = some (v, s4) → v ≠ 0 →
      set_decision bfuel s4
        (if s4.saved v = 0 ∨ s4.save_progress = 0 then nlit v else s4.saved v)
          = some (false, s5) →
      conflict_point bfuel cfuel s5
  | asserted (s s1 s3 : my_manager) :
      conflict_point bfuel cfuel s →
      analyze_conflict s s.conflicting_clause s.decision_level = some s1 →
      s1.assertion_level ≠ 0 →
      assert_conflict_clause bfuel (backtrack s1 (s1.assertion_level + 1)) = some (false, s3) →
      conflict_point bfuel cfuel s3

/-- Every stored clause of size at least 2 is exactly once on the watched
list of its literal at position 0, exactly once on that of its literal at
position 1, and on the watched list of no other literal. -/
def watched_twice (s : my_manager) : Prop :=
  ∀ c ∈ clause_ptrs s, 2 ≤ (s.cl c).size →
    (s.watched (watched_index ((s.cl c).lits.getD 0 0))).count c = 1
    ∧ (s.watched (watched_index ((s.cl c).lits.getD 1 0))).count c = 1
    ∧ ∀ l, lit_ok s.vc l → l ≠ (s.cl c).lits.getD 0 0 → l ≠ (s.cl c).lits.getD 1 0 →
        c ∉ s.watched (watched_index l)

/-- The reason of every assigned variable `v`, when it is a clause, is a
stored clause that has the literal of `v` at position 0, every other literal
of which is false with a level at most the level of `v`. -/
def reasons_justified (s : my_manager) : Prop :=
  ∀ v, 1 ≤ v → v ≤ s.vc → s.status v ≠ 0 → ∀ c, s.reason v = some c →
    c ∈ clause_ptrs s ∧ (s.cl c).lits.getD 0 0 = s.status v
    ∧ ∀ x ∈ (s.cl c).lits.drop 1, s.status (var x) = neg x ∧ s.level (var x) ≤ s.level v

/-- No literal is twice on the trail `assign[0..assign_top)`; a literal `l`
on the trail is the status of its variable, whose level is at most the
decision level; the literal of every assigned variable is on the trail. -/
def trail_ok (s : my_manager) : Prop :=
  (∀ p q, p < q → q < s.assign_top → s.assign p ≠ s.assign q)
  ∧ (∀ p, p < s.assign_top →
      s.status (var (s.assign p)) = s.assign p
      ∧ s.level (var (s.assign p)) ≤ s.decision_level)
  ∧ (∀ v, 1 ≤ v → v ≤ s.vc → s.status v ≠ 0 → ∃ p, p < s.assign_top ∧ s.assign p = s.status v)

/-- Every unassigned variable of `1..vc` is in the variable heap. -/
def free_vars_in_heap (s : my_manager) : Prop :=
  ∀ v, 1 ≤ v → v ≤ s.vc → s.status v = 0 → s.var_order_heap.indices v ≠ 0

/-- What the management of the clause base leaves as it is: the assignment
with its levels, and the literals of every clause in the clause memory. -/
def kb_frame (s s1 : my_manager) : Prop :=
  s1.vc = s.vc ∧ s1.status = s.status ∧ s1.level = s.level
  ∧ s1.decision_level = s.decision_level ∧ (∀ c, (s1.cl c).lits = (s.cl c).lits)

/-- The truth assignments that satisfy every clause of the formula `F`. -/
def models (F : List (List Nat)) (M : Nat → Bool) : Prop :=
  ∀ C ∈ F, ∃ x ∈ C, lit_val M x = true

/-- What keeps the cover of a formula by the original store: the assignments
of level 1 stay, and an original clause stays in the store with its literals
(up to order) unless one of its literals is true at level 1. -/
def cover_frame (s s1 : my_manager) : Prop :=
  s1.vc = s.vc
  ∧ (∀ v, v ≤ s.vc → s.status v ≠ 0 → s.level v = 1 →
      s1.status v = s.status v ∧ s1.level v = 1)
  ∧ (∀ c ∈ s.original_clauses,
      (c ∈ s1.original_clauses ∧ (s1.cl c).lits.Perm (s.cl c).lits)
      ∨ ∃ x ∈ (s.cl c).lits, lit_ok s.vc x ∧ s1.status (var x) = x ∧ s1.level (var x) = 1)

/-- The condition under which the specification has `reduce_kb` delete the
clause `c` that has the score `sc` and stands at the position `i` of the `n`
learned clauses taken in ascending order of score: neither of its first two
literals has it as reason, it has more than 2 literals, and it is in the lower
half (`i < n/2`) or its score is below `clause_score_inc / n`. -/
def reduce_kb_deletes (s : my_manager) (n i c : Nat) (sc : ℚ) : Prop :=
  s.reason (var ((s.cl c).lits.getD 0 0)) ≠ some c
  ∧ s.reason (var ((s.cl c).lits.getD 1 0)) ≠ some c
  ∧ 2 < (s.cl c).size
  ∧ (i < n / 2 ∨ sc < s.clause_score_inc / (n : ℚ))

instance (s : my_manager) (n i c : Nat) (sc : ℚ) : Decidable (reduce_kb_deletes s n i c sc) := by
  unfold reduce_kb_deletes
  infer_instance

/-- The (clause, score) pairs that the specification has `reduce_kb` keep of
the sorted pairs from the position `i` on, in their order. -/
def reduce_kb_kept (s : my_manager) (n : Nat) : Nat → List (Nat × ℚ) → List (Nat × ℚ)
  | _, [] => []
  | i, p :: rest =>
    if reduce_kb_deletes s n i p.1 p.2 then reduce_kb_kept s n (i + 1) rest
    else p :: reduce_kb_kept s n (i + 1) rest

/-- The real (clause, score) pair of an entry of the padded arrays of
`reduce_kb`; a `NULL` entry has none. -/
def real_pair (p : Option Nat × ℚ) : Option (Nat × ℚ) := p.1.map (fun c => (c, p.2))

/-- The conflict counter and the fields of the schedule of progress saving
are those of `s`. -/
def sp_frame (s s1 : my_manager) : Prop :=
  s1.conflicts = s.conflicts ∧ s1.save_progress = s.save_progress
  ∧ s1.next_sp_switch = s.next_sp_switch ∧ s1.on_th = s.on_th ∧ s1.off_th = s.off_th
  ∧ s1.on_th_inc = s.on_th_inc ∧ s1.off_th_inc = s.off_th_inc

/-- The schedule of progress saving between two calls of `analyze_conflict`:
the thresholds are the initial ones, and, as long as the conflict counter is
at most 2147483600 (the last switch the 32-bit `next_sp_switch` can hold is
scheduled there), the flag is off with the next switch at `100 + 500k` and
the conflict counter in `500k + 1 .. 100 + 500k` (from 0 on for `k = 0`), or
on with the next switch at `500 + 500k` and the counter in
`101 + 500k .. 500 + 500k`; with the counter at 2147483601 the flag is on and
the next switch is `-2147483296`, the 32-bit sum of 2147483600 and 400. -/
def sp_inv (s : my_manager) : Prop :=
  s.on_th = 100 ∧ s.off_th = 400 ∧ s.on_th_inc = 0 ∧ s.off_th_inc = 0
  ∧ (s.conflicts ≤ 2147483600 → ∃ k : Int, 0 ≤ k
    ∧ ((s.save_progress = 0 ∧ s.next_sp_switch = 100 + 500 * k
          ∧ 500 * k ≤ s.conflicts ∧ (k = 0 ∨ 500 * k < s.conflicts)
          ∧ s.conflicts ≤ 100 + 500 * k)
      ∨ (s.save_progress = 1 ∧ s.next_sp_switch = 500 + 500 * k
          ∧ 100 + 500 * k < s.conflicts ∧ s.conflicts ≤ 500 + 500 * k)))
  ∧ (s.conflicts = 2147483601 → s.save_progress = 1 ∧ s.next_sp_switch = -2147483296)

/-- The reason invariant: a variable of `0..vc` with a reason is assigned, and
the literal at position 0 of its reason is its status. -/
def reason_inv (s : my_manager) : Prop :=
  ∀ v, v ≤ s.vc → ∀ c ∈ s.reason v, s.status v ≠ 0 ∧ (s.cl c).lits.getD 0 0 = s.status v

instance (s : my_manager) : Decidable (reason_inv s) := by
  unfold reason_inv
  infer_instance

/-- How the manager `s` with the local `last`, met inside the call of `bcp`
made by `process_unit_literal_queue`, relates to the manager `s0` of the call
with its `n` unit literals in `assign[0..n)`: these entries are as they were;
every entry between `n` and `last` is of a variable that was unassigned in
`s0` and has a reason; a variable assigned in `s0` has its status, level and
reason of `s0`. -/
def unit_trace (s0 : my_manager) (n : Nat) (s : my_manager) (last : Nat) : Prop :=
  n ≤ last
  ∧ (∀ p, p < n → s.assign p = s0.assign p)
  ∧ (∀ p, n ≤ p → p < last →
      s0.status (var (s.assign p)) = 0 ∧ s.reason (var (s.assign p)) ≠ none)
  ∧ (∀ v, s0.status v ≠ 0 →
      s.status v = s0.status v ∧ s.level v = s0.level v ∧ s.reason v = s0.reason v)

/-- The states in which the loop `while(1)` of `solve` is entered in the run
on the input `p cnf vc cc` with the clause lines `lines`: as `loop_entry`,
with the input named. -/
inductive run_entry (bfuel cfuel vc cc : Nat) (lines : List (List Int)) : my_manager → Prop
  | first (s0 s : my_manager) :
      read_cnf vc cc lines = some s0 →
      finish_up_init_manager bfuel s0 = some (true, s) →
      run_entry bfuel cfuel vc cc lines s
  | next (s s3 s4 s5 s6 : my_manager) (v : Nat) (res : Bool) (result : Int) :
      run_entry bfuel cfuel vc cc lines s →
      solve_manage s = some s3 →
      select_variable s3 = some (v, s4) → v ≠ 0 →
      set_decision bfuel s4
        (if s4.saved v = 0 ∨ s4.save_progress = 0 then nlit v else s4.saved v)
          = some (res, s5) →
      solve_conflict_loop bfuel cfuel s5 res = some (result, s6) → result ≠ 0 →
      run_entry bfuel cfuel vc cc lines s6

/-- The states in which the loop `while(res!=1)` of `solve` starts an
iteration in the run on the input `p cnf vc cc` with the clause lines
`lines`: as `conflict_point`, with the input named. -/
inductive run_conflict (bfuel cfuel vc cc : Nat) (lines : List (List Int)) :
    my_manager → Prop
  | decided (s s3 s4 s5 : my_manager) (v : Nat) :
      run_entry bfuel cfuel vc cc lines s →
      solve_manage s = some s3 →
      select_variable s3 = some (v, s4) → v ≠ 0 →
      set_decision bfuel s4
        (if s4.saved v = 0 ∨ s4.save_progress = 0 then nlit v else s4.saved v)
          = some (false, s5) →
      run_conflict bfuel cfuel vc cc lines s5
  | asserted (s s1 s3 : my_manager) :
      run_conflict bfuel cfuel vc cc lines s →
      analyze_conflict s s.conflicting_clause s.decision_level = some s1 →
      s1.assertion_level ≠ 0 →
      assert_conflict_clause bfuel (backtrack s1 (s1.assertion_level + 1)) = some (false, s3) →
      run_conflict bfuel cfuel vc cc lines s3

/-- The index invariant of the clause stores: the learned clause at position
`i` of the learned store has the index `i`, and every clause of the original
store has a negative index. -/
def index_inv (s : my_manager) : Prop :=
  (∀ i, i < s.learned_clauses.length →
    (s.cl (s.learned_clauses.getD i 0)).index = (i : Int))
  ∧ (∀ c ∈ s.original_clauses, (s.cl c).index < 0)

instance (s : my_manager) : Decidable (index_inv s) := by
  unfold index_inv
  infer_instance

/-- The stores and the `index` field of every clause are those of `s`. -/
def ix_frame (s s1 : my_manager) : Prop :=
  s1.original_clauses = s.original_clauses ∧ s1.learned_clauses = s.learned_clauses
  ∧ ∀ c, (s1.cl c).index = (s.cl c).index

/-! ## A small instance

Three variables and the clauses `(-1 2)`, `(-2 3)`, `(-2 -3)`, stored at the
pointers 1, 2, 3 and watched on their first two literals; nothing is assigned
and the decision level is 1. -/

/-- The empty heap over zeroed arrays. -/
def heap_zero : heap := { order := fun _ => 0, indices := fun _ => 0, size := 0 }

/-- The heap holding the variables 1, 2, 3 in this order. -/
def heap_123 : heap :=
  { order := fun i => if i = 1 then 1 else if i = 2 then 2 else if i = 3 then 3 else 0,
    indices := fun v => if v = 1 then 1 else if v = 2 then 2 else if v = 3 then 3 else 0,
    size := 3 }

/-- The manager of the small instance. -/
def example_manager : my_manager :=
  { vc := 3,
    cl := fun p =>
      if p = 1 then ⟨-1, [3, 4]⟩ else if p = 2 then ⟨-2, [5, 6]⟩
      else if p = 3 then ⟨-3, [5, 7]⟩ else ⟨0, []⟩,
    alloc_next := 4,
    original_clauses := [1, 2, 3],
    learned_clauses := [],
    level := fun _ => 0,
    assign := fun _ => 0,
    assign_top := 0,
    decision_lit := fun _ => 0,
    status := fun _ => 0,
    reason := fun _ => none,
    score := fun _ => 0,
    watched := fun w =>
      if w = 1 then [1] else if w = 2 then [1] else if w = 3 then [2, 3]
      else if w = 4 then [2] else if w = 5 then [3] else [],
    decision_level := 1,
    max_decision_level := 0,
    stack_offset := 0,
    conflicting_clause := none,
    conflict_clause := none,
    assertion_level := 0,
    conflict_level := 0,
    imp := heap_zero,
    var_order_heap := heap_123,
    save_progress := 0,
    saved := fun _ => 0,
    cdc := fun _ => 0,
    cdc_index := 0,
    decisions := 0,
    conflicts := 0,
    on_th := 100,
    on_th_inc := 0,
    off_th := 400,
    off_th_inc := 0,
    next_sp_switch := 100,
    score_inc := 1,
    score_inc_factor := 20 / 19,
    clause_score_inc := 1,
    learned_clause_scores := fun _ => 0,
    simplify_orig_kb := 0,
    simplify_learned_kb := 0,
    ok := 1,
    restart := 0,
    next_restart_conflict := 512,
    luby_unit := 512,
    max_learned_clauses := 1,
    num_conflicts_for_next_simplify := 0,
    next_simplify_increment := 0 }

/-- The small instance after the decision `1` (literal 2) at level 2, which
propagates `2` and `3` and runs into a conflict on the clause at pointer 3. -/
def example_conflict : my_manager :=
  match set_decision 10 example_manager 2 with
  | some r => r.2
  | none => example_manager

/-- The small instance after the decision `-2` (literal 5) at level 2, which
propagates `-1` through the clause at pointer 1 without conflict. -/
def example_propagated : my_manager :=
  match set_decision 10 example_manager 5 with
  | some r => r.2
  | none => example_manager

/-- A second small instance: three variables and the clauses `(-1 -2 3)` and
`(-1 -2 -3)` at the pointers 1 and 2, nothing assigned, decision level 1. -/
def example_two : my_manager :=
  { example_manager with
    cl := fun p =>
      if p = 1 then ⟨-1, [3, 5, 6]⟩ else if p = 2 then ⟨-2, [3, 5, 7]⟩ else ⟨0, []⟩,
    original_clauses := [1, 2],
    watched := fun w => if w = 1 then [1, 2] else if w = 3 then [1, 2] else [] }

/-- The second instance after the decisions `1` (literal 2) at level 2 and `2`
(literal 4) at level 3; the second propagates `3` and runs into a conflict on
the clause at pointer 2. -/
def example_deep : my_manager :=
  match set_decision 10 example_two 2 with
  | some r =>
    match set_decision 10 r.2 4 with
    | some r1 => r1.2
    | none => example_two
  | none => example_two

/-- The small instance with 512 conflicts counted and no restart performed
yet: the state in which the first restart fires. -/
def example_restart : my_manager := { example_manager with conflicts := 512 }

/-- A third instance, read from the input: two variables and the clause lines
`1 2 0` and `1 -2 0`, after `finish_up_init_manager`. -/
def example_loaded : my_manager :=
  match read_cnf 2 2 [[1, 2], [1, -2]] with
  | some s0 =>
    match finish_up_init_manager 10 s0 with
    | some r => r.2
    | none => s0
  | none => init_manager 2

/-- The third instance after the first decision of `solve`, which sets
variable 1 to false and runs into a conflict. -/
def example_decided : my_manager :=
  match solve_manage example_loaded with
  | some s3 =>
    match select_variable s3 with
    | some r =>
      match set_decision 10 r.2
        (if r.2.saved r.1 = 0 ∨ r.2.save_progress = 0 then nlit r.1 else r.2.saved r.1) with
      | some r5 => r5.2
      | none => example_loaded
    | none => example_loaded
  | none => example_loaded

/-- The state `example_decided` late in a long run: the conflict counter and
the next switch of progress saving are both at 2147483600
(`100 + 500 * 4294967`, a value at which the schedule turns the flag on), and
the flag is off. -/
def example_late : my_manager :=
  { example_decided with conflicts := 2147483600, next_sp_switch := 2147483600 }

/-- The state at the conflict after the one of `example_late`: the conflict
counter, the flag, the thresholds and the next switch are those that
`analyze_conflict` leaves on `example_late`, the rest is `example_decided`
again. -/
def example_late_next : my_manager :=
  match analyze_conflict example_late example_late.conflicting_clause
      example_late.decision_level with
  | some s1 =>
    { example_decided with
      conflicts := s1.conflicts, save_progress := s1.save_progress,
      next_sp_switch := s1.next_sp_switch, on_th := s1.on_th, off_th := s1.off_th,
      on_th_inc := s1.on_th_inc, off_th_inc := s1.off_th_inc }
  | none => example_decided

/-- A fourth instance: four variables, nothing assigned, no original clause,
and the learned clauses `(1 2 3)`, `(1 2 4)` and `(2 3 4)` at the pointers 1,
2 and 3 with the scores 3, 1 and 2. -/
def example_learned : my_manager :=
  { example_manager with
    vc := 4,
    cl := fun p =>
      if p = 1 then ⟨0, [2, 4, 6]⟩ else if p = 2 then ⟨1, [2, 4, 8]⟩
      else if p = 3 then ⟨2, [4, 6, 8]⟩ else ⟨0, []⟩,
    original_clauses := [],
    learned_clauses := [1, 2, 3],
    learned_clause_scores := fun i => if i = 0 then 3 else if i = 1 then 1
      else if i = 2 then 2 else 0,
    watched := fun w => if w = 0 then [1, 2] else if w = 2 then [1, 2, 3]
      else if w = 4 then [3] else [] }

/-- A fifth instance: the state that `process_unit_literal_queue` leaves on
the input lines `1 2 0`, `2 3 0`, `1 3 0`, `-2 -3 0` and `1 0` over three
variables (variable 1 is true at level 1, nothing else is assigned), with the
last two of the four stored clauses moved to the learned store, with the
scores 5 and 7. -/
def example_units : my_manager :=
  match read_cnf 3 4 [[1, 2], [2, 3], [1, 3], [-2, -3], [1]] with
  | some s0 =>
    match init_watched_literals s0.original_clauses s0 with
    | some s1 =>
      match process_unit_literal_queue 10 (insert_all s1.vc 1 s1) with
      | some r =>
        { r.2 with
          original_clauses := r.2.original_clauses.take 2,
          learned_clauses := r.2.original_clauses.drop 2,
          learned_clause_scores := fun i => if i = 0 then 5 else if i = 1 then 7 else 0 }
      | none => s0
    | none => s0
  | none => init_manager 3

/-- The second instance after the decision `1` (literal 2) at level 2: the
walk over the watched list of literal 3 moves both clauses to a new watch. -/
def example_two_decided : my_manager :=
  match set_decision 10 example_two 2 with
  | some r => r.2
  | none => example_two

/-- The second instance inside the call `bcp(2)` of that decision, when
variable 1 has been dequeued and the walk over the watched list of literal 3
is about to start. -/
def example_walk : my_manager :=
  let s := set_decision_start example_two 2
  { s with
    imp := (dequeue s.score (undo s.score s.imp (var 2))).2,
    assign := (Function.update s.assign s.assign_top 2),
    status := (Function.update s.status (var 2) 2) }

/-! ## Theorems -/

/-! ### Literal algebra -/

theorem neg_eq (l : Nat) : neg l = if l % 2 = 0 then l + 1 else l - 1 := by
  unfold neg
  apply Nat.eq_of_testBit_eq
  intro i
  rw [Nat.testBit_xor]
  rcases Nat.mod_two_eq_zero_or_one l with h | h
  · simp only [h, if_true]
    cases i with
    | zero => simp [Nat.testBit_zero, h, Nat.add_mod]
    | succ j =>
      simp only [Nat.testBit_succ]
      have : (l + 1) / 2 = l / 2 := by omega
      rw [this]
      simp
  · have h10 : ¬ ((1 : Nat) = 0) := by decide
    simp only [h, h10, if_false]
    cases i with
    | zero => simp [Nat.testBit_zero, h]; omega
    | succ j =>
      simp only [Nat.testBit_succ]
      have : (l - 1) / 2 = l / 2 := by omega
      rw [this]
      simp

theorem var_eq (l : Nat) : var l = l / 2 := by
  unfold var
  rw [Nat.shiftRight_eq_div_pow]

theorem sign_eq (l : Nat) : sign l = l % 2 := by
  unfold sign
  exact Nat.and_one_is_mod l

theorem plit_eq (v : Nat) : plit v = 2 * v := by
  unfold plit
  rw [Nat.shiftLeft_eq]
  omega

theorem nlit_eq (v : Nat) : nlit v = 2 * v + 1 := by
  unfold nlit
  apply Nat.eq_of_testBit_eq
  intro i
  rw [Nat.testBit_or]
  cases i with
  | zero => simp [Nat.testBit_zero, Nat.shiftLeft_eq]; omega
  | succ j =>
    simp only [Nat.testBit_succ, Nat.shiftLeft_eq]
    have h1 : (v * 2 ^ 1) / 2 = v := by omega
    have h2 : (2 * v + 1) / 2 = v := by omega
    rw [h1, h2]; simp

/-! ### Restart schedule -/

theorem floor_log2_aux_eq_log : ∀ (f n : Nat), n ≤ f → floor_log2_aux f n = Nat.log 2 n := by
  intro f
  induction f with
  | zero =>
    intro n hn
    have : n = 0 := by omega
    subst this
    simp [floor_log2_aux]
  | succ f ih =>
    intro n hn
    rw [floor_log2_aux]
    split
    · rename_i h
      symm
      exact Nat.log_eq_zero_iff.mpr (Or.inl h)
    · rename_i h
      have h2 : 2 ≤ n := by omega
      rw [ih (n / 2) (by omega)]
      rw [Nat.log_of_one_lt_of_le (by norm_num) h2]

theorem floor_log2_eq_log (n : Nat) : floor_log2 n = Nat.log 2 n :=
  floor_log2_aux_eq_log n n (le_refl n)

theorem wrap32_of_range (x : Int) (h1 : -2147483648 ≤ x) (h2 : x < 2147483648) :
    wrap32 x = x := by
  unfold wrap32
  omega

theorem one_le_log_of_two_le (i : Nat) (hi : 2 ≤ i) : 1 ≤ Nat.log 2 (i + 1) := by
  rw [Nat.log_of_one_lt_of_le (by norm_num) (by omega)]
  omega

theorem get_luby_eq_aux (luby_unit : Int) :
    ∀ (n i : Nat), i ≤ n → 1 ≤ i →
      -2147483648 ≤ luby_unit * (luby_spec i : Int) →
      luby_unit * (luby_spec i : Int) < 2147483648 →
      get_luby luby_unit i = luby_unit * (luby_spec i : Int) := by
  intro n
  induction n with
  | zero => intro i h0 h1; omega
  | succ n ih =>
    intro i hin hi hlo hhi
    rw [get_luby]
    rw [luby_spec] at hlo hhi ⊢
    by_cases h1 : i = 1
    · simp [h1]
    · have h2 : 2 ≤ i := by omega
      have hk := one_le_log_of_two_le i h2
      simp only [h1, if_false, floor_log2_eq_log] at hlo hhi ⊢
      by_cases hp : 2 ^ Nat.log 2 (i + 1) = i + 1
      · simp only [hp, if_true] at hlo hhi ⊢
        have hk0 : ¬ (Nat.log 2 (i + 1) = 0) := by omega
        simp only [hk0, if_false]
        have hcast : ((2 : Int) ^ (Nat.log 2 (i + 1) - 1)) * luby_unit
            = luby_unit * ((2 ^ (Nat.log 2 (i + 1) - 1) : Nat) : Int) := by
          push_cast
          ring
        rw [hcast]
        exact wrap32_of_range _ hlo hhi
      · simp only [hp, if_false] at hlo hhi ⊢
        have hp1 : 2 ^ 1 ≤ 2 ^ Nat.log 2 (i + 1) := Nat.pow_le_pow_right (by norm_num) hk
        have hp2 : 2 ^ Nat.log 2 (i + 1) ≤ i + 1 := Nat.pow_log_le_self 2 (by omega)
        apply ih
        · generalize 2 ^ Nat.log 2 (i + 1) = a at *
          omega
        · generalize 2 ^ Nat.log 2 (i + 1) = a at *
          omega
        · exact hlo
        · exact hhi

theorem luby_spec_values :
    List.map luby_spec [1, 2, 3, 4, 5, 6, 7] = [1, 1, 2, 1, 1, 2, 4] := by
  have l2 : Nat.log 2 2 = 1 := by rw [← floor_log2_eq_log]; decide
  have l3 : Nat.log 2 3 = 1 := by rw [← floor_log2_eq_log]; decide
  have l4 : Nat.log 2 4 = 2 := by rw [← floor_log2_eq_log]; decide
  have l5 : Nat.log 2 5 = 2 := by rw [← floor_log2_eq_log]; decide
  have l6 : Nat.log 2 6 = 2 := by rw [← floor_log2_eq_log]; decide
  have l7 : Nat.log 2 7 = 2 := by rw [← floor_log2_eq_log]; decide
  have l8 : Nat.log 2 8 = 3 := by rw [← floor_log2_eq_log]; decide
  have v1 : luby_spec 1 = 1 := by rw [luby_spec]; simp
  have v2 : luby_spec 2 = 1 := by rw [luby_spec]; simp [l3, v1]
  have v3 : luby_spec 3 = 2 := by rw [luby_spec]; simp [l4]
  have v4 : luby_spec 4 = 1 := by rw [luby_spec]; simp [l5, v1]
  have v5 : luby_spec 5 = 1 := by rw [luby_spec]; simp [l6, v2]
  have v6 : luby_spec 6 = 2 := by rw [luby_spec]; simp [l7, v3]
  have v7 : luby_spec 7 = 4 := by rw [luby_spec]; simp [l8]
  simp [v1, v2, v3, v4, v5, v6, v7]

/-- C10 (as amended): for every `i ≥ 1` in the range of `int` for which
`luby_unit × luby(i)` fits a 32-bit `int`, `get_luby(i)` (a total function)
equals `luby_unit × luby(i)` with `luby` the recurrence of the specification;
`luby(1..7) = 1,1,2,1,1,2,4`, and with `luby_unit = 512` the values of
`get_luby(1..7)` are these times 512 (the fifth is `512 × 1`). -/
theorem get_luby_eq_spec (luby_unit : Int) (i : Nat) (hi : 1 ≤ i) (_hint : i < 2147483647)
    (hlo : -2147483648 ≤ luby_unit * (luby_spec i : Int))
    (hhi : luby_unit * (luby_spec i : Int) < 2147483648) :
    get_luby luby_unit i = luby_unit * (luby_spec i : Int)
    ∧ List.map luby_spec [1, 2, 3, 4, 5, 6, 7] = [1, 1, 2, 1, 1, 2, 4]
    ∧ List.map (get_luby 512) [1, 2, 3, 4, 5, 6, 7]
        = [512 * 1, 512 * 1, 512 * 2, 512 * 1, 512 * 1, 512 * 2, 512 * 4] := by
  refine ⟨get_luby_eq_aux luby_unit i i (le_refl i) hi hlo hhi, luby_spec_values, ?_⟩
  have hv := luby_spec_values
  simp only [List.map, List.cons.injEq, and_true] at hv
  obtain ⟨v1, v2, v3, v4, v5, v6, v7⟩ := hv
  have e : ∀ j : Nat, 1 ≤ j → luby_spec j ≤ 4 →
      get_luby 512 j = 512 * (luby_spec j : Int) := by
    intro j hj hb
    have hb2 : ((luby_spec j : Nat) : Int) ≤ 4 := by exact_mod_cast hb
    have hb3 : (0 : Int) ≤ ((luby_spec j : Nat) : Int) := Int.natCast_nonneg _
    exact get_luby_eq_aux 512 j j (le_refl j) hj (by omega) (by omega)
  simp only [List.map]
  rw [e 1 (by omega) (by omega), e 2 (by omega) (by omega), e 3 (by omega) (by omega),
    e 4 (by omega) (by omega), e 5 (by omega) (by omega), e 6 (by omega) (by omega),
    e 7 (by omega) (by omega), v1, v2, v3, v4, v5, v6, v7]
  simp

/-- C10, witness: the fifth restart unit with `luby_unit = 512`. -/
theorem get_luby_eq_spec_witness :
    get_luby 512 5 = 512 * (luby_spec 5 : Int) :=
  (get_luby_eq_spec 512 5 (by decide) (by decide)
    (by
      have h : (0 : Int) ≤ ((luby_spec 5 : Nat) : Int) := Int.natCast_nonneg _
      omega)
    (by
      have hv := luby_spec_values
      simp only [List.map, List.cons.injEq, and_true] at hv
      rw [hv.2.2.2.2.1]
      decide)).1

theorem luby_spec_pow2 (i : Nat) (h1 : i ≠ 1) (h2 : 2 ^ Nat.log 2 (i + 1) = i + 1) :
    luby_spec i = 2 ^ (Nat.log 2 (i + 1) - 1) := by
  rw [luby_spec, if_neg h1, if_pos h2]

theorem get_luby_pow2 (luby_unit : Int) (i : Nat) (h1 : i ≠ 1)
    (h2 : 2 ^ Nat.log 2 (i + 1) = i + 1) (h3 : Nat.log 2 (i + 1) ≠ 0) :
    get_luby luby_unit i = wrap32 (2 ^ (Nat.log 2 (i + 1) - 1) * luby_unit) := by
  rw [get_luby, if_neg h1, floor_log2_eq_log, if_pos h2, if_neg h3]

/-- C10, counterexample: at `i = 2^23 - 1` with `luby_unit = 512` the product
`512 × 2^22 = 2^31` does not fit an `int`; `get_luby` yields `-2^31`. -/
theorem get_luby_overflow :
    luby_spec 8388607 = 4194304 ∧ get_luby 512 8388607 = -2147483648
    ∧ ¬ (get_luby 512 8388607 = 512 * (luby_spec 8388607 : Int)) := by
  have hl : Nat.log 2 8388608 = 23 := by
    have h : (8388608 : Nat) = 2 ^ 23 := by norm_num
    have h2 := Nat.log_pow (b := 2) (by norm_num) 23
    rw [← h] at h2
    exact h2
  have ha : (8388607 : Nat) ≠ 1 := by decide
  have hb : (8388607 : Nat) + 1 = 8388608 := by norm_num
  have hc : 2 ^ Nat.log 2 (8388607 + 1) = 8388607 + 1 := by
    rw [hb, hl]; norm_num
  have hd : Nat.log 2 (8388607 + 1) ≠ 0 := by
    rw [hb, hl]; decide
  have hs : luby_spec 8388607 = 4194304 := by
    rw [luby_spec_pow2 8388607 ha hc, hb, hl]; norm_num
  have hg : get_luby 512 8388607 = -2147483648 := by
    rw [get_luby_pow2 512 8388607 ha hc hd, hb, hl]
    unfold wrap32
    norm_num
  refine ⟨hs, hg, ?_⟩
  rw [hs, hg]
  decide

/-! ### Conflicts at the top level -/

theorem derive_conflict_clause_top (s : my_manager) (conf : Option Nat) (clevel : Nat)
    (h : clevel ≤ 1) :
    derive_conflict_clause s conf clevel
      = some (0, 0,
          { s with
            assertion_level := 1,
            cdc := (Function.update (Function.update (Function.update s.cdc 0 0) 0 0) 1 0),
            cdc_index := 1 }) := by
  unfold derive_conflict_clause
  simp only [h, if_true]

theorem analyze_conflict_top (s : my_manager) (conf : Option Nat) (clevel : Nat)
    (h : clevel ≤ 1) :
    ∃ s2, analyze_conflict s conf clevel = some s2 ∧ s2.assertion_level = 0
      ∧ s2.conflict_clause = none := by
  unfold analyze_conflict
  simp only [derive_conflict_clause_top _ conf clevel h]
  simp

/-- C7: for every conflicting clause, when `clevel ≤ 1`
`derive_conflict_clause` returns size 0 with assertion level 0,
`analyze_conflict` then leaves `assertion_level = 0` and
`conflict_clause = NULL`, and the conflict loop of `solve`, entered at such a
decision level, leaves with `result = 0`. -/
theorem analyze_conflict_fatal (s : my_manager) (conf : Option Nat) (clevel : Nat)
    (h : clevel ≤ 1) :
    (∃ s1, derive_conflict_clause s conf clevel = some (0, 0, s1))
    ∧ (∃ s2, analyze_conflict s conf clevel = some s2 ∧ s2.assertion_level = 0
        ∧ s2.conflict_clause = none)
    ∧ (s.decision_level = clevel → conf = s.conflicting_clause →
        ∀ bfuel f : Nat, ∃ s2, solve_conflict_loop bfuel (f + 1) s false = some (0, s2)
          ∧ s2.assertion_level = 0 ∧ s2.conflict_clause = none) := by
  refine ⟨⟨_, derive_conflict_clause_top s conf clevel h⟩, analyze_conflict_top s conf clevel h, ?_⟩
  intro hd hc bfuel f
  obtain ⟨s2, h2, h3, h4⟩ := analyze_conflict_top s conf clevel h
  refine ⟨s2, ?_, h3, h4⟩
  rw [solve_conflict_loop]
  simp only [Bool.false_eq_true, if_false]
  rw [hd, ← hc, h2]
  simp [h3]

/-- C7, witness: the small instance at decision level 1. -/
theorem analyze_conflict_fatal_witness :
    (∃ s1, derive_conflict_clause example_manager none 1 = some (0, 0, s1))
    ∧ (∃ s2, analyze_conflict example_manager none 1 = some s2 ∧ s2.assertion_level = 0
        ∧ s2.conflict_clause = none)
    ∧ (∃ s2, solve_conflict_loop 10 1 example_manager false = some (0, s2)
        ∧ s2.assertion_level = 0 ∧ s2.conflict_clause = none) :=
  ⟨(analyze_conflict_fatal example_manager none 1 (le_refl 1)).1,
    (analyze_conflict_fatal example_manager none 1 (le_refl 1)).2.1,
    (analyze_conflict_fatal example_manager none 1 (le_refl 1)).2.2 rfl rfl 10 0⟩

/-! ### The heap: membership -/

theorem in_heap_iff (h : heap) (v : Nat) : in_heap h v = true ↔ h.indices v ≠ 0 := by
  unfold in_heap
  simp

theorem percolate_up_loop_nonzero (score : Nat → ℚ) (v : Nat) :
    ∀ (f : Nat) (order indices : Nat → Nat) (i : Nat), i ≠ 0 →
      (percolate_up_loop score v f order indices i).2.2 ≠ 0
      ∧ ∀ w, indices w ≠ 0 → (percolate_up_loop score v f order indices i).2.1 w ≠ 0 := by
  intro f
  induction f with
  | zero =>
    intro order indices i hi
    exact ⟨hi, fun w hw => hw⟩
  | succ f ih =>
    intro order indices i hi
    rw [percolate_up_loop]
    split
    · rename_i hc
      obtain ⟨h1, h2⟩ := ih (Function.update order i (order (i / 2)))
        (Function.update indices (order (i / 2)) i) (i / 2) hc.1
      refine ⟨h1, fun w hw => h2 w ?_⟩
      by_cases hw2 : w = order (i / 2)
      · rw [hw2, Function.update_same]
        exact hi
      · rw [Function.update_noteq hw2]
        exact hw
    · exact ⟨hi, fun w hw => hw⟩

theorem percolate_up_indices (score : Nat → ℚ) (h : heap) (i : Nat) (hi : i ≠ 0) :
    (percolate_up score h i).indices (h.order i) ≠ 0
    ∧ ∀ w, h.indices w ≠ 0 → (percolate_up score h i).indices w ≠ 0 := by
  obtain ⟨h1, h2⟩ := percolate_up_loop_nonzero score (h.order i) i h.order h.indices i hi
  unfold percolate_up
  constructor
  · simp only [Function.update_same]
    exact h1
  · intro w hw
    simp only
    by_cases hw2 : w = h.order i
    · rw [hw2, Function.update_same]
      exact h1
    · rw [Function.update_noteq hw2]
      exact h2 w hw

theorem undo_indices (score : Nat → ℚ) (h : heap) (v : Nat) :
    (undo score h v).indices v ≠ 0
    ∧ ∀ w, h.indices w ≠ 0 → (undo score h v).indices w ≠ 0 := by
  unfold undo
  by_cases hv : in_heap h v = true
  · rw [if_pos hv]
    exact ⟨(in_heap_iff h v).mp hv, fun w hw => hw⟩
  · rw [if_neg hv]
    unfold insert
    have hp := percolate_up_indices score
      { order := Function.update h.order (h.size + 1) v,
        indices := Function.update h.indices v (h.size + 1),
        size := h.size + 1 } (h.size + 1) (Nat.succ_ne_zero _)
    simp only [Function.update_same] at hp
    refine ⟨hp.1, fun w hw => hp.2 w ?_⟩
    by_cases hw2 : w = v
    · rw [hw2, Function.update_same]
      exact Nat.succ_ne_zero _
    · rw [Function.update_noteq hw2]
      exact hw

/-! ### Backtracking -/

theorem backtrack_step_fields (s : my_manager) (stack : Nat) :
    (backtrack_step s stack).assign = s.assign
    ∧ (backtrack_step s stack).vc = s.vc
    ∧ (backtrack_step s stack).status
        = Function.update s.status (var (s.assign (stack - 1))) 0
    ∧ (backtrack_step s stack).level
        = Function.update s.level (var (s.assign (stack - 1))) 0
    ∧ (backtrack_step s stack).reason
        = Function.update s.reason (var (s.assign (stack - 1))) none
    ∧ (backtrack_step s stack).var_order_heap
        = undo s.score s.var_order_heap (var (s.assign (stack - 1))) := by
  unfold backtrack_step
  by_cases h : s.save_progress = 1
  · simp [h]
  · simp [h]

theorem backtrack_loop_assign :
    ∀ (n : Nat) (s : my_manager) (stack : Nat),
      (backtrack_loop n s stack).assign = s.assign := by
  intro n
  induction n with
  | zero => intro s stack; rfl
  | succ n ih =>
    intro s stack
    rw [backtrack_loop, ih, (backtrack_step_fields s stack).1]

/-- A variable that is unassigned and in the heap stays so through the loop. -/
theorem backtrack_loop_zero :
    ∀ (n : Nat) (s : my_manager) (stack : Nat) (v : Nat),
      s.status v = 0 → s.level v = 0 → s.reason v = none →
      s.var_order_heap.indices v ≠ 0 →
      (backtrack_loop n s stack).status v = 0
      ∧ (backtrack_loop n s stack).level v = 0
      ∧ (backtrack_loop n s stack).reason v = none
      ∧ (backtrack_loop n s stack).var_order_heap.indices v ≠ 0 := by
  intro n
  induction n with
  | zero => intro s stack v h1 h2 h3 h4; exact ⟨h1, h2, h3, h4⟩
  | succ n ih =>
    intro s stack v h1 h2 h3 h4
    rw [backtrack_loop]
    obtain ⟨_, _, e1, e2, e3, e4⟩ := backtrack_step_fields s stack
    apply ih
    · rw [e1]
      by_cases hv : v = var (s.assign (stack - 1))
      · rw [hv, Function.update_same]
      · rw [Function.update_noteq hv]; exact h1
    · rw [e2]
      by_cases hv : v = var (s.assign (stack - 1))
      · rw [hv, Function.update_same]
      · rw [Function.update_noteq hv]; exact h2
    · rw [e3]
      by_cases hv : v = var (s.assign (stack - 1))
      · rw [hv, Function.update_same]
      · rw [Function.update_noteq hv]; exact h3
    · rw [e4]
      exact (undo_indices s.score s.var_order_heap _).2 v h4

/-- A variable with an entry among the `n` popped ones ends unassigned. -/
theorem backtrack_loop_popped :
    ∀ (n : Nat) (s : my_manager) (stack : Nat) (v : Nat), n ≤ stack →
      (∃ p, stack - n ≤ p ∧ p < stack ∧ var (s.assign p) = v) →
      (backtrack_loop n s stack).status v = 0
      ∧ (backtrack_loop n s stack).level v = 0
      ∧ (backtrack_loop n s stack).reason v = none
      ∧ (backtrack_loop n s stack).var_order_heap.indices v ≠ 0 := by
  intro n
  induction n with
  | zero =>
    intro s stack v _ hp
    obtain ⟨p, h1, h2, _⟩ := hp
    omega
  | succ n ih =>
    intro s stack v hn hp
    obtain ⟨p, h1, h2, h3⟩ := hp
    rw [backtrack_loop]
    obtain ⟨e0, _, e1, e2, e3, e4⟩ := backtrack_step_fields s stack
    by_cases hlast : p = stack - 1
    · have hv : v = var (s.assign (stack - 1)) := by rw [← hlast, h3]
      apply backtrack_loop_zero
      · rw [e1, hv, Function.update_same]
      · rw [e2, hv, Function.update_same]
      · rw [e3, hv, Function.update_same]
      · rw [e4, hv]
        exact (undo_indices s.score s.var_order_heap _).1
    · apply ih _ _ _ (by omega)
      refine ⟨p, by omega, by omega, ?_⟩
      rw [e0]
      exact h3

/-- A variable with no entry among the `n` popped ones is left alone. -/
theorem backtrack_loop_untouched :
    ∀ (n : Nat) (s : my_manager) (stack : Nat) (v : Nat), n ≤ stack →
      (∀ p, stack - n ≤ p → p < stack → var (s.assign p) ≠ v) →
      (backtrack_loop n s stack).status v = s.status v
      ∧ (backtrack_loop n s stack).level v = s.level v
      ∧ (backtrack_loop n s stack).reason v = s.reason v := by
  intro n
  induction n with
  | zero => intro s stack v _ _; exact ⟨rfl, rfl, rfl⟩
  | succ n ih =>
    intro s stack v hn hv
    rw [backtrack_loop]
    obtain ⟨e0, _, e1, e2, e3, _⟩ := backtrack_step_fields s stack
    have hne : v ≠ var (s.assign (stack - 1)) :=
      fun h => hv (stack - 1) (by omega) (by omega) h.symm
    obtain ⟨i1, i2, i3⟩ := ih (backtrack_step s stack) (stack - 1) v (by omega)
      (by
        intro p hp1 hp2
        rw [e0]
        exact hv p (by omega) (by omega))
    rw [i1, i2, i3, e1, e2, e3]
    exact ⟨Function.update_noteq hne _ _, Function.update_noteq hne _ _,
      Function.update_noteq hne _ _⟩

theorem backtrack_eq (s : my_manager) (dest : Nat) (h : dest ≤ s.decision_level) :
    backtrack s dest =
      { backtrack_loop (s.assign_top - s.decision_lit dest) s s.assign_top with
        assign_top :=
          (if s.assign_top > s.decision_lit dest then s.decision_lit dest else s.assign_top),
        decision_level := dest - 1 } := by
  have hnot : ¬ (s.decision_level < dest) := by omega
  unfold backtrack
  rw [if_neg hnot]

/-- C8: for `1 ≤ dest ≤ decision_level` in a state whose assignment stack is
partitioned by `decision_lit` and holds every variable that has a level,
`backtrack(dest)` undoes exactly the assignments at level `≥ dest`: every
variable of `1..vc` that had level `≥ dest` ends with status 0, level 0,
reason `NULL` and is a member of `var_order_heap`; every variable with level
`< dest` keeps its status, level and reason; `assign_top` is reset to
`decision_lit[dest]`; and `decision_level` becomes `dest - 1`. -/
theorem backtrack_undoes (s : my_manager) (dest : Nat) (h1 : 1 ≤ dest)
    (h2 : dest ≤ s.decision_level) (ht : trail_levels s) (ha : assigned_on_trail s) :
    (∀ v, 1 ≤ v → v ≤ s.vc → dest ≤ s.level v →
      (backtrack s dest).status v = 0 ∧ (backtrack s dest).level v = 0
      ∧ (backtrack s dest).reason v = none
      ∧ in_heap (backtrack s dest).var_order_heap v = true)
    ∧ (∀ v, s.level v < dest →
      (backtrack s dest).status v = s.status v ∧ (backtrack s dest).level v = s.level v
      ∧ (backtrack s dest).reason v = s.reason v)
    ∧ (backtrack s dest).assign_top = s.decision_lit dest
    ∧ (backtrack s dest).decision_level = dest - 1 := by
  obtain ⟨htop, hlev⟩ := ht dest h1 h2
  rw [backtrack_eq s dest h2]
  refine ⟨?_, ?_, ?_, rfl⟩
  · intro v hv1 hv2 hv3
    obtain ⟨p, hp1, hp2⟩ := ha v hv1 hv2 (by omega)
    have hp3 : s.decision_lit dest ≤ p := (hlev p hp1).mpr (by rw [hp2]; exact hv3)
    obtain ⟨r1, r2, r3, r4⟩ := backtrack_loop_popped (s.assign_top - s.decision_lit dest) s
      s.assign_top v (by omega) ⟨p, by omega, hp1, hp2⟩
    exact ⟨r1, r2, r3, (in_heap_iff _ _).mpr r4⟩
  · intro v hv
    exact backtrack_loop_untouched (s.assign_top - s.decision_lit dest) s s.assign_top v
      (by omega)
      (by
        intro p hp1 hp2 hp3
        have hp4 : s.decision_lit dest ≤ p := by omega
        have := (hlev p hp2).mp hp4
        rw [hp3] at this
        omega)
  · show (if s.assign_top > s.decision_lit dest then s.decision_lit dest else s.assign_top)
      = s.decision_lit dest
    split
    · rfl
    · omega

/-- C8, witness: undoing level 2 of the small instance after its conflict. -/
theorem backtrack_undoes_witness :
    (∀ v, 1 ≤ v → v ≤ example_conflict.vc → 2 ≤ example_conflict.level v →
      (backtrack example_conflict 2).status v = 0 ∧ (backtrack example_conflict 2).level v = 0
      ∧ (backtrack example_conflict 2).reason v = none
      ∧ in_heap (backtrack example_conflict 2).var_order_heap v = true)
    ∧ (∀ v, example_conflict.level v < 2 →
      (backtrack example_conflict 2).status v = example_conflict.status v
      ∧ (backtrack example_conflict 2).level v = example_conflict.level v
      ∧ (backtrack example_conflict 2).reason v = example_conflict.reason v)
    ∧ (backtrack example_conflict 2).assign_top = example_conflict.decision_lit 2
    ∧ (backtrack example_conflict 2).decision_level = 2 - 1 :=
  backtrack_undoes example_conflict 2 (by decide) (by decide) (by decide) (by decide)

theorem var_neg (l : Nat) : var (neg l) = var l := by
  rw [var_eq, var_eq, neg_eq]
  split <;> omega

theorem neg_neg (l : Nat) : neg (neg l) = l := by
  rw [neg_eq, neg_eq]
  split <;> split <;> omega

theorem neg_ne (l : Nat) : neg l ≠ l := by
  rw [neg_eq]
  split <;> omega

theorem neg_ne_zero (l : Nat) (h : 2 ≤ l) : neg l ≠ 0 := by
  rw [neg_eq]
  split <;> omega

theorem watched_index_eq (l : Nat) (h : 2 ≤ l) : watched_index l = l - 2 := by
  unfold watched_index
  rw [var_eq, sign_eq]
  omega

theorem watched_index_inj (l1 l2 : Nat) (h1 : 2 ≤ l1) (h2 : 2 ≤ l2)
    (h : watched_index l1 = watched_index l2) : l1 = l2 := by
  rw [watched_index_eq l1 h1, watched_index_eq l2 h2] at h
  omega

theorem lit_ok_neg (vc l : Nat) (h : lit_ok vc l) : lit_ok vc (neg l) := by
  unfold lit_ok at *
  rw [neg_eq]
  split <;> omega

theorem lit_ok_var (vc l : Nat) (h : lit_ok vc l) : 1 ≤ var l ∧ var l ≤ vc := by
  unfold lit_ok at h
  rw [var_eq]
  omega

theorem lit_of_var (l x : Nat) (h : var x = var l) : x = l ∨ x = neg l := by
  rw [var_eq, var_eq] at h
  rw [neg_eq]
  split <;> omega

/-- The status of the variable of a literal over `1..vc` is 0, the literal or
its negation. -/
theorem status_cases (vc : Nat) (status : Nat → Nat) (hs : status_ok vc status) (o : Nat)
    (ho : lit_ok vc o) :
    status (var o) = 0 ∨ status (var o) = o ∨ status (var o) = neg o := by
  by_cases h0 : status (var o) = 0
  · exact Or.inl h0
  · right
    exact lit_of_var o _ (hs (var o) (lit_ok_var vc o ho).2 h0)

/-! ### The heap: the variables it holds -/

theorem mem_swap (order : Nat → Nat) (i p n v : Nat) (hi1 : 1 ≤ i) (hin : i ≤ n)
    (hp1 : 1 ≤ p) (hpn : p ≤ n) (w : Nat) :
    (∃ j, j < n + 1 ∧ 1 ≤ j ∧ Function.update (Function.update order i (order p)) p v j = w)
    ↔ (∃ j, j < n + 1 ∧ 1 ≤ j ∧ Function.update order i v j = w) := by
  constructor
  · rintro ⟨j, hj1, hj2, hj3⟩
    by_cases hjp : j = p
    · subst hjp
      rw [Function.update_same] at hj3
      exact ⟨i, by omega, hi1, by rw [Function.update_same]; exact hj3⟩
    · rw [Function.update_noteq hjp] at hj3
      by_cases hji : j = i
      · subst hji
        rw [Function.update_same] at hj3
        have hpj : p ≠ j := fun h => hjp h.symm
        exact ⟨p, by omega, hp1, by rw [Function.update_noteq hpj]; exact hj3⟩
      · rw [Function.update_noteq hji] at hj3
        exact ⟨j, hj1, hj2, by rw [Function.update_noteq hji]; exact hj3⟩
  · rintro ⟨j, hj1, hj2, hj3⟩
    by_cases hji : j = i
    · subst hji
      rw [Function.update_same] at hj3
      exact ⟨p, by omega, hp1, by rw [Function.update_same]; exact hj3⟩
    · rw [Function.update_noteq hji] at hj3
      by_cases hjp : j = p
      · subst hjp
        by_cases hij : i = j
        · exact absurd hij.symm hji
        · refine ⟨i, by omega, hi1, ?_⟩
          rw [Function.update_noteq hij, Function.update_same]
          exact hj3
      · exact ⟨j, hj1, hj2, by
          rw [Function.update_noteq hjp, Function.update_noteq hji]; exact hj3⟩

theorem percolate_up_loop_mem (score : Nat → ℚ) (v n : Nat) :
    ∀ (f : Nat) (order indices : Nat → Nat) (i : Nat), 1 ≤ i → i ≤ n →
      1 ≤ (percolate_up_loop score v f order indices i).2.2
      ∧ (percolate_up_loop score v f order indices i).2.2 ≤ n
      ∧ (∀ w, (∃ j, j < n + 1 ∧ 1 ≤ j ∧
            Function.update (percolate_up_loop score v f order indices i).1
              (percolate_up_loop score v f order indices i).2.2 v j = w)
          ↔ (∃ j, j < n + 1 ∧ 1 ≤ j ∧ Function.update order i v j = w))
      ∧ (∀ w, (percolate_up_loop score v f order indices i).2.1 w ≠ 0 →
          indices w ≠ 0 ∨ ∃ j, j < n + 1 ∧ 1 ≤ j ∧ Function.update order i v j = w) := by
  intro f
  induction f with
  | zero =>
    intro order indices i h1 h2
    exact ⟨h1, h2, fun w => Iff.rfl, fun w hw => Or.inl hw⟩
  | succ f ih =>
    intro order indices i h1 h2
    rw [percolate_up_loop]
    by_cases hc : i / 2 ≠ 0 ∧ gt score v (order (i / 2)) = true
    · rw [if_pos hc]
      have hp1 : 1 ≤ i / 2 := by omega
      have hpn : i / 2 ≤ n := by omega
      have hpi : i / 2 ≠ i := by omega
      obtain ⟨r1, r2, r3, r4⟩ := ih (Function.update order i (order (i / 2)))
        (Function.update indices (order (i / 2)) i) (i / 2) hp1 hpn
      refine ⟨r1, r2, fun w => (r3 w).trans (mem_swap order i (i / 2) n v h1 h2 hp1 hpn w), ?_⟩
      intro w hw
      rcases r4 w hw with h | h
      · by_cases hwp : w = order (i / 2)
        · right
          exact ⟨i / 2, by omega, hp1, by rw [Function.update_noteq hpi]; exact hwp.symm⟩
        · left
          rw [Function.update_noteq hwp] at h
          exact h
      · right
        exact (mem_swap order i (i / 2) n v h1 h2 hp1 hpn w).mp h
    · rw [if_neg hc]
      exact ⟨h1, h2, fun w => Iff.rfl, fun w hw => Or.inl hw⟩

theorem percolate_down_loop_mem (score : Nat → ℚ) (v n : Nat) :
    ∀ (f : Nat) (order indices : Nat → Nat) (i : Nat), 1 ≤ i → i ≤ n →
      1 ≤ (percolate_down_loop score v n f order indices i).2.2
      ∧ (percolate_down_loop score v n f order indices i).2.2 ≤ n
      ∧ (∀ w, (∃ j, j < n + 1 ∧ 1 ≤ j ∧
            Function.update (percolate_down_loop score v n f order indices i).1
              (percolate_down_loop score v n f order indices i).2.2 v j = w)
          ↔ (∃ j, j < n + 1 ∧ 1 ≤ j ∧ Function.update order i v j = w))
      ∧ (∀ w, (percolate_down_loop score v n f order indices i).2.1 w ≠ 0 →
          indices w ≠ 0 ∨ ∃ j, j < n + 1 ∧ 1 ≤ j ∧ Function.update order i v j = w) := by
  intro f
  induction f with
  | zero =>
    intro order indices i h1 h2
    exact ⟨h1, h2, fun w => Iff.rfl, fun w hw => Or.inl hw⟩
  | succ f ih =>
    intro order indices i h1 h2
    rw [percolate_down_loop]
    by_cases hc : 2 * i ≤ n
    · rw [if_pos hc]
      simp only
      by_cases hg : gt score (order (if 2 * i + 1 ≤ n ∧
          gt score (order (2 * i + 1)) (order (2 * i)) = true then 2 * i + 1 else 2 * i)) v = true
      · rw [if_pos hg]
        -- the position of the bigger child
        have hb : ∃ b, b = (if 2 * i + 1 ≤ n ∧ gt score (order (2 * i + 1)) (order (2 * i)) = true
            then 2 * i + 1 else 2 * i) ∧ 1 ≤ b ∧ b ≤ n ∧ b ≠ i := by
          refine ⟨_, rfl, ?_, ?_, ?_⟩
          · split <;> omega
          · split
            · rename_i h; exact h.1
            · exact hc
          · split <;> omega
        obtain ⟨b, hbe, hb1, hbn, hbi⟩ := hb
        rw [← hbe]
        obtain ⟨r1, r2, r3, r4⟩ := ih (Function.update order i (order b))
          (Function.update indices (order b) i) b hb1 hbn
        refine ⟨r1, r2, fun w => (r3 w).trans (mem_swap order i b n v h1 h2 hb1 hbn w), ?_⟩
        intro w hw
        rcases r4 w hw with h | h
        · by_cases hwp : w = order b
          · right
            exact ⟨b, by omega, hb1, by rw [Function.update_noteq hbi]; exact hwp.symm⟩
          · left
            rw [Function.update_noteq hwp] at h
            exact h
        · right
          exact (mem_swap order i b n v h1 h2 hb1 hbn w).mp h
      · rw [if_neg hg]
        exact ⟨h1, h2, fun w => Iff.rfl, fun w hw => Or.inl hw⟩
    · rw [if_neg hc]
      exact ⟨h1, h2, fun w => Iff.rfl, fun w hw => Or.inl hw⟩

theorem percolate_up_mem (score : Nat → ℚ) (h : heap) (i : Nat) (h1 : 1 ≤ i)
    (h2 : i ≤ h.size) :
    (percolate_up score h i).size = h.size
    ∧ (∀ w, heap_mem (percolate_up score h i) w ↔ heap_mem h w)
    ∧ (∀ w, (percolate_up score h i).indices w ≠ 0 → h.indices w ≠ 0 ∨ heap_mem h w) := by
  obtain ⟨r1, r2, r3, r4⟩ :=
    percolate_up_loop_mem score (h.order i) h.size i h.order h.indices i h1 h2
  have hself : Function.update h.order i (h.order i) = h.order := Function.update_eq_self i h.order
  rw [hself] at r3 r4
  refine ⟨rfl, fun w => r3 w, ?_⟩
  intro w hw
  unfold percolate_up at hw
  simp only at hw
  by_cases hwv : w = h.order i
  · right
    exact ⟨i, by omega, h1, hwv.symm⟩
  · rw [Function.update_noteq hwv] at hw
    exact r4 w hw

theorem percolate_down_mem (score : Nat → ℚ) (h : heap) (i : Nat) (h1 : 1 ≤ i)
    (h2 : i ≤ h.size) :
    (percolate_down score h i).size = h.size
    ∧ (∀ w, heap_mem (percolate_down score h i) w ↔ heap_mem h w)
    ∧ (∀ w, (percolate_down score h i).indices w ≠ 0 → h.indices w ≠ 0 ∨ heap_mem h w) := by
  obtain ⟨r1, r2, r3, r4⟩ :=
    percolate_down_loop_mem score (h.order i) h.size h.size h.order h.indices i h1 h2
  have hself : Function.update h.order i (h.order i) = h.order := Function.update_eq_self i h.order
  rw [hself] at r3 r4
  refine ⟨rfl, fun w => r3 w, ?_⟩
  intro w hw
  unfold percolate_down at hw
  simp only at hw
  by_cases hwv : w = h.order i
  · right
    exact ⟨i, by omega, h1, hwv.symm⟩
  · rw [Function.update_noteq hwv] at hw
    exact r4 w hw

theorem insert_mem (score : Nat → ℚ) (h : heap) (v : Nat) :
    (insert score h v).size = h.size + 1
    ∧ (∀ w, heap_mem (insert score h v) w ↔ heap_mem h w ∨ w = v)
    ∧ (∀ w, (insert score h v).indices w ≠ 0 → h.indices w ≠ 0 ∨ heap_mem h w ∨ w = v) := by
  have hp := percolate_up_mem score
    { order := Function.update h.order (h.size + 1) v,
      indices := Function.update h.indices v (h.size + 1),
      size := h.size + 1 } (h.size + 1) (by omega) (le_refl _)
  have hm : ∀ w, heap_mem
      { order := Function.update h.order (h.size + 1) v,
        indices := Function.update h.indices v (h.size + 1),
        size := h.size + 1 } w ↔ heap_mem h w ∨ w = v := by
    intro w
    unfold heap_mem
    simp only
    constructor
    · rintro ⟨j, hj1, hj2, hj3⟩
      by_cases hj : j = h.size + 1
      · subst hj
        rw [Function.update_same] at hj3
        exact Or.inr hj3.symm
      · rw [Function.update_noteq hj] at hj3
        exact Or.inl ⟨j, by omega, hj2, hj3⟩
    · rintro (⟨j, hj1, hj2, hj3⟩ | hw)
      · have hj : j ≠ h.size + 1 := by omega
        exact ⟨j, by omega, hj2, by rw [Function.update_noteq hj]; exact hj3⟩
      · exact ⟨h.size + 1, by omega, by omega, by rw [Function.update_same]; exact hw.symm⟩
  obtain ⟨p1, p2, p3⟩ := hp
  unfold insert
  refine ⟨p1, fun w => (p2 w).trans (hm w), ?_⟩
  intro w hw
  rcases p3 w hw with h1 | h1
  · simp only at h1
    by_cases hwv : w = v
    · exact Or.inr (Or.inr hwv)
    · rw [Function.update_noteq hwv] at h1
      exact Or.inl h1
  · rcases (hm w).mp h1 with h2 | h2
    · exact Or.inr (Or.inl h2)
    · exact Or.inr (Or.inr h2)

theorem undo_mem (score : Nat → ℚ) (h : heap) (v : Nat) (hd : h.indices v ≠ 0 → heap_mem h v) :
    heap_mem (undo score h v) v
    ∧ (∀ w, heap_mem (undo score h v) w ↔ heap_mem h w ∨ w = v)
    ∧ (∀ w, (undo score h v).indices w ≠ 0 → h.indices w ≠ 0 ∨ heap_mem h w ∨ w = v)
    ∧ (undo score h v).size ≤ h.size + 1 := by
  unfold undo
  by_cases hv : in_heap h v = true
  · rw [if_pos hv]
    have hm := hd ((in_heap_iff h v).mp hv)
    refine ⟨hm, fun w => ⟨fun x => Or.inl x, ?_⟩, fun w hw => Or.inl hw, by omega⟩
    rintro (x | x)
    · exact x
    · rw [x]; exact hm
  · rw [if_neg hv]
    obtain ⟨i1, i2, i3⟩ := insert_mem score h v
    exact ⟨(i2 v).mpr (Or.inr rfl), i2, i3, by omega⟩

theorem get_min_element_mem (score : Nat → ℚ) (h : heap) (hs : 1 ≤ h.size) :
    (get_min_element score h).1 = h.order 1
    ∧ (get_min_element score h).2.size = h.size - 1
    ∧ (∀ w, heap_mem (get_min_element score h).2 w → heap_mem h w)
    ∧ (∀ w, heap_mem h w → w = h.order 1 ∨ heap_mem (get_min_element score h).2 w)
    ∧ (∀ w, (∀ u, h.indices u ≠ 0 → u = w → heap_mem h u) →
        (get_min_element score h).2.indices w ≠ 0 → heap_mem (get_min_element score h).2 w) := by
  -- the heap before `percolate_down`
  have key : ∀ h1 : heap,
      h1 = { order := Function.update h.order 1 (h.order h.size),
             indices := Function.update (Function.update h.indices
               (Function.update h.order 1 (h.order h.size) 1) 1) (h.order 1) 0,
             size := h.size - 1 } →
      (∀ w, heap_mem h1 w → heap_mem h w)
      ∧ (∀ w, heap_mem h w → w = h.order 1 ∨ heap_mem h1 w)
      ∧ (∀ w, (∀ u, h.indices u ≠ 0 → u = w → heap_mem h u) →
          h1.indices w ≠ 0 → heap_mem h1 w) := by
    intro h1 he
    have a1 : ∀ w, heap_mem h1 w → heap_mem h w := by
      rintro w ⟨j, hj1, hj2, hj3⟩
      rw [he] at hj1 hj3
      simp only at hj1 hj3
      by_cases hj : j = 1
      · subst hj
        rw [Function.update_same] at hj3
        exact ⟨h.size, by omega, hs, hj3⟩
      · rw [Function.update_noteq hj] at hj3
        exact ⟨j, by omega, hj2, hj3⟩
    have a2 : ∀ w, heap_mem h w → w = h.order 1 ∨ heap_mem h1 w := by
      rintro w ⟨j, hj1, hj2, hj3⟩
      by_cases hj : j = 1
      · subst hj
        exact Or.inl hj3.symm
      · right
        rw [he]
        by_cases hjs : j = h.size
        · refine ⟨1, by simp only; omega, le_refl 1, ?_⟩
          simp only
          rw [Function.update_same, ← hjs]
          exact hj3
        · refine ⟨j, by simp only; omega, hj2, ?_⟩
          simp only
          rw [Function.update_noteq hj]
          exact hj3
    refine ⟨a1, a2, ?_⟩
    intro w hd hw
    rw [he] at hw
    simp only [Function.update_same] at hw
    by_cases hwr : w = h.order 1
    · rw [hwr, Function.update_same] at hw
      exact absurd rfl hw
    · rw [Function.update_noteq hwr] at hw
      have hmem : heap_mem h w := by
        by_cases hws : w = h.order h.size
        · exact ⟨h.size, by omega, hs, hws.symm⟩
        · rw [Function.update_noteq hws] at hw
          exact hd w hw rfl
      rcases a2 w hmem with x | x
      · exact absurd x hwr
      · exact x
  obtain ⟨k1, k2, k3⟩ := key _ rfl
  unfold get_min_element
  simp only
  by_cases hgt : h.size - 1 > 1
  · rw [if_pos hgt]
    obtain ⟨p1, p2, p3⟩ := percolate_down_mem score
      { order := Function.update h.order 1 (h.order h.size),
        indices := Function.update (Function.update h.indices
          (Function.update h.order 1 (h.order h.size) 1) 1) (h.order 1) 0,
        size := h.size - 1 } 1 (le_refl 1) (by simp only; omega)
    refine ⟨trivial, p1, fun w hw => k1 w ((p2 w).mp hw), ?_, ?_⟩
    · intro w hw
      rcases k2 w hw with x | x
      · exact Or.inl x
      · exact Or.inr ((p2 w).mpr x)
    · intro w hd hw
      rcases p3 w hw with x | x
      · exact (p2 w).mpr (k3 w hd x)
      · exact (p2 w).mpr x
  · rw [if_neg hgt]
    exact ⟨trivial, rfl, k1, k2, k3⟩

/-! ### The implication queue -/

theorem queue_ok_mem (vc : Nat) (status : Nat → Nat) (q : heap) (h : queue_ok vc status q)
    (w : Nat) (hw : heap_mem q w) : 1 ≤ w ∧ w ≤ vc ∧ status w ≠ 0 := by
  obtain ⟨j, hj1, hj2, hj3⟩ := hw
  have := h.1 j hj2 (by omega)
  rw [hj3] at this
  exact this

theorem queue_ok_of_mem (vc : Nat) (status : Nat → Nat) (q : heap)
    (h1 : ∀ w, heap_mem q w → 1 ≤ w ∧ w ≤ vc ∧ status w ≠ 0)
    (h2 : ∀ v, v ≤ vc → q.indices v ≠ 0 → heap_mem q v) : queue_ok vc status q :=
  ⟨fun i hi1 hi2 => h1 (q.order i) ⟨i, by omega, hi1, rfl⟩, h2⟩

theorem queue_ok_undo (score : Nat → ℚ) (vc : Nat) (status : Nat → Nat) (q : heap) (v : Nat)
    (h : queue_ok vc status q) (hv1 : 1 ≤ v) (hv2 : v ≤ vc) (hv3 : status v ≠ 0) :
    queue_ok vc status (undo score q v) := by
  obtain ⟨u1, u2, u3, _⟩ := undo_mem score q v (h.2 v hv2)
  apply queue_ok_of_mem
  · intro w hw
    rcases (u2 w).mp hw with x | x
    · exact queue_ok_mem vc status q h w x
    · rw [x]; exact ⟨hv1, hv2, hv3⟩
  · intro w hw1 hw2
    rcases u3 w hw2 with x | x | x
    · exact (u2 w).mpr (Or.inl (h.2 w hw1 x))
    · exact (u2 w).mpr (Or.inl x)
    · exact (u2 w).mpr (Or.inr x)

theorem queue_ok_status (vc : Nat) (status : Nat → Nat) (q : heap) (u x : Nat)
    (h : queue_ok vc status q) (hu : status u = 0) :
    queue_ok vc (Function.update status u x) q := by
  apply queue_ok_of_mem
  · intro w hw
    obtain ⟨a, b, c⟩ := queue_ok_mem vc status q h w hw
    refine ⟨a, b, ?_⟩
    have hwu : w ≠ u := fun e => c (by rw [e]; exact hu)
    rw [Function.update_noteq hwu]
    exact c
  · exact h.2

theorem dequeue_empty (score : Nat → ℚ) (q : heap) (h : q.size = 0) :
    dequeue score q = (0, q) := by
  unfold dequeue empty
  simp [h]

theorem dequeue_nonempty (score : Nat → ℚ) (q : heap) (h : q.size ≠ 0) :
    dequeue score q = get_min_element score q := by
  unfold dequeue empty
  simp [h]

theorem queue_ok_dequeue (score : Nat → ℚ) (vc : Nat) (status : Nat → Nat) (q : heap)
    (h : queue_ok vc status q) (hs : q.size ≠ 0) :
    queue_ok vc status (dequeue score q).2
    ∧ heap_mem q (dequeue score q).1
    ∧ (dequeue score q).2.size = q.size - 1
    ∧ (∀ w, heap_mem (dequeue score q).2 w → heap_mem q w)
    ∧ (∀ w, heap_mem q w → w = (dequeue score q).1 ∨ heap_mem (dequeue score q).2 w) := by
  rw [dequeue_nonempty score q hs]
  obtain ⟨g1, g2, g3, g4, g5⟩ := get_min_element_mem score q (by omega)
  refine ⟨?_, ?_, g2, g3, ?_⟩
  · apply queue_ok_of_mem
    · intro w hw
      exact queue_ok_mem vc status q h w (g3 w hw)
    · intro w hw1 hw2
      exact g5 w (fun u hu e => h.2 u (by rw [e]; exact hw1) hu) hw2
  · rw [g1]
    exact ⟨1, by omega, le_refl 1, rfl⟩
  · intro w hw
    rw [g1]
    exact g4 w hw

/-- A `dequeue` that yields 0 from a well-formed queue has found it empty. -/
theorem dequeue_zero (score : Nat → ℚ) (vc : Nat) (status : Nat → Nat) (q : heap)
    (h : queue_ok vc status q) (hd : (dequeue score q).1 = 0) :
    q.size = 0 ∧ (dequeue score q).2 = q := by
  by_cases hs : q.size = 0
  · rw [dequeue_empty score q hs]
    exact ⟨hs, rfl⟩
  · exfalso
    obtain ⟨_, d2, _⟩ := queue_ok_dequeue score vc status q h hs
    have := (queue_ok_mem vc status q h _ d2).1
    omega

/-! ### Lists of literals -/

theorem find_unresolved_some (status : Nat → Nat) :
    ∀ (t : List Nat) (k0 k : Nat), find_unresolved status t k0 = some k →
      ∃ m, k = k0 + m ∧ m < t.length ∧ unresolved status (t.getD m 0) = true := by
  intro t
  induction t with
  | nil => intro k0 k h; simp [find_unresolved] at h
  | cons x xs ih =>
    intro k0 k h
    rw [find_unresolved] at h
    by_cases hx : unresolved status x = true
    · rw [if_pos hx] at h
      refine ⟨0, ?_, by simp, by simpa using hx⟩
      simp only [Option.some.injEq] at h
      omega
    · rw [if_neg hx] at h
      obtain ⟨m, h1, h2, h3⟩ := ih (k0 + 1) k h
      refine ⟨m + 1, by omega, by simp; omega, ?_⟩
      simpa using h3

theorem find_unresolved_none (status : Nat → Nat) :
    ∀ (t : List Nat) (k0 : Nat), find_unresolved status t k0 = none →
      ∀ x ∈ t, status (var x) = neg x := by
  intro t
  induction t with
  | nil => intro k0 _ x hx; simp at hx
  | cons y ys ih =>
    intro k0 h x hx
    rw [find_unresolved] at h
    by_cases hy : unresolved status y = true
    · rw [if_pos hy] at h
      simp at h
    · rw [if_neg hy] at h
      rcases List.mem_cons.mp hx with e | e
      · rw [e]
        unfold unresolved at hy
        simpa using hy
      · exact ih (k0 + 1) h x e

theorem perm_swap_into (b : Nat) :
    ∀ (t : List Nat) (m : Nat), m < t.length →
      (t.getD m 0 :: t.set m b).Perm (b :: t) := by
  intro t
  induction t with
  | nil => intro m h; simp at h
  | cons x xs ih =>
    intro m h
    cases m with
    | zero =>
      simp only [List.getD_cons_zero, List.set_cons_zero]
      exact List.Perm.swap b x xs
    | succ m =>
      simp only [List.getD_cons_succ, List.set_cons_succ]
      have h2 : m < xs.length := by simpa using h
      have := ih m h2
      calc (xs.getD m 0 :: x :: xs.set m b).Perm (x :: xs.getD m 0 :: xs.set m b) :=
            List.Perm.swap _ _ _
        _ |>.Perm (x :: b :: xs) := List.Perm.cons x this
        _ |>.Perm (b :: x :: xs) := List.Perm.swap _ _ _

/-! ### One clause of a watched list -/

theorem set_lits_set_lits (s : my_manager) (c : Nat) (l1 l2 : List Nat) :
    set_lits (set_lits s c l1) c l2 = set_lits s c l2 := by
  unfold set_lits
  simp

/-- The cases of `bcp_clause` on a clause `a :: b :: t` that watches
`neg_lit`; `o` is its other watched literal. -/
theorem bcp_clause_spec (slevel neg_lit : Nat) (s : my_manager) (last clause : Nat)
    (a b : Nat) (t : List Nat) (hl : (s.cl clause).lits = a :: b :: t)
    (hw : a = neg_lit ∨ b = neg_lit) :
    ∃ o, ((o = a ∧ neg_lit = b) ∨ (o = b ∧ neg_lit = a)) ∧
      ((s.status (var o) = o ∧
          bcp_clause slevel neg_lit s last clause
            = clause_outcome.kept (set_lits s clause (o :: neg_lit :: t)) last)
      ∨ (s.status (var o) ≠ o ∧ ∃ m, m < t.length
          ∧ s.status (var (t.getD m 0)) ≠ neg (t.getD m 0)
          ∧ bcp_clause slevel neg_lit s last clause
            = clause_outcome.moved (add_watched_clause
                (set_lits s clause (o :: t.getD m 0 :: t.set m neg_lit)) (t.getD m 0) clause))
      ∨ (s.status (var o) ≠ o ∧ (∀ x ∈ t, s.status (var x) = neg x)
          ∧ s.status (var o) = neg o
          ∧ bcp_clause slevel neg_lit s last clause
            = clause_outcome.conflict (set_lits s clause (o :: neg_lit :: t)))
      ∨ (s.status (var o) ≠ o ∧ (∀ x ∈ t, s.status (var x) = neg x)
          ∧ s.status (var o) ≠ neg o ∧ s.status (var o) = 0
          ∧ bcp_clause slevel neg_lit s last clause
            = clause_outcome.kept
                (bcp_imply slevel (set_lits s clause (o :: neg_lit :: t)) last clause o)
                (last + 1))
      ∨ (s.status (var o) ≠ o ∧ (∀ x ∈ t, s.status (var x) = neg x)
          ∧ s.status (var o) ≠ neg o ∧ s.status (var o) ≠ 0
          ∧ bcp_clause slevel neg_lit s last clause
            = clause_outcome.kept (set_lits s clause (o :: neg_lit :: t)) last)) := by
  -- the literal array after the swap that brings `neg_lit` to position 1
  have hnorm : ∃ o, ((o = a ∧ neg_lit = b) ∨ (o = b ∧ neg_lit = a)) ∧
      (if (s.cl clause).lits.getD 1 0 ≠ neg_lit
        then ((s.cl clause).lits.set 1 ((s.cl clause).lits.getD 0 0)).set 0
          ((s.cl clause).lits.getD 1 0)
        else (s.cl clause).lits) = o :: neg_lit :: t := by
    rw [hl]
    by_cases hb : b = neg_lit
    · refine ⟨a, Or.inl ⟨rfl, hb.symm⟩, ?_⟩
      simp [hb]
    · have ha : a = neg_lit := by
        rcases hw with h | h
        · exact h
        · exact absurd h hb
      refine ⟨b, Or.inr ⟨rfl, ha.symm⟩, ?_⟩
      simp [hb, ha]
  obtain ⟨o, ho, hn⟩ := hnorm
  refine ⟨o, ho, ?_⟩
  unfold bcp_clause
  simp only [hn]
  unfold bcp_clause_at
  have hst : (set_lits s clause (o :: neg_lit :: t)).status = s.status := rfl
  simp only [hst, List.getD_cons_zero, List.getD_cons_succ, List.drop_succ_cons, List.drop_zero,
    set_lits_set_lits]
  by_cases h1 : s.status (var o) = o
  · left
    refine ⟨h1, ?_⟩
    simp [lit_set, h1]
  · right
    have hls : lit_set s.status o = false := by simp [lit_set, h1]
    simp only [hls, Bool.false_eq_true, if_false]
    cases hf : find_unresolved s.status t 2 with
    | some k =>
      left
      obtain ⟨m, hk, hm, hu⟩ := find_unresolved_some s.status t 2 k hf
      refine ⟨h1, m, hm, ?_, ?_⟩
      · unfold unresolved at hu
        simpa using hu
      · subst hk
        simp only
        have e1 : (o :: neg_lit :: t).getD (2 + m) 0 = t.getD m 0 := by
          rw [show 2 + m = m + 1 + 1 by omega]
          simp
        have e2 : ((o :: neg_lit :: t).set 1 (t.getD m 0)).set (2 + m) neg_lit
            = o :: t.getD m 0 :: t.set m neg_lit := by
          rw [show 2 + m = m + 1 + 1 by omega]
          simp
        rw [e1, e2]
    | none =>
      right
      have hall := find_unresolved_none s.status t 2 hf
      simp only
      by_cases h2 : s.status (var o) = neg o
      · left
        exact ⟨h1, hall, h2, by rw [if_pos h2]⟩
      · right
        rw [if_neg h2]
        by_cases h3 : s.status (var o) = 0
        · left
          exact ⟨h1, hall, h2, h3, by rw [if_pos h3]⟩
        · right
          exact ⟨h1, hall, h2, h3, by rw [if_neg h3]⟩

/-! ### The two-watched-literal invariant under the moves of `bcp` -/

theorem shape_of_length (l : List Nat) (h : 2 ≤ l.length) : ∃ a b t, l = a :: b :: t := by
  match l, h with
  | a :: b :: t, _ => exact ⟨a, b, t, rfl⟩

theorem watches_cons (ix : Int) (a b : Nat) (t : List Nat) (l : Nat) :
    watches { index := ix, lits := a :: b :: t } l ↔ a = l ∨ b = l := by
  unfold watches
  simp

/-- Exchanging the two watched literals of a stored clause. -/
theorem kb_inv_swap (vc : Nat) (ptrs : List Nat) (cl : Nat → my_clause)
    (W : Nat → List Nat) (c a b o n : Nat) (t : List Nat)
    (h : kb_inv vc ptrs cl W) (hl : (cl c).lits = a :: b :: t)
    (ho : (o = a ∧ n = b) ∨ (o = b ∧ n = a)) :
    kb_inv vc ptrs (Function.update cl c { cl c with lits := o :: n :: t }) W := by
  obtain ⟨h1, h2, h3⟩ := h
  have hperm : (o :: n :: t).Perm (a :: b :: t) := by
    rcases ho with ⟨e1, e2⟩ | ⟨e1, e2⟩
    · rw [e1, e2]
    · rw [e1, e2]; exact List.Perm.swap a b t
  have hwat : ∀ l, watches { cl c with lits := o :: n :: t } l ↔ watches (cl c) l := by
    intro l
    unfold watches
    rw [hl]
    simp only [List.getD_cons_zero, List.getD_cons_succ]
    rcases ho with ⟨e1, e2⟩ | ⟨e1, e2⟩
    · rw [e1, e2]
    · rw [e1, e2]; exact Or.comm
  refine ⟨?_, ?_, ?_⟩
  · intro c' hc'
    by_cases hcc : c' = c
    · subst hcc
      rw [Function.update_same]
      obtain ⟨x1, x2, x3⟩ := h1 c' hc'
      rw [hl] at x1 x2 x3
      refine ⟨by rw [hperm.length_eq]; exact x1, hperm.nodup_iff.mpr x2, ?_⟩
      intro x hx
      exact x3 x (hperm.mem_iff.mp hx)
    · rw [Function.update_noteq hcc]
      exact h1 c' hc'
  · intro l hl1 hl2
    obtain ⟨x1, x2⟩ := h2 l hl1 hl2
    refine ⟨x1, ?_⟩
    intro c' hc'
    obtain ⟨y1, y2⟩ := x2 c' hc'
    refine ⟨y1, ?_⟩
    by_cases hcc : c' = c
    · subst hcc
      rw [Function.update_same]
      exact (hwat l).mpr y2
    · rw [Function.update_noteq hcc]
      exact y2
  · intro c' hc'
    by_cases hcc : c' = c
    · subst hcc
      rw [Function.update_same]
      obtain ⟨x1, x2⟩ := h3 c' hc'
      rw [hl] at x1 x2
      simp only [List.getD_cons_zero, List.getD_cons_succ] at x1 x2 ⊢
      rcases ho with ⟨e1, e2⟩ | ⟨e1, e2⟩
      · rw [e1, e2]; exact ⟨x1, x2⟩
      · rw [e1, e2]; exact ⟨x2, x1⟩
    · rw [Function.update_noteq hcc]
      exact h3 c' hc'

/-- Moving the second watch of the stored clause `c = o :: n :: t` from `n`
to the literal at position `m` of `t`: the clause leaves the list of `n`
(which read `kept ++ c :: rest`) and is appended to the list of the new
literal. -/
theorem kb_inv_move (vc : Nat) (ptrs : List Nat) (cl : Nat → my_clause)
    (W0 : Nat → List Nat) (c o n : Nat) (t : List Nat) (m : Nat) (kept rest : List Nat)
    (h : kb_inv vc ptrs cl (Function.update W0 (watched_index n) (kept ++ c :: rest)))
    (hc : c ∈ ptrs) (hl : (cl c).lits = o :: n :: t) (hm : m < t.length) :
    kb_inv vc ptrs
      (Function.update cl c { cl c with lits := o :: t.getD m 0 :: t.set m n })
      (Function.update
        (Function.update W0 (watched_index (t.getD m 0))
          (W0 (watched_index (t.getD m 0)) ++ [c]))
        (watched_index n) (kept ++ rest)) := by
  obtain ⟨h1, h2, h3⟩ := h
  obtain ⟨c1, c2, c3⟩ := h1 c hc
  rw [hl] at c1 c2 c3
  have htm_mem : t.getD m 0 ∈ t := by
    rw [List.getD_eq_getElem _ _ hm]
    exact List.getElem_mem hm
  have ho_ok : lit_ok vc o := c3 o (by simp)
  have hn_ok : lit_ok vc n := c3 n (by simp)
  have htm_ok : lit_ok vc (t.getD m 0) :=
    c3 _ (List.mem_cons_of_mem _ (List.mem_cons_of_mem _ htm_mem))
  have hon : o ≠ n := by
    intro e
    exact (List.nodup_cons.mp c2).1 (e ▸ List.mem_cons_self n t)
  have htm_o : t.getD m 0 ≠ o := by
    intro e
    exact (List.nodup_cons.mp c2).1 (List.mem_cons_of_mem _ (e ▸ htm_mem))
  have htm_n : t.getD m 0 ≠ n := by
    intro e
    exact (List.nodup_cons.mp (List.nodup_cons.mp c2).2).1 (e ▸ htm_mem)
  have hperm : (o :: t.getD m 0 :: t.set m n).Perm (o :: n :: t) :=
    List.Perm.cons o (perm_swap_into n t m hm)
  have hw_ne : ∀ x y, lit_ok vc x → lit_ok vc y → x ≠ y →
      watched_index x ≠ watched_index y :=
    fun x y hx hy hxy e => hxy (watched_index_inj x y hx.1 hy.1 e)
  have hw10 : watched_index (t.getD m 0) ≠ watched_index n := hw_ne _ _ htm_ok hn_ok htm_n
  -- the old lists
  have hWn : Function.update W0 (watched_index n) (kept ++ c :: rest) (watched_index n)
      = kept ++ c :: rest := Function.update_same _ _ _
  have hWo : ∀ w, w ≠ watched_index n →
      Function.update W0 (watched_index n) (kept ++ c :: rest) w = W0 w :=
    fun w hw => Function.update_noteq hw _ _
  have hnd := (h2 n hn_ok.1 hn_ok.2).1
  rw [hWn] at hnd
  have hc_notin : c ∉ kept ++ rest := by
    intro hin
    have := List.nodup_append.mp hnd
    rcases List.mem_append.mp hin with x | x
    · exact this.2.2 x (List.mem_cons_self c rest)
    · exact (List.nodup_cons.mp this.2.1).1 x
  have hsub : ∀ c', c' ∈ kept ++ rest → c' ∈ kept ++ c :: rest := by
    intro c' hc'
    rcases List.mem_append.mp hc' with x | x
    · exact List.mem_append.mpr (Or.inl x)
    · exact List.mem_append.mpr (Or.inr (List.mem_cons_of_mem c x))
  have hsup : ∀ c', c' ∈ kept ++ c :: rest → c' ≠ c → c' ∈ kept ++ rest := by
    intro c' hc' hne
    rcases List.mem_append.mp hc' with x | x
    · exact List.mem_append.mpr (Or.inl x)
    · rcases List.mem_cons.mp x with y | y
      · exact absurd y hne
      · exact List.mem_append.mpr (Or.inr y)
  have hc_notin_tm : c ∉ W0 (watched_index (t.getD m 0)) := by
    intro hin
    have := (h2 _ htm_ok.1 htm_ok.2).2 c (by rw [hWo _ hw10]; exact hin)
    have hw := this.2
    unfold watches at hw
    rw [hl] at hw
    simp only [List.getD_cons_zero, List.getD_cons_succ] at hw
    rcases hw with e | e
    · exact htm_o e.symm
    · exact htm_n e.symm
  refine ⟨?_, ?_, ?_⟩
  · intro c' hc'
    by_cases hcc : c' = c
    · subst hcc
      rw [Function.update_same]
      refine ⟨by rw [hperm.length_eq]; exact c1, hperm.nodup_iff.mpr c2, ?_⟩
      intro x hx
      exact c3 x (hperm.mem_iff.mp hx)
    · rw [Function.update_noteq hcc]
      exact h1 c' hc'
  · intro l hl1 hl2
    have hl_ok : lit_ok vc l := ⟨hl1, hl2⟩
    obtain ⟨x1, x2⟩ := h2 l hl1 hl2
    by_cases hln : l = n
    · subst hln
      rw [Function.update_same]
      rw [hWn] at x1 x2
      refine ⟨?_, ?_⟩
      · have := List.nodup_append.mp x1
        refine List.nodup_append.mpr ⟨this.1, (List.nodup_cons.mp this.2.1).2, ?_⟩
        intro y hy1 hy2
        exact this.2.2 hy1 (List.mem_cons_of_mem c hy2)
      · intro c' hc'
        obtain ⟨y1, y2⟩ := x2 c' (hsub c' hc')
        have hne : c' ≠ c := fun e => hc_notin (e ▸ hc')
        rw [Function.update_noteq hne]
        exact ⟨y1, y2⟩
    · have hwl : watched_index l ≠ watched_index n := hw_ne _ _ hl_ok hn_ok hln
      rw [Function.update_noteq hwl]
      rw [hWo _ hwl] at x1 x2
      by_cases hlt : l = t.getD m 0
      · rw [hlt, Function.update_same]
        rw [hlt] at x1 x2
        refine ⟨?_, ?_⟩
        · refine List.nodup_append.mpr ⟨x1, List.nodup_singleton c, ?_⟩
          intro y hy1 hy2
          rw [List.mem_singleton] at hy2
          exact hc_notin_tm (hy2 ▸ hy1)
        · intro c' hc'
          rcases List.mem_append.mp hc' with y | y
          · obtain ⟨y1, y2⟩ := x2 c' y
            have hne : c' ≠ c := fun e => hc_notin_tm (e ▸ y)
            rw [Function.update_noteq hne]
            exact ⟨y1, y2⟩
          · rw [List.mem_singleton] at y
            subst y
            rw [Function.update_same]
            refine ⟨hc, ?_⟩
            unfold watches
            simp
      · have hwt : watched_index l ≠ watched_index (t.getD m 0) := hw_ne _ _ hl_ok htm_ok hlt
        rw [Function.update_noteq hwt]
        refine ⟨x1, ?_⟩
        intro c' hc'
        obtain ⟨y1, y2⟩ := x2 c' hc'
        refine ⟨y1, ?_⟩
        by_cases hcc : c' = c
        · subst hcc
          rw [Function.update_same]
          unfold watches at y2 ⊢
          rw [hl] at y2
          simp only [List.getD_cons_zero, List.getD_cons_succ] at y2 ⊢
          rcases y2 with e | e
          · exact Or.inl e
          · exact absurd e.symm hln
        · rw [Function.update_noteq hcc]
          exact y2
  · intro c' hc'
    by_cases hcc : c' = c
    · subst hcc
      rw [Function.update_same]
      simp only [List.getD_cons_zero, List.getD_cons_succ]
      obtain ⟨x1, _⟩ := h3 c' hc'
      rw [hl] at x1
      simp only [List.getD_cons_zero] at x1
      have hwo_n : watched_index o ≠ watched_index n := hw_ne _ _ ho_ok hn_ok hon
      have hwo_t : watched_index o ≠ watched_index (t.getD m 0) :=
        hw_ne _ _ ho_ok htm_ok (fun e => htm_o e.symm)
      rw [hWo _ hwo_n] at x1
      refine ⟨?_, ?_⟩
      · rw [Function.update_noteq hwo_n, Function.update_noteq hwo_t]
        exact x1
      · rw [Function.update_noteq hw10, Function.update_same]
        exact List.mem_append.mpr (Or.inr (List.mem_singleton.mpr rfl))
    · rw [Function.update_noteq hcc]
      have key : ∀ w, c' ∈ Function.update W0 (watched_index n) (kept ++ c :: rest) w →
          c' ∈ Function.update
            (Function.update W0 (watched_index (t.getD m 0))
              (W0 (watched_index (t.getD m 0)) ++ [c]))
            (watched_index n) (kept ++ rest) w := by
        intro w hw
        by_cases hwn : w = watched_index n
        · subst hwn
          rw [Function.update_same] at hw ⊢
          exact hsup c' hw hcc
        · rw [Function.update_noteq hwn] at hw ⊢
          by_cases hwt : w = watched_index (t.getD m 0)
          · subst hwt
            rw [Function.update_same]
            exact List.mem_append.mpr (Or.inl hw)
          · rw [Function.update_noteq hwt]
            exact hw
      obtain ⟨x1, x2⟩ := h3 c' hc'
      exact ⟨key _ x1, key _ x2⟩

/-! ### `bcp`: the invariant through one clause -/

theorem queue_ok_status_nonzero (vc : Nat) (status : Nat → Nat) (q : heap) (u x : Nat)
    (h : queue_ok vc status q) (hx : x ≠ 0) :
    queue_ok vc (Function.update status u x) q := by
  apply queue_ok_of_mem
  · intro w hw
    obtain ⟨a, b, c⟩ := queue_ok_mem vc status q h w hw
    refine ⟨a, b, ?_⟩
    by_cases hwu : w = u
    · rw [hwu, Function.update_same]; exact hx
    · rw [Function.update_noteq hwu]; exact c
  · exact h.2

theorem status_ok_update (vc : Nat) (status : Nat → Nat) (l : Nat)
    (h : status_ok vc status) : status_ok vc (Function.update status (var l) l) := by
  intro v hv hne
  by_cases hvl : v = var l
  · rw [hvl, Function.update_same]
  · rw [Function.update_noteq hvl] at hne ⊢
    exact h v hv hne

theorem bcp_clause_inv (slevel neg_lit : Nat) (s : my_manager) (last clause : Nat)
    (kept rest : List Nat) (hn : lit_ok s.vc neg_lit)
    (hinv : bcp_inv { s with watched :=
      (Function.update s.watched (watched_index neg_lit) (kept ++ clause :: rest)) })
    (hfalse : s.status (var neg_lit) = neg neg_lit) :
    (∀ s1 last1, bcp_clause slevel neg_lit s last clause = clause_outcome.kept s1 last1 →
      bcp_inv { s1 with watched :=
        (Function.update s1.watched (watched_index neg_lit) ((kept ++ [clause]) ++ rest)) }
      ∧ s1.vc = s.vc ∧ clause_ptrs s1 = clause_ptrs s
      ∧ s1.status (var neg_lit) = neg neg_lit)
    ∧ (∀ s1, bcp_clause slevel neg_lit s last clause = clause_outcome.moved s1 →
      bcp_inv { s1 with watched :=
        (Function.update s1.watched (watched_index neg_lit) (kept ++ rest)) }
      ∧ s1.vc = s.vc ∧ clause_ptrs s1 = clause_ptrs s
      ∧ s1.status (var neg_lit) = neg neg_lit)
    ∧ (∀ s1, bcp_clause slevel neg_lit s last clause = clause_outcome.conflict s1 →
      bcp_inv { s1 with watched :=
        (Function.update s1.watched (watched_index neg_lit) (kept ++ clause :: rest)) }
      ∧ s1.vc = s.vc ∧ clause_ptrs s1 = clause_ptrs s
      ∧ s1.status (var neg_lit) = neg neg_lit
      ∧ clause ∈ clause_ptrs s
      ∧ ∀ x ∈ (s1.cl clause).lits, s1.status (var x) = neg x) := by
  obtain ⟨hkb, hst, hq⟩ := hinv
  have hkb' : kb_inv s.vc (clause_ptrs s) s.cl
      (Function.update s.watched (watched_index neg_lit) (kept ++ clause :: rest)) := hkb
  have hst' : status_ok s.vc s.status := hst
  have hq' : queue_ok s.vc s.status s.imp := hq
  -- the clause is stored and watches `neg_lit`
  have hmem : clause ∈ Function.update s.watched (watched_index neg_lit)
      (kept ++ clause :: rest) (watched_index neg_lit) := by
    rw [Function.update_same]
    exact List.mem_append.mpr (Or.inr (List.mem_cons_self _ _))
  obtain ⟨hptr, hwat⟩ := (hkb'.2.1 neg_lit hn.1 hn.2).2 clause hmem
  obtain ⟨hlen, hnd, hoks⟩ := hkb'.1 clause hptr
  obtain ⟨a, b, t, hl⟩ := shape_of_length _ hlen
  have hw : a = neg_lit ∨ b = neg_lit := by
    unfold watches at hwat
    rw [hl] at hwat
    simpa using hwat
  obtain ⟨o, ho, hcases⟩ := bcp_clause_spec slevel neg_lit s last clause a b t hl hw
  have ho' : (o = a ∧ neg_lit = b) ∨ (o = b ∧ neg_lit = a) := ho
  have hswap := kb_inv_swap s.vc (clause_ptrs s) s.cl _ clause a b o neg_lit t hkb' hl ho'
  have ho_mem : o ∈ (s.cl clause).lits := by
    rw [hl]
    rcases ho with ⟨e, _⟩ | ⟨e, _⟩
    · rw [e]; exact List.mem_cons_self _ _
    · rw [e]; exact List.mem_cons_of_mem _ (List.mem_cons_self _ _)
  have ho_ok : lit_ok s.vc o := hoks o ho_mem
  have happ : (kept ++ [clause]) ++ rest = kept ++ clause :: rest := by simp
  -- the invariant for a state that differs from `s` in the clause only
  have hset : bcp_inv { set_lits s clause (o :: neg_lit :: t) with watched :=
      (Function.update (set_lits s clause (o :: neg_lit :: t)).watched
        (watched_index neg_lit) (kept ++ clause :: rest)) } :=
    ⟨hswap, hst', hq'⟩
  refine ⟨?_, ?_, ?_⟩
  · intro s1 last1 he
    rcases hcases with ⟨_, e⟩ | ⟨_, m, _, _, e⟩ | ⟨_, _, _, e⟩ | ⟨_, _, _, h0, e⟩ | ⟨_, _, _, _, e⟩
    · rw [e] at he
      simp only [clause_outcome.kept.injEq] at he
      obtain ⟨e1, _⟩ := he
      subst e1
      rw [happ]
      exact ⟨hset, rfl, rfl, hfalse⟩
    · rw [e] at he; simp at he
    · rw [e] at he; simp at he
    · rw [e] at he
      simp only [clause_outcome.kept.injEq] at he
      obtain ⟨e1, _⟩ := he
      subst e1
      rw [happ]
      have hvo := lit_ok_var s.vc o ho_ok
      have ho0 : o ≠ 0 := by have := ho_ok.1; omega
      refine ⟨⟨hswap, status_ok_update s.vc s.status o hst', ?_⟩, rfl, rfl, ?_⟩
      · show queue_ok s.vc (Function.update s.status (var o) o)
          (undo s.score s.imp (var o))
        apply queue_ok_undo
        · exact queue_ok_status_nonzero s.vc s.status s.imp (var o) o hq' ho0
        · exact hvo.1
        · exact hvo.2
        · rw [Function.update_same]; exact ho0
      · show Function.update s.status (var o) o (var neg_lit) = neg neg_lit
        have hne : var neg_lit ≠ var o := by
          intro e2
          rw [e2, h0] at hfalse
          exact neg_ne_zero neg_lit hn.1 hfalse.symm
        rw [Function.update_noteq hne]
        exact hfalse
    · rw [e] at he
      simp only [clause_outcome.kept.injEq] at he
      obtain ⟨e1, _⟩ := he
      subst e1
      rw [happ]
      exact ⟨hset, rfl, rfl, hfalse⟩
  · intro s1 he
    rcases hcases with ⟨_, e⟩ | ⟨_, m, hm, _, e⟩ | ⟨_, _, _, e⟩ | ⟨_, _, _, h0, e⟩ | ⟨_, _, _, _, e⟩
    · rw [e] at he; simp at he
    · rw [e] at he
      simp only [clause_outcome.moved.injEq] at he
      subst he
      have hl1 : (Function.update s.cl clause { s.cl clause with lits := o :: neg_lit :: t }
          clause).lits = o :: neg_lit :: t := by
        rw [Function.update_same]
      have hmove := kb_inv_move s.vc (clause_ptrs s) _ s.watched clause o neg_lit t m kept rest
        hswap hptr hl1 hm
      rw [Function.update_same, Function.update_idem] at hmove
      exact ⟨⟨hmove, hst', hq'⟩, rfl, rfl, hfalse⟩
    · rw [e] at he; simp at he
    · rw [e] at he; simp at he
    · rw [e] at he; simp at he
  · intro s1 he
    rcases hcases with ⟨_, e⟩ | ⟨_, m, _, _, e⟩ | ⟨_, hall, hno, e⟩ | ⟨_, _, _, h0, e⟩ | ⟨_, _, _, _, e⟩
    · rw [e] at he; simp at he
    · rw [e] at he; simp at he
    · rw [e] at he
      simp only [clause_outcome.conflict.injEq] at he
      subst he
      refine ⟨hset, rfl, rfl, hfalse, hptr, ?_⟩
      intro x hx
      have hx' : x ∈ o :: neg_lit :: t := by
        unfold set_lits at hx
        simp only [Function.update_same] at hx
        exact hx
      show s.status (var x) = neg x
      rcases List.mem_cons.mp hx' with e1 | e1
      · rw [e1]; exact hno
      · rcases List.mem_cons.mp e1 with e2 | e2
        · rw [e2]; exact hfalse
        · exact hall x e2
    · rw [e] at he; simp at he
    · rw [e] at he; simp at he

/-! ### `bcp`: the invariant through the loops -/

theorem flush_queue_ok (score : Nat → ℚ) (vc : Nat) (status : Nat → Nat) :
    ∀ (f : Nat) (q : heap), queue_ok vc status q → q.size < f →
      queue_ok vc status (flush_queue score f q) ∧ (flush_queue score f q).size = 0 := by
  intro f
  induction f with
  | zero => intro q _ h; omega
  | succ f ih =>
    intro q hq hs
    rw [flush_queue]
    by_cases hd : (dequeue score q).1 = 0
    · rw [if_pos hd]
      obtain ⟨z1, z2⟩ := dequeue_zero score vc status q hq hd
      rw [z2]
      exact ⟨hq, z1⟩
    · rw [if_neg hd]
      have hne : q.size ≠ 0 := by
        intro e
        rw [dequeue_empty score q e] at hd
        exact hd rfl
      obtain ⟨d1, _, d3, _⟩ := queue_ok_dequeue score vc status q hq hne
      exact ih _ d1 (by omega)

theorem bcp_watch_loop_inv (slevel neg_lit : Nat) :
    ∀ (rest : List Nat) (s : my_manager) (last : Nat) (kept : List Nat),
      lit_ok s.vc neg_lit →
      bcp_inv { s with watched :=
        (Function.update s.watched (watched_index neg_lit) (kept ++ rest)) } →
      s.status (var neg_lit) = neg neg_lit →
      bcp_inv { (bcp_watch_loop slevel neg_lit rest s last kept).m with watched :=
        (Function.update (bcp_watch_loop slevel neg_lit rest s last kept).m.watched
          (watched_index neg_lit) (bcp_watch_loop slevel neg_lit rest s last kept).kept) }
      ∧ (bcp_watch_loop slevel neg_lit rest s last kept).m.vc = s.vc
      ∧ clause_ptrs (bcp_watch_loop slevel neg_lit rest s last kept).m = clause_ptrs s
      ∧ ((bcp_watch_loop slevel neg_lit rest s last kept).conflict = true →
          ∃ c, (bcp_watch_loop slevel neg_lit rest s last kept).m.conflicting_clause = some c
            ∧ c ∈ clause_ptrs s
            ∧ ∀ x ∈ ((bcp_watch_loop slevel neg_lit rest s last kept).m.cl c).lits,
                (bcp_watch_loop slevel neg_lit rest s last kept).m.status (var x) = neg x) := by
  intro rest
  induction rest with
  | nil =>
    intro s last kept _ hinv _
    rw [bcp_watch_loop]
    simp only [List.append_nil] at hinv
    exact ⟨hinv, rfl, rfl, fun h => by simp at h⟩
  | cons clause rest ih =>
    intro s last kept hn hinv hfalse
    obtain ⟨k1, k2, k3⟩ := bcp_clause_inv slevel neg_lit s last clause kept rest hn hinv hfalse
    rw [bcp_watch_loop]
    cases hb : bcp_clause slevel neg_lit s last clause with
    | kept s1 last1 =>
      obtain ⟨a1, a2, a3, a4⟩ := k1 s1 last1 hb
      simp only
      obtain ⟨r1, r2, r3, r4⟩ := ih s1 last1 (kept ++ [clause]) (by rw [a2]; exact hn) a1 a4
      refine ⟨r1, by rw [r2, a2], by rw [r3, a3], ?_⟩
      intro hc
      obtain ⟨c, c1, c2, c3⟩ := r4 hc
      exact ⟨c, c1, by rw [← a3]; exact c2, c3⟩
    | moved s1 =>
      obtain ⟨a1, a2, a3, a4⟩ := k2 s1 hb
      simp only
      obtain ⟨r1, r2, r3, r4⟩ := ih s1 last kept (by rw [a2]; exact hn) a1 a4
      refine ⟨r1, by rw [r2, a2], by rw [r3, a3], ?_⟩
      intro hc
      obtain ⟨c, c1, c2, c3⟩ := r4 hc
      exact ⟨c, c1, by rw [← a3]; exact c2, c3⟩
    | conflict s1 =>
      obtain ⟨a1, a2, a3, a4, a5, a6⟩ := k3 s1 hb
      simp only
      obtain ⟨b1, b2, b3⟩ := a1
      have hfl := flush_queue_ok s1.score s1.vc s1.status (s1.imp.size + 1) s1.imp b3
        (by omega)
      exact ⟨⟨b1, b2, hfl.1⟩, a2, a3, fun _ => ⟨clause, rfl, a5, a6⟩⟩

theorem bcp_loop_inv (slevel : Nat) :
    ∀ (fuel : Nat) (s : my_manager) (last : Nat) (res : Bool) (s' : my_manager),
      bcp_inv s → bcp_loop slevel fuel s last = some (res, s') →
      bcp_inv s' ∧ s'.vc = s.vc ∧ clause_ptrs s' = clause_ptrs s
      ∧ (res = false → ∃ c, s'.conflicting_clause = some c ∧ c ∈ clause_ptrs s
            ∧ ∀ x ∈ (s'.cl c).lits, s'.status (var x) = neg x) := by
  intro fuel
  induction fuel with
  | zero => intro s last res s' _ h; simp [bcp_loop] at h
  | succ f ih =>
    intro s last res s' hinv h
    rw [bcp_loop] at h
    simp only at h
    obtain ⟨hkb, hst, hq⟩ := hinv
    by_cases hd : (dequeue s.score s.imp).1 = 0
    · rw [if_pos hd] at h
      simp only [Option.some.injEq, Prod.mk.injEq] at h
      obtain ⟨h1, h2⟩ := h
      subst h1 h2
      obtain ⟨_, z2⟩ := dequeue_zero s.score s.vc s.status s.imp hq hd
      rw [z2]
      exact ⟨⟨hkb, hst, hq⟩, rfl, rfl, fun e => by simp at e⟩
    · rw [if_neg hd] at h
      have hne : s.imp.size ≠ 0 := by
        intro e
        rw [dequeue_empty s.score s.imp e] at hd
        exact hd rfl
      obtain ⟨d1, d2, _, _, _⟩ := queue_ok_dequeue s.score s.vc s.status s.imp hq hne
      obtain ⟨v1, v2, v3⟩ := queue_ok_mem s.vc s.status s.imp hq _ d2
      have hvar : var (s.status (dequeue s.score s.imp).1) = (dequeue s.score s.imp).1 :=
        hst _ v2 v3
      have hlit : lit_ok s.vc (s.status (dequeue s.score s.imp).1) := by
        unfold lit_ok
        rw [var_eq] at hvar
        omega
      have hn := lit_ok_neg s.vc _ hlit
      have hfalse : s.status (var (neg (s.status (dequeue s.score s.imp).1)))
          = neg (neg (s.status (dequeue s.score s.imp).1)) := by
        rw [var_neg, neg_neg, hvar]
      have hinv0 : bcp_inv { ({ s with imp := (dequeue s.score s.imp).2 } : my_manager) with
          watched := (Function.update s.watched
            (watched_index (neg (s.status (dequeue s.score s.imp).1)))
            ([] ++ s.watched (watched_index (neg (s.status (dequeue s.score s.imp).1))))) } := by
        rw [List.nil_append, Function.update_eq_self]
        exact ⟨hkb, hst, d1⟩
      obtain ⟨r1, r2, r3, r4⟩ := bcp_watch_loop_inv slevel
        (neg (s.status (dequeue s.score s.imp).1))
        (s.watched (watched_index (neg (s.status (dequeue s.score s.imp).1))))
        { s with imp := (dequeue s.score s.imp).2 } last [] hn hinv0 hfalse
      by_cases hc : (bcp_watch_loop slevel (neg (s.status (dequeue s.score s.imp).1))
          (s.watched (watched_index (neg (s.status (dequeue s.score s.imp).1))))
          { s with imp := (dequeue s.score s.imp).2 } last []).conflict = true
      · rw [if_pos hc] at h
        simp only [Option.some.injEq, Prod.mk.injEq] at h
        obtain ⟨h1, h2⟩ := h
        subst h1 h2
        exact ⟨r1, r2, r3, fun _ => r4 hc⟩
      · rw [if_neg hc] at h
        obtain ⟨i1, i2, i3, i4⟩ := ih _ _ res s' r1 h
        refine ⟨i1, i2.trans r2, i3.trans r3, ?_⟩
        intro e
        obtain ⟨c, c1, c2, c3⟩ := i4 e
        exact ⟨c, c1, r3 ▸ c2, c3⟩

theorem bcp_start_inv (s : my_manager) (l : Nat) (hinv : bcp_inv s) (hl : lit_ok s.vc l) :
    bcp_inv { s with
      imp := (undo s.score s.imp (var l)),
      assign := (Function.update s.assign s.assign_top l),
      status := (Function.update s.status (var l) l) } := by
  obtain ⟨hkb, hst, hq⟩ := hinv
  have hv := lit_ok_var s.vc l hl
  have hl0 : l ≠ 0 := by have := hl.1; omega
  refine ⟨hkb, status_ok_update s.vc s.status l hst, ?_⟩
  show queue_ok s.vc (Function.update s.status (var l) l) (undo s.score s.imp (var l))
  apply queue_ok_undo
  · exact queue_ok_status_nonzero s.vc s.status s.imp (var l) l hq hl0
  · exact hv.1
  · exact hv.2
  · rw [Function.update_same]; exact hl0

/-- The invariant of `bcp` holds again when `bcp` returns, whatever it
returns. -/
theorem bcp_inv_preserved (fuel : Nat) (s : my_manager) (l : Nat) (res : Bool)
    (s' : my_manager) (hinv : bcp_inv s) (hl : lit_ok s.vc l)
    (h : bcp fuel s l = some (res, s')) :
    bcp_inv s' ∧ s'.vc = s.vc ∧ clause_ptrs s' = clause_ptrs s
    ∧ (res = false → ∃ c, s'.conflicting_clause = some c ∧ c ∈ clause_ptrs s
          ∧ ∀ x ∈ (s'.cl c).lits, s'.status (var x) = neg x) := by
  unfold bcp at h
  obtain ⟨r1, r2, r3, r4⟩ := bcp_loop_inv _ fuel _ _ res s' (bcp_start_inv s l hinv hl) h
  exact ⟨r1, r2, r3, r4⟩

/-- C3: whenever `bcp(l)` returns 0 from a state satisfying the
two-watched-literal invariant (with a well-formed status array and
implication queue), the clause stored in `conflicting_clause` is a stored
clause all of whose literals are false under the resulting assignment. -/
theorem bcp_conflict_all_false (fuel : Nat) (s : my_manager) (l : Nat) (s' : my_manager)
    (hinv : bcp_inv s) (hl : lit_ok s.vc l) (h : bcp fuel s l = some (false, s')) :
    ∃ c, s'.conflicting_clause = some c ∧ c ∈ clause_ptrs s'
      ∧ ∀ x ∈ (s'.cl c).lits, s'.status (var x) = neg x := by
  obtain ⟨_, _, h3, h4⟩ := bcp_inv_preserved fuel s l false s' hinv hl h
  obtain ⟨c, c1, c2, c3⟩ := h4 rfl
  exact ⟨c, c1, by rw [h3]; exact c2, c3⟩

theorem option_result_eq {α : Type} (o : Option (Bool × α)) (d : α) (b : Bool)
    (h : o.map Prod.fst = some b) :
    o = some (b, (match o with | some r => r.2 | none => d)) := by
  cases o with
  | none => simp at h
  | some r =>
    simp only [Option.map_some', Option.some.injEq] at h
    simp only [Option.some.injEq]
    exact Prod.ext h rfl

theorem example_conflict_eq :
    bcp 10 (set_decision_start example_manager 2) 2 = some (false, example_conflict) :=
  option_result_eq (bcp 10 (set_decision_start example_manager 2) 2) example_manager false
    (by decide)

/-- C3, witness: the conflict of the small instance on the clause at
pointer 3. -/
theorem bcp_conflict_all_false_witness :
    ∃ c, example_conflict.conflicting_clause = some c ∧ c ∈ clause_ptrs example_conflict
      ∧ ∀ x ∈ (example_conflict.cl c).lits, example_conflict.status (var x) = neg x :=
  bcp_conflict_all_false 10 (set_decision_start example_manager 2) 2 example_conflict
    (by decide) (by decide) example_conflict_eq

/-! ### `bcp`: false watched literals -/

theorem twl_ex_update_clause (ptrs : List Nat) (cl : Nat → my_clause) (status : Nat → Nat)
    (q : heap) (n clause : Nat) (rest : List Nat) (X : my_clause)
    (ht : twl_ex ptrs cl status q n (clause :: rest))
    (hX : (status (var (X.lits.getD 0 0)) = neg (X.lits.getD 0 0) →
        heap_mem q (var (X.lits.getD 0 0))
        ∨ status (var (X.lits.getD 1 0)) = X.lits.getD 1 0
        ∨ (X.lits.getD 0 0 = n ∧ clause ∈ rest))
      ∧ (status (var (X.lits.getD 1 0)) = neg (X.lits.getD 1 0) →
        heap_mem q (var (X.lits.getD 1 0))
        ∨ status (var (X.lits.getD 0 0)) = X.lits.getD 0 0
        ∨ (X.lits.getD 1 0 = n ∧ clause ∈ rest))) :
    twl_ex ptrs (Function.update cl clause X) status q n rest := by
  intro c hc
  by_cases hcc : c = clause
  · subst hcc
    rw [Function.update_same]
    exact hX
  · rw [Function.update_noteq hcc]
    obtain ⟨t1, t2⟩ := ht c hc
    constructor
    · intro h
      rcases t1 h with x | x | ⟨x1, x2⟩
      · exact Or.inl x
      · exact Or.inr (Or.inl x)
      · rcases List.mem_cons.mp x2 with y | y
        · exact absurd y hcc
        · exact Or.inr (Or.inr ⟨x1, y⟩)
    · intro h
      rcases t2 h with x | x | ⟨x1, x2⟩
      · exact Or.inl x
      · exact Or.inr (Or.inl x)
      · rcases List.mem_cons.mp x2 with y | y
        · exact absurd y hcc
        · exact Or.inr (Or.inr ⟨x1, y⟩)

theorem twl_ex_assign (ptrs : List Nat) (cl : Nat → my_clause) (status : Nat → Nat)
    (q q' : heap) (n clause o : Nat) (rest : List Nat) (X : my_clause)
    (ht : twl_ex ptrs cl status q n (clause :: rest))
    (hX0 : X.lits.getD 0 0 = o) (ho : status (var o) = 0)
    (hnz : ∀ c ∈ ptrs, (cl c).lits.getD 0 0 ≠ 0 ∧ (cl c).lits.getD 1 0 ≠ 0)
    (hq1 : ∀ w, heap_mem q w → heap_mem q' w) (hq2 : heap_mem q' (var o)) :
    twl_ex ptrs (Function.update cl clause X) (Function.update status (var o) o) q' n rest := by
  have hno : neg o ≠ o := neg_ne o
  -- a literal that is false now was false before, or is over the new variable
  have key : ∀ x y : Nat, y ≠ 0 →
      (status (var x) = neg x → heap_mem q (var x) ∨ status (var y) = y) →
      Function.update status (var o) o (var x) = neg x →
      heap_mem q' (var x) ∨ Function.update status (var o) o (var y) = y := by
    intro x y hy hold hnew
    by_cases hx : var x = var o
    · left
      rw [hx]; exact hq2
    · rw [Function.update_noteq hx] at hnew
      rcases hold hnew with z | z
      · exact Or.inl (hq1 _ z)
      · right
        have hyo : var y ≠ var o := by
          intro e
          rw [e, ho] at z
          exact hy z.symm
        rw [Function.update_noteq hyo]
        exact z
  intro c hc
  by_cases hcc : c = clause
  · subst hcc
    rw [Function.update_same, hX0]
    constructor
    · intro h
      rw [Function.update_same] at h
      exact absurd h.symm hno
    · intro _
      right; left
      rw [Function.update_same]
  · rw [Function.update_noteq hcc]
    obtain ⟨t1, t2⟩ := ht c hc
    obtain ⟨z0, z1⟩ := hnz c hc
    have shrink : ∀ (p : Prop), (p ∧ c ∈ clause :: rest) → (p ∧ c ∈ rest) := by
      rintro p ⟨x1, x2⟩
      rcases List.mem_cons.mp x2 with y | y
      · exact absurd y hcc
      · exact ⟨x1, y⟩
    constructor
    · intro h
      by_cases hex : (cl c).lits.getD 0 0 = n ∧ c ∈ clause :: rest
      · exact Or.inr (Or.inr (shrink _ hex))
      · rcases key _ _ z1 (fun h' => by
            rcases t1 h' with x | x | x
            · exact Or.inl x
            · exact Or.inr x
            · exact absurd x hex) h with x | x
        · exact Or.inl x
        · exact Or.inr (Or.inl x)
    · intro h
      by_cases hex : (cl c).lits.getD 1 0 = n ∧ c ∈ clause :: rest
      · exact Or.inr (Or.inr (shrink _ hex))
      · rcases key _ _ z0 (fun h' => by
            rcases t2 h' with x | x | x
            · exact Or.inl x
            · exact Or.inr x
            · exact absurd x hex) h with x | x
        · exact Or.inl x
        · exact Or.inr (Or.inl x)

theorem watched_nonzero (vc : Nat) (ptrs : List Nat) (cl : Nat → my_clause)
    (h : clauses_ok vc ptrs cl) :
    ∀ c ∈ ptrs, (cl c).lits.getD 0 0 ≠ 0 ∧ (cl c).lits.getD 1 0 ≠ 0 := by
  intro c hc
  obtain ⟨h1, _, h3⟩ := h c hc
  obtain ⟨a, b, t, hl⟩ := shape_of_length _ h1
  rw [hl] at h3 ⊢
  have ha := (h3 a (List.mem_cons_self _ _)).1
  have hb := (h3 b (List.mem_cons_of_mem _ (List.mem_cons_self _ _))).1
  simp only [List.getD_cons_zero, List.getD_cons_succ]
  omega

theorem bcp_clause_twl (slevel neg_lit : Nat) (s : my_manager) (last clause : Nat)
    (kept rest : List Nat) (hn : lit_ok s.vc neg_lit)
    (hinv : bcp_inv { s with watched :=
      (Function.update s.watched (watched_index neg_lit) (kept ++ clause :: rest)) })
    (hfalse : s.status (var neg_lit) = neg neg_lit)
    (ht : twl_ex (clause_ptrs s) s.cl s.status s.imp neg_lit (clause :: rest)) :
    (∀ s1 last1, bcp_clause slevel neg_lit s last clause = clause_outcome.kept s1 last1 →
      twl_ex (clause_ptrs s) s1.cl s1.status s1.imp neg_lit rest)
    ∧ (∀ s1, bcp_clause slevel neg_lit s last clause = clause_outcome.moved s1 →
      twl_ex (clause_ptrs s) s1.cl s1.status s1.imp neg_lit rest) := by
  obtain ⟨hkb, hst, hq⟩ := hinv
  have hkb' : kb_inv s.vc (clause_ptrs s) s.cl
      (Function.update s.watched (watched_index neg_lit) (kept ++ clause :: rest)) := hkb
  have hst' : status_ok s.vc s.status := hst
  have hq' : queue_ok s.vc s.status s.imp := hq
  have hmem : clause ∈ Function.update s.watched (watched_index neg_lit)
      (kept ++ clause :: rest) (watched_index neg_lit) := by
    rw [Function.update_same]
    exact List.mem_append.mpr (Or.inr (List.mem_cons_self _ _))
  obtain ⟨hptr, hwat⟩ := (hkb'.2.1 neg_lit hn.1 hn.2).2 clause hmem
  obtain ⟨hlen, hnd, hoks⟩ := hkb'.1 clause hptr
  obtain ⟨a, b, t, hl⟩ := shape_of_length _ hlen
  have hw : a = neg_lit ∨ b = neg_lit := by
    unfold watches at hwat
    rw [hl] at hwat
    simpa using hwat
  obtain ⟨o, ho, hcases⟩ := bcp_clause_spec slevel neg_lit s last clause a b t hl hw
  have hab : a ≠ b := by
    intro e
    rw [hl, e] at hnd
    exact (List.nodup_cons.mp hnd).1 (List.mem_cons_self _ _)
  have hon : o ≠ neg_lit := by
    rcases ho with ⟨e1, e2⟩ | ⟨e1, e2⟩
    · rw [e1, e2]; exact hab
    · rw [e1, e2]; exact fun e => hab e.symm
  have ho_mem : o ∈ (s.cl clause).lits := by
    rw [hl]
    rcases ho with ⟨e, _⟩ | ⟨e, _⟩
    · rw [e]; exact List.mem_cons_self _ _
    · rw [e]; exact List.mem_cons_of_mem _ (List.mem_cons_self _ _)
  have ho_ok : lit_ok s.vc o := hoks o ho_mem
  have hnn : s.status (var neg_lit) ≠ neg_lit := by
    rw [hfalse]; exact neg_ne neg_lit
  -- what the invariant says of the watch `o` of the clause before the step
  have hob : s.status (var o) = neg o → heap_mem s.imp (var o) := by
    intro h
    obtain ⟨t1, t2⟩ := ht clause hptr
    rw [hl] at t1 t2
    simp only [List.getD_cons_zero, List.getD_cons_succ] at t1 t2
    rcases ho with ⟨e1, e2⟩ | ⟨e1, e2⟩
    · rw [← e1, ← e2] at t1
      rcases t1 h with x | x | ⟨x, _⟩
      · exact x
      · exact absurd x hnn
      · exact absurd x hon
    · rw [← e1, ← e2] at t2
      rcases t2 h with x | x | ⟨x, _⟩
      · exact x
      · exact absurd x hnn
      · exact absurd x hon
  -- the clause with `o` true
  have hkeep : s.status (var o) = o →
      twl_ex (clause_ptrs s) (set_lits s clause (o :: neg_lit :: t)).cl s.status s.imp
        neg_lit rest := by
    intro h1
    apply twl_ex_update_clause _ _ _ _ _ _ _ _ ht
    simp only [List.getD_cons_zero, List.getD_cons_succ]
    constructor
    · intro h
      rw [h1] at h
      exact absurd h.symm (neg_ne o)
    · intro _
      exact Or.inr (Or.inl h1)
  constructor
  · intro s1 last1 he
    rcases hcases with ⟨h1, e⟩ | ⟨_, m, _, _, e⟩ | ⟨_, _, _, e⟩ | ⟨_, _, _, h0, e⟩ |
      ⟨h1, _, h2, h3, e⟩
    · rw [e] at he
      simp only [clause_outcome.kept.injEq] at he
      obtain ⟨e1, _⟩ := he
      subst e1
      exact hkeep h1
    · rw [e] at he; simp at he
    · rw [e] at he; simp at he
    · rw [e] at he
      simp only [clause_outcome.kept.injEq] at he
      obtain ⟨e1, _⟩ := he
      subst e1
      obtain ⟨u1, u2, _, _⟩ := undo_mem s.score s.imp (var o)
        (hq'.2 (var o) (lit_ok_var s.vc o ho_ok).2)
      exact twl_ex_assign (clause_ptrs s) s.cl s.status s.imp (undo s.score s.imp (var o))
        neg_lit clause o rest _ ht (by simp) h0
        (watched_nonzero s.vc (clause_ptrs s) s.cl hkb'.1)
        (fun w hw => (u2 w).mpr (Or.inl hw)) u1
    · exfalso
      rcases status_cases s.vc s.status hst' o ho_ok with x | x | x
      · exact h3 x
      · exact h1 x
      · exact h2 x
  · intro s1 he
    rcases hcases with ⟨_, e⟩ | ⟨_, m, hm, hu, e⟩ | ⟨_, _, _, e⟩ | ⟨_, _, _, h0, e⟩ | ⟨_, _, _, _, e⟩
    · rw [e] at he; simp at he
    · rw [e] at he
      simp only [clause_outcome.moved.injEq] at he
      subst he
      show twl_ex (clause_ptrs s)
        (Function.update s.cl clause { s.cl clause with lits := o :: t.getD m 0 :: t.set m neg_lit })
        s.status s.imp neg_lit rest
      apply twl_ex_update_clause _ _ _ _ _ _ _ _ ht
      simp only [List.getD_cons_zero, List.getD_cons_succ]
      constructor
      · intro h
        exact Or.inl (hob h)
      · intro h
        exact absurd h hu
    · rw [e] at he; simp at he
    · rw [e] at he; simp at he
    · rw [e] at he; simp at he

theorem bcp_watch_loop_twl (slevel neg_lit : Nat) :
    ∀ (rest : List Nat) (s : my_manager) (last : Nat) (kept : List Nat),
      lit_ok s.vc neg_lit →
      bcp_inv { s with watched :=
        (Function.update s.watched (watched_index neg_lit) (kept ++ rest)) } →
      s.status (var neg_lit) = neg neg_lit →
      twl_ex (clause_ptrs s) s.cl s.status s.imp neg_lit rest →
      (bcp_watch_loop slevel neg_lit rest s last kept).conflict = false →
      twl (clause_ptrs s) (bcp_watch_loop slevel neg_lit rest s last kept).m.cl
        (bcp_watch_loop slevel neg_lit rest s last kept).m.status
        (bcp_watch_loop slevel neg_lit rest s last kept).m.imp := by
  intro rest
  induction rest with
  | nil =>
    intro s last kept _ _ _ ht _
    rw [bcp_watch_loop]
    intro c hc
    obtain ⟨t1, t2⟩ := ht c hc
    constructor
    · intro h
      rcases t1 h with x | x | ⟨_, x⟩
      · exact Or.inl x
      · exact Or.inr x
      · simp at x
    · intro h
      rcases t2 h with x | x | ⟨_, x⟩
      · exact Or.inl x
      · exact Or.inr x
      · simp at x
  | cons clause rest ih =>
    intro s last kept hn hinv hfalse ht
    obtain ⟨k1, k2, _⟩ := bcp_clause_inv slevel neg_lit s last clause kept rest hn hinv hfalse
    obtain ⟨w1, w2⟩ := bcp_clause_twl slevel neg_lit s last clause kept rest hn hinv hfalse ht
    rw [bcp_watch_loop]
    cases hb : bcp_clause slevel neg_lit s last clause with
    | kept s1 last1 =>
      obtain ⟨a1, a2, a3, a4⟩ := k1 s1 last1 hb
      simp only
      intro hc
      have := ih s1 last1 (kept ++ [clause]) (by rw [a2]; exact hn) a1 a4
        (by rw [a3]; exact w1 s1 last1 hb) hc
      rw [a3] at this
      exact this
    | moved s1 =>
      obtain ⟨a1, a2, a3, a4⟩ := k2 s1 hb
      simp only
      intro hc
      have := ih s1 last kept (by rw [a2]; exact hn) a1 a4
        (by rw [a3]; exact w2 s1 hb) hc
      rw [a3] at this
      exact this
    | conflict s1 =>
      simp only
      intro hc
      simp at hc

theorem bcp_loop_twl (slevel : Nat) :
    ∀ (fuel : Nat) (s : my_manager) (last : Nat) (s' : my_manager),
      bcp_inv s → twl (clause_ptrs s) s.cl s.status s.imp →
      bcp_loop slevel fuel s last = some (true, s') →
      twl (clause_ptrs s') s'.cl s'.status s'.imp ∧ s'.imp.size = 0 := by
  intro fuel
  induction fuel with
  | zero => intro s last s' _ _ h; simp [bcp_loop] at h
  | succ f ih =>
    intro s last s' hinv ht h
    rw [bcp_loop] at h
    simp only at h
    obtain ⟨hkb, hst, hq⟩ := hinv
    by_cases hd : (dequeue s.score s.imp).1 = 0
    · rw [if_pos hd] at h
      simp only [Option.some.injEq, Prod.mk.injEq, true_and] at h
      subst h
      obtain ⟨z1, z2⟩ := dequeue_zero s.score s.vc s.status s.imp hq hd
      rw [z2]
      exact ⟨ht, z1⟩
    · rw [if_neg hd] at h
      have hne : s.imp.size ≠ 0 := by
        intro e
        rw [dequeue_empty s.score s.imp e] at hd
        exact hd rfl
      obtain ⟨d1, d2, _, _, d5⟩ := queue_ok_dequeue s.score s.vc s.status s.imp hq hne
      obtain ⟨v1, v2, v3⟩ := queue_ok_mem s.vc s.status s.imp hq _ d2
      have hvar : var (s.status (dequeue s.score s.imp).1) = (dequeue s.score s.imp).1 :=
        hst _ v2 v3
      have hlit : lit_ok s.vc (s.status (dequeue s.score s.imp).1) := by
        unfold lit_ok
        rw [var_eq] at hvar
        omega
      have hn := lit_ok_neg s.vc _ hlit
      have hfalse : s.status (var (neg (s.status (dequeue s.score s.imp).1)))
          = neg (neg (s.status (dequeue s.score s.imp).1)) := by
        rw [var_neg, neg_neg, hvar]
      have hinv0 : bcp_inv { ({ s with imp := (dequeue s.score s.imp).2 } : my_manager) with
          watched := (Function.update s.watched
            (watched_index (neg (s.status (dequeue s.score s.imp).1)))
            ([] ++ s.watched (watched_index (neg (s.status (dequeue s.score s.imp).1))))) } := by
        rw [List.nil_append, Function.update_eq_self]
        exact ⟨hkb, hst, d1⟩
      -- the clauses that watch the literal just falsified are all on its list
      have hex : twl_ex (clause_ptrs s) s.cl s.status (dequeue s.score s.imp).2
          (neg (s.status (dequeue s.score s.imp).1))
          (s.watched (watched_index (neg (s.status (dequeue s.score s.imp).1)))) := by
        have hkb' : kb_inv s.vc (clause_ptrs s) s.cl s.watched := hkb
        have key : ∀ x : Nat, s.status (var x) = neg x → heap_mem s.imp (var x) →
            heap_mem (dequeue s.score s.imp).2 (var x)
            ∨ x = neg (s.status (dequeue s.score s.imp).1) := by
          intro x hx hm
          rcases d5 _ hm with e | e
          · right
            rw [← e, hx, neg_neg]
          · exact Or.inl e
        intro c hc
        obtain ⟨t1, t2⟩ := ht c hc
        obtain ⟨c1, c2⟩ := hkb'.2.2 c hc
        constructor
        · intro h'
          rcases t1 h' with x | x
          · rcases key _ h' x with y | y
            · exact Or.inl y
            · exact Or.inr (Or.inr ⟨y, by rw [← y]; exact c1⟩)
          · exact Or.inr (Or.inl x)
        · intro h'
          rcases t2 h' with x | x
          · rcases key _ h' x with y | y
            · exact Or.inl y
            · exact Or.inr (Or.inr ⟨y, by rw [← y]; exact c2⟩)
          · exact Or.inr (Or.inl x)
      obtain ⟨r1, r2, r3, r4⟩ := bcp_watch_loop_inv slevel
        (neg (s.status (dequeue s.score s.imp).1))
        (s.watched (watched_index (neg (s.status (dequeue s.score s.imp).1))))
        { s with imp := (dequeue s.score s.imp).2 } last [] hn hinv0 hfalse
      by_cases hc : (bcp_watch_loop slevel (neg (s.status (dequeue s.score s.imp).1))
          (s.watched (watched_index (neg (s.status (dequeue s.score s.imp).1))))
          { s with imp := (dequeue s.score s.imp).2 } last []).conflict = true
      · rw [if_pos hc] at h
        simp at h
      · rw [if_neg hc] at h
        have hc' := Bool.eq_false_iff.mpr hc
        have htw := bcp_watch_loop_twl slevel
          (neg (s.status (dequeue s.score s.imp).1))
          (s.watched (watched_index (neg (s.status (dequeue s.score s.imp).1))))
          { s with imp := (dequeue s.score s.imp).2 } last [] hn hinv0 hfalse hex hc'
        refine ih _ _ s' r1 ?_ h
        show twl (clause_ptrs (bcp_watch_loop slevel _ _ _ last []).m) _ _ _
        rw [r3]
        exact htw

theorem twl_start (ptrs : List Nat) (cl : Nat → my_clause) (status : Nat → Nat)
    (q q' : heap) (l : Nat) (ht : twl ptrs cl status q) (hfree : status (var l) = 0)
    (hnz : ∀ c ∈ ptrs, (cl c).lits.getD 0 0 ≠ 0 ∧ (cl c).lits.getD 1 0 ≠ 0)
    (hq1 : ∀ w, heap_mem q w → heap_mem q' w) (hq2 : heap_mem q' (var l)) :
    twl ptrs cl (Function.update status (var l) l) q' := by
  have key : ∀ x y : Nat, y ≠ 0 →
      (status (var x) = neg x → heap_mem q (var x) ∨ status (var y) = y) →
      Function.update status (var l) l (var x) = neg x →
      heap_mem q' (var x) ∨ Function.update status (var l) l (var y) = y := by
    intro x y hy hold hnew
    by_cases hx : var x = var l
    · left
      rw [hx]; exact hq2
    · rw [Function.update_noteq hx] at hnew
      rcases hold hnew with z | z
      · exact Or.inl (hq1 _ z)
      · right
        have hyo : var y ≠ var l := by
          intro e
          rw [e, hfree] at z
          exact hy z.symm
        rw [Function.update_noteq hyo]
        exact z
  intro c hc
  obtain ⟨t1, t2⟩ := ht c hc
  obtain ⟨z0, z1⟩ := hnz c hc
  exact ⟨key _ _ z1 t1, key _ _ z0 t2⟩

/-- C4: whenever `bcp(l)` returns 1 from a state that satisfies the
invariants of `bcp` and in which every false watched literal not waiting in
the queue has the other watch true (so the state is closed under unit
propagation), `l` being unassigned before, the resulting state is conflict
free and closed under unit propagation: no stored clause has all its
literals false, and none has all literals false except a single unassigned
one. -/
theorem bcp_closed (fuel : Nat) (s : my_manager) (l : Nat) (s' : my_manager)
    (hinv : bcp_inv s) (hl : lit_ok s.vc l) (hfree : s.status (var l) = 0)
    (ht : twl (clause_ptrs s) s.cl s.status s.imp)
    (h : bcp fuel s l = some (true, s')) :
    (∀ c ∈ clause_ptrs s', ¬ (∀ x ∈ (s'.cl c).lits, s'.status (var x) = neg x))
    ∧ (∀ c ∈ clause_ptrs s', ∀ u ∈ (s'.cl c).lits, s'.status (var u) = 0 →
        ¬ (∀ x ∈ (s'.cl c).lits, x ≠ u → s'.status (var x) = neg x)) := by
  obtain ⟨hkb, hst, hq⟩ := hinv
  have hstart := bcp_start_inv s l ⟨hkb, hst, hq⟩ hl
  have hkb' : kb_inv s.vc (clause_ptrs s) s.cl s.watched := hkb
  have hq' : queue_ok s.vc s.status s.imp := hq
  obtain ⟨u1, u2, _, _⟩ := undo_mem s.score s.imp (var l)
    (hq'.2 (var l) (lit_ok_var s.vc l hl).2)
  have ht1 : twl (clause_ptrs s) s.cl (Function.update s.status (var l) l)
      (undo s.score s.imp (var l)) :=
    twl_start _ _ _ _ _ l ht hfree (watched_nonzero s.vc _ _ hkb'.1)
      (fun w hw => (u2 w).mpr (Or.inl hw)) u1
  unfold bcp at h
  obtain ⟨r1, r2, r3, _⟩ := bcp_loop_inv _ fuel _ _ true s' hstart h
  obtain ⟨e1, e2⟩ := bcp_loop_twl _ fuel _ _ s' hstart ht1 h
  have hkb2 : kb_inv s'.vc (clause_ptrs s') s'.cl s'.watched := r1.1
  have hnomem : ∀ w, ¬ heap_mem s'.imp w := by
    rintro w ⟨j, hj1, hj2, _⟩
    omega
  -- the two watched literals of a stored clause
  have hshape : ∀ c ∈ clause_ptrs s', ∃ a b t, (s'.cl c).lits = a :: b :: t ∧ a ≠ b
      ∧ (s'.status (var a) = neg a → s'.status (var b) = b)
      ∧ (s'.status (var b) = neg b → s'.status (var a) = a)
      ∧ a ≠ 0 ∧ b ≠ 0 := by
    intro c hc
    obtain ⟨c1, c2, c3⟩ := hkb2.1 c hc
    obtain ⟨a, b, t, hlc⟩ := shape_of_length _ c1
    obtain ⟨t1, t2⟩ := e1 c hc
    rw [hlc] at t1 t2 c2 c3
    simp only [List.getD_cons_zero, List.getD_cons_succ] at t1 t2
    have ha := (c3 a (List.mem_cons_self _ _)).1
    have hb := (c3 b (List.mem_cons_of_mem _ (List.mem_cons_self _ _))).1
    refine ⟨a, b, t, hlc, ?_, ?_, ?_, by omega, by omega⟩
    · intro e
      rw [e] at c2
      exact (List.nodup_cons.mp c2).1 (List.mem_cons_self _ _)
    · intro hx
      rcases t1 hx with y | y
      · exact absurd y (hnomem _)
      · exact y
    · intro hx
      rcases t2 hx with y | y
      · exact absurd y (hnomem _)
      · exact y
  constructor
  · intro c hc hall
    obtain ⟨a, b, t, hlc, _, ha, _, _, _⟩ := hshape c hc
    rw [hlc] at hall
    have fa := hall a (List.mem_cons_self _ _)
    have fb := hall b (List.mem_cons_of_mem _ (List.mem_cons_self _ _))
    have := ha fa
    rw [this] at fb
    exact neg_ne b fb.symm
  · intro c hc u hu hfreeu hall
    obtain ⟨a, b, t, hlc, hab, ha, hb, ha0, hb0⟩ := hshape c hc
    rw [hlc] at hall hu
    have hma : a ∈ a :: b :: t := List.mem_cons_self _ _
    have hmb : b ∈ a :: b :: t := List.mem_cons_of_mem _ (List.mem_cons_self _ _)
    by_cases hua : a = u
    · -- the unassigned literal is the first watch
      have fb := hall b hmb (fun e => hab (hua.trans e.symm))
      have := hb fb
      rw [hua, hfreeu] at this
      exact ha0 (hua.trans this.symm)
    · have fa := hall a hma hua
      have tb := ha fa
      by_cases hub : b = u
      · rw [hub, hfreeu] at tb
        exact hb0 (hub.trans tb.symm)
      · have fb := hall b hmb hub
        rw [tb] at fb
        exact neg_ne b fb.symm

theorem example_propagated_eq :
    bcp 10 (set_decision_start example_manager 5) 5 = some (true, example_propagated) :=
  option_result_eq (bcp 10 (set_decision_start example_manager 5) 5) example_manager true
    (by decide)

/-- C4, witness: the decision `-2` on the small instance propagates `-1` and
leaves no clause falsified or unit. -/
theorem bcp_closed_witness :
    (∀ c ∈ clause_ptrs example_propagated,
      ¬ (∀ x ∈ (example_propagated.cl c).lits, example_propagated.status (var x) = neg x))
    ∧ (∀ c ∈ clause_ptrs example_propagated, ∀ u ∈ (example_propagated.cl c).lits,
        example_propagated.status (var u) = 0 →
        ¬ (∀ x ∈ (example_propagated.cl c).lits, x ≠ u →
          example_propagated.status (var x) = neg x)) :=
  bcp_closed 10 (set_decision_start example_manager 5) 5 example_propagated
    (by decide) (by decide) (by decide) (by decide) example_propagated_eq

/-! ### `bcp`: what it changes of the assignment -/

theorem same_assignment_refl (s : my_manager) : same_assignment s s :=
  ⟨rfl, rfl, rfl, rfl, rfl, rfl⟩

theorem bcp_clause_at_frame (slevel : Nat) (s : my_manager) (last clause : Nat)
    (lits1 : List Nat) :
    (∀ s1 last1, bcp_clause_at slevel s last clause lits1 = clause_outcome.kept s1 last1 →
      (same_assignment s s1 ∧ last1 = last)
      ∨ (∃ o, s.status (var o) = 0
          ∧ s1.status = Function.update s.status (var o) o
          ∧ s1.level = Function.update s.level (var o) slevel
          ∧ s1.reason = Function.update s.reason (var o) (some clause)
          ∧ s1.assign = Function.update s.assign last o
          ∧ s1.decision_level = s.decision_level ∧ s1.decision_lit = s.decision_lit
          ∧ last1 = last + 1))
    ∧ (∀ s1, bcp_clause_at slevel s last clause lits1 = clause_outcome.moved s1 →
        same_assignment s s1)
    ∧ (∀ s1, bcp_clause_at slevel s last clause lits1 = clause_outcome.conflict s1 →
        same_assignment s s1) := by
  unfold bcp_clause_at
  simp only
  split
  · refine ⟨?_, ?_, ?_⟩
    · intro s1 last1 he
      simp only [clause_outcome.kept.injEq] at he
      obtain ⟨e1, e2⟩ := he
      subst e1 e2
      exact Or.inl ⟨same_assignment_refl _, rfl⟩
    · intro s1 he; simp at he
    · intro s1 he; simp at he
  · split
    · refine ⟨?_, ?_, ?_⟩
      · intro s1 last1 he; simp at he
      · intro s1 he
        simp only [clause_outcome.moved.injEq] at he
        subst he
        exact same_assignment_refl _
      · intro s1 he; simp at he
    · split
      · refine ⟨?_, ?_, ?_⟩
        · intro s1 last1 he; simp at he
        · intro s1 he; simp at he
        · intro s1 he
          simp only [clause_outcome.conflict.injEq] at he
          subst he
          exact same_assignment_refl _
      · split
        · rename_i h0
          refine ⟨?_, ?_, ?_⟩
          · intro s1 last1 he
            simp only [clause_outcome.kept.injEq] at he
            obtain ⟨e1, e2⟩ := he
            subst e1 e2
            exact Or.inr ⟨_, h0, rfl, rfl, rfl, rfl, rfl, rfl, rfl⟩
          · intro s1 he; simp at he
          · intro s1 he; simp at he
        · refine ⟨?_, ?_, ?_⟩
          · intro s1 last1 he
            simp only [clause_outcome.kept.injEq] at he
            obtain ⟨e1, e2⟩ := he
            subst e1 e2
            exact Or.inl ⟨same_assignment_refl _, rfl⟩
          · intro s1 he; simp at he
          · intro s1 he; simp at he

/-- One clause of a watched list leaves the assignment alone, or implies one
literal of a so far unassigned variable and pushes it at `last`. -/
theorem bcp_clause_frame (slevel neg_lit : Nat) (s : my_manager) (last clause : Nat) :
    (∀ s1 last1, bcp_clause slevel neg_lit s last clause = clause_outcome.kept s1 last1 →
      (same_assignment s s1 ∧ last1 = last)
      ∨ (∃ o, s.status (var o) = 0
          ∧ s1.status = Function.update s.status (var o) o
          ∧ s1.level = Function.update s.level (var o) slevel
          ∧ s1.reason = Function.update s.reason (var o) (some clause)
          ∧ s1.assign = Function.update s.assign last o
          ∧ s1.decision_level = s.decision_level ∧ s1.decision_lit = s.decision_lit
          ∧ last1 = last + 1))
    ∧ (∀ s1, bcp_clause slevel neg_lit s last clause = clause_outcome.moved s1 →
        same_assignment s s1)
    ∧ (∀ s1, bcp_clause slevel neg_lit s last clause = clause_outcome.conflict s1 →
        same_assignment s s1) := by
  unfold bcp_clause
  exact bcp_clause_at_frame slevel s last clause _

theorem bcp_trace_same (s0 : my_manager) (top0 : Nat) (s s1 : my_manager) (last : Nat)
    (h : bcp_trace s0 top0 s last) (hs : same_assignment s s1) :
    bcp_trace s0 top0 s1 last := by
  obtain ⟨e1, e2, e3, e4, e5, e6⟩ := hs
  obtain ⟨a, d, c1, c2, e⟩ := h
  unfold bcp_trace
  rw [e1, e2, e3, e4, e5, e6]
  exact ⟨a, d, c1, c2, e⟩

theorem bcp_trace_imply (s0 : my_manager) (top0 : Nat) (s s1 : my_manager) (last : Nat)
    (o : Nat) (x : Nat) (y : Option Nat)
    (h : bcp_trace s0 top0 s last) (ho : s.status (var o) = 0)
    (h1 : s1.status = Function.update s.status (var o) o)
    (h2 : s1.level = Function.update s.level (var o) x)
    (h3 : s1.reason = Function.update s.reason (var o) y)
    (h4 : s1.assign = Function.update s.assign last o)
    (h5 : s1.decision_level = s.decision_level) (h6 : s1.decision_lit = s.decision_lit) :
    bcp_trace s0 top0 s1 (last + 1) := by
  obtain ⟨a, d, c1, c2, e⟩ := h
  have ho0 : s0.status (var o) = 0 := by
    rcases a (var o) with ⟨z, _, _⟩ | ⟨z, _⟩
    · rw [← z]; exact ho
    · exact z
  refine ⟨?_, ?_, by rw [h5]; exact c1, by rw [h6]; exact c2, by omega⟩
  · intro v
    by_cases hv : v = var o
    · right
      rw [hv]
      exact ⟨ho0, last, by omega, by omega, by rw [h4, Function.update_same]⟩
    · rcases a v with ⟨z1, z2, z3⟩ | ⟨z, p, p1, p2, p3⟩
      · left
        rw [h1, h2, h3, Function.update_noteq hv, Function.update_noteq hv,
          Function.update_noteq hv]
        exact ⟨z1, z2, z3⟩
      · right
        refine ⟨z, p, p1, by omega, ?_⟩
        have hp : p ≠ last := by omega
        rw [h4, Function.update_noteq hp]
        exact p3
  · intro p hp1 hp2
    rw [h4]
    by_cases hp : p = last
    · rw [hp, Function.update_same]; exact ho0
    · rw [Function.update_noteq hp]
      exact d p hp1 (by omega)

theorem bcp_watch_loop_trace (slevel neg_lit : Nat) (s0 : my_manager) (top0 : Nat) :
    ∀ (rest : List Nat) (s : my_manager) (last : Nat) (kept : List Nat),
      bcp_trace s0 top0 s last →
      bcp_trace s0 top0 (bcp_watch_loop slevel neg_lit rest s last kept).m
        (bcp_watch_loop slevel neg_lit rest s last kept).last
      ∧ ((bcp_watch_loop slevel neg_lit rest s last kept).conflict = true →
          (bcp_watch_loop slevel neg_lit rest s last kept).m.assign_top
            = (bcp_watch_loop slevel neg_lit rest s last kept).last) := by
  intro rest
  induction rest with
  | nil =>
    intro s last kept h
    rw [bcp_watch_loop]
    exact ⟨h, fun hc => by simp at hc⟩
  | cons clause rest ih =>
    intro s last kept h
    obtain ⟨k1, k2, k3⟩ := bcp_clause_frame slevel neg_lit s last clause
    rw [bcp_watch_loop]
    cases hb : bcp_clause slevel neg_lit s last clause with
    | kept s1 last1 =>
      simp only
      rcases k1 s1 last1 hb with ⟨y1, y2⟩ | ⟨o, o0, o1, o2, o3, o4, o5, o6, o7⟩
      · rw [y2]
        exact ih s1 last _ (bcp_trace_same s0 top0 s s1 last h y1)
      · rw [o7]
        exact ih s1 (last + 1) _ (bcp_trace_imply s0 top0 s s1 last o _ _ h o0 o1 o2 o3 o4 o5 o6)
    | moved s1 =>
      simp only
      exact ih s1 last _ (bcp_trace_same s0 top0 s s1 last h (k2 s1 hb))
    | conflict s1 =>
      simp only
      refine ⟨?_, fun _ => trivial⟩
      have := bcp_trace_same s0 top0 s s1 last h (k3 s1 hb)
      exact bcp_trace_same s0 top0 s1 _ last this ⟨rfl, rfl, rfl, rfl, rfl, rfl⟩

theorem bcp_loop_trace (slevel : Nat) (s0 : my_manager) (top0 : Nat) :
    ∀ (fuel : Nat) (s : my_manager) (last : Nat) (res : Bool) (s' : my_manager),
      bcp_trace s0 top0 s last → bcp_loop slevel fuel s last = some (res, s') →
      bcp_trace s0 top0 s' s'.assign_top := by
  intro fuel
  induction fuel with
  | zero => intro s last res s' _ h; simp [bcp_loop] at h
  | succ f ih =>
    intro s last res s' ht h
    rw [bcp_loop] at h
    simp only at h
    by_cases hd : (dequeue s.score s.imp).1 = 0
    · rw [if_pos hd] at h
      simp only [Option.some.injEq, Prod.mk.injEq] at h
      obtain ⟨_, h2⟩ := h
      subst h2
      exact bcp_trace_same s0 top0 s _ last ht ⟨rfl, rfl, rfl, rfl, rfl, rfl⟩
    · rw [if_neg hd] at h
      have ht0 : bcp_trace s0 top0 { s with imp := (dequeue s.score s.imp).2 } last :=
        bcp_trace_same s0 top0 s _ last ht ⟨rfl, rfl, rfl, rfl, rfl, rfl⟩
      obtain ⟨r1, r2⟩ := bcp_watch_loop_trace slevel (neg (s.status (dequeue s.score s.imp).1))
        s0 top0 (s.watched (watched_index (neg (s.status (dequeue s.score s.imp).1))))
        { s with imp := (dequeue s.score s.imp).2 } last [] ht0
      by_cases hc : (bcp_watch_loop slevel (neg (s.status (dequeue s.score s.imp).1))
          (s.watched (watched_index (neg (s.status (dequeue s.score s.imp).1))))
          { s with imp := (dequeue s.score s.imp).2 } last []).conflict = true
      · rw [if_pos hc] at h
        simp only [Option.some.injEq, Prod.mk.injEq] at h
        obtain ⟨_, h2⟩ := h
        subst h2
        have e := r2 hc
        show bcp_trace s0 top0 _ (bcp_watch_loop slevel _ _ _ last []).m.assign_top
        rw [e]
        exact bcp_trace_same s0 top0 _ _ _ r1 ⟨rfl, rfl, rfl, rfl, rfl, rfl⟩
      · rw [if_neg hc] at h
        refine ih _ _ res s' ?_ h
        exact bcp_trace_same s0 top0 _ _ _ r1 ⟨rfl, rfl, rfl, rfl, rfl, rfl⟩

/-- What `bcp` changes: called on `s` with `stack_offset = 0` and a literal of
an unassigned variable, it returns a manager whose assignment differs from
that of `s` only at variables that were unassigned and now have an entry on
the stack above the old `assign_top`. -/
theorem bcp_trace_result (fuel : Nat) (s : my_manager) (l : Nat) (res : Bool)
    (s' : my_manager) (hfree : s.status (var l) = 0) (hoff : s.stack_offset = 0)
    (h : bcp fuel s l = some (res, s')) :
    bcp_trace s s.assign_top s' s'.assign_top := by
  unfold bcp at h
  simp only [hoff, add_zero] at h
  refine bcp_loop_trace _ s s.assign_top fuel _ _ res s' ?_ h
  have hlast : ((s.assign_top : Int) + 1).toNat = s.assign_top + 1 := by omega
  rw [hlast]
  refine ⟨?_, ?_, rfl, rfl, by omega⟩
  · intro v
    by_cases hv : v = var l
    · right
      rw [hv]
      exact ⟨hfree, s.assign_top, le_refl _, by omega, by simp⟩
    · left
      simp only [Function.update_noteq hv]
      exact ⟨trivial, trivial, trivial⟩
  · intro p hp1 hp2
    have hp : p = s.assign_top := by omega
    subst hp
    simp only [Function.update_same]
    exact hfree

/-! ### `bcp` returns -/

theorem unassigned_count_le (vc : Nat) (status : Nat → Nat) :
    unassigned_count vc status ≤ vc := by
  unfold unassigned_count
  calc ((Finset.Icc 1 vc).filter (fun v => status v = 0)).card
      ≤ (Finset.Icc 1 vc).card := Finset.card_filter_le _ _
    _ = vc := by simp

theorem unassigned_count_update (vc : Nat) (status : Nat → Nat) (v x : Nat)
    (h0 : status v = 0) (hx : x ≠ 0) (h1 : 1 ≤ v) (h2 : v ≤ vc) :
    unassigned_count vc (Function.update status v x) + 1 = unassigned_count vc status := by
  unfold unassigned_count
  have hmem : v ∈ (Finset.Icc 1 vc).filter (fun w => status w = 0) := by
    simp [h0, h1, h2]
  have heq : (Finset.Icc 1 vc).filter (fun w => Function.update status v x w = 0)
      = ((Finset.Icc 1 vc).filter (fun w => status w = 0)).erase v := by
    ext w
    simp only [Finset.mem_filter, Finset.mem_Icc, Finset.mem_erase]
    by_cases hw : w = v
    · subst hw
      simp [hx]
    · rw [Function.update_noteq hw]
      simp [hw]
  rw [heq, Finset.card_erase_of_mem hmem]
  have : 0 < ((Finset.Icc 1 vc).filter (fun w => status w = 0)).card :=
    Finset.card_pos.mpr ⟨v, hmem⟩
  omega

theorem bcp_clause_measure (slevel neg_lit : Nat) (s : my_manager) (last clause : Nat)
    (kept rest : List Nat) (hn : lit_ok s.vc neg_lit)
    (hinv : bcp_inv { s with watched :=
      (Function.update s.watched (watched_index neg_lit) (kept ++ clause :: rest)) }) :
    (∀ s1 last1, bcp_clause slevel neg_lit s last clause = clause_outcome.kept s1 last1 →
      s1.imp.size + unassigned_count s.vc s1.status
        ≤ s.imp.size + unassigned_count s.vc s.status)
    ∧ (∀ s1, bcp_clause slevel neg_lit s last clause = clause_outcome.moved s1 →
      s1.imp.size + unassigned_count s.vc s1.status
        ≤ s.imp.size + unassigned_count s.vc s.status) := by
  obtain ⟨hkb, hst, hq⟩ := hinv
  have hkb' : kb_inv s.vc (clause_ptrs s) s.cl
      (Function.update s.watched (watched_index neg_lit) (kept ++ clause :: rest)) := hkb
  have hq' : queue_ok s.vc s.status s.imp := hq
  have hmem : clause ∈ Function.update s.watched (watched_index neg_lit)
      (kept ++ clause :: rest) (watched_index neg_lit) := by
    rw [Function.update_same]
    exact List.mem_append.mpr (Or.inr (List.mem_cons_self _ _))
  obtain ⟨hptr, hwat⟩ := (hkb'.2.1 neg_lit hn.1 hn.2).2 clause hmem
  obtain ⟨hlen, hnd, hoks⟩ := hkb'.1 clause hptr
  obtain ⟨a, b, t, hl⟩ := shape_of_length _ hlen
  have hw : a = neg_lit ∨ b = neg_lit := by
    unfold watches at hwat
    rw [hl] at hwat
    simpa using hwat
  obtain ⟨o, ho, hcases⟩ := bcp_clause_spec slevel neg_lit s last clause a b t hl hw
  have ho_mem : o ∈ (s.cl clause).lits := by
    rw [hl]
    rcases ho with ⟨e, _⟩ | ⟨e, _⟩
    · rw [e]; exact List.mem_cons_self _ _
    · rw [e]; exact List.mem_cons_of_mem _ (List.mem_cons_self _ _)
  have ho_ok : lit_ok s.vc o := hoks o ho_mem
  constructor
  · intro s1 last1 he
    rcases hcases with ⟨_, e⟩ | ⟨_, m, _, _, e⟩ | ⟨_, _, _, e⟩ | ⟨_, _, _, h0, e⟩ | ⟨_, _, _, _, e⟩
    · rw [e] at he
      simp only [clause_outcome.kept.injEq] at he
      obtain ⟨e1, _⟩ := he
      subst e1
      exact le_refl _
    · rw [e] at he; simp at he
    · rw [e] at he; simp at he
    · rw [e] at he
      simp only [clause_outcome.kept.injEq] at he
      obtain ⟨e1, _⟩ := he
      subst e1
      have hvo := lit_ok_var s.vc o ho_ok
      have ho0 : o ≠ 0 := by have := ho_ok.1; omega
      have hu := unassigned_count_update s.vc s.status (var o) o h0 ho0 hvo.1 hvo.2
      obtain ⟨_, _, _, u4⟩ := undo_mem s.score s.imp (var o) (hq'.2 (var o) hvo.2)
      show (undo s.score s.imp (var o)).size
          + unassigned_count s.vc (Function.update s.status (var o) o)
        ≤ s.imp.size + unassigned_count s.vc s.status
      omega
    · rw [e] at he
      simp only [clause_outcome.kept.injEq] at he
      obtain ⟨e1, _⟩ := he
      subst e1
      exact le_refl _
  · intro s1 he
    rcases hcases with ⟨_, e⟩ | ⟨_, m, hm, hu, e⟩ | ⟨_, _, _, e⟩ | ⟨_, _, _, h0, e⟩ | ⟨_, _, _, _, e⟩
    · rw [e] at he; simp at he
    · rw [e] at he
      simp only [clause_outcome.moved.injEq] at he
      subst he
      exact le_refl _
    · rw [e] at he; simp at he
    · rw [e] at he; simp at he
    · rw [e] at he; simp at he

theorem bcp_watch_loop_measure (slevel neg_lit : Nat) :
    ∀ (rest : List Nat) (s : my_manager) (last : Nat) (kept : List Nat),
      lit_ok s.vc neg_lit →
      bcp_inv { s with watched :=
        (Function.update s.watched (watched_index neg_lit) (kept ++ rest)) } →
      s.status (var neg_lit) = neg neg_lit →
      (bcp_watch_loop slevel neg_lit rest s last kept).conflict = false →
      (bcp_watch_loop slevel neg_lit rest s last kept).m.imp.size
          + unassigned_count s.vc (bcp_watch_loop slevel neg_lit rest s last kept).m.status
        ≤ s.imp.size + unassigned_count s.vc s.status := by
  intro rest
  induction rest with
  | nil =>
    intro s last kept _ _ _ _
    rw [bcp_watch_loop]
  | cons clause rest ih =>
    intro s last kept hn hinv hfalse
    obtain ⟨k1, k2, _⟩ := bcp_clause_inv slevel neg_lit s last clause kept rest hn hinv hfalse
    obtain ⟨m1, m2⟩ := bcp_clause_measure slevel neg_lit s last clause kept rest hn hinv
    rw [bcp_watch_loop]
    cases hb : bcp_clause slevel neg_lit s last clause with
    | kept s1 last1 =>
      obtain ⟨a1, a2, a3, a4⟩ := k1 s1 last1 hb
      simp only
      intro hc
      have := ih s1 last1 (kept ++ [clause]) (by rw [a2]; exact hn) a1 a4 hc
      rw [a2] at this
      exact le_trans this (m1 s1 last1 hb)
    | moved s1 =>
      obtain ⟨a1, a2, a3, a4⟩ := k2 s1 hb
      simp only
      intro hc
      have := ih s1 last kept (by rw [a2]; exact hn) a1 a4 hc
      rw [a2] at this
      exact le_trans this (m2 s1 hb)
    | conflict s1 =>
      simp only
      intro hc
      simp at hc

theorem bcp_loop_terminates (slevel : Nat) :
    ∀ (fuel : Nat) (s : my_manager) (last : Nat), bcp_inv s →
      s.imp.size + unassigned_count s.vc s.status < fuel →
      ∃ r, bcp_loop slevel fuel s last = some r := by
  intro fuel
  induction fuel with
  | zero => intro s last _ h; omega
  | succ f ih =>
    intro s last hinv hfuel
    rw [bcp_loop]
    simp only
    obtain ⟨hkb, hst, hq⟩ := hinv
    by_cases hd : (dequeue s.score s.imp).1 = 0
    · rw [if_pos hd]
      exact ⟨_, rfl⟩
    · rw [if_neg hd]
      have hne : s.imp.size ≠ 0 := by
        intro e
        rw [dequeue_empty s.score s.imp e] at hd
        exact hd rfl
      obtain ⟨d1, d2, d3, _, _⟩ := queue_ok_dequeue s.score s.vc s.status s.imp hq hne
      obtain ⟨v1, v2, v3⟩ := queue_ok_mem s.vc s.status s.imp hq _ d2
      have hvar : var (s.status (dequeue s.score s.imp).1) = (dequeue s.score s.imp).1 :=
        hst _ v2 v3
      have hlit : lit_ok s.vc (s.status (dequeue s.score s.imp).1) := by
        unfold lit_ok
        rw [var_eq] at hvar
        omega
      have hn := lit_ok_neg s.vc _ hlit
      have hfalse : s.status (var (neg (s.status (dequeue s.score s.imp).1)))
          = neg (neg (s.status (dequeue s.score s.imp).1)) := by
        rw [var_neg, neg_neg, hvar]
      have hinv0 : bcp_inv { ({ s with imp := (dequeue s.score s.imp).2 } : my_manager) with
          watched := (Function.update s.watched
            (watched_index (neg (s.status (dequeue s.score s.imp).1)))
            ([] ++ s.watched (watched_index (neg (s.status (dequeue s.score s.imp).1))))) } := by
        rw [List.nil_append, Function.update_eq_self]
        exact ⟨hkb, hst, d1⟩
      obtain ⟨r1, r2, _, _⟩ := bcp_watch_loop_inv slevel
        (neg (s.status (dequeue s.score s.imp).1))
        (s.watched (watched_index (neg (s.status (dequeue s.score s.imp).1))))
        { s with imp := (dequeue s.score s.imp).2 } last [] hn hinv0 hfalse
      by_cases hc : (bcp_watch_loop slevel (neg (s.status (dequeue s.score s.imp).1))
          (s.watched (watched_index (neg (s.status (dequeue s.score s.imp).1))))
          { s with imp := (dequeue s.score s.imp).2 } last []).conflict = true
      · rw [if_pos hc]
        exact ⟨_, rfl⟩
      · rw [if_neg hc]
        have hm := bcp_watch_loop_measure slevel
          (neg (s.status (dequeue s.score s.imp).1))
          (s.watched (watched_index (neg (s.status (dequeue s.score s.imp).1))))
          { s with imp := (dequeue s.score s.imp).2 } last [] hn hinv0 hfalse
          (Bool.eq_false_iff.mpr hc)
        apply ih _ _ r1
        have hm' : (bcp_watch_loop slevel (neg (s.status (dequeue s.score s.imp).1))
            (s.watched (watched_index (neg (s.status (dequeue s.score s.imp).1))))
            { s with imp := (dequeue s.score s.imp).2 } last []).m.imp.size
            + unassigned_count s.vc (bcp_watch_loop slevel
              (neg (s.status (dequeue s.score s.imp).1))
              (s.watched (watched_index (neg (s.status (dequeue s.score s.imp).1))))
              { s with imp := (dequeue s.score s.imp).2 } last []).m.status
            ≤ (dequeue s.score s.imp).2.size + unassigned_count s.vc s.status := hm
        have r2' : (bcp_watch_loop slevel (neg (s.status (dequeue s.score s.imp).1))
            (s.watched (watched_index (neg (s.status (dequeue s.score s.imp).1))))
            { s with imp := (dequeue s.score s.imp).2 } last []).m.vc = s.vc := r2
        show (bcp_watch_loop slevel _ _ _ last []).m.imp.size
          + unassigned_count (bcp_watch_loop slevel _ _ _ last []).m.vc
              (bcp_watch_loop slevel _ _ _ last []).m.status < f
        rw [r2']
        omega

/-- From a state satisfying its invariant, `bcp` returns once it is given
`imp.size + vc + 2` iterations of fuel. -/
theorem bcp_terminates (fuel : Nat) (s : my_manager) (l : Nat) (hinv : bcp_inv s)
    (hl : lit_ok s.vc l) (hfuel : s.imp.size + s.vc + 2 ≤ fuel) :
    ∃ r, bcp fuel s l = some r := by
  have hstart := bcp_start_inv s l hinv hl
  unfold bcp
  apply bcp_loop_terminates _ fuel _ _ hstart
  obtain ⟨_, _, hq⟩ := hinv
  have hq' : queue_ok s.vc s.status s.imp := hq
  obtain ⟨_, _, _, u4⟩ := undo_mem s.score s.imp (var l)
    (hq'.2 (var l) (lit_ok_var s.vc l hl).2)
  have hu := unassigned_count_le s.vc (Function.update s.status (var l) l)
  show (undo s.score s.imp (var l)).size
    + unassigned_count s.vc (Function.update s.status (var l) l) < fuel
  omega

/-! ### A decision and its undoing -/

theorem set_decision_start_fields (s : my_manager) (l : Nat) :
    (set_decision_start s l).status = s.status
    ∧ (set_decision_start s l).assign = s.assign
    ∧ (set_decision_start s l).assign_top = s.assign_top
    ∧ (set_decision_start s l).stack_offset = s.stack_offset
    ∧ (set_decision_start s l).decision_level = s.decision_level + 1
    ∧ (set_decision_start s l).decision_lit
        = Function.update s.decision_lit (s.decision_level + 1) s.assign_top
    ∧ (set_decision_start s l).level = Function.update s.level (var l) (s.decision_level + 1)
    ∧ (set_decision_start s l).reason = Function.update s.reason (var l) none
    ∧ (set_decision_start s l).vc = s.vc
    ∧ (set_decision_start s l).imp = s.imp
    ∧ (set_decision_start s l).score = s.score := by
  unfold set_decision_start
  by_cases h : s.decision_level > s.max_decision_level
  · simp [h]
  · simp [h]

theorem decision_undone_of_result (fuel : Nat) (s : my_manager) (l : Nat) (res : Bool)
    (s' : my_manager) (hfree : s.status (var l) = 0) (hoff : s.stack_offset = 0)
    (hun : ∀ v, s.status v = 0 → s.level v = 0 ∧ s.reason v = none)
    (h : set_decision fuel s l = some (res, s')) :
    s'.decision_level = s.decision_level + 1
    ∧ (∀ v, (backtrack s' s'.decision_level).status v = s.status v
        ∧ (backtrack s' s'.decision_level).level v = s.level v
        ∧ (backtrack s' s'.decision_level).reason v = s.reason v)
    ∧ (backtrack s' s'.decision_level).assign_top = s.assign_top
    ∧ (backtrack s' s'.decision_level).decision_level = s.decision_level := by
  obtain ⟨f1, f2, f3, f4, f5, f6, f7, f8, _, _, _⟩ := set_decision_start_fields s l
  unfold set_decision bcp at h
  rw [f4, hoff, f3] at h
  simp only [add_zero] at h
  have hlast : ((s.assign_top : Int) + 1).toNat = s.assign_top + 1 := by omega
  rw [hlast] at h
  -- the state to compare with: the status, level and reason of `s`
  have htr := bcp_loop_trace ((set_decision_start s l).level (var l))
    { set_decision_start s l with level := s.level, reason := s.reason } s.assign_top fuel _ _
    res s' (by
      refine ⟨?_, ?_, rfl, rfl, by omega⟩
      · intro v
        by_cases hv : v = var l
        · right
          rw [hv]
          refine ⟨by rw [f1]; exact hfree, s.assign_top, le_refl _, by omega, ?_⟩
          simp only [Function.update_same]
        · left
          simp only [Function.update_noteq hv]
          rw [f7, f8, Function.update_noteq hv, Function.update_noteq hv]
          exact ⟨trivial, rfl, rfl⟩
      · intro p hp1 hp2
        have hp : p = s.assign_top := by omega
        subst hp
        simp only [Function.update_same]
        rw [f1]
        exact hfree) h
  obtain ⟨a, d, c1, c2, e⟩ := htr
  have a' : ∀ v, (s'.status v = s.status v ∧ s'.level v = s.level v ∧ s'.reason v = s.reason v)
      ∨ (s.status v = 0 ∧ ∃ p, s.assign_top ≤ p ∧ p < s'.assign_top ∧ var (s'.assign p) = v) := by
    intro v
    rcases a v with x | x
    · left
      have x' := x
      simp only [f1] at x'
      exact x'
    · right
      have x' := x
      simp only [f1] at x'
      exact x'
  have hdl : s'.decision_level = s.decision_level + 1 := by
    have := c1
    simp only [f5] at this
    exact this
  have hdlit : s'.decision_lit (s.decision_level + 1) = s.assign_top := by
    have := c2
    simp only [f6] at this
    rw [this, Function.update_same]
  refine ⟨hdl, ?_⟩
  rw [hdl, backtrack_eq s' (s.decision_level + 1) (by omega), hdlit]
  refine ⟨?_, ?_, ?_⟩
  · intro v
    by_cases hseg : ∃ p, s.assign_top ≤ p ∧ p < s'.assign_top ∧ var (s'.assign p) = v
    · obtain ⟨p, p1, p2, p3⟩ := hseg
      obtain ⟨r1, r2, r3, _⟩ := backtrack_loop_popped (s'.assign_top - s.assign_top) s'
        s'.assign_top v (by omega) ⟨p, by omega, p2, p3⟩
      have hs0 : s.status v = 0 := by
        have := d p p1 p2
        simp only [f1] at this
        rw [p3] at this
        exact this
      obtain ⟨u1, u2⟩ := hun v hs0
      exact ⟨r1.trans hs0.symm, r2.trans u1.symm, r3.trans u2.symm⟩
    · obtain ⟨r1, r2, r3⟩ := backtrack_loop_untouched (s'.assign_top - s.assign_top) s'
        s'.assign_top v (by omega)
        (fun p hp1 hp2 hp3 => hseg ⟨p, by omega, hp2, hp3⟩)
      rcases a' v with ⟨x1, x2, x3⟩ | ⟨_, x⟩
      · exact ⟨r1.trans x1, r2.trans x2, r3.trans x3⟩
      · exact absurd x hseg
  · show (if s'.assign_top > s.assign_top then s.assign_top else s'.assign_top) = s.assign_top
    rw [if_pos e]
  · show s.decision_level + 1 - 1 = s.decision_level
    omega

theorem set_decision_start_inv (s : my_manager) (l : Nat) (hinv : bcp_inv s) :
    bcp_inv (set_decision_start s l) ∧ (set_decision_start s l).vc = s.vc
    ∧ (set_decision_start s l).imp = s.imp := by
  unfold set_decision_start
  by_cases h : s.decision_level > s.max_decision_level
  · simp only [h, if_true]
    exact ⟨hinv, trivial, trivial⟩
  · simp only [h, if_false]
    exact ⟨hinv, trivial, trivial⟩

/-- C9: for every state satisfying the invariant of `bcp`, in which
unassigned variables have level 0 and no reason and `stack_offset` is 0, and
every literal `l` of an unassigned variable among `1..vc`, `set_decision(l)`
returns (with `imp.size + vc + 2` iterations of fuel or more), and whatever it
returns (`bcp` answering 1 or 0), `backtrack` on the level just opened
restores the status, level and reason of every variable, `assign_top` and
`decision_level` to their values before the decision. -/
theorem decision_undone (s : my_manager) (l : Nat) (hinv : bcp_inv s) (hl : lit_ok s.vc l)
    (hfree : s.status (var l) = 0) (hoff : s.stack_offset = 0)
    (hun : ∀ v, s.status v = 0 → s.level v = 0 ∧ s.reason v = none) :
    (∀ fuel, s.imp.size + s.vc + 2 ≤ fuel → ∃ res s', set_decision fuel s l = some (res, s'))
    ∧ ∀ fuel res s', set_decision fuel s l = some (res, s') →
      s'.decision_level = s.decision_level + 1
      ∧ (∀ v, (backtrack s' s'.decision_level).status v = s.status v
          ∧ (backtrack s' s'.decision_level).level v = s.level v
          ∧ (backtrack s' s'.decision_level).reason v = s.reason v)
      ∧ (backtrack s' s'.decision_level).assign_top = s.assign_top
      ∧ (backtrack s' s'.decision_level).decision_level = s.decision_level := by
  constructor
  · intro fuel hfuel
    obtain ⟨i1, i2, i3⟩ := set_decision_start_inv s l hinv
    obtain ⟨r, hr⟩ := bcp_terminates fuel (set_decision_start s l) l i1
      (by rw [i2]; exact hl) (by rw [i2, i3]; exact hfuel)
    exact ⟨r.1, r.2, hr⟩
  · intro fuel res s' h
    exact decision_undone_of_result fuel s l res s' hfree hoff hun h

/-- C9, witness: on the small instance the decision `1` ends in a conflict,
and undoing it gives back the assignment held before. -/
theorem decision_undone_witness :
    (∀ fuel, example_manager.imp.size + example_manager.vc + 2 ≤ fuel →
      ∃ res s', set_decision fuel example_manager 2 = some (res, s'))
    ∧ ∀ fuel res s', set_decision fuel example_manager 2 = some (res, s') →
      s'.decision_level = example_manager.decision_level + 1
      ∧ (∀ v, (backtrack s' s'.decision_level).status v = example_manager.status v
          ∧ (backtrack s' s'.decision_level).level v = example_manager.level v
          ∧ (backtrack s' s'.decision_level).reason v = example_manager.reason v)
      ∧ (backtrack s' s'.decision_level).assign_top = example_manager.assign_top
      ∧ (backtrack s' s'.decision_level).decision_level = example_manager.decision_level :=
  decision_undone example_manager 2 (by decide) (by decide) (by decide) (by decide)
    (fun _ _ => ⟨rfl, rfl⟩)

/-! ### Conflict analysis: the resolution loop -/

theorem increment_literal_score_frame (s : my_manager) (l : Nat) :
    dcc_frame s (increment_literal_score s l)
    ∧ (increment_literal_score s l).cdc = s.cdc
    ∧ (increment_literal_score s l).cdc_index = s.cdc_index := by
  unfold increment_literal_score rescale_variable_scores dcc_frame
  simp only
  split <;> exact ⟨⟨rfl, rfl, rfl, rfl, rfl, rfl, rfl⟩, rfl, rfl⟩

theorem increment_clause_score_frame (s : my_manager) (c : Nat) :
    dcc_frame s (increment_clause_score s c)
    ∧ (increment_clause_score s c).cdc = s.cdc
    ∧ (increment_clause_score s c).cdc_index = s.cdc_index := by
  unfold increment_clause_score rescale_clause_scores dcc_frame
  simp only
  split <;> exact ⟨⟨rfl, rfl, rfl, rfl, rfl, rfl, rfl⟩, rfl, rfl⟩

theorem on_trail_mono (s : my_manager) (v n k : Nat) (h : on_trail s v n) (hk : n ≤ k) :
    on_trail s v k := by
  obtain ⟨p, h1, h2⟩ := h
  exact ⟨p, by omega, h2⟩

theorem seen_count_mark (s : my_manager) (clevel n v : Nat) (seen : Nat → Bool)
    (hinv : analysis_inv s clevel) (hn : n ≤ s.assign_top) (hv : on_trail s v n)
    (hs : seen v = false) (hl : s.level v = clevel) :
    seen_count s clevel (Function.update seen v true) n = seen_count s clevel seen n + 1 := by
  obtain ⟨q, q1, q2⟩ := hv
  unfold seen_count
  have heq : (Finset.range n).filter
      (fun p => Function.update seen v true (var (s.assign p)) = true
        ∧ s.level (var (s.assign p)) = clevel)
      = Insert.insert q ((Finset.range n).filter
        (fun p => seen (var (s.assign p)) = true ∧ s.level (var (s.assign p)) = clevel)) := by
    ext p
    simp only [Finset.mem_filter, Finset.mem_range, Finset.mem_insert]
    by_cases hp : var (s.assign p) = v
    · rw [hp, Function.update_same]
      constructor
      · rintro ⟨hpn, _⟩
        left
        by_contra hne
        rcases Nat.lt_or_gt_of_ne hne with h | h
        · exact (hinv q (by omega)).2.2.1 p h |>.1 (by rw [hp, q2])
        · exact (hinv p (by omega)).2.2.1 q h |>.1 (by rw [hp, q2])
      · rintro (e | ⟨hpn, hh, _⟩)
        · subst e
          exact ⟨q1, rfl, hl⟩
        · rw [hs] at hh
          exact absurd hh (by decide)
    · rw [Function.update_noteq hp]
      constructor
      · intro h
        exact Or.inr h
      · rintro (e | h)
        · subst e
          exact absurd q2 hp
        · exact h
  rw [heq, Finset.card_insert_of_not_mem]
  simp only [Finset.mem_filter, Finset.mem_range, not_and]
  intro _ hh
  rw [q2, hs] at hh
  exact absurd hh (by decide)

theorem seen_count_mark_other (s : my_manager) (clevel n v : Nat) (seen : Nat → Bool)
    (b : Bool) (hl : s.level v ≠ clevel) :
    seen_count s clevel (Function.update seen v b) n = seen_count s clevel seen n := by
  unfold seen_count
  congr 1
  ext p
  simp only [Finset.mem_filter, Finset.mem_range]
  by_cases hp : var (s.assign p) = v
  · rw [hp]
    constructor
    · rintro ⟨_, _, h⟩
      exact absurd h hl
    · rintro ⟨_, _, h⟩
      exact absurd h hl
  · rw [Function.update_noteq hp]

theorem dcc_scan_spec (s : my_manager) (clevel n : Nat) (hinv : analysis_inv s clevel)
    (hn : n ≤ s.assign_top) :
    ∀ (lits : List Nat) (st : dcc_state),
      (∀ x ∈ lits, s.status (var x) = neg x ∧ on_trail s (var x) n) →
      dcc_inv s clevel n st →
      dcc_inv s clevel n (dcc_scan clevel lits st)
      ∧ st.num_lits_at_clevel ≤ (dcc_scan clevel lits st).num_lits_at_clevel
      ∧ (∀ v, st.seen v = true → (dcc_scan clevel lits st).seen v = true)
      ∧ (∀ x ∈ lits, 1 < s.level (var x) → (dcc_scan clevel lits st).seen (var x) = true) := by
  intro lits
  induction lits with
  | nil =>
    intro st _ hj
    rw [dcc_scan]
    exact ⟨hj, le_refl _, fun _ h => h, fun x hx => absurd hx (List.not_mem_nil x)⟩
  | cons cur rest ih =>
    intro st hl hj
    obtain ⟨hfr, hnum, hidx, hcdc⟩ := hj
    obtain ⟨hfalse, htrail⟩ := hl cur (List.mem_cons_self _ _)
    have hrest : ∀ x ∈ rest, s.status (var x) = neg x ∧ on_trail s (var x) n :=
      fun x hx => hl x (List.mem_cons_of_mem _ hx)
    have hlev : st.m.level = s.level := hfr.1
    rw [dcc_scan]
    simp only [hlev]
    obtain ⟨f1, f2, f3⟩ := increment_literal_score_frame st.m cur
    have hfr1 : dcc_frame s (increment_literal_score st.m cur) := by
      obtain ⟨a1, a2, a3, a4, a5, a6, a7⟩ := f1
      obtain ⟨b1, b2, b3, b4, b5, b6, b7⟩ := hfr
      exact ⟨a1.trans b1, a2.trans b2, a3.trans b3, a4.trans b4, a5.trans b5, a6.trans b6,
        a7.trans b7⟩
    by_cases hc : st.seen (var cur) = false ∧ s.level (var cur) > 1
    · rw [if_pos hc]
      by_cases he : s.level (var cur) = clevel
      · rw [if_pos he]
        have hj1 : dcc_inv s clevel n
            { m := increment_literal_score st.m cur,
              seen := Function.update st.seen (var cur) true,
              num_lits_at_clevel := st.num_lits_at_clevel + 1 } := by
          refine ⟨hfr1, ?_, ?_, ?_⟩
          · show st.num_lits_at_clevel + 1 = _
            rw [seen_count_mark s clevel n (var cur) st.seen hinv hn htrail hc.1 he, hnum]
            push_cast
            rfl
          · show 1 ≤ (increment_literal_score st.m cur).cdc_index
            rw [f3]
            exact hidx
          · intro i hi1 hi2
            show cdc_lit_ok s clevel ((increment_literal_score st.m cur).cdc i)
            rw [f2]
            exact hcdc i hi1 (by rw [← f3]; exact hi2)
        obtain ⟨r1, r2, r3, r4⟩ := ih _ hrest hj1
        refine ⟨r1, ?_, ?_, ?_⟩
        · have : st.num_lits_at_clevel ≤ st.num_lits_at_clevel + 1 := by omega
          exact le_trans this r2
        · intro v hv
          apply r3
          show Function.update st.seen (var cur) true v = true
          by_cases e : v = var cur
          · rw [e, Function.update_same]
          · rw [Function.update_noteq e]
            exact hv
        · intro x hx hx1
          rcases List.mem_cons.mp hx with e | hx
          · apply r3
            show Function.update st.seen (var cur) true (var x) = true
            rw [e, Function.update_same]
          · exact r4 x hx hx1
      · rw [if_neg he]
        have hj1 : dcc_inv s clevel n
            { m := { increment_literal_score st.m cur with
                cdc := (Function.update (increment_literal_score st.m cur).cdc
                  (increment_literal_score st.m cur).cdc_index cur),
                cdc_index := (increment_literal_score st.m cur).cdc_index + 1 },
              seen := Function.update st.seen (var cur) true,
              num_lits_at_clevel := st.num_lits_at_clevel } := by
          have hfr2 : dcc_frame s { increment_literal_score st.m cur with
                cdc := (Function.update (increment_literal_score st.m cur).cdc
                  (increment_literal_score st.m cur).cdc_index cur),
                cdc_index := (increment_literal_score st.m cur).cdc_index + 1 } := by
            unfold dcc_frame at hfr1 ⊢
            dsimp only
            exact hfr1
          refine ⟨hfr2, ?_, ?_, ?_⟩
          · show st.num_lits_at_clevel = _
            rw [seen_count_mark_other s clevel n (var cur) st.seen true he, hnum]
          · show 1 ≤ (increment_literal_score st.m cur).cdc_index + 1
            omega
          · intro i hi1 hi2
            have hi2' : i < st.m.cdc_index + 1 := by
              have : i < (increment_literal_score st.m cur).cdc_index + 1 := hi2
              rw [f3] at this
              exact this
            show cdc_lit_ok s clevel (Function.update (increment_literal_score st.m cur).cdc
                  (increment_literal_score st.m cur).cdc_index cur i)
            rw [f2, f3]
            by_cases e : i = st.m.cdc_index
            · rw [e, Function.update_same]
              obtain ⟨q, q1, q2⟩ := htrail
              have hle : s.level (var cur) ≤ clevel := by
                rw [← q2]
                exact (hinv q (by omega)).2.1
              exact ⟨hfalse, hc.2, by omega, on_trail_mono s _ n _ ⟨q, q1, q2⟩ hn⟩
            · rw [Function.update_noteq e]
              exact hcdc i hi1 (by omega)
        obtain ⟨r1, r2, r3, r4⟩ := ih _ hrest hj1
        refine ⟨r1, r2, ?_, ?_⟩
        · intro v hv
          apply r3
          show Function.update st.seen (var cur) true v = true
          by_cases e : v = var cur
          · rw [e, Function.update_same]
          · rw [Function.update_noteq e]
            exact hv
        · intro x hx hx1
          rcases List.mem_cons.mp hx with e | hx
          · apply r3
            show Function.update st.seen (var cur) true (var x) = true
            rw [e, Function.update_same]
          · exact r4 x hx hx1
    · rw [if_neg hc]
      obtain ⟨r1, r2, r3, r4⟩ := ih st hrest ⟨hfr, hnum, hidx, hcdc⟩
      refine ⟨r1, r2, r3, ?_⟩
      intro x hx hx1
      rcases List.mem_cons.mp hx with e | hx
      · apply r3
        rw [e]
        by_cases hsn : st.seen (var cur) = true
        · exact hsn
        · have h1 : 1 < s.level (var cur) := by rw [← e]; exact hx1
          exact absurd ⟨by simpa using hsn, h1⟩ hc
      · exact r4 x hx hx1

theorem dcc_walk_spec (assign : Nat → Nat) (seen : Nat → Bool) :
    ∀ n, (∃ q, q < n ∧ seen (var (assign q)) = true) →
      ∃ k, dcc_walk assign seen n = some k ∧ k < n ∧ seen (var (assign k)) = true
        ∧ ∀ p, k < p → p < n → seen (var (assign p)) = false := by
  intro n
  induction n with
  | zero =>
    rintro ⟨q, h, _⟩
    omega
  | succ n ih =>
    rintro ⟨q, hq, hs⟩
    rw [dcc_walk]
    by_cases h : seen (var (assign n)) = true
    · rw [if_pos h]
      exact ⟨n, rfl, by omega, h, fun p h1 h2 => by omega⟩
    · rw [if_neg h]
      have hq' : q < n := by
        rcases Nat.lt_or_ge q n with h1 | h1
        · exact h1
        · have : q = n := by omega
          rw [this] at hs
          exact absurd hs h
      obtain ⟨k, k1, k2, k3, k4⟩ := ih ⟨q, hq', hs⟩
      refine ⟨k, k1, by omega, k3, ?_⟩
      intro p h1 h2
      by_cases e : p = n
      · rw [e]
        simpa using h
      · exact k4 p h1 (by omega)

theorem seen_count_pos (s : my_manager) (clevel n : Nat) (seen : Nat → Bool)
    (h : 0 < seen_count s clevel seen n) :
    ∃ q, q < n ∧ seen (var (s.assign q)) = true ∧ s.level (var (s.assign q)) = clevel := by
  unfold seen_count at h
  obtain ⟨q, hq⟩ := Finset.card_pos.mp h
  simp only [Finset.mem_filter, Finset.mem_range] at hq
  exact ⟨q, hq.1, hq.2.1, hq.2.2⟩

theorem seen_count_zero (s : my_manager) (clevel n : Nat) (seen : Nat → Bool)
    (h : ∀ q, q < n → s.level (var (s.assign q)) ≠ clevel) :
    seen_count s clevel seen n = 0 := by
  unfold seen_count
  rw [Finset.card_eq_zero, Finset.filter_eq_empty_iff]
  intro q hq
  simp only [Finset.mem_range] at hq
  intro hh
  exact h q hq hh.2

theorem seen_count_walk (s : my_manager) (clevel n k : Nat) (seen : Nat → Bool)
    (hinv : analysis_inv s clevel) (hn : n ≤ s.assign_top) (hk : k < n)
    (hseen : seen (var (s.assign k)) = true) (hlev : s.level (var (s.assign k)) = clevel)
    (hgap : ∀ p, k < p → p < n → seen (var (s.assign p)) = false) :
    seen_count s clevel seen n
      = seen_count s clevel (Function.update seen (var (s.assign k)) false) k + 1 := by
  unfold seen_count
  have heq : (Finset.range n).filter
      (fun p => seen (var (s.assign p)) = true ∧ s.level (var (s.assign p)) = clevel)
      = Insert.insert k ((Finset.range k).filter
        (fun p => Function.update seen (var (s.assign k)) false (var (s.assign p)) = true
          ∧ s.level (var (s.assign p)) = clevel)) := by
    ext p
    simp only [Finset.mem_filter, Finset.mem_range, Finset.mem_insert]
    constructor
    · rintro ⟨h1, h2, h3⟩
      rcases Nat.lt_trichotomy p k with h | h | h
      · right
        have hne : var (s.assign p) ≠ var (s.assign k) := ((hinv k (by omega)).2.2.1 p h).1
        rw [Function.update_noteq hne]
        exact ⟨h, h2, h3⟩
      · exact Or.inl h
      · rw [hgap p h h1] at h2
        exact absurd h2 (by decide)
    · rintro (e | ⟨h1, h2, h3⟩)
      · rw [e]
        exact ⟨hk, hseen, hlev⟩
      · have hne : var (s.assign p) ≠ var (s.assign k) := ((hinv k (by omega)).2.2.1 p h1).1
        rw [Function.update_noteq hne] at h2
        exact ⟨by omega, h2, h3⟩
  rw [heq, Finset.card_insert_of_not_mem]
  simp only [Finset.mem_filter, Finset.mem_range, not_and]
  intro h
  omega

theorem dcc_loop_spec (s : my_manager) (clevel : Nat) (hinv : analysis_inv s clevel) :
    ∀ (fuel c next_lit n : Nat) (st : dcc_state),
      n < fuel → n ≤ s.assign_top → dcc_inv s clevel n st →
      (∀ x ∈ (s.cl c).lits.drop (if next_lit = 0 then 0 else 1),
        s.status (var x) = neg x ∧ on_trail s (var x) n) →
      0 < (dcc_scan clevel ((s.cl c).lits.drop (if next_lit = 0 then 0 else 1))
            st).num_lits_at_clevel →
      ∃ st1 nl, dcc_loop clevel fuel (some c) next_lit n st = some (st1, nl)
        ∧ dcc_frame s st1.m
        ∧ (∃ p, p < s.assign_top ∧ nl = s.assign p ∧ s.level (var nl) = clevel)
        ∧ 1 ≤ st1.m.cdc_index
        ∧ ∀ i, 1 ≤ i → i < st1.m.cdc_index → cdc_lit_ok s clevel (st1.m.cdc i) := by
  intro fuel
  induction fuel with
  | zero =>
    intro c next_lit n st h
    omega
  | succ f ih =>
    intro c next_lit n st hnf hn hj hlits hpos
    have hcl : st.m.cl = s.cl := hj.1.2.2.2.2.1
    obtain ⟨j1, _, _, _⟩ := dcc_scan_spec s clevel n hinv hn _ st hlits hj
    rw [dcc_loop]
    simp only [hcl]
    generalize dcc_scan clevel ((s.cl c).lits.drop (if next_lit = 0 then 0 else 1)) st = st1
      at j1 hpos ⊢
    obtain ⟨hfr1, hnum1, hidx1, hcdc1⟩ := j1
    obtain ⟨e1, e2, e3, e4, e5, e6, e7⟩ := hfr1
    have hcpos : 0 < seen_count s clevel st1.seen n := by
      rw [hnum1] at hpos
      exact_mod_cast hpos
    obtain ⟨q, q1, q2, q3⟩ := seen_count_pos s clevel n st1.seen hcpos
    obtain ⟨k, k1, k2, k3, k4⟩ := dcc_walk_spec s.assign st1.seen n ⟨q, q1, q2⟩
    have hlevk : s.level (var (s.assign k)) = clevel := by
      have hqk : q ≤ k := by
        by_contra hlt
        rw [k4 q (by omega) q1] at q2
        exact absurd q2 (by decide)
      have hle := (hinv k (by omega)).2.1
      rcases Nat.lt_or_ge q k with h | h
      · have := ((hinv k (by omega)).2.2.1 q h).2
        omega
      · have : q = k := by omega
        rw [← this]
        exact q3
    have hcw := seen_count_walk s clevel n k st1.seen hinv hn k2 k3 hlevk k4
    have hok := (hinv k (by omega)).1
    have hne0 : s.assign k ≠ 0 := by
      have := hok.1
      omega
    rw [e4, k1]
    simp only [e3]
    have hnum2 : st1.num_lits_at_clevel - 1
        = (seen_count s clevel (Function.update st1.seen (var (s.assign k)) false) k : Int) := by
      rw [hnum1, hcw]
      push_cast
      omega
    cases hr : s.reason (var (s.assign k)) with
    | none =>
      simp only
      have hz : seen_count s clevel (Function.update st1.seen (var (s.assign k)) false) k = 0 := by
        apply seen_count_zero
        have := (hinv k (by omega)).2.2.2
        rw [hr] at this
        exact this hlevk
      have hnot : ¬ (st1.num_lits_at_clevel - 1 > 0) := by
        rw [hnum2, hz]
        simp
      rw [if_neg hnot]
      exact ⟨_, _, rfl, ⟨e1, e2, e3, e4, e5, e6, e7⟩, ⟨k, by omega, rfl, hlevk⟩, hidx1, hcdc1⟩
    | some r =>
      simp only
      have hrk := (hinv k (by omega)).2.2.2
      rw [hr] at hrk
      have hrk' : ∀ x ∈ (s.cl r).lits.drop 1,
          s.status (var x) = neg x ∧ on_trail s (var x) k := hrk
      -- the manager after the bump of the reason
      have hm2 : ∀ m2 : my_manager,
          m2 = (if (st1.m.cl r).index ≥ 0 then increment_clause_score st1.m r else st1.m) →
          dcc_frame s m2 ∧ m2.cdc = st1.m.cdc ∧ m2.cdc_index = st1.m.cdc_index := by
        intro m2 hm
        by_cases hi : (st1.m.cl r).index ≥ 0
        · rw [if_pos hi] at hm
          obtain ⟨⟨a1, a2, a3, a4, a5, a6, a7⟩, b1, b2⟩ := increment_clause_score_frame st1.m r
          rw [hm]
          exact ⟨⟨a1.trans e1, a2.trans e2, a3.trans e3, a4.trans e4, a5.trans e5,
            a6.trans e6, a7.trans e7⟩, b1, b2⟩
        · rw [if_neg hi] at hm
          rw [hm]
          exact ⟨⟨e1, e2, e3, e4, e5, e6, e7⟩, rfl, rfl⟩
      generalize hm2e : (if (st1.m.cl r).index ≥ 0 then increment_clause_score st1.m r
        else st1.m) = m2
      obtain ⟨g1, g2, g3⟩ := hm2 m2 hm2e.symm
      have hj2 : dcc_inv s clevel k
          { m := m2, seen := Function.update st1.seen (var (s.assign k)) false,
            num_lits_at_clevel := st1.num_lits_at_clevel - 1 } := by
        refine ⟨g1, hnum2, ?_, ?_⟩
        · show 1 ≤ m2.cdc_index
          rw [g3]
          exact hidx1
        · intro i hi1 hi2
          show cdc_lit_ok s clevel (m2.cdc i)
          rw [g2]
          exact hcdc1 i hi1 (by rw [← g3]; exact hi2)
      by_cases hgt : st1.num_lits_at_clevel - 1 > 0
      · rw [if_pos hgt]
        have hbeg : (if s.assign k = 0 then 0 else 1) = 1 := by rw [if_neg hne0]
        apply ih r (s.assign k) k _ (by omega) (by omega) hj2
        · rw [hbeg]
          exact hrk'
        · rw [hbeg]
          obtain ⟨_, m, _, _⟩ := dcc_scan_spec s clevel k hinv (by omega) _ _ hrk' hj2
          exact lt_of_lt_of_le hgt m
      · rw [if_neg hgt]
        exact ⟨_, _, rfl, g1, ⟨k, by omega, rfl, hlevk⟩, hj2.2.2.1, hj2.2.2.2⟩

/-! ### Conflict analysis: the minimisation -/

theorem reason_ok_frame (s m : my_manager) (clevel p : Nat) (o : Option Nat)
    (hf : dcc_frame s m) (h : reason_ok s clevel p o) : reason_ok m clevel p o := by
  obtain ⟨e1, e2, e3, e4, e5, e6, e7⟩ := hf
  cases o with
  | none =>
    unfold reason_ok at h ⊢
    rw [e1, e4]
    exact h
  | some r =>
    unfold reason_ok on_trail at h ⊢
    rw [e2, e4, e5]
    exact h

theorem analysis_inv_frame (s m : my_manager) (clevel : Nat) (hf : dcc_frame s m)
    (h : analysis_inv s clevel) : analysis_inv m clevel := by
  have hf0 := hf
  obtain ⟨e1, e2, e3, e4, e5, e6, e7⟩ := hf
  intro p hp
  rw [e7] at hp
  obtain ⟨a, b, c, d⟩ := h p hp
  have d1 := reason_ok_frame s m clevel p _ hf0 d
  rw [e1, e3, e4, e6]
  exact ⟨a, b, c, d1⟩

theorem unseen_count_le (vc : Nat) (seen : Nat → Bool) : unseen_count vc seen ≤ vc := by
  unfold unseen_count
  calc ((Finset.Icc 1 vc).filter (fun v => seen v = false)).card
      ≤ (Finset.Icc 1 vc).card := Finset.card_filter_le _ _
    _ = vc := by simp

theorem unseen_count_mark (vc : Nat) (seen : Nat → Bool) (v : Nat)
    (h0 : seen v = false) (h1 : 1 ≤ v) (h2 : v ≤ vc) :
    unseen_count vc (Function.update seen v true) + 1 = unseen_count vc seen := by
  unfold unseen_count
  have hmem : v ∈ (Finset.Icc 1 vc).filter (fun w => seen w = false) := by
    simp [h0, h1, h2]
  have heq : (Finset.Icc 1 vc).filter (fun w => Function.update seen v true w = false)
      = ((Finset.Icc 1 vc).filter (fun w => seen w = false)).erase v := by
    ext w
    simp only [Finset.mem_filter, Finset.mem_Icc, Finset.mem_erase]
    by_cases hw : w = v
    · subst hw
      simp
    · rw [Function.update_noteq hw]
      simp [hw]
  rw [heq, Finset.card_erase_of_mem hmem]
  have : 0 < ((Finset.Icc 1 vc).filter (fun w => seen w = false)).card :=
    Finset.card_pos.mpr ⟨v, hmem⟩
  omega

theorem on_trail_range (s : my_manager) (clevel v : Nat) (hinv : analysis_inv s clevel)
    (h : on_trail s v s.assign_top) : 1 ≤ v ∧ v ≤ s.vc := by
  obtain ⟨p, p1, p2⟩ := h
  rw [← p2]
  exact lit_ok_var s.vc _ (hinv p p1).1

theorem removable_scan_spec (s : my_manager) (clevel minl : Nat)
    (hinv : analysis_inv s clevel) :
    ∀ (lits : List Nat) (seen : Nat → Bool) (stack save : List Nat),
      (∀ x ∈ lits, on_trail s (var x) s.assign_top) →
      (∀ cur ∈ stack, (s.reason (var cur)).isSome = true ∧ on_trail s (var cur) s.assign_top) →
      ∀ seen1 stack1 save1,
        removable_scan s minl lits seen stack save = removable_scan_result.ok seen1 stack1 save1 →
        (∀ cur ∈ stack1, (s.reason (var cur)).isSome = true
          ∧ on_trail s (var cur) s.assign_top)
        ∧ unseen_count s.vc seen1 + stack1.length ≤ unseen_count s.vc seen + stack.length := by
  intro lits
  induction lits with
  | nil =>
    intro seen stack save _ hst seen1 stack1 save1 h
    rw [removable_scan] at h
    simp only [removable_scan_result.ok.injEq] at h
    obtain ⟨a, b, _⟩ := h
    subst a
    subst b
    exact ⟨hst, le_refl _⟩
  | cons cur rest ih =>
    intro seen stack save hl hst seen1 stack1 save1 h
    have hrest : ∀ x ∈ rest, on_trail s (var x) s.assign_top :=
      fun x hx => hl x (List.mem_cons_of_mem _ hx)
    have hcur := hl cur (List.mem_cons_self _ _)
    rw [removable_scan] at h
    by_cases hc : seen (var cur) = false ∧ s.level (var cur) ≠ 1
    · rw [if_pos hc] at h
      by_cases hd : (s.reason (var cur)).isSome = true
          ∧ level_bit_set (s.level (var cur)) minl = true
      · rw [if_pos hd] at h
        obtain ⟨r1, r2⟩ := ih _ _ _ hrest (by
          intro x hx
          rcases List.mem_cons.mp hx with e | hx
          · rw [e]
            exact ⟨hd.1, hcur⟩
          · exact hst x hx) seen1 stack1 save1 h
        refine ⟨r1, ?_⟩
        obtain ⟨v1, v2⟩ := on_trail_range s clevel _ hinv hcur
        have := unseen_count_mark s.vc seen (var cur) hc.1 v1 v2
        simp only [List.length_cons] at r2
        omega
      · rw [if_neg hd] at h
        simp at h
    · rw [if_neg hc] at h
      exact ih _ _ _ hrest hst seen1 stack1 save1 h

theorem removable_loop_total (s : my_manager) (clevel minl : Nat)
    (hinv : analysis_inv s clevel) :
    ∀ (f : Nat) (seen : Nat → Bool) (stack save : List Nat),
      (∀ cur ∈ stack, (s.reason (var cur)).isSome = true ∧ on_trail s (var cur) s.assign_top) →
      unseen_count s.vc seen + stack.length < f →
      ∃ r, removable_loop s minl f seen stack save = some r := by
  intro f
  induction f with
  | zero => intro _ _ _ _ h; omega
  | succ f ih =>
    intro seen stack save hst hf
    cases stack with
    | nil =>
      rw [removable_loop]
      exact ⟨_, rfl⟩
    | cons cur stack =>
      obtain ⟨hsome, p, p1, p2⟩ := hst cur (List.mem_cons_self _ _)
      obtain ⟨r, hr⟩ := Option.isSome_iff_exists.mp hsome
      rw [removable_loop]
      simp only [hr]
      have hrk := (hinv p p1).2.2.2
      rw [p2, hr] at hrk
      have hrk' : ∀ x ∈ (s.cl r).lits.drop 1,
          s.status (var x) = neg x ∧ on_trail s (var x) p := hrk
      cases hsc : removable_scan s minl ((s.cl r).lits.drop 1) seen stack save with
      | failed seen1 => exact ⟨_, rfl⟩
      | ok seen1 stack1 save1 =>
        simp only
        obtain ⟨r1, r2⟩ := removable_scan_spec s clevel minl hinv _ seen stack save
          (fun x hx => on_trail_mono s _ p _ (hrk' x hx).2 (by omega))
          (fun x hx => hst x (List.mem_cons_of_mem _ hx)) seen1 stack1 save1 hsc
        apply ih _ _ _ r1
        simp only [List.length_cons] at hf
        omega

theorem removable_total (s : my_manager) (clevel minl l : Nat) (seen : Nat → Bool)
    (hinv : analysis_inv s clevel) (hr : (s.reason (var l)).isSome = true)
    (hl : on_trail s (var l) s.assign_top) :
    ∃ r, removable s seen l minl = some r := by
  unfold removable
  apply removable_loop_total s clevel minl hinv
  · intro cur hcur
    rw [List.mem_singleton] at hcur
    rw [hcur]
    exact ⟨hr, hl⟩
  · have := unseen_count_le s.vc seen
    simp only [List.length_singleton]
    omega

theorem dcc_min_loop_spec (s : my_manager) (clevel minl : Nat)
    (hinv : analysis_inv s clevel) :
    ∀ (n i : Nat) (st : dcc_min_state),
      dcc_frame s st.m → 1 ≤ st.j → st.j ≤ i →
      (∀ k, i ≤ k → k < i + n → cdc_lit_ok s clevel (st.m.cdc k)) →
      (∀ k, 1 ≤ k → k < st.j → cdc_lit_ok s clevel (st.m.cdc k)
        ∧ s.level (var (st.m.cdc k)) ≤ st.assertion_level) →
      ((st.j = 1 ∧ st.assertion_level = 1)
        ∨ ∃ k, 1 ≤ k ∧ k < st.j ∧ s.level (var (st.m.cdc k)) = st.assertion_level) →
      ∃ r, dcc_min_loop minl n i st = some r ∧ dcc_frame s r.m ∧ 1 ≤ r.j
        ∧ r.m.cdc 0 = st.m.cdc 0
        ∧ (∀ k, 1 ≤ k → k < r.j → cdc_lit_ok s clevel (r.m.cdc k)
            ∧ s.level (var (r.m.cdc k)) ≤ r.assertion_level)
        ∧ ((r.j = 1 ∧ r.assertion_level = 1)
            ∨ ∃ k, 1 ≤ k ∧ k < r.j ∧ s.level (var (r.m.cdc k)) = r.assertion_level) := by
  intro n
  induction n with
  | zero =>
    intro i st hf hj1 _ _ hkept hmax
    rw [dcc_min_loop]
    exact ⟨st, rfl, hf, hj1, rfl, hkept, hmax⟩
  | succ n ih =>
    intro i st hf hj1 hji hrest hkept hmax
    have hlev : st.m.level = s.level := hf.1
    have hcur : cdc_lit_ok s clevel (st.m.cdc i) := hrest i (le_refl _) (by omega)
    -- the state after the literal at `i` is retained
    have hkeep : ∀ seen1 : Nat → Bool,
        ∃ r, dcc_min_loop minl n (i + 1)
            { m := { st.m with cdc := (Function.update st.m.cdc st.j (st.m.cdc i)) },
              seen := seen1,
              j := st.j + 1,
              assertion_level :=
                if st.m.level (var (st.m.cdc i)) > st.assertion_level
                then st.m.level (var (st.m.cdc i)) else st.assertion_level } = some r
          ∧ dcc_frame s r.m ∧ 1 ≤ r.j ∧ r.m.cdc 0 = st.m.cdc 0
          ∧ (∀ k, 1 ≤ k → k < r.j → cdc_lit_ok s clevel (r.m.cdc k)
              ∧ s.level (var (r.m.cdc k)) ≤ r.assertion_level)
          ∧ ((r.j = 1 ∧ r.assertion_level = 1)
              ∨ ∃ k, 1 ≤ k ∧ k < r.j ∧ s.level (var (r.m.cdc k)) = r.assertion_level) := by
      intro seen1
      have hle : st.assertion_level ≤ (if st.m.level (var (st.m.cdc i)) > st.assertion_level
          then st.m.level (var (st.m.cdc i)) else st.assertion_level) := by
        split <;> omega
      have hle2 : s.level (var (st.m.cdc i)) ≤ (if st.m.level (var (st.m.cdc i))
          > st.assertion_level then st.m.level (var (st.m.cdc i)) else st.assertion_level) := by
        rw [hlev]
        split <;> omega
      obtain ⟨r, h1, h2, h3, h4, h5, h6⟩ := ih (i + 1)
        { m := { st.m with cdc := (Function.update st.m.cdc st.j (st.m.cdc i)) },
          seen := seen1,
          j := st.j + 1,
          assertion_level :=
            if st.m.level (var (st.m.cdc i)) > st.assertion_level
            then st.m.level (var (st.m.cdc i)) else st.assertion_level }
        (by
          unfold dcc_frame at hf ⊢
          dsimp only
          exact hf)
        (by show 1 ≤ st.j + 1; omega)
        (by show st.j + 1 ≤ i + 1; omega)
        (by
          intro k k1 k2
          show cdc_lit_ok s clevel (Function.update st.m.cdc st.j (st.m.cdc i) k)
          rw [Function.update_noteq (by omega)]
          exact hrest k (by omega) (by omega))
        (by
          intro k k1 k2
          have k2' : k < st.j + 1 := k2
          show cdc_lit_ok s clevel (Function.update st.m.cdc st.j (st.m.cdc i) k)
            ∧ s.level (var (Function.update st.m.cdc st.j (st.m.cdc i) k))
              ≤ (if st.m.level (var (st.m.cdc i)) > st.assertion_level
                  then st.m.level (var (st.m.cdc i)) else st.assertion_level)
          by_cases e : k = st.j
          · rw [e, Function.update_same]
            exact ⟨hcur, hle2⟩
          · rw [Function.update_noteq e]
            obtain ⟨a, b⟩ := hkept k k1 (by omega)
            exact ⟨a, le_trans b hle⟩)
        (by
          right
          show ∃ k, 1 ≤ k ∧ k < st.j + 1
            ∧ s.level (var (Function.update st.m.cdc st.j (st.m.cdc i) k))
              = (if st.m.level (var (st.m.cdc i)) > st.assertion_level
                  then st.m.level (var (st.m.cdc i)) else st.assertion_level)
          by_cases hgt : st.m.level (var (st.m.cdc i)) > st.assertion_level
          · rw [if_pos hgt]
            exact ⟨st.j, hj1, by omega, by rw [Function.update_same, hlev]⟩
          · rw [if_neg hgt]
            rw [hlev] at hgt
            rcases hmax with ⟨_, a1⟩ | ⟨k, k1, k2, k3⟩
            · have := hcur.2.1
              omega
            · refine ⟨k, k1, by omega, ?_⟩
              rw [Function.update_noteq (by omega)]
              exact k3)
      refine ⟨r, h1, h2, h3, ?_, h5, h6⟩
      rw [h4]
      show Function.update st.m.cdc st.j (st.m.cdc i) 0 = st.m.cdc 0
      rw [Function.update_noteq (by omega)]
    rw [dcc_min_loop]
    simp only []
    by_cases hnone : st.m.reason (var (st.m.cdc i)) = none
    · rw [if_pos hnone]
      exact hkeep st.seen
    · rw [if_neg hnone]
      have hsome : (st.m.reason (var (st.m.cdc i))).isSome = true := by
        cases h : st.m.reason (var (st.m.cdc i)) with
        | none => exact absurd h hnone
        | some _ => rfl
      have hinvm := analysis_inv_frame s st.m clevel hf hinv
      have htr : on_trail st.m (var (st.m.cdc i)) st.m.assign_top := by
        have := hcur.2.2.2
        unfold on_trail at this ⊢
        rw [hf.2.2.2.1, hf.2.2.2.2.2.2]
        exact this
      obtain ⟨res, hres⟩ := removable_total st.m clevel minl (st.m.cdc i) st.seen hinvm hsome htr
      rw [hres]
      obtain ⟨b, seen1⟩ := res
      cases b with
      | true =>
        simp only
        exact ih (i + 1) { st with seen := seen1 } hf hj1 (by show st.j ≤ i + 1; omega)
          (fun k k1 k2 => hrest k (by omega) (by omega)) hkept hmax
      | false =>
        simp only
        exact hkeep seen1

theorem seen_count_none (s : my_manager) (clevel n : Nat) :
    seen_count s clevel (fun _ => false) n = 0 := by
  unfold seen_count
  rw [Finset.card_eq_zero, Finset.filter_eq_empty_iff]
  intro q _ hh
  exact Bool.false_ne_true hh.1

theorem seen_count_of_mem (s : my_manager) (clevel n q : Nat) (seen : Nat → Bool)
    (hq : q < n) (h1 : seen (var (s.assign q)) = true)
    (h2 : s.level (var (s.assign q)) = clevel) : 0 < seen_count s clevel seen n := by
  unfold seen_count
  apply Finset.card_pos.mpr
  exact ⟨q, by simp [hq, h1, h2]⟩

/-- What `derive_conflict_clause` returns for a conflict at a level
`clevel ≥ 2`: a clause in `cdc[0..size)` whose position 0 holds the negation
of a stack entry of the level `clevel`, whose other literals are false at
levels strictly between 1 and `clevel`, and an assertion level that bounds the
levels of these other literals and is met by one of them (or is 1 when there
is none). -/
theorem derive_conflict_clause_spec (s : my_manager) (c clevel : Nat) (h2 : 2 ≤ clevel)
    (hinv : analysis_inv s clevel) (hc : falsified_at s c clevel) :
    ∃ size alevel s1, derive_conflict_clause s (some c) clevel = some (size, alevel, s1)
      ∧ dcc_frame s s1 ∧ 1 ≤ size
      ∧ (∃ p, p < s.assign_top ∧ s1.cdc 0 = neg (s.assign p)
          ∧ s.level (var (s.assign p)) = clevel)
      ∧ (∀ k, 1 ≤ k → k < size → cdc_lit_ok s clevel (s1.cdc k)
          ∧ s.level (var (s1.cdc k)) ≤ alevel)
      ∧ ((size = 1 ∧ alevel = 1)
          ∨ ∃ k, 1 ≤ k ∧ k < size ∧ s.level (var (s1.cdc k)) = alevel) := by
  obtain ⟨hfalse, x, hx, hxl⟩ := hc
  have hj0 : dcc_inv s clevel s.assign_top
      { m := { s with assertion_level := 1, cdc := (Function.update s.cdc 0 0),
                      cdc_index := 1 },
        seen := fun _ => false, num_lits_at_clevel := 0 } := by
    refine ⟨⟨rfl, rfl, rfl, rfl, rfl, rfl, rfl⟩, ?_, le_refl _, ?_⟩
    · show (0 : Int) = _
      rw [seen_count_none]
      rfl
    · intro i i1 i2
      have : i < 1 := i2
      omega
  have hlits : ∀ y ∈ (s.cl c).lits.drop (if (0 : Nat) = 0 then 0 else 1),
      s.status (var y) = neg y ∧ on_trail s (var y) s.assign_top := by
    rw [if_pos rfl, List.drop_zero]
    exact hfalse
  have hpos : 0 < (dcc_scan clevel ((s.cl c).lits.drop (if (0 : Nat) = 0 then 0 else 1))
      { m := { s with assertion_level := 1, cdc := (Function.update s.cdc 0 0),
                      cdc_index := 1 },
        seen := fun _ => false, num_lits_at_clevel := 0 }).num_lits_at_clevel := by
    obtain ⟨j1, _, _, j4⟩ := dcc_scan_spec s clevel s.assign_top hinv (le_refl _) _ _ hlits hj0
    rw [j1.2.1]
    obtain ⟨q, q1, q2⟩ := (hfalse x hx).2
    have hxm : x ∈ (s.cl c).lits.drop (if (0 : Nat) = 0 then 0 else 1) := by
      rw [if_pos rfl, List.drop_zero]
      exact hx
    have hs := j4 x hxm (by omega)
    rw [← q2] at hs hxl
    exact_mod_cast seen_count_of_mem s clevel s.assign_top q _ q1 hs hxl
  obtain ⟨st1, nl, hloop, hfr, ⟨p, p1, p2, p3⟩, hidx, hcdc⟩ :=
    dcc_loop_spec s clevel hinv (s.assign_top + 1) c 0 s.assign_top _ (by omega) (le_refl _)
      hj0 hlits hpos
  unfold derive_conflict_clause
  simp only
  rw [if_neg (by omega), hloop]
  simp only
  obtain ⟨r, h1, h3, h4, h5, h6, h7⟩ := dcc_min_loop_spec s clevel
    (dcc_minl { st1.m with cdc := (Function.update st1.m.cdc 0 (neg nl)) }
      (st1.m.cdc_index - 1) 1 0) hinv (st1.m.cdc_index - 1) 1
    { m := { st1.m with cdc := (Function.update st1.m.cdc 0 (neg nl)) },
      seen := Function.update st1.seen (var nl) true, j := 1, assertion_level := 1 }
    (by
      unfold dcc_frame at hfr ⊢
      dsimp only
      exact hfr)
    (le_refl _) (le_refl _)
    (by
      intro k k1 k2
      show cdc_lit_ok s clevel (Function.update st1.m.cdc 0 (neg nl) k)
      rw [Function.update_noteq (by omega)]
      exact hcdc k k1 (by omega))
    (by
      intro k k1 k2
      have : k < 1 := k2
      omega)
    (Or.inl ⟨rfl, rfl⟩)
  rw [h1]
  refine ⟨r.j, r.assertion_level, r.m, rfl, h3, h4, ⟨p, p1, ?_, ?_⟩, h6, h7⟩
  · rw [h5]
    show Function.update st1.m.cdc 0 (neg nl) 0 = neg (s.assign p)
    rw [Function.update_same, p2]
  · rw [← p2]
    exact p3

/-! ### Conflict analysis: the learned clause and the assertion level -/

theorem foldr_max_facts (l : List Nat) :
    (∀ x ∈ l, x ≤ l.foldr max 1) ∧ 1 ≤ l.foldr max 1
    ∧ (l.foldr max 1 = 1 ∨ l.foldr max 1 ∈ l) := by
  induction l with
  | nil => exact ⟨fun x hx => absurd hx (List.not_mem_nil x), le_refl _, Or.inl rfl⟩
  | cons a t ih =>
    obtain ⟨i1, i2, i3⟩ := ih
    simp only [List.foldr_cons]
    refine ⟨?_, ?_, ?_⟩
    · intro x hx
      rcases List.mem_cons.mp hx with e | hx
      · rw [e]
        exact le_max_left _ _
      · exact le_trans (i1 x hx) (le_max_right _ _)
    · exact le_trans i2 (le_max_right _ _)
    · rcases le_total a (t.foldr max 1) with h | h
      · rw [max_eq_right h]
        rcases i3 with e | e
        · exact Or.inl e
        · exact Or.inr (List.mem_cons_of_mem _ e)
      · rw [max_eq_left h]
        exact Or.inr (List.mem_cons_self _ _)

theorem foldr_max_eq (l : List Nat) (a : Nat) (h1 : ∀ x ∈ l, x ≤ a) (h2 : a = 1 ∨ a ∈ l)
    (h3 : 1 ≤ a) : l.foldr max 1 = a := by
  obtain ⟨f1, f2, f3⟩ := foldr_max_facts l
  apply le_antisymm
  · rcases f3 with e | e
    · rw [e]
      exact h3
    · exact h1 _ e
  · rcases h2 with e | e
    · rw [e]
      exact f2
    · exact f1 _ e

/-- C5: for a conflict at a level `clevel ≥ 2` on a clause all of whose
literals are false, one of them assigned at `clevel`, in a state as
`analysis_inv` describes, `derive_conflict_clause` returns a clause of size at
least 1 and leaves the assignment as it was; position 0 of the clause holds
the negation of a stack literal assigned at level `clevel`, every other
literal is false with a level strictly above 1 and strictly below `clevel`,
so the literal at position 0 is the only one of the level `clevel`. -/
theorem first_uip_clause (s : my_manager) (c clevel : Nat) (h2 : 2 ≤ clevel)
    (hinv : analysis_inv s clevel) (hc : falsified_at s c clevel) :
    ∃ size alevel s1, derive_conflict_clause s (some c) clevel = some (size, alevel, s1)
      ∧ s1.status = s.status ∧ s1.level = s.level ∧ s1.assign = s.assign
      ∧ s1.assign_top = s.assign_top
      ∧ 1 ≤ size
      ∧ (∃ p, p < s1.assign_top ∧ s1.level (var (s1.assign p)) = clevel
          ∧ s1.cdc 0 = neg (s1.assign p))
      ∧ (∀ i, 1 ≤ i → i < size →
          s1.status (var (s1.cdc i)) = neg (s1.cdc i)
          ∧ 1 < s1.level (var (s1.cdc i)) ∧ s1.level (var (s1.cdc i)) < clevel)
      ∧ (∀ i, i < size → (s1.level (var (s1.cdc i)) = clevel ↔ i = 0)) := by
  obtain ⟨size, alevel, s1, h, ⟨e1, e2, e3, e4, e5, e6, e7⟩, hs, ⟨p, p1, p2, p3⟩, hk, _⟩ :=
    derive_conflict_clause_spec s c clevel h2 hinv hc
  refine ⟨size, alevel, s1, h, e2, e1, e4, e7, hs, ?_, ?_, ?_⟩
  · rw [e1, e4, e7]
    exact ⟨p, p1, p3, p2⟩
  · intro i i1 i2
    rw [e1, e2]
    obtain ⟨⟨a, b, c1, _⟩, _⟩ := hk i i1 i2
    exact ⟨a, b, c1⟩
  · intro i i2
    rw [e1]
    constructor
    · intro hl
      by_contra hne
      obtain ⟨⟨_, _, c1, _⟩, _⟩ := hk i (by omega) i2
      omega
    · intro hi
      rw [hi, p2, var_neg]
      exact p3

/-- C5, witness: the conflict of the small instance at level 2. -/
theorem first_uip_clause_witness :
    ∃ size alevel s1,
      derive_conflict_clause example_conflict (some 3) 2 = some (size, alevel, s1)
      ∧ s1.status = example_conflict.status ∧ s1.level = example_conflict.level
      ∧ s1.assign = example_conflict.assign
      ∧ s1.assign_top = example_conflict.assign_top
      ∧ 1 ≤ size
      ∧ (∃ p, p < s1.assign_top ∧ s1.level (var (s1.assign p)) = 2
          ∧ s1.cdc 0 = neg (s1.assign p))
      ∧ (∀ i, 1 ≤ i → i < size →
          s1.status (var (s1.cdc i)) = neg (s1.cdc i)
          ∧ 1 < s1.level (var (s1.cdc i)) ∧ s1.level (var (s1.cdc i)) < 2)
      ∧ (∀ i, i < size → (s1.level (var (s1.cdc i)) = 2 ↔ i = 0)) :=
  first_uip_clause example_conflict 3 2 (by decide) (by decide) (by decide)

/-- C6: for a conflict at a level `clevel ≥ 2` (on a falsified clause with a
literal of the level `clevel`, in a state as `analysis_inv` describes) the
assertion level returned by `derive_conflict_clause` is the maximum of the
levels of the literals at the positions `1..size-1` of the returned clause,
or 1 when there is none, and it is strictly less than `clevel`. -/
theorem assertion_level_max (s : my_manager) (c clevel : Nat) (h2 : 2 ≤ clevel)
    (hinv : analysis_inv s clevel) (hc : falsified_at s c clevel) :
    ∃ size alevel s1, derive_conflict_clause s (some c) clevel = some (size, alevel, s1)
      ∧ alevel = ((List.range (size - 1)).map
          (fun i => s1.level (var (s1.cdc (i + 1))))).foldr max 1
      ∧ (size = 1 → alevel = 1)
      ∧ alevel < clevel := by
  obtain ⟨size, alevel, s1, h, ⟨e1, _⟩, hs, _, hk, hm⟩ :=
    derive_conflict_clause_spec s c clevel h2 hinv hc
  have h1 : 1 ≤ alevel := by
    rcases hm with ⟨_, a⟩ | ⟨k, k1, k2, k3⟩
    · omega
    · have := (hk k k1 k2).1.2.1
      omega
  refine ⟨size, alevel, s1, h, ?_, ?_, ?_⟩
  · symm
    apply foldr_max_eq _ _ _ _ h1
    · intro x hx
      obtain ⟨i, hi, hx⟩ := List.mem_map.mp hx
      rw [List.mem_range] at hi
      rw [← hx, e1]
      exact (hk (i + 1) (by omega) (by omega)).2
    · rcases hm with ⟨_, a⟩ | ⟨k, k1, k2, k3⟩
      · exact Or.inl a
      · right
        apply List.mem_map.mpr
        refine ⟨k - 1, List.mem_range.mpr (by omega), ?_⟩
        have : k - 1 + 1 = k := by omega
        rw [this, e1]
        exact k3
  · intro hsz
    rcases hm with ⟨_, a⟩ | ⟨k, k1, k2, k3⟩
    · exact a
    · omega
  · rcases hm with ⟨_, a⟩ | ⟨k, k1, k2, k3⟩
    · omega
    · have := (hk k k1 k2).1.2.2.1
      omega

/-- C6, witness: the conflict of the second instance at level 3, whose
learned clause `(-2 -1)` has the assertion level 2. -/
theorem assertion_level_max_witness :
    ∃ size alevel s1,
      derive_conflict_clause example_deep (some 2) 3 = some (size, alevel, s1)
      ∧ alevel = ((List.range (size - 1)).map
          (fun i => s1.level (var (s1.cdc (i + 1))))).foldr max 1
      ∧ (size = 1 → alevel = 1)
      ∧ alevel < 3 :=
  assertion_level_max example_deep 2 3 (by decide) (by decide) (by decide)

/-! ### One clause step of `bcp`, with the shape of the clause -/

theorem bcp_clause_cases (slevel neg_lit : Nat) (s : my_manager) (last clause : Nat)
    (kept rest : List Nat) (hn : lit_ok s.vc neg_lit)
    (hinv : bcp_inv { s with watched :=
      (Function.update s.watched (watched_index neg_lit) (kept ++ clause :: rest)) }) :
    clause ∈ clause_ptrs s ∧ ∃ a b t o, (s.cl clause).lits = a :: b :: t
      ∧ (a :: b :: t).Nodup ∧ (∀ x ∈ a :: b :: t, lit_ok s.vc x)
      ∧ ((o = a ∧ neg_lit = b) ∨ (o = b ∧ neg_lit = a))
      ∧ ((s.status (var o) = o ∧
          bcp_clause slevel neg_lit s last clause
            = clause_outcome.kept (set_lits s clause (o :: neg_lit :: t)) last)
      ∨ (s.status (var o) ≠ o ∧ ∃ m, m < t.length
          ∧ s.status (var (t.getD m 0)) ≠ neg (t.getD m 0)
          ∧ bcp_clause slevel neg_lit s last clause
            = clause_outcome.moved (add_watched_clause
                (set_lits s clause (o :: t.getD m 0 :: t.set m neg_lit)) (t.getD m 0) clause))
      ∨ (s.status (var o) ≠ o ∧ (∀ x ∈ t, s.status (var x) = neg x)
          ∧ s.status (var o) = neg o
          ∧ bcp_clause slevel neg_lit s last clause
            = clause_outcome.conflict (set_lits s clause (o :: neg_lit :: t)))
      ∨ (s.status (var o) ≠ o ∧ (∀ x ∈ t, s.status (var x) = neg x)
          ∧ s.status (var o) ≠ neg o ∧ s.status (var o) = 0
          ∧ bcp_clause slevel neg_lit s last clause
            = clause_outcome.kept
                (bcp_imply slevel (set_lits s clause (o :: neg_lit :: t)) last clause o)
                (last + 1))
      ∨ (s.status (var o) ≠ o ∧ (∀ x ∈ t, s.status (var x) = neg x)
          ∧ s.status (var o) ≠ neg o ∧ s.status (var o) ≠ 0
          ∧ bcp_clause slevel neg_lit s last clause
            = clause_outcome.kept (set_lits s clause (o :: neg_lit :: t)) last)) := by
  obtain ⟨hkb, _, _⟩ := hinv
  have hkb' : kb_inv s.vc (clause_ptrs s) s.cl
      (Function.update s.watched (watched_index neg_lit) (kept ++ clause :: rest)) := hkb
  have hmem : clause ∈ Function.update s.watched (watched_index neg_lit)
      (kept ++ clause :: rest) (watched_index neg_lit) := by
    rw [Function.update_same]
    exact List.mem_append.mpr (Or.inr (List.mem_cons_self _ _))
  obtain ⟨hptr, hwat⟩ := (hkb'.2.1 neg_lit hn.1 hn.2).2 clause hmem
  obtain ⟨hlen, hnd, hoks⟩ := hkb'.1 clause hptr
  obtain ⟨a, b, t, hl⟩ := shape_of_length _ hlen
  have hw : a = neg_lit ∨ b = neg_lit := by
    unfold watches at hwat
    rw [hl] at hwat
    simpa using hwat
  obtain ⟨o, ho, hcases⟩ := bcp_clause_spec slevel neg_lit s last clause a b t hl hw
  refine ⟨hptr, a, b, t, o, hl, ?_, ?_, ho, hcases⟩
  · rw [← hl]
    exact hnd
  · rw [← hl]
    exact hoks

/-! ### The assignment stack under the moves of `bcp` -/

theorem reason_shape_congr (s s1 : my_manager) (p : Nat) (o : Option Nat)
    (h2 : s1.assign = s.assign) (h3 : s1.status = s.status) (h4 : s1.level = s.level)
    (h7 : ∀ r, o = some r → (s1.cl r).lits = (s.cl r).lits)
    (h8 : clause_ptrs s1 = clause_ptrs s)
    (h : reason_shape s p o) : reason_shape s1 p o := by
  cases o with
  | none =>
    simp only [reason_shape] at h ⊢
    rw [h2, h4]
    exact h
  | some r =>
    simp only [reason_shape, on_trail] at h ⊢
    rw [h2, h3, h8, h7 r rfl]
    exact h

theorem trail_inv_congr (s s1 : my_manager) (top : Nat)
    (h1 : s1.vc = s.vc) (h2 : s1.assign = s.assign) (h3 : s1.status = s.status)
    (h4 : s1.level = s.level) (h5 : s1.decision_level = s.decision_level)
    (h6 : s1.reason = s.reason)
    (h7 : ∀ p r, p < top → s.reason (var (s.assign p)) = some r → (s1.cl r).lits = (s.cl r).lits)
    (h8 : clause_ptrs s1 = clause_ptrs s)
    (h : trail_inv s top) : trail_inv s1 top := by
  obtain ⟨ha, hb, hc⟩ := h
  refine ⟨?_, ?_, ?_⟩
  · intro p hp
    obtain ⟨a1, a2, a3, a4, a5, a6⟩ := ha p hp
    have a6' := reason_shape_congr s s1 p _ h2 h3 h4 (fun r hr => h7 p r hp hr) h8 a6
    rw [h1, h2, h3, h4, h5, h6]
    exact ⟨a1, a2, a3, a4, a5, a6'⟩
  · intro v hv hs
    rw [h1] at hv
    rw [h3] at hs
    have := hb v hv hs
    unfold on_trail at this ⊢
    rw [h2]
    exact this
  · intro v hv hs
    rw [h1] at hv
    rw [h3] at hs
    rw [h4]
    exact hc v hv hs

theorem trail_marks_congr (s s1 : my_manager) (top : Nat)
    (h2 : s1.assign = s.assign) (h4 : s1.level = s.level)
    (h5 : s1.decision_level = s.decision_level) (h6 : s1.decision_lit = s.decision_lit)
    (h : trail_marks s top) : trail_marks s1 top := by
  unfold trail_marks at h ⊢
  rw [h2, h4, h5, h6]
  exact h

theorem var_of_neg_eq_zero (x : Nat) (h : neg x = 0) : var x = 0 := by
  rw [neg_eq] at h
  rw [var_eq]
  split at h <;> omega

theorem neg_lit_not_true (status : Nat → Nat) (l : Nat) (h : status (var l) = neg l) :
    status (var l) ≠ l := by
  rw [h]
  exact neg_ne l

/-- A clause met on the watched list of a false literal and serving as the
reason of a stack entry is left as it is by the clause step. -/
theorem reason_clause_fixed (s : my_manager) (top clause neg_lit a b o : Nat) (t : List Nat)
    (ht : trail_inv s top) (hl : (s.cl clause).lits = a :: b :: t)
    (ho : (o = a ∧ neg_lit = b) ∨ (o = b ∧ neg_lit = a))
    (hfalse : s.status (var neg_lit) = neg neg_lit)
    (p : Nat) (hp : p < top) (hr : s.reason (var (s.assign p)) = some clause) :
    o = a ∧ neg_lit = b ∧ s.status (var o) = o := by
  obtain ⟨a1, a2, _, _, _, a6⟩ := ht.1 p hp
  rw [hr] at a6
  obtain ⟨_, r2, _⟩ := a6
  rw [hl] at r2
  have ha : a = s.assign p := r2
  have hat : s.status (var a) = a := by rw [ha]; exact a2
  rcases ho with ⟨e1, e2⟩ | ⟨e1, e2⟩
  · exact ⟨e1, e2, by rw [e1]; exact hat⟩
  · exfalso
    rw [e2] at hfalse
    exact neg_lit_not_true s.status a hfalse hat

theorem trail_inv_imply (slevel : Nat) (s : my_manager) (last clause o : Nat) (t : List Nat)
    (ht : trail_inv s last) (hlv : slevel = s.decision_level) (h1 : 1 ≤ slevel)
    (hptr : clause ∈ clause_ptrs s) (hl : (s.cl clause).lits = o :: t)
    (hok : ∀ x ∈ o :: t, lit_ok s.vc x) (ho : s.status (var o) = 0)
    (hf : ∀ x ∈ t, s.status (var x) = neg x) :
    trail_inv (bcp_imply slevel s last clause o) (last + 1) := by
  obtain ⟨ha, hb, hc⟩ := ht
  have hvo := lit_ok_var s.vc o (hok o (List.mem_cons_self _ _))
  have ho0 : o ≠ 0 := by
    have := (hok o (List.mem_cons_self _ _)).1
    omega
  -- an entry below `last` is of another variable
  have hne : ∀ p, p < last → var (s.assign p) ≠ var o := by
    intro p hp e
    obtain ⟨a1, a2, _⟩ := ha p hp
    rw [e, ho] at a2
    have := a1.1
    omega
  have hassign : ∀ p, p < last →
      (bcp_imply slevel s last clause o).assign p = s.assign p := by
    intro p hp
    show Function.update s.assign last o p = s.assign p
    rw [Function.update_noteq (by omega)]
  have hfalse_ne : ∀ x ∈ t, var x ≠ var o := by
    intro x hx e
    have := hf x hx
    rw [e, ho] at this
    have := var_of_neg_eq_zero x this.symm
    omega
  refine ⟨?_, ?_, ?_⟩
  · intro p hp
    by_cases hpl : p = last
    · subst hpl
      have e1 : (bcp_imply slevel s p clause o).assign p = o := by
        show Function.update s.assign p o p = o
        rw [Function.update_same]
      rw [e1]
      refine ⟨hok o (List.mem_cons_self _ _), ?_, ?_, ?_, ?_, ?_⟩
      · show Function.update s.status (var o) o (var o) = o
        rw [Function.update_same]
      · show 1 ≤ Function.update s.level (var o) slevel (var o)
        rw [Function.update_same]
        exact h1
      · show Function.update s.level (var o) slevel (var o) ≤ s.decision_level
        rw [Function.update_same]
        omega
      · intro q hq
        rw [hassign q hq]
        refine ⟨hne q hq, ?_⟩
        show Function.update s.level (var o) slevel (var (s.assign q))
          ≤ Function.update s.level (var o) slevel (var o)
        rw [Function.update_same, Function.update_noteq (hne q hq)]
        have := (ha q hq).2.2.2.1
        omega
      · have e2 : (bcp_imply slevel s p clause o).reason (var o) = some clause := by
          show Function.update s.reason (var o) (some clause) (var o) = some clause
          rw [Function.update_same]
        rw [e2]
        refine ⟨hptr, ?_, ?_⟩
        · show (s.cl clause).lits.getD 0 0 = _
          rw [hl, e1]
          rfl
        · intro x hx
          have hx' : x ∈ t := by
            have : (s.cl clause).lits.drop 1 = t := by rw [hl]; rfl
            have hx2 : x ∈ (s.cl clause).lits.drop 1 := hx
            rw [this] at hx2
            exact hx2
          have hxv := lit_ok_var s.vc x (hok x (List.mem_cons_of_mem _ hx'))
          constructor
          · show Function.update s.status (var o) o (var x) = neg x
            rw [Function.update_noteq (hfalse_ne x hx')]
            exact hf x hx'
          · have hne0 : s.status (var x) ≠ 0 := by
              rw [hf x hx']
              exact neg_ne_zero x (hok x (List.mem_cons_of_mem _ hx')).1
            obtain ⟨q, q1, q2⟩ := hb (var x) hxv.2 hne0
            exact ⟨q, q1, by rw [hassign q q1]; exact q2⟩
    · have hp' : p < last := by omega
      obtain ⟨a1, a2, a3, a4, a5, a6⟩ := ha p hp'
      rw [hassign p hp']
      refine ⟨a1, ?_, ?_, ?_, ?_, ?_⟩
      · show Function.update s.status (var o) o (var (s.assign p)) = s.assign p
        rw [Function.update_noteq (hne p hp')]
        exact a2
      · show 1 ≤ Function.update s.level (var o) slevel (var (s.assign p))
        rw [Function.update_noteq (hne p hp')]
        exact a3
      · show Function.update s.level (var o) slevel (var (s.assign p)) ≤ s.decision_level
        rw [Function.update_noteq (hne p hp')]
        exact a4
      · intro q hq
        rw [hassign q (by omega)]
        refine ⟨(a5 q hq).1, ?_⟩
        show Function.update s.level (var o) slevel (var (s.assign q))
          ≤ Function.update s.level (var o) slevel (var (s.assign p))
        rw [Function.update_noteq (hne p hp'), Function.update_noteq (hne q (by omega))]
        exact (a5 q hq).2
      · have e2 : (bcp_imply slevel s last clause o).reason (var (s.assign p))
            = s.reason (var (s.assign p)) := by
          show Function.update s.reason (var o) (some clause) (var (s.assign p)) = _
          rw [Function.update_noteq (hne p hp')]
        rw [e2]
        cases hr : s.reason (var (s.assign p)) with
        | none =>
          rw [hr] at a6
          simp only [reason_shape] at a6 ⊢
          rw [hassign p hp']
          show 2 ≤ Function.update s.level (var o) slevel (var (s.assign p)) → _
          rw [Function.update_noteq (hne p hp')]
          intro h2 q hq
          rw [hassign q (by omega)]
          show Function.update s.level (var o) slevel (var (s.assign q))
            < Function.update s.level (var o) slevel (var (s.assign p))
          rw [Function.update_noteq (hne p hp'), Function.update_noteq (hne q (by omega))]
          exact a6 h2 q hq
        | some r =>
          rw [hr] at a6
          obtain ⟨r1, r2, r3⟩ := a6
          refine ⟨r1, ?_, ?_⟩
          · rw [hassign p hp']
            exact r2
          · intro x hx
            obtain ⟨x1, q, q1, q2⟩ := r3 x hx
            constructor
            · show Function.update s.status (var o) o (var x) = neg x
              have : var x ≠ var o := by
                intro e
                rw [e, ho] at x1
                have := var_of_neg_eq_zero x x1.symm
                omega
              rw [Function.update_noteq this]
              exact x1
            · exact ⟨q, q1, by rw [hassign q (by omega)]; exact q2⟩
  · intro v hv hs
    by_cases e : v = var o
    · exact ⟨last, by omega, by
        show var (Function.update s.assign last o last) = v
        rw [Function.update_same, e]⟩
    · have hs' : s.status v ≠ 0 := by
        have : Function.update s.status (var o) o v ≠ 0 := hs
        rw [Function.update_noteq e] at this
        exact this
      obtain ⟨q, q1, q2⟩ := hb v hv hs'
      exact ⟨q, by omega, by rw [hassign q q1]; exact q2⟩
  · intro v hv hs
    by_cases e : v = var o
    · exfalso
      have : Function.update s.status (var o) o v = 0 := hs
      rw [e, Function.update_same] at this
      exact ho0 this
    · have hs' : s.status v = 0 := by
        have : Function.update s.status (var o) o v = 0 := hs
        rw [Function.update_noteq e] at this
        exact this
      show Function.update s.level (var o) slevel v = 0
      rw [Function.update_noteq e]
      exact hc v hv hs'

theorem trail_marks_imply (slevel : Nat) (s : my_manager) (last clause o : Nat)
    (hm : trail_marks s last) (hlv : slevel = s.decision_level)
    (hne : ∀ p, p < last → var (s.assign p) ≠ var o) :
    trail_marks (bcp_imply slevel s last clause o) (last + 1) := by
  intro L hL1 hL2
  have hL2' : L ≤ s.decision_level := hL2
  obtain ⟨m1, m2⟩ := hm L hL1 hL2'
  refine ⟨?_, ?_⟩
  · show s.decision_lit L ≤ last + 1
    omega
  · intro p hp
    show s.decision_lit L ≤ p ↔
      L ≤ Function.update s.level (var o) slevel (var (Function.update s.assign last o p))
    by_cases e : p = last
    · rw [e, Function.update_same, Function.update_same]
      constructor
      · intro _; omega
      · intro _; exact m1
    · have hp' : p < last := by omega
      rw [Function.update_noteq e, Function.update_noteq (hne p hp')]
      exact m2 p hp'

theorem queue_lv_imply (slevel : Nat) (s : my_manager) (last clause o : Nat)
    (hq : queue_lv s.imp s.level slevel) (hok : queue_ok s.vc s.status s.imp)
    (hv : var o ≤ s.vc) :
    queue_lv (bcp_imply slevel s last clause o).imp (bcp_imply slevel s last clause o).level
      slevel := by
  intro w hw
  have hw' : heap_mem (undo s.score s.imp (var o)) w := hw
  show Function.update s.level (var o) slevel w = slevel
  obtain ⟨_, u2, _, _⟩ := undo_mem s.score s.imp (var o) (hok.2 (var o) hv)
  by_cases e : w = var o
  · rw [e, Function.update_same]
  · rw [Function.update_noteq e]
    rcases (u2 w).mp hw' with x | x
    · exact hq w x
    · exact absurd x e

/-- The stack part of the invariant of `bcp` is kept by a clause step. -/
theorem bcp_clause_trail (slevel neg_lit : Nat) (s : my_manager) (last clause : Nat)
    (kept rest : List Nat) (hn : lit_ok s.vc neg_lit)
    (hinv : bcp_inv { s with watched :=
      (Function.update s.watched (watched_index neg_lit) (kept ++ clause :: rest)) })
    (hfalse : s.status (var neg_lit) = neg neg_lit)
    (hb : bcp_trail s last slevel) :
    bcp_trail (bcp_clause slevel neg_lit s last clause).state
      ((bcp_clause slevel neg_lit s last clause).top last) slevel := by
  obtain ⟨hptr, a, b, t, o, hl, hnd, hoks, ho, hcases⟩ :=
    bcp_clause_cases slevel neg_lit s last clause kept rest hn hinv
  obtain ⟨ht, hm, hq, hlv, h1⟩ := hb
  have hfix := reason_clause_fixed s last clause neg_lit a b o t ht hl ho hfalse
  have hqok : queue_ok s.vc s.status s.imp := hinv.2.2
  -- the state with the two watched literals in their places
  have hset : ∀ L : List Nat,
      (∀ p, p < last → s.reason (var (s.assign p)) = some clause → L = a :: b :: t) →
      trail_inv (set_lits s clause L) last := by
    intro L hL
    refine trail_inv_congr s (set_lits s clause L) last rfl rfl rfl rfl rfl rfl ?_ rfl ht
    intro p r hp hr
    show (Function.update s.cl clause { s.cl clause with lits := L } r).lits = (s.cl r).lits
    by_cases e : r = clause
    · rw [e, Function.update_same]
      show L = (s.cl clause).lits
      rw [hl]
      exact hL p hp (by rw [← e]; exact hr)
    · rw [Function.update_noteq e]
  have hsame : ∀ p, p < last → s.reason (var (s.assign p)) = some clause →
      o :: neg_lit :: t = a :: b :: t := by
    intro p hp hr
    obtain ⟨e1, e2, _⟩ := hfix p hp hr
    rw [e1, e2]
  have hoko : lit_ok s.vc o := by
    rcases ho with ⟨e, _⟩ | ⟨e, _⟩
    · rw [e]; exact hoks a (List.mem_cons_self _ _)
    · rw [e]; exact hoks b (List.mem_cons_of_mem _ (List.mem_cons_self _ _))
  rcases hcases with ⟨_, e⟩ | ⟨hno, m, _, _, e⟩ | ⟨_, _, _, e⟩ | ⟨_, hf, _, h0, e⟩ | ⟨_, _, _, _, e⟩
  · rw [e]
    exact ⟨hset _ hsame, hm, hq, hlv, h1⟩
  · rw [e]
    refine ⟨?_, hm, hq, hlv, h1⟩
    have := hset (o :: t.getD m 0 :: t.set m neg_lit) (by
      intro p hp hr
      exact absurd (hfix p hp hr).2.2 hno)
    exact trail_inv_congr _ _ last rfl rfl rfl rfl rfl rfl (fun _ _ _ _ => rfl) rfl this
  · rw [e]
    exact ⟨hset _ hsame, hm, hq, hlv, h1⟩
  · rw [e]
    have hts := hset _ hsame
    have hne : ∀ p, p < last → var (s.assign p) ≠ var o := by
      intro p hp e2
      obtain ⟨a1, a2, _⟩ := ht.1 p hp
      rw [e2, h0] at a2
      have := a1.1
      omega
    refine ⟨?_, ?_, ?_, hlv, h1⟩
    · apply trail_inv_imply slevel (set_lits s clause (o :: neg_lit :: t)) last clause o
        (neg_lit :: t) hts hlv h1 hptr
      · show (Function.update s.cl clause { s.cl clause with lits := o :: neg_lit :: t }
          clause).lits = o :: neg_lit :: t
        rw [Function.update_same]
      · intro x hx
        rcases List.mem_cons.mp hx with e1 | hx
        · rw [e1]; exact hoko
        · rcases List.mem_cons.mp hx with e1 | hx
          · rw [e1]; exact hn
          · exact hoks x (List.mem_cons_of_mem _ (List.mem_cons_of_mem _ hx))
      · exact h0
      · intro x hx
        rcases List.mem_cons.mp hx with e1 | hx
        · rw [e1]; exact hfalse
        · exact hf x hx
    · exact trail_marks_imply slevel (set_lits s clause (o :: neg_lit :: t)) last clause o
        hm hlv hne
    · exact queue_lv_imply slevel (set_lits s clause (o :: neg_lit :: t)) last clause o
        hq hqok (lit_ok_var s.vc o hoko).2
  · rw [e]
    exact ⟨hset _ hsame, hm, hq, hlv, h1⟩

/-! ### The two-watched-literal invariant with levels under the moves of `bcp` -/

theorem twl_lv_ex_update_clause (ptrs : List Nat) (cl : Nat → my_clause)
    (status level : Nat → Nat) (q : heap) (n clause : Nat) (rest : List Nat) (X : my_clause)
    (ht : twl_lv_ex ptrs cl status level q n (clause :: rest))
    (hX : (status (var (X.lits.getD 0 0)) = neg (X.lits.getD 0 0) →
        heap_mem q (var (X.lits.getD 0 0))
        ∨ (status (var (X.lits.getD 1 0)) = X.lits.getD 1 0
            ∧ level (var (X.lits.getD 1 0)) ≤ level (var (X.lits.getD 0 0)))
        ∨ (X.lits.getD 0 0 = n ∧ clause ∈ rest))
      ∧ (status (var (X.lits.getD 1 0)) = neg (X.lits.getD 1 0) →
        heap_mem q (var (X.lits.getD 1 0))
        ∨ (status (var (X.lits.getD 0 0)) = X.lits.getD 0 0
            ∧ level (var (X.lits.getD 0 0)) ≤ level (var (X.lits.getD 1 0)))
        ∨ (X.lits.getD 1 0 = n ∧ clause ∈ rest))) :
    twl_lv_ex ptrs (Function.update cl clause X) status level q n rest := by
  intro c hc
  by_cases hcc : c = clause
  · subst hcc
    rw [Function.update_same]
    exact hX
  · rw [Function.update_noteq hcc]
    obtain ⟨t1, t2⟩ := ht c hc
    constructor
    · intro h
      rcases t1 h with x | x | ⟨x1, x2⟩
      · exact Or.inl x
      · exact Or.inr (Or.inl x)
      · rcases List.mem_cons.mp x2 with y | y
        · exact absurd y hcc
        · exact Or.inr (Or.inr ⟨x1, y⟩)
    · intro h
      rcases t2 h with x | x | ⟨x1, x2⟩
      · exact Or.inl x
      · exact Or.inr (Or.inl x)
      · rcases List.mem_cons.mp x2 with y | y
        · exact absurd y hcc
        · exact Or.inr (Or.inr ⟨x1, y⟩)

theorem twl_lv_ex_assign (ptrs : List Nat) (cl : Nat → my_clause) (status level : Nat → Nat)
    (q q1 : heap) (n clause o slevel : Nat) (rest : List Nat) (X : my_clause)
    (ht : twl_lv_ex ptrs cl status level q n (clause :: rest))
    (hX0 : X.lits.getD 0 0 = o) (hX1 : X.lits.getD 1 0 = n) (ho : status (var o) = 0)
    (hn : status (var n) = neg n) (hn2 : 2 ≤ n) (hnl : level (var n) = slevel)
    (hnz : ∀ c ∈ ptrs, (cl c).lits.getD 0 0 ≠ 0 ∧ (cl c).lits.getD 1 0 ≠ 0)
    (hq1 : ∀ w, heap_mem q w → heap_mem q1 w) (hq2 : heap_mem q1 (var o)) :
    twl_lv_ex ptrs (Function.update cl clause X) (Function.update status (var o) o)
      (Function.update level (var o) slevel) q1 n rest := by
  have hno : neg o ≠ o := neg_ne o
  have hvn : var n ≠ var o := by
    intro e
    rw [e, ho] at hn
    exact neg_ne_zero n hn2 hn.symm
  -- a literal that is false now was false before, or is over the new variable
  have key : ∀ x y : Nat, y ≠ 0 →
      (status (var x) = neg x → heap_mem q (var x)
        ∨ (status (var y) = y ∧ level (var y) ≤ level (var x))) →
      Function.update status (var o) o (var x) = neg x →
      heap_mem q1 (var x) ∨ (Function.update status (var o) o (var y) = y
        ∧ Function.update level (var o) slevel (var y)
            ≤ Function.update level (var o) slevel (var x)) := by
    intro x y hy hold hnew
    by_cases hx : var x = var o
    · left
      rw [hx]; exact hq2
    · rw [Function.update_noteq hx] at hnew
      rcases hold hnew with z | ⟨z, zl⟩
      · exact Or.inl (hq1 _ z)
      · right
        have hyo : var y ≠ var o := by
          intro e
          rw [e, ho] at z
          exact hy z.symm
        rw [Function.update_noteq hyo, Function.update_noteq hyo, Function.update_noteq hx]
        exact ⟨z, zl⟩
  intro c hc
  by_cases hcc : c = clause
  · subst hcc
    rw [Function.update_same, hX0, hX1]
    constructor
    · intro h
      rw [Function.update_same] at h
      exact absurd h.symm hno
    · intro _
      right; left
      rw [Function.update_same, Function.update_same, Function.update_noteq hvn, hnl]
      exact ⟨rfl, le_refl _⟩
  · rw [Function.update_noteq hcc]
    obtain ⟨t1, t2⟩ := ht c hc
    obtain ⟨z0, z1⟩ := hnz c hc
    have shrink : ∀ (p : Prop), (p ∧ c ∈ clause :: rest) → (p ∧ c ∈ rest) := by
      rintro p ⟨x1, x2⟩
      rcases List.mem_cons.mp x2 with y | y
      · exact absurd y hcc
      · exact ⟨x1, y⟩
    constructor
    · intro h
      by_cases hex : (cl c).lits.getD 0 0 = n ∧ c ∈ clause :: rest
      · exact Or.inr (Or.inr (shrink _ hex))
      · rcases key _ _ z1 (fun h' => by
            rcases t1 h' with x | x | x
            · exact Or.inl x
            · exact Or.inr x
            · exact absurd x hex) h with x | x
        · exact Or.inl x
        · exact Or.inr (Or.inl x)
    · intro h
      by_cases hex : (cl c).lits.getD 1 0 = n ∧ c ∈ clause :: rest
      · exact Or.inr (Or.inr (shrink _ hex))
      · rcases key _ _ z0 (fun h' => by
            rcases t2 h' with x | x | x
            · exact Or.inl x
            · exact Or.inr x
            · exact absurd x hex) h with x | x
        · exact Or.inl x
        · exact Or.inr (Or.inl x)

theorem twl_low_of_ex (ptrs : List Nat) (cl : Nat → my_clause) (status level : Nat → Nat)
    (q : heap) (n slevel : Nat) (rest : List Nat)
    (ht : twl_lv_ex ptrs cl status level q n rest) (hq : queue_lv q level slevel)
    (hnl : level (var n) = slevel) : twl_low ptrs cl status level slevel := by
  intro c hc
  obtain ⟨t1, t2⟩ := ht c hc
  constructor
  · intro h hl
    rcases t1 h with x | x | ⟨x, _⟩
    · have := hq _ x
      omega
    · exact x
    · rw [x, hnl] at hl
      omega
  · intro h hl
    rcases t2 h with x | x | ⟨x, _⟩
    · have := hq _ x
      omega
    · exact x
    · rw [x, hnl] at hl
      omega

theorem twl_low_update_clause (ptrs : List Nat) (cl : Nat → my_clause)
    (status level : Nat → Nat) (slevel clause : Nat) (X : my_clause)
    (ht : twl_low ptrs cl status level slevel)
    (hX : (status (var (X.lits.getD 0 0)) = neg (X.lits.getD 0 0) →
        level (var (X.lits.getD 0 0)) < slevel →
        status (var (X.lits.getD 1 0)) = X.lits.getD 1 0
          ∧ level (var (X.lits.getD 1 0)) ≤ level (var (X.lits.getD 0 0)))
      ∧ (status (var (X.lits.getD 1 0)) = neg (X.lits.getD 1 0) →
        level (var (X.lits.getD 1 0)) < slevel →
        status (var (X.lits.getD 0 0)) = X.lits.getD 0 0
          ∧ level (var (X.lits.getD 0 0)) ≤ level (var (X.lits.getD 1 0)))) :
    twl_low ptrs (Function.update cl clause X) status level slevel := by
  intro c hc
  by_cases hcc : c = clause
  · subst hcc
    rw [Function.update_same]
    exact hX
  · rw [Function.update_noteq hcc]
    exact ht c hc

/-- The two-watched-literal invariant with levels is kept by a clause step of
`bcp`; a conflict leaves its part below `slevel`. -/
theorem bcp_clause_twl_lv (slevel neg_lit : Nat) (s : my_manager) (last clause : Nat)
    (kept rest ptrs : List Nat) (hn : lit_ok s.vc neg_lit)
    (hinv : bcp_inv { s with watched :=
      (Function.update s.watched (watched_index neg_lit) (kept ++ clause :: rest)) })
    (hfalse : s.status (var neg_lit) = neg neg_lit)
    (hsub : ∀ c ∈ ptrs, c ∈ clause_ptrs s)
    (hnl : s.level (var neg_lit) = slevel)
    (hq : queue_lv s.imp s.level slevel)
    (hle : ∀ v, v ≤ s.vc → s.status v ≠ 0 → s.level v ≤ slevel)
    (ht : twl_lv_ex ptrs s.cl s.status s.level s.imp neg_lit (clause :: rest)) :
    ((∃ s1, bcp_clause slevel neg_lit s last clause = clause_outcome.conflict s1)
      ∧ twl_low ptrs (bcp_clause slevel neg_lit s last clause).state.cl
          (bcp_clause slevel neg_lit s last clause).state.status
          (bcp_clause slevel neg_lit s last clause).state.level slevel)
    ∨ ((∀ s1, bcp_clause slevel neg_lit s last clause ≠ clause_outcome.conflict s1)
      ∧ twl_lv_ex ptrs (bcp_clause slevel neg_lit s last clause).state.cl
          (bcp_clause slevel neg_lit s last clause).state.status
          (bcp_clause slevel neg_lit s last clause).state.level
          (bcp_clause slevel neg_lit s last clause).state.imp neg_lit rest) := by
  obtain ⟨hptr, a, b, t, o, hl, hnd, hoks, ho, hcases⟩ :=
    bcp_clause_cases slevel neg_lit s last clause kept rest hn hinv
  obtain ⟨hkb, hst, hqok⟩ := hinv
  have hkb' : kb_inv s.vc (clause_ptrs s) s.cl
      (Function.update s.watched (watched_index neg_lit) (kept ++ clause :: rest)) := hkb
  have hst' : status_ok s.vc s.status := hst
  have hq' : queue_ok s.vc s.status s.imp := hqok
  have hab : a ≠ b := by
    intro e
    rw [e] at hnd
    exact (List.nodup_cons.mp hnd).1 (List.mem_cons_self _ _)
  have hon : o ≠ neg_lit := by
    rcases ho with ⟨e1, e2⟩ | ⟨e1, e2⟩
    · rw [e1, e2]; exact hab
    · rw [e1, e2]; exact fun e => hab e.symm
  have ho_ok : lit_ok s.vc o := by
    rcases ho with ⟨e, _⟩ | ⟨e, _⟩
    · rw [e]; exact hoks a (List.mem_cons_self _ _)
    · rw [e]; exact hoks b (List.mem_cons_of_mem _ (List.mem_cons_self _ _))
  have hnn : s.status (var neg_lit) ≠ neg_lit := by
    rw [hfalse]; exact neg_ne neg_lit
  -- what the invariant says of the watch `o` of the clause before the step
  have hob : clause ∈ ptrs → s.status (var o) = neg o → heap_mem s.imp (var o) := by
    intro hcp h
    obtain ⟨t1, t2⟩ := ht clause hcp
    rw [hl] at t1 t2
    simp only [List.getD_cons_zero, List.getD_cons_succ] at t1 t2
    rcases ho with ⟨e1, e2⟩ | ⟨e1, e2⟩
    · rw [← e1, ← e2] at t1
      rcases t1 h with x | ⟨x, _⟩ | ⟨x, _⟩
      · exact x
      · exact absurd x hnn
      · exact absurd x hon
    · rw [← e1, ← e2] at t2
      rcases t2 h with x | ⟨x, _⟩ | ⟨x, _⟩
      · exact x
      · exact absurd x hnn
      · exact absurd x hon
  have hvo := lit_ok_var s.vc o ho_ok
  -- a clause outside `ptrs` may be rewritten freely
  have hout : clause ∉ ptrs → ∀ X : my_clause,
      twl_lv_ex ptrs (Function.update s.cl clause X) s.status s.level s.imp neg_lit rest := by
    intro hcp X c hc
    have hcc : c ≠ clause := fun e => hcp (e ▸ hc)
    rw [Function.update_noteq hcc]
    obtain ⟨t1, t2⟩ := ht c hc
    constructor
    · intro h
      rcases t1 h with x | x | ⟨x1, x2⟩
      · exact Or.inl x
      · exact Or.inr (Or.inl x)
      · rcases List.mem_cons.mp x2 with y | y
        · exact absurd y hcc
        · exact Or.inr (Or.inr ⟨x1, y⟩)
    · intro h
      rcases t2 h with x | x | ⟨x1, x2⟩
      · exact Or.inl x
      · exact Or.inr (Or.inl x)
      · rcases List.mem_cons.mp x2 with y | y
        · exact absurd y hcc
        · exact Or.inr (Or.inr ⟨x1, y⟩)
  -- the clause with `o` true
  have hkeep : s.status (var o) = o →
      twl_lv_ex ptrs (set_lits s clause (o :: neg_lit :: t)).cl s.status s.level s.imp
        neg_lit rest := by
    intro h1
    apply twl_lv_ex_update_clause _ _ _ _ _ _ _ _ _ ht
    simp only [List.getD_cons_zero, List.getD_cons_succ]
    constructor
    · intro h
      rw [h1] at h
      exact absurd h.symm (neg_ne o)
    · intro _
      refine Or.inr (Or.inl ⟨h1, ?_⟩)
      rw [hnl]
      apply hle _ hvo.2
      rw [h1]
      have := ho_ok.1
      omega
  rcases hcases with ⟨h1, e⟩ | ⟨_, m, hm, hu, e⟩ | ⟨_, _, h2, e⟩ | ⟨_, _, _, h0, e⟩ |
    ⟨h1, _, h2, h3, e⟩
  · right
    rw [e]
    exact ⟨fun s1 h => by simp at h, hkeep h1⟩
  · right
    rw [e]
    refine ⟨fun s1 h => by simp at h, ?_⟩
    show twl_lv_ex ptrs
      (Function.update s.cl clause { s.cl clause with lits := o :: t.getD m 0 :: t.set m neg_lit })
      s.status s.level s.imp neg_lit rest
    by_cases hcp : clause ∈ ptrs
    · apply twl_lv_ex_update_clause _ _ _ _ _ _ _ _ _ ht
      simp only [List.getD_cons_zero, List.getD_cons_succ]
      constructor
      · intro h
        exact Or.inl (hob hcp h)
      · intro h
        exact absurd h hu
    · exact hout hcp _
  · left
    rw [e]
    refine ⟨⟨_, rfl⟩, ?_⟩
    show twl_low ptrs
      (Function.update s.cl clause { s.cl clause with lits := o :: neg_lit :: t })
      s.status s.level slevel
    have hlow := twl_low_of_ex ptrs s.cl s.status s.level s.imp neg_lit slevel _ ht hq hnl
    by_cases hcp : clause ∈ ptrs
    · apply twl_low_update_clause _ _ _ _ _ _ _ hlow
      simp only [List.getD_cons_zero, List.getD_cons_succ]
      constructor
      · intro h hlt
        have := hq _ (hob hcp h)
        omega
      · intro _ hlt
        omega
    · intro c hc
      have hcc : c ≠ clause := fun e => hcp (e ▸ hc)
      rw [Function.update_noteq hcc]
      exact hlow c hc
  · right
    rw [e]
    refine ⟨fun s1 h => by simp at h, ?_⟩
    obtain ⟨u1, u2, _, _⟩ := undo_mem s.score s.imp (var o) (hq'.2 (var o) hvo.2)
    show twl_lv_ex ptrs
      (Function.update s.cl clause { s.cl clause with lits := o :: neg_lit :: t })
      (Function.update s.status (var o) o) (Function.update s.level (var o) slevel)
      (undo s.score s.imp (var o)) neg_lit rest
    have hnz : ∀ c ∈ ptrs, (s.cl c).lits.getD 0 0 ≠ 0 ∧ (s.cl c).lits.getD 1 0 ≠ 0 :=
      fun c hc => watched_nonzero s.vc (clause_ptrs s) s.cl hkb'.1 c (hsub c hc)
    exact twl_lv_ex_assign ptrs s.cl s.status s.level s.imp (undo s.score s.imp (var o))
      neg_lit clause o slevel rest _ ht (by simp) (by simp) h0 hfalse hn.1 hnl hnz
      (fun w hw => (u2 w).mpr (Or.inl hw)) u1
  · exfalso
    rcases status_cases s.vc s.status hst' o ho_ok with x | x | x
    · exact h3 x
    · exact h1 x
    · exact h2 x

/-! ### What `bcp` leaves as it is -/

theorem bcp_frame_refl (s : my_manager) : bcp_frame s s :=
  ⟨rfl, rfl, rfl, rfl, rfl, rfl, rfl, rfl, rfl, rfl, fun _ => ⟨List.Perm.refl _, rfl⟩,
    fun _ _ => ⟨rfl, rfl, rfl⟩⟩

theorem bcp_frame_trans (s s1 s2 : my_manager) (h1 : bcp_frame s s1) (h2 : bcp_frame s1 s2) :
    bcp_frame s s2 := by
  obtain ⟨a1, a2, a3, a4, a5, a6, a7, a8, a9, a10, a11, a12⟩ := h1
  obtain ⟨b1, b2, b3, b4, b5, b6, b7, b8, b9, b10, b11, b12⟩ := h2
  refine ⟨b1.trans a1, b2.trans a2, b3.trans a3, b4.trans a4, b5.trans a5, b6.trans a6,
    b7.trans a7, b8.trans a8, b9.trans a9, b10.trans a10, ?_, ?_⟩
  · intro c
    exact ⟨(b11 c).1.trans (a11 c).1, (b11 c).2.trans (a11 c).2⟩
  · intro v hv
    obtain ⟨x1, x2, x3⟩ := a12 v hv
    obtain ⟨y1, y2, y3⟩ := b12 v (by rw [x1]; exact hv)
    exact ⟨y1.trans x1, y2.trans x2, y3.trans x3⟩

theorem bcp_frame_set_lits (s : my_manager) (clause : Nat) (L : List Nat)
    (h : L.Perm (s.cl clause).lits) : bcp_frame s (set_lits s clause L) := by
  refine ⟨rfl, rfl, rfl, rfl, rfl, rfl, rfl, rfl, rfl, rfl, ?_, fun _ _ => ⟨rfl, rfl, rfl⟩⟩
  intro c
  show ((Function.update s.cl clause { s.cl clause with lits := L } c).lits).Perm _
    ∧ (Function.update s.cl clause { s.cl clause with lits := L } c).index = _
  by_cases e : c = clause
  · rw [e, Function.update_same]
    exact ⟨h, rfl⟩
  · rw [Function.update_noteq e]
    exact ⟨List.Perm.refl _, rfl⟩

theorem bcp_frame_imply (slevel : Nat) (s : my_manager) (last clause o : Nat)
    (ho : s.status (var o) = 0) : bcp_frame s (bcp_imply slevel s last clause o) := by
  refine ⟨rfl, rfl, rfl, rfl, rfl, rfl, rfl, rfl, rfl, rfl,
    fun _ => ⟨List.Perm.refl _, rfl⟩, ?_⟩
  intro v hv
  have e : v ≠ var o := by
    intro e
    rw [e] at hv
    exact hv ho
  refine ⟨?_, ?_, ?_⟩
  · show Function.update s.status (var o) o v = s.status v
    rw [Function.update_noteq e]
  · show Function.update s.level (var o) slevel v = s.level v
    rw [Function.update_noteq e]
  · show Function.update s.reason (var o) (some clause) v = s.reason v
    rw [Function.update_noteq e]

theorem bcp_clause_bcp_frame (slevel neg_lit : Nat) (s : my_manager) (last clause : Nat)
    (kept rest : List Nat) (hn : lit_ok s.vc neg_lit)
    (hinv : bcp_inv { s with watched :=
      (Function.update s.watched (watched_index neg_lit) (kept ++ clause :: rest)) }) :
    bcp_frame s (bcp_clause slevel neg_lit s last clause).state
    ∧ (∀ s1, bcp_clause slevel neg_lit s last clause = clause_outcome.conflict s1 →
        (s1.cl clause).lits.getD 1 0 = neg_lit) := by
  obtain ⟨hptr, a, b, t, o, hl, hnd, hoks, ho, hcases⟩ :=
    bcp_clause_cases slevel neg_lit s last clause kept rest hn hinv
  have hperm : (o :: neg_lit :: t).Perm (s.cl clause).lits := by
    rw [hl]
    rcases ho with ⟨e1, e2⟩ | ⟨e1, e2⟩
    · rw [e1, e2]
    · rw [e1, e2]
      exact List.Perm.swap _ _ _
  have hset := bcp_frame_set_lits s clause (o :: neg_lit :: t) hperm
  rcases hcases with ⟨_, e⟩ | ⟨_, m, hm, _, e⟩ | ⟨_, _, _, e⟩ | ⟨_, _, _, h0, e⟩ | ⟨_, _, _, _, e⟩
  · rw [e]
    exact ⟨hset, fun s1 h => by simp at h⟩
  · rw [e]
    refine ⟨?_, fun s1 h => by simp at h⟩
    have h2 := bcp_frame_set_lits s clause (o :: t.getD m 0 :: t.set m neg_lit)
      (((perm_swap_into neg_lit t m hm).cons o).trans hperm)
    obtain ⟨b1, b2, b3, b4, b5, b6, b7, b8, b9, b10, b11, b12⟩ := h2
    exact ⟨b1, b2, b3, b4, b5, b6, b7, b8, b9, b10, b11, b12⟩
  · rw [e]
    refine ⟨hset, ?_⟩
    intro s1 h
    simp only [clause_outcome.conflict.injEq] at h
    rw [← h]
    show (Function.update s.cl clause { s.cl clause with lits := o :: neg_lit :: t }
      clause).lits.getD 1 0 = neg_lit
    rw [Function.update_same]
    rfl
  · rw [e]
    refine ⟨?_, fun s1 h => by simp at h⟩
    exact bcp_frame_trans _ _ _ hset
      (bcp_frame_imply slevel (set_lits s clause (o :: neg_lit :: t)) last clause o h0)
  · rw [e]
    exact ⟨hset, fun s1 h => by simp at h⟩

/-! ### The loops of `bcp`: stack, watches with levels, frame -/

theorem trail_level_le (s : my_manager) (top slevel : Nat) (hb : bcp_trail s top slevel) :
    ∀ v, v ≤ s.vc → s.status v ≠ 0 → s.level v ≤ slevel := by
  intro v hv hs
  obtain ⟨ht, _, _, hlv, _⟩ := hb
  obtain ⟨p, hp, e⟩ := ht.2.1 v hv hs
  have := (ht.1 p hp).2.2.2.1
  rw [e] at this
  omega

theorem heap_mem_size (h : heap) (w : Nat) (hm : heap_mem h w) : h.size ≠ 0 := by
  obtain ⟨i, h1, h2, _⟩ := hm
  omega

theorem bcp_watch_loop_all (slevel neg_lit : Nat) (ptrs : List Nat) :
    ∀ (rest : List Nat) (s : my_manager) (last : Nat) (kept : List Nat),
      lit_ok s.vc neg_lit →
      bcp_inv { s with watched :=
        (Function.update s.watched (watched_index neg_lit) (kept ++ rest)) } →
      s.status (var neg_lit) = neg neg_lit →
      (∀ c ∈ ptrs, c ∈ clause_ptrs s) →
      s.level (var neg_lit) = slevel →
      bcp_trail s last slevel →
      twl_lv_ex ptrs s.cl s.status s.level s.imp neg_lit rest →
      bcp_trail (bcp_watch_loop slevel neg_lit rest s last kept).m
        (bcp_watch_loop slevel neg_lit rest s last kept).last slevel
      ∧ bcp_frame s (bcp_watch_loop slevel neg_lit rest s last kept).m
      ∧ ((bcp_watch_loop slevel neg_lit rest s last kept).conflict = false →
          twl_lv ptrs (bcp_watch_loop slevel neg_lit rest s last kept).m.cl
            (bcp_watch_loop slevel neg_lit rest s last kept).m.status
            (bcp_watch_loop slevel neg_lit rest s last kept).m.level
            (bcp_watch_loop slevel neg_lit rest s last kept).m.imp)
      ∧ ((bcp_watch_loop slevel neg_lit rest s last kept).conflict = true →
          (bcp_watch_loop slevel neg_lit rest s last kept).m.imp.size = 0
          ∧ (bcp_watch_loop slevel neg_lit rest s last kept).m.assign_top
              = (bcp_watch_loop slevel neg_lit rest s last kept).last
          ∧ twl_low ptrs (bcp_watch_loop slevel neg_lit rest s last kept).m.cl
            (bcp_watch_loop slevel neg_lit rest s last kept).m.status
            (bcp_watch_loop slevel neg_lit rest s last kept).m.level slevel
          ∧ ∃ c, (bcp_watch_loop slevel neg_lit rest s last kept).m.conflicting_clause = some c
            ∧ (bcp_watch_loop slevel neg_lit rest s last kept).m.level
                (var (((bcp_watch_loop slevel neg_lit rest s last kept).m.cl c).lits.getD 1 0))
              = slevel) := by
  intro rest
  induction rest with
  | nil =>
    intro s last kept _ _ _ _ _ hb ht
    rw [bcp_watch_loop]
    refine ⟨hb, bcp_frame_refl s, ?_, fun h => by simp at h⟩
    intro _ c hc
    obtain ⟨t1, t2⟩ := ht c hc
    constructor
    · intro h
      rcases t1 h with x | x | ⟨_, x⟩
      · exact Or.inl x
      · exact Or.inr x
      · simp at x
    · intro h
      rcases t2 h with x | x | ⟨_, x⟩
      · exact Or.inl x
      · exact Or.inr x
      · simp at x
  | cons clause rest ih =>
    intro s last kept hn hinv hfalse hsub hnl hb ht
    obtain ⟨k1, k2, k3⟩ := bcp_clause_inv slevel neg_lit s last clause kept rest hn hinv hfalse
    have htr := bcp_clause_trail slevel neg_lit s last clause kept rest hn hinv hfalse hb
    have htw := bcp_clause_twl_lv slevel neg_lit s last clause kept rest ptrs hn hinv hfalse
      hsub hnl hb.2.2.1 (trail_level_le s last slevel hb) ht
    obtain ⟨hfr, hfc⟩ := bcp_clause_bcp_frame slevel neg_lit s last clause kept rest hn hinv
    have hne0 : s.status (var neg_lit) ≠ 0 := by
      rw [hfalse]
      exact neg_ne_zero neg_lit hn.1
    rw [bcp_watch_loop]
    cases hbc : bcp_clause slevel neg_lit s last clause with
    | kept s1 last1 =>
      obtain ⟨a1, a2, a3, a4⟩ := k1 s1 last1 hbc
      rw [hbc] at htr htw hfr
      simp only [clause_outcome.state, clause_outcome.top] at htr htw hfr
      simp only
      have htw' : twl_lv_ex ptrs s1.cl s1.status s1.level s1.imp neg_lit rest := by
        rcases htw with ⟨⟨x, hx⟩, _⟩ | ⟨_, h⟩
        · simp at hx
        · exact h
      obtain ⟨i1, i2, i3, i4⟩ := ih s1 last1 (kept ++ [clause]) (by rw [a2]; exact hn) a1 a4
        (by rw [a3]; exact hsub) (by rw [(hfr.2.2.2.2.2.2.2.2.2.2.2 _ hne0).2.1]; exact hnl)
        htr htw'
      exact ⟨i1, bcp_frame_trans _ _ _ hfr i2, i3, i4⟩
    | moved s1 =>
      obtain ⟨a1, a2, a3, a4⟩ := k2 s1 hbc
      rw [hbc] at htr htw hfr
      simp only [clause_outcome.state, clause_outcome.top] at htr htw hfr
      simp only
      have htw' : twl_lv_ex ptrs s1.cl s1.status s1.level s1.imp neg_lit rest := by
        rcases htw with ⟨⟨x, hx⟩, _⟩ | ⟨_, h⟩
        · simp at hx
        · exact h
      obtain ⟨i1, i2, i3, i4⟩ := ih s1 last kept (by rw [a2]; exact hn) a1 a4
        (by rw [a3]; exact hsub) (by rw [(hfr.2.2.2.2.2.2.2.2.2.2.2 _ hne0).2.1]; exact hnl)
        htr htw'
      exact ⟨i1, bcp_frame_trans _ _ _ hfr i2, i3, i4⟩
    | conflict s1 =>
      obtain ⟨a1, a2, a3, a4, a5, a6⟩ := k3 s1 hbc
      rw [hbc] at htr htw hfr
      simp only [clause_outcome.state, clause_outcome.top] at htr htw hfr
      simp only
      have hq1 : queue_ok s1.vc s1.status s1.imp := a1.2.2
      obtain ⟨_, fz⟩ := flush_queue_ok s1.score s1.vc s1.status (s1.imp.size + 1) s1.imp hq1
        (by omega)
      have hlow : twl_low ptrs s1.cl s1.status s1.level slevel := by
        rcases htw with ⟨_, h⟩ | ⟨h, _⟩
        · exact h
        · exact absurd rfl (h s1)
      obtain ⟨t1, t2, t3, t4, t5⟩ := htr
      refine ⟨⟨?_, ?_, ?_, t4, t5⟩, ?_, fun h => by simp at h, fun _ => ⟨fz, trivial, hlow, ?_⟩⟩
      · exact trail_inv_congr s1 _ last rfl rfl rfl rfl rfl rfl (fun _ _ _ _ => rfl) rfl t1
      · exact trail_marks_congr s1 _ last rfl rfl rfl rfl t2
      · intro w hw
        exact absurd fz (heap_mem_size _ w hw)
      · obtain ⟨b1, b2, b3, b4, b5, b6, b7, b8, b9, b10, b11, b12⟩ := hfr
        exact ⟨b1, b2, b3, b4, b5, b6, b7, b8, b9, b10, b11, b12⟩
      · refine ⟨clause, rfl, ?_⟩
        show s1.level (var ((s1.cl clause).lits.getD 1 0)) = slevel
        rw [hfc s1 hbc, (hfr.2.2.2.2.2.2.2.2.2.2.2 _ hne0).2.1]
        exact hnl

theorem bcp_loop_all (slevel : Nat) (ptrs : List Nat) :
    ∀ (fuel : Nat) (s : my_manager) (last : Nat) (res : Bool) (s' : my_manager),
      bcp_inv s → (∀ c ∈ ptrs, c ∈ clause_ptrs s) →
      bcp_trail s last slevel →
      twl_lv ptrs s.cl s.status s.level s.imp →
      bcp_loop slevel fuel s last = some (res, s') →
      bcp_trail s' s'.assign_top slevel ∧ bcp_frame s s' ∧ s'.imp.size = 0
      ∧ (res = true → twl_lv ptrs s'.cl s'.status s'.level s'.imp)
      ∧ (res = false → twl_low ptrs s'.cl s'.status s'.level slevel
          ∧ ∃ c, s'.conflicting_clause = some c
            ∧ s'.level (var ((s'.cl c).lits.getD 1 0)) = slevel) := by
  intro fuel
  induction fuel with
  | zero => intro s last res s' _ _ _ _ h; simp [bcp_loop] at h
  | succ f ih =>
    intro s last res s' hinv hsub hb ht h
    rw [bcp_loop] at h
    simp only at h
    obtain ⟨hkb, hst, hq⟩ := hinv
    by_cases hd : (dequeue s.score s.imp).1 = 0
    · rw [if_pos hd] at h
      simp only [Option.some.injEq, Prod.mk.injEq] at h
      obtain ⟨h1, h2⟩ := h
      subst h1 h2
      obtain ⟨z1, z2⟩ := dequeue_zero s.score s.vc s.status s.imp hq hd
      rw [z2]
      obtain ⟨t1, t2, t3, t4, t5⟩ := hb
      refine ⟨⟨?_, ?_, t3, t4, t5⟩, ?_, z1, fun _ => ht, fun e => by simp at e⟩
      · exact trail_inv_congr s _ last rfl rfl rfl rfl rfl rfl (fun _ _ _ _ => rfl) rfl t1
      · exact trail_marks_congr s _ last rfl rfl rfl rfl t2
      · exact ⟨rfl, rfl, rfl, rfl, rfl, rfl, rfl, rfl, rfl, rfl,
          fun _ => ⟨List.Perm.refl _, rfl⟩, fun _ _ => ⟨rfl, rfl, rfl⟩⟩
    · rw [if_neg hd] at h
      have hne : s.imp.size ≠ 0 := by
        intro e
        rw [dequeue_empty s.score s.imp e] at hd
        exact hd rfl
      obtain ⟨d1, d2, _, d4, d5⟩ := queue_ok_dequeue s.score s.vc s.status s.imp hq hne
      obtain ⟨v1, v2, v3⟩ := queue_ok_mem s.vc s.status s.imp hq _ d2
      have hvar : var (s.status (dequeue s.score s.imp).1) = (dequeue s.score s.imp).1 :=
        hst _ v2 v3
      have hlit : lit_ok s.vc (s.status (dequeue s.score s.imp).1) := by
        unfold lit_ok
        rw [var_eq] at hvar
        omega
      have hn := lit_ok_neg s.vc _ hlit
      have hfalse : s.status (var (neg (s.status (dequeue s.score s.imp).1)))
          = neg (neg (s.status (dequeue s.score s.imp).1)) := by
        rw [var_neg, neg_neg, hvar]
      have hnl : s.level (var (neg (s.status (dequeue s.score s.imp).1))) = slevel := by
        rw [var_neg, hvar]
        exact hb.2.2.1 _ d2
      have hinv0 : bcp_inv { ({ s with imp := (dequeue s.score s.imp).2 } : my_manager) with
          watched := (Function.update s.watched
            (watched_index (neg (s.status (dequeue s.score s.imp).1)))
            ([] ++ s.watched (watched_index (neg (s.status (dequeue s.score s.imp).1))))) } := by
        rw [List.nil_append, Function.update_eq_self]
        exact ⟨hkb, hst, d1⟩
      have hb0 : bcp_trail { s with imp := (dequeue s.score s.imp).2 } last slevel := by
        obtain ⟨t1, t2, t3, t4, t5⟩ := hb
        refine ⟨?_, ?_, ?_, t4, t5⟩
        · exact trail_inv_congr s _ last rfl rfl rfl rfl rfl rfl (fun _ _ _ _ => rfl) rfl t1
        · exact trail_marks_congr s _ last rfl rfl rfl rfl t2
        · intro w hw
          exact t3 w (d4 w hw)
      -- the clauses that watch the literal just falsified are all on its list
      have hex : twl_lv_ex ptrs s.cl s.status s.level (dequeue s.score s.imp).2
          (neg (s.status (dequeue s.score s.imp).1))
          (s.watched (watched_index (neg (s.status (dequeue s.score s.imp).1)))) := by
        have hkb' : kb_inv s.vc (clause_ptrs s) s.cl s.watched := hkb
        have key : ∀ x : Nat, s.status (var x) = neg x → heap_mem s.imp (var x) →
            heap_mem (dequeue s.score s.imp).2 (var x)
            ∨ x = neg (s.status (dequeue s.score s.imp).1) := by
          intro x hx hm
          rcases d5 _ hm with e | e
          · right
            rw [← e, hx, neg_neg]
          · exact Or.inl e
        intro c hc
        obtain ⟨t1, t2⟩ := ht c hc
        obtain ⟨c1, c2⟩ := hkb'.2.2 c (hsub c hc)
        constructor
        · intro h'
          rcases t1 h' with x | x
          · rcases key _ h' x with y | y
            · exact Or.inl y
            · exact Or.inr (Or.inr ⟨y, by rw [← y]; exact c1⟩)
          · exact Or.inr (Or.inl x)
        · intro h'
          rcases t2 h' with x | x
          · rcases key _ h' x with y | y
            · exact Or.inl y
            · exact Or.inr (Or.inr ⟨y, by rw [← y]; exact c2⟩)
          · exact Or.inr (Or.inl x)
      obtain ⟨r1, r2, r3, r4⟩ := bcp_watch_loop_inv slevel
        (neg (s.status (dequeue s.score s.imp).1))
        (s.watched (watched_index (neg (s.status (dequeue s.score s.imp).1))))
        { s with imp := (dequeue s.score s.imp).2 } last [] hn hinv0 hfalse
      obtain ⟨w1, w2, w3, w4⟩ := bcp_watch_loop_all slevel
        (neg (s.status (dequeue s.score s.imp).1)) ptrs
        (s.watched (watched_index (neg (s.status (dequeue s.score s.imp).1))))
        { s with imp := (dequeue s.score s.imp).2 } last [] hn hinv0 hfalse hsub hnl hb0 hex
      -- the frame from `s`
      have hfr : bcp_frame s
          { (bcp_watch_loop slevel (neg (s.status (dequeue s.score s.imp).1))
              (s.watched (watched_index (neg (s.status (dequeue s.score s.imp).1))))
              { s with imp := (dequeue s.score s.imp).2 } last []).m with
            watched := (Function.update (bcp_watch_loop slevel
                (neg (s.status (dequeue s.score s.imp).1))
                (s.watched (watched_index (neg (s.status (dequeue s.score s.imp).1))))
                { s with imp := (dequeue s.score s.imp).2 } last []).m.watched
              (watched_index (neg (s.status (dequeue s.score s.imp).1)))
              (bcp_watch_loop slevel (neg (s.status (dequeue s.score s.imp).1))
                (s.watched (watched_index (neg (s.status (dequeue s.score s.imp).1))))
                { s with imp := (dequeue s.score s.imp).2 } last []).kept) } := by
        obtain ⟨b1, b2, b3, b4, b5, b6, b7, b8, b9, b10, b11, b12⟩ := w2
        exact ⟨b1, b2, b3, b4, b5, b6, b7, b8, b9, b10, b11, b12⟩
      have hbt : bcp_trail
          { (bcp_watch_loop slevel (neg (s.status (dequeue s.score s.imp).1))
              (s.watched (watched_index (neg (s.status (dequeue s.score s.imp).1))))
              { s with imp := (dequeue s.score s.imp).2 } last []).m with
            watched := (Function.update (bcp_watch_loop slevel
                (neg (s.status (dequeue s.score s.imp).1))
                (s.watched (watched_index (neg (s.status (dequeue s.score s.imp).1))))
                { s with imp := (dequeue s.score s.imp).2 } last []).m.watched
              (watched_index (neg (s.status (dequeue s.score s.imp).1)))
              (bcp_watch_loop slevel (neg (s.status (dequeue s.score s.imp).1))
                (s.watched (watched_index (neg (s.status (dequeue s.score s.imp).1))))
                { s with imp := (dequeue s.score s.imp).2 } last []).kept) }
          (bcp_watch_loop slevel (neg (s.status (dequeue s.score s.imp).1))
              (s.watched (watched_index (neg (s.status (dequeue s.score s.imp).1))))
              { s with imp := (dequeue s.score s.imp).2 } last []).last slevel := by
        obtain ⟨t1, t2, t3, t4, t5⟩ := w1
        refine ⟨?_, ?_, t3, t4, t5⟩
        · exact trail_inv_congr _ _ _ rfl rfl rfl rfl rfl rfl (fun _ _ _ _ => rfl) rfl t1
        · exact trail_marks_congr _ _ _ rfl rfl rfl rfl t2
      by_cases hc : (bcp_watch_loop slevel (neg (s.status (dequeue s.score s.imp).1))
          (s.watched (watched_index (neg (s.status (dequeue s.score s.imp).1))))
          { s with imp := (dequeue s.score s.imp).2 } last []).conflict = true
      · rw [if_pos hc] at h
        simp only [Option.some.injEq, Prod.mk.injEq] at h
        obtain ⟨h1, h2⟩ := h
        subst h1 h2
        obtain ⟨x1, x2, x3, x4⟩ := w4 hc
        have x2' : (bcp_watch_loop slevel (neg (s.status (dequeue s.score s.imp).1))
            (s.watched (watched_index (neg (s.status (dequeue s.score s.imp).1))))
            { s with imp := (dequeue s.score s.imp).2 } last []).m.assign_top
            = (bcp_watch_loop slevel (neg (s.status (dequeue s.score s.imp).1))
            (s.watched (watched_index (neg (s.status (dequeue s.score s.imp).1))))
            { s with imp := (dequeue s.score s.imp).2 } last []).last := x2
        refine ⟨?_, hfr, x1, fun e => by simp at e, fun _ => ⟨x3, x4⟩⟩
        show bcp_trail _ (bcp_watch_loop slevel _ _ _ last []).m.assign_top slevel
        rw [x2']
        exact hbt
      · rw [if_neg hc] at h
        have hc' := Bool.eq_false_iff.mpr hc
        obtain ⟨i1, i2, i3, i5, i6⟩ := ih _ _ res s' r1 (by
            intro c hcp
            show c ∈ clause_ptrs (bcp_watch_loop slevel _ _ _ last []).m
            rw [r3]
            exact hsub c hcp) hbt (w3 hc') h
        exact ⟨i1, bcp_frame_trans _ _ _ hfr i2, i3, i5, i6⟩

/-! ### The first assignment of `bcp` -/

/-- Pushing the literal `l` of an unassigned variable, whose level and reason
are already set, on the stack. -/
theorem trail_inv_push (s : my_manager) (top l : Nat)
    (hE : ∀ p, p < top →
      lit_ok s.vc (s.assign p) ∧ s.status (var (s.assign p)) = s.assign p
      ∧ 1 ≤ s.level (var (s.assign p)) ∧ s.level (var (s.assign p)) ≤ s.decision_level
      ∧ (∀ q, q < p → var (s.assign q) ≠ var (s.assign p)
          ∧ s.level (var (s.assign q)) ≤ s.level (var (s.assign p)))
      ∧ reason_shape s p (s.reason (var (s.assign p))))
    (hA : ∀ v, v ≤ s.vc → s.status v ≠ 0 → on_trail s v top)
    (hU : ∀ v, v ≤ s.vc → s.status v = 0 → v ≠ var l → s.level v = 0)
    (hl : lit_ok s.vc l) (hfree : s.status (var l) = 0)
    (hlv1 : 1 ≤ s.level (var l)) (hlv2 : s.level (var l) ≤ s.decision_level)
    (hmono : ∀ p, p < top → s.level (var (s.assign p)) ≤ s.level (var l))
    (hR : match s.reason (var l) with
      | none => 2 ≤ s.level (var l) → ∀ q, q < top → s.level (var (s.assign q)) < s.level (var l)
      | some r => r ∈ clause_ptrs s ∧ (s.cl r).lits.getD 0 0 = l
          ∧ ∀ x ∈ (s.cl r).lits.drop 1, s.status (var x) = neg x ∧ on_trail s (var x) top)
    (q : heap) :
    trail_inv { s with
      imp := q,
      assign := (Function.update s.assign top l),
      status := (Function.update s.status (var l) l) } (top + 1) := by
  have hl0 : l ≠ 0 := by have := hl.1; omega
  have hne : ∀ p, p < top → var (s.assign p) ≠ var l := by
    intro p hp e
    obtain ⟨a1, a2, _⟩ := hE p hp
    rw [e, hfree] at a2
    have := a1.1
    omega
  have hassign : ∀ p, p < top → Function.update s.assign top l p = s.assign p := by
    intro p hp
    rw [Function.update_noteq (by omega)]
  have hfalse_ne : ∀ x, s.status (var x) = neg x → var x ≠ var l := by
    intro x hx e
    rw [e, hfree] at hx
    have := var_of_neg_eq_zero x hx.symm
    have := (lit_ok_var s.vc l hl).1
    omega
  refine ⟨?_, ?_, ?_⟩
  · intro p hp
    show lit_ok s.vc (Function.update s.assign top l p)
      ∧ Function.update s.status (var l) l (var (Function.update s.assign top l p))
          = Function.update s.assign top l p
      ∧ 1 ≤ s.level (var (Function.update s.assign top l p))
      ∧ s.level (var (Function.update s.assign top l p)) ≤ s.decision_level
      ∧ (∀ q1, q1 < p → var (Function.update s.assign top l q1)
            ≠ var (Function.update s.assign top l p)
          ∧ s.level (var (Function.update s.assign top l q1))
              ≤ s.level (var (Function.update s.assign top l p)))
      ∧ reason_shape _ p (s.reason (var (Function.update s.assign top l p)))
    by_cases hpl : p = top
    · subst hpl
      rw [Function.update_same]
      refine ⟨hl, by rw [Function.update_same], hlv1, hlv2, ?_, ?_⟩
      · intro q1 hq1
        rw [hassign q1 hq1]
        exact ⟨hne q1 hq1, hmono q1 hq1⟩
      · cases hr : s.reason (var l) with
        | none =>
          rw [hr] at hR
          simp only [reason_shape]
          show 2 ≤ s.level (var (Function.update s.assign p l p)) →
            ∀ q1, q1 < p → s.level (var (Function.update s.assign p l q1))
              < s.level (var (Function.update s.assign p l p))
          rw [Function.update_same]
          intro h2 q1 hq1
          rw [hassign q1 hq1]
          exact hR h2 q1 hq1
        | some r =>
          rw [hr] at hR
          obtain ⟨r1, r2, r3⟩ := hR
          simp only [reason_shape]
          refine ⟨r1, ?_, ?_⟩
          · show (s.cl r).lits.getD 0 0 = Function.update s.assign p l p
            rw [Function.update_same]
            exact r2
          · intro x hx
            obtain ⟨x1, q1, q2, q3⟩ := r3 x hx
            constructor
            · show Function.update s.status (var l) l (var x) = neg x
              rw [Function.update_noteq (hfalse_ne x x1)]
              exact x1
            · exact ⟨q1, q2, by
                show var (Function.update s.assign p l q1) = var x
                rw [hassign q1 q2]
                exact q3⟩
    · have hp' : p < top := by omega
      obtain ⟨a1, a2, a3, a4, a5, a6⟩ := hE p hp'
      rw [hassign p hp']
      refine ⟨a1, ?_, a3, a4, ?_, ?_⟩
      · rw [Function.update_noteq (hne p hp')]
        exact a2
      · intro q1 hq1
        rw [hassign q1 (by omega)]
        exact a5 q1 hq1
      · cases hr : s.reason (var (s.assign p)) with
        | none =>
          rw [hr] at a6
          simp only [reason_shape] at a6 ⊢
          show 2 ≤ s.level (var (Function.update s.assign top l p)) →
            ∀ q1, q1 < p → s.level (var (Function.update s.assign top l q1))
              < s.level (var (Function.update s.assign top l p))
          rw [hassign p hp']
          intro h2 q1 hq1
          rw [hassign q1 (by omega)]
          exact a6 h2 q1 hq1
        | some r =>
          rw [hr] at a6
          simp only [reason_shape] at a6 ⊢
          obtain ⟨r1, r2, r3⟩ := a6
          refine ⟨r1, ?_, ?_⟩
          · show (s.cl r).lits.getD 0 0 = Function.update s.assign top l p
            rw [hassign p hp']
            exact r2
          · intro x hx
            obtain ⟨x1, q1, q2, q3⟩ := r3 x hx
            constructor
            · show Function.update s.status (var l) l (var x) = neg x
              rw [Function.update_noteq (hfalse_ne x x1)]
              exact x1
            · exact ⟨q1, q2, by
                show var (Function.update s.assign top l q1) = var x
                rw [hassign q1 (by omega)]
                exact q3⟩
  · intro v hv hs
    by_cases e : v = var l
    · exact ⟨top, by omega, by
        show var (Function.update s.assign top l top) = v
        rw [Function.update_same, e]⟩
    · have hs' : s.status v ≠ 0 := by
        have : Function.update s.status (var l) l v ≠ 0 := hs
        rw [Function.update_noteq e] at this
        exact this
      obtain ⟨q1, q2, q3⟩ := hA v hv hs'
      exact ⟨q1, by omega, by
        show var (Function.update s.assign top l q1) = v
        rw [hassign q1 q2]
        exact q3⟩
  · intro v hv hs
    by_cases e : v = var l
    · exfalso
      have : Function.update s.status (var l) l v = 0 := hs
      rw [e, Function.update_same] at this
      exact hl0 this
    · have hs' : s.status v = 0 := by
        have : Function.update s.status (var l) l v = 0 := hs
        rw [Function.update_noteq e] at this
        exact this
      exact hU v hv hs' e

theorem trail_marks_push (s : my_manager) (top l : Nat) (hm : trail_marks s top)
    (hlv : s.level (var l) = s.decision_level) (q : heap) (status : Nat → Nat) :
    trail_marks { s with
      imp := q,
      assign := (Function.update s.assign top l),
      status := status } (top + 1) := by
  intro L hL1 hL2
  have hL2' : L ≤ s.decision_level := hL2
  obtain ⟨m1, m2⟩ := hm L hL1 hL2'
  refine ⟨?_, ?_⟩
  · show s.decision_lit L ≤ top + 1
    omega
  · intro p hp
    show s.decision_lit L ≤ p ↔ L ≤ s.level (var (Function.update s.assign top l p))
    by_cases e : p = top
    · rw [e, Function.update_same, hlv]
      constructor
      · intro _; exact hL2'
      · intro _; exact m1
    · rw [Function.update_noteq e]
      exact m2 p (by omega)

theorem twl_lv_push (ptrs : List Nat) (cl : Nat → my_clause) (status level : Nat → Nat)
    (q q1 : heap) (l : Nat) (ht : twl_lv ptrs cl status level q) (hfree : status (var l) = 0)
    (hnz : ∀ c ∈ ptrs, (cl c).lits.getD 0 0 ≠ 0 ∧ (cl c).lits.getD 1 0 ≠ 0)
    (hq1 : ∀ w, heap_mem q w → heap_mem q1 w) (hq2 : heap_mem q1 (var l)) :
    twl_lv ptrs cl (Function.update status (var l) l) level q1 := by
  have key : ∀ x y : Nat, y ≠ 0 →
      (status (var x) = neg x → heap_mem q (var x)
        ∨ (status (var y) = y ∧ level (var y) ≤ level (var x))) →
      Function.update status (var l) l (var x) = neg x →
      heap_mem q1 (var x) ∨ (Function.update status (var l) l (var y) = y
        ∧ level (var y) ≤ level (var x)) := by
    intro x y hy hold hnew
    by_cases hx : var x = var l
    · left
      rw [hx]; exact hq2
    · rw [Function.update_noteq hx] at hnew
      rcases hold hnew with z | ⟨z, zl⟩
      · exact Or.inl (hq1 _ z)
      · right
        have hyo : var y ≠ var l := by
          intro e
          rw [e, hfree] at z
          exact hy z.symm
        rw [Function.update_noteq hyo]
        exact ⟨z, zl⟩
  intro c hc
  obtain ⟨t1, t2⟩ := ht c hc
  obtain ⟨z0, z1⟩ := hnz c hc
  exact ⟨key _ _ z1 t1, key _ _ z0 t2⟩

/-- The contract of `bcp(l)` for its callers: `l` is a literal of an
unassigned variable whose level (the current decision level) and reason are
already recorded, the queue is empty and the stack is as the search leaves
it. -/
theorem bcp_all (fuel : Nat) (s : my_manager) (l : Nat) (ptrs : List Nat) (res : Bool)
    (s' : my_manager) (hinv : bcp_inv s) (hq : s.imp.size = 0) (hoff : s.stack_offset = 0)
    (hsub : ∀ c ∈ ptrs, c ∈ clause_ptrs s)
    (hE : ∀ p, p < s.assign_top →
      lit_ok s.vc (s.assign p) ∧ s.status (var (s.assign p)) = s.assign p
      ∧ 1 ≤ s.level (var (s.assign p)) ∧ s.level (var (s.assign p)) ≤ s.decision_level
      ∧ (∀ q, q < p → var (s.assign q) ≠ var (s.assign p)
          ∧ s.level (var (s.assign q)) ≤ s.level (var (s.assign p)))
      ∧ reason_shape s p (s.reason (var (s.assign p))))
    (hA : ∀ v, v ≤ s.vc → s.status v ≠ 0 → on_trail s v s.assign_top)
    (hU : ∀ v, v ≤ s.vc → s.status v = 0 → v ≠ var l → s.level v = 0)
    (hl : lit_ok s.vc l) (hfree : s.status (var l) = 0)
    (hlv : s.level (var l) = s.decision_level) (hd1 : 1 ≤ s.decision_level)
    (hR : match s.reason (var l) with
      | none => 2 ≤ s.level (var l) →
          ∀ q, q < s.assign_top → s.level (var (s.assign q)) < s.level (var l)
      | some r => r ∈ clause_ptrs s ∧ (s.cl r).lits.getD 0 0 = l
          ∧ ∀ x ∈ (s.cl r).lits.drop 1, s.status (var x) = neg x
              ∧ on_trail s (var x) s.assign_top)
    (hm : trail_marks s s.assign_top)
    (ht : twl_lv ptrs s.cl s.status s.level s.imp)
    (h : bcp fuel s l = some (res, s')) :
    bcp_inv s' ∧ s'.imp.size = 0
    ∧ trail_inv s' s'.assign_top ∧ trail_marks s' s'.assign_top
    ∧ bcp_frame s s' ∧ clause_ptrs s' = clause_ptrs s
    ∧ s'.status (var l) = l ∧ s'.level (var l) = s.level (var l)
    ∧ s'.reason (var l) = s.reason (var l)
    ∧ (res = true → twl_lv ptrs s'.cl s'.status s'.level s'.imp)
    ∧ (res = false → twl_low ptrs s'.cl s'.status s'.level s'.decision_level
        ∧ ∃ c, s'.conflicting_clause = some c ∧ c ∈ clause_ptrs s'
          ∧ (∀ x ∈ (s'.cl c).lits, s'.status (var x) = neg x)
          ∧ s'.level (var ((s'.cl c).lits.getD 1 0)) = s'.decision_level) := by
  have hlast : ((s.assign_top : Int) + 1 + s.stack_offset).toNat = s.assign_top + 1 := by
    rw [hoff]; omega
  have h : bcp_loop (s.level (var l)) fuel { s with
      imp := (undo s.score s.imp (var l)),
      assign := (Function.update s.assign s.assign_top l),
      status := (Function.update s.status (var l) l) } (s.assign_top + 1) = some (res, s') := by
    rw [← hlast]
    exact h
  have hl0 : l ≠ 0 := by have := hl.1; omega
  have hv := lit_ok_var s.vc l hl
  have hs1 := bcp_start_inv s l hinv hl
  obtain ⟨hkb, hst, hqo⟩ := hinv
  have hnomem : ∀ w, ¬ heap_mem s.imp w := fun w hw => heap_mem_size _ _ hw hq
  obtain ⟨u1, u2, _, _⟩ := undo_mem s.score s.imp (var l) (hqo.2 (var l) hv.2)
  have hT := trail_inv_push s s.assign_top l hE hA hU hl hfree (by omega) (by omega)
    (fun p hp => by rw [hlv]; exact (hE p hp).2.2.2.1) hR (undo s.score s.imp (var l))
  have hM := trail_marks_push s s.assign_top l hm hlv (undo s.score s.imp (var l))
    (Function.update s.status (var l) l)
  have hkb' : kb_inv s.vc (clause_ptrs s) s.cl s.watched := hkb
  have hW := twl_lv_push ptrs s.cl s.status s.level s.imp (undo s.score s.imp (var l)) l ht hfree
    (fun c hc => by
      obtain ⟨c1, _, c3⟩ := hkb'.1 c (hsub c hc)
      have e0 : (s.cl c).lits.getD 0 0 = (s.cl c).lits.get ⟨0, by omega⟩ := by
        rw [List.getD_eq_getElem _ _ (by omega)]; rfl
      have e1 : (s.cl c).lits.getD 1 0 = (s.cl c).lits.get ⟨1, by omega⟩ := by
        rw [List.getD_eq_getElem _ _ (by omega)]; rfl
      have m0 := c3 _ (List.get_mem (s.cl c).lits 0 (by omega))
      have m1 := c3 _ (List.get_mem (s.cl c).lits 1 (by omega))
      rw [← e0] at m0
      rw [← e1] at m1
      have := m0.1
      have := m1.1
      constructor <;> omega)
    (fun w hw => absurd hw (hnomem w)) u1
  have hB : bcp_trail { s with
      imp := (undo s.score s.imp (var l)),
      assign := (Function.update s.assign s.assign_top l),
      status := (Function.update s.status (var l) l) } (s.assign_top + 1) (s.level (var l)) := by
    refine ⟨hT, hM, ?_, hlv, by omega⟩
    intro w hw
    rcases (u2 w).mp hw with x | x
    · exact absurd x (hnomem w)
    · rw [x]
  obtain ⟨a1, a2, a3, a4⟩ := bcp_loop_inv _ fuel _ _ res s' hs1 h
  obtain ⟨b1, b2, b3, b4, b5⟩ := bcp_loop_all _ ptrs fuel _ _ res s' hs1 hsub hB hW h
  obtain ⟨f1, f2, f3, f4, f5, f6, f7, f8, f9, f10, f11, f12⟩ := b2
  have hnew := f12 (var l) (by
    show Function.update s.status (var l) l (var l) ≠ 0
    rw [Function.update_same]; exact hl0)
  have hdl : s'.decision_level = s.level (var l) := by rw [hlv]; exact f7
  refine ⟨a1, b3, b1.1, b1.2.1, ?_, a3, ?_, hnew.2.1, hnew.2.2, b4, ?_⟩
  · refine ⟨f1, f2, f3, f4, f5, f6, f7, f8, f9, f10, f11, ?_⟩
    intro v hv0
    have hvl : v ≠ var l := by
      intro e
      rw [e] at hv0
      exact hv0 hfree
    have := f12 v (by
      show Function.update s.status (var l) l v ≠ 0
      rw [Function.update_noteq hvl]; exact hv0)
    have e : Function.update s.status (var l) l v = s.status v := Function.update_noteq hvl _ _
    exact ⟨this.1.trans e, this.2.1, this.2.2⟩
  · have := hnew.1
    rw [this]
    show Function.update s.status (var l) l (var l) = l
    rw [Function.update_same]
  · intro e
    obtain ⟨c, c1, c2, c3⟩ := a4 e
    obtain ⟨x1, c', x2, x3⟩ := b5 e
    rw [c1] at x2
    have hcc : c = c' := Option.some.inj x2
    subst hcc
    rw [hdl]
    exact ⟨x1, c, c1, by rw [a3]; exact c2, c3, x3⟩

/-! ### Well-formedness of the heaps -/

theorem heap_hole_move (order indices : Nat → Nat) (n i c v : Nat)
    (h : heap_hole order indices n i v) (hi2 : i ≤ n)
    (hc1 : 1 ≤ c) (hc2 : c ≤ n) (hci : c ≠ i) :
    heap_hole (Function.update order i (order c)) (Function.update indices (order c) i) n c v := by
  obtain ⟨h1, h2⟩ := h
  obtain ⟨c3, c4⟩ := h1 c hc1 hc2 hci
  constructor
  · intro j j1 j2 j3
    by_cases hji : j = i
    · subst hji
      rw [Function.update_same, Function.update_same]
      exact ⟨rfl, c4⟩
    · rw [Function.update_noteq hji]
      obtain ⟨a1, a2⟩ := h1 j j1 j2 hji
      have hne : order j ≠ order c := by
        intro e
        rw [e, c3] at a1
        exact j3 a1.symm
      rw [Function.update_noteq hne]
      exact ⟨a1, a2⟩
  · intro w hw hi
    by_cases hwc : w = order c
    · subst hwc
      rw [Function.update_same]
      exact ⟨hi2, fun e => hci e.symm, by rw [Function.update_same]⟩
    · rw [Function.update_noteq hwc] at hi ⊢
      obtain ⟨a1, a2, a3⟩ := h2 w hw hi
      have hne : indices w ≠ c := by
        intro e
        rw [e] at a3
        exact hwc a3.symm
      exact ⟨a1, hne, by rw [Function.update_noteq a2]; exact a3⟩

theorem heap_hole_plug (order indices : Nat → Nat) (n i v : Nat)
    (h : heap_hole order indices n i v) (hi1 : 1 ≤ i) (hi2 : i ≤ n) :
    heap_wf { order := Function.update order i v, indices := Function.update indices v i,
              size := n } := by
  obtain ⟨h1, h2⟩ := h
  constructor
  · intro j j1 j2
    show Function.update indices v i (Function.update order i v j) = j
    by_cases hji : j = i
    · subst hji
      rw [Function.update_same, Function.update_same]
    · rw [Function.update_noteq hji]
      obtain ⟨a1, a2⟩ := h1 j j1 j2 hji
      rw [Function.update_noteq a2]
      exact a1
  · intro w hw
    show Function.update indices v i w ≤ n
      ∧ Function.update order i v (Function.update indices v i w) = w
    have hw' : Function.update indices v i w ≠ 0 := hw
    by_cases hwv : w = v
    · subst hwv
      rw [Function.update_same, Function.update_same]
      exact ⟨hi2, rfl⟩
    · rw [Function.update_noteq hwv] at hw' ⊢
      obtain ⟨a1, a2, a3⟩ := h2 w hwv hw'
      exact ⟨a1, by rw [Function.update_noteq a2]; exact a3⟩

theorem heap_hole_of_wf (h : heap) (i : Nat) (hw : heap_wf h) (hi1 : 1 ≤ i) (hi2 : i ≤ h.size) :
    heap_hole h.order h.indices h.size i (h.order i) := by
  obtain ⟨h1, h2⟩ := hw
  constructor
  · intro j j1 j2 j3
    refine ⟨h1 j j1 j2, ?_⟩
    intro e
    have := h1 j j1 j2
    rw [e, h1 i hi1 hi2] at this
    exact j3 this.symm
  · intro w hwv hi
    obtain ⟨a1, a2⟩ := h2 w hi
    refine ⟨a1, ?_, a2⟩
    intro e
    rw [e] at a2
    exact hwv a2.symm

theorem percolate_up_loop_hole (score : Nat → ℚ) (v n : Nat) :
    ∀ (f : Nat) (order indices : Nat → Nat) (i : Nat), 1 ≤ i → i ≤ n →
      heap_hole order indices n i v →
      heap_hole (percolate_up_loop score v f order indices i).1
        (percolate_up_loop score v f order indices i).2.1 n
        (percolate_up_loop score v f order indices i).2.2 v
      ∧ 1 ≤ (percolate_up_loop score v f order indices i).2.2
      ∧ (percolate_up_loop score v f order indices i).2.2 ≤ n := by
  intro f
  induction f with
  | zero =>
    intro order indices i h1 h2 hh
    exact ⟨hh, h1, h2⟩
  | succ f ih =>
    intro order indices i h1 h2 hh
    rw [percolate_up_loop]
    by_cases hc : i / 2 ≠ 0 ∧ gt score v (order (i / 2)) = true
    · rw [if_pos hc]
      exact ih _ _ (i / 2) (by omega) (by omega)
        (heap_hole_move order indices n i (i / 2) v hh h2 (by omega) (by omega) (by omega))
    · rw [if_neg hc]
      exact ⟨hh, h1, h2⟩

theorem percolate_down_loop_hole (score : Nat → ℚ) (v n : Nat) :
    ∀ (f : Nat) (order indices : Nat → Nat) (i : Nat), 1 ≤ i → i ≤ n →
      heap_hole order indices n i v →
      heap_hole (percolate_down_loop score v n f order indices i).1
        (percolate_down_loop score v n f order indices i).2.1 n
        (percolate_down_loop score v n f order indices i).2.2 v
      ∧ 1 ≤ (percolate_down_loop score v n f order indices i).2.2
      ∧ (percolate_down_loop score v n f order indices i).2.2 ≤ n := by
  intro f
  induction f with
  | zero =>
    intro order indices i h1 h2 hh
    exact ⟨hh, h1, h2⟩
  | succ f ih =>
    intro order indices i h1 h2 hh
    rw [percolate_down_loop]
    by_cases hc : 2 * i ≤ n
    · rw [if_pos hc]
      simp only
      by_cases hb : 2 * i + 1 ≤ n ∧ gt score (order (2 * i + 1)) (order (2 * i)) = true
      · rw [if_pos hb]
        by_cases hg : gt score (order (2 * i + 1)) v = true
        · rw [if_pos hg]
          exact ih _ _ (2 * i + 1) (by omega) hb.1
            (heap_hole_move order indices n i (2 * i + 1) v hh h2 (by omega) hb.1 (by omega))
        · rw [if_neg hg]
          exact ⟨hh, h1, h2⟩
      · rw [if_neg hb]
        by_cases hg : gt score (order (2 * i)) v = true
        · rw [if_pos hg]
          exact ih _ _ (2 * i) (by omega) hc
            (heap_hole_move order indices n i (2 * i) v hh h2 (by omega) hc (by omega))
        · rw [if_neg hg]
          exact ⟨hh, h1, h2⟩
    · rw [if_neg hc]
      exact ⟨hh, h1, h2⟩

theorem percolate_up_wf (score : Nat → ℚ) (h : heap) (i : Nat) (hw : heap_wf h)
    (hi1 : 1 ≤ i) (hi2 : i ≤ h.size) : heap_wf (percolate_up score h i) := by
  obtain ⟨r1, r2, r3⟩ := percolate_up_loop_hole score (h.order i) h.size i h.order h.indices i
    hi1 hi2 (heap_hole_of_wf h i hw hi1 hi2)
  exact heap_hole_plug _ _ _ _ _ r1 r2 r3

theorem percolate_down_wf (score : Nat → ℚ) (h : heap) (i : Nat) (hw : heap_wf h)
    (hi1 : 1 ≤ i) (hi2 : i ≤ h.size) : heap_wf (percolate_down score h i) := by
  obtain ⟨r1, r2, r3⟩ := percolate_down_loop_hole score (h.order i) h.size h.size h.order
    h.indices i hi1 hi2 (heap_hole_of_wf h i hw hi1 hi2)
  exact heap_hole_plug _ _ _ _ _ r1 r2 r3

theorem heap_wf_mem (h : heap) (hw : heap_wf h) (v : Nat) :
    heap_mem h v ↔ h.indices v ≠ 0 := by
  constructor
  · rintro ⟨i, i1, i2, i3⟩
    have := hw.1 i i2 (by omega)
    rw [i3] at this
    omega
  · intro hv
    obtain ⟨a1, a2⟩ := hw.2 v hv
    exact ⟨h.indices v, by omega, by omega, a2⟩

theorem insert_wf (score : Nat → ℚ) (h : heap) (v : Nat) (hw : heap_wf h)
    (hv : h.indices v = 0) : heap_wf (insert score h v) := by
  unfold insert
  apply percolate_up_wf
  · obtain ⟨h1, h2⟩ := hw
    constructor
    · intro j j1 j2
      show Function.update h.indices v (h.size + 1) (Function.update h.order (h.size + 1) v j) = j
      have j2' : j ≤ h.size + 1 := j2
      by_cases hj : j = h.size + 1
      · subst hj
        rw [Function.update_same, Function.update_same]
      · rw [Function.update_noteq hj]
        have a := h1 j j1 (by omega)
        have hne : h.order j ≠ v := by
          intro e
          rw [e, hv] at a
          omega
        rw [Function.update_noteq hne]
        exact a
    · intro w hwi
      show Function.update h.indices v (h.size + 1) w ≤ h.size + 1
        ∧ Function.update h.order (h.size + 1) v (Function.update h.indices v (h.size + 1) w) = w
      have hwi' : Function.update h.indices v (h.size + 1) w ≠ 0 := hwi
      by_cases hwv : w = v
      · subst hwv
        rw [Function.update_same, Function.update_same]
        exact ⟨le_refl _, rfl⟩
      · rw [Function.update_noteq hwv] at hwi' ⊢
        obtain ⟨a1, a2⟩ := h2 w hwi'
        exact ⟨by omega, by rw [Function.update_noteq (by omega)]; exact a2⟩
  · show 1 ≤ h.size + 1
    omega
  · exact le_refl _

theorem undo_wf (score : Nat → ℚ) (h : heap) (v : Nat) (hw : heap_wf h) :
    heap_wf (undo score h v) := by
  unfold undo
  by_cases hv : in_heap h v = true
  · rw [if_pos hv]; exact hw
  · rw [if_neg hv]
    apply insert_wf score h v hw
    by_contra hc
    exact hv ((in_heap_iff h v).mpr hc)

theorem update_wf (score : Nat → ℚ) (h : heap) (v : Nat) (hw : heap_wf h) :
    heap_wf (update score h v) := by
  unfold update
  by_cases hv : in_heap h v = true
  · rw [if_pos hv]
    have hi := (in_heap_iff h v).mp hv
    exact percolate_up_wf score h _ hw (by omega) (hw.2 v hi).1
  · rw [if_neg hv]; exact hw

theorem get_min_element_wf (score : Nat → ℚ) (h : heap) (hw : heap_wf h) (hs : 1 ≤ h.size) :
    heap_wf (get_min_element score h).2 := by
  obtain ⟨h1, h2⟩ := hw
  have hbase : heap_wf
      { order := Function.update h.order 1 (h.order h.size),
        indices := Function.update (Function.update h.indices
          (Function.update h.order 1 (h.order h.size) 1) 1) (h.order 1) 0,
        size := h.size - 1 } := by
    rw [Function.update_same]
    constructor
    · intro j j1 j2
      have j2' : j ≤ h.size - 1 := j2
      show Function.update (Function.update h.indices (h.order h.size) 1) (h.order 1) 0
        (Function.update h.order 1 (h.order h.size) j) = j
      by_cases hj : j = 1
      · subst hj
        rw [Function.update_same]
        have hne : h.order h.size ≠ h.order 1 := by
          intro e
          have a := h1 h.size hs (le_refl _)
          rw [e, h1 1 (le_refl _) hs] at a
          omega
        rw [Function.update_noteq hne, Function.update_same]
      · rw [Function.update_noteq hj]
        have a := h1 j j1 (by omega)
        have hne1 : h.order j ≠ h.order 1 := by
          intro e
          rw [e, h1 1 (le_refl _) hs] at a
          omega
        have hne2 : h.order j ≠ h.order h.size := by
          intro e
          rw [e, h1 h.size hs (le_refl _)] at a
          omega
        rw [Function.update_noteq hne1, Function.update_noteq hne2]
        exact a
    · intro w hwi
      have hwi' : Function.update (Function.update h.indices (h.order h.size) 1) (h.order 1) 0 w
          ≠ 0 := hwi
      show Function.update (Function.update h.indices (h.order h.size) 1) (h.order 1) 0 w
          ≤ h.size - 1
        ∧ Function.update h.order 1 (h.order h.size)
            (Function.update (Function.update h.indices (h.order h.size) 1) (h.order 1) 0 w) = w
      by_cases hw1 : w = h.order 1
      · rw [hw1, Function.update_same] at hwi'
        exact absurd rfl hwi'
      · rw [Function.update_noteq hw1] at hwi' ⊢
        by_cases hw2 : w = h.order h.size
        · rw [hw2, Function.update_same, Function.update_same]
          refine ⟨?_, rfl⟩
          by_contra hc
          have hs1 : h.size = 1 := by omega
          rw [hw2, hs1] at hw1
          exact hw1 rfl
        · rw [Function.update_noteq hw2] at hwi' ⊢
          obtain ⟨a1, a2⟩ := h2 w hwi'
          have hn1 : h.indices w ≠ 1 := by
            intro e
            rw [e] at a2
            exact hw1 a2.symm
          have hn2 : h.indices w ≠ h.size := by
            intro e
            rw [e] at a2
            exact hw2 a2.symm
          exact ⟨by omega, by rw [Function.update_noteq hn1]; exact a2⟩
  unfold get_min_element
  simp only
  by_cases hgt : h.size - 1 > 1
  · rw [if_pos hgt]
    exact percolate_down_wf score _ 1 hbase (le_refl _) (by show 1 ≤ h.size - 1; omega)
  · rw [if_neg hgt]
    exact hbase

/-! ### Backtracking and the invariants of the search -/

theorem backtrack_frame_refl (s : my_manager) : backtrack_frame s s :=
  ⟨rfl, rfl, rfl, rfl, rfl, rfl, rfl, rfl, rfl, rfl, rfl, rfl, rfl, rfl, rfl⟩

theorem backtrack_step_frame (s : my_manager) (stack : Nat) :
    backtrack_frame s (backtrack_step s stack) := by
  unfold backtrack_step backtrack_frame
  by_cases h : s.save_progress = 1
  · simp [h]
  · simp [h]

theorem backtrack_loop_frame :
    ∀ (n : Nat) (s : my_manager) (stack : Nat),
      backtrack_frame s (backtrack_loop n s stack) := by
  intro n
  induction n with
  | zero => intro s stack; exact backtrack_frame_refl s
  | succ n ih =>
    intro s stack
    rw [backtrack_loop]
    obtain ⟨a1, a2, a3, a4, a5, a6, a7, a8, a9, a10, a11, a12, a13, a14, a15⟩ :=
      backtrack_step_frame s stack
    obtain ⟨b1, b2, b3, b4, b5, b6, b7, b8, b9, b10, b11, b12, b13, b14, b15⟩ :=
      ih (backtrack_step s stack) (stack - 1)
    exact ⟨b1.trans a1, b2.trans a2, b3.trans a3, b4.trans a4, b5.trans a5, b6.trans a6,
      b7.trans a7, b8.trans a8, b9.trans a9, b10.trans a10, b11.trans a11, b12.trans a12,
      b13.trans a13, b14.trans a14, b15.trans a15⟩

/-- The variable heap through the loop of `backtrack`: it stays well formed,
gains only popped variables and loses none. -/
theorem backtrack_loop_heap :
    ∀ (n : Nat) (s : my_manager) (stack : Nat), n ≤ stack →
      heap_wf s.var_order_heap →
      heap_wf (backtrack_loop n s stack).var_order_heap
      ∧ (∀ w, heap_mem (backtrack_loop n s stack).var_order_heap w →
          heap_mem s.var_order_heap w
          ∨ ∃ p, stack - n ≤ p ∧ p < stack ∧ var (s.assign p) = w)
      ∧ (∀ w, s.var_order_heap.indices w ≠ 0 →
          (backtrack_loop n s stack).var_order_heap.indices w ≠ 0) := by
  intro n
  induction n with
  | zero =>
    intro s stack _ hw
    exact ⟨hw, fun w h => Or.inl h, fun w h => h⟩
  | succ n ih =>
    intro s stack hn hw
    rw [backtrack_loop]
    obtain ⟨e0, _, _, _, _, e4⟩ := backtrack_step_fields s stack
    have hw1 : heap_wf (backtrack_step s stack).var_order_heap := by
      rw [e4]; exact undo_wf _ _ _ hw
    obtain ⟨i1, i2, i3⟩ := ih (backtrack_step s stack) (stack - 1) (by omega) hw1
    refine ⟨i1, ?_, ?_⟩
    · intro w hm
      rcases i2 w hm with x | ⟨p, p1, p2, p3⟩
      · rw [e4] at x
        obtain ⟨_, u2, _, _⟩ := undo_mem s.score s.var_order_heap (var (s.assign (stack - 1)))
          (fun hi => (heap_wf_mem _ hw _).mpr hi)
        rcases (u2 w).mp x with y | y
        · exact Or.inl y
        · exact Or.inr ⟨stack - 1, by omega, by omega, y.symm⟩
      · rw [e0] at p3
        exact Or.inr ⟨p, by omega, by omega, p3⟩
    · intro w hi
      apply i3
      rw [e4]
      exact (undo_indices s.score s.var_order_heap _).2 w hi

/-- What `backtrack(dest)` does to a state of the search, for
`dest ≤ decision_level`. -/
theorem backtrack_spec (s : my_manager) (dest : Nat) (h2 : dest ≤ s.decision_level)
    (hmk : s.decision_lit dest ≤ s.assign_top ∧ ∀ p, p < s.assign_top →
      (s.decision_lit dest ≤ p ↔ dest ≤ s.level (var (s.assign p))))
    (ht : trail_inv s s.assign_top) (hh : heap_inv s) :
    backtrack_frame s (backtrack s dest)
    ∧ (backtrack s dest).assign_top = s.decision_lit dest
    ∧ (backtrack s dest).decision_level = dest - 1
    ∧ undone s (backtrack s dest) dest
    ∧ heap_inv (backtrack s dest) := by
  rw [backtrack_eq s dest h2]
  obtain ⟨m1, m2⟩ := hmk
  obtain ⟨t1, t2, t3⟩ := ht
  have hfr := backtrack_loop_frame (s.assign_top - s.decision_lit dest) s s.assign_top
  have hsub : s.assign_top - (s.assign_top - s.decision_lit dest) = s.decision_lit dest := by
    omega
  have hpop : ∀ v, v ≤ s.vc → s.status v ≠ 0 → dest ≤ s.level v →
      ∃ p, s.decision_lit dest ≤ p ∧ p < s.assign_top ∧ var (s.assign p) = v := by
    intro v hv hs hl
    obtain ⟨p, p1, p2⟩ := t2 v hv hs
    refine ⟨p, ?_, p1, p2⟩
    apply (m2 p p1).mpr
    rw [p2]; exact hl
  have hkeep : ∀ v, v ≤ s.vc → (s.status v = 0 ∨ s.level v < dest) →
      ∀ p, s.decision_lit dest ≤ p → p < s.assign_top → var (s.assign p) ≠ v := by
    intro v hv hs p p1 p2 e
    obtain ⟨a1, a2, _⟩ := t1 p p2
    have hlv := (m2 p p2).mp p1
    rw [e] at a2 hlv
    rcases hs with x | x
    · rw [x] at a2
      have := a1.1
      omega
    · omega
  have hund : undone s (backtrack_loop (s.assign_top - s.decision_lit dest) s s.assign_top)
      dest := by
    constructor
    · intro v hv hs hl
      obtain ⟨p, p1, p2, p3⟩ := hpop v hv hs hl
      obtain ⟨r1, r2, r3, _⟩ := backtrack_loop_popped (s.assign_top - s.decision_lit dest) s
        s.assign_top v (by omega) ⟨p, by omega, p2, p3⟩
      exact ⟨r1, r2, r3⟩
    · intro v hv hs
      exact backtrack_loop_untouched (s.assign_top - s.decision_lit dest) s s.assign_top v
        (by omega) (fun p p1 p2 => hkeep v hv hs p (by omega) p2)
  obtain ⟨w1, w2, w3⟩ := backtrack_loop_heap (s.assign_top - s.decision_lit dest) s
    s.assign_top (by omega) hh.1
  obtain ⟨f1, f2, f3, f4, f5, f6, f7, f8, f9, f10, f11, f12, f13, f14, f15⟩ := hfr
  refine ⟨⟨f1, f2, f3, f4, f5, f6, f7, f8, f9, f10, f11, f12, f13, f14, f15⟩, ?_, rfl, hund, ?_⟩
  · show (if s.assign_top > s.decision_lit dest then s.decision_lit dest else s.assign_top)
      = s.decision_lit dest
    split <;> omega
  · refine ⟨w1, ?_, ?_⟩
    · intro w hm
      show 1 ≤ w ∧ w ≤ (backtrack_loop (s.assign_top - s.decision_lit dest) s s.assign_top).vc
      rw [f1]
      rcases w2 w hm with x | ⟨p, p1, p2, p3⟩
      · exact hh.2.1 w x
      · rw [← p3]
        exact lit_ok_var s.vc _ (t1 p p2).1
    · intro v hv1 hv2 hs
      have hv2' : v ≤ s.vc := by rw [← f1]; exact hv2
      have hs' : (backtrack_loop (s.assign_top - s.decision_lit dest) s s.assign_top).status v
          = 0 := hs
      show (backtrack_loop (s.assign_top - s.decision_lit dest) s s.assign_top).var_order_heap.indices
        v ≠ 0
      by_cases hsv : s.status v = 0
      · exact w3 v (hh.2.2 v hv1 hv2' hsv)
      · by_cases hl : dest ≤ s.level v
        · obtain ⟨p, p1, p2, p3⟩ := hpop v hv2' hsv hl
          exact (backtrack_loop_popped (s.assign_top - s.decision_lit dest) s
            s.assign_top v (by omega) ⟨p, by omega, p2, p3⟩).2.2.2
        · have := (hund.2 v hv2' (Or.inr (by omega))).1
          rw [this] at hs'
          exact absurd hs' hsv

theorem undone_kept (s s1 : my_manager) (dest v : Nat) (hu : undone s s1 dest) (hv : v ≤ s.vc)
    (hs : s1.status v ≠ 0) :
    s.status v ≠ 0 ∧ s.level v < dest
    ∧ s1.status v = s.status v ∧ s1.level v = s.level v ∧ s1.reason v = s.reason v := by
  by_cases h0 : s.status v = 0
  · have := (hu.2 v hv (Or.inl h0)).1
    rw [h0] at this
    exact absurd this hs
  · by_cases hl : dest ≤ s.level v
    · exact absurd (hu.1 v hv h0 hl).1 hs
    · obtain ⟨a1, a2, a3⟩ := hu.2 v hv (Or.inr (by omega))
      exact ⟨h0, by omega, a1, a2, a3⟩

/-- The stack invariants after `backtrack(dest)`. -/
theorem undone_trail (s s1 : my_manager) (dest : Nat) (h1 : 2 ≤ dest)
    (h2 : dest ≤ s.decision_level) (ht : trail_inv s s.assign_top)
    (hm : trail_marks s s.assign_top) (hf : backtrack_frame s s1) (hu : undone s s1 dest)
    (htop : s1.assign_top = s.decision_lit dest) (hdl : s1.decision_level = dest - 1) :
    trail_inv s1 s1.assign_top ∧ trail_marks s1 s1.assign_top := by
  obtain ⟨f1, f2, f3, f4, f5, f6, f7, f8, f9, f10, f11, f12, f13, f14, f15⟩ := hf
  obtain ⟨t1, t2, t3⟩ := ht
  obtain ⟨m1, m2⟩ := hm dest h1 h2
  have hcp : clause_ptrs s1 = clause_ptrs s := by unfold clause_ptrs; rw [f3, f4]
  have hlow : ∀ p, p < s.decision_lit dest → p < s.assign_top
      ∧ s.level (var (s.assign p)) < dest := by
    intro p hp
    have hp' : p < s.assign_top := by omega
    refine ⟨hp', ?_⟩
    by_contra hc
    have := (m2 p hp').mpr (by omega)
    omega
  have hsame : ∀ p, p < s.decision_lit dest →
      s1.status (var (s.assign p)) = s.status (var (s.assign p))
      ∧ s1.level (var (s.assign p)) = s.level (var (s.assign p))
      ∧ s1.reason (var (s.assign p)) = s.reason (var (s.assign p)) := by
    intro p hp
    obtain ⟨a1, a2⟩ := hlow p hp
    exact hu.2 _ (lit_ok_var s.vc _ (t1 p a1).1).2 (Or.inr a2)
  constructor
  · rw [htop]
    refine ⟨?_, ?_, ?_⟩
    · intro p hp
      obtain ⟨hp', hlv⟩ := hlow p hp
      obtain ⟨a1, a2, a3, a4, a5, a6⟩ := t1 p hp'
      obtain ⟨e1, e2, e3⟩ := hsame p hp
      rw [f12, f1, e1, e2, e3, hdl]
      refine ⟨a1, a2, a3, by omega, ?_, ?_⟩
      · intro q hq
        rw [(hsame q (by omega)).2.1]
        exact a5 q hq
      · cases hr : s.reason (var (s.assign p)) with
        | none =>
          rw [hr] at a6
          simp only [reason_shape] at a6 ⊢
          rw [f12, e2]
          intro hl2 q hq
          rw [(hsame q (by omega)).2.1]
          exact a6 hl2 q hq
        | some r =>
          rw [hr] at a6
          simp only [reason_shape, on_trail] at a6 ⊢
          obtain ⟨r1, r2, r3⟩ := a6
          rw [hcp, f2, f12]
          refine ⟨r1, r2, ?_⟩
          intro x hx
          obtain ⟨x1, q, q1, q2⟩ := r3 x hx
          have := (hsame q (by omega)).1
          rw [q2] at this
          exact ⟨this.trans x1, q, q1, q2⟩
    · intro v hv hs
      rw [f1] at hv
      obtain ⟨k1, k2, k3, k4, k5⟩ := undone_kept s s1 dest v hu hv hs
      obtain ⟨p, p1, p2⟩ := t2 v hv k1
      refine ⟨p, ?_, by rw [f12]; exact p2⟩
      by_contra hc
      have := (m2 p p1).mp (by omega)
      rw [p2] at this
      omega
    · intro v hv hs
      rw [f1] at hv
      by_cases h0 : s.status v = 0
      · rw [(hu.2 v hv (Or.inl h0)).2.1]
        exact t3 v hv h0
      · by_cases hl : dest ≤ s.level v
        · exact (hu.1 v hv h0 hl).2.1
        · have := (hu.2 v hv (Or.inr (by omega))).1
          rw [hs] at this
          exact absurd this.symm h0
  · intro L hL1 hL2
    rw [hdl] at hL2
    obtain ⟨n1, n2⟩ := hm L hL1 (by omega)
    rw [htop, f9, f12]
    have hle : s.decision_lit L ≤ s.decision_lit dest := by
      by_cases he : s.decision_lit dest = s.assign_top
      · omega
      · have hp : s.decision_lit dest < s.assign_top := by omega
        have := (m2 _ hp).mp (le_refl _)
        exact (n2 _ hp).mpr (by omega)
    refine ⟨hle, ?_⟩
    intro p hp
    rw [(hsame p hp).2.1]
    exact n2 p (hlow p hp).1

/-- The invariant of `bcp` after `backtrack(dest)`, the queue being empty. -/
theorem undone_bcp_inv (s s1 : my_manager) (dest : Nat) (hinv : bcp_inv s)
    (hq : s.imp.size = 0) (hf : backtrack_frame s s1) (hu : undone s s1 dest) :
    bcp_inv s1 ∧ s1.imp.size = 0 := by
  obtain ⟨f1, f2, f3, f4, f5, f6, f7, f8, f9, f10, f11, f12, f13, f14, f15⟩ := hf
  obtain ⟨hkb, hst, hqo⟩ := hinv
  have hcp : clause_ptrs s1 = clause_ptrs s := by unfold clause_ptrs; rw [f3, f4]
  refine ⟨⟨?_, ?_, ?_⟩, by rw [f7]; exact hq⟩
  · unfold watched_inv
    rw [f1, hcp, f2, f6]
    exact hkb
  · intro v hv hs
    rw [f1] at hv
    obtain ⟨k1, _, k3, _, _⟩ := undone_kept s s1 dest v hu hv hs
    rw [k3]
    exact hst v hv k1
  · rw [f1, f7]
    refine ⟨?_, hqo.2⟩
    intro i i1 i2
    omega

/-- The level-aware two-watched invariant after `backtrack(dest)` from a
state in which it held below the level `L ≥ dest`. -/
theorem undone_twl (s s1 : my_manager) (dest L : Nat) (ptrs : List Nat)
    (hL : dest ≤ L) (hf : backtrack_frame s s1) (hu : undone s s1 dest)
    (hok : ∀ c ∈ ptrs, lit_ok s.vc ((s.cl c).lits.getD 0 0)
      ∧ lit_ok s.vc ((s.cl c).lits.getD 1 0))
    (ht : twl_low ptrs s.cl s.status s.level L) :
    twl_lv ptrs s1.cl s1.status s1.level s1.imp := by
  obtain ⟨f1, f2, f3, f4, f5, f6, f7, f8, f9, f10, f11, f12, f13, f14, f15⟩ := hf
  have key : ∀ x y : Nat, lit_ok s.vc x → lit_ok s.vc y →
      (s.status (var x) = neg x → s.level (var x) < L →
        s.status (var y) = y ∧ s.level (var y) ≤ s.level (var x)) →
      s1.status (var x) = neg x →
      heap_mem s1.imp (var x) ∨ (s1.status (var y) = y ∧ s1.level (var y) ≤ s1.level (var x)) := by
    intro x y hx hy hold hnew
    right
    have hxv := (lit_ok_var s.vc x hx).2
    have hyv := (lit_ok_var s.vc y hy).2
    have hnz : s1.status (var x) ≠ 0 := by
      rw [hnew]
      exact neg_ne_zero x hx.1
    obtain ⟨k1, k2, k3, k4, _⟩ := undone_kept s s1 dest (var x) hu hxv hnz
    obtain ⟨o1, o2⟩ := hold (by rw [← k3]; exact hnew) (by omega)
    have hy0 : s.status (var y) ≠ 0 := by
      rw [o1]
      have := hy.1
      omega
    obtain ⟨y1, y2, _⟩ := hu.2 (var y) hyv (Or.inr (by omega))
    rw [y1, y2, k4]
    exact ⟨o1, o2⟩
  intro c hc
  obtain ⟨t1, t2⟩ := ht c hc
  obtain ⟨z0, z1⟩ := hok c hc
  rw [f2]
  exact ⟨key _ _ z0 z1 t1, key _ _ z1 z0 t2⟩

/-! ### Variable selection -/

theorem select_variable_loop_spec :
    ∀ (f : Nat) (s : my_manager) (v : Nat) (s1 : my_manager),
      heap_wf s.var_order_heap →
      (∀ w, heap_mem s.var_order_heap w → 1 ≤ w ∧ w ≤ s.vc) →
      (∀ u, 1 ≤ u → u ≤ s.vc → s.status u = 0 → s.var_order_heap.indices u ≠ 0) →
      (∀ u, u ≤ s.vc → s.status u ≠ 0 → s.level u ≠ 0) →
      (∀ u, u ≤ s.vc → s.status u = 0 → s.level u = 0) →
      select_variable_loop f s = some (v, s1) →
      s1 = { s with var_order_heap := s1.var_order_heap }
      ∧ heap_wf s1.var_order_heap
      ∧ (∀ w, heap_mem s1.var_order_heap w → 1 ≤ w ∧ w ≤ s.vc)
      ∧ (v = 0 → ∀ u, 1 ≤ u → u ≤ s.vc → s.status u ≠ 0)
      ∧ (v ≠ 0 → 1 ≤ v ∧ v ≤ s.vc ∧ s.status v = 0
          ∧ ∀ u, 1 ≤ u → u ≤ s.vc → s.status u = 0 → u ≠ v →
              s1.var_order_heap.indices u ≠ 0) := by
  intro f
  induction f with
  | zero => intro s v s1 _ _ _ _ _ h; simp [select_variable_loop] at h
  | succ f ih =>
    intro s v s1 hw hr hu hl1 hl0 h
    rw [select_variable_loop] at h
    by_cases he : empty s.var_order_heap = true
    · rw [if_pos he] at h
      simp only [Option.some.injEq, Prod.mk.injEq] at h
      obtain ⟨e1, e2⟩ := h
      subst e1 e2
      have hsz : s.var_order_heap.size = 0 := by
        unfold empty at he
        simpa using he
      refine ⟨rfl, hw, hr, ?_, fun hv => absurd rfl hv⟩
      intro _ u u1 u2 hs
      have := (heap_wf_mem _ hw u).mpr (hu u u1 u2 hs)
      exact heap_mem_size _ _ this hsz
    · rw [if_neg he] at h
      have hsz : 1 ≤ s.var_order_heap.size := by
        unfold empty at he
        have : ¬ s.var_order_heap.size = 0 := by simpa using he
        omega
      obtain ⟨g1, g2, g3, g4, g5⟩ := get_min_element_mem s.score s.var_order_heap hsz
      have hw1 := get_min_element_wf s.score s.var_order_heap hw hsz
      have hmin : heap_mem s.var_order_heap (get_min_element s.score s.var_order_heap).1 := by
        rw [g1]
        exact ⟨1, by omega, le_refl _, rfl⟩
      simp only at h
      by_cases hlv : s.level (get_min_element s.score s.var_order_heap).1 = 0
      · rw [if_pos hlv] at h
        simp only [Option.some.injEq, Prod.mk.injEq] at h
        obtain ⟨e1, e2⟩ := h
        subst e1 e2
        obtain ⟨r1, r2⟩ := hr _ hmin
        refine ⟨rfl, hw1, fun w hm => hr w (g3 w hm), fun hv => by omega, fun _ => ?_⟩
        refine ⟨r1, r2, ?_, ?_⟩
        · by_contra hc
          exact hl1 _ r2 hc hlv
        · intro u u1 u2 hs hne
          have hm := (heap_wf_mem _ hw u).mpr (hu u u1 u2 hs)
          rcases g4 u hm with x | x
          · rw [← g1] at x
            exact absurd x hne
          · exact (heap_wf_mem _ hw1 u).mp x
      · rw [if_neg hlv] at h
        obtain ⟨i1, i2, i3, i4, i5⟩ := ih
          { s with var_order_heap := (get_min_element s.score s.var_order_heap).2 } v s1 hw1 (fun w hm => hr w (g3 w hm))
          (by
            intro u u1 u2 hs
            have hm := (heap_wf_mem _ hw u).mpr (hu u u1 u2 hs)
            rcases g4 u hm with x | x
            · exfalso
              have : s.level u = 0 := hl0 u u2 hs
              rw [x, ← g1] at this
              exact hlv this
            · exact (heap_wf_mem _ hw1 u).mp x)
          hl1 hl0 h
        refine ⟨?_, i2, i3, i4, i5⟩
        rw [i1]

theorem select_variable_spec (s : my_manager) (v : Nat) (s1 : my_manager)
    (hh : heap_inv s)
    (hl1 : ∀ u, u ≤ s.vc → s.status u ≠ 0 → s.level u ≠ 0)
    (hl0 : ∀ u, u ≤ s.vc → s.status u = 0 → s.level u = 0)
    (h : select_variable s = some (v, s1)) :
    s1 = { s with var_order_heap := s1.var_order_heap }
    ∧ heap_wf s1.var_order_heap
    ∧ (∀ w, heap_mem s1.var_order_heap w → 1 ≤ w ∧ w ≤ s.vc)
    ∧ (v = 0 → ∀ u, 1 ≤ u → u ≤ s.vc → s.status u ≠ 0)
    ∧ (v ≠ 0 → 1 ≤ v ∧ v ≤ s.vc ∧ s.status v = 0
        ∧ ∀ u, 1 ≤ u → u ≤ s.vc → s.status u = 0 → u ≠ v →
            s1.var_order_heap.indices u ≠ 0) :=
  select_variable_loop_spec _ s v s1 hh.1 hh.2.1 hh.2.2 hl1 hl0 h

/-! ### Truth assignments -/

theorem lit_val_neg (M : Nat → Bool) (x : Nat) : lit_val M (neg x) = !lit_val M x := by
  unfold lit_val
  rw [var_neg, sign_eq, sign_eq, neg_eq]
  rcases Nat.mod_two_eq_zero_or_one x with h | h
  · rw [if_pos h]
    have h1 : (x + 1) % 2 ≠ 0 := by omega
    rw [if_neg h1, if_pos h]
  · have h0 : ¬ x % 2 = 0 := by omega
    rw [if_neg h0]
    have h1 : (x - 1) % 2 = 0 := by omega
    rw [if_pos h1, if_neg h0]
    simp

theorem neg_inj (x y : Nat) (h : neg x = neg y) : x = y := by
  have := congrArg neg h
  rw [neg_neg, neg_neg] at this
  exact this

/-- A false literal of a variable on the stack is the negation of the entry. -/
theorem false_lit_entry (s : my_manager) (x p : Nat)
    (hs : s.status (var (s.assign p)) = s.assign p) (hx : s.status (var x) = neg x)
    (hv : var (s.assign p) = var x) : s.assign p = neg x := by
  rw [hv] at hs
  rw [← hs, hx]

/-! ### Conflict analysis: what the learned clause says -/

theorem dcc_scan_sound (P : (Nat → Bool) → Prop) (s : my_manager) (clevel n : Nat)
    (hinv : analysis_inv s clevel) (hv : trail_valid P s) (hn : n ≤ s.assign_top) :
    ∀ (lits : List Nat) (st : dcc_state),
      (∀ x ∈ lits, s.status (var x) = neg x ∧ on_trail s (var x) n) →
      dcc_inv s clevel n st → dcc_marks s clevel n st →
      dcc_marks s clevel n (dcc_scan clevel lits st)
      ∧ ∀ M, P M → (dcc_val s clevel n st M ∨ ∃ x ∈ lits, lit_val M x = true) →
          dcc_val s clevel n (dcc_scan clevel lits st) M := by
  intro lits
  induction lits with
  | nil =>
    intro st _ _ hm
    refine ⟨hm, ?_⟩
    intro M _ h
    rcases h with h | ⟨x, hx, _⟩
    · exact h
    · simp at hx
  | cons cur rest ih =>
    intro st hl hj hm
    obtain ⟨hcur1, q, q1, q2⟩ := hl cur (List.mem_cons_self _ _)
    have hrest : ∀ x ∈ rest, s.status (var x) = neg x ∧ on_trail s (var x) n :=
      fun x hx => hl x (List.mem_cons_of_mem _ hx)
    have hentry : s.assign q = neg cur :=
      false_lit_entry s cur q (hv.1 q (by omega)) hcur1 q2
    obtain ⟨hfr, hnum, hidx, hcdc⟩ := hj
    obtain ⟨e1, e2, e3, e4, e5, e6, e7⟩ := hfr
    obtain ⟨m1, m2, m3⟩ := hm
    rw [dcc_scan]
    simp only [e1]
    by_cases hc : st.seen (var cur) = false ∧ s.level (var cur) > 1
    · rw [if_pos hc]
      obtain ⟨hf0, g1, g2⟩ := increment_literal_score_frame st.m cur
      have hfr1 : dcc_frame s (increment_literal_score st.m cur) := by
        obtain ⟨f1, f2, f3, f4, f5, f6, f7⟩ := hf0
        exact ⟨f1.trans e1, f2.trans e2, f3.trans e3, f4.trans e4, f5.trans e5,
          f6.trans e6, f7.trans e7⟩
      by_cases hlv : s.level (var cur) = clevel
      · rw [if_pos hlv]
        -- a new mark of the level `clevel`
        have hj1 : dcc_inv s clevel n
            { m := increment_literal_score st.m cur,
              seen := Function.update st.seen (var cur) true,
              num_lits_at_clevel := st.num_lits_at_clevel + 1 } := by
          refine ⟨hfr1, ?_, ?_, ?_⟩
          · show st.num_lits_at_clevel + 1 = _
            rw [hnum, seen_count_mark s clevel n (var cur) st.seen hinv hn ⟨q, q1, q2⟩ hc.1 hlv]
            push_cast
            rfl
          · show 1 ≤ (increment_literal_score st.m cur).cdc_index
            rw [g2]; exact hidx
          · intro i i1 i2
            show cdc_lit_ok s clevel ((increment_literal_score st.m cur).cdc i)
            rw [g1]
            exact hcdc i i1 (by rw [← g2]; exact i2)
        have hm1 : dcc_marks s clevel n
            { m := increment_literal_score st.m cur,
              seen := Function.update st.seen (var cur) true,
              num_lits_at_clevel := st.num_lits_at_clevel + 1 } := by
          refine ⟨?_, ?_, ?_⟩
          · intro i i1 i2
            show Function.update st.seen (var cur) true
              (var ((increment_literal_score st.m cur).cdc i)) = true
            rw [g1]
            have i2' : i < st.m.cdc_index := by rw [← g2]; exact i2
            by_cases e : var (st.m.cdc i) = var cur
            · rw [e, Function.update_same]
            · rw [Function.update_noteq e]
              exact m1 i i1 i2'
          · intro i j i1 ij j2
            show var ((increment_literal_score st.m cur).cdc i)
              ≠ var ((increment_literal_score st.m cur).cdc j)
            rw [g1]
            exact m2 i j i1 ij (by rw [← g2]; exact j2)
          · intro v hsv
            have hsv' : Function.update st.seen (var cur) true v = true := hsv
            by_cases e : v = var cur
            · left
              rw [e]
              exact ⟨hlv, q, q1, q2⟩
            · rw [Function.update_noteq e] at hsv'
              rcases m3 v hsv' with x | ⟨i, i1, i2, i3⟩
              · exact Or.inl x
              · right
                refine ⟨i, i1, ?_, ?_⟩
                · show i < (increment_literal_score st.m cur).cdc_index
                  rw [g2]; exact i2
                · show var ((increment_literal_score st.m cur).cdc i) = v
                  rw [g1]; exact i3
        obtain ⟨r1, r2⟩ := ih _ hrest hj1 hm1
        refine ⟨r1, ?_⟩
        intro M hM h
        apply r2 M hM
        rcases h with h | ⟨x, hx, hxv⟩
        · left
          rcases h with ⟨i, i1, i2, i3⟩ | ⟨p, p1, p2, p3, p4⟩
          · left
            refine ⟨i, i1, ?_, ?_⟩
            · show i < (increment_literal_score st.m cur).cdc_index
              rw [g2]; exact i2
            · show lit_val M ((increment_literal_score st.m cur).cdc i) = true
              rw [g1]; exact i3
          · right
            refine ⟨p, p1, ?_, p3, p4⟩
            show Function.update st.seen (var cur) true (var (s.assign p)) = true
            by_cases e : var (s.assign p) = var cur
            · rw [e, Function.update_same]
            · rw [Function.update_noteq e]; exact p2
        · rcases List.mem_cons.mp hx with e | e
          · left
            right
            refine ⟨q, q1, ?_, by rw [q2]; exact hlv, ?_⟩
            · show Function.update st.seen (var cur) true (var (s.assign q)) = true
              rw [q2, Function.update_same]
            · rw [hentry, lit_val_neg, ← e, hxv]
              rfl
          · exact Or.inr ⟨x, e, hxv⟩
      · rw [if_neg hlv]
        -- a new literal of the clause
        have hlt : s.level (var cur) < clevel := by
          have := (hinv q (by omega)).2.1
          rw [q2] at this
          omega
        have hj1 : dcc_inv s clevel n
            { m := { increment_literal_score st.m cur with
                cdc := (Function.update (increment_literal_score st.m cur).cdc
                  (increment_literal_score st.m cur).cdc_index cur),
                cdc_index := (increment_literal_score st.m cur).cdc_index + 1 },
              seen := Function.update st.seen (var cur) true,
              num_lits_at_clevel := st.num_lits_at_clevel } := by
          have hfr2 : dcc_frame s { increment_literal_score st.m cur with
                cdc := (Function.update (increment_literal_score st.m cur).cdc
                  (increment_literal_score st.m cur).cdc_index cur),
                cdc_index := (increment_literal_score st.m cur).cdc_index + 1 } := by
            unfold dcc_frame at hfr1 ⊢
            dsimp only
            exact hfr1
          refine ⟨hfr2, ?_, ?_, ?_⟩
          · show st.num_lits_at_clevel = _
            rw [hnum, seen_count_mark_other s clevel n (var cur) st.seen true hlv]
          · show 1 ≤ (increment_literal_score st.m cur).cdc_index + 1
            omega
          · intro i i1 i2
            have i2' : i < st.m.cdc_index + 1 := by rw [← g2]; exact i2
            show cdc_lit_ok s clevel (Function.update (increment_literal_score st.m cur).cdc
              (increment_literal_score st.m cur).cdc_index cur i)
            rw [g1, g2]
            by_cases e : i = st.m.cdc_index
            · rw [e, Function.update_same]
              exact ⟨hcur1, hc.2, hlt, on_trail_mono s _ n _ ⟨q, q1, q2⟩ hn⟩
            · rw [Function.update_noteq e]
              exact hcdc i i1 (by omega)
        have hm1 : dcc_marks s clevel n
            { m := { increment_literal_score st.m cur with
                cdc := (Function.update (increment_literal_score st.m cur).cdc
                  (increment_literal_score st.m cur).cdc_index cur),
                cdc_index := (increment_literal_score st.m cur).cdc_index + 1 },
              seen := Function.update st.seen (var cur) true,
              num_lits_at_clevel := st.num_lits_at_clevel } := by
          refine ⟨?_, ?_, ?_⟩
          · intro i i1 i2
            have i2' : i < st.m.cdc_index + 1 := by rw [← g2]; exact i2
            show Function.update st.seen (var cur) true
              (var (Function.update (increment_literal_score st.m cur).cdc
                (increment_literal_score st.m cur).cdc_index cur i)) = true
            rw [g1, g2]
            by_cases e : i = st.m.cdc_index
            · rw [e, Function.update_same, Function.update_same]
            · rw [Function.update_noteq e]
              by_cases e2 : var (st.m.cdc i) = var cur
              · rw [e2, Function.update_same]
              · rw [Function.update_noteq e2]
                exact m1 i i1 (by omega)
          · intro i j i1 ij j2
            have j2' : j < st.m.cdc_index + 1 := by rw [← g2]; exact j2
            show var (Function.update (increment_literal_score st.m cur).cdc
                (increment_literal_score st.m cur).cdc_index cur i)
              ≠ var (Function.update (increment_literal_score st.m cur).cdc
                (increment_literal_score st.m cur).cdc_index cur j)
            rw [g1, g2, Function.update_noteq (by omega : i ≠ st.m.cdc_index)]
            by_cases e : j = st.m.cdc_index
            · rw [e, Function.update_same]
              intro hcon
              have := m1 i i1 (by omega)
              rw [hcon, hc.1] at this
              exact absurd this (by decide)
            · rw [Function.update_noteq e]
              exact m2 i j i1 ij (by omega)
          · intro v hsv
            have hsv' : Function.update st.seen (var cur) true v = true := hsv
            by_cases e : v = var cur
            · right
              refine ⟨st.m.cdc_index, hidx, ?_, ?_⟩
              · show st.m.cdc_index < (increment_literal_score st.m cur).cdc_index + 1
                rw [g2]; omega
              · show var (Function.update (increment_literal_score st.m cur).cdc
                  (increment_literal_score st.m cur).cdc_index cur st.m.cdc_index) = v
                rw [g1, g2, Function.update_same, e]
            · rw [Function.update_noteq e] at hsv'
              rcases m3 v hsv' with x | ⟨i, i1, i2, i3⟩
              · exact Or.inl x
              · right
                refine ⟨i, i1, ?_, ?_⟩
                · show i < (increment_literal_score st.m cur).cdc_index + 1
                  rw [g2]; omega
                · show var (Function.update (increment_literal_score st.m cur).cdc
                    (increment_literal_score st.m cur).cdc_index cur i) = v
                  rw [g1, g2, Function.update_noteq (by omega : i ≠ st.m.cdc_index)]
                  exact i3
        obtain ⟨r1, r2⟩ := ih _ hrest hj1 hm1
        refine ⟨r1, ?_⟩
        intro M hM h
        apply r2 M hM
        rcases h with h | ⟨x, hx, hxv⟩
        · left
          rcases h with ⟨i, i1, i2, i3⟩ | ⟨p, p1, p2, p3, p4⟩
          · left
            refine ⟨i, i1, ?_, ?_⟩
            · show i < (increment_literal_score st.m cur).cdc_index + 1
              rw [g2]; omega
            · show lit_val M (Function.update (increment_literal_score st.m cur).cdc
                (increment_literal_score st.m cur).cdc_index cur i) = true
              rw [g1, g2, Function.update_noteq (by omega : i ≠ st.m.cdc_index)]
              exact i3
          · right
            refine ⟨p, p1, ?_, p3, p4⟩
            show Function.update st.seen (var cur) true (var (s.assign p)) = true
            by_cases e : var (s.assign p) = var cur
            · rw [e, Function.update_same]
            · rw [Function.update_noteq e]; exact p2
        · rcases List.mem_cons.mp hx with e | e
          · left
            left
            refine ⟨st.m.cdc_index, hidx, ?_, ?_⟩
            · show st.m.cdc_index < (increment_literal_score st.m cur).cdc_index + 1
              rw [g2]; omega
            · show lit_val M (Function.update (increment_literal_score st.m cur).cdc
                (increment_literal_score st.m cur).cdc_index cur st.m.cdc_index) = true
              rw [g1, g2, Function.update_same, ← e]
              exact hxv
          · exact Or.inr ⟨x, e, hxv⟩
    · rw [if_neg hc]
      obtain ⟨r1, r2⟩ := ih st hrest ⟨⟨e1, e2, e3, e4, e5, e6, e7⟩, hnum, hidx, hcdc⟩
        ⟨m1, m2, m3⟩
      refine ⟨r1, ?_⟩
      intro M hM h
      apply r2 M hM
      rcases h with h | ⟨x, hx, hxv⟩
      · exact Or.inl h
      · rcases List.mem_cons.mp hx with e | e
        · left
          rw [e] at hxv
          by_cases hseen : st.seen (var cur) = true
          · rcases m3 _ hseen with ⟨y1, p, p1, p2⟩ | ⟨i, i1, i2, i3⟩
            · right
              have hpe : s.assign p = neg cur :=
                false_lit_entry s cur p (hv.1 p (by omega)) hcur1 p2
              refine ⟨p, p1, by rw [p2]; exact hseen, by rw [p2]; exact y1, ?_⟩
              rw [hpe, lit_val_neg, hxv]
              rfl
            · left
              refine ⟨i, i1, i2, ?_⟩
              have hf := (hcdc i i1 i2).1
              rw [i3, hcur1] at hf
              have : st.m.cdc i = cur := neg_inj _ _ hf.symm
              rw [this]
              exact hxv
          · exfalso
            have hs0 : st.seen (var cur) = false := by
              cases hh : st.seen (var cur) with
              | true => exact absurd hh hseen
              | false => rfl
            have hle : s.level (var cur) ≤ 1 := by
              by_contra hgt
              exact hc ⟨hs0, by omega⟩
            have := hv.2.2 q (by omega) (by rw [q2]; exact hle) M hM
            rw [hentry, lit_val_neg, hxv] at this
            exact absurd this (by decide)
        · exact Or.inr ⟨x, e, hxv⟩

theorem mem_head_or_drop (l : List Nat) (x : Nat) (h : x ∈ l) :
    x = l.getD 0 0 ∨ x ∈ l.drop 1 := by
  cases l with
  | nil => simp at h
  | cons a t =>
    rcases List.mem_cons.mp h with e | e
    · left; rw [e]; rfl
    · right; simpa using e

theorem dcc_loop_sound (P : (Nat → Bool) → Prop) (s : my_manager) (clevel : Nat)
    (hinv : analysis_inv s clevel) (hv : trail_valid P s) :
    ∀ (fuel c next_lit n : Nat) (st st1 : dcc_state) (nl : Nat),
      n ≤ s.assign_top → dcc_inv s clevel n st → dcc_marks s clevel n st →
      (∀ x ∈ (s.cl c).lits.drop (if next_lit = 0 then 0 else 1),
        s.status (var x) = neg x ∧ on_trail s (var x) n) →
      0 < (dcc_scan clevel ((s.cl c).lits.drop (if next_lit = 0 then 0 else 1))
            st).num_lits_at_clevel →
      (∀ M, P M → dcc_val s clevel n st M
        ∨ ∃ x ∈ (s.cl c).lits.drop (if next_lit = 0 then 0 else 1), lit_val M x = true) →
      dcc_loop clevel fuel (some c) next_lit n st = some (st1, nl) →
      (∀ i, 1 ≤ i → i < st1.m.cdc_index → st1.seen (var (st1.m.cdc i)) = true)
      ∧ (∀ i j, 1 ≤ i → i < j → j < st1.m.cdc_index →
          var (st1.m.cdc i) ≠ var (st1.m.cdc j))
      ∧ (∀ v, st1.seen v = true → ∃ i, 1 ≤ i ∧ i < st1.m.cdc_index ∧ var (st1.m.cdc i) = v)
      ∧ (∀ M, P M → (∃ i, 1 ≤ i ∧ i < st1.m.cdc_index ∧ lit_val M (st1.m.cdc i) = true)
          ∨ lit_val M nl = false) := by
  intro fuel
  induction fuel with
  | zero =>
    intro c next_lit n st st1 nl _ _ _ _ _ _ h
    simp [dcc_loop] at h
  | succ f ih =>
    intro c next_lit n st st1 nl hn hj hm hlits hpos hval h
    have hcl : st.m.cl = s.cl := hj.1.2.2.2.2.1
    obtain ⟨j1, _, _, _⟩ := dcc_scan_spec s clevel n hinv hn _ st hlits hj
    obtain ⟨k0, kv⟩ := dcc_scan_sound P s clevel n hinv hv hn _ st hlits hj hm
    rw [dcc_loop] at h
    simp only [hcl] at h
    have hval1 : ∀ M, P M → dcc_val s clevel n
        (dcc_scan clevel ((s.cl c).lits.drop (if next_lit = 0 then 0 else 1)) st) M :=
      fun M hM => kv M hM (hval M hM)
    generalize dcc_scan clevel ((s.cl c).lits.drop (if next_lit = 0 then 0 else 1)) st = st1'
      at j1 hpos k0 hval1 h
    obtain ⟨hfr1, hnum1, hidx1, hcdc1⟩ := j1
    obtain ⟨e1, e2, e3, e4, e5, e6, e7⟩ := hfr1
    obtain ⟨m1, m2, m3⟩ := k0
    have hcpos : 0 < seen_count s clevel st1'.seen n := by
      rw [hnum1] at hpos
      exact_mod_cast hpos
    obtain ⟨q, q1, q2, q3⟩ := seen_count_pos s clevel n st1'.seen hcpos
    obtain ⟨k, k1, k2, k3, k4⟩ := dcc_walk_spec s.assign st1'.seen n ⟨q, q1, q2⟩
    have hlevk : s.level (var (s.assign k)) = clevel := by
      have hqk : q ≤ k := by
        by_contra hlt
        rw [k4 q (by omega) q1] at q2
        exact absurd q2 (by decide)
      have hle := (hinv k (by omega)).2.1
      rcases Nat.lt_or_ge q k with h | h
      · have := ((hinv k (by omega)).2.2.1 q h).2
        omega
      · have : q = k := by omega
        rw [← this]
        exact q3
    have hcw := seen_count_walk s clevel n k st1'.seen hinv hn k2 k3 hlevk k4
    have hok := (hinv k (by omega)).1
    have hne0 : s.assign k ≠ 0 := by
      have := hok.1
      omega
    rw [e4, k1] at h
    simp only [e3] at h
    have hnum2 : st1'.num_lits_at_clevel - 1
        = (seen_count s clevel (Function.update st1'.seen (var (s.assign k)) false) k : Int) := by
      rw [hnum1, hcw]
      push_cast
      omega
    -- the variable resolved on is not one of `cdc`
    have hnotcdc : ∀ i, 1 ≤ i → i < st1'.m.cdc_index → var (st1'.m.cdc i) ≠ var (s.assign k) := by
      intro i i1 i2 e
      have := (hcdc1 i i1 i2).2.2.1
      rw [e, hlevk] at this
      omega
    -- the position of a variable on the stack
    have hpos_eq : ∀ p, p < s.assign_top → var (s.assign p) = var (s.assign k) → p = k := by
      intro p hp e
      by_contra hne
      rcases Nat.lt_or_ge p k with hlt | hge
      · exact ((hinv k (by omega)).2.2.1 p hlt).1 e
      · exact ((hinv p hp).2.2.1 k (by omega)).1 e.symm
    -- the marks after the mark of the entry `k` is cleared
    have hmarks2 : ∀ (m2 : my_manager), m2.cdc = st1'.m.cdc → m2.cdc_index = st1'.m.cdc_index →
        dcc_marks s clevel k
          { m := m2, seen := Function.update st1'.seen (var (s.assign k)) false,
            num_lits_at_clevel := st1'.num_lits_at_clevel - 1 } := by
      intro m2' g2 g3
      refine ⟨?_, ?_, ?_⟩
      · intro i i1 i2
        show Function.update st1'.seen (var (s.assign k)) false (var (m2'.cdc i)) = true
        have i2' : i < st1'.m.cdc_index := by rw [← g3]; exact i2
        rw [g2, Function.update_noteq (hnotcdc i i1 i2')]
        exact m1 i i1 i2'
      · intro i j i1 ij j2
        show var (m2'.cdc i) ≠ var (m2'.cdc j)
        rw [g2]
        exact m2 i j i1 ij (by rw [← g3]; exact j2)
      · intro v hsv
        have hsv' : Function.update st1'.seen (var (s.assign k)) false v = true := hsv
        have hvk : v ≠ var (s.assign k) := by
          intro e
          rw [e, Function.update_same] at hsv'
          exact absurd hsv' (by decide)
        rw [Function.update_noteq hvk] at hsv'
        rcases m3 v hsv' with ⟨y1, p, p1, p2⟩ | ⟨i, i1, i2, i3⟩
        · left
          refine ⟨y1, p, ?_, p2⟩
          by_contra hge
          have hpk : p ≠ k := by
            intro e
            rw [e] at p2
            exact hvk p2.symm
          have := k4 p (by omega) p1
          rw [p2, hsv'] at this
          exact absurd this (by decide)
        · right
          refine ⟨i, i1, ?_, ?_⟩
          · show i < m2'.cdc_index
            rw [g3]; exact i2
          · show var (m2'.cdc i) = v
            rw [g2]; exact i3
    -- the clause after the resolution step
    have hval2 : ∀ (m2 : my_manager), m2.cdc = st1'.m.cdc → m2.cdc_index = st1'.m.cdc_index →
        ∀ M, P M → dcc_val s clevel k
          { m := m2, seen := Function.update st1'.seen (var (s.assign k)) false,
            num_lits_at_clevel := st1'.num_lits_at_clevel - 1 } M
          ∨ lit_val M (s.assign k) = false := by
      intro m2' g2 g3 M hM
      rcases hval1 M hM with ⟨i, i1, i2, i3⟩ | ⟨p, p1, p2, p3, p4⟩
      · left
        left
        refine ⟨i, i1, ?_, ?_⟩
        · show i < m2'.cdc_index
          rw [g3]; exact i2
        · show lit_val M (m2'.cdc i) = true
          rw [g2]; exact i3
      · by_cases hpk : p = k
        · right
          rw [← hpk]; exact p4
        · left
          right
          have hplt : p < k := by
            by_contra hge
            have := k4 p (by omega) p1
            rw [p2] at this
            exact absurd this (by decide)
          refine ⟨p, hplt, ?_, p3, p4⟩
          show Function.update st1'.seen (var (s.assign k)) false (var (s.assign p)) = true
          have hvne : var (s.assign p) ≠ var (s.assign k) :=
            fun e => hpk (hpos_eq p (by omega) e)
          rw [Function.update_noteq hvne]
          exact p2
    -- leaving the loop
    have hexit : ∀ (m2 : my_manager), m2.cdc = st1'.m.cdc → m2.cdc_index = st1'.m.cdc_index →
        ¬ (st1'.num_lits_at_clevel - 1 > 0) →
        (∀ i, 1 ≤ i → i < m2.cdc_index →
          Function.update st1'.seen (var (s.assign k)) false (var (m2.cdc i)) = true)
        ∧ (∀ i j, 1 ≤ i → i < j → j < m2.cdc_index → var (m2.cdc i) ≠ var (m2.cdc j))
        ∧ (∀ v, Function.update st1'.seen (var (s.assign k)) false v = true →
            ∃ i, 1 ≤ i ∧ i < m2.cdc_index ∧ var (m2.cdc i) = v)
        ∧ (∀ M, P M → (∃ i, 1 ≤ i ∧ i < m2.cdc_index ∧ lit_val M (m2.cdc i) = true)
            ∨ lit_val M (s.assign k) = false) := by
      intro m2' g2 g3 hnot
      obtain ⟨x1, x2, x3⟩ := hmarks2 m2' g2 g3
      have hz : seen_count s clevel (Function.update st1'.seen (var (s.assign k)) false) k = 0 := by
        have : ¬ ((seen_count s clevel (Function.update st1'.seen (var (s.assign k)) false) k
            : Int) > 0) := by rw [← hnum2]; exact hnot
        omega
      have hnone : ∀ p, p < k →
          Function.update st1'.seen (var (s.assign k)) false (var (s.assign p)) = true →
          s.level (var (s.assign p)) = clevel → False := by
        intro p hp hs hl
        have := seen_count_of_mem s clevel k p _ hp hs hl
        omega
      refine ⟨x1, x2, ?_, ?_⟩
      · intro v hsv
        rcases x3 v hsv with ⟨y1, p, p1, p2⟩ | y
        · exfalso
          exact hnone p p1 (by rw [p2]; exact hsv) (by rw [p2]; exact y1)
        · exact y
      · intro M hM
        rcases hval2 m2' g2 g3 M hM with (y | ⟨p, p1, p2, p3, _⟩) | y
        · exact Or.inl y
        · exact absurd (hnone p p1 p2 p3) (fun x => x)
        · exact Or.inr y
    cases hr : s.reason (var (s.assign k)) with
    | none =>
      rw [hr] at h
      simp only at h
      have hz : seen_count s clevel (Function.update st1'.seen (var (s.assign k)) false) k = 0 := by
        apply seen_count_zero
        have := (hinv k (by omega)).2.2.2
        rw [hr] at this
        exact this hlevk
      have hnot : ¬ (st1'.num_lits_at_clevel - 1 > 0) := by
        rw [hnum2, hz]
        simp
      rw [if_neg hnot] at h
      simp only [Option.some.injEq, Prod.mk.injEq] at h
      obtain ⟨h1, h2⟩ := h
      subst h1 h2
      exact hexit st1'.m rfl rfl hnot
    | some r =>
      rw [hr] at h
      simp only at h
      have hrk := (hinv k (by omega)).2.2.2
      rw [hr] at hrk
      have hrk' : ∀ x ∈ (s.cl r).lits.drop 1,
          s.status (var x) = neg x ∧ on_trail s (var x) k := hrk
      have hm2 : ∀ m2 : my_manager,
          m2 = (if (st1'.m.cl r).index ≥ 0 then increment_clause_score st1'.m r else st1'.m) →
          dcc_frame s m2 ∧ m2.cdc = st1'.m.cdc ∧ m2.cdc_index = st1'.m.cdc_index := by
        intro m2 hm
        by_cases hi : (st1'.m.cl r).index ≥ 0
        · rw [if_pos hi] at hm
          obtain ⟨⟨a1, a2, a3, a4, a5, a6, a7⟩, b1, b2⟩ := increment_clause_score_frame st1'.m r
          rw [hm]
          exact ⟨⟨a1.trans e1, a2.trans e2, a3.trans e3, a4.trans e4, a5.trans e5,
            a6.trans e6, a7.trans e7⟩, b1, b2⟩
        · rw [if_neg hi] at hm
          rw [hm]
          exact ⟨⟨e1, e2, e3, e4, e5, e6, e7⟩, rfl, rfl⟩
      generalize hm2e : (if (st1'.m.cl r).index ≥ 0 then increment_clause_score st1'.m r
        else st1'.m) = m2v at h
      obtain ⟨g1, g2, g3⟩ := hm2 m2v hm2e.symm
      have hj2 : dcc_inv s clevel k
          { m := m2v, seen := Function.update st1'.seen (var (s.assign k)) false,
            num_lits_at_clevel := st1'.num_lits_at_clevel - 1 } := by
        refine ⟨g1, hnum2, ?_, ?_⟩
        · show 1 ≤ m2v.cdc_index
          rw [g3]
          exact hidx1
        · intro i hi1 hi2
          show cdc_lit_ok s clevel (m2v.cdc i)
          rw [g2]
          exact hcdc1 i hi1 (by rw [← g3]; exact hi2)
      by_cases hgt : st1'.num_lits_at_clevel - 1 > 0
      · rw [if_pos hgt] at h
        have hbeg : (if s.assign k = 0 then 0 else 1) = 1 := by rw [if_neg hne0]
        apply ih r (s.assign k) k _ st1 nl (by omega) hj2 (hmarks2 m2v g2 g3) _ _ _ h
        · rw [hbeg]
          exact hrk'
        · rw [hbeg]
          obtain ⟨_, m, _, _⟩ := dcc_scan_spec s clevel k hinv (by omega) _ _ hrk' hj2
          exact lt_of_lt_of_le hgt m
        · rw [hbeg]
          intro M hM
          rcases hval2 m2v g2 g3 M hM with y | y
          · exact Or.inl y
          · right
            obtain ⟨r1, r2⟩ := hv.2.1 k (by omega) r hr
            obtain ⟨x, hx, hxv⟩ := r2 M hM
            rcases mem_head_or_drop _ x hx with e | e
            · rw [e, r1, y] at hxv
              exact absurd hxv (by decide)
            · exact ⟨x, e, hxv⟩
      · rw [if_neg hgt] at h
        simp only [Option.some.injEq, Prod.mk.injEq] at h
        obtain ⟨h1, h2⟩ := h
        subst h1 h2
        exact hexit m2v g2 g3 hgt

/-! ### Conflict analysis: the marks of `removable` -/

theorem clear_seen_eq : ∀ (save : List Nat) (seen : Nat → Bool) (v : Nat),
    clear_seen seen save v = (if v ∈ save then false else seen v) := by
  intro save
  induction save with
  | nil => intro seen v; simp [clear_seen]
  | cons a t ih =>
    intro seen v
    rw [clear_seen, ih]
    by_cases hv : v ∈ t
    · rw [if_pos hv, if_pos (List.mem_cons_of_mem _ hv)]
    · rw [if_neg hv]
      by_cases hva : v = a
      · rw [if_pos (by rw [hva]; exact List.mem_cons_self _ _), hva, Function.update_same]
      · rw [Function.update_noteq hva, if_neg]
        intro hm
        rcases List.mem_cons.mp hm with e | e
        · exact hva e
        · exact hv e

theorem clear_seen_save (seen0 seen : Nat → Bool) (save : List Nat)
    (h : save_inv seen0 seen save) (v : Nat) : clear_seen seen save v = seen0 v := by
  rw [clear_seen_eq]
  by_cases hv : v ∈ save
  · rw [if_pos hv, h.2 v hv]
  · rw [if_neg hv]
    cases hs : seen v with
    | true =>
      rcases (h.1 v).mp hs with x | x
      · exact x.symm
      · exact absurd x hv
    | false =>
      cases h0 : seen0 v with
      | true =>
        have := (h.1 v).mpr (Or.inl h0)
        rw [hs] at this
        exact absurd this (by decide)
      | false => rfl

theorem seen_cert_mono (s : my_manager) (seen seen1 : Nat → Bool) (v : Nat)
    (hm : ∀ u, seen u = true → seen1 u = true) (h : seen_cert s seen v) :
    seen_cert s seen1 v := by
  obtain ⟨r, r1, r2⟩ := h
  refine ⟨r, r1, fun x hx => ?_⟩
  rcases r2 x hx with y | y
  · exact Or.inl y
  · exact Or.inr (hm _ y)

theorem removable_scan_marks (s : my_manager) (minl : Nat) (seen0 : Nat → Bool) :
    ∀ (lits : List Nat) (seen : Nat → Bool) (stack save : List Nat),
      save_inv seen0 seen save →
      (∀ seen1, removable_scan s minl lits seen stack save = removable_scan_result.failed seen1 →
        ∀ v, seen1 v = seen0 v)
      ∧ (∀ seen1 stack1 save1,
          removable_scan s minl lits seen stack save
            = removable_scan_result.ok seen1 stack1 save1 →
          save_inv seen0 seen1 save1
          ∧ (∀ v, seen v = true → seen1 v = true)
          ∧ (∀ c ∈ stack, c ∈ stack1)
          ∧ (∀ v ∈ save1, v ∈ save ∨ ∃ c ∈ stack1, var c = v)
          ∧ (∀ x ∈ lits, s.level (var x) = 1 ∨ seen1 (var x) = true)) := by
  intro lits
  induction lits with
  | nil =>
    intro seen stack save hs
    constructor
    · intro seen1 h
      simp [removable_scan] at h
    · intro seen1 stack1 save1 h
      simp only [removable_scan, removable_scan_result.ok.injEq] at h
      obtain ⟨h1, h2, h3⟩ := h
      subst h1 h2 h3
      exact ⟨hs, fun v hv => hv, fun c hc => hc, fun v hv => Or.inl hv,
        fun x hx => absurd hx (List.not_mem_nil x)⟩
  | cons cur rest ih =>
    intro seen stack save hs
    rw [removable_scan]
    by_cases hc : seen (var cur) = false ∧ s.level (var cur) ≠ 1
    · rw [if_pos hc]
      by_cases hr : (s.reason (var cur)).isSome = true
          ∧ level_bit_set (s.level (var cur)) minl = true
      · rw [if_pos hr]
        have hs1 : save_inv seen0 (Function.update seen (var cur) true) (save ++ [var cur]) := by
          constructor
          · intro v
            by_cases e : v = var cur
            · rw [e, Function.update_same]
              simp
            · rw [Function.update_noteq e]
              rw [hs.1 v]
              simp [e]
          · intro v hv
            rcases List.mem_append.mp hv with x | x
            · exact hs.2 v x
            · have e : v = var cur := by simpa using x
              rw [e]
              cases h0 : seen0 (var cur) with
              | false => rfl
              | true =>
                have := (hs.1 (var cur)).mpr (Or.inl h0)
                rw [hc.1] at this
                exact absurd this (by decide)
        obtain ⟨i1, i2⟩ := ih (Function.update seen (var cur) true) (cur :: stack)
          (save ++ [var cur]) hs1
        refine ⟨i1, ?_⟩
        intro seen1 stack1 save1 h
        obtain ⟨a1, a0, a2, a3, a4⟩ := i2 seen1 stack1 save1 h
        refine ⟨a1, ?_, fun c hc' => a2 c (List.mem_cons_of_mem _ hc'), ?_, ?_⟩
        · intro v hv
          apply a0
          by_cases e : v = var cur
          · rw [e, Function.update_same]
          · rw [Function.update_noteq e]; exact hv
        · intro v hv
          rcases a3 v hv with x | x
          · rcases List.mem_append.mp x with y | y
            · exact Or.inl y
            · have e : v = var cur := by simpa using y
              exact Or.inr ⟨cur, a2 cur (List.mem_cons_self _ _), e.symm⟩
          · exact Or.inr x
        · intro x hx
          rcases List.mem_cons.mp hx with e | e
          · right
            rw [e]
            exact a0 _ (by rw [Function.update_same])
          · exact a4 x e
      · rw [if_neg hr]
        constructor
        · intro seen1 h
          simp only [removable_scan_result.failed.injEq] at h
          rw [← h]
          exact clear_seen_save seen0 seen save hs
        · intro seen1 stack1 save1 h
          simp at h
    · rw [if_neg hc]
      obtain ⟨i1, i2⟩ := ih seen stack save hs
      refine ⟨i1, ?_⟩
      intro seen1 stack1 save1 h
      obtain ⟨a1, a0, a2, a3, a4⟩ := i2 seen1 stack1 save1 h
      refine ⟨a1, a0, a2, a3, ?_⟩
      intro x hx
      rcases List.mem_cons.mp hx with e | e
      · rw [e]
        by_cases hl : s.level (var cur) = 1
        · exact Or.inl hl
        · right
          have hsn : seen (var cur) = true := by
            cases hh : seen (var cur) with
            | true => rfl
            | false => exact absurd ⟨hh, hl⟩ hc
          exact a0 _ hsn
      · exact a4 x e

/-- The marks that `removable` hands back: on `false` those it was entered
with; on `true` more marks, each new one and the variable of `l` with a
reason as `seen_cert` asks. -/
theorem removable_loop_marks (s : my_manager) (minl : Nat) (seen0 : Nat → Bool) (l : Nat) :
    ∀ (f : Nat) (seen : Nat → Bool) (stack save : List Nat) (res : Bool) (seen1 : Nat → Bool),
      save_inv seen0 seen save →
      (∀ v ∈ var l :: save, (∃ c ∈ stack, var c = v) ∨ seen_cert s seen v) →
      removable_loop s minl f seen stack save = some (res, seen1) →
      (res = false → ∀ v, seen1 v = seen0 v)
      ∧ (res = true → (∀ v, seen0 v = true → seen1 v = true)
          ∧ (∀ v, seen1 v = true → seen0 v = true ∨ seen_cert s seen1 v)
          ∧ seen_cert s seen1 (var l)) := by
  intro f
  induction f with
  | zero =>
    intro seen stack save res seen1 _ _ h
    simp [removable_loop] at h
  | succ f ih =>
    intro seen stack save res seen1 hs hq h
    cases stack with
    | nil =>
      rw [removable_loop] at h
      simp only [Option.some.injEq, Prod.mk.injEq] at h
      obtain ⟨h1, h2⟩ := h
      subst h1 h2
      have hcert : ∀ v ∈ var l :: save, seen_cert s seen v := by
        intro v hv
        rcases hq v hv with ⟨c, hc, _⟩ | x
        · exact absurd hc (List.not_mem_nil c)
        · exact x
      refine ⟨fun e => by simp at e, fun _ => ⟨?_, ?_, ?_⟩⟩
      · intro v hv
        exact (hs.1 v).mpr (Or.inl hv)
      · intro v hv
        rcases (hs.1 v).mp hv with x | x
        · exact Or.inl x
        · exact Or.inr (hcert v (List.mem_cons_of_mem _ x))
      · exact hcert _ (List.mem_cons_self _ _)
    | cons cur stack =>
      rw [removable_loop] at h
      cases hr : s.reason (var cur) with
      | none =>
        rw [hr] at h
        simp at h
      | some r =>
        rw [hr] at h
        simp only at h
        obtain ⟨k1, k2⟩ := removable_scan_marks s minl seen0 ((s.cl r).lits.drop 1) seen stack
          save hs
        cases hsc : removable_scan s minl ((s.cl r).lits.drop 1) seen stack save with
        | failed seen2 =>
          rw [hsc] at h
          simp only [Option.some.injEq, Prod.mk.injEq] at h
          obtain ⟨h1, h2⟩ := h
          subst h1 h2
          exact ⟨fun _ => k1 seen2 hsc, fun e => by simp at e⟩
        | ok seen2 stack2 save2 =>
          rw [hsc] at h
          simp only at h
          obtain ⟨a1, a0, a2, a3, a4⟩ := k2 seen2 stack2 save2 hsc
          apply ih seen2 stack2 save2 res seen1 a1 _ h
          have hcur : seen_cert s seen2 (var cur) := ⟨r, hr, a4⟩
          have hold : ∀ v, ((∃ c ∈ cur :: stack, var c = v) ∨ seen_cert s seen v) →
              (∃ c ∈ stack2, var c = v) ∨ seen_cert s seen2 v := by
            intro v hv
            rcases hv with ⟨c, hc, hcv⟩ | x
            · rcases List.mem_cons.mp hc with e | e
              · right
                rw [← hcv, e]
                exact hcur
              · exact Or.inl ⟨c, a2 c e, hcv⟩
            · exact Or.inr (seen_cert_mono s seen seen2 v a0 x)
          intro v hv
          rcases List.mem_cons.mp hv with e | e
          · exact hold v (hq v (by rw [e]; exact List.mem_cons_self _ _))
          · rcases a3 v e with x | x
            · exact hold v (hq v (List.mem_cons_of_mem _ x))
            · exact Or.inl x

theorem removable_marks (s : my_manager) (seen : Nat → Bool) (l minl : Nat) (res : Bool)
    (seen1 : Nat → Bool) (h : removable s seen l minl = some (res, seen1)) :
    (res = false → ∀ v, seen1 v = seen v)
    ∧ (res = true → (∀ v, seen v = true → seen1 v = true)
        ∧ (∀ v, seen1 v = true → seen v = true ∨ seen_cert s seen1 v)
        ∧ seen_cert s seen1 (var l)) := by
  unfold removable at h
  apply removable_loop_marks s minl seen l _ seen [l] [] res seen1 _ _ h
  · exact ⟨fun v => by simp, fun v hv => absurd hv (List.not_mem_nil v)⟩
  · intro v hv
    have e : v = var l := by simpa using hv
    exact Or.inl ⟨l, List.mem_cons_self _ _, e.symm⟩

/-! ### Conflict analysis: the minimisation is sound -/

theorem seen_cert_frame (s m : my_manager) (seen : Nat → Bool) (v : Nat) (hf : dcc_frame s m)
    (h : seen_cert m seen v) : seen_cert s seen v := by
  obtain ⟨e1, e2, e3, e4, e5, e6, e7⟩ := hf
  obtain ⟨r, r1, r2⟩ := h
  rw [e3] at r1
  rw [e5, e1] at r2
  exact ⟨r, r1, r2⟩

/-- A stack entry with a reason as `seen_cert` asks is true in an assignment
of `P` in which the marked entries below it are true. -/
theorem cert_agree (P : (Nat → Bool) → Prop) (s : my_manager) (clevel : Nat)
    (hinv : analysis_inv s clevel) (hv : trail_valid P s) (M : Nat → Bool) (hM : P M)
    (seen : Nat → Bool) (p : Nat) (hp : p < s.assign_top)
    (hc : seen_cert s seen (var (s.assign p)))
    (ih : ∀ q, q < p → seen (var (s.assign q)) = true → lit_val M (s.assign q) = true) :
    lit_val M (s.assign p) = true := by
  obtain ⟨r, hr, hall⟩ := hc
  have hro := (hinv p hp).2.2.2
  rw [hr] at hro
  have hro' : ∀ x ∈ (s.cl r).lits.drop 1,
      s.status (var x) = neg x ∧ on_trail s (var x) p := hro
  obtain ⟨r1, r2⟩ := hv.2.1 p hp r hr
  obtain ⟨x, hx, hxv⟩ := r2 M hM
  rcases mem_head_or_drop _ x hx with e | e
  · rw [← r1, ← e]; exact hxv
  · exfalso
    obtain ⟨x1, q, q1, q2⟩ := hro' x e
    have hent := false_lit_entry s x q (hv.1 q (by omega)) x1 q2
    have hq : lit_val M (s.assign q) = true := by
      rcases hall x e with y | y
      · exact hv.2.2 q (by omega) (by rw [q2, y]) M hM
      · exact ih q q1 (by rw [q2]; exact y)
    rw [hent, lit_val_neg, hxv] at hq
    exact absurd hq (by decide)

theorem dcc_min_loop_sound (P : (Nat → Bool) → Prop) (s : my_manager) (clevel minl : Nat)
    (hinv : analysis_inv s clevel) (hv : trail_valid P s) (cdc0 : Nat → Nat) (size : Nat)
    (h0 : ∀ k, 1 ≤ k → k < size → cdc_lit_ok s clevel (cdc0 k))
    (hd0 : ∀ k1 k2, 1 ≤ k1 → k1 < k2 → k2 < size → var (cdc0 k1) ≠ var (cdc0 k2)) :
    ∀ (n i : Nat) (st r : dcc_min_state), i + n = size →
      dcc_frame s st.m → 1 ≤ st.j → st.j ≤ i →
      (∀ k, i ≤ k → st.m.cdc k = cdc0 k) →
      (∀ k, 1 ≤ k → k < st.j → ∃ k0, 1 ≤ k0 ∧ k0 < i ∧ st.m.cdc k = cdc0 k0) →
      (∀ k1 k2, 1 ≤ k1 → k1 < k2 → k2 < st.j → var (st.m.cdc k1) ≠ var (st.m.cdc k2)) →
      (∀ k, 1 ≤ k → k < size → st.seen (var (cdc0 k)) = true) →
      (∀ M, P M → (∀ k, k < st.j → lit_val M (st.m.cdc k) = false) →
        ∀ p, p < s.assign_top →
          (∀ k, i ≤ k → k < size → on_trail s (var (cdc0 k)) (p + 1) →
            lit_val M (cdc0 k) = false) →
          st.seen (var (s.assign p)) = true → lit_val M (s.assign p) = true) →
      dcc_min_loop minl n i st = some r →
      r.m.cdc 0 = st.m.cdc 0
      ∧ (∀ k, 1 ≤ k → k < r.j → ∃ k0, 1 ≤ k0 ∧ k0 < size ∧ r.m.cdc k = cdc0 k0)
      ∧ (∀ k1 k2, 1 ≤ k1 → k1 < k2 → k2 < r.j → var (r.m.cdc k1) ≠ var (r.m.cdc k2))
      ∧ (∀ k, 1 ≤ k → k < size → r.seen (var (cdc0 k)) = true)
      ∧ (∀ M, P M → (∀ k, k < r.j → lit_val M (r.m.cdc k) = false) →
          ∀ p, p < s.assign_top → r.seen (var (s.assign p)) = true →
            lit_val M (s.assign p) = true) := by
  intro n
  induction n with
  | zero =>
    intro i st r hsz hfr hj1 hji hun hsrc hdist hseen hJ h
    rw [dcc_min_loop] at h
    simp only [Option.some.injEq] at h
    subst h
    refine ⟨rfl, ?_, hdist, hseen, ?_⟩
    · intro k k1 k2
      obtain ⟨k0, a, b, c⟩ := hsrc k k1 k2
      exact ⟨k0, a, by omega, c⟩
    · intro M hM hk p hp hs
      exact hJ M hM hk p hp (fun k k1 k2 => by omega) hs
  | succ n ih =>
    intro i st r hsz hfr hj1 hji hun hsrc hdist hseen hJ h
    have hfr0 := hfr
    obtain ⟨e1, e2, e3, e4, e5, e6, e7⟩ := hfr
    rw [dcc_min_loop] at h
    simp only [] at h
    have hi : i < size := by omega
    have hcur : st.m.cdc i = cdc0 i := hun i (le_refl _)
    -- the state that keeps the literal at `i`
    have hkeep : ∀ (seen1 : Nat → Bool) (asl : Nat), (∀ v, seen1 v = st.seen v) →
        dcc_min_loop minl n (i + 1)
          { m := { st.m with cdc := (Function.update st.m.cdc st.j (st.m.cdc i)) },
            seen := seen1, j := st.j + 1, assertion_level := asl } = some r →
        r.m.cdc 0 = st.m.cdc 0
        ∧ (∀ k, 1 ≤ k → k < r.j → ∃ k0, 1 ≤ k0 ∧ k0 < size ∧ r.m.cdc k = cdc0 k0)
        ∧ (∀ k1 k2, 1 ≤ k1 → k1 < k2 → k2 < r.j → var (r.m.cdc k1) ≠ var (r.m.cdc k2))
        ∧ (∀ k, 1 ≤ k → k < size → r.seen (var (cdc0 k)) = true)
        ∧ (∀ M, P M → (∀ k, k < r.j → lit_val M (r.m.cdc k) = false) →
            ∀ p, p < s.assign_top → r.seen (var (s.assign p)) = true →
              lit_val M (s.assign p) = true) := by
      intro seen1 asl hs1 hrun
      have hfr2 : dcc_frame s { st.m with cdc := (Function.update st.m.cdc st.j (st.m.cdc i)) } := by
        unfold dcc_frame at hfr0 ⊢
        dsimp only
        exact hfr0
      obtain ⟨a1, a2, a3, a4, a5⟩ := ih (i + 1)
        { m := { st.m with cdc := (Function.update st.m.cdc st.j (st.m.cdc i)) },
          seen := seen1, j := st.j + 1, assertion_level := asl } r (by omega) hfr2
        (by show 1 ≤ st.j + 1; omega) (by show st.j + 1 ≤ i + 1; omega)
        (by
          intro k hk
          show Function.update st.m.cdc st.j (st.m.cdc i) k = cdc0 k
          rw [Function.update_noteq (by omega)]
          exact hun k (by omega))
        (by
          intro k k1 k2
          have k2' : k < st.j + 1 := k2
          show ∃ k0, 1 ≤ k0 ∧ k0 < i + 1 ∧ Function.update st.m.cdc st.j (st.m.cdc i) k = cdc0 k0
          by_cases e : k = st.j
          · rw [e, Function.update_same]
            exact ⟨i, by omega, by omega, hcur⟩
          · rw [Function.update_noteq e]
            obtain ⟨k0, b1, b2, b3⟩ := hsrc k k1 (by omega)
            exact ⟨k0, b1, by omega, b3⟩)
        (by
          intro k1 k2 h1 h12 h2
          have h2' : k2 < st.j + 1 := h2
          show var (Function.update st.m.cdc st.j (st.m.cdc i) k1)
            ≠ var (Function.update st.m.cdc st.j (st.m.cdc i) k2)
          rw [Function.update_noteq (by omega : k1 ≠ st.j)]
          by_cases e : k2 = st.j
          · rw [e, Function.update_same, hcur]
            obtain ⟨k0, b1, b2, b3⟩ := hsrc k1 h1 (by omega)
            rw [b3]
            exact hd0 k0 i b1 b2 hi
          · rw [Function.update_noteq e]
            exact hdist k1 k2 h1 h12 (by omega))
        (by
          intro k k1 k2
          show seen1 (var (cdc0 k)) = true
          rw [hs1]
          exact hseen k k1 k2)
        (by
          intro M hM hk p hp hrem hsn
          have hsn' : seen1 (var (s.assign p)) = true := hsn
          rw [hs1] at hsn'
          have hk' : ∀ k, k < st.j + 1 →
              lit_val M (Function.update st.m.cdc st.j (st.m.cdc i) k) = false := hk
          apply hJ M hM _ p hp _ hsn'
          · intro k hkj
            have := hk' k (by omega)
            rw [Function.update_noteq (by omega)] at this
            exact this
          · intro k k1 k2 kt
            by_cases e : k = i
            · have := hk' st.j (by omega)
              rw [Function.update_same, hcur] at this
              rw [e]; exact this
            · exact hrem k (by omega) k2 kt)
        hrun
      refine ⟨?_, a2, a3, a4, a5⟩
      rw [a1]
      show Function.update st.m.cdc st.j (st.m.cdc i) 0 = st.m.cdc 0
      rw [Function.update_noteq (by omega)]
    by_cases hrn : st.m.reason (var (st.m.cdc i)) = none
    · rw [if_pos hrn] at h
      exact hkeep st.seen _ (fun _ => rfl) h
    · rw [if_neg hrn] at h
      cases hrem : removable st.m st.seen (st.m.cdc i) minl with
      | none =>
        rw [hrem] at h
        simp at h
      | some res =>
        obtain ⟨b, seen1⟩ := res
        rw [hrem] at h
        obtain ⟨mf, mt⟩ := removable_marks st.m st.seen (st.m.cdc i) minl b seen1 hrem
        cases b with
        | false =>
          simp only at h
          exact hkeep seen1 _ (mf rfl) h
        | true =>
          simp only at h
          obtain ⟨t1, t2, t3⟩ := mt rfl
          have t3' : seen_cert s seen1 (var (cdc0 i)) := by
            rw [← hcur]
            exact seen_cert_frame s st.m seen1 _ hfr0 t3
          have hti : 1 ≤ i := by omega
          obtain ⟨_, _, _, pi, pi1, pi2⟩ := h0 i hti hi
          have hent_i : s.assign pi = neg (cdc0 i) :=
            false_lit_entry s (cdc0 i) pi (hv.1 pi pi1) (h0 i hti hi).1 pi2
          have hpos_eq : ∀ p q, p < s.assign_top → q < s.assign_top →
              var (s.assign p) = var (s.assign q) → p = q := by
            intro p q hp hq e
            by_contra hne
            rcases Nat.lt_or_ge p q with hlt | hge
            · exact ((hinv q hq).2.2.1 p hlt).1 e
            · exact ((hinv p hp).2.2.1 q (by omega)).1 e.symm
          obtain ⟨a1, a2, a3, a4, a5⟩ := ih (i + 1) { st with seen := seen1 } r (by omega)
            hfr0 hj1 (by show st.j ≤ i + 1; omega)
            (fun k hk => hun k (by omega))
            (by
              intro k k1 k2
              obtain ⟨k0, b1, b2, b3⟩ := hsrc k k1 k2
              exact ⟨k0, b1, by omega, b3⟩)
            hdist
            (fun k k1 k2 => t1 _ (hseen k k1 k2))
            (by
              intro M hM hk p
              induction p using Nat.strong_induction_on with
              | _ p ihp =>
                intro hp hrem' hsn
                have hsn' : seen1 (var (s.assign p)) = true := hsn
                have hlow : ∀ q, q < p → seen1 (var (s.assign q)) = true →
                    lit_val M (s.assign q) = true := by
                  intro q hq hsq
                  apply ihp q hq (by omega) _ hsq
                  intro k k1 k2 kt
                  exact hrem' k k1 k2 (on_trail_mono s _ _ _ kt (by omega))
                by_cases hcert : seen_cert s seen1 (var (s.assign p))
                · exact cert_agree P s clevel hinv hv M hM seen1 p hp hcert hlow
                · have hold : st.seen (var (s.assign p)) = true := by
                    rcases t2 _ hsn' with x | x
                    · exact x
                    · exact absurd (seen_cert_frame s st.m seen1 _ hfr0 x) hcert
                  apply hJ M hM hk p hp _ hold
                  intro k k1 k2 kt
                  by_cases e : k = i
                  · rw [e] at kt ⊢
                    obtain ⟨q, q1, q2⟩ := kt
                    have hqpi : q = pi := hpos_eq q pi (by omega) pi1 (by rw [q2, pi2])
                    have hne : pi ≠ p := by
                      intro e2
                      apply hcert
                      rw [← e2, pi2]
                      exact t3'
                    have hag : lit_val M (s.assign pi) = true := by
                      apply cert_agree P s clevel hinv hv M hM seen1 pi pi1
                        (by rw [pi2]; exact t3')
                      intro q' hq' hsq'
                      exact hlow q' (by omega) hsq'
                    rw [hent_i, lit_val_neg] at hag
                    cases hh : lit_val M (cdc0 i) with
                    | false => rfl
                    | true =>
                      rw [hh] at hag
                      exact absurd hag (by decide)
                  · exact hrem' k (by omega) k2 kt)
            h
          exact ⟨a1, a2, a3, a4, a5⟩

/-- The clause that `derive_conflict_clause` returns for a conflict at a
level `clevel ≥ 2` on a clause valid in `P`: its literals are of pairwise
distinct variables and it is valid in `P`. -/
theorem derive_conflict_clause_sound (P : (Nat → Bool) → Prop) (s : my_manager)
    (c clevel : Nat) (h2 : 2 ≤ clevel) (hinv : analysis_inv s clevel) (hv : trail_valid P s)
    (hc : falsified_at s c clevel) (hcv : valid P (s.cl c).lits)
    (size alevel : Nat) (s1 : my_manager)
    (h : derive_conflict_clause s (some c) clevel = some (size, alevel, s1)) :
    (∀ k1 k2, k1 < k2 → k2 < size → var (s1.cdc k1) ≠ var (s1.cdc k2))
    ∧ valid P ((List.range size).map s1.cdc) := by
  obtain ⟨hfalse, x, hx, hxl⟩ := hc
  have hj0 : dcc_inv s clevel s.assign_top
      { m := { s with assertion_level := 1, cdc := (Function.update s.cdc 0 0),
                      cdc_index := 1 },
        seen := fun _ => false, num_lits_at_clevel := 0 } := by
    refine ⟨⟨rfl, rfl, rfl, rfl, rfl, rfl, rfl⟩, ?_, le_refl _, ?_⟩
    · show (0 : Int) = _
      rw [seen_count_none]
      rfl
    · intro i i1 i2
      have : i < 1 := i2
      omega
  have hm0 : dcc_marks s clevel s.assign_top
      { m := { s with assertion_level := 1, cdc := (Function.update s.cdc 0 0),
                      cdc_index := 1 },
        seen := fun _ => false, num_lits_at_clevel := 0 } := by
    refine ⟨?_, ?_, ?_⟩
    · intro i i1 i2
      have : i < 1 := i2
      omega
    · intro i j i1 ij j2
      have : j < 1 := j2
      omega
    · intro v hsv
      have : false = true := hsv
      exact absurd this (by decide)
  have hlits : ∀ y ∈ (s.cl c).lits.drop (if (0 : Nat) = 0 then 0 else 1),
      s.status (var y) = neg y ∧ on_trail s (var y) s.assign_top := by
    rw [if_pos rfl, List.drop_zero]
    exact hfalse
  have hpos : 0 < (dcc_scan clevel ((s.cl c).lits.drop (if (0 : Nat) = 0 then 0 else 1))
      { m := { s with assertion_level := 1, cdc := (Function.update s.cdc 0 0),
                      cdc_index := 1 },
        seen := fun _ => false, num_lits_at_clevel := 0 }).num_lits_at_clevel := by
    obtain ⟨j1, _, _, j4⟩ := dcc_scan_spec s clevel s.assign_top hinv (le_refl _) _ _ hlits hj0
    rw [j1.2.1]
    obtain ⟨q, q1, q2⟩ := (hfalse x hx).2
    have hxm : x ∈ (s.cl c).lits.drop (if (0 : Nat) = 0 then 0 else 1) := by
      rw [if_pos rfl, List.drop_zero]
      exact hx
    have hs := j4 x hxm (by omega)
    rw [← q2] at hs hxl
    exact_mod_cast seen_count_of_mem s clevel s.assign_top q _ q1 hs hxl
  obtain ⟨st1, nl, hloop, hfr, ⟨p, p1, p2, p3⟩, hidx, hcdc⟩ :=
    dcc_loop_spec s clevel hinv (s.assign_top + 1) c 0 s.assign_top _ (by omega) (le_refl _)
      hj0 hlits hpos
  obtain ⟨n1, n2, n3, n4⟩ := dcc_loop_sound P s clevel hinv hv (s.assign_top + 1) c 0
    s.assign_top _ st1 nl (le_refl _) hj0 hm0 hlits hpos
    (by
      intro M hM
      right
      rw [if_pos rfl, List.drop_zero]
      exact hcv M hM)
    hloop
  unfold derive_conflict_clause at h
  simp only at h
  rw [if_neg (by omega), hloop] at h
  simp only at h
  cases hmin : dcc_min_loop
      (dcc_minl { st1.m with cdc := (Function.update st1.m.cdc 0 (neg nl)) }
        (st1.m.cdc_index - 1) 1 0) (st1.m.cdc_index - 1) 1
      { m := { st1.m with cdc := (Function.update st1.m.cdc 0 (neg nl)) },
        seen := Function.update st1.seen (var nl) true, j := 1, assertion_level := 1 } with
  | none =>
    rw [hmin] at h
    simp at h
  | some r =>
    rw [hmin] at h
    simp only [Option.some.injEq, Prod.mk.injEq] at h
    obtain ⟨hs1, _, hs3⟩ := h
    subst hs1 hs3
    have hpos_eq : ∀ a b, a < s.assign_top → b < s.assign_top →
        var (s.assign a) = var (s.assign b) → a = b := by
      intro a b ha hb e
      by_contra hne
      rcases Nat.lt_or_ge a b with hlt | hge
      · exact ((hinv b hb).2.2.1 a hlt).1 e
      · exact ((hinv a ha).2.2.1 b (by omega)).1 e.symm
    have h0 : ∀ k, 1 ≤ k → k < st1.m.cdc_index →
        cdc_lit_ok s clevel (Function.update st1.m.cdc 0 (neg nl) k) := by
      intro k k1 k2
      rw [Function.update_noteq (by omega)]
      exact hcdc k k1 k2
    obtain ⟨a1, a2, a3, a4, a5⟩ := dcc_min_loop_sound P s clevel _ hinv hv
      (Function.update st1.m.cdc 0 (neg nl)) st1.m.cdc_index h0
      (by
        intro k1 k2 h1 h12 h2'
        rw [Function.update_noteq (by omega), Function.update_noteq (by omega)]
        exact n2 k1 k2 h1 h12 h2')
      (st1.m.cdc_index - 1) 1
      { m := { st1.m with cdc := (Function.update st1.m.cdc 0 (neg nl)) },
        seen := Function.update st1.seen (var nl) true, j := 1, assertion_level := 1 } r
      (by omega)
      (by
        unfold dcc_frame at hfr ⊢
        dsimp only
        exact hfr)
      (le_refl _) (le_refl _)
      (fun k _ => rfl)
      (by
        intro k k1 k2
        have : k < 1 := k2
        omega)
      (by
        intro k1 k2 h1 h12 h2'
        have : k2 < 1 := h2'
        omega)
      (by
        intro k k1 k2
        show Function.update st1.seen (var nl) true
          (var (Function.update st1.m.cdc 0 (neg nl) k)) = true
        rw [Function.update_noteq (by omega : k ≠ 0)]
        by_cases e : var (st1.m.cdc k) = var nl
        · rw [e, Function.update_same]
        · rw [Function.update_noteq e]
          exact n1 k k1 k2)
      (by
        intro M hM hk q hq hrem hsn
        have hsn' : Function.update st1.seen (var nl) true (var (s.assign q)) = true := hsn
        have hk0 : lit_val M (Function.update st1.m.cdc 0 (neg nl) 0) = false :=
          hk 0 (by show 0 < 1; omega)
        rw [Function.update_same, lit_val_neg] at hk0
        by_cases e : var (s.assign q) = var nl
        · have hqp : q = p := hpos_eq q p hq p1 (by rw [e, p2])
          rw [hqp, ← p2]
          cases hh : lit_val M nl with
          | true => rfl
          | false =>
            rw [hh] at hk0
            exact absurd hk0 (by decide)
        · rw [Function.update_noteq e] at hsn'
          obtain ⟨i, i1, i2, i3⟩ := n3 _ hsn'
          have hent : s.assign q = neg (st1.m.cdc i) :=
            false_lit_entry s _ q (hv.1 q hq) (hcdc i i1 i2).1 i3.symm
          have := hrem i i1 i2 (by
            rw [Function.update_noteq (by omega : i ≠ 0)]
            exact ⟨q, by omega, i3.symm⟩)
          rw [Function.update_noteq (by omega : i ≠ 0)] at this
          rw [hent, lit_val_neg, this]
          rfl)
      hmin
    have a1' : r.m.cdc 0 = neg nl := by
      rw [a1]
      show Function.update st1.m.cdc 0 (neg nl) 0 = neg nl
      rw [Function.update_same]
    constructor
    · intro k1 k2 h12 hk2
      by_cases hk1 : k1 = 0
      · rw [hk1, a1', var_neg]
        obtain ⟨k0, b1, b2, b3⟩ := a2 k2 (by omega) hk2
        rw [b3]
        intro e
        have := (h0 k0 b1 b2).2.2.1
        rw [← e, p3] at this
        omega
      · exact a3 k1 k2 (by omega) h12 hk2
    · intro M hM
      by_contra hcon
      have hall : ∀ k, k < r.j → lit_val M (r.m.cdc k) = false := by
        intro k hk
        cases hh : lit_val M (r.m.cdc k) with
        | false => rfl
        | true =>
          exfalso
          apply hcon
          exact ⟨r.m.cdc k, List.mem_map.mpr ⟨k, List.mem_range.mpr hk, rfl⟩, hh⟩
      have hj1 : 1 ≤ r.j := by
        obtain ⟨r', e1, _, e3, _⟩ := dcc_min_loop_spec s clevel
          (dcc_minl { st1.m with cdc := (Function.update st1.m.cdc 0 (neg nl)) }
            (st1.m.cdc_index - 1) 1 0) hinv (st1.m.cdc_index - 1) 1
          { m := { st1.m with cdc := (Function.update st1.m.cdc 0 (neg nl)) },
            seen := Function.update st1.seen (var nl) true, j := 1, assertion_level := 1 }
          (by
            unfold dcc_frame at hfr ⊢
            dsimp only
            exact hfr)
          (le_refl _) (le_refl _)
          (by
            intro k k1 k2
            exact h0 k k1 (by omega))
          (by
            intro k k1 k2
            have : k < 1 := k2
            omega)
          (Or.inl ⟨rfl, rfl⟩)
        rw [hmin] at e1
        have : r = r' := Option.some.inj e1
        rw [this]
        exact e3
      have hnl : lit_val M nl = true := by
        have := hall 0 (by omega)
        rw [a1', lit_val_neg] at this
        cases hh : lit_val M nl with
        | true => rfl
        | false =>
          rw [hh] at this
          exact absurd this (by decide)
      rcases n4 M hM with ⟨i, i1, i2, i3⟩ | y
      · obtain ⟨_, _, _, q, q1, q2⟩ := hcdc i i1 i2
        have hent : s.assign q = neg (st1.m.cdc i) :=
          false_lit_entry s _ q (hv.1 q q1) (hcdc i i1 i2).1 q2
        have hsn := a4 i i1 i2
        rw [Function.update_noteq (by omega : i ≠ 0)] at hsn
        have := a5 M hM hall q q1 (by rw [q2]; exact hsn)
        rw [hent, lit_val_neg, i3] at this
        exact absurd this (by decide)
      · rw [hnl] at y
        exact absurd y (by decide)

/-! ### Unit propagation and the truth assignments -/

theorem valid_perm (P : (Nat → Bool) → Prop) (C D : List Nat) (hp : C.Perm D)
    (h : valid P D) : valid P C := by
  intro M hM
  obtain ⟨x, hx, hxv⟩ := h M hM
  exact ⟨x, hp.mem_iff.mpr hx, hxv⟩

theorem ent_inv_set_lits (P : (Nat → Bool) → Prop) (s : my_manager) (clause : Nat)
    (L : List Nat) (hp : L.Perm (s.cl clause).lits) (h : ent_inv P s) :
    ent_inv P (set_lits s clause L) := by
  obtain ⟨h1, h2⟩ := h
  refine ⟨?_, h2⟩
  intro c hc
  show valid P (Function.update s.cl clause { s.cl clause with lits := L } c).lits
  by_cases e : c = clause
  · rw [e, Function.update_same]
    exact valid_perm P _ _ hp (h1 clause (by rw [← e]; exact hc))
  · rw [Function.update_noteq e]
    exact h1 c hc

theorem bcp_clause_ent (P : (Nat → Bool) → Prop) (slevel neg_lit : Nat) (s : my_manager)
    (last clause : Nat) (kept rest : List Nat) (hn : lit_ok s.vc neg_lit)
    (hinv : bcp_inv { s with watched :=
      (Function.update s.watched (watched_index neg_lit) (kept ++ clause :: rest)) })
    (hfalse : s.status (var neg_lit) = neg neg_lit)
    (hle : ∀ v, v ≤ s.vc → s.status v ≠ 0 → 1 ≤ s.level v ∧ s.level v ≤ slevel)
    (he : ent_inv P s) :
    ent_inv P (bcp_clause slevel neg_lit s last clause).state := by
  obtain ⟨hptr, a, b, t, o, hl, hnd, hoks, ho, hcases⟩ :=
    bcp_clause_cases slevel neg_lit s last clause kept rest hn hinv
  have hperm : (o :: neg_lit :: t).Perm (s.cl clause).lits := by
    rw [hl]
    rcases ho with ⟨e1, e2⟩ | ⟨e1, e2⟩
    · rw [e1, e2]
    · rw [e1, e2]
      exact List.Perm.swap _ _ _
  have hset := ent_inv_set_lits P s clause (o :: neg_lit :: t) hperm he
  rcases hcases with ⟨_, e⟩ | ⟨_, m, hm, _, e⟩ | ⟨_, _, _, e⟩ | ⟨_, hall, _, h0, e⟩ | ⟨_, _, _, _, e⟩
  · rw [e]; exact hset
  · rw [e]
    have h2 := ent_inv_set_lits P s clause (o :: t.getD m 0 :: t.set m neg_lit)
      (((perm_swap_into neg_lit t m hm).cons o).trans hperm) he
    exact h2
  · rw [e]; exact hset
  · rw [e]
    simp only [clause_outcome.state]
    obtain ⟨s1, s2⟩ := hset
    have hov : lit_ok s.vc o := by
      apply hoks
      rcases ho with ⟨e1, _⟩ | ⟨e1, _⟩
      · rw [e1]; exact List.mem_cons_self _ _
      · rw [e1]; exact List.mem_cons_of_mem _ (List.mem_cons_self _ _)
    refine ⟨s1, ?_⟩
    intro v hv hs hlv M hM
    have hs' : Function.update s.status (var o) o v ≠ 0 := hs
    have hlv' : Function.update s.level (var o) slevel v = 1 := hlv
    show lit_val M (Function.update s.status (var o) o v) = true
    by_cases ev : v = var o
    · rw [ev, Function.update_same] at hlv' ⊢
      -- the clause is valid and its other literals are false at level 1
      have hfl : ∀ x, lit_ok s.vc x → s.status (var x) = neg x → lit_val M x = false := by
        intro x hx hxs
        have hxv := (lit_ok_var s.vc x hx).2
        have hx0 : s.status (var x) ≠ 0 := by
          rw [hxs]; exact neg_ne_zero x hx.1
        have hb := hle (var x) hxv hx0
        have := he.2 (var x) hxv hx0 (by omega) M hM
        rw [hxs, lit_val_neg] at this
        cases hh : lit_val M x with
        | false => rfl
        | true =>
          rw [hh] at this
          exact absurd this (by decide)
      obtain ⟨x, hx, hxv⟩ := he.1 clause hptr M hM
      have hx' : x ∈ o :: neg_lit :: t := hperm.mem_iff.mpr hx
      rcases List.mem_cons.mp hx' with e1 | e1
      · rw [← e1]; exact hxv
      · exfalso
        rcases List.mem_cons.mp e1 with e2 | e2
        · have := hfl neg_lit hn hfalse
          rw [e2, this] at hxv
          exact absurd hxv (by decide)
        · have hxt : x ∈ a :: b :: t :=
            List.mem_cons_of_mem _ (List.mem_cons_of_mem _ e2)
          have := hfl x (hoks x hxt) (hall x e2)
          rw [this] at hxv
          exact absurd hxv (by decide)
    · rw [Function.update_noteq ev] at hs' hlv' ⊢
      exact he.2 v hv hs' hlv' M hM
  · rw [e]; exact hset

theorem trail_level_bounds (s : my_manager) (last slevel : Nat) (hb : bcp_trail s last slevel) :
    ∀ v, v ≤ s.vc → s.status v ≠ 0 → 1 ≤ s.level v ∧ s.level v ≤ slevel := by
  obtain ⟨⟨t1, t2, _⟩, _, _, t4, _⟩ := hb
  intro v hv hs
  obtain ⟨p, p1, p2⟩ := t2 v hv hs
  obtain ⟨_, _, a3, a4, _⟩ := t1 p p1
  rw [p2] at a3 a4
  exact ⟨a3, by rw [t4]; exact a4⟩

theorem ent_inv_congr (P : (Nat → Bool) → Prop) (s s1 : my_manager)
    (h1 : s1.vc = s.vc) (h2 : s1.original_clauses = s.original_clauses)
    (h3 : s1.learned_clauses = s.learned_clauses) (h4 : s1.cl = s.cl)
    (h5 : s1.status = s.status) (h6 : s1.level = s.level) (h : ent_inv P s) :
    ent_inv P s1 := by
  unfold ent_inv clause_ptrs at h ⊢
  rw [h1, h2, h3, h4, h5, h6]
  exact h

theorem bcp_watch_loop_ent (P : (Nat → Bool) → Prop) (slevel neg_lit : Nat) :
    ∀ (rest : List Nat) (s : my_manager) (last : Nat) (kept : List Nat),
      lit_ok s.vc neg_lit →
      bcp_inv { s with watched :=
        (Function.update s.watched (watched_index neg_lit) (kept ++ rest)) } →
      s.status (var neg_lit) = neg neg_lit →
      bcp_trail s last slevel → ent_inv P s →
      ent_inv P (bcp_watch_loop slevel neg_lit rest s last kept).m := by
  intro rest
  induction rest with
  | nil =>
    intro s last kept _ _ _ _ he
    rw [bcp_watch_loop]
    exact he
  | cons clause rest ih =>
    intro s last kept hn hinv hfalse hb he
    obtain ⟨k1, k2, k3⟩ := bcp_clause_inv slevel neg_lit s last clause kept rest hn hinv hfalse
    have htr := bcp_clause_trail slevel neg_lit s last clause kept rest hn hinv hfalse hb
    have hen := bcp_clause_ent P slevel neg_lit s last clause kept rest hn hinv hfalse
      (trail_level_bounds s last slevel hb) he
    rw [bcp_watch_loop]
    cases hbc : bcp_clause slevel neg_lit s last clause with
    | kept s1 last1 =>
      obtain ⟨a1, a2, a3, a4⟩ := k1 s1 last1 hbc
      rw [hbc] at htr hen
      simp only [clause_outcome.state, clause_outcome.top] at htr hen
      simp only
      exact ih s1 last1 (kept ++ [clause]) (by rw [a2]; exact hn) a1 a4 htr hen
    | moved s1 =>
      obtain ⟨a1, a2, a3, a4⟩ := k2 s1 hbc
      rw [hbc] at htr hen
      simp only [clause_outcome.state, clause_outcome.top] at htr hen
      simp only
      exact ih s1 last kept (by rw [a2]; exact hn) a1 a4 htr hen
    | conflict s1 =>
      rw [hbc] at hen
      simp only [clause_outcome.state] at hen
      simp only
      exact ent_inv_congr P s1 _ rfl rfl rfl rfl rfl rfl hen

theorem bcp_loop_ent (P : (Nat → Bool) → Prop) (slevel : Nat) :
    ∀ (fuel : Nat) (s : my_manager) (last : Nat) (res : Bool) (s' : my_manager),
      bcp_inv s → bcp_trail s last slevel → ent_inv P s →
      bcp_loop slevel fuel s last = some (res, s') → ent_inv P s' := by
  intro fuel
  induction fuel with
  | zero => intro s last res s' _ _ _ h; simp [bcp_loop] at h
  | succ f ih =>
    intro s last res s' hinv hb he h
    rw [bcp_loop] at h
    simp only at h
    obtain ⟨hkb, hst, hq⟩ := hinv
    by_cases hd : (dequeue s.score s.imp).1 = 0
    · rw [if_pos hd] at h
      simp only [Option.some.injEq, Prod.mk.injEq] at h
      obtain ⟨h1, h2⟩ := h
      subst h1 h2
      exact ent_inv_congr P s _ rfl rfl rfl rfl rfl rfl he
    · rw [if_neg hd] at h
      have hne : s.imp.size ≠ 0 := by
        intro e
        rw [dequeue_empty s.score s.imp e] at hd
        exact hd rfl
      obtain ⟨d1, d2, _, d4, d5⟩ := queue_ok_dequeue s.score s.vc s.status s.imp hq hne
      obtain ⟨v1, v2, v3⟩ := queue_ok_mem s.vc s.status s.imp hq _ d2
      have hvar : var (s.status (dequeue s.score s.imp).1) = (dequeue s.score s.imp).1 :=
        hst _ v2 v3
      have hlit : lit_ok s.vc (s.status (dequeue s.score s.imp).1) := by
        unfold lit_ok
        rw [var_eq] at hvar
        omega
      have hn := lit_ok_neg s.vc _ hlit
      have hfalse : s.status (var (neg (s.status (dequeue s.score s.imp).1)))
          = neg (neg (s.status (dequeue s.score s.imp).1)) := by
        rw [var_neg, neg_neg, hvar]
      have hnl : s.level (var (neg (s.status (dequeue s.score s.imp).1))) = slevel := by
        rw [var_neg, hvar]
        exact hb.2.2.1 _ d2
      have hinv0 : bcp_inv { ({ s with imp := (dequeue s.score s.imp).2 } : my_manager) with
          watched := (Function.update s.watched
            (watched_index (neg (s.status (dequeue s.score s.imp).1)))
            ([] ++ s.watched (watched_index (neg (s.status (dequeue s.score s.imp).1))))) } := by
        rw [List.nil_append, Function.update_eq_self]
        exact ⟨hkb, hst, d1⟩
      have hb0 : bcp_trail { s with imp := (dequeue s.score s.imp).2 } last slevel := by
        obtain ⟨t1, t2, t3, t4, t5⟩ := hb
        refine ⟨?_, ?_, ?_, t4, t5⟩
        · exact trail_inv_congr s _ last rfl rfl rfl rfl rfl rfl (fun _ _ _ _ => rfl) rfl t1
        · exact trail_marks_congr s _ last rfl rfl rfl rfl t2
        · intro w hw
          exact t3 w (d4 w hw)
      have he0 : ent_inv P { s with imp := (dequeue s.score s.imp).2 } :=
        ent_inv_congr P s _ rfl rfl rfl rfl rfl rfl he
      obtain ⟨r1, r2, r3, r4⟩ := bcp_watch_loop_inv slevel
        (neg (s.status (dequeue s.score s.imp).1))
        (s.watched (watched_index (neg (s.status (dequeue s.score s.imp).1))))
        { s with imp := (dequeue s.score s.imp).2 } last [] hn hinv0 hfalse
      obtain ⟨w1, w2, w3, w4⟩ := bcp_watch_loop_all slevel
        (neg (s.status (dequeue s.score s.imp).1)) []
        (s.watched (watched_index (neg (s.status (dequeue s.score s.imp).1))))
        { s with imp := (dequeue s.score s.imp).2 } last [] hn hinv0 hfalse
        (fun c hc => absurd hc (List.not_mem_nil c)) hnl hb0
        (fun c hc => absurd hc (List.not_mem_nil c))
      have we := bcp_watch_loop_ent P slevel
        (neg (s.status (dequeue s.score s.imp).1))
        (s.watched (watched_index (neg (s.status (dequeue s.score s.imp).1))))
        { s with imp := (dequeue s.score s.imp).2 } last [] hn hinv0 hfalse hb0 he0
      have hbt : bcp_trail
          { (bcp_watch_loop slevel (neg (s.status (dequeue s.score s.imp).1))
              (s.watched (watched_index (neg (s.status (dequeue s.score s.imp).1))))
              { s with imp := (dequeue s.score s.imp).2 } last []).m with
            watched := (Function.update (bcp_watch_loop slevel
                (neg (s.status (dequeue s.score s.imp).1))
                (s.watched (watched_index (neg (s.status (dequeue s.score s.imp).1))))
                { s with imp := (dequeue s.score s.imp).2 } last []).m.watched
              (watched_index (neg (s.status (dequeue s.score s.imp).1)))
              (bcp_watch_loop slevel (neg (s.status (dequeue s.score s.imp).1))
                (s.watched (watched_index (neg (s.status (dequeue s.score s.imp).1))))
                { s with imp := (dequeue s.score s.imp).2 } last []).kept) }
          (bcp_watch_loop slevel (neg (s.status (dequeue s.score s.imp).1))
              (s.watched (watched_index (neg (s.status (dequeue s.score s.imp).1))))
              { s with imp := (dequeue s.score s.imp).2 } last []).last slevel := by
        obtain ⟨t1, t2, t3, t4, t5⟩ := w1
        refine ⟨?_, ?_, t3, t4, t5⟩
        · exact trail_inv_congr _ _ _ rfl rfl rfl rfl rfl rfl (fun _ _ _ _ => rfl) rfl t1
        · exact trail_marks_congr _ _ _ rfl rfl rfl rfl t2
      have hen : ent_inv P
          { (bcp_watch_loop slevel (neg (s.status (dequeue s.score s.imp).1))
              (s.watched (watched_index (neg (s.status (dequeue s.score s.imp).1))))
              { s with imp := (dequeue s.score s.imp).2 } last []).m with
            watched := (Function.update (bcp_watch_loop slevel
                (neg (s.status (dequeue s.score s.imp).1))
                (s.watched (watched_index (neg (s.status (dequeue s.score s.imp).1))))
                { s with imp := (dequeue s.score s.imp).2 } last []).m.watched
              (watched_index (neg (s.status (dequeue s.score s.imp).1)))
              (bcp_watch_loop slevel (neg (s.status (dequeue s.score s.imp).1))
                (s.watched (watched_index (neg (s.status (dequeue s.score s.imp).1))))
                { s with imp := (dequeue s.score s.imp).2 } last []).kept) } :=
        ent_inv_congr P _ _ rfl rfl rfl rfl rfl rfl we
      by_cases hc : (bcp_watch_loop slevel (neg (s.status (dequeue s.score s.imp).1))
          (s.watched (watched_index (neg (s.status (dequeue s.score s.imp).1))))
          { s with imp := (dequeue s.score s.imp).2 } last []).conflict = true
      · rw [if_pos hc] at h
        simp only [Option.some.injEq, Prod.mk.injEq] at h
        obtain ⟨h1, h2⟩ := h
        subst h1 h2
        exact hen
      · rw [if_neg hc] at h
        exact ih _ _ res s' r1 hbt hen h

/-- The truth assignments of `P` through `bcp(l)`, under the hypotheses of
`bcp_all`: when `l` is asserted at level 1 it has to be true in `P`. -/
theorem bcp_ent (P : (Nat → Bool) → Prop) (fuel : Nat) (s : my_manager) (l : Nat) (res : Bool)
    (s' : my_manager) (hinv : bcp_inv s) (hq : s.imp.size = 0) (hoff : s.stack_offset = 0)
    (hE : ∀ p, p < s.assign_top →
      lit_ok s.vc (s.assign p) ∧ s.status (var (s.assign p)) = s.assign p
      ∧ 1 ≤ s.level (var (s.assign p)) ∧ s.level (var (s.assign p)) ≤ s.decision_level
      ∧ (∀ q, q < p → var (s.assign q) ≠ var (s.assign p)
          ∧ s.level (var (s.assign q)) ≤ s.level (var (s.assign p)))
      ∧ reason_shape s p (s.reason (var (s.assign p))))
    (hA : ∀ v, v ≤ s.vc → s.status v ≠ 0 → on_trail s v s.assign_top)
    (hU : ∀ v, v ≤ s.vc → s.status v = 0 → v ≠ var l → s.level v = 0)
    (hl : lit_ok s.vc l) (hfree : s.status (var l) = 0)
    (hlv : s.level (var l) = s.decision_level) (hd1 : 1 ≤ s.decision_level)
    (hR : match s.reason (var l) with
      | none => 2 ≤ s.level (var l) →
          ∀ q, q < s.assign_top → s.level (var (s.assign q)) < s.level (var l)
      | some r => r ∈ clause_ptrs s ∧ (s.cl r).lits.getD 0 0 = l
          ∧ ∀ x ∈ (s.cl r).lits.drop 1, s.status (var x) = neg x
              ∧ on_trail s (var x) s.assign_top)
    (hm : trail_marks s s.assign_top)
    (he1 : ∀ c ∈ clause_ptrs s, valid P (s.cl c).lits)
    (he2 : ∀ v, v ≤ s.vc → s.status v ≠ 0 → s.level v = 1 →
      ∀ M, P M → lit_val M (s.status v) = true)
    (hel : s.level (var l) = 1 → ∀ M, P M → lit_val M l = true)
    (h : bcp fuel s l = some (res, s')) :
    ent_inv P s' := by
  have hlast : ((s.assign_top : Int) + 1 + s.stack_offset).toNat = s.assign_top + 1 := by
    rw [hoff]; omega
  have h : bcp_loop (s.level (var l)) fuel { s with
      imp := (undo s.score s.imp (var l)),
      assign := (Function.update s.assign s.assign_top l),
      status := (Function.update s.status (var l) l) } (s.assign_top + 1) = some (res, s') := by
    rw [← hlast]
    exact h
  have hl0 : l ≠ 0 := by have := hl.1; omega
  have hv := lit_ok_var s.vc l hl
  have hs1 := bcp_start_inv s l hinv hl
  obtain ⟨hkb, hst, hqo⟩ := hinv
  have hnomem : ∀ w, ¬ heap_mem s.imp w := fun w hw => heap_mem_size _ _ hw hq
  obtain ⟨u1, u2, _, _⟩ := undo_mem s.score s.imp (var l) (hqo.2 (var l) hv.2)
  have hT := trail_inv_push s s.assign_top l hE hA hU hl hfree (by omega) (by omega)
    (fun p hp => by rw [hlv]; exact (hE p hp).2.2.2.1) hR (undo s.score s.imp (var l))
  have hM := trail_marks_push s s.assign_top l hm hlv (undo s.score s.imp (var l))
    (Function.update s.status (var l) l)
  have hB : bcp_trail { s with
      imp := (undo s.score s.imp (var l)),
      assign := (Function.update s.assign s.assign_top l),
      status := (Function.update s.status (var l) l) } (s.assign_top + 1) (s.level (var l)) := by
    refine ⟨hT, hM, ?_, hlv, by omega⟩
    intro w hw
    rcases (u2 w).mp hw with x | x
    · exact absurd x (hnomem w)
    · rw [x]
  apply bcp_loop_ent P _ fuel _ _ res s' hs1 hB _ h
  refine ⟨he1, ?_⟩
  intro v hvv hs hlv1 M hM'
  have hs' : Function.update s.status (var l) l v ≠ 0 := hs
  show lit_val M (Function.update s.status (var l) l v) = true
  by_cases e : v = var l
  · rw [e, Function.update_same]
    exact hel (by rw [← e]; exact hlv1) M hM'
  · rw [Function.update_noteq e] at hs' ⊢
    exact he2 v hvv hs' hlv1 M hM'

/-! ### Conflict analysis: what it leaves as it is -/

theorem search_frame_refl (s : my_manager) : search_frame s s :=
  ⟨rfl, rfl, rfl, rfl, rfl, rfl, rfl, rfl, rfl, rfl, fun h => ⟨h, fun _ => Iff.rfl⟩⟩

theorem search_frame_trans (s s1 s2 : my_manager) (h1 : search_frame s s1)
    (h2 : search_frame s1 s2) : search_frame s s2 := by
  obtain ⟨a1, a2, a3, a4, a5, a6, a7, a8, a9, a10, a11⟩ := h1
  obtain ⟨b1, b2, b3, b4, b5, b6, b7, b8, b9, b10, b11⟩ := h2
  refine ⟨b1.trans a1, b2.trans a2, b3.trans a3, b4.trans a4, b5.trans a5, b6.trans a6,
    b7.trans a7, b8.trans a8, b9.trans a9, b10.trans a10, ?_⟩
  intro hw
  obtain ⟨x1, x2⟩ := a11 hw
  obtain ⟨y1, y2⟩ := b11 x1
  exact ⟨y1, fun w => (y2 w).trans (x2 w)⟩

theorem update_equiv (score : Nat → ℚ) (h : heap) (v : Nat) (hw : heap_wf h) :
    heap_wf (update score h v)
    ∧ ∀ w, (update score h v).indices w ≠ 0 ↔ h.indices w ≠ 0 := by
  have hw1 := update_wf score h v hw
  refine ⟨hw1, ?_⟩
  intro w
  rw [← heap_wf_mem _ hw1 w, ← heap_wf_mem _ hw w]
  unfold update
  by_cases hv : in_heap h v = true
  · rw [if_pos hv]
    have hi := (in_heap_iff h v).mp hv
    exact (percolate_up_mem score h _ (by omega) (hw.2 v hi).1).2.1 w
  · rw [if_neg hv]

theorem increment_literal_score_search (s : my_manager) (l : Nat) :
    search_frame s (increment_literal_score s l) := by
  unfold increment_literal_score rescale_variable_scores search_frame
  simp only
  split
  · exact ⟨rfl, rfl, rfl, rfl, rfl, rfl, rfl, rfl, rfl, rfl, fun hw => update_equiv _ _ _ hw⟩
  · exact ⟨rfl, rfl, rfl, rfl, rfl, rfl, rfl, rfl, rfl, rfl, fun hw => update_equiv _ _ _ hw⟩

theorem increment_clause_score_search (s : my_manager) (c : Nat) :
    search_frame s (increment_clause_score s c) := by
  unfold increment_clause_score rescale_clause_scores search_frame
  simp only
  split
  · exact ⟨rfl, rfl, rfl, rfl, rfl, rfl, rfl, rfl, rfl, rfl, fun hw => ⟨hw, fun _ => Iff.rfl⟩⟩
  · exact ⟨rfl, rfl, rfl, rfl, rfl, rfl, rfl, rfl, rfl, rfl, fun hw => ⟨hw, fun _ => Iff.rfl⟩⟩

theorem search_frame_cdc (s s1 : my_manager) (cdc : Nat → Nat) (idx : Nat)
    (h : search_frame s s1) : search_frame s { s1 with cdc := cdc, cdc_index := idx } := by
  unfold search_frame at h ⊢
  dsimp only
  exact h

theorem dcc_scan_search (clevel : Nat) :
    ∀ (lits : List Nat) (st : dcc_state), search_frame st.m (dcc_scan clevel lits st).m := by
  intro lits
  induction lits with
  | nil => intro st; rw [dcc_scan]; exact search_frame_refl _
  | cons cur rest ih =>
    intro st
    rw [dcc_scan]
    simp only
    have h1 := increment_literal_score_search st.m cur
    split
    · split
      · exact search_frame_trans _ _ _ h1 (ih _)
      · exact search_frame_trans _ _ _ (search_frame_cdc _ _ _ _ h1) (ih _)
    · exact ih st

theorem dcc_loop_search (clevel : Nat) :
    ∀ (fuel : Nat) (conf : Option Nat) (next_lit n : Nat) (st st1 : dcc_state) (nl : Nat),
      dcc_loop clevel fuel conf next_lit n st = some (st1, nl) →
      search_frame st.m st1.m := by
  intro fuel
  induction fuel with
  | zero => intro conf next_lit n st st1 nl h; simp [dcc_loop] at h
  | succ f ih =>
    intro conf next_lit n st st1 nl h
    cases conf with
    | none => simp [dcc_loop] at h
    | some c =>
      rw [dcc_loop] at h
      simp only at h
      have hsc := dcc_scan_search clevel
        ((st.m.cl c).lits.drop (if next_lit = 0 then 0 else 1)) st
      generalize dcc_scan clevel ((st.m.cl c).lits.drop (if next_lit = 0 then 0 else 1)) st
        = sa at hsc h
      cases hwk : dcc_walk sa.m.assign sa.seen n with
      | none =>
        rw [hwk] at h
        simp at h
      | some k =>
        rw [hwk] at h
        simp only at h
        have hm2 : search_frame sa.m
            (match sa.m.reason (var (sa.m.assign k)) with
              | some r => if (sa.m.cl r).index ≥ 0 then increment_clause_score sa.m r else sa.m
              | none => sa.m) := by
          cases sa.m.reason (var (sa.m.assign k)) with
          | none => exact search_frame_refl _
          | some r =>
            simp only
            split
            · exact increment_clause_score_search _ _
            · exact search_frame_refl _
        by_cases hgt : sa.num_lits_at_clevel - 1 > 0
        · rw [if_pos hgt] at h
          have := ih _ _ _ _ st1 nl h
          exact search_frame_trans _ _ _ (search_frame_trans _ _ _ hsc hm2) this
        · rw [if_neg hgt] at h
          simp only [Option.some.injEq, Prod.mk.injEq] at h
          obtain ⟨h1, _⟩ := h
          rw [← h1]
          exact search_frame_trans _ _ _ hsc hm2

theorem dcc_min_loop_search (minl : Nat) :
    ∀ (n i : Nat) (st r : dcc_min_state),
      dcc_min_loop minl n i st = some r → search_frame st.m r.m := by
  intro n
  induction n with
  | zero =>
    intro i st r h
    rw [dcc_min_loop] at h
    simp only [Option.some.injEq] at h
    rw [← h]
    exact search_frame_refl _
  | succ n ih =>
    intro i st r h
    rw [dcc_min_loop] at h
    simp only [] at h
    have hk : ∀ (seen1 : Nat → Bool) (asl : Nat),
        dcc_min_loop minl n (i + 1)
          { m := { st.m with cdc := (Function.update st.m.cdc st.j (st.m.cdc i)) },
            seen := seen1, j := st.j + 1, assertion_level := asl } = some r →
        search_frame st.m r.m := by
      intro seen1 asl hrun
      have := ih (i + 1) _ r hrun
      have h0 : search_frame st.m
          { st.m with cdc := (Function.update st.m.cdc st.j (st.m.cdc i)) } := by
        unfold search_frame
        exact ⟨rfl, rfl, rfl, rfl, rfl, rfl, rfl, rfl, rfl, rfl,
          fun hw => ⟨hw, fun _ => Iff.rfl⟩⟩
      exact search_frame_trans _ _ _ h0 this
    by_cases hrn : st.m.reason (var (st.m.cdc i)) = none
    · rw [if_pos hrn] at h
      exact hk _ _ h
    · rw [if_neg hrn] at h
      cases hrem : removable st.m st.seen (st.m.cdc i) minl with
      | none =>
        rw [hrem] at h
        simp at h
      | some res =>
        obtain ⟨b, seen1⟩ := res
        rw [hrem] at h
        cases b with
        | false =>
          simp only at h
          exact hk _ _ h
        | true =>
          simp only at h
          exact ih (i + 1) { st with seen := seen1 } r h

theorem derive_conflict_clause_search (s : my_manager) (conf : Option Nat) (clevel : Nat)
    (size alevel : Nat) (s1 : my_manager)
    (h : derive_conflict_clause s conf clevel = some (size, alevel, s1)) :
    search_frame s s1 := by
  unfold derive_conflict_clause at h
  simp only at h
  have h0 : search_frame s
      { s with assertion_level := 1, cdc := (Function.update s.cdc 0 0), cdc_index := 1 } := by
    unfold search_frame
    exact ⟨rfl, rfl, rfl, rfl, rfl, rfl, rfl, rfl, rfl, rfl, fun hw => ⟨hw, fun _ => Iff.rfl⟩⟩
  by_cases hc : clevel ≤ 1
  · rw [if_pos hc] at h
    simp only [Option.some.injEq, Prod.mk.injEq] at h
    obtain ⟨_, _, h3⟩ := h
    rw [← h3]
    unfold search_frame
    exact ⟨rfl, rfl, rfl, rfl, rfl, rfl, rfl, rfl, rfl, rfl, fun hw => ⟨hw, fun _ => Iff.rfl⟩⟩
  · rw [if_neg hc] at h
    cases hl : dcc_loop clevel (s.assign_top + 1) conf 0 s.assign_top
        { m := { s with assertion_level := 1, cdc := (Function.update s.cdc 0 0),
                        cdc_index := 1 },
          seen := fun _ => false, num_lits_at_clevel := 0 } with
    | none =>
      rw [hl] at h
      simp at h
    | some res =>
      obtain ⟨st1, nl⟩ := res
      rw [hl] at h
      simp only at h
      have h1 := dcc_loop_search clevel _ _ _ _ _ st1 nl hl
      cases hmin : dcc_min_loop
          (dcc_minl { st1.m with cdc := (Function.update st1.m.cdc 0 (neg nl)) }
            (st1.m.cdc_index - 1) 1 0) (st1.m.cdc_index - 1) 1
          { m := { st1.m with cdc := (Function.update st1.m.cdc 0 (neg nl)) },
            seen := Function.update st1.seen (var nl) true, j := 1, assertion_level := 1 } with
      | none =>
        rw [hmin] at h
        simp at h
      | some r =>
        rw [hmin] at h
        simp only [Option.some.injEq, Prod.mk.injEq] at h
        obtain ⟨_, _, h3⟩ := h
        rw [← h3]
        have h2 := dcc_min_loop_search _ _ _ _ r hmin
        have h12 : search_frame st1.m
            { st1.m with cdc := (Function.update st1.m.cdc 0 (neg nl)) } := by
          unfold search_frame
          exact ⟨rfl, rfl, rfl, rfl, rfl, rfl, rfl, rfl, rfl, rfl,
            fun hw => ⟨hw, fun _ => Iff.rfl⟩⟩
        exact search_frame_trans _ _ _ (search_frame_trans _ _ _ (search_frame_trans _ _ _ h0 h1)
          h12) h2

/-! ### From the invariant of the search to conflict analysis -/

theorem trail_inv_analysis (s : my_manager) (ht : trail_inv s s.assign_top)
    (h2 : 2 ≤ s.decision_level) : analysis_inv s s.decision_level := by
  obtain ⟨t1, _, _⟩ := ht
  intro p hp
  obtain ⟨a1, a2, a3, a4, a5, a6⟩ := t1 p hp
  refine ⟨a1, a4, a5, ?_⟩
  cases hr : s.reason (var (s.assign p)) with
  | none =>
    rw [hr] at a6
    simp only [reason_shape] at a6
    simp only [reason_ok]
    intro hl q hq
    have := a6 (by omega) q hq
    omega
  | some r =>
    rw [hr] at a6
    simp only [reason_shape] at a6
    simp only [reason_ok]
    exact a6.2.2

theorem trail_inv_valid (P : (Nat → Bool) → Prop) (s : my_manager)
    (ht : trail_inv s s.assign_top) (he : ent_inv P s) : trail_valid P s := by
  obtain ⟨t1, _, _⟩ := ht
  refine ⟨fun p hp => (t1 p hp).2.1, ?_, ?_⟩
  · intro p hp r hr
    have := (t1 p hp).2.2.2.2.2
    rw [hr] at this
    simp only [reason_shape] at this
    exact ⟨this.2.1, he.1 r this.1⟩
  · intro p hp hl M hM
    obtain ⟨a1, a2, a3, _⟩ := t1 p hp
    have := he.2 _ (lit_ok_var s.vc _ a1).2 (by rw [a2]; have := a1.1; omega) (by omega) M hM
    rw [a2] at this
    exact this

theorem conflict_falsified (s : my_manager) (c : Nat) (hinv : bcp_inv s)
    (ht : trail_inv s s.assign_top) (hc : c ∈ clause_ptrs s)
    (hf : ∀ x ∈ (s.cl c).lits, s.status (var x) = neg x)
    (hl : s.level (var ((s.cl c).lits.getD 1 0)) = s.decision_level) :
    falsified_at s c s.decision_level := by
  have hkb : kb_inv s.vc (clause_ptrs s) s.cl s.watched := hinv.1
  obtain ⟨c1, _, c3⟩ := hkb.1 c hc
  constructor
  · intro x hx
    refine ⟨hf x hx, ?_⟩
    have hok := c3 x hx
    apply ht.2.1 _ (lit_ok_var s.vc x hok).2
    rw [hf x hx]
    exact neg_ne_zero x hok.1
  · refine ⟨(s.cl c).lits.getD 1 0, ?_, hl⟩
    rw [List.getD_eq_getElem _ _ (by omega)]
    exact List.getElem_mem _

theorem trail_valid_frame (P : (Nat → Bool) → Prop) (s m : my_manager) (hf : dcc_frame s m)
    (h : trail_valid P s) : trail_valid P m := by
  obtain ⟨e1, e2, e3, e4, e5, e6, e7⟩ := hf
  unfold trail_valid at h ⊢
  rw [e1, e2, e3, e4, e5, e7]
  exact h

theorem falsified_at_frame (s m : my_manager) (c clevel : Nat) (hf : dcc_frame s m)
    (h : falsified_at s c clevel) : falsified_at m c clevel := by
  obtain ⟨e1, e2, e3, e4, e5, e6, e7⟩ := hf
  unfold falsified_at on_trail at h ⊢
  rw [e1, e2, e4, e5, e7]
  exact h

/-! ### The literal macros -/

/-- C18: for every literal `l`, `neg(neg(l)) = l`; for every variable `v`,
`var(plit(v)) = v` and `var(nlit(v)) = v`.  The macros are computed on
naturals; `plit(v) = 2v` and `nlit(v) = 2v + 1`, which stay within a 32-bit
`int` for every `v < 2^30`. -/
theorem literal_algebra :
    (∀ l : Nat, neg (neg l) = l)
    ∧ (∀ v : Nat, var (plit v) = v ∧ var (nlit v) = v
        ∧ plit v = 2 * v ∧ nlit v = 2 * v + 1) := by
  refine ⟨neg_neg, fun v => ⟨?_, ?_, plit_eq v, nlit_eq v⟩⟩
  · rw [var_eq, plit_eq]
    omega
  · rw [var_eq, nlit_eq]
    omega

/-- C19: on the literals of the variables `1..vc` the macro `watched_index`
is injective and takes its values below `2 * vc` (it is `l - 2`, so the
subtraction `var(l) - 1` never goes below zero); the two literals of a
variable `v ≥ 1` have different indices. -/
theorem watched_index_injective (vc l1 l2 : Nat) (h1 : lit_ok vc l1) (h2 : lit_ok vc l2) :
    (watched_index l1 = watched_index l2 → l1 = l2)
    ∧ watched_index l1 < 2 * vc ∧ watched_index l1 + 2 = l1
    ∧ ∀ v, 1 ≤ v → watched_index (plit v) ≠ watched_index (nlit v) := by
  have e1 := watched_index_eq l1 h1.1
  refine ⟨fun h => watched_index_inj l1 l2 h1.1 h2.1 h, ?_, ?_, ?_⟩
  · have := h1.2
    have := h1.1
    omega
  · have := h1.1
    omega
  · intro v hv
    rw [watched_index_eq (plit v) (by rw [plit_eq]; omega),
      watched_index_eq (nlit v) (by rw [nlit_eq]; omega), plit_eq, nlit_eq]
    omega

/-- C19, witness: the literals `1` and `-1` (2 and 3) among three variables. -/
theorem watched_index_injective_witness :
    (watched_index 2 = watched_index 3 → 2 = 3)
    ∧ watched_index 2 < 2 * 3 ∧ watched_index 2 + 2 = 2
    ∧ ∀ v, 1 ≤ v → watched_index (plit v) ≠ watched_index (nlit v) :=
  watched_index_injective 3 2 3 (by decide) (by decide)

/-! ### The max-heap property -/

theorem gt_iff (score : Nat → ℚ) (a b : Nat) : gt score a b = true ↔ score b < score a := by
  unfold gt
  simp

theorem percolate_up_loop_max (score : Nat → ℚ) (v n : Nat) :
    ∀ (f : Nat) (order indices : Nat → Nat) (i : Nat), 1 ≤ i → i ≤ n → i ≤ f →
      up_hole score order n i v →
      up_hole score (percolate_up_loop score v f order indices i).1 n
        (percolate_up_loop score v f order indices i).2.2 v
      ∧ (2 ≤ (percolate_up_loop score v f order indices i).2.2 →
          score v ≤ score ((percolate_up_loop score v f order indices i).1
            ((percolate_up_loop score v f order indices i).2.2 / 2))) := by
  intro f
  induction f with
  | zero =>
    intro order indices i h1 _ hf _
    omega
  | succ f ih =>
    intro order indices i h1 h2 hf hh
    rw [percolate_up_loop]
    by_cases hc : i / 2 ≠ 0 ∧ gt score v (order (i / 2)) = true
    · rw [if_pos hc]
      obtain ⟨u1, u2, u3⟩ := hh
      have hlt := (gt_iff score v (order (i / 2))).mp hc.2
      have hp1 : 1 ≤ i / 2 := by omega
      have hi2 : 2 ≤ i := by omega
      apply ih _ _ (i / 2) hp1 (by omega) (by omega)
      refine ⟨?_, ?_, ?_⟩
      · intro j j1 j2 j3 j4
        by_cases hji : j = i
        · exact absurd (by rw [hji]) j4
        · rw [Function.update_noteq hji]
          by_cases hjp : j / 2 = i
          · rw [hjp, Function.update_same]
            exact u3 j j1 j2 hjp hi2
          · rw [Function.update_noteq hjp]
            exact u1 j j1 j2 hji hjp
      · intro j j1 j2 j3
        by_cases hji : j = i
        · rw [hji, Function.update_same]
          exact le_of_lt hlt
        · rw [Function.update_noteq hji]
          have := u1 j j1 j2 hji (by omega)
          rw [j3] at this
          exact le_trans this (le_of_lt hlt)
      · intro j j1 j2 j3 j4
        have hpp : i / 2 / 2 ≠ i := by omega
        rw [Function.update_noteq hpp]
        have hpar := u1 (i / 2) j4 (by omega) (by omega) (by omega)
        by_cases hji : j = i
        · rw [hji, Function.update_same]
          exact hpar
        · rw [Function.update_noteq hji]
          have := u1 j j1 j2 hji (by omega)
          rw [j3] at this
          exact le_trans this hpar
    · rw [if_neg hc]
      refine ⟨hh, ?_⟩
      intro hi2
      have hne : i / 2 ≠ 0 := by
        have hi2' : 2 ≤ i := hi2
        omega
      have : ¬ gt score v (order (i / 2)) = true := fun h => hc ⟨hne, h⟩
      rw [gt_iff] at this
      exact not_lt.mp this

theorem up_hole_plug (score : Nat → ℚ) (order indices : Nat → Nat) (n i v : Nat)
    (h : up_hole score order n i v)
    (hpar : 2 ≤ i → score v ≤ score (order (i / 2))) :
    heap_max score { order := Function.update order i v, indices := indices, size := n } := by
  obtain ⟨u1, u2, u3⟩ := h
  intro j j1 j2
  show score (Function.update order i v j) ≤ score (Function.update order i v (j / 2))
  by_cases hji : j = i
  · rw [hji, Function.update_same, Function.update_noteq (by omega)]
    exact hpar (by omega)
  · rw [Function.update_noteq hji]
    by_cases hjp : j / 2 = i
    · rw [hjp, Function.update_same]
      exact u2 j j1 j2 hjp
    · rw [Function.update_noteq hjp]
      exact u1 j j1 j2 hji hjp

theorem percolate_up_max (score : Nat → ℚ) (h : heap) (i : Nat) (hi1 : 1 ≤ i)
    (hi2 : i ≤ h.size) (hh : up_hole score h.order h.size i (h.order i)) :
    heap_max score (percolate_up score h i) := by
  obtain ⟨r1, r2⟩ := percolate_up_loop_max score (h.order i) h.size i h.order h.indices i
    hi1 hi2 (le_refl _) hh
  exact up_hole_plug score _ _ _ _ _ r1 r2

theorem percolate_down_loop_max (score : Nat → ℚ) (v n : Nat) :
    ∀ (f : Nat) (order indices : Nat → Nat) (i : Nat), 1 ≤ i → i ≤ n → n < f + i →
      down_hole score order n i v →
      down_hole score (percolate_down_loop score v n f order indices i).1 n
        (percolate_down_loop score v n f order indices i).2.2 v
      ∧ (∀ j, 2 ≤ j → j ≤ n → j / 2 = (percolate_down_loop score v n f order indices i).2.2 →
          score ((percolate_down_loop score v n f order indices i).1 j) ≤ score v) := by
  intro f
  induction f with
  | zero =>
    intro order indices i h1 h2 hf _
    omega
  | succ f ih =>
    intro order indices i h1 h2 hf hh
    obtain ⟨d1, d2, d3⟩ := hh
    rw [percolate_down_loop]
    by_cases hc : 2 * i ≤ n
    · rw [if_pos hc]
      simp only
      -- the step to the child `c`, the variable at the other child being no better
      have step : ∀ c, (c = 2 * i ∨ c = 2 * i + 1) → c ≤ n →
          (∀ j, 2 ≤ j → j ≤ n → j / 2 = i → score (order j) ≤ score (order c)) →
          score v < score (order c) →
          down_hole score (Function.update order i (order c)) n c v := by
        intro c hcc hcn hbig hlt
        have hci : c ≠ i := by omega
        have hc2 : c / 2 = i := by omega
        refine ⟨?_, ?_, ?_⟩
        · intro j j1 j2 j3 j4
          by_cases hji : j = i
          · rw [hji, Function.update_same, Function.update_noteq (by omega)]
            exact d3 c (by omega) hcn hc2 (by omega)
          · rw [Function.update_noteq hji]
            by_cases hjp : j / 2 = i
            · rw [hjp, Function.update_same]
              exact hbig j j1 j2 hjp
            · rw [Function.update_noteq hjp]
              exact d1 j j1 j2 hji hjp
        · intro _
          rw [hc2, Function.update_same]
          exact le_of_lt hlt
        · intro j j1 j2 j3 _
          have hji : j ≠ i := by omega
          rw [Function.update_noteq hji, hc2, Function.update_same]
          have := d1 j j1 j2 hji (by omega)
          rw [j3] at this
          exact this
      have stop : ∀ c, (∀ j, 2 ≤ j → j ≤ n → j / 2 = i → score (order j) ≤ score (order c)) →
          ¬ score v < score (order c) →
          ∀ j, 2 ≤ j → j ≤ n → j / 2 = i → score (order j) ≤ score v := by
        intro c hbig hnl j j1 j2 j3
        exact le_trans (hbig j j1 j2 j3) (not_lt.mp hnl)
      by_cases hb : 2 * i + 1 ≤ n ∧ gt score (order (2 * i + 1)) (order (2 * i)) = true
      · rw [if_pos hb]
        have hbl := (gt_iff score _ _).mp hb.2
        have hbig : ∀ j, 2 ≤ j → j ≤ n → j / 2 = i →
            score (order j) ≤ score (order (2 * i + 1)) := by
          intro j j1 j2 j3
          have : j = 2 * i ∨ j = 2 * i + 1 := by omega
          rcases this with e | e
          · rw [e]; exact le_of_lt hbl
          · rw [e]
        by_cases hg : gt score (order (2 * i + 1)) v = true
        · rw [if_pos hg]
          exact ih _ _ (2 * i + 1) (by omega) hb.1 (by omega)
            (step (2 * i + 1) (Or.inr rfl) hb.1 hbig ((gt_iff score _ _).mp hg))
        · rw [if_neg hg]
          rw [gt_iff] at hg
          exact ⟨⟨d1, d2, d3⟩, stop _ hbig hg⟩
      · rw [if_neg hb]
        have hbig : ∀ j, 2 ≤ j → j ≤ n → j / 2 = i →
            score (order j) ≤ score (order (2 * i)) := by
          intro j j1 j2 j3
          have : j = 2 * i ∨ j = 2 * i + 1 := by omega
          rcases this with e | e
          · rw [e]
          · rw [e]
            have hn1 : 2 * i + 1 ≤ n := by omega
            have : ¬ gt score (order (2 * i + 1)) (order (2 * i)) = true := fun h => hb ⟨hn1, h⟩
            rw [gt_iff] at this
            exact not_lt.mp this
        by_cases hg : gt score (order (2 * i)) v = true
        · rw [if_pos hg]
          exact ih _ _ (2 * i) (by omega) hc (by omega)
            (step (2 * i) (Or.inl rfl) hc hbig ((gt_iff score _ _).mp hg))
        · rw [if_neg hg]
          rw [gt_iff] at hg
          exact ⟨⟨d1, d2, d3⟩, stop _ hbig hg⟩
    · rw [if_neg hc]
      refine ⟨⟨d1, d2, d3⟩, ?_⟩
      intro j j1 j2 j3
      have j3' : j / 2 = i := j3
      omega

theorem down_hole_plug (score : Nat → ℚ) (order indices : Nat → Nat) (n i v : Nat)
    (h : down_hole score order n i v)
    (hch : ∀ j, 2 ≤ j → j ≤ n → j / 2 = i → score (order j) ≤ score v) :
    heap_max score { order := Function.update order i v, indices := indices, size := n } := by
  obtain ⟨d1, d2, d3⟩ := h
  intro j j1 j2
  show score (Function.update order i v j) ≤ score (Function.update order i v (j / 2))
  by_cases hji : j = i
  · rw [hji, Function.update_same, Function.update_noteq (by omega)]
    exact d2 (by omega)
  · rw [Function.update_noteq hji]
    by_cases hjp : j / 2 = i
    · rw [hjp, Function.update_same]
      exact hch j j1 j2 hjp
    · rw [Function.update_noteq hjp]
      exact d1 j j1 j2 hji hjp

theorem percolate_down_max (score : Nat → ℚ) (h : heap) (i : Nat) (hi1 : 1 ≤ i)
    (hi2 : i ≤ h.size) (hh : down_hole score h.order h.size i (h.order i)) :
    heap_max score (percolate_down score h i) := by
  obtain ⟨r1, r2⟩ := percolate_down_loop_max score (h.order i) h.size h.size h.order h.indices i
    hi1 hi2 (by omega) hh
  exact down_hole_plug score _ _ _ _ _ r1 r2

/-! ### Well-formed heaps, as the specification words it -/

theorem heap_well_formed_iff (score : Nat → ℚ) (h : heap) :
    heap_well_formed score h ↔ heap_wf h ∧ heap_max score h := by
  constructor
  · rintro ⟨w1, w2, w3, w4⟩
    refine ⟨⟨?_, ?_⟩, fun i i1 i2 => w4 i i1 i2⟩
    · intro i i1 i2
      have hm : heap_mem h (h.order i) := ⟨i, by omega, i1, rfl⟩
      obtain ⟨a1, a2, a3⟩ := w1 _ hm
      exact w2 _ _ a1 a2 i1 i2 a3
    · intro v hv
      have hm : heap_mem h v := by
        by_contra hn
        exact hv (w3 v hn)
      obtain ⟨_, a2, a3⟩ := w1 v hm
      exact ⟨a2, a3⟩
  · rintro ⟨hw, hm⟩
    refine ⟨?_, ?_, ?_, fun i i1 i2 => hm i i1 i2⟩
    · intro v hv
      have hi := (heap_wf_mem h hw v).mp hv
      obtain ⟨a1, a2⟩ := hw.2 v hi
      exact ⟨by omega, a1, a2⟩
    · intro i j i1 i2 j1 j2 e
      have a := hw.1 i i1 i2
      have b := hw.1 j j1 j2
      rw [e] at a
      omega
    · intro v hv
      by_contra hn
      exact hv ((heap_wf_mem h hw v).mpr hn)

theorem insert_max (score : Nat → ℚ) (h : heap) (v : Nat) (hm : heap_max score h) :
    heap_max score (insert score h v) := by
  unfold insert
  apply percolate_up_max
  · show 1 ≤ h.size + 1
    omega
  · exact le_refl _
  · refine ⟨?_, ?_, ?_⟩
    · intro j j1 j2 j3 j4
      show score (Function.update h.order (h.size + 1) v j)
        ≤ score (Function.update h.order (h.size + 1) v (j / 2))
      have j2' : j ≤ h.size + 1 := j2
      have j3' : j ≠ h.size + 1 := j3
      rw [Function.update_noteq j3', Function.update_noteq (by omega)]
      exact hm j j1 (by omega)
    · intro j j1 j2 j3
      have j2' : j ≤ h.size + 1 := j2
      have j3' : j / 2 = h.size + 1 := j3
      omega
    · intro j j1 j2 j3
      have j2' : j ≤ h.size + 1 := j2
      have j3' : j / 2 = h.size + 1 := j3
      omega

theorem get_min_element_max (score : Nat → ℚ) (h : heap) (hm : heap_max score h)
    (hs : 1 ≤ h.size) : heap_max score (get_min_element score h).2 := by
  unfold get_min_element
  simp only
  by_cases hgt : h.size - 1 > 1
  · rw [if_pos hgt]
    apply percolate_down_max
    · exact le_refl _
    · show 1 ≤ h.size - 1
      omega
    · refine ⟨?_, ?_, ?_⟩
      · intro j j1 j2 j3 j4
        have j2' : j ≤ h.size - 1 := j2
        show score (Function.update h.order 1 (h.order h.size) j)
          ≤ score (Function.update h.order 1 (h.order h.size) (j / 2))
        rw [Function.update_noteq j3, Function.update_noteq j4]
        exact hm j j1 (by omega)
      · intro h2
        omega
      · intro j _ _ _ h2
        omega
  · rw [if_neg hgt]
    intro j j1 j2
    have j2' : j ≤ h.size - 1 := j2
    omega

theorem undo_max (score : Nat → ℚ) (h : heap) (v : Nat) (hm : heap_max score h) :
    heap_max score (undo score h v) := by
  unfold undo
  split
  · exact hm
  · exact insert_max score h v hm

/-- The heap after `update(h,v)` when the scores have moved from `score` to
`score1`: the order of the scores of the other members is kept and the score
of `v` has not fallen behind any of them. -/
theorem update_max (score score1 : Nat → ℚ) (h : heap) (v : Nat) (hw : heap_wf h)
    (hm : heap_max score h)
    (hmono : ∀ a b, heap_mem h a → heap_mem h b → a ≠ v → b ≠ v →
      score a ≤ score b → score1 a ≤ score1 b)
    (hv : heap_mem h v → ∀ a, heap_mem h a → a ≠ v → score a ≤ score v →
      score1 a ≤ score1 v) :
    heap_max score1 (update score1 h v) := by
  have hpos : ∀ j, 1 ≤ j → j ≤ h.size → h.order j = v → j = h.indices v := by
    intro j j1 j2 e
    have := hw.1 j j1 j2
    rw [e] at this
    exact this.symm
  have hmem : ∀ j, 1 ≤ j → j ≤ h.size → heap_mem h (h.order j) :=
    fun j j1 j2 => ⟨j, by omega, j1, rfl⟩
  unfold update
  by_cases hin : in_heap h v = true
  · rw [if_pos hin]
    have hi := (in_heap_iff h v).mp hin
    obtain ⟨b1, b2⟩ := hw.2 v hi
    have hi1 : 1 ≤ h.indices v := by omega
    apply percolate_up_max score1 h _ hi1 b1
    rw [b2]
    refine ⟨?_, ?_, ?_⟩
    · intro j j1 j2 j3 j4
      apply hmono _ _ (hmem j (by omega) j2) (hmem (j / 2) (by omega) (by omega))
      · exact fun e => j3 (hpos j (by omega) j2 e)
      · exact fun e => j4 (hpos (j / 2) (by omega) (by omega) e)
      · exact hm j j1 j2
    · intro j j1 j2 j3
      apply hv ((heap_wf_mem h hw v).mpr hi) _ (hmem j (by omega) j2)
      · intro e
        have := hpos j (by omega) j2 e
        omega
      · have := hm j j1 j2
        rw [j3, b2] at this
        exact this
    · intro j j1 j2 j3 j4
      apply hmono _ _ (hmem j (by omega) j2) (hmem (h.indices v / 2) (by omega) (by omega))
      · intro e
        have := hpos j (by omega) j2 e
        omega
      · intro e
        have := hpos (h.indices v / 2) (by omega) (by omega) e
        omega
      · have x1 := hm j j1 j2
        rw [j3, b2] at x1
        have x2 := hm (h.indices v) j4 b1
        rw [b2] at x2
        exact le_trans x1 x2
  · rw [if_neg hin]
    have hnm : ¬ heap_mem h v := by
      intro hmv
      exact hin ((in_heap_iff h v).mpr ((heap_wf_mem h hw v).mp hmv))
    intro j j1 j2
    apply hmono _ _ (hmem j (by omega) j2) (hmem (j / 2) (by omega) (by omega))
    · exact fun e => hnm (e ▸ hmem j (by omega) j2)
    · exact fun e => hnm (e ▸ hmem (j / 2) (by omega) (by omega))
    · exact hm j j1 j2

theorem increment_literal_score_max (s : my_manager) (l : Nat)
    (hw : heap_wf s.var_order_heap) (hm : heap_max s.score s.var_order_heap)
    (hr : ∀ w, heap_mem s.var_order_heap w → 1 ≤ w ∧ w ≤ s.vc)
    (hinc : 0 ≤ s.score_inc) :
    heap_wf (increment_literal_score s l).var_order_heap
    ∧ heap_max (increment_literal_score s l).score (increment_literal_score s l).var_order_heap := by
  -- the scores after the increment and the rescaling are `k` times the old ones
  have key : ∀ (score1 : Nat → ℚ) (k : ℚ), 0 < k →
      (∀ a, heap_mem s.var_order_heap a → a ≠ var l → score1 a = k * s.score a) →
      (heap_mem s.var_order_heap (var l) →
        score1 (var l) = k * (s.score (var l) + s.score_inc)) →
      heap_wf (update score1 s.var_order_heap (var l))
      ∧ heap_max score1 (update score1 s.var_order_heap (var l)) := by
    intro score1 k hk h1 h2
    refine ⟨update_wf _ _ _ hw, update_max s.score score1 _ _ hw hm ?_ ?_⟩
    · intro a b ha hb hav hbv hle
      rw [h1 a ha hav, h1 b hb hbv]
      exact mul_le_mul_of_nonneg_left hle (le_of_lt hk)
    · intro hmv a ha hav hle
      rw [h1 a ha hav, h2 hmv]
      apply mul_le_mul_of_nonneg_left _ (le_of_lt hk)
      linarith
  unfold increment_literal_score rescale_variable_scores
  simp only
  by_cases hlim : Function.update s.score (var l) (s.score (var l) + s.score_inc) (var l)
      > 10 ^ 100
  · rw [if_pos hlim]
    apply key _ (1 / 10 ^ 100) (by positivity)
    · intro a ha hav
      have hra := hr a ha
      show (if 1 ≤ a ∧ a ≤ s.vc
        then Function.update s.score (var l) (s.score (var l) + s.score_inc) a * (1 / 10 ^ 100)
        else Function.update s.score (var l) (s.score (var l) + s.score_inc) a) = _
      rw [if_pos hra, Function.update_noteq hav]
      ring
    · intro hmv
      have hra := hr _ hmv
      show (if 1 ≤ var l ∧ var l ≤ s.vc
        then Function.update s.score (var l) (s.score (var l) + s.score_inc) (var l)
          * (1 / 10 ^ 100)
        else Function.update s.score (var l) (s.score (var l) + s.score_inc) (var l)) = _
      rw [if_pos hra, Function.update_same]
      ring
  · rw [if_neg hlim]
    apply key _ 1 (by norm_num)
    · intro a ha hav
      show Function.update s.score (var l) (s.score (var l) + s.score_inc) a = _
      rw [Function.update_noteq hav]
      ring
    · intro hmv
      show Function.update s.score (var l) (s.score (var l) + s.score_inc) (var l) = _
      rw [Function.update_same]
      ring

theorem heap_123_mem (v : Nat) : heap_mem heap_123 v ↔ (v = 1 ∨ v = 2 ∨ v = 3) := by
  constructor
  · rintro ⟨i, i1, i2, i3⟩
    have i1' : i < 3 + 1 := i1
    have hi : i = 1 ∨ i = 2 ∨ i = 3 := by omega
    rcases hi with e | e | e
    · left; rw [← i3, e]; rfl
    · right; left; rw [← i3, e]; rfl
    · right; right; rw [← i3, e]; rfl
  · rintro (e | e | e)
    · exact ⟨1, by decide, by decide, by rw [e]; rfl⟩
    · exact ⟨2, by decide, by decide, by rw [e]; rfl⟩
    · exact ⟨3, by decide, by decide, by rw [e]; rfl⟩

theorem heap_123_well_formed : heap_well_formed (fun _ => 0) heap_123 := by
  have hmem := heap_123_mem
  refine ⟨?_, ?_, ?_, ?_⟩
  · intro v hv
    rcases (hmem v).mp hv with e | e | e <;> subst e <;> decide
  · intro i j i1 i2 j1 j2 e
    have i2' : i ≤ 3 := i2
    have j2' : j ≤ 3 := j2
    have hi : i = 1 ∨ i = 2 ∨ i = 3 := by omega
    have hj : j = 1 ∨ j = 2 ∨ j = 3 := by omega
    rcases hi with a | a | a <;> rcases hj with b | b | b <;> subst a <;> subst b <;>
      first | rfl | exact absurd e (by decide)
  · intro v hv
    have h1 : v ≠ 1 := fun e => hv ((hmem v).mpr (Or.inl e))
    have h2 : v ≠ 2 := fun e => hv ((hmem v).mpr (Or.inr (Or.inl e)))
    have h3 : v ≠ 3 := fun e => hv ((hmem v).mpr (Or.inr (Or.inr e)))
    show (if v = 1 then 1 else if v = 2 then 2 else if v = 3 then 3 else 0) = 0
    rw [if_neg h1, if_neg h2, if_neg h3]
  · intro i _ _
    exact le_refl _

/-- C16: on a heap that is well formed for the scores (the recorded position
of a member holds the member, the members are pairwise distinct, a non-member
has position 0, and the score at a position is at most the score at its
parent position), `insert` of a non-member, `get_min_element` on a non-empty
heap and `undo` return a well-formed heap; so does `increment_literal_score`
(with the rescaling of all scores when the limit is passed) on the variable
heap of a manager, for the new scores, when the heap holds variables of
`1..vc` only and `score_inc` is not negative. -/
theorem heap_ops_well_formed (score : Nat → ℚ) (h : heap) (hw : heap_well_formed score h) :
    (∀ v, ¬ heap_mem h v → heap_well_formed score (insert score h v))
    ∧ (1 ≤ h.size → heap_well_formed score (get_min_element score h).2)
    ∧ (∀ v, heap_well_formed score (undo score h v))
    ∧ (∀ (s : my_manager) (l : Nat), s.score = score → s.var_order_heap = h →
        (∀ w, heap_mem h w → 1 ≤ w ∧ w ≤ s.vc) → 0 ≤ s.score_inc →
        heap_well_formed (increment_literal_score s l).score
          (increment_literal_score s l).var_order_heap) := by
  obtain ⟨hwf, hmx⟩ := (heap_well_formed_iff score h).mp hw
  refine ⟨?_, ?_, ?_, ?_⟩
  · intro v hv
    have hi : h.indices v = 0 := hw.2.2.1 v hv
    exact (heap_well_formed_iff _ _).mpr ⟨insert_wf score h v hwf hi, insert_max score h v hmx⟩
  · intro hs
    exact (heap_well_formed_iff _ _).mpr
      ⟨get_min_element_wf score h hwf hs, get_min_element_max score h hmx hs⟩
  · intro v
    exact (heap_well_formed_iff _ _).mpr ⟨undo_wf score h v hwf, undo_max score h v hmx⟩
  · intro s l e1 e2 hr hinc
    subst e1 e2
    exact (heap_well_formed_iff _ _).mpr (increment_literal_score_max s l hwf hmx hr hinc)

/-- C16, witness: the heap of the small instance, all scores being 0, and
the increment of the score of variable 1 in the small instance. -/
theorem heap_ops_well_formed_witness :
    (1 ≤ heap_123.size →
        heap_well_formed (fun _ => 0) (get_min_element (fun _ => 0) heap_123).2)
    ∧ (∀ v, heap_well_formed (fun _ => 0) (undo (fun _ => 0) heap_123 v))
    ∧ heap_well_formed (increment_literal_score example_manager 2).score
        (increment_literal_score example_manager 2).var_order_heap :=
  ⟨(heap_ops_well_formed (fun _ => 0) heap_123 heap_123_well_formed).2.1,
    (heap_ops_well_formed (fun _ => 0) heap_123 heap_123_well_formed).2.2.1,
    (heap_ops_well_formed (fun _ => 0) heap_123 heap_123_well_formed).2.2.2
      example_manager 2 rfl rfl
      (fun w hw => by
        have hv : 3 = example_manager.vc := rfl
        rw [← hv]
        rcases (heap_123_mem w).mp hw with e | e | e <;> omega)
      (by
        show (0 : ℚ) ≤ 1
        norm_num)⟩

/-! ### Variable selection and the scores -/

theorem heap_max_root (score : Nat → ℚ) (h : heap) (hm : heap_max score h) :
    ∀ i, 1 ≤ i → i ≤ h.size → score (h.order i) ≤ score (h.order 1) := by
  intro i
  induction i using Nat.strong_induction_on with
  | _ i ih =>
    intro i1 i2
    by_cases e : i = 1
    · rw [e]
    · have h2 : 2 ≤ i := by omega
      exact le_trans (hm i h2 i2) (ih (i / 2) (by omega) (by omega) (by omega))

theorem get_min_element_not_mem (score : Nat → ℚ) (h : heap) (hw : heap_wf h)
    (hs : 1 ≤ h.size) : ¬ heap_mem (get_min_element score h).2 (h.order 1) := by
  have hbase : ¬ heap_mem
      { order := Function.update h.order 1 (h.order h.size),
        indices := Function.update (Function.update h.indices
          (Function.update h.order 1 (h.order h.size) 1) 1) (h.order 1) 0,
        size := h.size - 1 } (h.order 1) := by
    rintro ⟨i, i1, i2, i3⟩
    have i1' : i < h.size - 1 + 1 := i1
    have i3' : Function.update h.order 1 (h.order h.size) i = h.order 1 := i3
    have a1 := hw.1 1 (le_refl _) hs
    by_cases e : i = 1
    · rw [e, Function.update_same] at i3'
      have a2 := hw.1 h.size hs (le_refl _)
      rw [i3', a1] at a2
      omega
    · rw [Function.update_noteq e] at i3'
      have a2 := hw.1 i i2 (by omega)
      rw [i3', a1] at a2
      omega
  unfold get_min_element
  simp only
  by_cases hgt : h.size - 1 > 1
  · rw [if_pos hgt]
    intro hm
    apply hbase
    exact ((percolate_down_mem score _ 1 (le_refl _) (by show 1 ≤ h.size - 1; omega)).2.1 _).mp hm
  · rw [if_neg hgt]
    exact hbase

theorem select_variable_loop_max :
    ∀ (f : Nat) (s : my_manager), s.var_order_heap.size < f →
      heap_wf s.var_order_heap → heap_max s.score s.var_order_heap →
      (∀ w, heap_mem s.var_order_heap w → 1 ≤ w ∧ w ≤ s.vc) →
      (∀ u, 1 ≤ u → u ≤ s.vc → s.status u = 0 → s.var_order_heap.indices u ≠ 0) →
      (∀ u, u ≤ s.vc → s.status u ≠ 0 → s.level u ≠ 0) →
      (∀ u, u ≤ s.vc → s.status u = 0 → s.level u = 0) →
      ∃ v s1, select_variable_loop f s = some (v, s1)
        ∧ s1 = { s with var_order_heap := s1.var_order_heap }
        ∧ heap_wf s1.var_order_heap ∧ heap_max s.score s1.var_order_heap
        ∧ (v = 0 ↔ ∀ u, 1 ≤ u → u ≤ s.vc → s.status u ≠ 0)
        ∧ (v ≠ 0 → 1 ≤ v ∧ v ≤ s.vc ∧ s.level v = 0 ∧ s.status v = 0
            ∧ (∀ u, 1 ≤ u → u ≤ s.vc → s.status u = 0 → s.score u ≤ s.score v)
            ∧ ¬ heap_mem s1.var_order_heap v ∧ s1.var_order_heap.indices v = 0) := by
  intro f
  induction f with
  | zero => intro s h; omega
  | succ f ih =>
    intro s hf hw hm hr hu hl1 hl0
    rw [select_variable_loop]
    by_cases he : empty s.var_order_heap = true
    · rw [if_pos he]
      have hsz : s.var_order_heap.size = 0 := by
        unfold empty at he
        simpa using he
      have hall : ∀ u, 1 ≤ u → u ≤ s.vc → s.status u ≠ 0 := by
        intro u u1 u2 hs
        have := (heap_wf_mem _ hw u).mpr (hu u u1 u2 hs)
        exact heap_mem_size _ _ this hsz
      exact ⟨0, s, rfl, rfl, hw, hm, ⟨fun _ => hall, fun _ => rfl⟩, fun hv => absurd rfl hv⟩
    · rw [if_neg he]
      have hsz : 1 ≤ s.var_order_heap.size := by
        unfold empty at he
        have : ¬ s.var_order_heap.size = 0 := by simpa using he
        omega
      obtain ⟨g1, g2, g3, g4, g5⟩ := get_min_element_mem s.score s.var_order_heap hsz
      have hw1 := get_min_element_wf s.score s.var_order_heap hw hsz
      have hm1 := get_min_element_max s.score s.var_order_heap hm hsz
      have hnm := get_min_element_not_mem s.score s.var_order_heap hw hsz
      have hmin : heap_mem s.var_order_heap (get_min_element s.score s.var_order_heap).1 := by
        rw [g1]
        exact ⟨1, by omega, le_refl _, rfl⟩
      simp only
      by_cases hlv : s.level (get_min_element s.score s.var_order_heap).1 = 0
      · rw [if_pos hlv]
        obtain ⟨r1, r2⟩ := hr _ hmin
        have hst : s.status (get_min_element s.score s.var_order_heap).1 = 0 := by
          by_contra hc
          exact hl1 _ r2 hc hlv
        refine ⟨_, _, rfl, rfl, hw1, hm1, ⟨fun e => by omega, fun hall => ?_⟩, fun _ => ?_⟩
        · exact absurd hst (hall _ r1 r2)
        · refine ⟨r1, r2, hlv, hst, ?_, ?_, ?_⟩
          · intro u u1 u2 hs
            obtain ⟨i, i1, i2, i3⟩ := (heap_wf_mem _ hw u).mpr (hu u u1 u2 hs)
            rw [g1, ← i3]
            exact heap_max_root s.score _ hm i i2 (by omega)
          · rw [g1]
            exact hnm
          · by_contra hc
            apply hnm
            rw [← g1]
            exact (heap_wf_mem _ hw1 _).mpr hc
      · rw [if_neg hlv]
        obtain ⟨v, s1, i0, i1, i2, i3, i4, i5⟩ := ih
          { s with var_order_heap := (get_min_element s.score s.var_order_heap).2 }
          (by
            show (get_min_element s.score s.var_order_heap).2.size < f
            rw [g2]
            omega)
          hw1 hm1 (fun w hmw => hr w (g3 w hmw))
          (by
            intro u u1 u2 hs
            have hmu := (heap_wf_mem _ hw u).mpr (hu u u1 u2 hs)
            rcases g4 u hmu with x | x
            · exfalso
              have : s.level u = 0 := hl0 u u2 hs
              rw [x, ← g1] at this
              exact hlv this
            · exact (heap_wf_mem _ hw1 u).mp x)
          hl1 hl0
        refine ⟨v, s1, i0, ?_, i2, i3, i4, i5⟩
        rw [i1]

/-- C17: on a well-formed variable heap over `1..vc` that holds every
unassigned variable, in a state in which a variable of `1..vc` has level 0
exactly when it is unassigned, `select_variable` returns; it returns 0 if and
only if no variable of `1..vc` is unassigned; a variable `v ≠ 0` it returns
is one of `1..vc` with `level[v] = 0`, unassigned, with a score at least the
score of every unassigned variable, and `v` is no longer in the heap, which
is still well formed; nothing but the heap changes. -/
theorem select_variable_max (s : my_manager)
    (hw : heap_well_formed s.score s.var_order_heap)
    (hr : ∀ w, heap_mem s.var_order_heap w → 1 ≤ w ∧ w ≤ s.vc)
    (hu : ∀ u, 1 ≤ u → u ≤ s.vc → s.status u = 0 → heap_mem s.var_order_heap u)
    (hl : ∀ u, u ≤ s.vc → (s.status u = 0 ↔ s.level u = 0)) :
    ∃ v s1, select_variable s = some (v, s1)
      ∧ s1 = { s with var_order_heap := s1.var_order_heap }
      ∧ heap_well_formed s.score s1.var_order_heap
      ∧ (v = 0 ↔ ∀ u, 1 ≤ u → u ≤ s.vc → s.status u ≠ 0)
      ∧ (v ≠ 0 → 1 ≤ v ∧ v ≤ s.vc ∧ s.level v = 0 ∧ s.status v = 0
          ∧ (∀ u, 1 ≤ u → u ≤ s.vc → s.status u = 0 → s.score u ≤ s.score v)
          ∧ ¬ heap_mem s1.var_order_heap v ∧ s1.var_order_heap.indices v = 0) := by
  obtain ⟨hwf, hmx⟩ := (heap_well_formed_iff _ _).mp hw
  obtain ⟨v, s1, a0, a1, a2, a3, a4, a5⟩ := select_variable_loop_max
    (s.var_order_heap.size + 1) s (by omega) hwf hmx hr
    (fun u u1 u2 hs => (heap_wf_mem _ hwf u).mp (hu u u1 u2 hs))
    (fun u u2 hs hl0 => hs ((hl u u2).mpr hl0))
    (fun u u2 hs => (hl u u2).mp hs)
  exact ⟨v, s1, a0, a1, (heap_well_formed_iff _ _).mpr ⟨a2, a3⟩, a4, a5⟩

/-- C17, witness: the small instance, in which nothing is assigned. -/
theorem select_variable_max_witness :
    ∃ v s1, select_variable example_manager = some (v, s1)
      ∧ s1 = { example_manager with var_order_heap := s1.var_order_heap }
      ∧ heap_well_formed example_manager.score s1.var_order_heap
      ∧ (v = 0 ↔ ∀ u, 1 ≤ u → u ≤ example_manager.vc → example_manager.status u ≠ 0)
      ∧ (v ≠ 0 → 1 ≤ v ∧ v ≤ example_manager.vc ∧ example_manager.level v = 0
          ∧ example_manager.status v = 0
          ∧ (∀ u, 1 ≤ u → u ≤ example_manager.vc → example_manager.status u = 0 →
              example_manager.score u ≤ example_manager.score v)
          ∧ ¬ heap_mem s1.var_order_heap v ∧ s1.var_order_heap.indices v = 0) :=
  select_variable_max example_manager heap_123_well_formed
    (fun w hw => by
      have hv : 3 = example_manager.vc := rfl
      rw [← hv]
      rcases (heap_123_mem w).mp hw with e | e | e <;> omega)
    (fun u u1 u2 _ => by
      have u2' : u ≤ 3 := u2
      apply (heap_123_mem u).mpr
      omega)
    (fun u _ => ⟨fun _ => rfl, fun _ => rfl⟩)

/-! ### The restart schedule is touched by the restart block only -/

theorem restart_frame_refl (s : my_manager) : restart_frame s s := ⟨rfl, rfl, rfl⟩

theorem restart_frame_trans (s s1 s2 : my_manager) (h1 : restart_frame s s1)
    (h2 : restart_frame s1 s2) : restart_frame s s2 :=
  ⟨h2.1.trans h1.1, h2.2.1.trans h1.2.1, h2.2.2.trans h1.2.2⟩

theorem bcp_clause_at_restart (slevel : Nat) (s : my_manager) (last clause : Nat)
    (lits1 : List Nat) :
    restart_frame s (bcp_clause_at slevel s last clause lits1).state := by
  unfold bcp_clause_at
  simp only
  split
  · exact ⟨rfl, rfl, rfl⟩
  · split
    · exact ⟨rfl, rfl, rfl⟩
    · split
      · exact ⟨rfl, rfl, rfl⟩
      · split
        · exact ⟨rfl, rfl, rfl⟩
        · exact ⟨rfl, rfl, rfl⟩

theorem bcp_clause_restart (slevel neg_lit : Nat) (s : my_manager) (last clause : Nat) :
    restart_frame s (bcp_clause slevel neg_lit s last clause).state := by
  unfold bcp_clause
  exact bcp_clause_at_restart _ _ _ _ _

theorem bcp_watch_loop_restart (slevel neg_lit : Nat) :
    ∀ (rest : List Nat) (s : my_manager) (last : Nat) (kept : List Nat),
      restart_frame s (bcp_watch_loop slevel neg_lit rest s last kept).m := by
  intro rest
  induction rest with
  | nil => intro s last kept; exact ⟨rfl, rfl, rfl⟩
  | cons clause rest ih =>
    intro s last kept
    have h1 := bcp_clause_restart slevel neg_lit s last clause
    rw [bcp_watch_loop]
    cases hbc : bcp_clause slevel neg_lit s last clause with
    | kept s1 last1 =>
      rw [hbc] at h1
      exact restart_frame_trans _ _ _ h1 (ih s1 last1 _)
    | moved s1 =>
      rw [hbc] at h1
      exact restart_frame_trans _ _ _ h1 (ih s1 last _)
    | conflict s1 =>
      rw [hbc] at h1
      exact h1

theorem bcp_loop_restart (slevel : Nat) :
    ∀ (fuel : Nat) (s : my_manager) (last : Nat) (res : Bool) (s1 : my_manager),
      bcp_loop slevel fuel s last = some (res, s1) → restart_frame s s1 := by
  intro fuel
  induction fuel with
  | zero => intro s last res s1 h; simp [bcp_loop] at h
  | succ f ih =>
    intro s last res s1 h
    rw [bcp_loop] at h
    simp only at h
    split at h
    · simp only [Option.some.injEq, Prod.mk.injEq] at h
      rw [← h.2]
      exact ⟨rfl, rfl, rfl⟩
    · have hw := bcp_watch_loop_restart slevel (neg (s.status (dequeue s.score s.imp).1))
        (s.watched (watched_index (neg (s.status (dequeue s.score s.imp).1))))
        { s with imp := (dequeue s.score s.imp).2 } last []
      split at h
      · simp only [Option.some.injEq, Prod.mk.injEq] at h
        rw [← h.2]
        exact hw
      · have h2 := ih _ _ res s1 h
        exact restart_frame_trans _ _ _ (restart_frame_trans _ _ _ hw ⟨rfl, rfl, rfl⟩) h2

theorem bcp_restart (fuel : Nat) (s : my_manager) (l : Nat) (res : Bool) (s1 : my_manager)
    (h : bcp fuel s l = some (res, s1)) : restart_frame s s1 := by
  unfold bcp at h
  simp only at h
  have h2 := bcp_loop_restart _ fuel _ _ res s1 h
  exact restart_frame_trans _ _ _ ⟨rfl, rfl, rfl⟩ h2

theorem set_decision_restart (fuel : Nat) (s : my_manager) (l : Nat) (res : Bool)
    (s1 : my_manager) (h : set_decision fuel s l = some (res, s1)) : restart_frame s s1 := by
  unfold set_decision at h
  have h1 := bcp_restart fuel _ l res s1 h
  have h0 : restart_frame s (set_decision_start s l) := by
    unfold set_decision_start
    simp only
    split <;> exact ⟨rfl, rfl, rfl⟩
  exact restart_frame_trans _ _ _ h0 h1

theorem backtrack_loop_restart :
    ∀ (n : Nat) (s : my_manager) (stack : Nat),
      restart_frame s (backtrack_loop n s stack) := by
  intro n
  induction n with
  | zero => intro s stack; exact ⟨rfl, rfl, rfl⟩
  | succ n ih =>
    intro s stack
    rw [backtrack_loop]
    have h0 : restart_frame s (backtrack_step s stack) := by
      unfold backtrack_step
      simp only
      split <;> exact ⟨rfl, rfl, rfl⟩
    exact restart_frame_trans _ _ _ h0 (ih _ _)

theorem backtrack_restart (s : my_manager) (dest : Nat) :
    restart_frame s (backtrack s dest) := by
  unfold backtrack
  split
  · exact ⟨rfl, rfl, rfl⟩
  · exact backtrack_loop_restart _ s _

theorem increment_literal_score_restart (s : my_manager) (l : Nat) :
    restart_frame s (increment_literal_score s l) := by
  unfold increment_literal_score rescale_variable_scores
  simp only
  split <;> exact ⟨rfl, rfl, rfl⟩

theorem increment_clause_score_restart (s : my_manager) (c : Nat) :
    restart_frame s (increment_clause_score s c) := by
  unfold increment_clause_score rescale_clause_scores
  simp only
  split <;> exact ⟨rfl, rfl, rfl⟩

theorem restart_frame_cdc (s s1 : my_manager) (cdc : Nat → Nat) (idx : Nat)
    (h : restart_frame s s1) : restart_frame s { s1 with cdc := cdc, cdc_index := idx } := h

theorem dcc_scan_restart (clevel : Nat) :
    ∀ (lits : List Nat) (st : dcc_state), restart_frame st.m (dcc_scan clevel lits st).m := by
  intro lits
  induction lits with
  | nil => intro st; rw [dcc_scan]; exact restart_frame_refl _
  | cons cur rest ih =>
    intro st
    rw [dcc_scan]
    simp only
    have h1 := increment_literal_score_restart st.m cur
    split
    · split
      · exact restart_frame_trans _ _ _ h1 (ih _)
      · exact restart_frame_trans _ _ _ (restart_frame_cdc _ _ _ _ h1) (ih _)
    · exact ih st

theorem dcc_loop_restart (clevel : Nat) :
    ∀ (fuel : Nat) (conf : Option Nat) (next_lit n : Nat) (st st1 : dcc_state) (nl : Nat),
      dcc_loop clevel fuel conf next_lit n st = some (st1, nl) →
      restart_frame st.m st1.m := by
  intro fuel
  induction fuel with
  | zero => intro conf next_lit n st st1 nl h; simp [dcc_loop] at h
  | succ f ih =>
    intro conf next_lit n st st1 nl h
    cases conf with
    | none => simp [dcc_loop] at h
    | some c =>
      rw [dcc_loop] at h
      simp only at h
      have hsc := dcc_scan_restart clevel
        ((st.m.cl c).lits.drop (if next_lit = 0 then 0 else 1)) st
      generalize dcc_scan clevel ((st.m.cl c).lits.drop (if next_lit = 0 then 0 else 1)) st
        = sa at hsc h
      cases hwk : dcc_walk sa.m.assign sa.seen n with
      | none =>
        rw [hwk] at h
        simp at h
      | some k =>
        rw [hwk] at h
        simp only at h
        have hm2 : restart_frame sa.m
            (match sa.m.reason (var (sa.m.assign k)) with
              | some r => if (sa.m.cl r).index ≥ 0 then increment_clause_score sa.m r else sa.m
              | none => sa.m) := by
          cases sa.m.reason (var (sa.m.assign k)) with
          | none => exact restart_frame_refl _
          | some r =>
            simp only
            split
            · exact increment_clause_score_restart _ _
            · exact restart_frame_refl _
        by_cases hgt : sa.num_lits_at_clevel - 1 > 0
        · rw [if_pos hgt] at h
          have := ih _ _ _ _ st1 nl h
          exact restart_frame_trans _ _ _ (restart_frame_trans _ _ _ hsc hm2) this
        · rw [if_neg hgt] at h
          simp only [Option.some.injEq, Prod.mk.injEq] at h
          obtain ⟨h1, _⟩ := h
          rw [← h1]
          exact restart_frame_trans _ _ _ hsc hm2

theorem dcc_min_loop_restart (minl : Nat) :
    ∀ (n i : Nat) (st r : dcc_min_state),
      dcc_min_loop minl n i st = some r → restart_frame st.m r.m := by
  intro n
  induction n with
  | zero =>
    intro i st r h
    rw [dcc_min_loop] at h
    simp only [Option.some.injEq] at h
    rw [← h]
    exact restart_frame_refl _
  | succ n ih =>
    intro i st r h
    rw [dcc_min_loop] at h
    simp only [] at h
    have hk : ∀ (seen1 : Nat → Bool) (asl : Nat),
        dcc_min_loop minl n (i + 1)
          { m := { st.m with cdc := (Function.update st.m.cdc st.j (st.m.cdc i)) },
            seen := seen1, j := st.j + 1, assertion_level := asl } = some r →
        restart_frame st.m r.m := by
      intro seen1 asl hrun
      have := ih (i + 1) _ r hrun
      exact restart_frame_trans _ _ _ ⟨rfl, rfl, rfl⟩ this
    by_cases hrn : st.m.reason (var (st.m.cdc i)) = none
    · rw [if_pos hrn] at h
      exact hk _ _ h
    · rw [if_neg hrn] at h
      cases hrem : removable st.m st.seen (st.m.cdc i) minl with
      | none =>
        rw [hrem] at h
        simp at h
      | some res =>
        obtain ⟨b, seen1⟩ := res
        rw [hrem] at h
        cases b with
        | false =>
          simp only at h
          exact hk _ _ h
        | true =>
          simp only at h
          exact ih (i + 1) { st with seen := seen1 } r h

theorem derive_conflict_clause_restart (s : my_manager) (conf : Option Nat) (clevel : Nat)
    (size alevel : Nat) (s1 : my_manager)
    (h : derive_conflict_clause s conf clevel = some (size, alevel, s1)) :
    restart_frame s s1 := by
  unfold derive_conflict_clause at h
  simp only at h
  by_cases hc : clevel ≤ 1
  · rw [if_pos hc] at h
    simp only [Option.some.injEq, Prod.mk.injEq] at h
    obtain ⟨_, _, h3⟩ := h
    rw [← h3]
    exact ⟨rfl, rfl, rfl⟩
  · rw [if_neg hc] at h
    cases hl : dcc_loop clevel (s.assign_top + 1) conf 0 s.assign_top
        { m := { s with assertion_level := 1, cdc := (Function.update s.cdc 0 0),
                        cdc_index := 1 },
          seen := fun _ => false, num_lits_at_clevel := 0 } with
    | none =>
      rw [hl] at h
      simp at h
    | some res =>
      obtain ⟨st1, nl⟩ := res
      rw [hl] at h
      simp only at h
      have h1 := dcc_loop_restart clevel _ _ _ _ _ st1 nl hl
      cases hmin : dcc_min_loop
          (dcc_minl { st1.m with cdc := (Function.update st1.m.cdc 0 (neg nl)) }
            (st1.m.cdc_index - 1) 1 0) (st1.m.cdc_index - 1) 1
          { m := { st1.m with cdc := (Function.update st1.m.cdc 0 (neg nl)) },
            seen := Function.update st1.seen (var nl) true, j := 1, assertion_level := 1 } with
      | none =>
        rw [hmin] at h
        simp at h
      | some r =>
        rw [hmin] at h
        simp only [Option.some.injEq, Prod.mk.injEq] at h
        obtain ⟨_, _, h3⟩ := h
        rw [← h3]
        have h2 := dcc_min_loop_restart _ _ _ _ r hmin
        exact restart_frame_trans _ _ _
          (restart_frame_trans _ _ _ (restart_frame_trans _ _ _ ⟨rfl, rfl, rfl⟩ h1)
            ⟨rfl, rfl, rfl⟩) h2

theorem analyze_conflict_restart (s : my_manager) (conf : Option Nat) (clevel : Nat)
    (s1 : my_manager) (h : analyze_conflict s conf clevel = some s1) : restart_frame s s1 := by
  unfold analyze_conflict at h
  simp only at h
  have key : ∀ m : my_manager, restart_frame s m →
      (match derive_conflict_clause
          { m with conflict_level := clevel, conflicts := m.conflicts + 1 } conf clevel with
        | none => none
        | some (size, assertion_level, s3) =>
          if size > 0 then
            some { s3 with
              assertion_level := assertion_level,
              cl := (Function.update s3.cl s3.alloc_next
                { index := 1, lits := List.map s3.cdc (List.range size) }),
              conflict_clause := some s3.alloc_next,
              alloc_next := s3.alloc_next + 1 }
          else
            some { s3 with assertion_level := 0, conflict_clause := none }) = some s1 →
      restart_frame s s1 := by
    intro m hm hh
    cases hd : derive_conflict_clause
        { m with conflict_level := clevel, conflicts := m.conflicts + 1 } conf clevel with
    | none =>
      rw [hd] at hh
      simp at hh
    | some res =>
      obtain ⟨size, alevel, s3⟩ := res
      rw [hd] at hh
      simp only at hh
      have h3 := derive_conflict_clause_restart _ _ _ _ _ _ hd
      have h03 : restart_frame s s3 := restart_frame_trans _ _ _ hm h3
      split at hh
      · simp only [Option.some.injEq] at hh
        rw [← hh]
        exact h03
      · simp only [Option.some.injEq] at hh
        rw [← hh]
        exact h03
  by_cases hc : s.conflicts ≥ s.next_sp_switch
  · rw [if_pos hc] at h
    by_cases hsp : 1 - s.save_progress ≠ 0
    · rw [if_pos hsp] at h
      exact key
        { s with
          save_progress := (1 - s.save_progress),
          on_th := wrap32 (s.on_th + s.on_th_inc),
          next_sp_switch := wrap32 (s.next_sp_switch + s.off_th) } ⟨rfl, rfl, rfl⟩ h
    · rw [if_neg hsp] at h
      exact key
        { s with
          save_progress := (1 - s.save_progress),
          off_th := wrap32 (s.off_th + s.off_th_inc),
          next_sp_switch := wrap32 (s.next_sp_switch + s.on_th) } ⟨rfl, rfl, rfl⟩ h
  · rw [if_neg hc] at h
    exact key s (restart_frame_refl s) h

theorem add_conflict_clause_loop_restart (c : Nat) :
    ∀ (n i : Nat) (s : my_manager) (found : Bool),
      restart_frame s (add_conflict_clause_loop c n i s found) := by
  intro n
  induction n with
  | zero => intro i s found; exact ⟨rfl, rfl, rfl⟩
  | succ n ih =>
    intro i s found
    rw [add_conflict_clause_loop]
    have h1 := increment_literal_score_restart s ((s.cl c).lits.getD i 0)
    split
    · exact restart_frame_trans _ _ _ (restart_frame_trans _ _ _ h1 ⟨rfl, rfl, rfl⟩) (ih _ _ _)
    · exact restart_frame_trans _ _ _ h1 (ih _ _ _)

theorem add_conflict_clause_restart (s : my_manager) (cdc : Nat) :
    restart_frame s (add_conflict_clause s cdc) := by
  unfold add_conflict_clause declare_watched_literals add_watched_clause
  simp only
  have h1 := add_conflict_clause_loop_restart cdc (s.cl cdc).size 0 s false
  refine restart_frame_trans _ _ _ ?_ (increment_clause_score_restart _ _)
  exact restart_frame_trans _ _ _ h1 ⟨rfl, rfl, rfl⟩

theorem assert_conflict_clause_restart (fuel : Nat) (s : my_manager) (res : Bool)
    (s1 : my_manager) (h : assert_conflict_clause fuel s = some (res, s1)) :
    restart_frame s s1 := by
  unfold assert_conflict_clause at h
  cases hcc : s.conflict_clause with
  | none =>
    rw [hcc] at h
    simp at h
  | some cc =>
    rw [hcc] at h
    simp only at h
    have hb := bcp_restart fuel _ _ res s1 h
    refine restart_frame_trans _ _ _ ?_ hb
    have h1 : restart_frame s
        (if (s.cl cc).size > 1 then add_conflict_clause s cc else s) := by
      split
      · exact add_conflict_clause_restart s cc
      · exact restart_frame_refl s
    split <;> exact ⟨h1.1, h1.2.1, h1.2.2⟩

theorem solve_conflict_loop_restart (bfuel : Nat) :
    ∀ (f : Nat) (s : my_manager) (res : Bool) (result : Int) (s1 : my_manager),
      solve_conflict_loop bfuel f s res = some (result, s1) → restart_frame s s1 := by
  intro f
  induction f with
  | zero => intro s res result s1 h; simp [solve_conflict_loop] at h
  | succ f ih =>
    intro s res result s1 h
    rw [solve_conflict_loop] at h
    by_cases hr : res = true
    · rw [if_pos hr] at h
      simp only [Option.some.injEq, Prod.mk.injEq] at h
      rw [← h.2]
      exact restart_frame_refl s
    · rw [if_neg hr] at h
      cases ha : analyze_conflict s s.conflicting_clause s.decision_level with
      | none =>
        rw [ha] at h
        simp at h
      | some sa =>
        rw [ha] at h
        simp only at h
        have h1 := analyze_conflict_restart _ _ _ _ ha
        by_cases hz : sa.assertion_level = 0
        · rw [if_pos hz] at h
          simp only [Option.some.injEq, Prod.mk.injEq] at h
          rw [← h.2]
          exact h1
        · rw [if_neg hz] at h
          cases hac : assert_conflict_clause bfuel (backtrack sa (sa.assertion_level + 1)) with
          | none =>
            rw [hac] at h
            simp at h
          | some r =>
            obtain ⟨res1, s3⟩ := r
            rw [hac] at h
            simp only at h
            have h2 := backtrack_restart sa (sa.assertion_level + 1)
            have h3 := assert_conflict_clause_restart _ _ _ _ hac
            have h4 := ih _ _ _ _ h
            exact restart_frame_trans _ _ _ (restart_frame_trans _ _ _
              (restart_frame_trans _ _ _ h1 h2) h3) h4

theorem remove_watched_clause_restart (s : my_manager) (l c : Nat) (s1 : my_manager)
    (h : remove_watched_clause s l c = some s1) : restart_frame s s1 := by
  unfold remove_watched_clause at h
  split at h
  · simp at h
  · split at h
    · simp only [Option.some.injEq] at h
      rw [← h]
      exact ⟨rfl, rfl, rfl⟩
    · simp at h

theorem remove_clause_restart (s : my_manager) (c : Nat) (s1 : my_manager)
    (h : remove_clause s c = some s1) : restart_frame s s1 := by
  unfold remove_clause at h
  simp only at h
  have h0 : restart_frame s
      (if s.reason (var ((s.cl c).lits.getD 0 0)) = some c then
        { s with reason := (Function.update s.reason (var ((s.cl c).lits.getD 0 0)) none) }
      else if s.reason (var ((s.cl c).lits.getD 1 0)) = some c then
        { s with reason := (Function.update s.reason (var ((s.cl c).lits.getD 1 0)) none) }
      else s) := by
    split
    · exact ⟨rfl, rfl, rfl⟩
    · split <;> exact ⟨rfl, rfl, rfl⟩
  generalize (if s.reason (var ((s.cl c).lits.getD 0 0)) = some c then
        { s with reason := (Function.update s.reason (var ((s.cl c).lits.getD 0 0)) none) }
      else if s.reason (var ((s.cl c).lits.getD 1 0)) = some c then
        { s with reason := (Function.update s.reason (var ((s.cl c).lits.getD 1 0)) none) }
      else s) = sa at h0 h
  cases h1 : remove_watched_clause sa ((s.cl c).lits.getD 0 0) c with
  | none =>
    rw [h1] at h
    simp at h
  | some s2 =>
    rw [h1] at h
    simp only at h
    exact restart_frame_trans _ _ _ (restart_frame_trans _ _ _ h0
      (remove_watched_clause_restart _ _ _ _ h1)) (remove_watched_clause_restart _ _ _ _ h)

theorem simplify_kb_loop_restart :
    ∀ (l : List Nat) (i j : Nat) (s : my_manager) (kept : List Nat) (s1 : my_manager)
      (kept1 : List Nat),
      simplify_kb_loop l i j s kept = some (s1, kept1) → restart_frame s s1 := by
  intro l
  induction l with
  | nil =>
    intro i j s kept s1 kept1 h
    simp only [simplify_kb_loop, Option.some.injEq, Prod.mk.injEq] at h
    rw [← h.1]
    exact restart_frame_refl s
  | cons c rest ih =>
    intro i j s kept s1 kept1 h
    rw [simplify_kb_loop] at h
    split at h
    · cases hr : remove_clause s c with
      | none =>
        rw [hr] at h
        simp at h
      | some s2 =>
        rw [hr] at h
        simp only at h
        exact restart_frame_trans _ _ _ (remove_clause_restart _ _ _ hr) (ih _ _ _ _ _ _ h)
    · refine restart_frame_trans _ _ _ ?_ (ih _ _ _ _ _ _ h)
      exact ⟨rfl, rfl, rfl⟩

theorem simplify_kb_restart (s s1 : my_manager) (h : simplify_kb s = some s1) :
    restart_frame s s1 := by
  unfold simplify_kb at h
  split at h
  · simp only [Option.some.injEq] at h
    rw [← h]
    exact restart_frame_refl s
  · split at h
    · simp only [Option.some.injEq] at h
      rw [← h]
      exact restart_frame_refl s
    · cases hl : simplify_kb_loop s.learned_clauses 0 0 s [] with
      | none =>
        rw [hl] at h
        simp at h
      | some r =>
        obtain ⟨s2, kept⟩ := r
        rw [hl] at h
        simp only [Option.some.injEq] at h
        rw [← h]
        exact restart_frame_trans _ _ _ (simplify_kb_loop_restart _ _ _ _ _ _ _ hl)
          ⟨rfl, rfl, rfl⟩

theorem simplify_original_kb_loop_restart :
    ∀ (l : List Nat) (s : my_manager) (kept : List Nat) (s1 : my_manager) (kept1 : List Nat),
      simplify_original_kb_loop l s kept = some (s1, kept1) → restart_frame s s1 := by
  intro l
  induction l with
  | nil =>
    intro s kept s1 kept1 h
    simp only [simplify_original_kb_loop, Option.some.injEq, Prod.mk.injEq] at h
    rw [← h.1]
    exact restart_frame_refl s
  | cons c rest ih =>
    intro s kept s1 kept1 h
    rw [simplify_original_kb_loop] at h
    split at h
    · cases hr : remove_clause s c with
      | none =>
        rw [hr] at h
        simp at h
      | some s2 =>
        rw [hr] at h
        simp only at h
        exact restart_frame_trans _ _ _ (remove_clause_restart _ _ _ hr) (ih _ _ _ _ h)
    · exact ih _ _ _ _ h

theorem simplify_original_kb_restart (s s1 : my_manager)
    (h : simplify_original_kb s = some s1) : restart_frame s s1 := by
  unfold simplify_original_kb at h
  split at h
  · simp only [Option.some.injEq] at h
    rw [← h]
    exact restart_frame_refl s
  · cases hl : simplify_original_kb_loop s.original_clauses s [] with
    | none =>
      rw [hl] at h
      simp at h
    | some r =>
      obtain ⟨s2, kept⟩ := r
      rw [hl] at h
      simp only [Option.some.injEq] at h
      rw [← h]
      exact restart_frame_trans _ _ _ (simplify_original_kb_loop_restart _ _ _ _ _ hl)
        ⟨rfl, rfl, rfl⟩

theorem reduce_kb_loop_restart (n : Nat) (extra_lim : ℚ) :
    ∀ (l : List Nat) (i j : Nat) (s : my_manager) (kept : List Nat) (s1 : my_manager)
      (kept1 : List Nat),
      reduce_kb_loop n extra_lim l i j s kept = some (s1, kept1) → restart_frame s s1 := by
  intro l
  induction l with
  | nil =>
    intro i j s kept s1 kept1 h
    simp only [reduce_kb_loop, Option.some.injEq, Prod.mk.injEq] at h
    rw [← h.1]
    exact restart_frame_refl s
  | cons c rest ih =>
    intro i j s kept s1 kept1 h
    rw [reduce_kb_loop] at h
    split at h
    · cases hr : remove_clause s c with
      | none =>
        rw [hr] at h
        simp at h
      | some s2 =>
        rw [hr] at h
        simp only at h
        exact restart_frame_trans _ _ _ (remove_clause_restart _ _ _ hr) (ih _ _ _ _ _ _ h)
    · refine restart_frame_trans _ _ _ ?_ (ih _ _ _ _ _ _ h)
      exact ⟨rfl, rfl, rfl⟩

theorem reduce_kb_restart (s s1 : my_manager) (h : reduce_kb s = some s1) :
    restart_frame s s1 := by
  unfold reduce_kb at h
  simp only at h
  split at h
  · simp only [Option.some.injEq] at h
    rw [← h]
    exact restart_frame_refl s
  · split at h
    · split at h
      · simp at h
      · rename_i s2 kept hl
        simp only [Option.some.injEq] at h
        rw [← h]
        have h2 := reduce_kb_loop_restart _ _ _ _ _ _ _ _ _ hl
        exact ⟨h2.1, h2.2.1, h2.2.2⟩
    · simp at h

theorem select_variable_loop_restart :
    ∀ (f : Nat) (s : my_manager) (v : Nat) (s1 : my_manager),
      select_variable_loop f s = some (v, s1) → restart_frame s s1 := by
  intro f
  induction f with
  | zero => intro s v s1 h; simp [select_variable_loop] at h
  | succ f ih =>
    intro s v s1 h
    rw [select_variable_loop] at h
    split at h
    · simp only [Option.some.injEq, Prod.mk.injEq] at h
      rw [← h.2]
      exact restart_frame_refl s
    · simp only at h
      split at h
      · simp only [Option.some.injEq, Prod.mk.injEq] at h
        rw [← h.2]
        exact ⟨rfl, rfl, rfl⟩
      · have h2 := ih _ _ _ h
        exact ⟨h2.1, h2.2.1, h2.2.2⟩

theorem select_variable_restart (s : my_manager) (v : Nat) (s1 : my_manager)
    (h : select_variable s = some (v, s1)) : restart_frame s s1 :=
  select_variable_loop_restart _ s v s1 h

theorem backtrack_conflicts (s : my_manager) (dest : Nat) :
    (backtrack s dest).conflicts = s.conflicts := by
  unfold backtrack
  split
  · rfl
  · have h := backtrack_loop_frame (s.assign_top - s.decision_lit dest) s s.assign_top
    unfold backtrack_frame at h
    simp only
    exact h.2.2.2.2.2.2.2.2.2.2.2.2.2.2

theorem solve_manage_restart (s s1 s3 : my_manager) (h1 : solve_restart s = some s1)
    (h3 : solve_manage s = some s3) : restart_frame s1 s3 := by
  unfold solve_manage at h3
  rw [h1] at h3
  simp only at h3
  split at h3
  · simp at h3
  · rename_i s2 h2
    have f2 : restart_frame s1 s2 := by
      split at h2
      · exact simplify_kb_restart _ _ h2
      · simp only [Option.some.injEq] at h2
        rw [← h2]
        exact restart_frame_refl s1
    split at h3
    · exact restart_frame_trans _ _ _ f2 (reduce_kb_restart _ _ h3)
    · simp only [Option.some.injEq] at h3
      rw [← h3]
      exact f2

/-- C11, counterexample: on the small instance with 512 conflicts counted and
no restart performed yet, the first restart (at `c = 512`) sets the threshold
`512 + 512 × luby(2) = 1024`, which is the one that triggers the second
restart; it is not `c + 512 × luby(2 + 1) = 1536`. -/
theorem second_restart_threshold :
    example_restart.restart = 0
    ∧ example_restart.conflicts = 512
    ∧ solve_restart example_restart
        = some { example_restart with restart := 1, next_restart_conflict := 1024 }
    ∧ (1024 : Int) ≠ 512 + 512 * (luby_spec (2 + 1) : Int) := by
  have hv := luby_spec_values
  simp only [List.map, List.cons.injEq, and_true] at hv
  obtain ⟨v1, v2, v3, -⟩ := hv
  have hg : get_luby 512 2 = 512 := by
    have h := get_luby_eq_aux 512 2 2 (le_refl 2) (by decide) (by rw [v2]; decide)
      (by rw [v2]; decide)
    rw [h, v2]; rfl
  have hb : backtrack example_restart 2 = example_restart := by
    unfold backtrack
    rw [if_pos (by decide)]
  refine ⟨rfl, rfl, ?_, ?_⟩
  · unfold solve_restart
    rw [if_pos (by decide)]
    simp only [hb]
    unfold simplify_original_kb
    rw [if_pos (show example_restart.simplify_orig_kb = 0 from rfl)]
    have e : example_restart.conflicts
        + get_luby example_restart.luby_unit ((example_restart.restart + 1 + 1).toNat)
        = 1024 := by
      show (512 : Int) + get_luby 512 (((0 : Int) + 1 + 1).toNat) = 1024
      have e : ((0 : Int) + 1 + 1).toNat = 2 := by decide
      rw [e, hg]; rfl
    rw [e]
    rfl
  · rw [v3]
    decide

/-- C11 (as amended): the threshold that triggers the i-th restart is
`c + LUBY_UNIT × luby(i)`, and the one set at the i-th restart is
`c + LUBY_UNIT × luby(i+1)`.  `init_manager` sets `restart = 0`,
`conflicts = 0` and the threshold `0 + 512 × luby(1)`.  In a state with
`restart = i - 1`, `luby_unit = 512` and the threshold `c + 512 × luby(i)`,
the restart block of `solve` does nothing while `conflicts` is below the
threshold; once it is reached the block sets `restart = i` and the threshold
`conflicts + 512 × luby(i+1)` (with `i + 1` and the product in the range of
`int`) before `simplify_original_kb`, which keeps both.  Every other step of
an iteration of the loop of `solve` keeps `restart`, the threshold and
`luby_unit`. -/
theorem restart_threshold (s : my_manager) (i : Nat) (c : Int) (hi : 1 ≤ i)
    (hr : s.restart = (i : Int) - 1) (hu : s.luby_unit = 512)
    (hn : s.next_restart_conflict = c + 512 * (luby_spec i : Int))
    (hint : i + 1 < 2147483648)
    (hov : 512 * (luby_spec (i + 1) : Int) < 2147483648) :
    (∀ vc, (init_manager vc).restart = 0 ∧ (init_manager vc).luby_unit = 512
      ∧ (init_manager vc).conflicts = 0
      ∧ (init_manager vc).next_restart_conflict = 0 + 512 * (luby_spec 1 : Int))
    ∧ (s.conflicts < c + 512 * (luby_spec i : Int) → solve_restart s = some s)
    ∧ (c + 512 * (luby_spec i : Int) ≤ s.conflicts →
        ∃ s2, solve_restart s = simplify_original_kb s2
          ∧ s2.restart = (i : Int) ∧ s2.luby_unit = 512 ∧ s2.conflicts = s.conflicts
          ∧ s2.next_restart_conflict = s.conflicts + 512 * (luby_spec (i + 1) : Int)
          ∧ ∀ s1, simplify_original_kb s2 = some s1 → restart_frame s2 s1)
    ∧ (∀ (bfuel cfuel : Nat) (t t1 t3 t4 t5 t6 : my_manager) (v l : Nat) (res : Bool)
        (result : Int),
        solve_restart t = some t1 → solve_manage t = some t3 →
        select_variable t3 = some (v, t4) → set_decision bfuel t4 l = some (res, t5) →
        solve_conflict_loop bfuel cfuel t5 res = some (result, t6) → restart_frame t1 t6) := by
  have hv := luby_spec_values
  simp only [List.map, List.cons.injEq, and_true] at hv
  obtain ⟨v1, -⟩ := hv
  refine ⟨?_, ?_, ?_, ?_⟩
  · intro vc
    refine ⟨rfl, rfl, rfl, ?_⟩
    rw [v1]
    rfl
  · intro hlt
    unfold solve_restart
    rw [if_neg (by rw [hn]; exact not_le.mpr hlt)]
  · intro hge
    have hb := backtrack_restart s 2
    have hc := backtrack_conflicts s 2
    obtain ⟨b1, b2, b3⟩ := hb
    refine ⟨{ backtrack s 2 with
        restart := (backtrack s 2).restart + 1,
        next_restart_conflict := (backtrack s 2).conflicts
          + get_luby (backtrack s 2).luby_unit (((backtrack s 2).restart + 1 + 1).toNat) },
      ?_, ?_, ?_, ?_, ?_, ?_⟩
    · unfold solve_restart
      rw [if_pos (by rw [hn]; exact hge)]
    · show (backtrack s 2).restart + 1 = (i : Int)
      rw [b1, hr]; omega
    · show (backtrack s 2).luby_unit = 512
      rw [b3, hu]
    · exact hc
    · show (backtrack s 2).conflicts
          + get_luby (backtrack s 2).luby_unit (((backtrack s 2).restart + 1 + 1).toNat)
        = s.conflicts + 512 * (luby_spec (i + 1) : Int)
      rw [hc, b1, b3, hr, hu]
      have e : ((i : Int) - 1 + 1 + 1).toNat = i + 1 := by omega
      rw [e]
      have hpos : (0 : Int) ≤ ((luby_spec (i + 1) : Nat) : Int) := Int.natCast_nonneg _
      rw [get_luby_eq_aux 512 (i + 1) (i + 1) (le_refl _) (by omega) (by omega) hov]
    · intro s1 h1
      exact simplify_original_kb_restart _ _ h1
  · intro bfuel cfuel t t1 t3 t4 t5 t6 v l res result h1 h3 h4 h5 h6
    exact restart_frame_trans _ _ _ (solve_manage_restart t t1 t3 h1 h3)
      (restart_frame_trans _ _ _ (select_variable_restart t3 v t4 h4)
        (restart_frame_trans _ _ _ (set_decision_restart bfuel t4 l res t5 h5)
          (solve_conflict_loop_restart bfuel cfuel t5 res result t6 h6)))

/-- C11, witness: the first restart of the small instance, at 512 conflicts,
sets the threshold `512 + 512 × luby(2)`. -/
theorem restart_threshold_witness :
    ∃ s2, solve_restart example_restart = simplify_original_kb s2
      ∧ s2.restart = ((1 : Nat) : Int) ∧ s2.luby_unit = 512
      ∧ s2.conflicts = example_restart.conflicts
      ∧ s2.next_restart_conflict = example_restart.conflicts + 512 * (luby_spec (1 + 1) : Int)
      ∧ ∀ s1, simplify_original_kb s2 = some s1 → restart_frame s2 s1 :=
  (restart_threshold example_restart 1 0 (by decide) rfl rfl
    (by
      have hv := luby_spec_values
      simp only [List.map, List.cons.injEq, and_true] at hv
      rw [hv.1]
      rfl)
    (by decide)
    (by
      have hv := luby_spec_values
      simp only [List.map, List.cons.injEq, and_true] at hv
      rw [hv.2.1]
      decide)).2.2.1
    (by
      have hv := luby_spec_values
      simp only [List.map, List.cons.injEq, and_true] at hv
      rw [hv.1]
      decide)

theorem aux_frame_refl (s : my_manager) : aux_frame s s := ⟨rfl, rfl, rfl⟩

theorem aux_frame_trans (s s1 s2 : my_manager) (h1 : aux_frame s s1)
    (h2 : aux_frame s1 s2) : aux_frame s s2 :=
  ⟨h2.1.trans h1.1, h2.2.1.trans h1.2.1, h2.2.2.trans h1.2.2⟩

theorem bcp_clause_at_aux (slevel : Nat) (s : my_manager) (last clause : Nat)
    (lits1 : List Nat) :
    aux_frame s (bcp_clause_at slevel s last clause lits1).state := by
  unfold bcp_clause_at
  simp only
  split
  · exact ⟨rfl, rfl, rfl⟩
  · split
    · exact ⟨rfl, rfl, rfl⟩
    · split
      · exact ⟨rfl, rfl, rfl⟩
      · split
        · exact ⟨rfl, rfl, rfl⟩
        · exact ⟨rfl, rfl, rfl⟩

theorem bcp_clause_aux (slevel neg_lit : Nat) (s : my_manager) (last clause : Nat) :
    aux_frame s (bcp_clause slevel neg_lit s last clause).state := by
  unfold bcp_clause
  exact bcp_clause_at_aux _ _ _ _ _

theorem bcp_watch_loop_aux (slevel neg_lit : Nat) :
    ∀ (rest : List Nat) (s : my_manager) (last : Nat) (kept : List Nat),
      aux_frame s (bcp_watch_loop slevel neg_lit rest s last kept).m := by
  intro rest
  induction rest with
  | nil => intro s last kept; exact ⟨rfl, rfl, rfl⟩
  | cons clause rest ih =>
    intro s last kept
    have h1 := bcp_clause_aux slevel neg_lit s last clause
    rw [bcp_watch_loop]
    cases hbc : bcp_clause slevel neg_lit s last clause with
    | kept s1 last1 =>
      rw [hbc] at h1
      exact aux_frame_trans _ _ _ h1 (ih s1 last1 _)
    | moved s1 =>
      rw [hbc] at h1
      exact aux_frame_trans _ _ _ h1 (ih s1 last _)
    | conflict s1 =>
      rw [hbc] at h1
      exact h1

theorem bcp_loop_aux (slevel : Nat) :
    ∀ (fuel : Nat) (s : my_manager) (last : Nat) (res : Bool) (s1 : my_manager),
      bcp_loop slevel fuel s last = some (res, s1) → aux_frame s s1 := by
  intro fuel
  induction fuel with
  | zero => intro s last res s1 h; simp [bcp_loop] at h
  | succ f ih =>
    intro s last res s1 h
    rw [bcp_loop] at h
    simp only at h
    split at h
    · simp only [Option.some.injEq, Prod.mk.injEq] at h
      rw [← h.2]
      exact ⟨rfl, rfl, rfl⟩
    · have hw := bcp_watch_loop_aux slevel (neg (s.status (dequeue s.score s.imp).1))
        (s.watched (watched_index (neg (s.status (dequeue s.score s.imp).1))))
        { s with imp := (dequeue s.score s.imp).2 } last []
      split at h
      · simp only [Option.some.injEq, Prod.mk.injEq] at h
        rw [← h.2]
        exact hw
      · have h2 := ih _ _ res s1 h
        exact aux_frame_trans _ _ _ (aux_frame_trans _ _ _ hw ⟨rfl, rfl, rfl⟩) h2

theorem bcp_aux (fuel : Nat) (s : my_manager) (l : Nat) (res : Bool) (s1 : my_manager)
    (h : bcp fuel s l = some (res, s1)) : aux_frame s s1 := by
  unfold bcp at h
  simp only at h
  have h2 := bcp_loop_aux _ fuel _ _ res s1 h
  exact aux_frame_trans _ _ _ ⟨rfl, rfl, rfl⟩ h2

theorem set_decision_aux (fuel : Nat) (s : my_manager) (l : Nat) (res : Bool)
    (s1 : my_manager) (h : set_decision fuel s l = some (res, s1)) : aux_frame s s1 := by
  unfold set_decision at h
  have h1 := bcp_aux fuel _ l res s1 h
  have h0 : aux_frame s (set_decision_start s l) := by
    unfold set_decision_start
    simp only
    split <;> exact ⟨rfl, rfl, rfl⟩
  exact aux_frame_trans _ _ _ h0 h1

theorem increment_literal_score_aux (s : my_manager) (l : Nat) :
    aux_frame s (increment_literal_score s l) := by
  unfold increment_literal_score rescale_variable_scores
  simp only
  split <;> exact ⟨rfl, rfl, rfl⟩

theorem increment_clause_score_aux (s : my_manager) (c : Nat) :
    aux_frame s (increment_clause_score s c) := by
  unfold increment_clause_score rescale_clause_scores
  simp only
  split <;> exact ⟨rfl, rfl, rfl⟩

theorem aux_frame_cdc (s s1 : my_manager) (cdc : Nat → Nat) (idx : Nat)
    (h : aux_frame s s1) : aux_frame s { s1 with cdc := cdc, cdc_index := idx } := h

theorem dcc_scan_aux (clevel : Nat) :
    ∀ (lits : List Nat) (st : dcc_state), aux_frame st.m (dcc_scan clevel lits st).m := by
  intro lits
  induction lits with
  | nil => intro st; rw [dcc_scan]; exact aux_frame_refl _
  | cons cur rest ih =>
    intro st
    rw [dcc_scan]
    simp only
    have h1 := increment_literal_score_aux st.m cur
    split
    · split
      · exact aux_frame_trans _ _ _ h1 (ih _)
      · exact aux_frame_trans _ _ _ (aux_frame_cdc _ _ _ _ h1) (ih _)
    · exact ih st

theorem dcc_loop_aux (clevel : Nat) :
    ∀ (fuel : Nat) (conf : Option Nat) (next_lit n : Nat) (st st1 : dcc_state) (nl : Nat),
      dcc_loop clevel fuel conf next_lit n st = some (st1, nl) →
      aux_frame st.m st1.m := by
  intro fuel
  induction fuel with
  | zero => intro conf next_lit n st st1 nl h; simp [dcc_loop] at h
  | succ f ih =>
    intro conf next_lit n st st1 nl h
    cases conf with
    | none => simp [dcc_loop] at h
    | some c =>
      rw [dcc_loop] at h
      simp only at h
      have hsc := dcc_scan_aux clevel
        ((st.m.cl c).lits.drop (if next_lit = 0 then 0 else 1)) st
      generalize dcc_scan clevel ((st.m.cl c).lits.drop (if next_lit = 0 then 0 else 1)) st
        = sa at hsc h
      cases hwk : dcc_walk sa.m.assign sa.seen n with
      | none =>
        rw [hwk] at h
        simp at h
      | some k =>
        rw [hwk] at h
        simp only at h
        have hm2 : aux_frame sa.m
            (match sa.m.reason (var (sa.m.assign k)) with
              | some r => if (sa.m.cl r).index ≥ 0 then increment_clause_score sa.m r else sa.m
              | none => sa.m) := by
          cases sa.m.reason (var (sa.m.assign k)) with
          | none => exact aux_frame_refl _
          | some r =>
            simp only
            split
            · exact increment_clause_score_aux _ _
            · exact aux_frame_refl _
        by_cases hgt : sa.num_lits_at_clevel - 1 > 0
        · rw [if_pos hgt] at h
          have := ih _ _ _ _ st1 nl h
          exact aux_frame_trans _ _ _ (aux_frame_trans _ _ _ hsc hm2) this
        · rw [if_neg hgt] at h
          simp only [Option.some.injEq, Prod.mk.injEq] at h
          obtain ⟨h1, _⟩ := h
          rw [← h1]
          exact aux_frame_trans _ _ _ hsc hm2

theorem dcc_min_loop_aux (minl : Nat) :
    ∀ (n i : Nat) (st r : dcc_min_state),
      dcc_min_loop minl n i st = some r → aux_frame st.m r.m := by
  intro n
  induction n with
  | zero =>
    intro i st r h
    rw [dcc_min_loop] at h
    simp only [Option.some.injEq] at h
    rw [← h]
    exact aux_frame_refl _
  | succ n ih =>
    intro i st r h
    rw [dcc_min_loop] at h
    simp only [] at h
    have hk : ∀ (seen1 : Nat → Bool) (asl : Nat),
        dcc_min_loop minl n (i + 1)
          { m := { st.m with cdc := (Function.update st.m.cdc st.j (st.m.cdc i)) },
            seen := seen1, j := st.j + 1, assertion_level := asl } = some r →
        aux_frame st.m r.m := by
      intro seen1 asl hrun
      have := ih (i + 1) _ r hrun
      exact aux_frame_trans _ _ _ ⟨rfl, rfl, rfl⟩ this
    by_cases hrn : st.m.reason (var (st.m.cdc i)) = none
    · rw [if_pos hrn] at h
      exact hk _ _ h
    · rw [if_neg hrn] at h
      cases hrem : removable st.m st.seen (st.m.cdc i) minl with
      | none =>
        rw [hrem] at h
        simp at h
      | some res =>
        obtain ⟨b, seen1⟩ := res
        rw [hrem] at h
        cases b with
        | false =>
          simp only at h
          exact hk _ _ h
        | true =>
          simp only at h
          exact ih (i + 1) { st with seen := seen1 } r h

theorem derive_conflict_clause_aux (s : my_manager) (conf : Option Nat) (clevel : Nat)
    (size alevel : Nat) (s1 : my_manager)
    (h : derive_conflict_clause s conf clevel = some (size, alevel, s1)) :
    aux_frame s s1 := by
  unfold derive_conflict_clause at h
  simp only at h
  by_cases hc : clevel ≤ 1
  · rw [if_pos hc] at h
    simp only [Option.some.injEq, Prod.mk.injEq] at h
    obtain ⟨_, _, h3⟩ := h
    rw [← h3]
    exact ⟨rfl, rfl, rfl⟩
  · rw [if_neg hc] at h
    cases hl : dcc_loop clevel (s.assign_top + 1) conf 0 s.assign_top
        { m := { s with assertion_level := 1, cdc := (Function.update s.cdc 0 0),
                        cdc_index := 1 },
          seen := fun _ => false, num_lits_at_clevel := 0 } with
    | none =>
      rw [hl] at h
      simp at h
    | some res =>
      obtain ⟨st1, nl⟩ := res
      rw [hl] at h
      simp only at h
      have h1 := dcc_loop_aux clevel _ _ _ _ _ st1 nl hl
      cases hmin : dcc_min_loop
          (dcc_minl { st1.m with cdc := (Function.update st1.m.cdc 0 (neg nl)) }
            (st1.m.cdc_index - 1) 1 0) (st1.m.cdc_index - 1) 1
          { m := { st1.m with cdc := (Function.update st1.m.cdc 0 (neg nl)) },
            seen := Function.update st1.seen (var nl) true, j := 1, assertion_level := 1 } with
      | none =>
        rw [hmin] at h
        simp at h
      | some r =>
        rw [hmin] at h
        simp only [Option.some.injEq, Prod.mk.injEq] at h
        obtain ⟨_, _, h3⟩ := h
        rw [← h3]
        have h2 := dcc_min_loop_aux _ _ _ _ r hmin
        exact aux_frame_trans _ _ _
          (aux_frame_trans _ _ _ (aux_frame_trans _ _ _ ⟨rfl, rfl, rfl⟩ h1)
            ⟨rfl, rfl, rfl⟩) h2

theorem analyze_conflict_aux (s : my_manager) (conf : Option Nat) (clevel : Nat)
    (s1 : my_manager) (h : analyze_conflict s conf clevel = some s1) : aux_frame s s1 := by
  unfold analyze_conflict at h
  simp only at h
  have key : ∀ m : my_manager, aux_frame s m →
      (match derive_conflict_clause
          { m with conflict_level := clevel, conflicts := m.conflicts + 1 } conf clevel with
        | none => none
        | some (size, assertion_level, s3) =>
          if size > 0 then
            some { s3 with
              assertion_level := assertion_level,
              cl := (Function.update s3.cl s3.alloc_next
                { index := 1, lits := List.map s3.cdc (List.range size) }),
              conflict_clause := some s3.alloc_next,
              alloc_next := s3.alloc_next + 1 }
          else
            some { s3 with assertion_level := 0, conflict_clause := none }) = some s1 →
      aux_frame s s1 := by
    intro m hm hh
    cases hd : derive_conflict_clause
        { m with conflict_level := clevel, conflicts := m.conflicts + 1 } conf clevel with
    | none =>
      rw [hd] at hh
      simp at hh
    | some res =>
      obtain ⟨size, alevel, s3⟩ := res
      rw [hd] at hh
      simp only at hh
      have h3 := derive_conflict_clause_aux _ _ _ _ _ _ hd
      have h03 : aux_frame s s3 := aux_frame_trans _ _ _ hm h3
      split at hh
      · simp only [Option.some.injEq] at hh
        rw [← hh]
        exact h03
      · simp only [Option.some.injEq] at hh
        rw [← hh]
        exact h03
  by_cases hc : s.conflicts ≥ s.next_sp_switch
  · rw [if_pos hc] at h
    by_cases hsp : 1 - s.save_progress ≠ 0
    · rw [if_pos hsp] at h
      exact key
        { s with
          save_progress := (1 - s.save_progress),
          on_th := wrap32 (s.on_th + s.on_th_inc),
          next_sp_switch := wrap32 (s.next_sp_switch + s.off_th) } ⟨rfl, rfl, rfl⟩ h
    · rw [if_neg hsp] at h
      exact key
        { s with
          save_progress := (1 - s.save_progress),
          off_th := wrap32 (s.off_th + s.off_th_inc),
          next_sp_switch := wrap32 (s.next_sp_switch + s.on_th) } ⟨rfl, rfl, rfl⟩ h
  · rw [if_neg hc] at h
    exact key s (aux_frame_refl s) h

theorem add_conflict_clause_loop_aux (c : Nat) :
    ∀ (n i : Nat) (s : my_manager) (found : Bool),
      aux_frame s (add_conflict_clause_loop c n i s found) := by
  intro n
  induction n with
  | zero => intro i s found; exact ⟨rfl, rfl, rfl⟩
  | succ n ih =>
    intro i s found
    rw [add_conflict_clause_loop]
    have h1 := increment_literal_score_aux s ((s.cl c).lits.getD i 0)
    split
    · exact aux_frame_trans _ _ _ (aux_frame_trans _ _ _ h1 ⟨rfl, rfl, rfl⟩) (ih _ _ _)
    · exact aux_frame_trans _ _ _ h1 (ih _ _ _)

theorem add_conflict_clause_aux (s : my_manager) (cdc : Nat) :
    aux_frame s (add_conflict_clause s cdc) := by
  unfold add_conflict_clause declare_watched_literals add_watched_clause
  simp only
  have h1 := add_conflict_clause_loop_aux cdc (s.cl cdc).size 0 s false
  refine aux_frame_trans _ _ _ ?_ (increment_clause_score_aux _ _)
  exact aux_frame_trans _ _ _ h1 ⟨rfl, rfl, rfl⟩

theorem assert_conflict_clause_aux (fuel : Nat) (s : my_manager) (res : Bool)
    (s1 : my_manager) (h : assert_conflict_clause fuel s = some (res, s1)) :
    aux_frame s s1 := by
  unfold assert_conflict_clause at h
  cases hcc : s.conflict_clause with
  | none =>
    rw [hcc] at h
    simp at h
  | some cc =>
    rw [hcc] at h
    simp only at h
    have hb := bcp_aux fuel _ _ res s1 h
    refine aux_frame_trans _ _ _ ?_ hb
    have h1 : aux_frame s
        (if (s.cl cc).size > 1 then add_conflict_clause s cc else s) := by
      split
      · exact add_conflict_clause_aux s cc
      · exact aux_frame_refl s
    split <;> exact ⟨h1.1, h1.2.1, h1.2.2⟩

theorem remove_watched_clause_aux (s : my_manager) (l c : Nat) (s1 : my_manager)
    (h : remove_watched_clause s l c = some s1) : aux_frame s s1 := by
  unfold remove_watched_clause at h
  split at h
  · simp at h
  · split at h
    · simp only [Option.some.injEq] at h
      rw [← h]
      exact ⟨rfl, rfl, rfl⟩
    · simp at h

theorem remove_clause_aux (s : my_manager) (c : Nat) (s1 : my_manager)
    (h : remove_clause s c = some s1) : aux_frame s s1 := by
  unfold remove_clause at h
  simp only at h
  have h0 : aux_frame s
      (if s.reason (var ((s.cl c).lits.getD 0 0)) = some c then
        { s with reason := (Function.update s.reason (var ((s.cl c).lits.getD 0 0)) none) }
      else if s.reason (var ((s.cl c).lits.getD 1 0)) = some c then
        { s with reason := (Function.update s.reason (var ((s.cl c).lits.getD 1 0)) none) }
      else s) := by
    split
    · exact ⟨rfl, rfl, rfl⟩
    · split <;> exact ⟨rfl, rfl, rfl⟩
  generalize (if s.reason (var ((s.cl c).lits.getD 0 0)) = some c then
        { s with reason := (Function.update s.reason (var ((s.cl c).lits.getD 0 0)) none) }
      else if s.reason (var ((s.cl c).lits.getD 1 0)) = some c then
        { s with reason := (Function.update s.reason (var ((s.cl c).lits.getD 1 0)) none) }
      else s) = sa at h0 h
  cases h1 : remove_watched_clause sa ((s.cl c).lits.getD 0 0) c with
  | none =>
    rw [h1] at h
    simp at h
  | some s2 =>
    rw [h1] at h
    simp only at h
    exact aux_frame_trans _ _ _ (aux_frame_trans _ _ _ h0
      (remove_watched_clause_aux _ _ _ _ h1)) (remove_watched_clause_aux _ _ _ _ h)

theorem simplify_kb_loop_aux :
    ∀ (l : List Nat) (i j : Nat) (s : my_manager) (kept : List Nat) (s1 : my_manager)
      (kept1 : List Nat),
      simplify_kb_loop l i j s kept = some (s1, kept1) → aux_frame s s1 := by
  intro l
  induction l with
  | nil =>
    intro i j s kept s1 kept1 h
    simp only [simplify_kb_loop, Option.some.injEq, Prod.mk.injEq] at h
    rw [← h.1]
    exact aux_frame_refl s
  | cons c rest ih =>
    intro i j s kept s1 kept1 h
    rw [simplify_kb_loop] at h
    split at h
    · cases hr : remove_clause s c with
      | none =>
        rw [hr] at h
        simp at h
      | some s2 =>
        rw [hr] at h
        simp only at h
        exact aux_frame_trans _ _ _ (remove_clause_aux _ _ _ hr) (ih _ _ _ _ _ _ h)
    · refine aux_frame_trans _ _ _ ?_ (ih _ _ _ _ _ _ h)
      exact ⟨rfl, rfl, rfl⟩

theorem simplify_kb_aux (s s1 : my_manager) (h : simplify_kb s = some s1) :
    aux_frame s s1 := by
  unfold simplify_kb at h
  split at h
  · simp only [Option.some.injEq] at h
    rw [← h]
    exact aux_frame_refl s
  · split at h
    · simp only [Option.some.injEq] at h
      rw [← h]
      exact aux_frame_refl s
    · cases hl : simplify_kb_loop s.learned_clauses 0 0 s [] with
      | none =>
        rw [hl] at h
        simp at h
      | some r =>
        obtain ⟨s2, kept⟩ := r
        rw [hl] at h
        simp only [Option.some.injEq] at h
        rw [← h]
        exact aux_frame_trans _ _ _ (simplify_kb_loop_aux _ _ _ _ _ _ _ hl)
          ⟨rfl, rfl, rfl⟩

theorem simplify_original_kb_loop_aux :
    ∀ (l : List Nat) (s : my_manager) (kept : List Nat) (s1 : my_manager) (kept1 : List Nat),
      simplify_original_kb_loop l s kept = some (s1, kept1) → aux_frame s s1 := by
  intro l
  induction l with
  | nil =>
    intro s kept s1 kept1 h
    simp only [simplify_original_kb_loop, Option.some.injEq, Prod.mk.injEq] at h
    rw [← h.1]
    exact aux_frame_refl s
  | cons c rest ih =>
    intro s kept s1 kept1 h
    rw [simplify_original_kb_loop] at h
    split at h
    · cases hr : remove_clause s c with
      | none =>
        rw [hr] at h
        simp at h
      | some s2 =>
        rw [hr] at h
        simp only at h
        exact aux_frame_trans _ _ _ (remove_clause_aux _ _ _ hr) (ih _ _ _ _ h)
    · exact ih _ _ _ _ h

theorem simplify_original_kb_aux (s s1 : my_manager)
    (h : simplify_original_kb s = some s1) : aux_frame s s1 := by
  unfold simplify_original_kb at h
  split at h
  · simp only [Option.some.injEq] at h
    rw [← h]
    exact aux_frame_refl s
  · cases hl : simplify_original_kb_loop s.original_clauses s [] with
    | none =>
      rw [hl] at h
      simp at h
    | some r =>
      obtain ⟨s2, kept⟩ := r
      rw [hl] at h
      simp only [Option.some.injEq] at h
      rw [← h]
      exact aux_frame_trans _ _ _ (simplify_original_kb_loop_aux _ _ _ _ _ hl)
        ⟨rfl, rfl, rfl⟩

theorem reduce_kb_loop_aux (n : Nat) (extra_lim : ℚ) :
    ∀ (l : List Nat) (i j : Nat) (s : my_manager) (kept : List Nat) (s1 : my_manager)
      (kept1 : List Nat),
      reduce_kb_loop n extra_lim l i j s kept = some (s1, kept1) → aux_frame s s1 := by
  intro l
  induction l with
  | nil =>
    intro i j s kept s1 kept1 h
    simp only [reduce_kb_loop, Option.some.injEq, Prod.mk.injEq] at h
    rw [← h.1]
    exact aux_frame_refl s
  | cons c rest ih =>
    intro i j s kept s1 kept1 h
    rw [reduce_kb_loop] at h
    split at h
    · cases hr : remove_clause s c with
      | none =>
        rw [hr] at h
        simp at h
      | some s2 =>
        rw [hr] at h
        simp only at h
        exact aux_frame_trans _ _ _ (remove_clause_aux _ _ _ hr) (ih _ _ _ _ _ _ h)
    · refine aux_frame_trans _ _ _ ?_ (ih _ _ _ _ _ _ h)
      exact ⟨rfl, rfl, rfl⟩

theorem reduce_kb_aux (s s1 : my_manager) (h : reduce_kb s = some s1) :
    aux_frame s s1 := by
  unfold reduce_kb at h
  simp only at h
  split at h
  · simp only [Option.some.injEq] at h
    rw [← h]
    exact aux_frame_refl s
  · split at h
    · split at h
      · simp at h
      · rename_i s2 kept hl
        simp only [Option.some.injEq] at h
        rw [← h]
        have h2 := reduce_kb_loop_aux _ _ _ _ _ _ _ _ _ hl
        exact ⟨h2.1, h2.2.1, h2.2.2⟩
    · simp at h

theorem select_variable_loop_aux :
    ∀ (f : Nat) (s : my_manager) (v : Nat) (s1 : my_manager),
      select_variable_loop f s = some (v, s1) → aux_frame s s1 := by
  intro f
  induction f with
  | zero => intro s v s1 h; simp [select_variable_loop] at h
  | succ f ih =>
    intro s v s1 h
    rw [select_variable_loop] at h
    split at h
    · simp only [Option.some.injEq, Prod.mk.injEq] at h
      rw [← h.2]
      exact aux_frame_refl s
    · simp only at h
      split at h
      · simp only [Option.some.injEq, Prod.mk.injEq] at h
        rw [← h.2]
        exact ⟨rfl, rfl, rfl⟩
      · have h2 := ih _ _ _ h
        exact ⟨h2.1, h2.2.1, h2.2.2⟩

theorem select_variable_aux (s : my_manager) (v : Nat) (s1 : my_manager)
    (h : select_variable s = some (v, s1)) : aux_frame s s1 :=
  select_variable_loop_aux _ s v s1 h

theorem getD_map_range (f : Nat → Nat) (n k : Nat) (hk : k < n) :
    (List.map f (List.range n)).getD k 0 = f k := by
  rw [List.getD_eq_getElem _ _ (by simpa using hk)]
  simp

theorem mem_map_range (f : Nat → Nat) (n x : Nat) (hx : x ∈ List.map f (List.range n)) :
    ∃ k, k < n ∧ x = f k := by
  rw [List.mem_map] at hx
  obtain ⟨k, hk, e⟩ := hx
  exact ⟨k, List.mem_range.mp hk, e.symm⟩

theorem nodup_map_range (f : Nat → Nat) (n : Nat)
    (h : ∀ k1 k2, k1 < k2 → k2 < n → f k1 ≠ f k2) :
    (List.map f (List.range n)).Nodup := by
  unfold List.Nodup
  rw [List.pairwise_iff_getElem]
  intro i j hi hj hij
  simp only [List.length_map, List.length_range] at hi hj
  simp only [List.getElem_map, List.getElem_range]
  exact h i j hij hj

/-- What `derive_conflict_clause` returns in a state of the search with a
conflict at a level from 2 on, as a learned clause. -/
theorem derive_conflict_clause_learned (s m : my_manager) (c : Nat)
    (ht : trail_inv s s.assign_top) (hf : dcc_frame s m)
    (hinv : analysis_inv m s.decision_level) (hc : falsified_at m c s.decision_level)
    (h2 : 2 ≤ s.decision_level) :
    ∃ size alevel s3, derive_conflict_clause m (some c) s.decision_level
        = some (size, alevel, s3)
      ∧ dcc_frame s s3 ∧ 1 ≤ size
      ∧ learned_at s (List.map s3.cdc (List.range size)) s.decision_level alevel := by
  obtain ⟨size, alevel, s3, h, hf3, hs, ⟨p, p1, p2, p3⟩, hk, halt⟩ :=
    derive_conflict_clause_spec m c s.decision_level h2 hinv hc
  have hv : trail_valid (fun _ => False) m := by
    apply trail_valid_frame _ s m hf
    exact trail_inv_valid _ s ht ⟨fun _ _ M hM => absurd hM id, fun _ _ _ _ M hM => absurd hM id⟩
  obtain ⟨hd, -⟩ := derive_conflict_clause_sound (fun _ => False) m c s.decision_level h2 hinv hv
    hc (fun M hM => absurd hM id) size alevel s3 h
  obtain ⟨e1, e2, e3, e4, e5, e6, e7⟩ := hf
  have hf03 : dcc_frame s s3 := by
    obtain ⟨g1, g2, g3, g4, g5, g6, g7⟩ := hf3
    exact ⟨g1.trans e1, g2.trans e2, g3.trans e3, g4.trans e4, g5.trans e5, g6.trans e6,
      g7.trans e7⟩
  refine ⟨size, alevel, s3, h, hf03, hs, ?_⟩
  obtain ⟨t1, t2, t3⟩ := ht
  rw [e7] at p1
  rw [e4] at p2
  rw [e1, e4] at p3
  have hk' : ∀ k, 1 ≤ k → k < size →
      (s.status (var (s3.cdc k)) = neg (s3.cdc k) ∧ 1 < s.level (var (s3.cdc k))
        ∧ s.level (var (s3.cdc k)) < s.decision_level
        ∧ on_trail s (var (s3.cdc k)) s.assign_top)
      ∧ s.level (var (s3.cdc k)) ≤ alevel := by
    intro k k1 k2
    obtain ⟨⟨a1, a2, a3, a4⟩, a5⟩ := hk k k1 k2
    rw [e2] at a1
    rw [e1] at a2 a3 a5
    unfold on_trail at a4 ⊢
    rw [e4, e7] at a4
    exact ⟨⟨a1, a2, a3, a4⟩, a5⟩
  have hlen : (List.map s3.cdc (List.range size)).length = size := by simp
  refine ⟨by rw [hlen]; exact hs, ?_, ?_, ?_, ?_, ?_, ?_, ?_⟩
  · intro x hx
    obtain ⟨k, k1, rfl⟩ := mem_map_range _ _ _ hx
    by_cases hk0 : k = 0
    · subst hk0
      obtain ⟨b1, b2, _⟩ := t1 p p1
      rw [p2, var_neg, neg_neg]
      exact ⟨lit_ok_neg _ _ b1, b2, p, p1, rfl⟩
    · obtain ⟨⟨a1, a2, a3, q, q1, q2⟩, _⟩ := hk' k (by omega) k1
      refine ⟨?_, a1, q, q1, q2⟩
      obtain ⟨b1, b2, _⟩ := t1 q q1
      rw [q2, a1] at b2
      have : s3.cdc k = neg (s.assign q) := by rw [← b2, neg_neg]
      rw [this]
      exact lit_ok_neg _ _ b1
  · rw [getD_map_range _ _ _ (by omega), p2, var_neg]
    exact p3
  · intro k k1 k2
    rw [hlen] at k2
    rw [getD_map_range _ _ _ k2]
    obtain ⟨⟨_, a2, _, _⟩, a5⟩ := hk' k k1 k2
    exact ⟨a2, a5⟩
  · rw [hlen]
    rcases halt with ⟨x1, x2⟩ | ⟨k, k1, k2, k3⟩
    · exact Or.inl ⟨x1, x2⟩
    · right
      refine ⟨k, k1, k2, ?_⟩
      rw [getD_map_range _ _ _ k2, ← e1]
      exact k3
  · rcases halt with ⟨x1, x2⟩ | ⟨k, k1, k2, k3⟩
    · omega
    · obtain ⟨⟨_, a2, _, _⟩, _⟩ := hk' k k1 k2
      rw [e1] at k3
      omega
  · rcases halt with ⟨x1, x2⟩ | ⟨k, k1, k2, k3⟩
    · omega
    · obtain ⟨⟨_, _, a3, _⟩, _⟩ := hk' k k1 k2
      rw [e1] at k3
      omega
  · rw [List.map_map]
    apply nodup_map_range
    intro k1 k2 h12 hk2
    exact hd k1 k2 h12 hk2

/-- The contract of `analyze_conflict` in a state of the search with a
conflict at a decision level from 2 on. -/
theorem analyze_conflict_spec (s : my_manager) (hs : search_inv s) (hc : conflict_inv s)
    (h2 : 2 ≤ s.decision_level) :
    ∃ s1, analyze_conflict s s.conflicting_clause s.decision_level = some s1
      ∧ s1.conflict_clause = some s.alloc_next ∧ s1.alloc_next = s.alloc_next + 1
      ∧ (∀ c, c ≠ s.alloc_next → s1.cl c = s.cl c)
      ∧ learned_at s (s1.cl s.alloc_next).lits s.decision_level s1.assertion_level
      ∧ dcc_frame s { s1 with cl := s.cl }
      ∧ search_frame s { s1 with alloc_next := s.alloc_next } := by
  obtain ⟨hb, hq, hoff, hd1, ht, hm, hh, hst⟩ := hs
  obtain ⟨c, c1, c2, c3, c4⟩ := hc
  have hinv := trail_inv_analysis s ht h2
  have hfal := conflict_falsified s c hb ht c2 c3 c4
  rw [c1]
  have key : ∀ m : my_manager, dcc_frame s m → search_frame s m →
      ∃ s1, (match derive_conflict_clause
          { m with conflict_level := s.decision_level, conflicts := m.conflicts + 1 } (some c)
            s.decision_level with
        | none => none
        | some (size, assertion_level, s3) =>
          if size > 0 then
            some { s3 with
              assertion_level := assertion_level,
              cl := (Function.update s3.cl s3.alloc_next
                { index := 1, lits := List.map s3.cdc (List.range size) }),
              conflict_clause := some s3.alloc_next,
              alloc_next := s3.alloc_next + 1 }
          else
            some { s3 with assertion_level := 0, conflict_clause := none }) = some s1
      ∧ s1.conflict_clause = some s.alloc_next ∧ s1.alloc_next = s.alloc_next + 1
      ∧ (∀ c, c ≠ s.alloc_next → s1.cl c = s.cl c)
      ∧ learned_at s (s1.cl s.alloc_next).lits s.decision_level s1.assertion_level
      ∧ dcc_frame s { s1 with cl := s.cl }
      ∧ search_frame s { s1 with alloc_next := s.alloc_next } := by
    intro m hfm hsm
    have hfm2 : dcc_frame s
        { m with conflict_level := s.decision_level, conflicts := m.conflicts + 1 } := hfm
    have hsm2 : search_frame s
        { m with conflict_level := s.decision_level, conflicts := m.conflicts + 1 } := hsm
    obtain ⟨size, alevel, s3, hd, hf3, hs1, hL⟩ :=
      derive_conflict_clause_learned s _ c ht hfm2
        (analysis_inv_frame s _ _ hfm2 hinv) (falsified_at_frame s _ c _ hfm2 hfal) h2
    have hs3 := search_frame_trans _ _ _ hsm2 (derive_conflict_clause_search _ _ _ _ _ _ hd)
    rw [hd]
    simp only
    rw [if_pos (by omega)]
    have ea : s3.alloc_next = s.alloc_next := hs3.2.2.2.1
    obtain ⟨g1, g2, g3, g4, g5, g6, g7⟩ := hf3
    refine ⟨_, rfl, ?_, ?_, ?_, ?_, ?_, ?_⟩
    · show some s3.alloc_next = some s.alloc_next
      rw [ea]
    · show s3.alloc_next + 1 = s.alloc_next + 1
      rw [ea]
    · intro c' hc'
      show Function.update s3.cl s3.alloc_next _ c' = s.cl c'
      rw [ea, Function.update_noteq hc', g5]
    · show learned_at s (Function.update s3.cl s3.alloc_next _ s.alloc_next).lits _ alevel
      rw [ea, Function.update_same]
      exact hL
    · exact ⟨g1, g2, g3, g4, rfl, g6, g7⟩
    · obtain ⟨a1, a2, a3, a4, a5, a6, a7, a8, a9, a10, a11⟩ := hs3
      exact ⟨a1, a2, a3, rfl, a5, a6, a7, a8, a9, a10, a11⟩
  unfold analyze_conflict
  simp only
  by_cases hcf : s.conflicts ≥ s.next_sp_switch
  · rw [if_pos hcf]
    by_cases hsp : 1 - s.save_progress ≠ 0
    · rw [if_pos hsp]
      exact key _ ⟨rfl, rfl, rfl, rfl, rfl, rfl, rfl⟩
        ⟨rfl, rfl, rfl, rfl, rfl, rfl, rfl, rfl, rfl, rfl, fun h => ⟨h, fun _ => Iff.rfl⟩⟩
    · rw [if_neg hsp]
      exact key _ ⟨rfl, rfl, rfl, rfl, rfl, rfl, rfl⟩
        ⟨rfl, rfl, rfl, rfl, rfl, rfl, rfl, rfl, rfl, rfl, fun h => ⟨h, fun _ => Iff.rfl⟩⟩
  · rw [if_neg hcf]
    exact key _ ⟨rfl, rfl, rfl, rfl, rfl, rfl, rfl⟩ (search_frame_refl s)

theorem increment_literal_score_shape (s : my_manager) (l : Nat) :
    ∃ sc si h, increment_literal_score s l
        = { s with score := sc, score_inc := si, var_order_heap := h }
      ∧ (heap_wf s.var_order_heap → heap_wf h
          ∧ ∀ w, h.indices w ≠ 0 ↔ s.var_order_heap.indices w ≠ 0) := by
  unfold increment_literal_score rescale_variable_scores
  simp only
  split
  · exact ⟨_, _, _, rfl, fun hw => update_equiv _ _ _ hw⟩
  · exact ⟨_, _, _, rfl, fun hw => update_equiv _ _ _ hw⟩

theorem increment_clause_score_shape (s : my_manager) (c : Nat) :
    ∃ lcs csi, increment_clause_score s c
        = { s with learned_clause_scores := lcs, clause_score_inc := csi } := by
  unfold increment_clause_score rescale_clause_scores
  simp only
  split
  · exact ⟨_, _, rfl⟩
  · exact ⟨_, _, rfl⟩

theorem swap_one_perm (L : List Nat) (i : Nat) (h1 : 1 ≤ i) (h2 : i < L.length) :
    ((L.set 1 (L.getD i 0)).set i (L.getD 1 0)).Perm L
    ∧ ((L.set 1 (L.getD i 0)).set i (L.getD 1 0)).getD 0 0 = L.getD 0 0
    ∧ ((L.set 1 (L.getD i 0)).set i (L.getD 1 0)).getD 1 0 = L.getD i 0 := by
  match L, h2 with
  | [], h => simp at h
  | [a], h => simp at h; omega
  | a :: b :: t, h =>
    match i, h1, h with
    | 1, _, _ => simp
    | m + 2, _, h =>
      have hm : m < t.length := by simpa using h
      simp only [List.set_cons_succ, List.set_cons_zero, List.getD_cons_succ,
        List.getD_cons_zero]
      exact ⟨List.Perm.cons a (perm_swap_into b t m hm), trivial, trivial⟩

theorem clause_set_lits_self (cl : Nat → my_clause) (c : Nat) :
    Function.update cl c { cl c with lits := (cl c).lits } = cl := by
  funext x
  by_cases h : x = c
  · subst h
    rw [Function.update_same]
  · rw [Function.update_noteq h]

theorem add_conflict_clause_loop_shape (c : Nat) :
    ∀ (n i : Nat) (s : my_manager) (found : Bool),
      ∃ sc si h L1, add_conflict_clause_loop c n i s found
          = { s with score := sc, score_inc := si, var_order_heap := h,
                     cl := (Function.update s.cl c { s.cl c with lits := L1 }) }
        ∧ (heap_wf s.var_order_heap → heap_wf h
            ∧ ∀ w, h.indices w ≠ 0 ↔ s.var_order_heap.indices w ≠ 0)
        ∧ (found = true → L1 = (s.cl c).lits)
        ∧ ((i = 0 → s.level (var ((s.cl c).lits.getD 0 0)) ≠ s.assertion_level) →
            i + n ≤ (s.cl c).lits.length →
            L1.Perm (s.cl c).lits ∧ L1.getD 0 0 = (s.cl c).lits.getD 0 0
            ∧ (found = false →
                (∃ k, i ≤ k ∧ k < i + n
                  ∧ s.level (var ((s.cl c).lits.getD k 0)) = s.assertion_level) →
                s.level (var (L1.getD 1 0)) = s.assertion_level)) := by
  intro n
  induction n with
  | zero =>
    intro i s found
    refine ⟨s.score, s.score_inc, s.var_order_heap, (s.cl c).lits, ?_,
      fun hw => ⟨hw, fun _ => Iff.rfl⟩, fun _ => rfl, ?_⟩
    · rw [add_conflict_clause_loop, clause_set_lits_self]
    · intro _ _
      refine ⟨List.Perm.refl _, rfl, ?_⟩
      rintro _ ⟨k, k1, k2, _⟩
      omega
  | succ n ih =>
    intro i s found
    rw [add_conflict_clause_loop]
    obtain ⟨sc1, si1, h1, e1, hh1⟩ := increment_literal_score_shape s ((s.cl c).lits.getD i 0)
    simp only
    rw [e1]
    by_cases hsw : found = false
        ∧ s.level (var ((s.cl c).lits.getD i 0)) = s.assertion_level
    · rw [if_pos hsw]
      obtain ⟨sc, si, h, L1, e, hh, hf, _⟩ := ih (i + 1)
        (set_lits { s with score := sc1, score_inc := si1, var_order_heap := h1 } c
          (((s.cl c).lits.set 1 ((s.cl c).lits.getD i 0)).set i ((s.cl c).lits.getD 1 0))) true
      have hL1 := hf rfl
      have hL1' : L1 = ((s.cl c).lits.set 1 ((s.cl c).lits.getD i 0)).set i
          ((s.cl c).lits.getD 1 0) := by
        rw [hL1]
        show (Function.update s.cl c _ c).lits = _
        rw [Function.update_same]
      refine ⟨sc, si, h, L1, ?_, ?_, ?_, ?_⟩
      · rw [e]
        unfold set_lits
        simp only [Function.update_same, Function.update_idem]
      · intro hw
        obtain ⟨a1, a2⟩ := hh1 hw
        obtain ⟨b1, b2⟩ := hh a1
        exact ⟨b1, fun w => (b2 w).trans (a2 w)⟩
      · intro hfd
        rw [hfd] at hsw
        exact absurd hsw.1 (by decide)
      · intro hi0 hlen
        have hi1 : 1 ≤ i := by
          rcases Nat.eq_zero_or_pos i with z | z
          · exact absurd hsw.2 (by rw [z]; exact hi0 z)
          · exact z
        obtain ⟨q0, q1, q2⟩ := swap_one_perm (s.cl c).lits i hi1 (by omega)
        rw [hL1']
        refine ⟨q0, q1, ?_⟩
        intro _ _
        rw [q2]
        exact hsw.2
    · rw [if_neg hsw]
      obtain ⟨sc, si, h, L1, e, hh, hf, hrest⟩ := ih (i + 1)
        { s with score := sc1, score_inc := si1, var_order_heap := h1 } found
      refine ⟨sc, si, h, L1, ?_, ?_, hf, ?_⟩
      · rw [e]
      · intro hw
        obtain ⟨a1, a2⟩ := hh1 hw
        obtain ⟨b1, b2⟩ := hh a1
        exact ⟨b1, fun w => (b2 w).trans (a2 w)⟩
      · intro hi0 hlen
        obtain ⟨r0, r1, r2⟩ := hrest (fun z => by omega) (by
          show i + 1 + n ≤ (s.cl c).lits.length
          omega)
        refine ⟨r0, r1, ?_⟩
        intro hfd
        rintro ⟨k, k1, k2, k3⟩
        apply r2 hfd
        refine ⟨k, ?_, by omega, k3⟩
        rcases Nat.lt_or_ge i k with z | z
        · exact z
        · have : k = i := by omega
          subst this
          exact absurd ⟨hfd, k3⟩ hsw

/-- What `add_conflict_clause` does to the manager, for a clause of size at
least 2 whose first literal is not of the assertion level while another one
is. -/
theorem add_conflict_clause_shape (s : my_manager) (c : Nat)
    (h0 : s.level (var ((s.cl c).lits.getD 0 0)) ≠ s.assertion_level)
    (hk : ∃ k, 1 ≤ k ∧ k < (s.cl c).lits.length
      ∧ s.level (var ((s.cl c).lits.getD k 0)) = s.assertion_level) :
    ∃ sc si h L1 lcs csi,
      add_conflict_clause s c
        = { s with
            score := sc, score_inc := si, var_order_heap := h,
            cl := (Function.update s.cl c
              { index := (s.learned_clauses.length : Int), lits := L1 }),
            watched := (Function.update
              (Function.update s.watched (watched_index (L1.getD 0 0))
                (s.watched (watched_index (L1.getD 0 0)) ++ [c]))
              (watched_index (L1.getD 1 0))
              ((Function.update s.watched (watched_index (L1.getD 0 0))
                (s.watched (watched_index (L1.getD 0 0)) ++ [c]))
                (watched_index (L1.getD 1 0)) ++ [c])),
            learned_clauses := s.learned_clauses ++ [c],
            learned_clause_scores := lcs, clause_score_inc := csi }
      ∧ (heap_wf s.var_order_heap → heap_wf h
          ∧ ∀ w, h.indices w ≠ 0 ↔ s.var_order_heap.indices w ≠ 0)
      ∧ L1.Perm (s.cl c).lits ∧ L1.getD 0 0 = (s.cl c).lits.getD 0 0
      ∧ s.level (var (L1.getD 1 0)) = s.assertion_level := by
  obtain ⟨sc, si, h, L1, e, hh, _, hrest⟩ :=
    add_conflict_clause_loop_shape c (s.cl c).size 0 s false
  obtain ⟨r0, r1, r2⟩ := hrest (fun _ => h0) (by unfold my_clause.size; omega)
  have r3 := r2 rfl (by
    obtain ⟨k, k1, k2, k3⟩ := hk
    exact ⟨k, by omega, by unfold my_clause.size; omega, k3⟩)
  unfold add_conflict_clause
  simp only
  rw [e]
  unfold declare_watched_literals add_watched_clause
  simp only [Function.update_same]
  obtain ⟨lcs, csi, e2⟩ := increment_clause_score_shape
    { s with
      score := sc, score_inc := si, var_order_heap := h,
      cl := (Function.update (Function.update s.cl c { s.cl c with lits := L1 }) c
        { index := (s.learned_clauses.length : Int), lits := L1 }),
      watched := (Function.update
        (Function.update s.watched (watched_index (L1.getD 0 0))
          (s.watched (watched_index (L1.getD 0 0)) ++ [c]))
        (watched_index (L1.getD 1 0))
        ((Function.update s.watched (watched_index (L1.getD 0 0))
          (s.watched (watched_index (L1.getD 0 0)) ++ [c]))
          (watched_index (L1.getD 1 0)) ++ [c])),
      learned_clauses := s.learned_clauses ++ [c],
      learned_clause_scores :=
        (Function.update s.learned_clause_scores s.learned_clauses.length 0) } c
  refine ⟨sc, si, h, L1, lcs, csi, ?_, hh, r0, r1, r3⟩
  rw [Function.update_idem] at e2
  simp only [Function.update_same, Function.update_idem]
  convert e2 using 2
  have ec : Function.update s.cl c { index := (s.cl c).index, lits := L1 } c
      = { index := (s.cl c).index, lits := L1 } := Function.update_same _ _ _
  rw [ec]

/-- The contract of `bcp(l)` with the two-watched-literal invariant asked of the
state in which `l` has been set and queued: `l` is a literal of an
unassigned variable whose level (the current decision level) and reason are
already recorded, the queue is empty and the stack is as the search leaves
it. -/
theorem bcp_all_push (fuel : Nat) (s : my_manager) (l : Nat) (ptrs : List Nat) (res : Bool)
    (s' : my_manager) (hinv : bcp_inv s) (hq : s.imp.size = 0) (hoff : s.stack_offset = 0)
    (hsub : ∀ c ∈ ptrs, c ∈ clause_ptrs s)
    (hE : ∀ p, p < s.assign_top →
      lit_ok s.vc (s.assign p) ∧ s.status (var (s.assign p)) = s.assign p
      ∧ 1 ≤ s.level (var (s.assign p)) ∧ s.level (var (s.assign p)) ≤ s.decision_level
      ∧ (∀ q, q < p → var (s.assign q) ≠ var (s.assign p)
          ∧ s.level (var (s.assign q)) ≤ s.level (var (s.assign p)))
      ∧ reason_shape s p (s.reason (var (s.assign p))))
    (hA : ∀ v, v ≤ s.vc → s.status v ≠ 0 → on_trail s v s.assign_top)
    (hU : ∀ v, v ≤ s.vc → s.status v = 0 → v ≠ var l → s.level v = 0)
    (hl : lit_ok s.vc l) (hfree : s.status (var l) = 0)
    (hlv : s.level (var l) = s.decision_level) (hd1 : 1 ≤ s.decision_level)
    (hR : match s.reason (var l) with
      | none => 2 ≤ s.level (var l) →
          ∀ q, q < s.assign_top → s.level (var (s.assign q)) < s.level (var l)
      | some r => r ∈ clause_ptrs s ∧ (s.cl r).lits.getD 0 0 = l
          ∧ ∀ x ∈ (s.cl r).lits.drop 1, s.status (var x) = neg x
              ∧ on_trail s (var x) s.assign_top)
    (hm : trail_marks s s.assign_top)
    (hW : twl_lv ptrs s.cl (Function.update s.status (var l) l) s.level
      (undo s.score s.imp (var l)))
    (h : bcp fuel s l = some (res, s')) :
    bcp_inv s' ∧ s'.imp.size = 0
    ∧ trail_inv s' s'.assign_top ∧ trail_marks s' s'.assign_top
    ∧ bcp_frame s s' ∧ clause_ptrs s' = clause_ptrs s
    ∧ s'.status (var l) = l ∧ s'.level (var l) = s.level (var l)
    ∧ s'.reason (var l) = s.reason (var l)
    ∧ (res = true → twl_lv ptrs s'.cl s'.status s'.level s'.imp)
    ∧ (res = false → twl_low ptrs s'.cl s'.status s'.level s'.decision_level
        ∧ ∃ c, s'.conflicting_clause = some c ∧ c ∈ clause_ptrs s'
          ∧ (∀ x ∈ (s'.cl c).lits, s'.status (var x) = neg x)
          ∧ s'.level (var ((s'.cl c).lits.getD 1 0)) = s'.decision_level) := by
  have hlast : ((s.assign_top : Int) + 1 + s.stack_offset).toNat = s.assign_top + 1 := by
    rw [hoff]; omega
  have h : bcp_loop (s.level (var l)) fuel { s with
      imp := (undo s.score s.imp (var l)),
      assign := (Function.update s.assign s.assign_top l),
      status := (Function.update s.status (var l) l) } (s.assign_top + 1) = some (res, s') := by
    rw [← hlast]
    exact h
  have hl0 : l ≠ 0 := by have := hl.1; omega
  have hv := lit_ok_var s.vc l hl
  have hs1 := bcp_start_inv s l hinv hl
  obtain ⟨hkb, hst, hqo⟩ := hinv
  have hnomem : ∀ w, ¬ heap_mem s.imp w := fun w hw => heap_mem_size _ _ hw hq
  obtain ⟨u1, u2, _, _⟩ := undo_mem s.score s.imp (var l) (hqo.2 (var l) hv.2)
  have hT := trail_inv_push s s.assign_top l hE hA hU hl hfree (by omega) (by omega)
    (fun p hp => by rw [hlv]; exact (hE p hp).2.2.2.1) hR (undo s.score s.imp (var l))
  have hM := trail_marks_push s s.assign_top l hm hlv (undo s.score s.imp (var l))
    (Function.update s.status (var l) l)
  have hkb' : kb_inv s.vc (clause_ptrs s) s.cl s.watched := hkb
  have hB : bcp_trail { s with
      imp := (undo s.score s.imp (var l)),
      assign := (Function.update s.assign s.assign_top l),
      status := (Function.update s.status (var l) l) } (s.assign_top + 1) (s.level (var l)) := by
    refine ⟨hT, hM, ?_, hlv, by omega⟩
    intro w hw
    rcases (u2 w).mp hw with x | x
    · exact absurd x (hnomem w)
    · rw [x]
  obtain ⟨a1, a2, a3, a4⟩ := bcp_loop_inv _ fuel _ _ res s' hs1 h
  obtain ⟨b1, b2, b3, b4, b5⟩ := bcp_loop_all _ ptrs fuel _ _ res s' hs1 hsub hB hW h
  obtain ⟨f1, f2, f3, f4, f5, f6, f7, f8, f9, f10, f11, f12⟩ := b2
  have hnew := f12 (var l) (by
    show Function.update s.status (var l) l (var l) ≠ 0
    rw [Function.update_same]; exact hl0)
  have hdl : s'.decision_level = s.level (var l) := by rw [hlv]; exact f7
  refine ⟨a1, b3, b1.1, b1.2.1, ?_, a3, ?_, hnew.2.1, hnew.2.2, b4, ?_⟩
  · refine ⟨f1, f2, f3, f4, f5, f6, f7, f8, f9, f10, f11, ?_⟩
    intro v hv0
    have hvl : v ≠ var l := by
      intro e
      rw [e] at hv0
      exact hv0 hfree
    have := f12 v (by
      show Function.update s.status (var l) l v ≠ 0
      rw [Function.update_noteq hvl]; exact hv0)
    have e : Function.update s.status (var l) l v = s.status v := Function.update_noteq hvl _ _
    exact ⟨this.1.trans e, this.2.1, this.2.2⟩
  · have := hnew.1
    rw [this]
    show Function.update s.status (var l) l (var l) = l
    rw [Function.update_same]
  · intro e
    obtain ⟨c, c1, c2, c3⟩ := a4 e
    obtain ⟨x1, c', x2, x3⟩ := b5 e
    rw [c1] at x2
    have hcc : c = c' := Option.some.inj x2
    subst hcc
    rw [hdl]
    exact ⟨x1, c, c1, by rw [a3]; exact c2, c3, x3⟩

theorem kb_inv_lits_congr (vc : Nat) (ptrs : List Nat) (cl cl1 : Nat → my_clause)
    (watched : Nat → List Nat) (h : ∀ c ∈ ptrs, (cl1 c).lits = (cl c).lits)
    (hk : kb_inv vc ptrs cl watched) : kb_inv vc ptrs cl1 watched := by
  obtain ⟨k1, k2, k3⟩ := hk
  refine ⟨?_, ?_, ?_⟩
  · intro c hc
    rw [h c hc]
    exact k1 c hc
  · intro l l1 l2
    obtain ⟨a1, a2⟩ := k2 l l1 l2
    refine ⟨a1, ?_⟩
    intro c hc
    obtain ⟨b1, b2⟩ := a2 c hc
    refine ⟨b1, ?_⟩
    unfold watches at b2 ⊢
    rw [h c b1]
    exact b2
  · intro c hc
    rw [h c hc]
    exact k3 c hc

theorem twl_lv_lits_congr (ptrs : List Nat) (cl cl1 : Nat → my_clause)
    (status level : Nat → Nat) (q : heap) (h : ∀ c ∈ ptrs, (cl1 c).lits = (cl c).lits)
    (ht : twl_lv ptrs cl status level q) : twl_lv ptrs cl1 status level q := by
  intro c hc
  rw [h c hc]
  exact ht c hc

theorem twl_low_lits_congr (ptrs : List Nat) (cl cl1 : Nat → my_clause)
    (status level : Nat → Nat) (L : Nat) (h : ∀ c ∈ ptrs, (cl1 c).lits = (cl c).lits)
    (ht : twl_low ptrs cl status level L) : twl_low ptrs cl1 status level L := by
  intro c hc
  rw [h c hc]
  exact ht c hc

theorem same_search_inv (s s1 : my_manager) (h : same_search s s1) :
    (search_inv s → search_inv s1)
    ∧ (twl_lv (clause_ptrs s) s.cl s.status s.level s.imp →
        twl_lv (clause_ptrs s1) s1.cl s1.status s1.level s1.imp)
    ∧ (twl_low (clause_ptrs s) s.cl s.status s.level s.decision_level →
        twl_low (clause_ptrs s1) s1.cl s1.status s1.level s1.decision_level)
    ∧ (saved_ok s → saved_ok s1)
    ∧ (conflict_inv s → conflict_inv s1) := by
  obtain ⟨e1, e2, e3, e4, e5, e6, e7, e8, e9, e10, e11, e12, e13, e14, e15, hcl, hheap, ha⟩ := h
  have hp : clause_ptrs s1 = clause_ptrs s := by
    unfold clause_ptrs
    rw [e9, e10]
  refine ⟨?_, ?_, ?_, ?_, ?_⟩
  · rintro ⟨⟨hkb, hst, hqo⟩, hq, hoff, hd1, ht, hm, hh, hst2⟩
    refine ⟨⟨?_, ?_, ?_⟩, ?_, ?_, ?_, ?_, ?_, ?_, ?_⟩
    · unfold watched_inv
      rw [hp, e1, e11]
      exact kb_inv_lits_congr _ _ _ _ _ hcl hkb
    · rw [e1, e2]; exact hst
    · rw [e1, e2, e12]; exact hqo
    · rw [e12]; exact hq
    · rw [e13]; exact hoff
    · rw [e7]; exact hd1
    · obtain ⟨t1, t2, t3⟩ := ht
      rw [e6]
      refine ⟨?_, ?_, ?_⟩
      · intro p hp1
        obtain ⟨a1, a2, a3, a4, a5, a6⟩ := t1 p hp1
        rw [e1, e2, e3, e4, e5, e7]
        refine ⟨a1, a2, a3, a4, a5, ?_⟩
        cases hr : s.reason (var (s.assign p)) with
        | none =>
          rw [hr] at a6
          unfold reason_shape at a6 ⊢
          rw [e3, e5]
          exact a6
        | some r =>
          rw [hr] at a6
          unfold reason_shape at a6 ⊢
          unfold on_trail at a6 ⊢
          simp only at a6 ⊢
          rw [hp, e2, e5, hcl r a6.1]
          exact a6
      · intro v hv hs
        rw [e1] at hv
        rw [e2] at hs
        have := t2 v hv hs
        unfold on_trail at this ⊢
        rw [e5]
        exact this
      · intro v hv hs
        rw [e1] at hv
        rw [e2] at hs
        rw [e3]
        exact t3 v hv hs
    · unfold trail_marks at hm ⊢
      rw [e3, e5, e6, e7, e8]
      exact hm
    · obtain ⟨h1, h2, h3⟩ := hh
      obtain ⟨g1, g2⟩ := hheap h1
      refine ⟨g1, ?_, ?_⟩
      · intro w hw
        rw [e1]
        apply h2 w
        rw [heap_wf_mem _ h1 w]
        rw [heap_wf_mem _ g1 w] at hw
        exact (g2 w).mp hw
      · intro v v1 v2 hs
        rw [e1] at v2
        rw [e2] at hs
        exact (g2 v).mpr (h3 v v1 v2 hs)
    · obtain ⟨n1, n2⟩ := hst2
      unfold store_inv
      rw [hp]
      exact ⟨n1, fun c hc => Nat.lt_of_lt_of_le (n2 c hc) ha⟩
  · intro ht
    rw [hp, e2, e3, e12]
    exact twl_lv_lits_congr _ _ _ _ _ _ hcl ht
  · intro ht
    rw [hp, e2, e3, e7]
    exact twl_low_lits_congr _ _ _ _ _ _ hcl ht
  · intro hsv
    unfold saved_ok
    rw [e14]
    exact hsv
  · rintro ⟨c, c1, c2, c3, c4⟩
    refine ⟨c, by rw [e15]; exact c1, by rw [hp]; exact c2, ?_, ?_⟩
    · rw [hcl c c2, e2]; exact c3
    · rw [hcl c c2, e3, e7]; exact c4

theorem backtrack_loop_saved_ok :
    ∀ (n : Nat) (s : my_manager) (stack : Nat), saved_ok s →
      saved_ok (backtrack_loop n s stack) := by
  intro n
  induction n with
  | zero => intro s stack h; exact h
  | succ n ih =>
    intro s stack h
    rw [backtrack_loop]
    apply ih
    unfold backtrack_step
    simp only
    split
    · intro v hv
      show var (Function.update s.saved (var (s.assign (stack - 1))) (s.assign (stack - 1)) v) = v
      have hv' : Function.update s.saved (var (s.assign (stack - 1))) (s.assign (stack - 1)) v
          ≠ 0 := hv
      by_cases e : v = var (s.assign (stack - 1))
      · rw [e, Function.update_same]
      · rw [Function.update_noteq e] at hv' ⊢
        exact h v hv'
    · exact h

theorem backtrack_saved_ok (s : my_manager) (dest : Nat) (h : saved_ok s) :
    saved_ok (backtrack s dest) := by
  unfold backtrack
  split
  · exact h
  · exact backtrack_loop_saved_ok _ s _ h

theorem twl_low_of_lv (ptrs : List Nat) (cl : Nat → my_clause) (status level : Nat → Nat)
    (q : heap) (L : Nat) (hq : q.size = 0) (h : twl_lv ptrs cl status level q) :
    twl_low ptrs cl status level L := by
  intro c hc
  obtain ⟨h1, h2⟩ := h c hc
  refine ⟨fun a _ => ?_, fun a _ => ?_⟩
  · rcases h1 a with x | x
    · exact absurd x (fun hw => heap_mem_size _ _ hw hq)
    · exact x
  · rcases h2 a with x | x
    · exact absurd x (fun hw => heap_mem_size _ _ hw hq)
    · exact x

/-- What `backtrack(dest)` leaves of the invariants, for a level `dest` from 2
up to the decision level. -/
theorem backtrack_solve_inv (s : my_manager) (dest : Nat) (h1 : 2 ≤ dest)
    (h2 : dest ≤ s.decision_level) (hs : search_inv s)
    (ht : twl_low (clause_ptrs s) s.cl s.status s.level s.decision_level)
    (hsv : saved_ok s) :
    solve_inv (backtrack s dest) ∧ backtrack_frame s (backtrack s dest)
    ∧ undone s (backtrack s dest) dest
    ∧ (backtrack s dest).decision_level = dest - 1
    ∧ (backtrack s dest).assign_top = s.decision_lit dest := by
  obtain ⟨hb, hq, hoff, hd1, htr, hm, hh, hst⟩ := hs
  obtain ⟨f, a1, a2, hu, hh2⟩ := backtrack_spec s dest h2 (hm dest h1 h2) htr hh
  obtain ⟨t1, t2⟩ := undone_trail s _ dest h1 h2 htr hm f hu a1 a2
  obtain ⟨b1, b2⟩ := undone_bcp_inv s _ dest hb hq f hu
  have hok : ∀ c ∈ clause_ptrs s, lit_ok s.vc ((s.cl c).lits.getD 0 0)
      ∧ lit_ok s.vc ((s.cl c).lits.getD 1 0) := by
    intro c hc
    obtain ⟨c1, _, c3⟩ := hb.1.1 c hc
    have e0 : (s.cl c).lits.getD 0 0 = (s.cl c).lits.get ⟨0, by omega⟩ := by
      rw [List.getD_eq_getElem _ _ (by omega)]; rfl
    have e1 : (s.cl c).lits.getD 1 0 = (s.cl c).lits.get ⟨1, by omega⟩ := by
      rw [List.getD_eq_getElem _ _ (by omega)]; rfl
    rw [e0, e1]
    exact ⟨c3 _ (List.get_mem (s.cl c).lits 0 (by omega)),
      c3 _ (List.get_mem (s.cl c).lits 1 (by omega))⟩
  have hw := undone_twl s _ dest s.decision_level (clause_ptrs s) h2 f hu hok ht
  have hp : clause_ptrs (backtrack s dest) = clause_ptrs s := by
    unfold clause_ptrs
    rw [f.2.2.1, f.2.2.2.1]
  refine ⟨⟨⟨b1, b2, ?_, ?_, t1, t2, hh2, ?_⟩, ?_, backtrack_saved_ok s dest hsv⟩, f, hu, a2, a1⟩
  · rw [f.2.2.2.2.2.2.2.2.2.1]; exact hoff
  · rw [a2]; omega
  · unfold store_inv
    rw [hp, f.2.2.2.2.1]
    exact hst
  · rw [hp]
    exact hw

/-- The state after `analyze_conflict` on a conflict at a decision level from
2 on: the search has not changed, and the learned clause is at the pointer
that was next to be handed out. -/
theorem analyze_conflict_state (s : my_manager) (hs : search_inv s) (hc : conflict_inv s)
    (h2 : 2 ≤ s.decision_level) :
    ∃ s1, analyze_conflict s s.conflicting_clause s.decision_level = some s1
      ∧ same_search s s1
      ∧ s1.conflict_clause = some s.alloc_next ∧ s1.alloc_next = s.alloc_next + 1
      ∧ learned_at s (s1.cl s.alloc_next).lits s.decision_level s1.assertion_level := by
  obtain ⟨s1, h, a1, a2, a3, a4, a5, a6⟩ := analyze_conflict_spec s hs hc h2
  obtain ⟨x1, x2, x3⟩ := analyze_conflict_aux s _ _ s1 h
  obtain ⟨d1, d2, d3, d4, _, d6, d7⟩ := a5
  obtain ⟨f1, f2, f3, f4, f5, f6, f7, f8, f9, f10, f11⟩ := a6
  refine ⟨s1, h, ⟨d6, d2, d1, d3, d4, d7, f5, f6, f1, f2, f3, f7, f8, x1, f10, ?_, f11, ?_⟩,
    a1, a2, a4⟩
  · intro c hc'
    have := hs.2.2.2.2.2.2.2.2 c hc'
    rw [a3 c (by omega)]
  · rw [a2]; omega

/-- The contract of `bcp(l)` in terms of the invariants of the search: the
state `S` is a state of the search but for the variable of `l`, which is
unassigned, out of the variable heap or in it, and has its level and reason
recorded. -/
theorem bcp_solve_inv (fuel : Nat) (S : my_manager) (l : Nat) (res : Bool) (s5 : my_manager)
    (hinv : bcp_inv S) (hq : S.imp.size = 0) (hoff : S.stack_offset = 0)
    (hE : ∀ p, p < S.assign_top →
      lit_ok S.vc (S.assign p) ∧ S.status (var (S.assign p)) = S.assign p
      ∧ 1 ≤ S.level (var (S.assign p)) ∧ S.level (var (S.assign p)) ≤ S.decision_level
      ∧ (∀ q, q < p → var (S.assign q) ≠ var (S.assign p)
          ∧ S.level (var (S.assign q)) ≤ S.level (var (S.assign p)))
      ∧ reason_shape S p (S.reason (var (S.assign p))))
    (hA : ∀ v, v ≤ S.vc → S.status v ≠ 0 → on_trail S v S.assign_top)
    (hU : ∀ v, v ≤ S.vc → S.status v = 0 → v ≠ var l → S.level v = 0)
    (hl : lit_ok S.vc l) (hfree : S.status (var l) = 0)
    (hlv : S.level (var l) = S.decision_level) (hd1 : 1 ≤ S.decision_level)
    (hR : match S.reason (var l) with
      | none => 2 ≤ S.level (var l) →
          ∀ q, q < S.assign_top → S.level (var (S.assign q)) < S.level (var l)
      | some r => r ∈ clause_ptrs S ∧ (S.cl r).lits.getD 0 0 = l
          ∧ ∀ x ∈ (S.cl r).lits.drop 1, S.status (var x) = neg x
              ∧ on_trail S (var x) S.assign_top)
    (hm : trail_marks S S.assign_top)
    (hW : twl_lv (clause_ptrs S) S.cl (Function.update S.status (var l) l) S.level
      (undo S.score S.imp (var l)))
    (hh1 : heap_wf S.var_order_heap)
    (hh2 : ∀ w, heap_mem S.var_order_heap w → 1 ≤ w ∧ w ≤ S.vc)
    (hh3 : ∀ v, 1 ≤ v → v ≤ S.vc → S.status v = 0 → v ≠ var l →
      S.var_order_heap.indices v ≠ 0)
    (hst : store_inv S) (hsv : saved_ok S)
    (h : bcp fuel S l = some (res, s5)) :
    (res = true → solve_inv s5) ∧ (res = false → conflict_state s5)
    ∧ bcp_frame S s5 ∧ s5.status (var l) = l ∧ s5.level (var l) = S.level (var l)
    ∧ s5.reason (var l) = S.reason (var l) := by
  obtain ⟨b1, b2, b3, b4, b5, b6, b7, b8, b9, b10, b11⟩ :=
    bcp_all_push fuel S l (clause_ptrs S) res s5 hinv hq hoff (fun _ hc => hc) hE hA hU hl
      hfree hlv hd1 hR hm hW h
  obtain ⟨x1, x2, x3⟩ := bcp_aux fuel S l res s5 h
  have hb5 := b5
  obtain ⟨f1, f2, f3, f4, f5, f6, f7, f8, f9, f10, f11, f12⟩ := b5
  have hsearch : search_inv s5 := by
    refine ⟨b1, b2, by rw [f9]; exact hoff, by rw [f7]; exact hd1, b3, b4, ?_, ?_⟩
    · refine ⟨by rw [f5]; exact hh1, ?_, ?_⟩
      · rw [f5, f1]; exact hh2
      · intro v v1 v2 hs
        rw [f5]
        rw [f1] at v2
        have hs0 : S.status v = 0 := by
          by_contra hne
          rw [(f12 v hne).1] at hs
          exact hne hs
        have hvl : v ≠ var l := by
          intro e
          rw [e, b7] at hs
          have := hl.1
          omega
        exact hh3 v v1 v2 hs0 hvl
    · unfold store_inv
      rw [b6, f4]
      exact hst
  have hsaved : saved_ok s5 := by
    unfold saved_ok
    rw [x1]
    exact hsv
  refine ⟨?_, ?_, hb5, b7, b8, b9⟩
  · intro e
    refine ⟨hsearch, ?_, hsaved⟩
    rw [b6]
    exact b10 e
  · intro e
    obtain ⟨t, cc⟩ := b11 e
    refine ⟨hsearch, ?_, hsaved, cc⟩
    rw [b6]
    exact t

theorem twl_lv_level_update (ptrs : List Nat) (cl : Nat → my_clause) (status level : Nat → Nat)
    (q : heap) (v lv : Nat) (hv : status v = 0)
    (hnz : ∀ c ∈ ptrs, 2 ≤ (cl c).lits.getD 0 0 ∧ 2 ≤ (cl c).lits.getD 1 0)
    (h : twl_lv ptrs cl status level q) :
    twl_lv ptrs cl status (Function.update level v lv) q := by
  have key : ∀ x y : Nat, 2 ≤ x → 2 ≤ y →
      (status (var x) = neg x → heap_mem q (var x)
        ∨ (status (var y) = y ∧ level (var y) ≤ level (var x))) →
      status (var x) = neg x → heap_mem q (var x)
        ∨ (status (var y) = y ∧ Function.update level v lv (var y)
            ≤ Function.update level v lv (var x)) := by
    intro x y hx hy hold hs
    rcases hold hs with z | ⟨z1, z2⟩
    · exact Or.inl z
    · right
      have hxv : var x ≠ v := by
        intro e
        rw [e, hv] at hs
        exact neg_ne_zero x hx hs.symm
      have hyv : var y ≠ v := by
        intro e
        rw [e, hv] at z1
        omega
      rw [Function.update_noteq hxv, Function.update_noteq hyv]
      exact ⟨z1, z2⟩
  intro c hc
  obtain ⟨t1, t2⟩ := h c hc
  obtain ⟨z0, z1⟩ := hnz c hc
  exact ⟨key _ _ z0 z1 t1, key _ _ z1 z0 t2⟩

theorem watch_lits_ok (vc : Nat) (ptrs : List Nat) (cl : Nat → my_clause)
    (h : clauses_ok vc ptrs cl) (c : Nat) (hc : c ∈ ptrs) :
    lit_ok vc ((cl c).lits.getD 0 0) ∧ lit_ok vc ((cl c).lits.getD 1 0) := by
  obtain ⟨c1, _, c3⟩ := h c hc
  have e0 : (cl c).lits.getD 0 0 = (cl c).lits.get ⟨0, by omega⟩ := by
    rw [List.getD_eq_getElem _ _ (by omega)]; rfl
  have e1 : (cl c).lits.getD 1 0 = (cl c).lits.get ⟨1, by omega⟩ := by
    rw [List.getD_eq_getElem _ _ (by omega)]; rfl
  rw [e0, e1]
  exact ⟨c3 _ (List.get_mem (cl c).lits 0 (by omega)),
    c3 _ (List.get_mem (cl c).lits 1 (by omega))⟩

theorem set_decision_start_shape (s : my_manager) (l : Nat) :
    ∃ m, set_decision_start s l
      = { s with
          max_decision_level := m,
          decision_level := s.decision_level + 1,
          decisions := s.decisions + 1,
          level := (Function.update s.level (var l) (s.decision_level + 1)),
          reason := (Function.update s.reason (var l) none),
          decision_lit := (Function.update s.decision_lit (s.decision_level + 1)
            s.assign_top) } := by
  unfold set_decision_start
  simp only
  split
  · exact ⟨_, rfl⟩
  · exact ⟨_, rfl⟩

/-- The two-watched-literal invariant with levels in the state in which `bcp`
starts its loop: the literal `l` of an unassigned variable has been set and
queued, and its level recorded. -/
theorem twl_lv_start (vc : Nat) (ptrs : List Nat) (cl : Nat → my_clause)
    (status level : Nat → Nat) (score : Nat → ℚ) (q : heap) (l lv : Nat)
    (hc : clauses_ok vc ptrs cl) (hqo : queue_ok vc status q) (hl : lit_ok vc l)
    (hfree : status (var l) = 0) (ht : twl_lv ptrs cl status level q) :
    twl_lv ptrs cl (Function.update status (var l) l) (Function.update level (var l) lv)
      (undo score q (var l)) := by
  have hv := lit_ok_var vc l hl
  obtain ⟨u1, u2, _, _⟩ := undo_mem score q (var l) (hqo.2 (var l) hv.2)
  have hnz : ∀ c ∈ ptrs, 2 ≤ (cl c).lits.getD 0 0 ∧ 2 ≤ (cl c).lits.getD 1 0 := by
    intro c hcp
    obtain ⟨a, b⟩ := watch_lits_ok vc ptrs cl hc c hcp
    exact ⟨a.1, b.1⟩
  have h1 := twl_lv_level_update ptrs cl status level q (var l) lv hfree hnz ht
  exact twl_lv_push ptrs cl status _ q (undo score q (var l)) l h1 hfree
    (fun c hcp => by
      obtain ⟨a, b⟩ := hnz c hcp
      constructor <;> omega)
    (fun w hw => (u2 w).mpr (Or.inl hw)) u1

/-- The contract of `set_decision(l)` in terms of the invariants of the
search: `l` is a literal of an unassigned variable, and every other
unassigned variable is in the variable heap. -/
theorem set_decision_contract (bfuel : Nat) (s : my_manager) (l : Nat)
    (hb : bcp_inv s) (hq : s.imp.size = 0) (hoff : s.stack_offset = 0)
    (hd1 : 1 ≤ s.decision_level) (htr : trail_inv s s.assign_top)
    (hm : trail_marks s s.assign_top) (hst : store_inv s) (hsv : saved_ok s)
    (htw : twl_lv (clause_ptrs s) s.cl s.status s.level s.imp)
    (g1 : heap_wf s.var_order_heap)
    (g2 : ∀ w, heap_mem s.var_order_heap w → 1 ≤ w ∧ w ≤ s.vc)
    (g3 : ∀ v, 1 ≤ v → v ≤ s.vc → s.status v = 0 → v ≠ var l →
      s.var_order_heap.indices v ≠ 0)
    (hl : lit_ok s.vc l) (hfree : s.status (var l) = 0)
    (res : Bool) (s5 : my_manager) (h : set_decision bfuel s l = some (res, s5)) :
    (res = true → solve_inv s5) ∧ (res = false → conflict_state s5)
    ∧ s5.decision_level = s.decision_level + 1 := by
  obtain ⟨t1, t2, t3⟩ := htr
  unfold set_decision at h
  obtain ⟨m, em⟩ := set_decision_start_shape s l
  rw [em] at h
  have hnt : ∀ p, p < s.assign_top → var (s.assign p) ≠ var l := by
    intro p hp e
    obtain ⟨a1, a2, _⟩ := t1 p hp
    rw [e, hfree] at a2
    have := a1.1
    omega
  have hres := bcp_solve_inv bfuel
    { s with
      max_decision_level := m,
      decision_level := s.decision_level + 1,
      decisions := s.decisions + 1,
      level := (Function.update s.level (var l) (s.decision_level + 1)),
      reason := (Function.update s.reason (var l) none),
      decision_lit := (Function.update s.decision_lit (s.decision_level + 1)
        s.assign_top) } l res s5 hb hq hoff ?_ t2 ?_ hl hfree ?_ ?_ ?_ ?_ ?_
    g1 ?_ ?_ hst hsv h
  · obtain ⟨r1, r2, r3, _⟩ := hres
    refine ⟨r1, r2, ?_⟩
    exact r3.2.2.2.2.2.2.1
  · intro p hp
    have hp : p < s.assign_top := hp
    obtain ⟨a1, a2, a3, a4, a5, a6⟩ := t1 p hp
    have hne := hnt p hp
    show lit_ok s.vc (s.assign p) ∧ s.status (var (s.assign p)) = s.assign p
      ∧ 1 ≤ Function.update s.level (var l) (s.decision_level + 1) (var (s.assign p))
      ∧ Function.update s.level (var l) (s.decision_level + 1) (var (s.assign p))
          ≤ s.decision_level + 1
      ∧ (∀ q, q < p → var (s.assign q) ≠ var (s.assign p)
          ∧ Function.update s.level (var l) (s.decision_level + 1) (var (s.assign q))
            ≤ Function.update s.level (var l) (s.decision_level + 1) (var (s.assign p)))
      ∧ reason_shape _ p
          (Function.update s.reason (var l) none (var (s.assign p)))
    rw [Function.update_noteq hne, Function.update_noteq hne]
    refine ⟨a1, a2, a3, by omega, ?_, ?_⟩
    · intro q hq1
      rw [Function.update_noteq (hnt q (by omega))]
      exact a5 q hq1
    · cases hr : s.reason (var (s.assign p)) with
      | none =>
        rw [hr] at a6
        unfold reason_shape at a6 ⊢
        simp only at a6 ⊢
        rw [Function.update_noteq hne]
        intro x q hq1
        rw [Function.update_noteq (hnt q (by omega))]
        exact a6 x q hq1
      | some r =>
        rw [hr] at a6
        exact a6
  · intro u hu hs hne
    show Function.update s.level (var l) (s.decision_level + 1) u = 0
    rw [Function.update_noteq hne]
    exact t3 u hu hs
  · show Function.update s.level (var l) (s.decision_level + 1) (var l)
      = s.decision_level + 1
    rw [Function.update_same]
  · show 1 ≤ s.decision_level + 1
    omega
  · show match Function.update s.reason (var l) none (var l) with
      | none => 2 ≤ Function.update s.level (var l) (s.decision_level + 1) (var l) →
          ∀ q, q < s.assign_top →
            Function.update s.level (var l) (s.decision_level + 1) (var (s.assign q))
              < Function.update s.level (var l) (s.decision_level + 1) (var l)
      | some r => r ∈ clause_ptrs s ∧ (s.cl r).lits.getD 0 0 = l
          ∧ ∀ x ∈ (s.cl r).lits.drop 1, s.status (var x) = neg x
              ∧ on_trail s (var x) s.assign_top
    rw [Function.update_same]
    simp only
    intro _ q hq1
    rw [Function.update_same, Function.update_noteq (hnt q hq1)]
    have := (t1 q hq1).2.2.2.1
    omega
  · intro L L1 L2
    show Function.update s.decision_lit (s.decision_level + 1) s.assign_top L
        ≤ s.assign_top
      ∧ ∀ p, p < s.assign_top →
        (Function.update s.decision_lit (s.decision_level + 1) s.assign_top L ≤ p
          ↔ L ≤ Function.update s.level (var l) (s.decision_level + 1) (var (s.assign p)))
    have L2' : L ≤ s.decision_level + 1 := L2
    by_cases hL : L = s.decision_level + 1
    · rw [hL, Function.update_same]
      refine ⟨le_refl _, ?_⟩
      intro p hp
      rw [Function.update_noteq (hnt p hp)]
      have := (t1 p hp).2.2.2.1
      constructor <;> intro <;> omega
    · rw [Function.update_noteq hL]
      obtain ⟨m1, m2⟩ := hm L L1 (by omega)
      refine ⟨m1, ?_⟩
      intro p hp
      rw [Function.update_noteq (hnt p hp)]
      exact m2 p hp
  · exact twl_lv_start s.vc _ s.cl s.status s.level s.score s.imp l _ hb.1.1 hb.2.2 hl
      hfree htw
  · exact g2
  · exact g3


/-- A decision on the variable that `select_variable` has returned, with the
literal chosen as in `solve`, leaves a state of the search, or one with a
conflict. -/
theorem set_decision_inv (bfuel : Nat) (s3 : my_manager) (hsol : solve_inv s3)
    (v : Nat) (s4 : my_manager) (hsel : select_variable s3 = some (v, s4)) (hv : v ≠ 0)
    (res : Bool) (s5 : my_manager)
    (h : set_decision bfuel s4
      (if s4.saved v = 0 ∨ s4.save_progress = 0 then nlit v else s4.saved v)
        = some (res, s5)) :
    (res = true → solve_inv s5) ∧ (res = false → conflict_state s5)
    ∧ s5.decision_level = s3.decision_level + 1 := by
  obtain ⟨⟨hb, hq, hoff, hd1, htr, hm, hh, hst⟩, htw, hsv⟩ := hsol
  have hl1 : ∀ u, u ≤ s3.vc → s3.status u ≠ 0 → s3.level u ≠ 0 := by
    intro u hu hs
    obtain ⟨p, p1, p2⟩ := htr.2.1 u hu hs
    obtain ⟨_, _, a3, _⟩ := htr.1 p p1
    rw [p2] at a3
    omega
  obtain ⟨e4, g1, g2, _, g4⟩ := select_variable_spec s3 v s4 hh hl1 htr.2.2 hsel
  obtain ⟨v1, v2, v3, v4⟩ := g4 hv
  generalize hlit : (if s4.saved v = 0 ∨ s4.save_progress = 0 then nlit v else s4.saved v)
    = l at h
  have hs4 : s4.saved = s3.saved := by rw [e4]
  have hvl : var l = v := by
    rw [← hlit]
    split
    · rw [var_eq, nlit_eq]; omega
    · rename_i hne
      have : s4.saved v ≠ 0 := fun e => hne (Or.inl e)
      rw [hs4] at this ⊢
      exact hsv v this
  have hl : lit_ok s3.vc l := by
    have hl0 : l ≠ 0 := by
      rw [← hlit]
      split
      · rw [nlit_eq]; omega
      · rename_i hne
        exact fun e => hne (Or.inl e)
    rw [var_eq] at hvl
    unfold lit_ok
    omega
  have hdl : s4.decision_level = s3.decision_level := by rw [e4]
  rw [← hdl]
  refine set_decision_contract bfuel s4 l ?_ ?_ ?_ ?_ ?_ ?_ ?_ ?_ ?_ g1 ?_ ?_ ?_ ?_ res s5 h
  · rw [e4]; exact hb
  · rw [e4]; exact hq
  · rw [e4]; exact hoff
  · rw [e4]; exact hd1
  · rw [e4]; exact htr
  · rw [e4]; exact hm
  · rw [e4]; exact hst
  · rw [e4]; exact hsv
  · rw [e4]; exact htw
  · have : s4.vc = s3.vc := by rw [e4]
    rw [this]; exact g2
  · intro u u1 u2 hs hne
    have e1 : s4.vc = s3.vc := by rw [e4]
    have e2 : s4.status = s3.status := by rw [e4]
    rw [e1] at u2
    rw [e2] at hs
    rw [hvl] at hne
    exact v4 u u1 u2 hs hne
  · have : s4.vc = s3.vc := by rw [e4]
    rw [this]; exact hl
  · have e2 : s4.status = s3.status := by rw [e4]
    rw [e2, hvl]; exact v3

/-- The stack of a state `S` that differs from a state `s` of the search in
the level and the reason recorded for the unassigned variable of `l`, and
possibly in clauses added to the store. -/
theorem assert_entries (s S : my_manager) (l lv : Nat)
    (htr : trail_inv s s.assign_top) (hm : trail_marks s s.assign_top)
    (e_vc : S.vc = s.vc) (e_st : S.status = s.status) (e_as : S.assign = s.assign)
    (e_top : S.assign_top = s.assign_top) (e_dl : S.decision_level = s.decision_level)
    (e_dlit : S.decision_lit = s.decision_lit)
    (e_lv : S.level = Function.update s.level (var l) lv)
    (hreason : ∀ v, v ≠ var l → S.reason v = s.reason v)
    (hcp : ∀ r ∈ clause_ptrs s, r ∈ clause_ptrs S ∧ (S.cl r).lits = (s.cl r).lits)
    (hfree : s.status (var l) = 0) :
    (∀ p, p < S.assign_top →
      lit_ok S.vc (S.assign p) ∧ S.status (var (S.assign p)) = S.assign p
      ∧ 1 ≤ S.level (var (S.assign p)) ∧ S.level (var (S.assign p)) ≤ S.decision_level
      ∧ (∀ q, q < p → var (S.assign q) ≠ var (S.assign p)
          ∧ S.level (var (S.assign q)) ≤ S.level (var (S.assign p)))
      ∧ reason_shape S p (S.reason (var (S.assign p))))
    ∧ (∀ v, v ≤ S.vc → S.status v ≠ 0 → on_trail S v S.assign_top)
    ∧ (∀ v, v ≤ S.vc → S.status v = 0 → v ≠ var l → S.level v = 0)
    ∧ trail_marks S S.assign_top := by
  obtain ⟨t1, t2, t3⟩ := htr
  have hnt : ∀ p, p < s.assign_top → var (s.assign p) ≠ var l := by
    intro p hp e
    obtain ⟨a1, a2, _⟩ := t1 p hp
    rw [e, hfree] at a2
    have := a1.1
    omega
  refine ⟨?_, ?_, ?_, ?_⟩
  · intro p hp
    rw [e_top] at hp
    obtain ⟨a1, a2, a3, a4, a5, a6⟩ := t1 p hp
    have hne := hnt p hp
    rw [e_vc, e_st, e_as, e_lv, e_dl, Function.update_noteq hne, hreason _ hne]
    refine ⟨a1, a2, a3, a4, ?_, ?_⟩
    · intro q hq1
      rw [Function.update_noteq (hnt q (by omega))]
      exact a5 q hq1
    · cases hr : s.reason (var (s.assign p)) with
      | none =>
        rw [hr] at a6
        unfold reason_shape at a6 ⊢
        simp only at a6 ⊢
        rw [e_lv, e_as, Function.update_noteq hne]
        intro x q hq1
        rw [Function.update_noteq (hnt q (by omega))]
        exact a6 x q hq1
      | some r =>
        rw [hr] at a6
        unfold reason_shape at a6 ⊢
        unfold on_trail at a6 ⊢
        simp only at a6 ⊢
        obtain ⟨r1, r2⟩ := hcp r a6.1
        rw [r2, e_st, e_as]
        exact ⟨r1, a6.2⟩
  · intro v hv hs
    rw [e_vc] at hv
    rw [e_st] at hs
    have := t2 v hv hs
    unfold on_trail at this ⊢
    rw [e_as, e_top]
    exact this
  · intro v hv hs hne
    rw [e_vc] at hv
    rw [e_st] at hs
    rw [e_lv, Function.update_noteq hne]
    exact t3 v hv hs
  · intro L L1 L2
    rw [e_dl] at L2
    obtain ⟨m1, m2⟩ := hm L L1 L2
    rw [e_dlit, e_top, e_lv, e_as]
    refine ⟨m1, ?_⟩
    intro p hp
    rw [Function.update_noteq (hnt p hp)]
    exact m2 p hp

/-- The variable heap of a state `S` whose heap has the members of the heap
of a state `s` of the search with the same status. -/
theorem assert_heap (s S : my_manager) (hh : heap_inv s) (e_vc : S.vc = s.vc)
    (e_st : S.status = s.status)
    (hheap : heap_wf s.var_order_heap → heap_wf S.var_order_heap
      ∧ ∀ w, S.var_order_heap.indices w ≠ 0 ↔ s.var_order_heap.indices w ≠ 0) :
    heap_inv S := by
  obtain ⟨h1, h2, h3⟩ := hh
  obtain ⟨g1, g2⟩ := hheap h1
  refine ⟨g1, ?_, ?_⟩
  · intro w hw
    rw [e_vc]
    apply h2 w
    rw [heap_wf_mem _ h1 w]
    rw [heap_wf_mem _ g1 w] at hw
    exact (g2 w).mp hw
  · intro v v1 v2 hs
    rw [e_vc] at v2
    rw [e_st] at hs
    exact (g2 v).mpr (h3 v v1 v2 hs)

/-- Adding the clause `L1` at a fresh pointer `c` to the store and to the
watched lists of its first two literals keeps the two-watched-literal
invariant. -/
theorem kb_inv_add (vc : Nat) (ptrs : List Nat) (cl : Nat → my_clause)
    (watched : Nat → List Nat) (c : Nat) (ix : Int) (L1 : List Nat)
    (hk : kb_inv vc ptrs cl watched) (hc : c ∉ ptrs) (hlen : 2 ≤ L1.length)
    (hnd : L1.Nodup) (hok : ∀ x ∈ L1, lit_ok vc x) :
    kb_inv vc (ptrs ++ [c]) (Function.update cl c { index := ix, lits := L1 })
      (Function.update
        (Function.update watched (watched_index (L1.getD 0 0))
          (watched (watched_index (L1.getD 0 0)) ++ [c]))
        (watched_index (L1.getD 1 0))
        ((Function.update watched (watched_index (L1.getD 0 0))
          (watched (watched_index (L1.getD 0 0)) ++ [c]))
          (watched_index (L1.getD 1 0)) ++ [c])) := by
  obtain ⟨k1, k2, k3⟩ := hk
  have e0 : L1.getD 0 0 = L1.get ⟨0, by omega⟩ := by
    rw [List.getD_eq_getElem _ _ (by omega)]; rfl
  have e1 : L1.getD 1 0 = L1.get ⟨1, by omega⟩ := by
    rw [List.getD_eq_getElem _ _ (by omega)]; rfl
  have m0 : lit_ok vc (L1.getD 0 0) := by rw [e0]; exact hok _ (List.get_mem L1 0 (by omega))
  have m1 : lit_ok vc (L1.getD 1 0) := by rw [e1]; exact hok _ (List.get_mem L1 1 (by omega))
  have hne : L1.getD 0 0 ≠ L1.getD 1 0 := by
    rw [e0, e1]
    intro e
    have := (List.Nodup.get_inj_iff hnd).mp e
    simp at this
  have hwi : watched_index (L1.getD 0 0) ≠ watched_index (L1.getD 1 0) :=
    fun e => hne (watched_index_inj _ _ m0.1 m1.1 e)
  have hW1 : Function.update watched (watched_index (L1.getD 0 0))
      (watched (watched_index (L1.getD 0 0)) ++ [c]) (watched_index (L1.getD 1 0))
      = watched (watched_index (L1.getD 1 0)) := Function.update_noteq (Ne.symm hwi) _ _
  rw [hW1]
  have hcw : ∀ l, 2 ≤ l → l ≤ 2 * vc + 1 → c ∉ watched (watched_index l) := by
    intro l l1 l2 hin
    exact hc ((k2 l l1 l2).2 c hin).1
  have hclo : ∀ c1 ∈ ptrs, Function.update cl c { index := ix, lits := L1 } c1 = cl c1 := by
    intro c1 hc1
    apply Function.update_noteq
    intro e
    rw [e] at hc1
    exact hc hc1
  refine ⟨?_, ?_, ?_⟩
  · intro c1 hc1
    rcases List.mem_append.mp hc1 with x | x
    · rw [hclo c1 x]
      exact k1 c1 x
    · have : c1 = c := by simpa using x
      rw [this, Function.update_same]
      exact ⟨hlen, hnd, hok⟩
  · intro l l1 l2
    obtain ⟨a1, a2⟩ := k2 l l1 l2
    have old : ∀ c1 ∈ watched (watched_index l), c1 ∈ ptrs ++ [c]
        ∧ watches (Function.update cl c { index := ix, lits := L1 } c1) l := by
      intro c1 hc1
      obtain ⟨b1, b2⟩ := a2 c1 hc1
      rw [hclo c1 b1]
      exact ⟨List.mem_append_left _ b1, b2⟩
    by_cases h1 : watched_index l = watched_index (L1.getD 1 0)
    · have hl1 : l = L1.getD 1 0 := watched_index_inj _ _ l1 m1.1 h1
      rw [h1, Function.update_same, ← h1]
      refine ⟨?_, ?_⟩
      · rw [List.nodup_append]
        refine ⟨a1, List.nodup_singleton c, ?_⟩
        intro x hx hx2
        have : x = c := by simpa using hx2
        rw [this] at hx
        exact hcw l l1 l2 hx
      · intro c1 hc1
        rcases List.mem_append.mp hc1 with x | x
        · exact old c1 x
        · have : c1 = c := by simpa using x
          rw [this, Function.update_same]
          refine ⟨List.mem_append_right _ (by simp), ?_⟩
          unfold watches
          right
          exact hl1.symm
    · rw [Function.update_noteq h1]
      by_cases h0 : watched_index l = watched_index (L1.getD 0 0)
      · have hl0 : l = L1.getD 0 0 := watched_index_inj _ _ l1 m0.1 h0
        rw [h0, Function.update_same, ← h0]
        refine ⟨?_, ?_⟩
        · rw [List.nodup_append]
          refine ⟨a1, List.nodup_singleton c, ?_⟩
          intro x hx hx2
          have : x = c := by simpa using hx2
          rw [this] at hx
          exact hcw l l1 l2 hx
        · intro c1 hc1
          rcases List.mem_append.mp hc1 with x | x
          · exact old c1 x
          · have : c1 = c := by simpa using x
            rw [this, Function.update_same]
            refine ⟨List.mem_append_right _ (by simp), ?_⟩
            unfold watches
            left
            exact hl0.symm
      · rw [Function.update_noteq h0]
        exact ⟨a1, old⟩
  · have grow : ∀ j c1, c1 ∈ watched j →
        c1 ∈ Function.update
          (Function.update watched (watched_index (L1.getD 0 0))
            (watched (watched_index (L1.getD 0 0)) ++ [c]))
          (watched_index (L1.getD 1 0))
          (watched (watched_index (L1.getD 1 0)) ++ [c]) j := by
      intro j c1 hc1
      by_cases h1 : j = watched_index (L1.getD 1 0)
      · rw [h1, Function.update_same]
        rw [h1] at hc1
        exact List.mem_append_left _ hc1
      · rw [Function.update_noteq h1]
        by_cases h0 : j = watched_index (L1.getD 0 0)
        · rw [h0, Function.update_same]
          rw [h0] at hc1
          exact List.mem_append_left _ hc1
        · rw [Function.update_noteq h0]
          exact hc1
    intro c1 hc1
    rcases List.mem_append.mp hc1 with x | x
    · rw [hclo c1 x]
      obtain ⟨a, b⟩ := k3 c1 x
      exact ⟨grow _ _ a, grow _ _ b⟩
    · have : c1 = c := by simpa using x
      rw [this, Function.update_same]
      refine ⟨?_, ?_⟩
      · show c ∈ Function.update
          (Function.update watched (watched_index (L1.getD 0 0))
            (watched (watched_index (L1.getD 0 0)) ++ [c]))
          (watched_index (L1.getD 1 0))
          (watched (watched_index (L1.getD 1 0)) ++ [c]) (watched_index (L1.getD 0 0))
        rw [Function.update_noteq hwi, Function.update_same]
        simp
      · show c ∈ Function.update
          (Function.update watched (watched_index (L1.getD 0 0))
            (watched (watched_index (L1.getD 0 0)) ++ [c]))
          (watched_index (L1.getD 1 0))
          (watched (watched_index (L1.getD 1 0)) ++ [c]) (watched_index (L1.getD 1 0))
        rw [Function.update_same]
        simp

theorem mem_drop_one (L : List Nat) (x : Nat) (hnd : L.Nodup) (hx : x ∈ L.drop 1) :
    x ∈ L ∧ x ≠ L.getD 0 0 := by
  match L, hnd, hx with
  | [], _, hx => simp at hx
  | a :: t, hnd, hx =>
    simp only [List.drop_succ_cons, List.drop_zero] at hx
    refine ⟨List.mem_cons_of_mem _ hx, ?_⟩
    simp only [List.getD_cons_zero]
    intro e
    rw [e] at hx
    exact (List.nodup_cons.mp hnd).1 hx

/-- The contract of the propagation in `assert_conflict_clause` for a learned
clause of size at least 2: `S` is the state of the search `s` with the clause
`L1` stored at the fresh pointer `c` and watched at its first two literals,
and with the level and the reason of the variable of `L1[0]` recorded. -/
theorem assert_clause_contract (fuel : Nat) (s S : my_manager) (c : Nat) (ix : Int)
    (L1 : List Nat) (res : Bool) (s5 : my_manager) (hsol : solve_inv s)
    (e_vc : S.vc = s.vc) (e_st : S.status = s.status) (e_as : S.assign = s.assign)
    (e_top : S.assign_top = s.assign_top) (e_dl : S.decision_level = s.decision_level)
    (e_dlit : S.decision_lit = s.decision_lit) (e_imp : S.imp = s.imp)
    (e_off : S.stack_offset = s.stack_offset) (e_sv : S.saved = s.saved)
    (e_orig : S.original_clauses = s.original_clauses)
    (e_alloc : S.alloc_next = s.alloc_next)
    (e_lv : S.level = Function.update s.level (var (L1.getD 0 0)) s.decision_level)
    (e_rs : S.reason = Function.update s.reason (var (L1.getD 0 0)) (some c))
    (e_cl : S.cl = Function.update s.cl c { index := ix, lits := L1 })
    (e_w : S.watched = Function.update
        (Function.update s.watched (watched_index (L1.getD 0 0))
          (s.watched (watched_index (L1.getD 0 0)) ++ [c]))
        (watched_index (L1.getD 1 0))
        ((Function.update s.watched (watched_index (L1.getD 0 0))
          (s.watched (watched_index (L1.getD 0 0)) ++ [c]))
          (watched_index (L1.getD 1 0)) ++ [c]))
    (e_lc : S.learned_clauses = s.learned_clauses ++ [c])
    (hheap : heap_wf s.var_order_heap → heap_wf S.var_order_heap
      ∧ ∀ w, S.var_order_heap.indices w ≠ 0 ↔ s.var_order_heap.indices w ≠ 0)
    (hc : c ∉ clause_ptrs s) (hlt : c < s.alloc_next)
    (hlen : 2 ≤ L1.length) (hnd : (L1.map var).Nodup) (hok : ∀ x ∈ L1, lit_ok s.vc x)
    (hfree : s.status (var (L1.getD 0 0)) = 0)
    (hfalse : ∀ x ∈ L1, x ≠ L1.getD 0 0 →
      s.status (var x) = neg x ∧ s.level (var x) ≤ s.decision_level)
    (hl1 : s.level (var (L1.getD 1 0)) = s.decision_level)
    (h : bcp fuel S (L1.getD 0 0) = some (res, s5)) :
    (res = true → solve_inv s5) ∧ (res = false → conflict_state s5)
    ∧ bcp_frame S s5 ∧ s5.status (var (L1.getD 0 0)) = L1.getD 0 0
    ∧ s5.level (var (L1.getD 0 0)) = s.decision_level
    ∧ s5.reason (var (L1.getD 0 0)) = some c := by
  obtain ⟨⟨hb, hq, hoff, hd1, htr, hm, hh, hst⟩, htw, hsv⟩ := hsol
  have hndl : L1.Nodup := List.Nodup.of_map var hnd
  have e0 : L1.getD 0 0 = L1.get ⟨0, by omega⟩ := by
    rw [List.getD_eq_getElem _ _ (by omega)]; rfl
  have e1 : L1.getD 1 0 = L1.get ⟨1, by omega⟩ := by
    rw [List.getD_eq_getElem _ _ (by omega)]; rfl
  have m0 : L1.getD 0 0 ∈ L1 := by rw [e0]; exact List.get_mem L1 0 (by omega)
  have m1 : L1.getD 1 0 ∈ L1 := by rw [e1]; exact List.get_mem L1 1 (by omega)
  have hl := hok _ m0
  have hne01 : L1.getD 1 0 ≠ L1.getD 0 0 := by
    rw [e0, e1]
    intro e
    have := (List.Nodup.get_inj_iff hndl).mp e
    simp at this
  have hv01 : var (L1.getD 1 0) ≠ var (L1.getD 0 0) := by
    intro e
    have := hfalse _ m1 hne01
    rw [e, hfree] at this
    exact neg_ne_zero _ (hok _ m1).1 this.1.symm
  have hp : clause_ptrs S = clause_ptrs s ++ [c] := by
    unfold clause_ptrs
    rw [e_orig, e_lc, List.append_assoc]
  have hcp : ∀ r ∈ clause_ptrs s, r ∈ clause_ptrs S ∧ (S.cl r).lits = (s.cl r).lits := by
    intro r hr
    rw [hp, e_cl]
    refine ⟨List.mem_append_left _ hr, ?_⟩
    rw [Function.update_noteq]
    intro e
    rw [e] at hr
    exact hc hr
  have hcS : c ∈ clause_ptrs S := by rw [hp]; exact List.mem_append_right _ (by simp)
  have hclc : (S.cl c).lits = L1 := by rw [e_cl, Function.update_same]
  obtain ⟨hE, hA, hU, hM⟩ := assert_entries s S (L1.getD 0 0) s.decision_level htr hm e_vc e_st
    e_as e_top e_dl e_dlit e_lv
    (fun v hv => by rw [e_rs, Function.update_noteq hv]) hcp hfree
  obtain ⟨g1, g2, g3⟩ := assert_heap s S hh e_vc e_st hheap
  have hres := bcp_solve_inv fuel S (L1.getD 0 0) res s5 ?_ (by rw [e_imp]; exact hq)
    (by rw [e_off]; exact hoff) hE hA hU (by rw [e_vc]; exact hl) (by rw [e_st]; exact hfree)
    (by rw [e_lv, e_dl, Function.update_same]) (by rw [e_dl]; exact hd1) ?_ hM ?_ g1 g2
    (fun v v1 v2 hs _ => g3 v v1 v2 hs) ?_ (by unfold saved_ok; rw [e_sv]; exact hsv) h
  · obtain ⟨r1, r2, r3, r4, r5, r6⟩ := hres
    refine ⟨r1, r2, r3, r4, ?_, ?_⟩
    · rw [r5, e_lv, Function.update_same]
    · rw [r6, e_rs, Function.update_same]
  · refine ⟨?_, by rw [e_vc, e_st]; exact hb.2.1, by rw [e_vc, e_st, e_imp]; exact hb.2.2⟩
    unfold watched_inv
    rw [hp, e_vc, e_cl, e_w]
    exact kb_inv_add s.vc _ s.cl s.watched c ix L1 hb.1 hc hlen hndl hok
  · rw [e_rs, Function.update_same]
    simp only
    refine ⟨hcS, by rw [hclc], ?_⟩
    intro x hx
    rw [hclc] at hx
    obtain ⟨x1, x2⟩ := mem_drop_one L1 x hndl hx
    obtain ⟨y1, _⟩ := hfalse x x1 x2
    rw [e_st]
    refine ⟨y1, ?_⟩
    apply hA
    · rw [e_vc]; exact (lit_ok_var _ _ (hok x x1)).2
    · rw [e_st, y1]
      exact neg_ne_zero _ (hok x x1).1
  · rw [hp, e_st, e_lv, e_imp]
    have hold := twl_lv_start s.vc (clause_ptrs s) s.cl s.status s.level S.score s.imp
      (L1.getD 0 0) s.decision_level hb.1.1 hb.2.2 hl hfree htw
    intro c1 hc1
    rcases List.mem_append.mp hc1 with x | x
    · rw [(hcp c1 x).2]
      exact hold c1 x
    · have : c1 = c := by simpa using x
      rw [this, hclc]
      refine ⟨?_, ?_⟩
      · intro hs
        rw [Function.update_same] at hs
        exact absurd hs.symm (neg_ne _)
      · intro _
        right
        rw [Function.update_same, Function.update_same, Function.update_noteq hv01, hl1]
        exact ⟨rfl, le_refl _⟩
  · unfold store_inv
    rw [hp, e_alloc]
    obtain ⟨n1, n2⟩ := hst
    refine ⟨?_, ?_⟩
    · rw [List.nodup_append]
      refine ⟨n1, List.nodup_singleton c, ?_⟩
      intro x hx hx2
      have : x = c := by simpa using hx2
      rw [this] at hx
      exact hc hx
    · intro c1 hc1
      rcases List.mem_append.mp hc1 with x | x
      · exact n2 c1 x
      · have : c1 = c := by simpa using x
        rw [this]; exact hlt

/-- The contract of the propagation in `assert_conflict_clause` for a learned
unit clause: `S` is the state of the search `s`, at decision level 1, with the
level 1 and no reason recorded for the unassigned variable of `l`. -/
theorem assert_unit_contract (fuel : Nat) (s S : my_manager) (l : Nat) (res : Bool)
    (s5 : my_manager) (hsol : solve_inv s)
    (e_vc : S.vc = s.vc) (e_st : S.status = s.status) (e_as : S.assign = s.assign)
    (e_top : S.assign_top = s.assign_top) (e_dl : S.decision_level = s.decision_level)
    (e_dlit : S.decision_lit = s.decision_lit) (e_imp : S.imp = s.imp)
    (e_off : S.stack_offset = s.stack_offset) (e_sv : S.saved = s.saved)
    (e_orig : S.original_clauses = s.original_clauses)
    (e_lc : S.learned_clauses = s.learned_clauses) (e_w : S.watched = s.watched)
    (e_alloc : S.alloc_next = s.alloc_next)
    (e_lv : S.level = Function.update s.level (var l) s.decision_level)
    (e_rs : S.reason = Function.update s.reason (var l) none)
    (e_cl : ∀ r ∈ clause_ptrs s, (S.cl r).lits = (s.cl r).lits)
    (hheap : heap_wf s.var_order_heap → heap_wf S.var_order_heap
      ∧ ∀ w, S.var_order_heap.indices w ≠ 0 ↔ s.var_order_heap.indices w ≠ 0)
    (hl : lit_ok s.vc l) (hfree : s.status (var l) = 0) (hdl : s.decision_level = 1)
    (h : bcp fuel S l = some (res, s5)) :
    (res = true → solve_inv s5) ∧ (res = false → conflict_state s5)
    ∧ bcp_frame S s5 ∧ s5.status (var l) = l ∧ s5.level (var l) = 1
    ∧ s5.reason (var l) = none := by
  obtain ⟨⟨hb, hq, hoff, hd1, htr, hm, hh, hst⟩, htw, hsv⟩ := hsol
  have hp : clause_ptrs S = clause_ptrs s := by
    unfold clause_ptrs
    rw [e_orig, e_lc]
  have hcp : ∀ r ∈ clause_ptrs s, r ∈ clause_ptrs S ∧ (S.cl r).lits = (s.cl r).lits := by
    intro r hr
    rw [hp]
    exact ⟨hr, e_cl r hr⟩
  obtain ⟨hE, hA, hU, hM⟩ := assert_entries s S l s.decision_level htr hm e_vc e_st
    e_as e_top e_dl e_dlit e_lv
    (fun v hv => by rw [e_rs, Function.update_noteq hv]) hcp hfree
  obtain ⟨g1, g2, g3⟩ := assert_heap s S hh e_vc e_st hheap
  have hres := bcp_solve_inv fuel S l res s5 ?_ (by rw [e_imp]; exact hq)
    (by rw [e_off]; exact hoff) hE hA hU (by rw [e_vc]; exact hl) (by rw [e_st]; exact hfree)
    (by rw [e_lv, e_dl, Function.update_same]) (by rw [e_dl]; exact hd1) ?_ hM ?_ g1 g2
    (fun v v1 v2 hs _ => g3 v v1 v2 hs) ?_ (by unfold saved_ok; rw [e_sv]; exact hsv) h
  · obtain ⟨r1, r2, r3, r4, r5, r6⟩ := hres
    refine ⟨r1, r2, r3, r4, ?_, ?_⟩
    · rw [r5, e_lv, Function.update_same, hdl]
    · rw [r6, e_rs, Function.update_same]
  · refine ⟨?_, by rw [e_vc, e_st]; exact hb.2.1, by rw [e_vc, e_st, e_imp]; exact hb.2.2⟩
    unfold watched_inv
    rw [hp, e_vc, e_w]
    exact kb_inv_lits_congr _ _ _ _ _ e_cl hb.1
  · rw [e_rs, Function.update_same]
    simp only
    rw [e_lv, Function.update_same, hdl]
    intro h2
    omega
  · rw [hp, e_st, e_lv, e_imp]
    have hold := twl_lv_start s.vc (clause_ptrs s) s.cl s.status s.level S.score s.imp
      l s.decision_level hb.1.1 hb.2.2 hl hfree htw
    exact twl_lv_lits_congr _ _ _ _ _ _ e_cl hold
  · unfold store_inv
    rw [hp, e_alloc]
    exact hst

/-- What `assert_conflict_clause` leaves after `backtrack(assertion_level+1)`:
a state of the search or a state with a conflict; the asserted literal is
true at the assertion level. -/
theorem assert_conflict_clause_inv (fuel : Nat) (s : my_manager) (c : Nat) (res : Bool)
    (s5 : my_manager) (hsol : solve_inv s) (hcc : s.conflict_clause = some c)
    (hc : c ∉ clause_ptrs s) (hlt : c < s.alloc_next) (hL : learned_now s c)
    (h : assert_conflict_clause fuel s = some (res, s5)) :
    (res = true → solve_inv s5) ∧ (res = false → conflict_state s5)
    ∧ s5.status (var ((s.cl c).lits.getD 0 0)) = (s.cl c).lits.getD 0 0
    ∧ s5.level (var ((s.cl c).lits.getD 0 0)) = s.assertion_level
    ∧ s5.decision_level = s.assertion_level := by
  obtain ⟨q1, q2, q3, q4, q5, q6, q7, q8⟩ := hL
  have hlev0 : s.level (var ((s.cl c).lits.getD 0 0)) = 0 := by
    have e0 : (s.cl c).lits.getD 0 0 = (s.cl c).lits.get ⟨0, by omega⟩ := by
      rw [List.getD_eq_getElem _ _ (by omega)]; rfl
    have m0 : (s.cl c).lits.getD 0 0 ∈ (s.cl c).lits := by
      rw [e0]; exact List.get_mem _ 0 (by omega)
    exact hsol.1.2.2.2.2.1.2.2 _ (lit_ok_var _ _ (q2 _ m0)).2 q4
  have e0 : (s.cl c).lits.getD 0 0 = (s.cl c).lits.get ⟨0, by omega⟩ := by
    rw [List.getD_eq_getElem _ _ (by omega)]; rfl
  have m0 : (s.cl c).lits.getD 0 0 ∈ (s.cl c).lits := by
    rw [e0]; exact List.get_mem _ 0 (by omega)
  unfold assert_conflict_clause at h
  rw [hcc] at h
  simp only at h
  by_cases hsz : (s.cl c).size > 1
  · have hsz1 : ¬ (s.cl c).size = 1 := by omega
    rw [if_pos hsz, if_pos hsz, if_neg hsz1] at h
    have hk : ∃ k, 1 ≤ k ∧ k < (s.cl c).lits.length
        ∧ s.level (var ((s.cl c).lits.getD k 0)) = s.assertion_level := by
      rcases q6 with ⟨x, _⟩ | x
      · unfold my_clause.size at hsz
        omega
      · exact x
    obtain ⟨sc, si, hp, L1, lcs, csi, e, hh, r0, r1, r3⟩ :=
      add_conflict_clause_shape s c (by rw [hlev0]; omega) hk
    rw [e] at h
    have ec : Function.update s.cl c
        { index := (s.learned_clauses.length : Int), lits := L1 } c
        = { index := (s.learned_clauses.length : Int), lits := L1 } :=
      Function.update_same _ _ _
    simp only [ec] at h
    rw [← q7] at h r3 ⊢
    have hres := assert_clause_contract fuel s _ c (s.learned_clauses.length : Int) L1 res s5
      hsol ?_ ?_ ?_ ?_ ?_ ?_ ?_ ?_
      ?_ ?_ ?_ ?_ ?_ ?_ ?_ ?_ ?_ hc hlt ?_ ?_ ?_ ?_ ?_ r3 h
    · obtain ⟨a1, a2, a3, a4, a5, a6⟩ := hres
      rw [← r1]
      refine ⟨a1, a2, a4, a5, ?_⟩
      rw [a3.2.2.2.2.2.2.1]
    all_goals first
      | rfl
      | exact hh
      | skip
    · rw [List.Perm.length_eq r0]
      exact hsz
    · exact (List.Perm.map var r0).nodup_iff.mpr q3
    · intro x hx
      exact q2 x ((List.Perm.mem_iff r0).mp hx)
    · rw [r1]; exact q4
    · intro x hx hne
      rw [r1] at hne
      have := q5 x ((List.Perm.mem_iff r0).mp hx) hne
      rw [q7]
      exact this
  · have hsz1 : (s.cl c).size = 1 := by
      unfold my_clause.size at hsz ⊢
      omega
    rw [if_neg hsz, if_neg hsz, if_pos hsz1] at h
    have hal : s.assertion_level = 1 := by
      rcases q6 with ⟨_, x⟩ | ⟨k, k1, k2, _⟩
      · exact x
      · unfold my_clause.size at hsz1
        omega
    rw [← q7] at h ⊢
    have hres := assert_unit_contract fuel s _ ((s.cl c).lits.getD 0 0) res s5 hsol ?_ ?_ ?_
      ?_ ?_ ?_ ?_ ?_ ?_ ?_ ?_ ?_ ?_ ?_ ?_ ?_ ?_ (q2 _ m0) q4 (by rw [q7]; exact hal) h
    · obtain ⟨a1, a2, a3, a4, a5, a6⟩ := hres
      refine ⟨a1, a2, a4, ?_, ?_⟩
      · rw [a5, q7, hal]
      · rw [a3.2.2.2.2.2.2.1]
    all_goals first
      | rfl
      | exact fun _ _ => rfl
      | exact fun hw => ⟨hw, fun _ => Iff.rfl⟩

theorem mem_getD (L : List Nat) (x : Nat) (hx : x ∈ L) : ∃ k, k < L.length ∧ L.getD k 0 = x := by
  obtain ⟨k, hk, e⟩ := List.getElem_of_mem hx
  exact ⟨k, hk, by rw [List.getD_eq_getElem _ _ hk]; exact e⟩

/-- The learned clause after `backtrack(assertion_level + 1)`. -/
theorem learned_now_of_backtrack (s s1 s2 : my_manager) (c clevel : Nat)
    (hL : learned_at s (s1.cl c).lits clevel s1.assertion_level)
    (e_vc : s1.vc = s.vc) (e_st : s1.status = s.status) (e_lv : s1.level = s.level)
    (hf : backtrack_frame s1 s2) (hu : undone s1 s2 (s1.assertion_level + 1))
    (hdl : s2.decision_level = s1.assertion_level) :
    learned_now s2 c := by
  obtain ⟨l1, l2, l3, l4, l5, l6, l7, l8⟩ := hL
  obtain ⟨f1, f2, f3, f4, f5, f6, f7, f8, f9, f10, f11, f12, f13, f14, f15⟩ := hf
  obtain ⟨u1, u2⟩ := hu
  rw [e_vc, e_st, e_lv] at u1 u2
  have e0 : (s1.cl c).lits.getD 0 0 = (s1.cl c).lits.get ⟨0, by omega⟩ := by
    rw [List.getD_eq_getElem _ _ (by omega)]; rfl
  have m0 : (s1.cl c).lits.getD 0 0 ∈ (s1.cl c).lits := by
    rw [e0]; exact List.get_mem _ 0 (by omega)
  have hkeep : ∀ k, 1 ≤ k → k < (s1.cl c).lits.length →
      s2.status (var ((s1.cl c).lits.getD k 0)) = neg ((s1.cl c).lits.getD k 0)
      ∧ s2.level (var ((s1.cl c).lits.getD k 0)) = s.level (var ((s1.cl c).lits.getD k 0)) := by
    intro k k1 k2
    have hm : (s1.cl c).lits.getD k 0 ∈ (s1.cl c).lits := by
      rw [List.getD_eq_getElem _ _ k2]
      exact List.getElem_mem k2
    obtain ⟨a1, a2, _⟩ := l2 _ hm
    obtain ⟨b1, b2⟩ := l4 k k1 k2
    obtain ⟨c1, c2, _⟩ := u2 _ (lit_ok_var _ _ a1).2 (Or.inr (by omega))
    rw [c1, c2]
    exact ⟨a2, rfl⟩
  unfold learned_now
  rw [f2, f1, f14, e_vc]
  refine ⟨l1, fun x hx => (l2 x hx).1, l8, ?_, ?_, ?_, hdl, l6⟩
  · obtain ⟨a1, a2, _⟩ := l2 _ m0
    refine (u1 _ (lit_ok_var _ _ a1).2 ?_ (by rw [l3]; omega)).1
    rw [a2]
    exact neg_ne_zero _ a1.1
  · intro x hx hne
    obtain ⟨k, k1, k2⟩ := mem_getD _ x hx
    have hk0 : 1 ≤ k := by
      rcases Nat.eq_zero_or_pos k with z | z
      · rw [z] at k2
        exact absurd k2.symm hne
      · exact z
    obtain ⟨a, b⟩ := hkeep k hk0 k1
    rw [k2] at a b
    refine ⟨a, ?_⟩
    rw [b, ← k2]
    exact (l4 k hk0 k1).2
  · rcases l5 with x | ⟨k, k1, k2, k3⟩
    · exact Or.inl x
    · right
      refine ⟨k, k1, k2, ?_⟩
      rw [(hkeep k k1 k2).2]
      exact k3

/-- One turn of the conflict loop of `solve` at a decision level from 2 on:
`analyze_conflict` returns, and after `backtrack(assertion_level + 1)` the
function `assert_conflict_clause` leaves a state of the search or one with a
conflict, at the assertion level. -/
theorem conflict_step (bfuel : Nat) (s : my_manager) (hcs : conflict_state s)
    (h2 : 2 ≤ s.decision_level) :
    ∃ s1, analyze_conflict s s.conflicting_clause s.decision_level = some s1
      ∧ 1 ≤ s1.assertion_level ∧ s1.assertion_level < s.decision_level
      ∧ solve_inv (backtrack s1 (s1.assertion_level + 1))
      ∧ ∀ res s3,
        assert_conflict_clause bfuel (backtrack s1 (s1.assertion_level + 1)) = some (res, s3) →
        (res = true → solve_inv s3) ∧ (res = false → conflict_state s3)
        ∧ s3.decision_level = s1.assertion_level := by
  obtain ⟨hs, htw, hsv, hc⟩ := hcs
  obtain ⟨s1, h, hsame, a1, a2, a3⟩ := analyze_conflict_state s hs hc h2
  obtain ⟨i1, _, i3, i4, _⟩ := same_search_inv s s1 hsame
  have hs1 := i1 hs
  have e_dl : s1.decision_level = s.decision_level := hsame.2.2.2.2.2.2.1
  obtain ⟨l1, l2, l3, l4, l5, l6, l7, l8⟩ := a3
  obtain ⟨b1, b2, b3, b4, b5⟩ := backtrack_solve_inv s1 (s1.assertion_level + 1) (by omega)
    (by rw [e_dl]; omega) hs1 (i3 htw) (i4 hsv)
  refine ⟨s1, h, l6, l7, b1, ?_⟩
  intro res s3 h3
  have hp : clause_ptrs (backtrack s1 (s1.assertion_level + 1)) = clause_ptrs s := by
    unfold clause_ptrs
    rw [b2.2.2.1, b2.2.2.2.1, hsame.2.2.2.2.2.2.2.2.1, hsame.2.2.2.2.2.2.2.2.2.1]
  have hL := learned_now_of_backtrack s s1 _ s.alloc_next s.decision_level
    ⟨l1, l2, l3, l4, l5, l6, l7, l8⟩ hsame.1 hsame.2.1 hsame.2.2.1 b2 b3 (by rw [b4]; omega)
  obtain ⟨r1, r2, _, _, r5⟩ := assert_conflict_clause_inv bfuel _ s.alloc_next res s3 b1
    (by rw [b2.2.2.2.2.2.2.2.2.2.2.2.2.1]; exact a1)
    (by
      rw [hp]
      intro hin
      have := hs.2.2.2.2.2.2.2.2 _ hin
      omega)
    (by rw [b2.2.2.2.2.1, a2]; omega) hL h3
  refine ⟨r1, r2, ?_⟩
  rw [r5, b2.2.2.2.2.2.2.2.2.2.2.2.2.2.1]

/-- The conflict loop of `solve`: when it is left with `result = -2` the
manager is a state of the search. -/
theorem solve_conflict_loop_inv (bfuel : Nat) :
    ∀ (f : Nat) (s : my_manager) (res : Bool) (result : Int) (s1 : my_manager),
      (res = true → solve_inv s) → (res = false → conflict_state s) →
      solve_conflict_loop bfuel f s res = some (result, s1) →
      result = 0 ∨ (result = -2 ∧ solve_inv s1) := by
  intro f
  induction f with
  | zero => intro s res result s1 _ _ h; simp [solve_conflict_loop] at h
  | succ f ih =>
    intro s res result s1 ht hf h
    rw [solve_conflict_loop] at h
    by_cases hr : res = true
    · rw [if_pos hr] at h
      simp only [Option.some.injEq, Prod.mk.injEq] at h
      right
      rw [← h.1, ← h.2]
      exact ⟨rfl, ht hr⟩
    · rw [if_neg hr] at h
      have hcs := hf (by simpa using hr)
      rcases Nat.lt_or_ge s.decision_level 2 with hlow | hhigh
      · obtain ⟨s2, e2, e3, _⟩ := analyze_conflict_top s s.conflicting_clause s.decision_level
          (by omega)
        rw [e2] at h
        simp only at h
        rw [if_pos e3] at h
        simp only [Option.some.injEq, Prod.mk.injEq] at h
        left
        exact h.1.symm
      · obtain ⟨s2, e2, e3, e4, _, e5⟩ := conflict_step bfuel s hcs hhigh
        rw [e2] at h
        simp only at h
        rw [if_neg (by omega)] at h
        cases h3 : assert_conflict_clause bfuel (backtrack s2 (s2.assertion_level + 1)) with
        | none =>
          rw [h3] at h
          simp at h
        | some r =>
          obtain ⟨res1, s3⟩ := r
          rw [h3] at h
          simp only at h
          obtain ⟨r1, r2, _⟩ := e5 res1 s3 h3
          exact ih s3 res1 result s1 r1 r2 h

/-- Taking the stored clause `c` out of the store and out of the watched
lists of its first two literals keeps the two-watched-literal invariant. -/
theorem kb_inv_remove (vc : Nat) (ptrs : List Nat) (cl : Nat → my_clause)
    (watched : Nat → List Nat) (c : Nat) (hk : kb_inv vc ptrs cl watched) (hc : c ∈ ptrs)
    (hnd : ptrs.Nodup) :
    kb_inv vc (ptrs.erase c) cl
      (Function.update
        (Function.update watched (watched_index ((cl c).lits.getD 0 0))
          ((watched (watched_index ((cl c).lits.getD 0 0))).erase c))
        (watched_index ((cl c).lits.getD 1 0))
        ((watched (watched_index ((cl c).lits.getD 1 0))).erase c))
    ∧ c ∈ watched (watched_index ((cl c).lits.getD 0 0))
    ∧ c ∈ watched (watched_index ((cl c).lits.getD 1 0))
    ∧ watched_index ((cl c).lits.getD 0 0) ≠ watched_index ((cl c).lits.getD 1 0) := by
  obtain ⟨k1, k2, k3⟩ := hk
  obtain ⟨c1, c2, c3⟩ := k1 c hc
  obtain ⟨m0, m1⟩ := watch_lits_ok vc ptrs cl k1 c hc
  have e0 : (cl c).lits.getD 0 0 = (cl c).lits.get ⟨0, by omega⟩ := by
    rw [List.getD_eq_getElem _ _ (by omega)]; rfl
  have e1 : (cl c).lits.getD 1 0 = (cl c).lits.get ⟨1, by omega⟩ := by
    rw [List.getD_eq_getElem _ _ (by omega)]; rfl
  have hne : (cl c).lits.getD 0 0 ≠ (cl c).lits.getD 1 0 := by
    rw [e0, e1]
    intro e
    have := (List.Nodup.get_inj_iff c2).mp e
    simp at this
  have hwi : watched_index ((cl c).lits.getD 0 0) ≠ watched_index ((cl c).lits.getD 1 0) :=
    fun e => hne (watched_index_inj _ _ m0.1 m1.1 e)
  obtain ⟨w0, w1⟩ := k3 c hc
  refine ⟨⟨?_, ?_, ?_⟩, w0, w1, hwi⟩
  · intro d hd
    exact k1 d (List.mem_of_mem_erase hd)
  · intro l l1 l2
    obtain ⟨a1, a2⟩ := k2 l l1 l2
    have key : ∀ L : List Nat, (∀ d ∈ L, d ∈ watched (watched_index l)) → L.Nodup →
        c ∉ L → L.Nodup ∧ ∀ d ∈ L, d ∈ ptrs.erase c ∧ watches (cl d) l := by
      intro L hsub hLn hcL
      refine ⟨hLn, ?_⟩
      intro d hd
      obtain ⟨b1, b2⟩ := a2 d (hsub d hd)
      refine ⟨?_, b2⟩
      rw [List.Nodup.mem_erase_iff hnd]
      refine ⟨?_, b1⟩
      intro e
      rw [e] at hd
      exact hcL hd
    by_cases h1 : watched_index l = watched_index ((cl c).lits.getD 1 0)
    · rw [h1, Function.update_same]
      rw [h1] at a1 a2
      have := key ((watched (watched_index ((cl c).lits.getD 1 0))).erase c)
        (fun d hd => by rw [h1]; exact List.mem_of_mem_erase hd) (List.Nodup.erase c a1)
        (fun hin => ((List.Nodup.mem_erase_iff a1).mp hin).1 rfl)
      exact this
    · rw [Function.update_noteq h1]
      by_cases h0 : watched_index l = watched_index ((cl c).lits.getD 0 0)
      · rw [h0, Function.update_same]
        rw [h0] at a1
        exact key ((watched (watched_index ((cl c).lits.getD 0 0))).erase c)
          (fun d hd => by rw [h0]; exact List.mem_of_mem_erase hd) (List.Nodup.erase c a1)
          (fun hin => ((List.Nodup.mem_erase_iff a1).mp hin).1 rfl)
      · rw [Function.update_noteq h0]
        refine key _ (fun d hd => hd) a1 ?_
        intro hin
        obtain ⟨_, b2⟩ := a2 c hin
        unfold watches at b2
        rcases b2 with x | x
        · exact h0 (by rw [x])
        · exact h1 (by rw [x])
  · intro d hd
    have hdc : d ≠ c := by
      intro e
      rw [e] at hd
      exact ((List.Nodup.mem_erase_iff hnd).mp hd).1 rfl
    obtain ⟨a, b⟩ := k3 d (List.mem_of_mem_erase hd)
    have keep : ∀ j, d ∈ watched j →
        d ∈ Function.update
          (Function.update watched (watched_index ((cl c).lits.getD 0 0))
            ((watched (watched_index ((cl c).lits.getD 0 0))).erase c))
          (watched_index ((cl c).lits.getD 1 0))
          ((watched (watched_index ((cl c).lits.getD 1 0))).erase c) j := by
      intro j hj
      by_cases h1 : j = watched_index ((cl c).lits.getD 1 0)
      · rw [h1, Function.update_same]
        rw [h1] at hj
        exact (List.mem_erase_of_ne hdc).mpr hj
      · rw [Function.update_noteq h1]
        by_cases h0 : j = watched_index ((cl c).lits.getD 0 0)
        · rw [h0, Function.update_same]
          rw [h0] at hj
          exact (List.mem_erase_of_ne hdc).mpr hj
        · rw [Function.update_noteq h0]
          exact hj
    exact ⟨keep _ a, keep _ b⟩

/-- What `remove_clause(c)` does to the manager when `c` is on the watched
lists of its first two literals, which are different lists. -/
theorem remove_clause_shape (s : my_manager) (c : Nat) (hsz : 2 ≤ (s.cl c).lits.length)
    (h0 : c ∈ s.watched (watched_index ((s.cl c).lits.getD 0 0)))
    (h1 : c ∈ s.watched (watched_index ((s.cl c).lits.getD 1 0)))
    (hne : watched_index ((s.cl c).lits.getD 0 0) ≠ watched_index ((s.cl c).lits.getD 1 0)) :
    ∃ R, remove_clause s c
        = some { s with
            reason := R,
            watched := (Function.update
              (Function.update s.watched (watched_index ((s.cl c).lits.getD 0 0))
                ((s.watched (watched_index ((s.cl c).lits.getD 0 0))).erase c))
              (watched_index ((s.cl c).lits.getD 1 0))
              ((s.watched (watched_index ((s.cl c).lits.getD 1 0))).erase c)) }
      ∧ (∀ v, R v = s.reason v ∨ (R v = none ∧ s.reason v = some c))
      ∧ (s.reason (var ((s.cl c).lits.getD 0 0)) = some c →
          R (var ((s.cl c).lits.getD 0 0)) = none)
      ∧ (locked s c = false → R = s.reason) := by
  have hsz' : ¬ (s.cl c).size ≤ 1 := by
    unfold my_clause.size
    omega
  have key : ∀ R : Nat → Option Nat,
      (match remove_watched_clause { s with reason := R } ((s.cl c).lits.getD 0 0) c with
        | none => none
        | some s2 => remove_watched_clause s2 ((s.cl c).lits.getD 1 0) c)
      = some { s with
            reason := R,
            watched := (Function.update
              (Function.update s.watched (watched_index ((s.cl c).lits.getD 0 0))
                ((s.watched (watched_index ((s.cl c).lits.getD 0 0))).erase c))
              (watched_index ((s.cl c).lits.getD 1 0))
              ((s.watched (watched_index ((s.cl c).lits.getD 1 0))).erase c)) } := by
    intro R
    unfold remove_watched_clause
    simp only
    rw [if_neg hsz', if_pos h0]
    simp only
    rw [if_neg hsz']
    rw [Function.update_noteq (Ne.symm hne), if_pos h1]
  unfold remove_clause
  simp only
  by_cases r0 : s.reason (var ((s.cl c).lits.getD 0 0)) = some c
  · rw [if_pos r0]
    refine ⟨_, key _, ?_, ?_, ?_⟩
    · intro v
      by_cases hv : v = var ((s.cl c).lits.getD 0 0)
      · right
        rw [hv, Function.update_same]
        exact ⟨rfl, r0⟩
      · left
        rw [Function.update_noteq hv]
    · intro _
      rw [Function.update_same]
    · intro hl
      unfold locked at hl
      rw [if_neg hsz'] at hl
      simp only [decide_eq_false_iff_not, not_or] at hl
      exact absurd r0 hl.1
  · rw [if_neg r0]
    by_cases r1 : s.reason (var ((s.cl c).lits.getD 1 0)) = some c
    · rw [if_pos r1]
      refine ⟨_, key _, ?_, ?_, ?_⟩
      · intro v
        by_cases hv : v = var ((s.cl c).lits.getD 1 0)
        · right
          rw [hv, Function.update_same]
          exact ⟨rfl, r1⟩
        · left
          rw [Function.update_noteq hv]
      · intro h
        exact absurd h r0
      · intro hl
        unfold locked at hl
        rw [if_neg hsz'] at hl
        simp only [decide_eq_false_iff_not, not_or] at hl
        exact absurd r1 hl.2
    · rw [if_neg r1]
      refine ⟨s.reason, key _, fun v => Or.inl rfl, fun h => absurd h r0, fun _ => rfl⟩

/-- The function `remove_clause(c)` on a clause of the store, at decision
level 1 or on a clause that is not locked: it returns, and the search is in
order for the store without `c`.  The store is given by the lists `O` and `P`
(the arrays are compacted by the callers after the call). -/
theorem remove_clause_ghost (s : my_manager) (c : Nat) (O P O1 P1 : List Nat)
    (hsol : solve_inv { s with original_clauses := O, learned_clauses := P })
    (hc : c ∈ O ++ P) (he : O1 ++ P1 = (O ++ P).erase c)
    (hsafe : s.decision_level = 1 ∨ locked s c = false) :
    ∃ s1, remove_clause s c = some s1
      ∧ s1 = { s with reason := s1.reason, watched := s1.watched }
      ∧ solve_inv { s1 with original_clauses := O1, learned_clauses := P1 } := by
  obtain ⟨⟨⟨hkb, hst, hqo⟩, hq, hoff, hd1, ⟨t1, t2, t3⟩, hm, hh, hstore⟩, htw, hsv⟩ := hsol
  have hkb' : kb_inv s.vc (O ++ P) s.cl s.watched := hkb
  have hnd : (O ++ P).Nodup := hstore.1
  have hlt : ∀ d ∈ O ++ P, d < s.alloc_next := hstore.2
  have htw' : twl_lv (O ++ P) s.cl s.status s.level s.imp := htw
  obtain ⟨k1, w0, w1, hne⟩ := kb_inv_remove s.vc (O ++ P) s.cl s.watched c hkb' hc hnd
  obtain ⟨R, e, r1, r2, r3⟩ := remove_clause_shape s c (hkb'.1 c hc).1 w0 w1 hne
  refine ⟨_, e, rfl, ?_⟩
  have hsub : ∀ d ∈ O1 ++ P1, d ∈ O ++ P := by
    intro d hd
    rw [he] at hd
    exact List.mem_of_mem_erase hd
  have hcn : c ∉ O1 ++ P1 := by
    rw [he]
    intro hin
    exact ((List.Nodup.mem_erase_iff hnd).mp hin).1 rfl
  refine ⟨⟨⟨?_, hst, hqo⟩, hq, hoff, hd1, ⟨?_, t2, t3⟩, hm, hh, ?_⟩, ?_, hsv⟩
  · show kb_inv s.vc (O1 ++ P1) s.cl _
    rw [he]
    exact k1
  · intro p hp
    obtain ⟨a1, a2, a3, a4, a5, a6⟩ := t1 p hp
    refine ⟨a1, a2, a3, a4, a5, ?_⟩
    show reason_shape _ p (R (var (s.assign p)))
    have a6' : reason_shape { s with original_clauses := O, learned_clauses := P } p
        (s.reason (var (s.assign p))) := a6
    rcases r1 (var (s.assign p)) with x | ⟨x, y⟩
    · rw [x]
      cases hr : s.reason (var (s.assign p)) with
      | none =>
        rw [hr] at a6'
        exact a6'
      | some r =>
        rw [hr] at a6'
        obtain ⟨b1, b2, b3⟩ := a6'
        have b1' : r ∈ O ++ P := b1
        have b2' : (s.cl r).lits.getD 0 0 = s.assign p := b2
        refine ⟨?_, b2, b3⟩
        show r ∈ O1 ++ P1
        rw [he, List.Nodup.mem_erase_iff hnd]
        refine ⟨?_, b1'⟩
        intro erc
        rw [erc] at hr b2'
        have := r2 (by rw [b2']; exact hr)
        rw [b2', x, hr] at this
        exact absurd this (by simp)
    · rw [x]
      intro h2 q hq1
      rcases hsafe with z | z
      · have a4' : s.level (var (s.assign p)) ≤ s.decision_level := a4
        have h2' : 2 ≤ s.level (var (s.assign p)) := h2
        omega
      · rw [r3 z, y] at x
        exact absurd x (by simp)
  · show (O1 ++ P1).Nodup ∧ ∀ d ∈ O1 ++ P1, d < s.alloc_next
    refine ⟨?_, fun d hd => hlt d (hsub d hd)⟩
    rw [he]
    exact List.Nodup.erase c hnd
  · show twl_lv (O1 ++ P1) s.cl s.status s.level s.imp
    intro d hd
    exact htw' d (hsub d hd)

/-- Writing the `index` field of a clause and the score array of the learned
clauses changes nothing the search looks at. -/
theorem index_update_inv (s : my_manager) (c : Nat) (j : Int) (lcs : Nat → ℚ)
    (O L L1 : List Nat) (hL : L1 = L)
    (h : solve_inv { s with original_clauses := O, learned_clauses := L }) :
    solve_inv { s with
      cl := (Function.update s.cl c { s.cl c with index := j }),
      learned_clause_scores := lcs,
      original_clauses := O,
      learned_clauses := L1 } := by
  subst hL
  have hs : same_search { s with original_clauses := O, learned_clauses := L1 }
      { s with
        cl := (Function.update s.cl c { s.cl c with index := j }),
        learned_clause_scores := lcs,
        original_clauses := O,
        learned_clauses := L1 } := by
    refine ⟨rfl, rfl, rfl, rfl, rfl, rfl, rfl, rfl, rfl, rfl, rfl, rfl, rfl, rfl, rfl, ?_,
      fun hw => ⟨hw, fun _ => Iff.rfl⟩, le_refl _⟩
    intro r _
    show (Function.update s.cl c { s.cl c with index := j } r).lits = (s.cl r).lits
    by_cases e : r = c
    · rw [e, Function.update_same]
    · rw [Function.update_noteq e]
  obtain ⟨i1, i2, _, i4, _⟩ := same_search_inv _ _ hs
  exact ⟨i1 h.1, i2 h.2.1, i4 h.2.2⟩

/-- The loop of `simplify_kb` at decision level 1: it returns, and the search
is in order for the store with the clauses kept. -/
theorem simplify_kb_loop_inv :
    ∀ (rest : List Nat) (i j : Nat) (s : my_manager) (kept : List Nat),
      solve_inv { s with learned_clauses := kept ++ rest } → s.decision_level = 1 →
      ∃ s1 kept1, simplify_kb_loop rest i j s kept = some (s1, kept1)
        ∧ solve_inv { s1 with learned_clauses := kept1 }
        ∧ s1.decision_level = 1 ∧ s1.original_clauses = s.original_clauses := by
  intro rest
  induction rest with
  | nil =>
    intro i j s kept h hd
    refine ⟨s, kept, by rw [simplify_kb_loop], ?_, hd, rfl⟩
    rw [List.append_nil] at h
    exact h
  | cons c rest ih =>
    intro i j s kept h hd
    rw [simplify_kb_loop]
    by_cases hsat : satisfied s c = true
    · rw [if_pos hsat]
      have hnd : (s.original_clauses ++ (kept ++ c :: rest)).Nodup := h.1.2.2.2.2.2.2.2.1
      have hc : c ∈ s.original_clauses ++ (kept ++ c :: rest) := by simp
      have he : s.original_clauses ++ (kept ++ rest)
          = (s.original_clauses ++ (kept ++ c :: rest)).erase c := by
        have h1 : s.original_clauses ++ (kept ++ c :: rest)
            = (s.original_clauses ++ kept) ++ c :: rest := by simp
        rw [h1] at hnd ⊢
        have hcn : c ∉ s.original_clauses ++ kept := by
          intro hin
          have := (List.nodup_append.mp hnd).2.2 hin (by simp)
          exact this
        rw [List.erase_append_right _ hcn, List.erase_cons_head, List.append_assoc]
      obtain ⟨s1, e1, e2, e3⟩ := remove_clause_ghost s c s.original_clauses
        (kept ++ c :: rest) s.original_clauses (kept ++ rest) h hc he (Or.inl hd)
      rw [e1]
      simp only
      have hd1 : s1.decision_level = 1 := by rw [e2]; exact hd
      have ho1 : s1.original_clauses = s.original_clauses := by rw [e2]
      have e3' : solve_inv { s1 with learned_clauses := kept ++ rest } := by
        rw [e2] at e3 ⊢
        exact e3
      obtain ⟨s2, k2, f1, f2, f3, f4⟩ := ih (i + 1) j s1 kept e3' hd1
      exact ⟨s2, k2, f1, f2, f3, f4.trans ho1⟩
    · rw [if_neg hsat]
      have h' := index_update_inv s c (j : Int)
        (Function.update s.learned_clause_scores j (s.learned_clause_scores i))
        s.original_clauses (kept ++ c :: rest) ((kept ++ [c]) ++ rest) (by simp) h
      obtain ⟨s2, k2, f1, f2, f3, f4⟩ := ih (i + 1) (j + 1)
        { s with
          cl := (Function.update s.cl c { s.cl c with index := (j : Int) }),
          learned_clause_scores :=
            (Function.update s.learned_clause_scores j (s.learned_clause_scores i)) }
        (kept ++ [c]) h' hd
      exact ⟨s2, k2, f1, f2, f3, f4⟩

/-- The function `simplify_kb()` at decision level 1 returns and leaves a
state of the search. -/
theorem simplify_kb_inv (s : my_manager) (h : solve_inv s) (hd : s.decision_level = 1) :
    ∃ s1, simplify_kb s = some s1 ∧ solve_inv s1 ∧ s1.decision_level = 1 := by
  unfold simplify_kb
  by_cases h1 : s.simplify_learned_kb = 0
  · rw [if_pos h1]
    exact ⟨s, rfl, h, hd⟩
  · rw [if_neg h1]
    by_cases h2 : s.learned_clauses.length = 0
    · rw [if_pos h2]
      exact ⟨s, rfl, h, hd⟩
    · rw [if_neg h2]
      obtain ⟨s1, kept, e, f1, f2, _⟩ := simplify_kb_loop_inv s.learned_clauses 0 0 s []
        (by rw [List.nil_append]; exact h) hd
      rw [e]
      simp only
      exact ⟨_, rfl, f1, f2⟩

/-- The loop of `simplify_original_kb` at decision level 1: it returns, and
the search is in order for the store with the clauses kept. -/
theorem simplify_original_kb_loop_inv :
    ∀ (rest : List Nat) (s : my_manager) (kept : List Nat),
      solve_inv { s with original_clauses := kept ++ rest } → s.decision_level = 1 →
      ∃ s1 kept1, simplify_original_kb_loop rest s kept = some (s1, kept1)
        ∧ solve_inv { s1 with original_clauses := kept1 }
        ∧ s1.decision_level = 1 ∧ s1.learned_clauses = s.learned_clauses := by
  intro rest
  induction rest with
  | nil =>
    intro s kept h hd
    refine ⟨s, kept, by rw [simplify_original_kb_loop], ?_, hd, rfl⟩
    rw [List.append_nil] at h
    exact h
  | cons c rest ih =>
    intro s kept h hd
    rw [simplify_original_kb_loop]
    by_cases hsat : satisfied s c = true
    · rw [if_pos hsat]
      have hnd : ((kept ++ c :: rest) ++ s.learned_clauses).Nodup := h.1.2.2.2.2.2.2.2.1
      have hc : c ∈ (kept ++ c :: rest) ++ s.learned_clauses := by simp
      have he : (kept ++ rest) ++ s.learned_clauses
          = ((kept ++ c :: rest) ++ s.learned_clauses).erase c := by
        have h1 : (kept ++ c :: rest) ++ s.learned_clauses
            = kept ++ c :: (rest ++ s.learned_clauses) := by simp
        rw [h1] at hnd ⊢
        have hcn : c ∉ kept := by
          intro hin
          have := (List.nodup_append.mp hnd).2.2 hin (by simp)
          exact this
        rw [List.erase_append_right _ hcn, List.erase_cons_head, List.append_assoc]
      obtain ⟨s1, e1, e2, e3⟩ := remove_clause_ghost s c (kept ++ c :: rest)
        s.learned_clauses (kept ++ rest) s.learned_clauses h hc he (Or.inl hd)
      rw [e1]
      simp only
      have hd1 : s1.decision_level = 1 := by rw [e2]; exact hd
      have ho1 : s1.learned_clauses = s.learned_clauses := by rw [e2]
      have e3' : solve_inv { s1 with original_clauses := kept ++ rest } := by
        rw [e2] at e3 ⊢
        exact e3
      obtain ⟨s2, k2, f1, f2, f3, f4⟩ := ih s1 kept e3' hd1
      exact ⟨s2, k2, f1, f2, f3, f4.trans ho1⟩
    · rw [if_neg hsat]
      have h' : solve_inv { s with original_clauses := (kept ++ [c]) ++ rest } := by
        rw [List.append_assoc]
        exact h
      exact ih s (kept ++ [c]) h' hd

/-- The function `simplify_original_kb()` at decision level 1 returns and
leaves a state of the search. -/
theorem simplify_original_kb_inv (s : my_manager) (h : solve_inv s)
    (hd : s.decision_level = 1) :
    ∃ s1, simplify_original_kb s = some s1 ∧ solve_inv s1 ∧ s1.decision_level = 1 := by
  unfold simplify_original_kb
  by_cases h1 : s.simplify_orig_kb = 0
  · rw [if_pos h1]
    exact ⟨s, rfl, h, hd⟩
  · rw [if_neg h1]
    obtain ⟨s1, kept, e, f1, f2, _⟩ := simplify_original_kb_loop_inv s.original_clauses s []
      (by rw [List.nil_append]; exact h) hd
    rw [e]
    simp only
    exact ⟨_, rfl, f1, f2⟩

theorem perm_insert_mid (A B C : List (Option Nat)) (x : Option Nat) :
    (A ++ B ++ C ++ [x]).Perm (A ++ (B ++ [x]) ++ C) := by
  simp only [List.append_assoc]
  apply List.Perm.append_left
  apply List.Perm.append_left
  exact List.perm_append_comm

theorem map_range_update (f : Nat → Option Nat) (j : Nat) (x : Option Nat) :
    (List.range (j + 1)).map (Function.update f j x) = (List.range j).map f ++ [x] := by
  rw [List.range_succ, List.map_append]
  congr 1
  · apply List.map_congr_left
    intro i hi
    have := List.mem_range.mp hi
    rw [Function.update_noteq (by omega)]
  · simp

theorem range_blocks (arr : Nat → Option Nat) (b bs : Nat) :
    (List.range b).map arr ++ (List.range' b bs).map arr ++ (List.range' (b + bs) bs).map arr
      = (List.range (b + 2 * bs)).map arr := by
  rw [← List.map_append, ← List.map_append]
  congr 1
  rw [List.range_eq_range', List.range_eq_range']
  have h1 : List.range' 0 b ++ List.range' b bs = List.range' 0 (b + bs) := by
    have := List.range'_append 0 b bs 1
    simp only [Nat.zero_add, Nat.one_mul] at this
    rw [this, Nat.add_comm]
  rw [h1]
  have h2 := List.range'_append 0 (b + bs) bs 1
  simp only [Nat.zero_add, Nat.one_mul] at h2
  rw [h2]
  congr 1
  omega

theorem sort_pass_inv_mk (bs : Nat) (arr : Nat → Option Nat) (j k lindex rindex l r : Nat)
    (target : Nat → Option Nat) (starget : Nat → ℚ) (cl : Nat → my_clause)
    (h1 : lindex = 2 * bs * k + l) (h2 : rindex = 2 * bs * k + bs + r) (h3 : l ≤ bs)
    (h4 : r ≤ bs) (h5 : j = 2 * bs * k + l + r) (h6 : 0 < j → 1 ≤ l + r)
    (h7 : ((List.range j).map target).Perm
        ((List.range (2 * bs * k)).map arr ++ (List.range' (2 * bs * k) l).map arr
          ++ (List.range' (2 * bs * k + bs) r).map arr)) :
    sort_pass_inv bs arr j
      { lindex := lindex, rindex := rindex, l := l, r := r, target := target,
        starget := starget, cl := cl } :=
  ⟨k, h1, h2, h3, h4, h5, h6, h7⟩

theorem sort_step_inv (bs : Nat) (arr : Nat → Option Nat) (score : Nat → ℚ) (j : Nat)
    (st : sort_state) (hbs : 1 ≤ bs) (h : sort_pass_inv bs arr j st) :
    sort_pass_inv bs arr (j + 1) (sort_step bs arr score j st) := by
  obtain ⟨k, h1, h2, h3, h4, h5, h6, h7⟩ := h
  unfold sort_step
  simp only
  by_cases hf : st.l = bs ∧ st.r = bs
  · have hd : decide (st.l = bs ∧ st.r = bs) = true := by simpa using hf
    simp only [hd, if_true]
    have hold : ((List.range j).map st.target).Perm
        ((List.range (2 * bs * (k + 1))).map arr) := by
      have := range_blocks arr (2 * bs * k) bs
      rw [hf.1, hf.2] at h7
      rw [this] at h7
      have e : 2 * bs * k + 2 * bs = 2 * bs * (k + 1) := by ring
      rw [e] at h7
      exact h7
    have hl1 := hf.1
    have hr1 := hf.2
    have ek : 2 * bs * (k + 1) = 2 * bs * k + 2 * bs := by ring
    by_cases hl : decide (score (st.lindex + bs) < score (st.rindex + bs)) = true
    · simp only [hl, if_true]
      apply sort_pass_inv_mk bs arr (j + 1) (k + 1)
      · omega
      · omega
      · omega
      · omega
      · omega
      · intro _; omega
      · rw [map_range_update]
        have e1 : st.lindex + bs = 2 * bs * (k + 1) := by omega
        rw [e1]
        simp only [Nat.zero_add, List.range'_one, List.map_cons, List.map_nil,
          List.range'_zero, List.append_nil]
        exact List.Perm.append_right _ hold
    · have hl' : decide (score (st.lindex + bs) < score (st.rindex + bs)) = false := by
        simpa using hl
      simp only [hl', Bool.false_eq_true, if_false]
      apply sort_pass_inv_mk bs arr (j + 1) (k + 1)
      · omega
      · omega
      · omega
      · omega
      · omega
      · intro _; omega
      · rw [map_range_update]
        have e1 : st.rindex + bs = 2 * bs * (k + 1) + bs := by omega
        rw [e1]
        simp only [Nat.zero_add, List.range'_one, List.map_cons, List.map_nil,
          List.range'_zero, List.append_nil]
        exact List.Perm.append_right _ hold
  · have hd : decide (st.l = bs ∧ st.r = bs) = false := by simpa using hf
    simp only [hd, Bool.false_eq_true, if_false]
    have hleft : ∀ x, ((List.range j).map st.target ++ [x]).Perm
        ((List.range (2 * bs * k)).map arr
          ++ ((List.range' (2 * bs * k) st.l).map arr ++ [x])
          ++ (List.range' (2 * bs * k + bs) st.r).map arr) := by
      intro x
      exact (List.Perm.append_right [x] h7).trans (perm_insert_mid _ _ _ x)
    have hright : ∀ x, ((List.range j).map st.target ++ [x]).Perm
        ((List.range (2 * bs * k)).map arr
          ++ (List.range' (2 * bs * k) st.l).map arr
          ++ ((List.range' (2 * bs * k + bs) st.r).map arr ++ [x])) := by
      intro x
      rw [← List.append_assoc]
      exact List.Perm.append_right [x] h7
    have goL : st.l < bs →
        sort_pass_inv bs arr (j + 1)
          { lindex := st.lindex + 1, rindex := st.rindex, l := st.l + 1, r := st.r,
            target := Function.update st.target j (arr st.lindex),
            starget := Function.update st.starget j (score st.lindex),
            cl := (match arr st.lindex with
              | some c => Function.update st.cl c { st.cl c with index := (j : Int) }
              | none => st.cl) } := by
      intro hlt
      apply sort_pass_inv_mk bs arr (j + 1) k
      · omega
      · exact h2
      · omega
      · exact h4
      · omega
      · intro _; omega
      · rw [map_range_update, List.range'_concat, List.map_append, h1]
        simp only [List.map_cons, List.map_nil, Nat.one_mul]
        exact hleft _
    have goR : st.r < bs →
        sort_pass_inv bs arr (j + 1)
          { lindex := st.lindex, rindex := st.rindex + 1, l := st.l, r := st.r + 1,
            target := Function.update st.target j (arr st.rindex),
            starget := Function.update st.starget j (score st.rindex),
            cl := (match arr st.rindex with
              | some c => Function.update st.cl c { st.cl c with index := (j : Int) }
              | none => st.cl) } := by
      intro hlt
      apply sort_pass_inv_mk bs arr (j + 1) k
      · exact h1
      · omega
      · exact h3
      · omega
      · omega
      · intro _; omega
      · rw [map_range_update, List.range'_concat, List.map_append, h2]
        simp only [List.map_cons, List.map_nil, Nat.one_mul]
        exact hright _
    by_cases hlb : st.l = bs
    · have hr : st.r < bs := by
        rcases Nat.lt_or_ge st.r bs with x | x
        · exact x
        · exact absurd ⟨hlb, by omega⟩ hf
      simp only [hlb, if_true, Bool.false_eq_true, if_false]
      have := goR hr
      rw [hlb] at this
      exact this
    · simp only [hlb, if_false]
      by_cases hrb : st.r = bs
      · simp only [hrb, if_true]
        have := goL (by omega)
        rw [hrb] at this
        exact this
      · simp only [hrb, if_false]
        by_cases hc : decide (score st.lindex < score st.rindex) = true
        · simp only [hc, if_true]
          exact goL (by omega)
        · have hc' : decide (score st.lindex < score st.rindex) = false := by
            simpa using hc
          simp only [hc', Bool.false_eq_true, if_false]
          exact goR (by omega)

theorem index_match_lits (cl : Nat → my_clause) (o : Option Nat) (j : Int) (c : Nat) :
    ((match o with
      | some d => Function.update cl d { cl d with index := j }
      | none => cl) c).lits = (cl c).lits := by
  cases o with
  | none => rfl
  | some d =>
    simp only
    by_cases e : c = d
    · rw [e, Function.update_same]
    · rw [Function.update_noteq e]

theorem sort_step_lits (bs : Nat) (arr : Nat → Option Nat) (score : Nat → ℚ) (j : Nat)
    (st : sort_state) (c : Nat) :
    ((sort_step bs arr score j st).cl c).lits = (st.cl c).lits := by
  unfold sort_step
  exact index_match_lits st.cl _ _ c

theorem sort_pass_spec (bs : Nat) (arr : Nat → Option Nat) (score : Nat → ℚ) (hbs : 1 ≤ bs) :
    ∀ (n j : Nat) (st : sort_state), sort_pass_inv bs arr j st →
      sort_pass_inv bs arr (j + n) (sort_pass bs arr score n j st)
      ∧ ∀ c, ((sort_pass bs arr score n j st).cl c).lits = (st.cl c).lits := by
  intro n
  induction n with
  | zero =>
    intro j st h
    exact ⟨h, fun _ => rfl⟩
  | succ n ih =>
    intro j st h
    rw [sort_pass]
    obtain ⟨a, b⟩ := ih (j + 1) _ (sort_step_inv bs arr score j st hbs h)
    refine ⟨?_, ?_⟩
    · have e : j + (n + 1) = j + 1 + n := by omega
      rw [e]
      exact a
    · intro c
      rw [b c, sort_step_lits]

/-- One pass of `sort_clauses_by_scores` over an array of `2 * bs * m` entries
permutes the entries. -/
theorem sort_pass_perm (bs m : Nat) (arr : Nat → Option Nat) (score : Nat → ℚ)
    (target : Nat → Option Nat) (starget : Nat → ℚ) (cl : Nat → my_clause)
    (hbs : 1 ≤ bs) (hm : 1 ≤ m) :
    ((List.range (2 * bs * m)).map
      (sort_pass bs arr score (2 * bs * m) 0
        { lindex := 0, rindex := bs, l := 0, r := 0, target := target, starget := starget,
          cl := cl }).target).Perm ((List.range (2 * bs * m)).map arr)
    ∧ ∀ c, ((sort_pass bs arr score (2 * bs * m) 0
        { lindex := 0, rindex := bs, l := 0, r := 0, target := target, starget := starget,
          cl := cl }).cl c).lits = (cl c).lits := by
  have h0 : sort_pass_inv bs arr 0
      { lindex := 0, rindex := bs, l := 0, r := 0, target := target, starget := starget,
        cl := cl } := by
    apply sort_pass_inv_mk bs arr 0 0
    · omega
    · omega
    · omega
    · omega
    · omega
    · intro h; omega
    · simp
  obtain ⟨⟨k, h1, h2, h3, h4, h5, h6, h7⟩, hc⟩ := sort_pass_spec bs arr score hbs (2 * bs * m) 0 _ h0
  refine ⟨?_, hc⟩
  rw [Nat.zero_add] at h5 h6 h7
  generalize (sort_pass bs arr score (2 * bs * m) 0
    { lindex := 0, rindex := bs, l := 0, r := 0, target := target, starget := starget,
      cl := cl }) = st at h1 h2 h3 h4 h5 h6 h7 ⊢
  have hpos : 0 < 2 * bs * m := Nat.mul_pos (by omega) (by omega)
  have h6' := h6 hpos
  have hk : k < m := by
    have : 2 * bs * k < 2 * bs * m := by omega
    exact Nat.lt_of_mul_lt_mul_left this
  have hk2 : m ≤ k + 1 := by
    have : 2 * bs * m ≤ 2 * bs * (k + 1) := by
      have e : 2 * bs * (k + 1) = 2 * bs * k + 2 * bs := by ring
      omega
    exact Nat.le_of_mul_le_mul_left this (by omega)
  have hmk : m = k + 1 := by omega
  have e : 2 * bs * (k + 1) = 2 * bs * k + 2 * bs := by ring
  rw [hmk, e] at h5
  have hl : st.l = bs := by omega
  have hr : st.r = bs := by omega
  rw [hl, hr, range_blocks, ← e, ← hmk] at h7
  exact h7

theorem pow_block (K i : Nat) (h : ¬ 2 ^ i > 2 ^ K / 2) :
    ∃ m, 1 ≤ m ∧ 2 ^ K = 2 * 2 ^ i * m := by
  have hik : i < K := by
    by_contra hge
    have h1 : 2 ^ K ≤ 2 ^ i := Nat.pow_le_pow_right (by norm_num) (by omega)
    have h2 : 0 < 2 ^ K := (Nat.pow_pos (by norm_num))
    have : 2 ^ K / 2 < 2 ^ K := Nat.div_lt_self h2 (by norm_num)
    omega
  refine ⟨2 ^ (K - i - 1), (Nat.pow_pos (by norm_num)), ?_⟩
  have e : K = 1 + i + (K - i - 1) := by omega
  conv_lhs => rw [e]
  rw [pow_add, pow_add]
  ring

/-- The passes of `sort_clauses_by_scores` over an array whose length is a
power of two permute its entries, and change no literal of a clause. -/
theorem sort_passes_perm (K : Nat) :
    ∀ (f i : Nat) (arr : Nat → Option Nat) (score : Nat → ℚ) (target : Nat → Option Nat)
      (starget : Nat → ℚ) (cl : Nat → my_clause),
      ((List.range (2 ^ K)).map
        (sort_passes (2 ^ K) f (2 ^ i) arr score target starget cl).1).Perm
        ((List.range (2 ^ K)).map arr)
      ∧ ∀ c, ((sort_passes (2 ^ K) f (2 ^ i) arr score target starget cl).2.2 c).lits
          = (cl c).lits := by
  intro f
  induction f with
  | zero =>
    intro i arr score target starget cl
    rw [sort_passes]
    exact ⟨List.Perm.refl _, fun _ => rfl⟩
  | succ f ih =>
    intro i arr score target starget cl
    rw [sort_passes]
    by_cases hb : 2 ^ i > 2 ^ K / 2
    · rw [if_pos hb]
      exact ⟨List.Perm.refl _, fun _ => rfl⟩
    · rw [if_neg hb]
      simp only
      obtain ⟨m, m1, m2⟩ := pow_block K i hb
      have hp := sort_pass_perm (2 ^ i) m arr score target starget cl
        ((Nat.pow_pos (by norm_num))) m1
      rw [← m2] at hp
      have e2 : 2 * 2 ^ i = 2 ^ (i + 1) := by rw [pow_succ]; ring
      rw [e2]
      obtain ⟨a, b⟩ := ih (i + 1) _ _ arr score _
      refine ⟨a.trans hp.1, ?_⟩
      intro c
      rw [b c]
      exact hp.2 c

theorem next_pow2_aux_spec :
    ∀ (f p n : Nat), (∃ a, p = 2 ^ a) → n ≤ p * 2 ^ f →
      (∃ K, next_pow2_aux f p n = 2 ^ K) ∧ n ≤ next_pow2_aux f p n := by
  intro f
  induction f with
  | zero =>
    intro p n hp hn
    rw [next_pow2_aux]
    exact ⟨hp, by simpa using hn⟩
  | succ f ih =>
    intro p n hp hn
    rw [next_pow2_aux]
    by_cases h : n ≤ p
    · rw [if_pos h]
      exact ⟨hp, h⟩
    · rw [if_neg h]
      obtain ⟨a, ha⟩ := hp
      apply ih
      · exact ⟨a + 1, by rw [ha, pow_succ]; ring⟩
      · have e : 2 * p * 2 ^ f = p * 2 ^ (f + 1) := by rw [pow_succ]; ring
        rw [e]
        exact hn

theorem next_pow2_spec (n : Nat) : (∃ K, next_pow2 n = 2 ^ K) ∧ n ≤ next_pow2 n := by
  unfold next_pow2
  apply next_pow2_aux_spec n 1 n ⟨0, rfl⟩
  rw [Nat.one_mul]
  exact Nat.le_of_lt (Nat.lt_two_pow n)

/-- The function `sort_clauses_by_scores` on an array whose length is a power
of two permutes the entries and changes no literal of a clause. -/
theorem sort_clauses_by_scores_perm (cl : Nat → my_clause) (arr : Nat → Option Nat)
    (score : Nat → ℚ) (K : Nat) :
    ((List.range (2 ^ K)).map (sort_clauses_by_scores cl arr score (2 ^ K)).1).Perm
      ((List.range (2 ^ K)).map arr)
    ∧ ∀ c, ((sort_clauses_by_scores cl arr score (2 ^ K)).2.2 c).lits = (cl c).lits := by
  unfold sort_clauses_by_scores
  have h := sort_passes_perm K (2 ^ K) 0 arr score (fun _ => none) (fun _ => 0) cl
  rw [pow_zero] at h
  exact h

/-- The part of the sorted array that `reduce_kb` copies back: when it holds
no `NULL`, it holds the learned clauses, up to order. -/
theorem sorted_tail_perm (L : List Nat) (N : Nat) (hN : L.length ≤ N)
    (res : Nat → Option Nat)
    (hp : ((List.range N).map res).Perm
      ((List.range N).map (fun i => if i < L.length then L.get? i else none)))
    (hall : ((List.range L.length).map (fun kk => res (N - L.length + kk))).all
      Option.isSome = true) :
    (((List.range L.length).map (fun kk => res (N - L.length + kk))).filterMap id).Perm L := by
  have hsplit : List.range N
      = List.range (N - L.length) ++ List.range' (N - L.length) L.length := by
    rw [List.range_eq_range', List.range_eq_range']
    have := List.range'_append 0 (N - L.length) L.length 1
    simp only [Nat.zero_add, Nat.one_mul] at this
    rw [this]
    congr 1
    omega
  have hsorted : (List.range L.length).map (fun kk => res (N - L.length + kk))
      = (List.range' (N - L.length) L.length).map res := by
    rw [List.range'_eq_map_range, List.map_map]
    rfl
  have hrhs : (List.range N).map (fun i => if i < L.length then L.get? i else none)
      = L.map some ++ List.replicate (N - L.length) none := by
    have hs2 : List.range N = List.range L.length ++ List.range' L.length (N - L.length) := by
      rw [List.range_eq_range', List.range_eq_range']
      have := List.range'_append 0 L.length (N - L.length) 1
      simp only [Nat.zero_add, Nat.one_mul] at this
      rw [this]
      congr 1
      omega
    rw [hs2, List.map_append]
    congr 1
    · apply List.ext_getElem
      · simp
      · intro i h1 h2
        simp only [List.length_map, List.length_range] at h1
        simp [h1, List.getElem?_eq_getElem h1]
    · apply List.ext_getElem
      · simp
      · intro i h1 h2
        simp only [List.length_map, List.length_range'] at h1
        simp
  rw [hsorted] at hall ⊢
  rw [hrhs] at hp
  rw [hsplit, List.map_append] at hp
  have hf := List.Perm.filterMap id hp
  rw [List.filterMap_append, List.filterMap_append] at hf
  have e1 : List.filterMap id (List.map some L) = L := by
    rw [List.filterMap_map]
    simp
  have e2 : List.filterMap id (List.replicate (N - L.length) (none : Option Nat)) = [] := by
    rw [List.filterMap_eq_nil_iff]
    intro x hx
    rw [List.eq_of_mem_replicate hx]
    rfl
  rw [e1, e2, List.append_nil] at hf
  have hlen2 : (List.filterMap id ((List.range' (N - L.length) L.length).map res)).length
      = L.length := by
    have : ∀ M : List (Option Nat), M.all Option.isSome = true →
        (M.filterMap id).length = M.length := by
      intro M
      induction M with
      | nil => intro _; rfl
      | cons x xs ih =>
        intro h
        simp only [List.all_cons, Bool.and_eq_true] at h
        cases x with
        | none => simp at h
        | some y =>
          simp only [List.filterMap_cons, id_eq, List.length_cons]
          rw [ih h.2]
    rw [this _ hall]
    simp
  have hlen := List.Perm.length_eq hf
  rw [List.length_append, hlen2] at hlen
  have e3 : List.filterMap id ((List.range (N - L.length)).map res) = [] := by
    apply List.eq_nil_of_length_eq_zero
    omega
  rw [e3, List.nil_append] at hf
  exact hf

/-- The invariants of the search depend on the clause stores only through
the set of stored pointers and the literals of the stored clauses. -/
theorem store_subst_inv (s : my_manager) (cl1 : Nat → my_clause) (lcs : Nat → ℚ)
    (O L : List Nat) (hmem : ∀ c, c ∈ O ++ L ↔ c ∈ clause_ptrs s) (hnd : (O ++ L).Nodup)
    (hl : ∀ c, (cl1 c).lits = (s.cl c).lits) (h : solve_inv s) :
    solve_inv { s with
      cl := cl1, learned_clause_scores := lcs, original_clauses := O,
      learned_clauses := L } := by
  obtain ⟨⟨⟨hkb, hst, hqo⟩, hq, hoff, hd1, ⟨t1, t2, t3⟩, hm, hh, hstore⟩, htw, hsv⟩ := h
  have hkb1 : kb_inv s.vc (clause_ptrs s) cl1 s.watched :=
    kb_inv_lits_congr _ _ _ _ _ (fun c _ => hl c) hkb
  have htw1 : twl_lv (clause_ptrs s) cl1 s.status s.level s.imp :=
    twl_lv_lits_congr _ _ _ _ _ _ (fun c _ => hl c) htw
  refine ⟨⟨⟨?_, hst, hqo⟩, hq, hoff, hd1, ⟨?_, t2, t3⟩, hm, hh, ?_⟩, ?_, hsv⟩
  · show kb_inv s.vc (O ++ L) cl1 s.watched
    obtain ⟨k1, k2, k3⟩ := hkb1
    refine ⟨fun c hc => k1 c ((hmem c).mp hc), ?_, fun c hc => k3 c ((hmem c).mp hc)⟩
    intro l l1 l2
    obtain ⟨a1, a2⟩ := k2 l l1 l2
    refine ⟨a1, ?_⟩
    intro c hc
    obtain ⟨b1, b2⟩ := a2 c hc
    exact ⟨(hmem c).mpr b1, b2⟩
  · intro p hp
    obtain ⟨a1, a2, a3, a4, a5, a6⟩ := t1 p hp
    refine ⟨a1, a2, a3, a4, a5, ?_⟩
    show reason_shape _ p (s.reason (var (s.assign p)))
    cases hr : s.reason (var (s.assign p)) with
    | none =>
      rw [hr] at a6
      exact a6
    | some r =>
      rw [hr] at a6
      obtain ⟨b1, b2, b3⟩ := a6
      refine ⟨(hmem r).mpr b1, ?_, ?_⟩
      · show (cl1 r).lits.getD 0 0 = s.assign p
        rw [hl r]; exact b2
      · show ∀ x ∈ (cl1 r).lits.drop 1, _
        rw [hl r]; exact b3
  · exact ⟨hnd, fun c hc => hstore.2 c ((hmem c).mp hc)⟩
  · show twl_lv (O ++ L) cl1 s.status s.level s.imp
    intro c hc
    exact htw1 c ((hmem c).mp hc)

/-- The removal loops of `reduce_kb`: they return, and the search is in order
for the store with the clauses kept. -/
theorem reduce_kb_loop_inv (n : Nat) (extra_lim : ℚ) :
    ∀ (rest : List Nat) (i j : Nat) (s : my_manager) (kept : List Nat),
      solve_inv { s with learned_clauses := kept ++ rest } →
      ∃ s1 kept1, reduce_kb_loop n extra_lim rest i j s kept = some (s1, kept1)
        ∧ solve_inv { s1 with learned_clauses := kept1 }
        ∧ s1.decision_level = s.decision_level := by
  intro rest
  induction rest with
  | nil =>
    intro i j s kept h
    refine ⟨s, kept, by rw [reduce_kb_loop], ?_, rfl⟩
    rw [List.append_nil] at h
    exact h
  | cons c rest ih =>
    intro i j s kept h
    rw [reduce_kb_loop]
    by_cases hrm : locked s c = false
        ∧ (i < n / 2 ∨ s.learned_clause_scores i < extra_lim) ∧ ¬ (s.cl c).size ≤ 2
    · rw [if_pos hrm]
      have hnd : (s.original_clauses ++ (kept ++ c :: rest)).Nodup := h.1.2.2.2.2.2.2.2.1
      have hc : c ∈ s.original_clauses ++ (kept ++ c :: rest) := by simp
      have he : s.original_clauses ++ (kept ++ rest)
          = (s.original_clauses ++ (kept ++ c :: rest)).erase c := by
        have h1 : s.original_clauses ++ (kept ++ c :: rest)
            = (s.original_clauses ++ kept) ++ c :: rest := by simp
        rw [h1] at hnd ⊢
        have hcn : c ∉ s.original_clauses ++ kept := by
          intro hin
          have := (List.nodup_append.mp hnd).2.2 hin (by simp)
          exact this
        rw [List.erase_append_right _ hcn, List.erase_cons_head, List.append_assoc]
      obtain ⟨s1, e1, e2, e3⟩ := remove_clause_ghost s c s.original_clauses
        (kept ++ c :: rest) s.original_clauses (kept ++ rest) h hc he (Or.inr hrm.1)
      rw [e1]
      simp only
      have hd1 : s1.decision_level = s.decision_level := by rw [e2]
      have e3' : solve_inv { s1 with learned_clauses := kept ++ rest } := by
        rw [e2] at e3 ⊢
        exact e3
      obtain ⟨s2, k2, f1, f2, f3⟩ := ih (i + 1) j s1 kept e3'
      exact ⟨s2, k2, f1, f2, f3.trans hd1⟩
    · rw [if_neg hrm]
      have h' := index_update_inv s c (j : Int)
        (Function.update s.learned_clause_scores j (s.learned_clause_scores i))
        s.original_clauses (kept ++ c :: rest) ((kept ++ [c]) ++ rest) (by simp) h
      exact ih (i + 1) (j + 1)
        { s with
          cl := (Function.update s.cl c { s.cl c with index := (j : Int) }),
          learned_clause_scores :=
            (Function.update s.learned_clause_scores j (s.learned_clause_scores i)) }
        (kept ++ [c]) h'

/-- The function `reduce_kb()` leaves a state of the search. -/
theorem reduce_kb_inv (s s1 : my_manager) (h : solve_inv s) (hr : reduce_kb s = some s1) :
    solve_inv s1 ∧ s1.decision_level = s.decision_level := by
  unfold reduce_kb at hr
  simp only at hr
  by_cases hn : s.learned_clauses.length = 0
  · rw [if_pos hn] at hr
    simp only [Option.some.injEq] at hr
    rw [← hr]
    exact ⟨h, rfl⟩
  · rw [if_neg hn] at hr
    obtain ⟨⟨K, hK⟩, hN⟩ := next_pow2_spec s.learned_clauses.length
    rw [hK] at hr hN
    obtain ⟨hp, hl⟩ := sort_clauses_by_scores_perm s.cl
      (fun i => if i < s.learned_clauses.length then s.learned_clauses.get? i else none)
      (fun i => if i < s.learned_clauses.length then s.learned_clause_scores i else -100) K
    generalize sort_clauses_by_scores s.cl
      (fun i => if i < s.learned_clauses.length then s.learned_clauses.get? i else none)
      (fun i => if i < s.learned_clauses.length then s.learned_clause_scores i else -100)
      (2 ^ K) = R at hr hp hl
    split at hr
    · rename_i hall
      have hperm := sorted_tail_perm s.learned_clauses (2 ^ K) hN _ hp hall
      have hnd0 : (s.original_clauses ++ s.learned_clauses).Nodup := h.1.2.2.2.2.2.2.2.1
      have hsub := store_subst_inv s R.2.2
        (fun kk => if kk < s.learned_clauses.length then
          R.2.1 (2 ^ K - s.learned_clauses.length + kk)
          else s.learned_clause_scores kk)
        s.original_clauses _
        (fun c => by
          unfold clause_ptrs
          rw [List.mem_append, List.mem_append, List.Perm.mem_iff hperm])
        ((List.Perm.append_left _ hperm).nodup_iff.mpr hnd0) hl h
      obtain ⟨s2, kept, e, f1, f2⟩ := reduce_kb_loop_inv s.learned_clauses.length
        (s.clause_score_inc / (s.learned_clauses.length : ℚ))
        (List.filterMap id
          (List.map (fun kk => R.1 (2 ^ K - s.learned_clauses.length + kk))
            (List.range s.learned_clauses.length))) 0 0
        { s with
          cl := R.2.2,
          learned_clause_scores :=
            (fun kk => if kk < s.learned_clauses.length then
              R.2.1 (2 ^ K - s.learned_clauses.length + kk)
              else s.learned_clause_scores kk) } [] (by
          rw [List.nil_append]
          exact hsub)
      rw [e] at hr
      simp only [Option.some.injEq] at hr
      rw [← hr]
      exact ⟨f1, f2⟩
    · simp at hr

/-- C20: in a state of the search with a conflict at a decision level from 2
on, `analyze_conflict` returns with the learned clause at the pointer `c`
that was next to be handed out; when that clause has at least 2 literals,
`add_conflict_clause`, run after `backtrack(assertion_level + 1)`, leaves at
position 0 the literal that was there (the negation of a stack entry of the
conflict level: the asserting literal), at position 1 a literal whose level
is the assertion level, the same literals up to order, and `c` exactly once
on the watched list of each of these two literals and on no watched list of
another literal of `1..vc`. -/
theorem add_conflict_clause_watches (s : my_manager) (hcs : conflict_state s)
    (h2 : 2 ≤ s.decision_level) :
    ∃ s1, analyze_conflict s s.conflicting_clause s.decision_level = some s1
      ∧ s1.conflict_clause = some s.alloc_next
      ∧ (2 ≤ (s1.cl s.alloc_next).lits.length →
          ∀ A, A = add_conflict_clause (backtrack s1 (s1.assertion_level + 1)) s.alloc_next →
            (A.cl s.alloc_next).lits.getD 0 0 = (s1.cl s.alloc_next).lits.getD 0 0
            ∧ (∃ p, p < s.assign_top
                ∧ (A.cl s.alloc_next).lits.getD 0 0 = neg (s.assign p)
                ∧ s.level (var (s.assign p)) = s.decision_level)
            ∧ A.level (var ((A.cl s.alloc_next).lits.getD 1 0)) = A.assertion_level
            ∧ A.assertion_level = s1.assertion_level
            ∧ (A.cl s.alloc_next).lits.Perm (s1.cl s.alloc_next).lits
            ∧ (A.watched (watched_index ((A.cl s.alloc_next).lits.getD 0 0))).count
                s.alloc_next = 1
            ∧ (A.watched (watched_index ((A.cl s.alloc_next).lits.getD 1 0))).count
                s.alloc_next = 1
            ∧ ∀ l, lit_ok s.vc l → l ≠ (A.cl s.alloc_next).lits.getD 0 0 →
                l ≠ (A.cl s.alloc_next).lits.getD 1 0 →
                s.alloc_next ∉ A.watched (watched_index l)) := by
  obtain ⟨hs, htw, hsv, hc⟩ := hcs
  obtain ⟨s1, h, hsame, a1, a2, a3⟩ := analyze_conflict_state s hs hc h2
  refine ⟨s1, h, a1, ?_⟩
  intro hlen A hA
  obtain ⟨i1, _, i3, i4, _⟩ := same_search_inv s s1 hsame
  have hs1 := i1 hs
  have e_dl : s1.decision_level = s.decision_level := hsame.2.2.2.2.2.2.1
  have a3' := a3
  obtain ⟨l1, l2, l3, l4, l5, l6, l7, l8⟩ := a3
  obtain ⟨b1, b2, b3, b4, b5⟩ := backtrack_solve_inv s1 (s1.assertion_level + 1) (by omega)
    (by rw [e_dl]; omega) hs1 (i3 htw) (i4 hsv)
  have hL := learned_now_of_backtrack s s1 _ s.alloc_next s.decision_level
    a3' hsame.1 hsame.2.1 hsame.2.2.1 b2 b3 (by rw [b4]; omega)
  obtain ⟨q1, q2, q3, q4, q5, q6, q7, q8⟩ := hL
  generalize hB : backtrack s1 (s1.assertion_level + 1) = B at *
  have ecl : B.cl = s1.cl := b2.2.1
  have ew : B.watched = s1.watched := b2.2.2.2.2.2.1
  have eal : B.assertion_level = s1.assertion_level := b2.2.2.2.2.2.2.2.2.2.2.2.2.2.1
  have evc : B.vc = s.vc := b2.1.trans hsame.1
  have e0 : (B.cl s.alloc_next).lits.getD 0 0 = (B.cl s.alloc_next).lits.get ⟨0, by omega⟩ := by
    rw [List.getD_eq_getElem _ _ (by omega)]; rfl
  have m0 : (B.cl s.alloc_next).lits.getD 0 0 ∈ (B.cl s.alloc_next).lits := by
    rw [e0]; exact List.get_mem _ 0 (by omega)
  have hlev0 : B.level (var ((B.cl s.alloc_next).lits.getD 0 0)) = 0 :=
    b1.1.2.2.2.2.1.2.2 _ (lit_ok_var _ _ (q2 _ m0)).2 q4
  have hk : ∃ k, 1 ≤ k ∧ k < (B.cl s.alloc_next).lits.length
      ∧ B.level (var ((B.cl s.alloc_next).lits.getD k 0)) = B.assertion_level := by
    rcases q6 with ⟨x, _⟩ | x
    · rw [ecl] at x
      omega
    · exact x
  obtain ⟨sc, si, hp, L1, lcs, csi, e, hh, r0, r1, r3⟩ :=
    add_conflict_clause_shape B s.alloc_next (by rw [hlev0]; omega) hk
  rw [e] at hA
  have hAcl0 := congrArg my_manager.cl hA
  have hAlv := congrArg my_manager.level hA
  have hAal := congrArg my_manager.assertion_level hA
  have hAw := congrArg my_manager.watched hA
  simp only at hAcl0 hAlv hAal hAw
  have hAcl : (A.cl s.alloc_next).lits = L1 := by
    rw [hAcl0, Function.update_same]
  clear hA e hAcl0
  have hlen1 : 2 ≤ L1.length := by
    rw [List.Perm.length_eq r0, ecl]
    exact hlen
  have hnd1 : (L1.map var).Nodup := (List.Perm.map var r0).nodup_iff.mpr q3
  have hndl : L1.Nodup := List.Nodup.of_map var hnd1
  have f0 : L1.getD 0 0 = L1.get ⟨0, by omega⟩ := by
    rw [List.getD_eq_getElem _ _ (by omega)]; rfl
  have f1 : L1.getD 1 0 = L1.get ⟨1, by omega⟩ := by
    rw [List.getD_eq_getElem _ _ (by omega)]; rfl
  have n0 : lit_ok s.vc (L1.getD 0 0) := by
    rw [← evc, f0]
    exact q2 _ ((List.Perm.mem_iff r0).mp (List.get_mem L1 0 (by omega)))
  have n1 : lit_ok s.vc (L1.getD 1 0) := by
    rw [← evc, f1]
    exact q2 _ ((List.Perm.mem_iff r0).mp (List.get_mem L1 1 (by omega)))
  have hne : L1.getD 0 0 ≠ L1.getD 1 0 := by
    rw [f0, f1]
    intro e
    have := (List.Nodup.get_inj_iff hndl).mp e
    simp at this
  have hwi : watched_index (L1.getD 0 0) ≠ watched_index (L1.getD 1 0) :=
    fun e => hne (watched_index_inj _ _ n0.1 n1.1 e)
  have hfresh : ∀ l, lit_ok s.vc l → s.alloc_next ∉ B.watched (watched_index l) := by
    intro l hl hin
    rw [ew, hsame.2.2.2.2.2.2.2.2.2.2.1] at hin
    have := ((hs.1.1.2.1 l hl.1 hl.2).2 _ hin).1
    have := hs.2.2.2.2.2.2.2.2 _ this
    omega
  rw [hAcl, hAlv, hAal, hAw]
  refine ⟨?_, ?_, r3, eal, ?_, ?_, ?_, ?_⟩
  · rw [r1, ecl]
  · rw [r1, ecl]
    have e00 : (s1.cl s.alloc_next).lits.getD 0 0 ∈ (s1.cl s.alloc_next).lits := by
      rw [← ecl]; exact m0
    obtain ⟨x1, x2, p, p1, p2⟩ := l2 _ e00
    refine ⟨p, p1, ?_, ?_⟩
    · have := (hs.2.2.2.2.1.1 p p1).2.1
      rw [p2, x2] at this
      rw [← this, neg_neg]
    · rw [p2]
      exact l3
  · rw [← ecl]
    exact r0
  · rw [Function.update_noteq hwi, Function.update_same, List.count_append,
      List.count_eq_zero_of_not_mem (hfresh _ n0)]
    simp
  · rw [Function.update_same, Function.update_noteq (Ne.symm hwi), List.count_append,
      List.count_eq_zero_of_not_mem (hfresh _ n1)]
    simp
  · intro l hl d0 d1
    have w0 : watched_index l ≠ watched_index (L1.getD 0 0) :=
      fun e => d0 (watched_index_inj _ _ hl.1 n0.1 e)
    have w1 : watched_index l ≠ watched_index (L1.getD 1 0) :=
      fun e => d1 (watched_index_inj _ _ hl.1 n1.1 e)
    rw [Function.update_noteq w1, Function.update_noteq w0]
    exact hfresh l hl

theorem heap_123_wf : heap_wf heap_123 :=
  ((heap_well_formed_iff (fun _ => 0) heap_123).mp heap_123_well_formed).1

/-- A manager in which nothing is assigned, with the variable heap `heap_123`
over three variables and an empty implication queue, is a state of the search
as soon as its clauses are watched as `bcp_inv` asks and its stores are in
order. -/
theorem unassigned_solve_inv (s : my_manager) (hb : bcp_inv s) (hq : s.imp.size = 0)
    (hoff : s.stack_offset = 0) (hd : s.decision_level = 1) (htop : s.assign_top = 0)
    (hs : ∀ v, s.status v = 0) (hl : ∀ v, s.level v = 0) (hh : s.var_order_heap = heap_123)
    (hvc : s.vc = 3) (hst : store_inv s) (hsv : ∀ v, s.saved v = 0) : solve_inv s := by
  refine ⟨⟨hb, hq, hoff, by omega, ⟨?_, ?_, ?_⟩, ?_, ⟨?_, ?_, ?_⟩, hst⟩, ?_, ?_⟩
  · intro p hp
    omega
  · intro v _ hne
    exact absurd (hs v) hne
  · intro v _ _
    exact hl v
  · intro L L1 L2
    omega
  · rw [hh]; exact heap_123_wf
  · intro w hw
    rw [hh] at hw
    rw [hvc]
    rcases (heap_123_mem w).mp hw with e | e | e <;> omega
  · intro v v1 v2 _
    rw [hh]
    rw [hvc] at v2
    have : v = 1 ∨ v = 2 ∨ v = 3 := by omega
    rcases this with e | e | e <;> subst e <;> decide
  · intro c hc
    obtain ⟨a, b⟩ := watch_lits_ok s.vc _ s.cl hb.1.1 c hc
    refine ⟨fun h => ?_, fun h => ?_⟩
    · rw [hs] at h
      exact absurd h.symm (neg_ne_zero _ a.1)
    · rw [hs] at h
      exact absurd h.symm (neg_ne_zero _ b.1)
  · intro v hv
    exact absurd (hsv v) hv

theorem example_manager_solve_inv : solve_inv example_manager :=
  unassigned_solve_inv example_manager (by decide) rfl rfl rfl rfl (fun _ => rfl)
    (fun _ => rfl) rfl rfl (by unfold store_inv; decide) (fun _ => rfl)

theorem example_two_solve_inv : solve_inv example_two :=
  unassigned_solve_inv example_two (by decide) rfl rfl rfl rfl (fun _ => rfl)
    (fun _ => rfl) rfl rfl (by unfold store_inv; decide) (fun _ => rfl)

/-- The contract of `set_decision` from a state of the search. -/
theorem set_decision_solve_inv (bfuel : Nat) (s : my_manager) (l : Nat) (hsol : solve_inv s)
    (hl : lit_ok s.vc l) (hfree : s.status (var l) = 0)
    (res : Bool) (s5 : my_manager) (h : set_decision bfuel s l = some (res, s5)) :
    (res = true → solve_inv s5) ∧ (res = false → conflict_state s5)
    ∧ s5.decision_level = s.decision_level + 1 := by
  obtain ⟨⟨hb, hq, hoff, hd1, htr, hm, ⟨g1, g2, g3⟩, hst⟩, htw, hsv⟩ := hsol
  exact set_decision_contract bfuel s l hb hq hoff hd1 htr hm hst hsv htw g1 g2
    (fun v v1 v2 hs _ => g3 v v1 v2 hs) hl hfree res s5 h

theorem example_conflict_state :
    conflict_state example_conflict ∧ example_conflict.decision_level = 2 := by
  have hres : (set_decision 10 example_manager 2).map Prod.fst = some false := by decide
  unfold example_conflict
  cases h : set_decision 10 example_manager 2 with
  | none =>
    rw [h] at hres
    simp at hres
  | some r =>
    obtain ⟨res, s1⟩ := r
    rw [h] at hres
    simp only [Option.map_some', Option.some.injEq] at hres
    obtain ⟨_, a, b⟩ := set_decision_solve_inv 10 example_manager 2 example_manager_solve_inv
      (by decide) rfl res s1 h
    exact ⟨a hres, b⟩

theorem example_deep_state :
    conflict_state example_deep ∧ example_deep.decision_level = 3 := by
  have hres1 : (set_decision 10 example_two 2).map Prod.fst = some true := by decide
  unfold example_deep
  cases h : set_decision 10 example_two 2 with
  | none =>
    rw [h] at hres1
    simp at hres1
  | some r =>
    obtain ⟨res, s1⟩ := r
    rw [h] at hres1
    simp only [Option.map_some', Option.some.injEq] at hres1
    obtain ⟨a, _, b⟩ := set_decision_solve_inv 10 example_two 2 example_two_solve_inv
      (by decide) rfl res s1 h
    have hs1 := a hres1
    have hres2 : ((set_decision 10 example_two 2).bind
        (fun r => (set_decision 10 r.2 4).map Prod.fst)) = some false := by decide
    have hfree : ((set_decision 10 example_two 2).map
        (fun r => decide (r.2.status (var 4) = 0 ∧ lit_ok r.2.vc 4))) = some true := by decide
    rw [h] at hres2 hfree
    simp only [Option.some_bind, Option.map_some', Option.some.injEq, decide_eq_true_eq]
      at hres2 hfree
    simp only
    cases h2 : set_decision 10 s1 4 with
    | none =>
      rw [h2] at hres2
      simp at hres2
    | some r2 =>
      obtain ⟨res2, s2⟩ := r2
      rw [h2] at hres2
      simp only [Option.map_some', Option.some.injEq] at hres2
      obtain ⟨_, c, d⟩ := set_decision_solve_inv 10 s1 4 hs1 hfree.2 hfree.1 res2 s2 h2
      refine ⟨c hres2, ?_⟩
      show s2.decision_level = 3
      rw [d, b]
      rfl

/-- C20, witness: the conflict of the second small instance at level 3. -/
theorem add_conflict_clause_watches_witness :
    ∃ s1, analyze_conflict example_deep example_deep.conflicting_clause
        example_deep.decision_level = some s1
      ∧ s1.conflict_clause = some example_deep.alloc_next
      ∧ (2 ≤ (s1.cl example_deep.alloc_next).lits.length →
          ∀ A, A = add_conflict_clause (backtrack s1 (s1.assertion_level + 1))
              example_deep.alloc_next →
            (A.cl example_deep.alloc_next).lits.getD 0 0
              = (s1.cl example_deep.alloc_next).lits.getD 0 0
            ∧ (∃ p, p < example_deep.assign_top
                ∧ (A.cl example_deep.alloc_next).lits.getD 0 0 = neg (example_deep.assign p)
                ∧ example_deep.level (var (example_deep.assign p))
                    = example_deep.decision_level)
            ∧ A.level (var ((A.cl example_deep.alloc_next).lits.getD 1 0)) = A.assertion_level
            ∧ A.assertion_level = s1.assertion_level
            ∧ (A.cl example_deep.alloc_next).lits.Perm (s1.cl example_deep.alloc_next).lits
            ∧ (A.watched (watched_index ((A.cl example_deep.alloc_next).lits.getD 0 0))).count
                example_deep.alloc_next = 1
            ∧ (A.watched (watched_index ((A.cl example_deep.alloc_next).lits.getD 1 0))).count
                example_deep.alloc_next = 1
            ∧ ∀ l, lit_ok example_deep.vc l →
                l ≠ (A.cl example_deep.alloc_next).lits.getD 0 0 →
                l ≠ (A.cl example_deep.alloc_next).lits.getD 1 0 →
                example_deep.alloc_next ∉ A.watched (watched_index l)) :=
  add_conflict_clause_watches example_deep example_deep_state.1
    (by rw [example_deep_state.2]; decide)

/-- The function `backtrack(2)` from a state of the search leaves a state of
the search at decision level 1. -/
theorem backtrack_two_inv (s : my_manager) (h : solve_inv s) :
    solve_inv (backtrack s 2) ∧ (backtrack s 2).decision_level = 1 := by
  rcases Nat.lt_or_ge s.decision_level 2 with hlow | hhigh
  · have e : backtrack s 2 = s := by
      unfold backtrack
      rw [if_pos hlow]
    rw [e]
    have := h.1.2.2.2.1
    exact ⟨h, by omega⟩
  · obtain ⟨a, _, _, d, _⟩ := backtrack_solve_inv s 2 (le_refl 2) hhigh h.1
      (twl_low_of_lv _ _ _ _ _ _ h.1.2.1 h.2.1) h.2.2
    exact ⟨a, d⟩

/-- The restart block of `solve` returns and leaves a state of the search. -/
theorem solve_restart_inv (s : my_manager) (h : solve_inv s) :
    ∃ s1, solve_restart s = some s1 ∧ solve_inv s1
      ∧ (s1.decision_level = s.decision_level ∨ s1.decision_level = 1) := by
  unfold solve_restart
  by_cases hc : s.conflicts ≥ s.next_restart_conflict
  · rw [if_pos hc]
    simp only
    obtain ⟨a, b⟩ := backtrack_two_inv s h
    obtain ⟨s1, e1, e2, e3⟩ := simplify_original_kb_inv
      { backtrack s 2 with
        restart := (backtrack s 2).restart + 1,
        next_restart_conflict := (backtrack s 2).conflicts
          + get_luby (backtrack s 2).luby_unit (((backtrack s 2).restart + 1 + 1).toNat) }
      a b
    exact ⟨s1, e1, e2, Or.inr e3⟩
  · rw [if_neg hc]
    exact ⟨s, rfl, h, Or.inl rfl⟩

/-- The part of an iteration of `solve` before the decision leaves a state of
the search. -/
theorem solve_manage_inv (s s3 : my_manager) (h : solve_inv s)
    (hm : solve_manage s = some s3) : solve_inv s3 := by
  unfold solve_manage at hm
  obtain ⟨s1, e1, h1, _⟩ := solve_restart_inv s h
  rw [e1] at hm
  simp only at hm
  by_cases hc : s1.simplify_learned_kb ≠ 0 ∧ s1.decision_level = 1
      ∧ s1.conflicts ≥ s1.num_conflicts_for_next_simplify
  · rw [if_pos hc] at hm
    obtain ⟨s2, e2, h2, _⟩ := simplify_kb_inv s1 h1 hc.2.1
    rw [e2] at hm
    simp only at hm
    split at hm
    · exact (reduce_kb_inv s2 s3 h2 hm).1
    · simp only [Option.some.injEq] at hm
      rw [← hm]
      exact h2
  · rw [if_neg hc] at hm
    simp only at hm
    split at hm
    · exact (reduce_kb_inv s1 s3 h1 hm).1
    · simp only [Option.some.injEq] at hm
      rw [← hm]
      exact h1

/-- One iteration of the main loop of `solve` from a state of the search:
when the loop goes on, the next iteration starts in a state of the search. -/
theorem solve_iteration_inv (bfuel cfuel : Nat) (s s3 s4 s5 s6 : my_manager) (v : Nat)
    (res : Bool) (result : Int) (h : solve_inv s) (hm : solve_manage s = some s3)
    (hsel : select_variable s3 = some (v, s4)) (hv : v ≠ 0)
    (hd : set_decision bfuel s4
      (if s4.saved v = 0 ∨ s4.save_progress = 0 then nlit v else s4.saved v)
        = some (res, s5))
    (hc : solve_conflict_loop bfuel cfuel s5 res = some (result, s6))
    (hr : result ≠ 0) : solve_inv s6 := by
  have h3 := solve_manage_inv s s3 h hm
  obtain ⟨a, b, _⟩ := set_decision_inv bfuel s3 h3 v s4 hsel hv res s5 hd
  rcases solve_conflict_loop_inv bfuel cfuel s5 res result s6 a b hc with x | ⟨_, x⟩
  · exact absurd x hr
  · exact x

/-! ### Reading the input -/

theorem lit_from_int_eq (x : Int) :
    lit_from_int x = if x < 0 then 2 * x.natAbs + 1 else 2 * x.natAbs := by
  unfold lit_from_int
  split
  · rename_i h
    have e : (-x).toNat = x.natAbs := by omega
    rw [e]
    have := nlit_eq x.natAbs
    unfold nlit at this
    exact this
  · rename_i h
    have e : x.toNat = x.natAbs := by omega
    rw [e]
    have := plit_eq x.natAbs
    unfold plit at this
    exact this

theorem var_lit_from_int (x : Int) : var (lit_from_int x) = x.natAbs := by
  rw [var_eq, lit_from_int_eq]
  split <;> omega

theorem var_ind_toNat (x : Int) : (var_ind x).toNat = x.natAbs := by
  unfold var_ind
  split <;> omega

theorem lit_ok_from_int (vc : Nat) (x : Int) (h1 : 1 ≤ x.natAbs) (h2 : x.natAbs ≤ vc) :
    lit_ok vc (lit_from_int x) := by
  unfold lit_ok
  rw [lit_from_int_eq]
  split <;> omega

/-- The literals that `read_literals` keeps are of variables of `1..vc`. -/
theorem read_literals_range (vc : Nat) (status : Nat → Nat) :
    ∀ (line kept kept1 : List Int) (skip : Bool),
      (∀ x ∈ kept, 1 ≤ x.natAbs ∧ x.natAbs ≤ vc) →
      read_literals vc status line kept = some (kept1, skip) →
      ∀ x ∈ kept1, 1 ≤ x.natAbs ∧ x.natAbs ≤ vc := by
  intro line
  induction line with
  | nil =>
    intro kept kept1 skip hk h
    rw [read_literals] at h
    simp only [Option.some.injEq, Prod.mk.injEq] at h
    rw [← h.1]
    exact hk
  | cons y rest ih =>
    intro kept kept1 skip hk h
    rw [read_literals] at h
    simp only at h
    rw [var_ind_toNat] at h
    split at h
    · simp at h
    · rename_i hr
      split at h
      · apply ih (kept ++ [y]) kept1 skip _ h
        intro x hx
        rcases List.mem_append.mp hx with a | a
        · exact hk x a
        · have : x = y := by simpa using a
          rw [this]
          omega
      · split at h
        · simp only [Option.some.injEq, Prod.mk.injEq] at h
          rw [← h.1]
          exact hk
        · exact ih kept kept1 skip hk h

theorem swap_perm_int (L : List Int) :
    ∀ (i j : Nat), i ≤ j → j < L.length →
      ((L.set i (L.getD j 0)).set j (L.getD i 0)).Perm L := by
  induction L with
  | nil => intro i j _ h; simp at h
  | cons a t ih =>
    intro i j hij hj
    cases i with
    | zero =>
      cases j with
      | zero => simp
      | succ m =>
        have hm : m < t.length := by simpa using hj
        simp only [List.set_cons_zero, List.getD_cons_succ, List.set_cons_succ,
          List.getD_cons_zero]
        have key : ∀ (t : List Int) (m : Nat) (b : Int), m < t.length →
            (t.getD m 0 :: t.set m b).Perm (b :: t) := by
          intro t
          induction t with
          | nil => intro m b h; simp at h
          | cons x xs ih2 =>
            intro m b h
            cases m with
            | zero =>
              simp only [List.getD_cons_zero, List.set_cons_zero]
              exact List.Perm.swap b x xs
            | succ m =>
              simp only [List.getD_cons_succ, List.set_cons_succ]
              have h2 : m < xs.length := by simpa using h
              have := ih2 m b h2
              exact (List.Perm.swap _ _ _).trans
                ((List.Perm.cons x this).trans (List.Perm.swap _ _ _))
        exact key t m a hm
    | succ i =>
      cases j with
      | zero => omega
      | succ m =>
        have hm : m < t.length := by simpa using hj
        simp only [List.set_cons_succ, List.getD_cons_succ]
        exact List.Perm.cons a (ih i m (by omega) hm)

theorem sort_find_best_bound (arr : List Int) :
    ∀ (n j : Nat) (best : Int) (bi : Nat), bi < j → j + n ≤ arr.length →
      (bi ≤ sort_find_best arr n j best bi) ∧ sort_find_best arr n j best bi < j + n
      ∨ sort_find_best arr n j best bi = bi := by
  intro n
  induction n with
  | zero =>
    intro j best bi _ _
    right
    rw [sort_find_best]
  | succ n ih =>
    intro j best bi hb hl
    rw [sort_find_best]
    split
    · rcases ih (j + 1) (var_ind (arr.getD j 0)) j (by omega) (by omega) with ⟨a, b⟩ | e
      · left
        exact ⟨by omega, by omega⟩
      · left
        rw [e]
        exact ⟨by omega, by omega⟩
    · rcases ih (j + 1) best bi (by omega) (by omega) with ⟨a, b⟩ | e
      · left
        exact ⟨a, by omega⟩
      · right
        exact e

theorem sort_literals_loop_perm :
    ∀ (n i : Nat) (arr : List Int), i + n + 1 ≤ arr.length ∨ n = 0 →
      (sort_literals_loop n i arr).Perm arr := by
  intro n
  induction n with
  | zero =>
    intro i arr _
    rw [sort_literals_loop]
  | succ n ih =>
    intro i arr h
    rw [sort_literals_loop]
    have hlen : i + (n + 1) + 1 ≤ arr.length := by
      rcases h with x | x
      · exact x
      · omega
    have hb : i ≤ sort_find_best arr (arr.length - (i + 1)) (i + 1) (var_ind (arr.getD i 0)) i
        ∧ sort_find_best arr (arr.length - (i + 1)) (i + 1) (var_ind (arr.getD i 0)) i
          < arr.length := by
      rcases sort_find_best_bound arr (arr.length - (i + 1)) (i + 1) (var_ind (arr.getD i 0)) i
        (by omega) (by omega) with ⟨a, b⟩ | e
      · exact ⟨a, by omega⟩
      · rw [e]
        exact ⟨le_refl _, by omega⟩
    have hp := swap_perm_int arr i _ hb.1 hb.2
    refine (ih (i + 1) _ ?_).trans hp
    left
    rw [List.length_set, List.length_set]
    omega

theorem sort_literals_perm (arr : List Int) : (sort_literals arr).Perm arr := by
  unfold sort_literals
  apply sort_literals_loop_perm
  rcases Nat.eq_zero_or_pos (arr.length - 1) with h | h
  · right; exact h
  · left; omega

theorem dedupe_scan_zero (lits : List Int) (k : Nat) :
    ∀ (n x : Nat), dedupe_scan lits k n x = 0 →
      ∀ y, x ≤ y → y < x + n → (lits.getD y 0).natAbs ≠ (lits.getD k 0).natAbs := by
  intro n
  induction n with
  | zero => intro x _ y h1 h2; omega
  | succ n ih =>
    intro x h y h1 h2
    rw [dedupe_scan] at h
    split at h
    · omega
    · split at h
      · omega
      · rename_i hne
        by_cases e : y = x
        · rw [e]; exact hne
        · exact ih (x + 1) h y (by omega) (by omega)

/-- The entries that the loop `while(k<=j)` of `read_cnf` retains, the last
one apart, are entries of the buffer before its closing 0, and no two of
them are of the same variable. -/
theorem dedupe_loop_inv (B0 : List Int) (m : Nat) :
    ∀ (f k n : Nat) (B lits : List Int) (n1 : Nat),
      k + f = m + 1 → n ≤ k → B.length = m + 1 →
      (∀ i, k ≤ i → B.getD i 0 = B0.getD i 0) →
      (∀ i, i < n → (k ≤ m ∨ i + 1 < n) → ∃ j, j < m ∧ B.getD i 0 = B0.getD j 0) →
      (∀ i1 i2, i1 < i2 → i2 < n → (B.getD i1 0).natAbs ≠ (B.getD i2 0).natAbs) →
      dedupe_loop f k n B = some (lits, n1) →
      n1 ≤ m + 1 ∧ lits.length = m + 1
      ∧ (∀ i, i + 1 < n1 → ∃ j, j < m ∧ lits.getD i 0 = B0.getD j 0)
      ∧ (∀ i1 i2, i1 < i2 → i2 < n1 → (lits.getD i1 0).natAbs ≠ (lits.getD i2 0).natAbs) := by
  intro f
  induction f with
  | zero =>
    intro k n B lits n1 hk hn hlen htail hret hdis h
    rw [dedupe_loop] at h
    simp only [Option.some.injEq, Prod.mk.injEq] at h
    obtain ⟨e1, e2⟩ := h
    subst e1 e2
    refine ⟨by omega, hlen, ?_, hdis⟩
    intro i hi
    exact hret i (by omega) (Or.inr hi)
  | succ f ih =>
    intro k n B lits n1 hk hn hlen htail hret hdis h
    rw [dedupe_loop] at h
    split at h
    · rename_i hs
      have hz := dedupe_scan_zero B k k 0 hs
      have hget : ∀ i, i ≠ n → (B.set n (B.getD k 0)).getD i 0 = B.getD i 0 := by
        intro i hi
        simp only [List.getD_eq_getElem?_getD]
        rw [List.getElem?_set_ne (Ne.symm hi)]
      have hgetn : (B.set n (B.getD k 0)).getD n 0 = B.getD k 0 := by
        simp only [List.getD_eq_getElem?_getD]
        rw [List.getElem?_set_self (by omega)]
        rfl
      refine ih (k + 1) (n + 1) _ lits n1 (by omega) (by omega)
        (by rw [List.length_set]; exact hlen) ?_ ?_ ?_ h
      · intro i hi
        rw [hget i (by omega)]
        exact htail i (by omega)
      · intro i hi hc
        by_cases e : i = n
        · rw [e, hgetn]
          refine ⟨k, by omega, htail k (le_refl _)⟩
        · rw [hget i e]
          exact hret i (by omega) (Or.inl (by omega))
      · intro i1 i2 h12 h2
        by_cases e : i2 = n
        · rw [e, hgetn, hget i1 (by omega)]
          exact hz i1 (by omega) (by omega)
        · rw [hget i1 (by omega), hget i2 e]
          exact hdis i1 i2 h12 (by omega)
    · refine ih (k + 1) n B lits n1 (by omega) (by omega) hlen ?_ ?_ hdis h
      · intro i hi
        exact htail i (by omega)
      · intro i hi _
        exact hret i hi (Or.inl (by omega))
    · simp at h

/-- The literals of a clause that `read_cnf` stores or enqueues: they are
literals of pairwise distinct variables of `1..vc`. -/
theorem read_clause_lits (vc : Nat) (status : Nat → Nat) (line kept lits : List Int)
    (skip : Bool) (n : Nat)
    (hr : read_literals vc status line [] = some (kept, skip))
    (hd : dedupe_loop (kept.length + 1) 0 0 (sort_literals kept ++ [0]) = some (lits, n)) :
    (∀ i, i + 1 < n → lit_ok vc (lit_from_int (lits.getD i 0)))
    ∧ (∀ x ∈ (lits.take (n - 1)).map lit_from_int, lit_ok vc x)
    ∧ (((lits.take (n - 1)).map lit_from_int).map var).Nodup
    ∧ ((lits.take (n - 1)).map lit_from_int).length = n - 1 := by
  have hrange := read_literals_range vc status line [] kept skip (by simp) hr
  have hperm := sort_literals_perm kept
  have hslen : (sort_literals kept).length = kept.length := hperm.length_eq
  obtain ⟨d0, d1, d2, d3⟩ := dedupe_loop_inv (sort_literals kept ++ [0]) kept.length
    (kept.length + 1) 0 0 (sort_literals kept ++ [0]) lits n (by omega) (le_refl _)
    (by rw [List.length_append, hslen]; rfl) (fun _ _ => rfl)
    (fun i hi => by omega) (fun i1 i2 _ h => by omega) hd
  have hreal : ∀ i, i + 1 < n →
      1 ≤ (lits.getD i 0).natAbs ∧ (lits.getD i 0).natAbs ≤ vc := by
    intro i hi
    obtain ⟨j, hj, e⟩ := d2 i hi
    rw [e]
    apply hrange
    apply hperm.subset
    have hj2 : j < (sort_literals kept).length := by rw [hslen]; exact hj
    rw [List.getD_eq_getElem _ _ (by rw [List.length_append]; omega),
      List.getElem_append_left hj2]
    exact List.getElem_mem _
  have hlen : (lits.take (n - 1)).length = n - 1 := by
    rw [List.length_take]
    omega
  have hget : ∀ i (hi : i < (lits.take (n - 1)).length),
      (lits.take (n - 1))[i] = lits.getD i 0 := by
    intro i hi
    rw [List.getElem_take]
    rw [List.getD_eq_getElem _ _ (by rw [hlen] at hi; omega)]
  refine ⟨?_, ?_, ?_, ?_⟩
  · intro i hi
    exact lit_ok_from_int vc _ (hreal i hi).1 (hreal i hi).2
  · intro x hx
    rw [List.mem_map] at hx
    obtain ⟨y, hy, e⟩ := hx
    obtain ⟨i, hi, e2⟩ := List.getElem_of_mem hy
    rw [← e, ← e2, hget i hi]
    rw [hlen] at hi
    exact lit_ok_from_int vc _ (hreal i (by omega)).1 (hreal i (by omega)).2
  · unfold List.Nodup
    rw [List.pairwise_iff_getElem]
    intro i j hi hj hij
    simp only [List.length_map] at hi hj
    simp only [List.getElem_map]
    rw [var_lit_from_int, var_lit_from_int, hget i hi, hget j hj]
    rw [hlen] at hj
    exact d3 i j hij (by omega)
  · rw [List.length_map, hlen]

/-! ### The state that `read_cnf` builds -/

theorem percolate_up_loop_flat (score : Nat → ℚ) (hs : ∀ v, score v = 0) (v : Nat) :
    ∀ (f : Nat) (order indices : Nat → Nat) (i : Nat),
      percolate_up_loop score v f order indices i = (order, indices, i) := by
  intro f order indices i
  cases f with
  | zero => rw [percolate_up_loop]
  | succ f =>
    rw [percolate_up_loop]
    have : gt score v (order (i / 2)) = false := by
      unfold gt
      rw [hs, hs]
      simp
    rw [this]
    simp

/-- With all scores equal, `insert` puts the variable at the end of the heap. -/
theorem insert_flat (score : Nat → ℚ) (hs : ∀ v, score v = 0) (h : heap) (v : Nat) :
    (insert score h v).order = Function.update h.order (h.size + 1) v := by
  unfold insert percolate_up
  simp only [percolate_up_loop_flat score hs, Function.update_same, Function.update_idem]

theorem init_manager_load (vc : Nat) : load_inv (init_manager vc) ∧ unwatched (init_manager vc) := by
  refine ⟨⟨rfl, rfl, rfl, fun _ => rfl, fun _ => rfl, ⟨?_, ?_⟩, ?_, le_refl _, rfl, ⟨?_, ?_⟩, ?_,
    ?_, ?_, ?_, ?_, fun _ _ => rfl⟩, fun _ => rfl, rfl, fun _ => rfl⟩
  · show ([] ++ [] : List Nat).Nodup
    simp
  · intro c hc
    have : c ∈ ([] ++ [] : List Nat) := hc
    simp at this
  · intro c hc
    have : c ∈ ([] : List Nat) := hc
    simp at this
  · intro i h1 h2
    have : i ≤ 0 := h2
    omega
  · intro v hv
    exact absurd rfl hv
  · intro v
    constructor
    · rintro ⟨i, i1, i2, _⟩
      have : i < 0 + 1 := i1
      omega
    · intro hv
      exact absurd rfl hv
  · intro h
    have : 1 ≤ 0 := h
    omega
  · intro p hp
    have : p < (0 : Int).toNat := hp
    simp at this
  · intro v hv
    exact absurd rfl hv
  · intro v hv
    exact absurd rfl hv

/-- A unit clause of a variable not yet set: `enqueue` keeps the loading
invariant. -/
theorem enqueue_load (s : my_manager) (l : Nat) (h : load_inv s) (hl : lit_ok s.vc l)
    (h0 : s.status (var l) = 0) :
    load_inv (enqueue
      { s with level := (Function.update s.level (var l) 1),
               reason := (Function.update s.reason (var l) none) } l) := by
  obtain ⟨a1, a2, a3, a4, a5, a6, a7, a8, a9, a10, a11, a12, a13, a14, a15, a16⟩ := h
  have hl0 : l ≠ 0 := by have := hl.1; omega
  have hnm : ¬ heap_mem s.imp (var l) := fun hm => (a11 _).mp hm h0
  have hi0 : s.imp.indices (var l) = 0 := by
    by_contra hc
    exact hnm ((heap_wf_mem _ a10 _).mpr hc)
  have hun : undo s.score s.imp (var l) = insert s.score s.imp (var l) := by
    unfold undo
    rw [if_neg]
    intro hc
    exact (in_heap_iff s.imp (var l)).mp hc hi0
  obtain ⟨m1, m2, _⟩ := insert_mem s.score s.imp (var l)
  have hk : (s.stack_offset + 1).toNat = s.stack_offset.toNat + 1 := by omega
  unfold enqueue
  refine ⟨a1, a2, a3, a4, a5, a6, a7, ?_, ?_, ?_, ?_, ?_, ?_, ?_, ?_, ?_⟩
  · show 0 ≤ s.stack_offset + 1
    omega
  · show (undo s.score s.imp (var l)).size = (s.stack_offset + 1).toNat
    rw [hun, m1, hk, a9]
  · show heap_wf (undo s.score s.imp (var l))
    exact undo_wf _ _ _ a10
  · intro v
    show heap_mem (undo s.score s.imp (var l)) v ↔ Function.update s.status (var l) l v ≠ 0
    rw [hun, m2 v]
    by_cases e : v = var l
    · rw [e, Function.update_same]
      exact ⟨fun _ => hl0, fun _ => Or.inr rfl⟩
    · rw [Function.update_noteq e]
      constructor
      · rintro (x | x)
        · exact (a11 v).mp x
        · exact absurd x e
      · intro x
        exact Or.inl ((a11 v).mpr x)
  · intro _
    show (undo s.score s.imp (var l)).order 1
      = var (Function.update s.assign s.stack_offset.toNat l 0)
    rw [hun, insert_flat s.score a4]
    by_cases e : s.imp.size = 0
    · have e2 : s.stack_offset.toNat = 0 := by omega
      rw [e, e2, Function.update_same, Function.update_same]
    · rw [Function.update_noteq (by omega), Function.update_noteq (by omega)]
      exact a12 (by omega)
  · intro p hp
    show lit_ok s.vc (Function.update s.assign s.stack_offset.toNat l p)
      ∧ Function.update s.status (var l) l
          (var (Function.update s.assign s.stack_offset.toNat l p))
        = Function.update s.assign s.stack_offset.toNat l p
      ∧ ∀ q, q < p → var (Function.update s.assign s.stack_offset.toNat l q)
          ≠ var (Function.update s.assign s.stack_offset.toNat l p)
    have hp2 : p < s.stack_offset.toNat + 1 := by
      have : p < (s.stack_offset + 1).toNat := hp
      omega
    by_cases e : p = s.stack_offset.toNat
    · rw [e, Function.update_same, Function.update_same]
      refine ⟨hl, rfl, ?_⟩
      intro q hq
      rw [Function.update_noteq (by omega)]
      intro hc
      have := (a13 q hq).2.1
      rw [hc, h0] at this
      have := (a13 q hq).1.1
      omega
    · have hp3 : p < s.stack_offset.toNat := by omega
      obtain ⟨b1, b2, b3⟩ := a13 p hp3
      rw [Function.update_noteq e]
      have hv : var (s.assign p) ≠ var l := by
        intro hc
        rw [hc, h0] at b2
        have := b1.1
        omega
      rw [Function.update_noteq hv]
      refine ⟨b1, b2, ?_⟩
      intro q hq
      rw [Function.update_noteq (by omega)]
      exact b3 q hq
  · intro v hv
    show ∃ p, p < (s.stack_offset + 1).toNat
      ∧ var (Function.update s.assign s.stack_offset.toNat l p) = v
    have hv : Function.update s.status (var l) l v ≠ 0 := hv
    by_cases e : v = var l
    · refine ⟨s.stack_offset.toNat, by omega, ?_⟩
      rw [Function.update_same, e]
    · rw [Function.update_noteq e] at hv
      obtain ⟨p, p1, p2⟩ := a14 v hv
      refine ⟨p, by omega, ?_⟩
      rw [Function.update_noteq (by omega)]
      exact p2
  · intro v hv
    show Function.update (Function.update s.level (var l) 1) (var l) 1 v = 1
      ∧ Function.update (Function.update s.reason (var l) none) (var l) none v = none
    have hv : Function.update s.status (var l) l v ≠ 0 := hv
    by_cases e : v = var l
    · rw [e, Function.update_same, Function.update_same]
      exact ⟨rfl, rfl⟩
    · rw [Function.update_noteq e] at hv
      rw [Function.update_noteq e, Function.update_noteq e, Function.update_noteq e,
        Function.update_noteq e]
      exact a15 v hv
  · intro v hv
    show Function.update (Function.update s.level (var l) 1) (var l) 1 v = 0
    have hv : Function.update s.status (var l) l v = 0 := hv
    by_cases e : v = var l
    · rw [e, Function.update_same] at hv
      exact absurd hv hl0
    · rw [Function.update_noteq e] at hv
      rw [Function.update_noteq e, Function.update_noteq e]
      exact a16 v hv

theorem enqueue_unwatched (s : my_manager) (l : Nat) (h : unwatched s) :
    unwatched (enqueue
      { s with level := (Function.update s.level (var l) 1),
               reason := (Function.update s.reason (var l) none) } l) := h

/-- A clause stored by `init_clause` on literals of pairwise distinct
variables keeps the loading invariant. -/
theorem init_clause_load (s : my_manager) (lits : List Int) (index : Nat) (h : load_inv s)
    (hok : ∀ x ∈ lits.map lit_from_int, lit_ok s.vc x)
    (hnd : ((lits.map lit_from_int).map var).Nodup) :
    load_inv (init_clause s lits index) := by
  obtain ⟨a1, a2, a3, a4, a5, a6, a7, a8, a9, a10, a11, a12, a13, a14, a15, a16⟩ := h
  have hptr : clause_ptrs s = s.original_clauses := by
    unfold clause_ptrs
    rw [a1, List.append_nil]
  have hlt : ∀ c ∈ s.original_clauses, c < s.alloc_next := by
    intro c hc
    exact a6.2 c (by rw [hptr]; exact hc)
  unfold init_clause
  refine ⟨a1, a2, a3, a4, a5, ⟨?_, ?_⟩, ?_, a8, a9, a10, a11, a12, a13, a14, a15, a16⟩
  · show ((s.original_clauses ++ [s.alloc_next]) ++ s.learned_clauses).Nodup
    rw [a1, List.append_nil]
    rw [List.nodup_append]
    refine ⟨by rw [← hptr]; exact a6.1, by simp, ?_⟩
    intro c hc hc2
    have : c = s.alloc_next := by simpa using hc2
    have := hlt c hc
    omega
  · intro c hc
    have hc : c ∈ (s.original_clauses ++ [s.alloc_next]) ++ s.learned_clauses := hc
    rw [a1, List.append_nil] at hc
    show c < s.alloc_next + 1
    rcases List.mem_append.mp hc with x | x
    · have := hlt c x
      omega
    · have : c = s.alloc_next := by simpa using x
      omega
  · intro c hc
    have hc : c ∈ s.original_clauses ++ [s.alloc_next] := hc
    show ((Function.update s.cl s.alloc_next
        { index := -((index : Int) + 1), lits := lits.map lit_from_int } c).lits.map var).Nodup
      ∧ ∀ x ∈ (Function.update s.cl s.alloc_next
        { index := -((index : Int) + 1), lits := lits.map lit_from_int } c).lits, lit_ok s.vc x
    rcases List.mem_append.mp hc with x | x
    · have := hlt c x
      rw [Function.update_noteq (by omega)]
      exact a7 c x
    · have : c = s.alloc_next := by simpa using x
      rw [this, Function.update_same]
      exact ⟨hnd, hok⟩

/-- Every clause line that `read_cnf` accepts keeps the loading invariant. -/
theorem read_clause_load (cc : Nat) (s s1 : my_manager) (line : List Int)
    (h : load_inv s) (hu : unwatched s) (hr : read_clause cc s line = some s1) :
    load_inv s1 ∧ unwatched s1 ∧ s1.vc = s.vc := by
  unfold read_clause at hr
  split at hr
  · simp at hr
  · rename_i kept skip hk
    split at hr
    · simp at hr
    · split at hr
      · simp only [Option.some.injEq] at hr
        rw [← hr]
        exact ⟨h, hu, rfl⟩
      · split at hr
        · simp only [Option.some.injEq] at hr
          rw [← hr]
          exact ⟨h, hu, rfl⟩
        · rename_i lits n hd
          obtain ⟨r1, r2, r3, r4⟩ := read_clause_lits s.vc s.status line kept lits skip n hk hd
          split at hr
          · rename_i hn
            simp only at hr
            split at hr
            · rename_i h0
              simp only [Option.some.injEq] at hr
              rw [← hr]
              exact ⟨enqueue_load s _ h (r1 0 (by omega)) h0, hu, rfl⟩
            · simp only [Option.some.injEq] at hr
              rw [← hr]
              exact ⟨h, hu, rfl⟩
          · simp only at hr
            by_cases h1 : n = 1
            · rw [if_pos h1] at hr
              split at hr
              · simp only [Option.some.injEq] at hr
                rw [← hr]
                exact ⟨init_clause_load { s with ok := 0 } _ _ h r2 r3, hu, rfl⟩
              · simp at hr
            · rw [if_neg h1] at hr
              split at hr
              · simp only [Option.some.injEq] at hr
                rw [← hr]
                exact ⟨init_clause_load s _ _ h r2 r3, hu, rfl⟩
              · simp at hr

theorem read_clauses_load (cc : Nat) :
    ∀ (lines : List (List Int)) (s s1 : my_manager),
      load_inv s → unwatched s → read_clauses cc lines s = some s1 →
      load_inv s1 ∧ unwatched s1 ∧ s1.vc = s.vc := by
  intro lines
  induction lines with
  | nil =>
    intro s s1 h hu hr
    rw [read_clauses] at hr
    simp only [Option.some.injEq] at hr
    rw [← hr]
    exact ⟨h, hu, rfl⟩
  | cons line rest ih =>
    intro s s1 h hu hr
    rw [read_clauses] at hr
    split at hr
    · simp at hr
    · rename_i s2 h2
      obtain ⟨b1, b2, b3⟩ := read_clause_load cc s s2 line h hu h2
      obtain ⟨c1, c2, c3⟩ := ih s2 s1 b1 b2 hr
      exact ⟨c1, c2, by rw [c3, b3]⟩

/-- The state that `read_cnf` returns. -/
theorem read_cnf_load (vc cc : Nat) (lines : List (List Int)) (s : my_manager)
    (h : read_cnf vc cc lines = some s) : load_inv s ∧ unwatched s ∧ s.vc = vc := by
  unfold read_cnf at h
  obtain ⟨a, b⟩ := init_manager_load vc
  exact read_clauses_load cc lines _ s a b h

/-! ### `finish_up_init_manager` -/

theorem declare_watched_literals_shape (s : my_manager) (c : Nat) :
    declare_watched_literals s c = { s with watched :=
      (Function.update
        (Function.update s.watched (watched_index ((s.cl c).lits.getD 0 0))
          (s.watched (watched_index ((s.cl c).lits.getD 0 0)) ++ [c]))
        (watched_index ((s.cl c).lits.getD 1 0))
        ((Function.update s.watched (watched_index ((s.cl c).lits.getD 0 0))
          (s.watched (watched_index ((s.cl c).lits.getD 0 0)) ++ [c]))
          (watched_index ((s.cl c).lits.getD 1 0)) ++ [c])) } := rfl

/-- The loop of `init_watched_literals` over the clauses `R`, the clauses `P`
being declared already: only the watched lists change, and they watch the
clauses of `P ++ R` at their first two literals. -/
theorem init_watched_literals_kb :
    ∀ (R P : List Nat) (s s1 : my_manager),
      kb_inv s.vc P s.cl s.watched → (P ++ R).Nodup →
      (∀ c ∈ R, ((s.cl c).lits.map var).Nodup ∧ ∀ x ∈ (s.cl c).lits, lit_ok s.vc x) →
      init_watched_literals R s = some s1 →
      s1 = { s with watched := s1.watched } ∧ kb_inv s.vc (P ++ R) s.cl s1.watched := by
  intro R
  induction R with
  | nil =>
    intro P s s1 hk _ _ h
    rw [init_watched_literals] at h
    simp only [Option.some.injEq] at h
    rw [← h, List.append_nil]
    exact ⟨rfl, hk⟩
  | cons c rest ih =>
    intro P s s1 hk hnd hcl h
    rw [init_watched_literals] at h
    split at h
    · simp at h
    · rename_i hsz
      have hlen : 2 ≤ (s.cl c).lits.length := by
        unfold my_clause.size at hsz
        omega
      obtain ⟨c1, c2⟩ := hcl c (List.mem_cons_self _ _)
      have hcP : c ∉ P := by
        intro hc
        have := (List.nodup_append.mp hnd).2.2 hc (List.mem_cons_self _ _)
        exact this
      have hadd := kb_inv_add s.vc P s.cl s.watched c (s.cl c).index (s.cl c).lits hk hcP hlen
        (List.Nodup.of_map _ c1) c2
      have hself : Function.update s.cl c { index := (s.cl c).index, lits := (s.cl c).lits }
          = s.cl := Function.update_eq_self c s.cl
      rw [hself] at hadd
      have hassoc : (P ++ [c]) ++ rest = P ++ c :: rest := by simp
      obtain ⟨r1, r2⟩ := ih (P ++ [c]) (declare_watched_literals s c) s1 hadd
        (by rw [hassoc]; exact hnd)
        (fun d hd => hcl d (List.mem_cons_of_mem _ hd)) h
      rw [hassoc] at r2
      exact ⟨r1, r2⟩

/-- The loop that fills the variable heap: the heap stays well formed and
holds the variables inserted. -/
theorem insert_all_heap :
    ∀ (n i : Nat) (s : my_manager), 1 ≤ i → heap_wf s.var_order_heap →
      (∀ w, heap_mem s.var_order_heap w ↔ 1 ≤ w ∧ w < i) →
      insert_all n i s = { s with var_order_heap := (insert_all n i s).var_order_heap }
      ∧ heap_wf (insert_all n i s).var_order_heap
      ∧ (∀ w, heap_mem (insert_all n i s).var_order_heap w ↔ 1 ≤ w ∧ w < i + n) := by
  intro n
  induction n with
  | zero =>
    intro i s _ hw hm
    rw [insert_all]
    exact ⟨rfl, hw, hm⟩
  | succ n ih =>
    intro i s hi hw hm
    rw [insert_all]
    have hni : s.var_order_heap.indices i = 0 := by
      by_contra hc
      have := (hm i).mp ((heap_wf_mem _ hw i).mpr hc)
      omega
    obtain ⟨m1, m2, _⟩ := insert_mem s.score s.var_order_heap i
    obtain ⟨r1, r2, r3⟩ := ih (i + 1)
      { s with var_order_heap := (insert s.score s.var_order_heap i) } (by omega)
      (insert_wf s.score s.var_order_heap i hw hni)
      (by
        intro w
        show heap_mem (insert s.score s.var_order_heap i) w ↔ 1 ≤ w ∧ w < i + 1
        rw [m2 w, hm w]
        omega)
    refine ⟨?_, r2, ?_⟩
    · exact r1
    · intro w
      rw [r3 w]
      omega

/-- The function `process_unit_literal_queue` on the state that `read_cnf`
built, with the watched lists declared and the variable heap filled: the
state returned is a state of the search at decision level 1, or a conflict
state at decision level 1. -/
theorem process_unit_literal_queue_inv (fuel : Nat) (s : my_manager) (res : Bool)
    (s1 : my_manager) (h : load_inv s) (hk : watched_inv s) (hh : heap_inv s)
    (hr : process_unit_literal_queue fuel s = some (res, s1)) :
    (res = true → solve_inv s1) ∧ (res = false → conflict_state s1)
    ∧ s1.decision_level = 1 ∧ s1.vc = s.vc ∧ s1.ok = s.ok
    ∧ s1.original_clauses = s.original_clauses := by
  obtain ⟨a1, a2, a3, a4, a5, a6, a7, a8, a9, a10, a11, a12, a13, a14, a15, a16⟩ := h
  have hvar : ∀ v, s.status v ≠ 0 → 1 ≤ v ∧ v ≤ s.vc ∧ var (s.status v) = v := by
    intro v hv
    obtain ⟨p, p1, p2⟩ := a14 v hv
    obtain ⟨b1, b2, _⟩ := a13 p p1
    have := lit_ok_var _ _ b1
    rw [← p2, b2]
    exact ⟨this.1, this.2, rfl⟩
  have hstok : status_ok s.vc s.status := fun v _ hv => (hvar v hv).2.2
  have hsaved : saved_ok s := fun v hv => absurd (a5 v) hv
  have hcl : clauses_ok s.vc (clause_ptrs s) s.cl := hk.1
  unfold process_unit_literal_queue at hr
  simp only at hr
  split at hr
  · rename_i hne
    have hsz : s.imp.size ≠ 0 := by
      intro e
      rw [dequeue_empty _ _ e] at hne
      exact hne rfl
    rw [dequeue_nonempty _ _ hsz] at hr
    obtain ⟨g1, g2, g3, g4, g5⟩ := get_min_element_mem s.score s.imp (by omega)
    have hgw := get_min_element_wf s.score s.imp a10 (by omega)
    have hk1 : 1 ≤ s.stack_offset.toNat := by omega
    obtain ⟨e1, e2, _⟩ := a13 0 hk1
    have hr1 : (get_min_element s.score s.imp).1 = var (s.assign 0) := by
      rw [g1]; exact a12 (by omega)
    have hl : s.status (get_min_element s.score s.imp).1 = s.assign 0 := by
      rw [hr1]; exact e2
    rw [hl] at hr
    split at hr
    · simp at hr
    · rename_i r2 s2 hb
      simp only [Option.some.injEq, Prod.mk.injEq] at hr
      obtain ⟨hres, hs1⟩ := hr
      subst hres
      have hst0 : s.status (var (s.assign 0)) ≠ 0 := by
        rw [e2]
        have := e1.1
        omega
      have hlv1 : s.level (var (s.assign 0)) = 1 := (a15 _ hst0).1
      have es : Function.update s.status (var (s.assign 0)) (s.assign 0) = s.status := by
        have := Function.update_eq_self (var (s.assign 0)) s.status
        rw [e2] at this
        exact this
      have ea : Function.update s.assign s.assign_top (s.assign 0) = s.assign := by
        rw [a2]
        exact Function.update_eq_self 0 s.assign
      have hlast : (((s.assign_top : Nat) : Int) + 1 + (s.stack_offset - 1)).toNat
          = s.stack_offset.toNat := by
        rw [a2]
        omega
      have hb2 : bcp_loop 1 fuel
          { s with imp := (undo s.score (get_min_element s.score s.imp).2 (var (s.assign 0))),
                   simplify_orig_kb := 1, simplify_learned_kb := 1,
                   stack_offset := s.stack_offset - 1 } s.stack_offset.toNat
          = some (r2, s2) := by
        rw [← hb]
        unfold bcp
        simp only
        rw [hlv1, hlast, es, ea]
      -- the queue when the loop of `bcp` starts holds the assigned variables
      have hd : (get_min_element s.score s.imp).2.indices (var (s.assign 0)) ≠ 0 →
          heap_mem (get_min_element s.score s.imp).2 (var (s.assign 0)) :=
        fun hx => (heap_wf_mem _ hgw _).mpr hx
      obtain ⟨u1, u2, _, _⟩ := undo_mem s.score (get_min_element s.score s.imp).2
        (var (s.assign 0)) hd
      have huw := undo_wf s.score (get_min_element s.score s.imp).2 (var (s.assign 0)) hgw
      have hmem : ∀ w, heap_mem (undo s.score (get_min_element s.score s.imp).2
          (var (s.assign 0))) w ↔ s.status w ≠ 0 := by
        intro w
        rw [u2 w, ← a11 w]
        constructor
        · rintro (x | x)
          · exact g3 w x
          · rw [x, ← a12 (by omega)]
            exact ⟨1, by omega, le_refl _, rfl⟩
        · intro x
          rcases g4 w x with y | y
          · right
            rw [y]
            exact a12 (by omega)
          · left
            exact y
      have hinv : bcp_inv
          { s with imp := (undo s.score (get_min_element s.score s.imp).2 (var (s.assign 0))),
                   simplify_orig_kb := 1, simplify_learned_kb := 1,
                   stack_offset := s.stack_offset - 1 } := by
        refine ⟨hk, hstok, ?_⟩
        apply queue_ok_of_mem
        · intro w hw
          have := hvar w ((hmem w).mp hw)
          exact ⟨this.1, this.2.1, (hmem w).mp hw⟩
        · intro v _ hv
          exact (heap_wf_mem _ huw v).mpr hv
      have hT : bcp_trail
          { s with imp := (undo s.score (get_min_element s.score s.imp).2 (var (s.assign 0))),
                   simplify_orig_kb := 1, simplify_learned_kb := 1,
                   stack_offset := s.stack_offset - 1 } s.stack_offset.toNat 1 := by
        refine ⟨⟨?_, ?_, ?_⟩, ?_, ?_, a3.symm, le_refl _⟩
        · intro p hp
          obtain ⟨b1, b2, b3⟩ := a13 p hp
          have hne0 : s.status (var (s.assign p)) ≠ 0 := by
            rw [b2]
            have := b1.1
            omega
          obtain ⟨c1, c2⟩ := a15 _ hne0
          refine ⟨b1, b2, ?_, ?_, ?_, ?_⟩
          · show 1 ≤ s.level (var (s.assign p))
            omega
          · show s.level (var (s.assign p)) ≤ s.decision_level
            omega
          · intro q hq
            refine ⟨b3 q hq, ?_⟩
            obtain ⟨d1, d2, _⟩ := a13 q (by omega)
            have hq0 : s.status (var (s.assign q)) ≠ 0 := by
              rw [d2]
              have := d1.1
              omega
            show s.level (var (s.assign q)) ≤ s.level (var (s.assign p))
            rw [c1, (a15 _ hq0).1]
          · show reason_shape _ p (s.reason (var (s.assign p)))
            rw [c2]
            intro h2
            have h2 : 2 ≤ s.level (var (s.assign p)) := h2
            omega
        · intro v _ hv
          exact a14 v hv
        · intro v _ hv
          exact a16 v hv
        · intro L hL1 hL2
          have : L ≤ s.decision_level := hL2
          omega
        · intro w hw
          exact (a15 w ((hmem w).mp hw)).1
      have hW : twl_lv (clause_ptrs s) s.cl s.status s.level
          (undo s.score (get_min_element s.score s.imp).2 (var (s.assign 0))) := by
        intro c hc
        obtain ⟨w0, w1⟩ := watch_lits_ok s.vc (clause_ptrs s) s.cl hcl c hc
        constructor
        · intro hf
          left
          apply (hmem _).mpr
          rw [hf]
          exact neg_ne_zero _ w0.1
        · intro hf
          left
          apply (hmem _).mpr
          rw [hf]
          exact neg_ne_zero _ w1.1
      obtain ⟨i1, i2, i3, i4⟩ := bcp_loop_inv 1 fuel _ _ r2 s2 hinv hb2
      obtain ⟨j1, j2, j3, j4, j5⟩ := bcp_loop_all 1 (clause_ptrs s) fuel _ _ r2 s2 hinv
        (fun _ hc => hc) hT hW hb2
      obtain ⟨x1, x2, x3⟩ := bcp_loop_aux 1 fuel _ _ r2 s2 hb2
      obtain ⟨f1, f2, f3, f4, f5, f6, f7, f8, f9, f10, f11, f12⟩ := j2
      have hdl : s2.decision_level = 1 := by rw [f7]; exact a3
      have hptr : clause_ptrs s2 = clause_ptrs s := i3
      have hsearch : search_inv { s2 with stack_offset := 0 } := by
        refine ⟨i1, j3, rfl, ?_, j1.1, j1.2.1, ⟨?_, ?_, ?_⟩, ?_⟩
        · show 1 ≤ s2.decision_level
          omega
        · show heap_wf s2.var_order_heap
          rw [f5]
          exact hh.1
        · intro w hw
          have hw : heap_mem s2.var_order_heap w := hw
          rw [f5] at hw
          show 1 ≤ w ∧ w ≤ s2.vc
          rw [f1]
          exact hh.2.1 w hw
        · intro v v1 v2 hs
          have v2 : v ≤ s2.vc := v2
          have hs : s2.status v = 0 := hs
          show s2.var_order_heap.indices v ≠ 0
          rw [f5]
          rw [f1] at v2
          have hs0 : s.status v = 0 := by
            by_contra hne
            rw [(f12 v hne).1] at hs
            exact hne hs
          exact hh.2.2 v v1 v2 hs0
        · show (clause_ptrs s2).Nodup ∧ ∀ c ∈ clause_ptrs s2, c < s2.alloc_next
          rw [hptr, f4]
          exact a6
      have hsv : saved_ok { s2 with stack_offset := 0 } := by
        intro v hv
        have hv : s2.saved v ≠ 0 := hv
        rw [x1] at hv
        exact absurd (a5 v) hv
      rw [← hs1]
      refine ⟨?_, ?_, hdl, f1, f10, f2⟩
      · intro e
        refine ⟨hsearch, ?_, hsv⟩
        show twl_lv (clause_ptrs s2) s2.cl s2.status s2.level s2.imp
        rw [hptr]
        exact j4 e
      · intro e
        obtain ⟨c, c1, c2, c3⟩ := i4 e
        obtain ⟨y1, c', y2, y3⟩ := j5 e
        rw [c1] at y2
        have hcc : c = c' := Option.some.inj y2
        subst hcc
        refine ⟨hsearch, ?_, hsv, ?_⟩
        · show twl_low (clause_ptrs s2) s2.cl s2.status s2.level s2.decision_level
          rw [hptr, hdl]
          exact y1
        · refine ⟨c, c1, ?_, c3, ?_⟩
          · show c ∈ clause_ptrs s2
            rw [hptr]
            exact c2
          · show s2.level (var ((s2.cl c).lits.getD 1 0)) = s2.decision_level
            rw [hdl]
            exact y3
  · rename_i hz
    have hz : (dequeue s.score s.imp).1 = 0 := by
      by_contra hc
      exact hz hc
    have hsz : s.imp.size = 0 := by
      by_contra hc
      rw [dequeue_nonempty _ _ hc] at hz
      obtain ⟨g1, _⟩ := get_min_element_mem s.score s.imp (by omega)
      rw [g1, a12 (by omega)] at hz
      obtain ⟨e1, _⟩ := a13 0 (by omega)
      have := (lit_ok_var _ _ e1).1
      omega
    rw [dequeue_empty _ _ hsz] at hr
    simp only [Option.some.injEq, Prod.mk.injEq] at hr
    obtain ⟨hres, hs1⟩ := hr
    have hfree : ∀ v, s.status v = 0 := by
      intro v
      by_contra hc
      obtain ⟨p, p1, _⟩ := a14 v hc
      omega
    have hsol : solve_inv s := by
      refine ⟨⟨⟨hk, hstok, ?_⟩, hsz, by omega, by omega, ⟨?_, ?_, ?_⟩, ?_, hh, a6⟩, ?_, hsaved⟩
      · apply queue_ok_of_mem
        · intro w hw
          exact absurd hsz (heap_mem_size _ _ hw)
        · intro v _ hv
          exact (heap_wf_mem _ a10 v).mpr hv
      · intro p hp
        rw [a2] at hp
        omega
      · intro v _ hv
        exact absurd (hfree v) hv
      · intro v _ hv
        exact a16 v hv
      · intro L hL1 hL2
        omega
      · intro c hc
        obtain ⟨w0, w1⟩ := watch_lits_ok s.vc (clause_ptrs s) s.cl hcl c hc
        constructor
        · intro hf
          rw [hfree] at hf
          exact absurd hf.symm (neg_ne_zero _ w0.1)
        · intro hf
          rw [hfree] at hf
          exact absurd hf.symm (neg_ne_zero _ w1.1)
    rw [← hs1, ← hres]
    exact ⟨fun _ => hsol, fun e => by simp at e, a3, rfl, rfl, rfl⟩

/-- The state that `init_watched_literals` and the filling of the variable
heap leave: it differs from the state read in the watched lists and the
variable heap only, the watched lists hold the clauses read, and the heap
holds every variable. -/
theorem init_watched_heap (s s1 : my_manager) (h : load_inv s) (hu : unwatched s)
    (hw : init_watched_literals s.original_clauses s = some s1) :
    load_inv (insert_all s1.vc 1 s1) ∧ watched_inv (insert_all s1.vc 1 s1)
    ∧ heap_inv (insert_all s1.vc 1 s1) ∧ (insert_all s1.vc 1 s1).vc = s.vc
    ∧ (insert_all s1.vc 1 s1).ok = s.ok
    ∧ (insert_all s1.vc 1 s1).original_clauses = s.original_clauses := by
  have hl := h
  obtain ⟨a1, a2, a3, a4, a5, a6, a7, a8, a9, a10, a11, a12, a13, a14, a15, a16⟩ := h
  obtain ⟨u1, u2, u3⟩ := hu
  have hptr : clause_ptrs s = s.original_clauses := by
    unfold clause_ptrs
    rw [a1, List.append_nil]
  have hk0 : kb_inv s.vc [] s.cl s.watched := by
    refine ⟨?_, ?_, ?_⟩
    · intro c hc
      simp at hc
    · intro l _ _
      rw [u1]
      exact ⟨List.nodup_nil, fun c hc => by simp at hc⟩
    · intro c hc
      simp at hc
  obtain ⟨e1, k1⟩ := init_watched_literals_kb s.original_clauses [] s s1 hk0
    (by rw [List.nil_append, ← hptr]; exact a6.1) a7 hw
  rw [List.nil_append] at k1
  have hl1 : load_inv s1 := by
    rw [e1]
    exact hl
  have hvc : s1.vc = s.vc := by rw [e1]
  have hh0 : heap_wf s1.var_order_heap := by
    rw [e1]
    refine ⟨?_, ?_⟩
    · intro i i1 i2
      have : i ≤ s.var_order_heap.size := i2
      omega
    · intro v hv
      exact absurd (u3 v) hv
  have hm0 : ∀ w, heap_mem s1.var_order_heap w ↔ 1 ≤ w ∧ w < 1 := by
    intro w
    constructor
    · rintro ⟨i, i1, i2, _⟩
      rw [e1] at i1
      have : i < s.var_order_heap.size + 1 := i1
      omega
    · intro hw
      omega
  obtain ⟨e2, r2, r3⟩ := insert_all_heap s1.vc 1 s1 (le_refl 1) hh0 hm0
  have hk1 : watched_inv s1 := by
    rw [e1]
    show kb_inv s.vc (s.original_clauses ++ s.learned_clauses) s.cl s1.watched
    rw [a1, List.append_nil]
    exact k1
  refine ⟨?_, ?_, ⟨r2, ?_, ?_⟩, ?_, ?_, ?_⟩
  · rw [e2]
    exact hl1
  · rw [e2]
    exact hk1
  · intro w hw
    have := (r3 w).mp hw
    rw [e2]
    show 1 ≤ w ∧ w ≤ s1.vc
    omega
  · intro v v1 v2 _
    rw [e2] at v2
    have v2 : v ≤ s1.vc := v2
    exact (heap_wf_mem _ r2 v).mp ((r3 v).mpr (by omega))
  · rw [e2]
    exact hvc
  · rw [e2, e1]
  · rw [e2, e1]

/-- The function `finish_up_init_manager` on the state that `read_cnf` built:
when it returns 1 the state is a state of the search at decision level 1,
and when it returns 0 the state is a conflict state at decision level 1. -/
theorem finish_up_init_manager_inv (fuel : Nat) (s : my_manager) (res : Bool)
    (s5 : my_manager) (h : load_inv s) (hu : unwatched s)
    (hr : finish_up_init_manager fuel s = some (res, s5)) :
    (res = true → solve_inv s5) ∧ (res = false → conflict_state s5)
    ∧ s5.decision_level = 1 ∧ s5.vc = s.vc := by
  unfold finish_up_init_manager at hr
  split at hr
  · simp at hr
  · rename_i s1 hw
    obtain ⟨b1, b2, b3, b4, _, _⟩ := init_watched_heap s s1 h hu hw
    split at hr
    · simp at hr
    · rename_i r s3 hp
      obtain ⟨c1, c2, c3, c4, _, _⟩ := process_unit_literal_queue_inv fuel _ r s3 b1 b2 b3 hp
      split at hr
      · rename_i hf
        simp only [Option.some.injEq, Prod.mk.injEq] at hr
        rw [← hr.1, ← hr.2]
        exact ⟨fun e => by simp at e, fun _ => c2 hf, c3, by rw [c4, b4]⟩
      · rename_i hf
        have ht : r = true := by simpa using hf
        obtain ⟨s4, d1, d2, d3⟩ := simplify_original_kb_inv s3 (c1 ht) c3
        obtain ⟨_, x2, _⟩ := simplify_original_kb_aux s3 s4 d1
        rw [d1] at hr
        simp only [Option.some.injEq, Prod.mk.injEq] at hr
        rw [← hr.1, ← hr.2]
        exact ⟨fun _ => d2, fun e => by simp at e, d3, by
          show s4.vc = s.vc
          rw [x2, c4, b4]⟩

/-- The main loop of `solve` is entered in a state of the search. -/
theorem loop_entry_solve_inv (bfuel cfuel : Nat) (s : my_manager)
    (h : loop_entry bfuel cfuel s) : solve_inv s := by
  induction h with
  | first vc cc lines s0 s h0 h1 =>
    obtain ⟨a, b, _⟩ := read_cnf_load vc cc lines s0 h0
    exact (finish_up_init_manager_inv bfuel s0 true s a b h1).1 rfl
  | next s s3 s4 s5 s6 v res result _ hm hs hv hd hc hr ih =>
    exact solve_iteration_inv bfuel cfuel s s3 s4 s5 s6 v res result ih hm hs hv hd hc hr

/-- The conflict loop of `solve` starts its iterations in conflict states. -/
theorem conflict_point_state (bfuel cfuel : Nat) (s : my_manager)
    (h : conflict_point bfuel cfuel s) : conflict_state s := by
  induction h with
  | decided s s3 s4 s5 v he hm hs hv hd =>
    have h3 := solve_manage_inv s s3 (loop_entry_solve_inv bfuel cfuel s he) hm
    exact (set_decision_inv bfuel s3 h3 v s4 hs hv false s5 hd).2.1 rfl
  | asserted s s1 s3 _ ha hne hd ih =>
    rcases Nat.lt_or_ge s.decision_level 2 with hlow | hhigh
    · obtain ⟨s2, e2, e3, _⟩ := analyze_conflict_top s s.conflicting_clause s.decision_level
        (by omega)
      rw [e2] at ha
      have : s2 = s1 := Option.some.inj ha
      rw [this] at e3
      exact absurd e3 hne
    · obtain ⟨s2, e2, _, _, _, e5⟩ := conflict_step bfuel s ih hhigh
      rw [e2] at ha
      have : s2 = s1 := Option.some.inj ha
      subst this
      exact (e5 false s3 hd).2.1 rfl

/-! ### The invariants at the points of a run -/

theorem watched_twice_of_inv (s : my_manager) (h : watched_inv s) : watched_twice s := by
  obtain ⟨k1, k2, k3⟩ := h
  intro c hc _
  obtain ⟨w0, w1⟩ := watch_lits_ok s.vc (clause_ptrs s) s.cl k1 c hc
  obtain ⟨m0, m1⟩ := k3 c hc
  refine ⟨?_, ?_, ?_⟩
  · exact List.count_eq_one_of_mem (k2 _ w0.1 w0.2).1 m0
  · exact List.count_eq_one_of_mem (k2 _ w1.1 w1.2).1 m1
  · intro l hl h0 h1 hin
    have := ((k2 l hl.1 hl.2).2 c hin).2
    unfold watches at this
    rcases this with x | x
    · exact h0 x.symm
    · exact h1 x.symm

theorem reasons_justified_of_trail (s : my_manager) (h : trail_inv s s.assign_top) :
    reasons_justified s := by
  obtain ⟨t1, t2, _⟩ := h
  intro v _ v2 hv c hc
  obtain ⟨p, p1, p2⟩ := t2 v v2 hv
  obtain ⟨_, a2, _, _, a5, a6⟩ := t1 p p1
  rw [p2] at a2 a6
  rw [hc] at a6
  obtain ⟨b1, b2, b3⟩ := a6
  refine ⟨b1, by rw [b2, a2], ?_⟩
  intro x hx
  obtain ⟨c1, q, q1, q2⟩ := b3 x hx
  refine ⟨c1, ?_⟩
  have := (a5 q q1).2
  rw [q2, p2] at this
  exact this

theorem trail_ok_of_trail (s : my_manager) (h : trail_inv s s.assign_top) : trail_ok s := by
  obtain ⟨t1, t2, _⟩ := h
  refine ⟨?_, ?_, ?_⟩
  · intro p q hpq hq e
    have := ((t1 q hq).2.2.2.2.1 p hpq).1
    rw [e] at this
    exact this rfl
  · intro p hp
    obtain ⟨_, a2, _, a4, _⟩ := t1 p hp
    exact ⟨a2, a4⟩
  · intro v _ v2 hv
    obtain ⟨p, p1, p2⟩ := t2 v v2 hv
    refine ⟨p, p1, ?_⟩
    have := (t1 p p1).2.1
    rw [p2] at this
    exact this.symm

/-- The four invariants in a state that satisfies the invariant of the
search. -/
theorem search_inv_props (s : my_manager) (h : search_inv s) :
    watched_twice s ∧ reasons_justified s ∧ trail_ok s ∧ free_vars_in_heap s :=
  ⟨watched_twice_of_inv s h.1.1, reasons_justified_of_trail s h.2.2.2.2.1,
    trail_ok_of_trail s h.2.2.2.2.1, h.2.2.2.2.2.2.1.2.2⟩

/-- When `select_variable` returns 0 the state is still a state of the
search. -/
theorem select_variable_zero_inv (s3 s4 : my_manager) (h : solve_inv s3)
    (hs : select_variable s3 = some (0, s4)) : solve_inv s4 := by
  obtain ⟨⟨hb, hq, hoff, hd1, htr, hm, hh, hst⟩, htw, hsv⟩ := h
  have hl1 : ∀ u, u ≤ s3.vc → s3.status u ≠ 0 → s3.level u ≠ 0 := by
    intro u hu hs
    obtain ⟨p, p1, p2⟩ := htr.2.1 u hu hs
    obtain ⟨_, _, a3, _⟩ := htr.1 p p1
    rw [p2] at a3
    omega
  obtain ⟨e4, g1, g2, g3, _⟩ := select_variable_spec s3 0 s4 hh hl1 htr.2.2 hs
  rw [e4]
  refine ⟨⟨hb, hq, hoff, hd1, htr, hm, ⟨g1, g2, ?_⟩, hst⟩, htw, hsv⟩
  intro v v1 v2 hv
  exact absurd hv (g3 rfl v v1 v2)

/-- The state in which `assert_conflict_clause` is called after a conflict at
a decision level above 1: a state of the search in which the learned clause
is held at a fresh pointer. -/
theorem conflict_step_learned (s s1 : my_manager) (hcs : conflict_state s)
    (h2 : 2 ≤ s.decision_level)
    (h : analyze_conflict s s.conflicting_clause s.decision_level = some s1) :
    solve_inv (backtrack s1 (s1.assertion_level + 1))
    ∧ (backtrack s1 (s1.assertion_level + 1)).conflict_clause = some s.alloc_next
    ∧ s1.conflict_clause = some s.alloc_next
    ∧ s.alloc_next ∉ clause_ptrs (backtrack s1 (s1.assertion_level + 1))
    ∧ learned_now (backtrack s1 (s1.assertion_level + 1)) s.alloc_next := by
  obtain ⟨hs, htw, hsv, hc⟩ := hcs
  obtain ⟨s1', h', hsame, a1, a2, a3⟩ := analyze_conflict_state s hs hc h2
  rw [h] at h'
  have : s1 = s1' := Option.some.inj h'
  subst this
  obtain ⟨i1, _, i3, i4, _⟩ := same_search_inv s s1 hsame
  have hs1 := i1 hs
  have e_dl : s1.decision_level = s.decision_level := hsame.2.2.2.2.2.2.1
  obtain ⟨l1, l2, l3, l4, l5, l6, l7, l8⟩ := a3
  obtain ⟨b1, b2, b3, b4, b5⟩ := backtrack_solve_inv s1 (s1.assertion_level + 1) (by omega)
    (by rw [e_dl]; omega) hs1 (i3 htw) (i4 hsv)
  have hp : clause_ptrs (backtrack s1 (s1.assertion_level + 1)) = clause_ptrs s := by
    unfold clause_ptrs
    rw [b2.2.2.1, b2.2.2.2.1, hsame.2.2.2.2.2.2.2.2.1, hsame.2.2.2.2.2.2.2.2.2.1]
  have hL := learned_now_of_backtrack s s1 _ s.alloc_next s.decision_level
    ⟨l1, l2, l3, l4, l5, l6, l7, l8⟩ hsame.1 hsame.2.1 hsame.2.2.1 b2 b3 (by rw [b4]; omega)
  refine ⟨b1, by rw [b2.2.2.2.2.2.2.2.2.2.2.2.2.1]; exact a1, a1, ?_, hL⟩
  rw [hp]
  intro hin
  have := hs.2.2.2.2.2.2.2.2 _ hin
  omega

/-- The function `add_conflict_clause` on a learned clause of size at least 2
keeps the two-watched-literal invariant. -/
theorem add_conflict_clause_kb (s : my_manager) (c : Nat) (hsol : solve_inv s)
    (hc : c ∉ clause_ptrs s) (hL : learned_now s c) (hsz : 1 < (s.cl c).size) :
    watched_inv (add_conflict_clause s c) := by
  obtain ⟨q1, q2, q3, q4, q5, q6, q7, q8⟩ := hL
  have e0 : (s.cl c).lits.getD 0 0 = (s.cl c).lits.get ⟨0, by omega⟩ := by
    rw [List.getD_eq_getElem _ _ (by omega)]; rfl
  have m0 : (s.cl c).lits.getD 0 0 ∈ (s.cl c).lits := by
    rw [e0]; exact List.get_mem _ 0 (by omega)
  have hlev0 : s.level (var ((s.cl c).lits.getD 0 0)) = 0 :=
    hsol.1.2.2.2.2.1.2.2 _ (lit_ok_var _ _ (q2 _ m0)).2 q4
  have hk : ∃ k, 1 ≤ k ∧ k < (s.cl c).lits.length
      ∧ s.level (var ((s.cl c).lits.getD k 0)) = s.assertion_level := by
    rcases q6 with ⟨x, _⟩ | x
    · unfold my_clause.size at hsz
      omega
    · exact x
  obtain ⟨sc, si, hp, L1, lcs, csi, e, hh, r0, r1, r3⟩ :=
    add_conflict_clause_shape s c (by rw [hlev0]; omega) hk
  have hadd := kb_inv_add s.vc (clause_ptrs s) s.cl s.watched c (s.learned_clauses.length : Int)
    L1 hsol.1.1.1 hc (by rw [List.Perm.length_eq r0]; exact hsz)
    (List.Nodup.of_map var ((List.Perm.map var r0).nodup_iff.mpr q3))
    (fun x hx => q2 x ((List.Perm.mem_iff r0).mp hx))
  rw [e]
  show kb_inv s.vc (s.original_clauses ++ (s.learned_clauses ++ [c])) _ _
  rw [← List.append_assoc]
  exact hadd

/-- The states that the loading of a formula goes through satisfy the
invariant of the search: the state that `process_unit_literal_queue` returns
and the state that `finish_up_init_manager` returns. -/
theorem loader_points (bfuel vc cc : Nat) (lines : List (List Int)) (s0 : my_manager)
    (h : read_cnf vc cc lines = some s0) :
    (∀ s1 res s3, init_watched_literals s0.original_clauses s0 = some s1 →
        process_unit_literal_queue bfuel (insert_all s1.vc 1 s1) = some (res, s3) →
        search_inv s3)
    ∧ (∀ res s, finish_up_init_manager bfuel s0 = some (res, s) → search_inv s) := by
  obtain ⟨a, b, _⟩ := read_cnf_load vc cc lines s0 h
  constructor
  · intro s1 res s3 hw hp
    obtain ⟨b1, b2, b3, _⟩ := init_watched_heap s0 s1 a b hw
    obtain ⟨c1, c2, _⟩ := process_unit_literal_queue_inv bfuel _ res s3 b1 b2 b3 hp
    cases res with
    | true => exact (c1 rfl).1
    | false => exact (c2 rfl).1
  · intro res s hf
    obtain ⟨c1, c2, _⟩ := finish_up_init_manager_inv bfuel s0 res s a b hf
    cases res with
    | true => exact (c1 rfl).1
    | false => exact (c2 rfl).1

/-- The states that an iteration of the main loop of `solve` goes through
before the conflict loop satisfy the invariant of the search. -/
theorem entry_points (bfuel cfuel : Nat) (s : my_manager) (h : loop_entry bfuel cfuel s) :
    search_inv s ∧ search_inv (backtrack s 2)
    ∧ (∀ s1, solve_restart s = some s1 →
        search_inv s1
        ∧ (∀ s2, s1.decision_level = 1 → simplify_kb s1 = some s2 →
            search_inv s2 ∧ ∀ s3, reduce_kb s2 = some s3 → search_inv s3)
        ∧ (∀ s3, reduce_kb s1 = some s3 → search_inv s3))
    ∧ (∀ s3 s4, solve_manage s = some s3 → select_variable s3 = some (0, s4) →
        search_inv (backtrack s4 2))
    ∧ (∀ s3 s4 v res s5, solve_manage s = some s3 → select_variable s3 = some (v, s4) →
        v ≠ 0 →
        set_decision bfuel s4
          (if s4.saved v = 0 ∨ s4.save_progress = 0 then nlit v else s4.saved v)
            = some (res, s5) →
        search_inv s5) := by
  have hs := loop_entry_solve_inv bfuel cfuel s h
  refine ⟨hs.1, (backtrack_two_inv s hs).1.1, ?_, ?_, ?_⟩
  · intro s1 h1
    obtain ⟨s1', e1, i1, _⟩ := solve_restart_inv s hs
    rw [h1] at e1
    have : s1 = s1' := Option.some.inj e1
    subst this
    refine ⟨i1.1, ?_, ?_⟩
    · intro s2 hd h2
      obtain ⟨s2', e2, i2, _⟩ := simplify_kb_inv s1 i1 hd
      rw [h2] at e2
      have : s2 = s2' := Option.some.inj e2
      subst this
      exact ⟨i2.1, fun s3 h3 => (reduce_kb_inv s2 s3 i2 h3).1.1⟩
    · intro s3 h3
      exact (reduce_kb_inv s1 s3 i1 h3).1.1
  · intro s3 s4 hm hsel
    have h3 := solve_manage_inv s s3 hs hm
    exact (backtrack_two_inv s4 (select_variable_zero_inv s3 s4 h3 hsel)).1.1
  · intro s3 s4 v res s5 hm hsel hv hd
    have h3 := solve_manage_inv s s3 hs hm
    obtain ⟨a, b, _⟩ := set_decision_inv bfuel s3 h3 v s4 hsel hv res s5 hd
    cases res with
    | true => exact (a rfl).1
    | false => exact (b rfl).1

/-- The states that an iteration of the conflict loop of `solve` goes through
after the analysis, when the loop goes on: the state after
`backtrack(assertion_level+1)`, the state after `add_conflict_clause` (for a
learned clause of size at least 2) and the state that
`assert_conflict_clause` returns. -/
theorem conflict_points (bfuel cfuel : Nat) (s s1 : my_manager)
    (h : conflict_point bfuel cfuel s)
    (ha : analyze_conflict s s.conflicting_clause s.decision_level = some s1)
    (hne : s1.assertion_level ≠ 0) :
    search_inv (backtrack s1 (s1.assertion_level + 1))
    ∧ (∀ c, s1.conflict_clause = some c → 1 < (s1.cl c).size →
        watched_inv (add_conflict_clause (backtrack s1 (s1.assertion_level + 1)) c))
    ∧ (∀ res s3,
        assert_conflict_clause bfuel (backtrack s1 (s1.assertion_level + 1)) = some (res, s3) →
        search_inv s3) := by
  have hcs := conflict_point_state bfuel cfuel s h
  have h2 : 2 ≤ s.decision_level := by
    by_contra hc
    obtain ⟨s2, e2, e3, _⟩ := analyze_conflict_top s s.conflicting_clause s.decision_level
      (by omega)
    rw [ha] at e2
    have : s1 = s2 := Option.some.inj e2
    rw [← this] at e3
    exact hne e3
  obtain ⟨b1, b2, b3, b4, b5⟩ := conflict_step_learned s s1 hcs h2 ha
  obtain ⟨s1', e1, _, _, _, e5⟩ := conflict_step bfuel s hcs h2
  rw [ha] at e1
  have : s1 = s1' := Option.some.inj e1
  subst this
  refine ⟨b1.1, ?_, ?_⟩
  · intro c hc hsz
    rw [b3] at hc
    have : s.alloc_next = c := Option.some.inj hc
    subst this
    apply add_conflict_clause_kb _ _ b1 b4 b5
    have hcl : (backtrack s1 (s1.assertion_level + 1)).cl = s1.cl := by
      rcases Nat.lt_or_ge s1.decision_level (s1.assertion_level + 1) with x | x
      · unfold backtrack
        rw [if_pos x]
      · rw [backtrack_eq s1 _ x]
        exact (backtrack_loop_frame _ s1 _).2.1
    rw [hcl]
    exact hsz
  · intro res s3 h3
    obtain ⟨r1, r2, _⟩ := e5 res s3 h3
    cases res with
    | true => exact (r1 rfl).1
    | false => exact (r2 rfl).1

/-- Taking a stored clause out with `remove_clause` keeps the
two-watched-literal invariant for the store without this clause. -/
theorem remove_clause_watched (s : my_manager) (c : Nat) (s1 : my_manager)
    (hk : watched_inv s) (hst : store_inv s) (hc : c ∈ clause_ptrs s)
    (hr : remove_clause s c = some s1) :
    watched_inv { s1 with original_clauses := s.original_clauses.erase c,
                          learned_clauses := s.learned_clauses.erase c } := by
  obtain ⟨k0, m0, m1, hne⟩ := kb_inv_remove s.vc (clause_ptrs s) s.cl s.watched c hk hc hst.1
  obtain ⟨R, e, _⟩ := remove_clause_shape s c (hk.1 c hc).1 m0 m1 hne
  rw [e] at hr
  have hs1 : s1 = _ := (Option.some.inj hr).symm
  rw [hs1]
  have hnd : (s.original_clauses ++ s.learned_clauses).Nodup := hst.1
  have hce : (clause_ptrs s).erase c = s.original_clauses.erase c ++ s.learned_clauses.erase c := by
    unfold clause_ptrs
    by_cases ho : c ∈ s.original_clauses
    · have hnl : c ∉ s.learned_clauses := fun hl => (List.nodup_append.mp hnd).2.2 ho hl
      rw [List.erase_append_left _ ho, List.erase_of_not_mem hnl]
    · rw [List.erase_append_right _ ho, List.erase_of_not_mem ho]
  show kb_inv s.vc (s.original_clauses.erase c ++ s.learned_clauses.erase c) s.cl _
  rw [← hce]
  exact k0

theorem example_loaded_entry : loop_entry 10 10 example_loaded := by
  have t2 : ((read_cnf 2 2 [[1, 2], [1, -2]]).bind
      (fun s0 => (finish_up_init_manager 10 s0).map Prod.fst)) = some true := by decide
  unfold example_loaded
  cases h0 : read_cnf 2 2 [[1, 2], [1, -2]] with
  | none =>
    rw [h0] at t2
    simp at t2
  | some s0 =>
    rw [h0] at t2
    simp only [Option.some_bind] at t2
    simp only
    cases h1 : finish_up_init_manager 10 s0 with
    | none =>
      rw [h1] at t2
      simp at t2
    | some r =>
      obtain ⟨res, s⟩ := r
      rw [h1] at t2
      simp only [Option.map_some', Option.some.injEq] at t2
      subst t2
      exact loop_entry.first 2 2 _ s0 s h0 h1

theorem example_loaded_manage : solve_manage example_loaded = some example_loaded := by
  have h1 : ¬ (example_loaded.conflicts ≥ example_loaded.next_restart_conflict) := by decide
  have h2 : example_loaded.simplify_learned_kb = 0 := rfl
  have h3 : example_loaded.learned_clauses = [] := rfl
  have h4 : example_loaded.max_learned_clauses
      = ((example_loaded.original_clauses.length / 3 : Nat) : ℚ) := rfl
  have h5 : example_loaded.original_clauses.length = 2 := rfl
  have h6 : example_loaded.assign_top = 0 := rfl
  have hr : solve_restart example_loaded = some example_loaded := by
    unfold solve_restart
    rw [if_neg h1]
  have hk : reduce_kb example_loaded = some example_loaded := by
    unfold reduce_kb
    simp only [h3, List.length_nil, if_true]
  unfold solve_manage
  rw [hr]
  simp only
  rw [if_neg (by rw [h2]; simp)]
  simp only
  rw [if_pos (by rw [h3, h4, h5, h6]; norm_num), hk]

theorem example_decided_point :
    conflict_point 10 10 example_decided ∧ example_decided.decision_level = 2 := by
  have t4 : (select_variable example_loaded).map Prod.fst = some 1 := by decide
  have t5 : ((select_variable example_loaded).bind (fun r => (set_decision 10 r.2
      (if r.2.saved r.1 = 0 ∨ r.2.save_progress = 0 then nlit r.1 else r.2.saved r.1)).map
        Prod.fst)) = some false := by decide
  have t6 : ((select_variable example_loaded).bind (fun r => (set_decision 10 r.2
      (if r.2.saved r.1 = 0 ∨ r.2.save_progress = 0 then nlit r.1 else r.2.saved r.1)).map
        (fun r5 => r5.2.decision_level))) = some 2 := by decide
  unfold example_decided
  rw [example_loaded_manage]
  simp only
  cases h4 : select_variable example_loaded with
  | none =>
    rw [h4] at t4
    simp at t4
  | some r =>
    obtain ⟨v, s4⟩ := r
    rw [h4] at t4 t5 t6
    simp only [Option.map_some', Option.some.injEq] at t4
    simp only [Option.some_bind] at t5 t6
    simp only
    cases h5 : set_decision 10 s4
        (if s4.saved v = 0 ∨ s4.save_progress = 0 then nlit v else s4.saved v) with
    | none =>
      rw [h5] at t5
      simp at t5
    | some r5 =>
      obtain ⟨res, s5⟩ := r5
      rw [h5] at t5 t6
      simp only [Option.map_some', Option.some.injEq] at t5 t6
      subst t5
      exact ⟨conflict_point.decided example_loaded example_loaded s4 s5 v example_loaded_entry
        example_loaded_manage h4 (by omega) h5, t6⟩

/-! ### The invariants of the search, over a run -/

theorem example_decided_eq :
    ∃ v s4, select_variable example_loaded = some (v, s4) ∧ v ≠ 0
      ∧ set_decision 10 s4
          (if s4.saved v = 0 ∨ s4.save_progress = 0 then nlit v else s4.saved v)
            = some (false, example_decided) := by
  have t4 : (select_variable example_loaded).map Prod.fst = some 1 := by decide
  have t5 : ((select_variable example_loaded).bind (fun r => (set_decision 10 r.2
      (if r.2.saved r.1 = 0 ∨ r.2.save_progress = 0 then nlit r.1 else r.2.saved r.1)).map
        Prod.fst)) = some false := by decide
  unfold example_decided
  rw [example_loaded_manage]
  simp only
  cases h4 : select_variable example_loaded with
  | none =>
    rw [h4] at t4
    simp at t4
  | some r =>
    obtain ⟨v, s4⟩ := r
    rw [h4] at t4 t5
    simp only [Option.map_some', Option.some.injEq] at t4
    simp only [Option.some_bind] at t5
    simp only
    cases h5 : set_decision 10 s4
        (if s4.saved v = 0 ∨ s4.save_progress = 0 then nlit v else s4.saved v) with
    | none =>
      rw [h5] at t5
      simp at t5
    | some r5 =>
      obtain ⟨res, s5⟩ := r5
      rw [h5] at t5
      simp only [Option.map_some', Option.some.injEq] at t5
      subst t5
      exact ⟨v, s4, rfl, by omega, h5⟩

theorem example_decided_analysis :
    ∃ s1, analyze_conflict example_decided example_decided.conflicting_clause
        example_decided.decision_level = some s1 ∧ s1.assertion_level ≠ 0 := by
  obtain ⟨s1, e, h1, _⟩ := conflict_step 10 example_decided
    (conflict_point_state 10 10 _ example_decided_point.1)
    (by rw [example_decided_point.2])
  exact ⟨s1, e, by omega⟩

/-- C12: in a run of the solver on a formula read by `read_cnf`, every stored
clause of size at least 2 (original or learned) is exactly once on the
watched list of its literal at position 0, exactly once on the watched list
of its literal at position 1, and on no other watched list, in the state that
`process_unit_literal_queue` (its `bcp`) and `finish_up_init_manager` return;
at every entry of the main loop of `solve`; after `simplify_original_kb` at a
restart, after `simplify_kb` and after `reduce_kb`; in the state that the
`bcp` of `set_decision` returns; after `add_conflict_clause` and in the state
that the `bcp` of `assert_conflict_clause` returns, in every iteration of the
conflict loop that goes on.  The function `remove_clause(c)`, called on a
state with the two-watched-literal invariant, leaves it for the store without
the freed clause `c` (which the calling loop drops from its array). -/
theorem watched_exactly_twice (bfuel cfuel : Nat) :
    (∀ vc cc lines s0, read_cnf vc cc lines = some s0 →
      (∀ s1 res s3, init_watched_literals s0.original_clauses s0 = some s1 →
          process_unit_literal_queue bfuel (insert_all s1.vc 1 s1) = some (res, s3) →
          watched_twice s3)
      ∧ (∀ res s, finish_up_init_manager bfuel s0 = some (res, s) → watched_twice s))
    ∧ (∀ s, loop_entry bfuel cfuel s →
        watched_twice s
        ∧ (∀ s1, solve_restart s = some s1 →
            watched_twice s1
            ∧ (∀ s2, s1.decision_level = 1 → simplify_kb s1 = some s2 →
                watched_twice s2 ∧ ∀ s3, reduce_kb s2 = some s3 → watched_twice s3)
            ∧ (∀ s3, reduce_kb s1 = some s3 → watched_twice s3))
        ∧ (∀ s3 s4 v res s5, solve_manage s = some s3 →
            select_variable s3 = some (v, s4) → v ≠ 0 →
            set_decision bfuel s4
              (if s4.saved v = 0 ∨ s4.save_progress = 0 then nlit v else s4.saved v)
                = some (res, s5) →
            watched_twice s5))
    ∧ (∀ s s1, conflict_point bfuel cfuel s →
        analyze_conflict s s.conflicting_clause s.decision_level = some s1 →
        s1.assertion_level ≠ 0 →
        (∀ c, s1.conflict_clause = some c → 1 < (s1.cl c).size →
            watched_twice (add_conflict_clause (backtrack s1 (s1.assertion_level + 1)) c))
        ∧ (∀ res s3,
            assert_conflict_clause bfuel (backtrack s1 (s1.assertion_level + 1))
              = some (res, s3) →
            watched_twice s3))
    ∧ (∀ s c s1, watched_inv s → store_inv s → c ∈ clause_ptrs s →
        remove_clause s c = some s1 →
        watched_twice { s1 with original_clauses := s.original_clauses.erase c,
                                learned_clauses := s.learned_clauses.erase c }) := by
  refine ⟨?_, ?_, ?_, ?_⟩
  · intro vc cc lines s0 h0
    obtain ⟨a, b⟩ := loader_points bfuel vc cc lines s0 h0
    exact ⟨fun s1 res s3 hw hp => (search_inv_props s3 (a s1 res s3 hw hp)).1,
      fun res s hf => (search_inv_props s (b res s hf)).1⟩
  · intro s h
    obtain ⟨a, _, c, _, e⟩ := entry_points bfuel cfuel s h
    refine ⟨(search_inv_props s a).1, ?_, ?_⟩
    · intro s1 h1
      obtain ⟨c1, c2, c3⟩ := c s1 h1
      refine ⟨(search_inv_props s1 c1).1, ?_, ?_⟩
      · intro s2 hd h2
        obtain ⟨d1, d2⟩ := c2 s2 hd h2
        exact ⟨(search_inv_props s2 d1).1, fun s3 h3 => (search_inv_props s3 (d2 s3 h3)).1⟩
      · intro s3 h3
        exact (search_inv_props s3 (c3 s3 h3)).1
    · intro s3 s4 v res s5 hm hsel hv hd
      exact (search_inv_props s5 (e s3 s4 v res s5 hm hsel hv hd)).1
  · intro s s1 h ha hne
    obtain ⟨_, b, c⟩ := conflict_points bfuel cfuel s s1 h ha hne
    exact ⟨fun k hk hsz => watched_twice_of_inv _ (b k hk hsz),
      fun res s3 h3 => (search_inv_props s3 (c res s3 h3)).1⟩
  · intro s c s1 hk hst hc hr
    exact watched_twice_of_inv _ (remove_clause_watched s c s1 hk hst hc hr)

/-- C12, witness: the formula `(1 2)(1 -2)` after loading, and the state in
which its first decision has run into a conflict. -/
theorem watched_exactly_twice_witness :
    watched_twice example_loaded ∧ watched_twice example_decided := by
  obtain ⟨v, s4, h4, hv, h5⟩ := example_decided_eq
  exact ⟨((watched_exactly_twice 10 10).2.1 example_loaded example_loaded_entry).1,
    ((watched_exactly_twice 10 10).2.1 example_loaded example_loaded_entry).2.2
      example_loaded s4 v false example_decided example_loaded_manage h4 hv h5⟩

/-- C13: in a run of the solver on a formula read by `read_cnf`, for every
assigned variable `v` of `1..vc` whose reason is a clause `C`, `C` is a
stored clause with `C.lits[0] = status[v]`, and every other literal of `C` is
false with a level at most `level[v]`.  This holds in the state that every
`bcp` returns, with or without conflict (in `process_unit_literal_queue`, in
`set_decision` and in `assert_conflict_clause`), after every `backtrack` of
`solve` (`backtrack(2)` on time-out, at a restart and when `select_variable`
has returned 0, `backtrack(assertion_level+1)` in the conflict loop), and
after `simplify_original_kb` (in `finish_up_init_manager` and at a restart),
`simplify_kb` and `reduce_kb`. -/
theorem reasons_kept (bfuel cfuel : Nat) :
    (∀ vc cc lines s0, read_cnf vc cc lines = some s0 →
      (∀ s1 res s3, init_watched_literals s0.original_clauses s0 = some s1 →
          process_unit_literal_queue bfuel (insert_all s1.vc 1 s1) = some (res, s3) →
          reasons_justified s3)
      ∧ (∀ res s, finish_up_init_manager bfuel s0 = some (res, s) → reasons_justified s))
    ∧ (∀ s, loop_entry bfuel cfuel s →
        reasons_justified (backtrack s 2)
        ∧ (∀ s1, solve_restart s = some s1 →
            reasons_justified s1
            ∧ (∀ s2, s1.decision_level = 1 → simplify_kb s1 = some s2 →
                reasons_justified s2 ∧ ∀ s3, reduce_kb s2 = some s3 → reasons_justified s3)
            ∧ (∀ s3, reduce_kb s1 = some s3 → reasons_justified s3))
        ∧ (∀ s3 s4, solve_manage s = some s3 → select_variable s3 = some (0, s4) →
            reasons_justified (backtrack s4 2))
        ∧ (∀ s3 s4 v res s5, solve_manage s = some s3 →
            select_variable s3 = some (v, s4) → v ≠ 0 →
            set_decision bfuel s4
              (if s4.saved v = 0 ∨ s4.save_progress = 0 then nlit v else s4.saved v)
                = some (res, s5) →
            reasons_justified s5))
    ∧ (∀ s s1, conflict_point bfuel cfuel s →
        analyze_conflict s s.conflicting_clause s.decision_level = some s1 →
        s1.assertion_level ≠ 0 →
        reasons_justified (backtrack s1 (s1.assertion_level + 1))
        ∧ (∀ res s3,
            assert_conflict_clause bfuel (backtrack s1 (s1.assertion_level + 1))
              = some (res, s3) →
            reasons_justified s3)) := by
  refine ⟨?_, ?_, ?_⟩
  · intro vc cc lines s0 h0
    obtain ⟨a, b⟩ := loader_points bfuel vc cc lines s0 h0
    exact ⟨fun s1 res s3 hw hp => (search_inv_props s3 (a s1 res s3 hw hp)).2.1,
      fun res s hf => (search_inv_props s (b res s hf)).2.1⟩
  · intro s h
    obtain ⟨_, b, c, d, e⟩ := entry_points bfuel cfuel s h
    refine ⟨(search_inv_props _ b).2.1, ?_, ?_, ?_⟩
    · intro s1 h1
      obtain ⟨c1, c2, c3⟩ := c s1 h1
      refine ⟨(search_inv_props s1 c1).2.1, ?_, ?_⟩
      · intro s2 hd h2
        obtain ⟨d1, d2⟩ := c2 s2 hd h2
        exact ⟨(search_inv_props s2 d1).2.1,
          fun s3 h3 => (search_inv_props s3 (d2 s3 h3)).2.1⟩
      · intro s3 h3
        exact (search_inv_props s3 (c3 s3 h3)).2.1
    · intro s3 s4 hm hsel
      exact (search_inv_props _ (d s3 s4 hm hsel)).2.1
    · intro s3 s4 v res s5 hm hsel hv hd
      exact (search_inv_props s5 (e s3 s4 v res s5 hm hsel hv hd)).2.1
  · intro s s1 h ha hne
    obtain ⟨a, _, c⟩ := conflict_points bfuel cfuel s s1 h ha hne
    exact ⟨(search_inv_props _ a).2.1, fun res s3 h3 => (search_inv_props s3 (c res s3 h3)).2.1⟩

/-- C13, witness: the formula `(1 2)(1 -2)` in the state in which its first
decision has run into a conflict, and after the `backtrack` that follows the
analysis of this conflict. -/
theorem reasons_kept_witness :
    reasons_justified example_decided
    ∧ ∃ s1, analyze_conflict example_decided example_decided.conflicting_clause
          example_decided.decision_level = some s1 ∧ s1.assertion_level ≠ 0
        ∧ reasons_justified (backtrack s1 (s1.assertion_level + 1)) := by
  obtain ⟨v, s4, h4, hv, h5⟩ := example_decided_eq
  obtain ⟨s1, ha, hne⟩ := example_decided_analysis
  exact ⟨((reasons_kept 10 10).2.1 example_loaded example_loaded_entry).2.2.2
      example_loaded s4 v false example_decided example_loaded_manage h4 hv h5,
    s1, ha, hne,
    ((reasons_kept 10 10).2.2 example_decided s1 example_decided_point.1 ha hne).1⟩

/-- C14: in a run of the solver on a formula read by `read_cnf`, no literal
is twice on the trail `assign[0..assign_top)`, every trail literal `l` has
`status[var(l)] = l` and `level[var(l)] ≤ decision_level`, and every variable
of `1..vc` with a non-zero status has its literal on the trail, in the state
that `process_unit_literal_queue` returns, in the state that every `bcp`
returns (in `set_decision` and in `assert_conflict_clause`, with or without
conflict), and after every `backtrack` of `solve` (`backtrack(2)` on time-out,
at a restart and when `select_variable` has returned 0,
`backtrack(assertion_level+1)` in the conflict loop). -/
theorem trail_kept (bfuel cfuel : Nat) :
    (∀ vc cc lines s0 s1 res s3, read_cnf vc cc lines = some s0 →
        init_watched_literals s0.original_clauses s0 = some s1 →
        process_unit_literal_queue bfuel (insert_all s1.vc 1 s1) = some (res, s3) →
        trail_ok s3)
    ∧ (∀ s, loop_entry bfuel cfuel s →
        trail_ok (backtrack s 2)
        ∧ (∀ s3 s4, solve_manage s = some s3 → select_variable s3 = some (0, s4) →
            trail_ok (backtrack s4 2))
        ∧ (∀ s3 s4 v res s5, solve_manage s = some s3 →
            select_variable s3 = some (v, s4) → v ≠ 0 →
            set_decision bfuel s4
              (if s4.saved v = 0 ∨ s4.save_progress = 0 then nlit v else s4.saved v)
                = some (res, s5) →
            trail_ok s5))
    ∧ (∀ s s1, conflict_point bfuel cfuel s →
        analyze_conflict s s.conflicting_clause s.decision_level = some s1 →
        s1.assertion_level ≠ 0 →
        trail_ok (backtrack s1 (s1.assertion_level + 1))
        ∧ (∀ res s3,
            assert_conflict_clause bfuel (backtrack s1 (s1.assertion_level + 1))
              = some (res, s3) →
            trail_ok s3)) := by
  refine ⟨?_, ?_, ?_⟩
  · intro vc cc lines s0 s1 res s3 h0 hw hp
    exact (search_inv_props s3 ((loader_points bfuel vc cc lines s0 h0).1 s1 res s3 hw hp)).2.2.1
  · intro s h
    obtain ⟨_, b, _, d, e⟩ := entry_points bfuel cfuel s h
    exact ⟨(search_inv_props _ b).2.2.1,
      fun s3 s4 hm hsel => (search_inv_props _ (d s3 s4 hm hsel)).2.2.1,
      fun s3 s4 v res s5 hm hsel hv hd =>
        (search_inv_props s5 (e s3 s4 v res s5 hm hsel hv hd)).2.2.1⟩
  · intro s s1 h ha hne
    obtain ⟨a, _, c⟩ := conflict_points bfuel cfuel s s1 h ha hne
    exact ⟨(search_inv_props _ a).2.2.1,
      fun res s3 h3 => (search_inv_props s3 (c res s3 h3)).2.2.1⟩

/-- C14, witness: the formula `(1 2)(1 -2)` in the state in which its first
decision has run into a conflict, and after the `backtrack` that follows the
analysis of this conflict. -/
theorem trail_kept_witness :
    trail_ok example_decided
    ∧ ∃ s1, analyze_conflict example_decided example_decided.conflicting_clause
          example_decided.decision_level = some s1 ∧ s1.assertion_level ≠ 0
        ∧ trail_ok (backtrack s1 (s1.assertion_level + 1)) := by
  obtain ⟨v, s4, h4, hv, h5⟩ := example_decided_eq
  obtain ⟨s1, ha, hne⟩ := example_decided_analysis
  exact ⟨((trail_kept 10 10).2.1 example_loaded example_loaded_entry).2.2
      example_loaded s4 v false example_decided example_loaded_manage h4 hv h5,
    s1, ha, hne,
    ((trail_kept 10 10).2.2 example_decided s1 example_decided_point.1 ha hne).1⟩

/-- C15: in a run of the solver on a formula read by `read_cnf`, at every
entry to the main loop of `solve` every variable `v` of `1..vc` with
`status[v] = 0` is in the variable heap (`indices[v] ≠ 0`), and so it is after
every `backtrack` of `solve`: `backtrack(2)` on time-out and at a restart
(both on the state of the loop entry), `backtrack(2)` when `select_variable`
has returned 0, and `backtrack(assertion_level+1)` in the conflict loop. -/
theorem unassigned_in_heap (bfuel cfuel : Nat) :
    (∀ s, loop_entry bfuel cfuel s →
        free_vars_in_heap s ∧ free_vars_in_heap (backtrack s 2)
        ∧ ∀ s3 s4, solve_manage s = some s3 → select_variable s3 = some (0, s4) →
            free_vars_in_heap (backtrack s4 2))
    ∧ (∀ s s1, conflict_point bfuel cfuel s →
        analyze_conflict s s.conflicting_clause s.decision_level = some s1 →
        s1.assertion_level ≠ 0 →
        free_vars_in_heap (backtrack s1 (s1.assertion_level + 1))) := by
  refine ⟨?_, ?_⟩
  · intro s h
    obtain ⟨a, b, _, d, _⟩ := entry_points bfuel cfuel s h
    exact ⟨(search_inv_props s a).2.2.2, (search_inv_props _ b).2.2.2,
      fun s3 s4 hm hsel => (search_inv_props _ (d s3 s4 hm hsel)).2.2.2⟩
  · intro s s1 h ha hne
    exact (search_inv_props _ (conflict_points bfuel cfuel s s1 h ha hne).1).2.2.2

/-- C15, witness: the formula `(1 2)(1 -2)` after loading, and after the
`backtrack` that follows the analysis of the conflict of its first
decision. -/
theorem unassigned_in_heap_witness :
    free_vars_in_heap example_loaded
    ∧ ∃ s1, analyze_conflict example_decided example_decided.conflicting_clause
          example_decided.decision_level = some s1 ∧ s1.assertion_level ≠ 0
        ∧ free_vars_in_heap (backtrack s1 (s1.assertion_level + 1)) := by
  obtain ⟨s1, ha, hne⟩ := example_decided_analysis
  exact ⟨((unassigned_in_heap 10 10).1 example_loaded example_loaded_entry).1,
    s1, ha, hne,
    (unassigned_in_heap 10 10).2 example_decided s1 example_decided_point.1 ha hne⟩

/-! ### The returns of `solve` -/

/-- How the conflict loop of `solve` is left: with `result = -2`, or with
`result = 0` in the state in which the analysis of a conflict has ended with
the assertion level 0. -/
theorem solve_conflict_loop_cases (bfuel cfuel : Nat) :
    ∀ (f : Nat) (s : my_manager) (res : Bool) (result : Int) (s1 : my_manager),
      (res = false → conflict_point bfuel cfuel s) →
      solve_conflict_loop bfuel f s res = some (result, s1) →
      result = -2
      ∨ (result = 0 ∧ ∃ c, conflict_point bfuel cfuel c
          ∧ analyze_conflict c c.conflicting_clause c.decision_level = some s1
          ∧ s1.assertion_level = 0) := by
  intro f
  induction f with
  | zero => intro s res result s1 _ h; simp [solve_conflict_loop] at h
  | succ f ih =>
    intro s res result s1 hf h
    rw [solve_conflict_loop] at h
    by_cases hr : res = true
    · rw [if_pos hr] at h
      simp only [Option.some.injEq, Prod.mk.injEq] at h
      left
      exact h.1.symm
    · rw [if_neg hr] at h
      have hcp := hf (by simpa using hr)
      cases ha : analyze_conflict s s.conflicting_clause s.decision_level with
      | none =>
        rw [ha] at h
        simp at h
      | some a =>
        rw [ha] at h
        simp only at h
        by_cases h0 : a.assertion_level = 0
        · rw [if_pos h0] at h
          simp only [Option.some.injEq, Prod.mk.injEq] at h
          right
          rw [← h.1, ← h.2]
          exact ⟨rfl, s, hcp, ha, h0⟩
        · rw [if_neg h0] at h
          cases h3 : assert_conflict_clause bfuel (backtrack a (a.assertion_level + 1)) with
          | none =>
            rw [h3] at h
            simp at h
          | some r =>
            obtain ⟨res1, s3⟩ := r
            rw [h3] at h
            simp only at h
            refine ih s3 res1 result s1 ?_ h
            intro e
            rw [e] at h3
            exact conflict_point.asserted s a s3 hcp ha h0 h3

/-- How the main loop of `solve` is left, in a run on a formula read by
`read_cnf`: on time-out after `backtrack(2)` at a loop entry, with 1 in the
state in which `select_variable` has returned 0, or with 0 in the state in
which the analysis of a conflict has ended with the assertion level 0. -/
theorem solve_loop_cases (bfuel cfuel : Nat) (time_up : Nat → Bool) :
    ∀ (fuel : Nat) (s : my_manager) (result : Int) (S : my_manager),
      loop_entry bfuel cfuel s →
      solve_loop bfuel cfuel time_up fuel s = some (result, S) →
      (result = -1 ∧ ∃ e, loop_entry bfuel cfuel e ∧ S = backtrack e 2)
      ∨ (result = 1 ∧ ∃ e s3, loop_entry bfuel cfuel e ∧ solve_manage e = some s3
          ∧ select_variable s3 = some (0, S))
      ∨ (result = 0 ∧ ∃ c, conflict_point bfuel cfuel c
          ∧ analyze_conflict c c.conflicting_clause c.decision_level = some S
          ∧ S.assertion_level = 0) := by
  intro fuel
  induction fuel with
  | zero => intro s result S _ h; simp [solve_loop] at h
  | succ f ih =>
    intro s result S he h
    rw [solve_loop] at h
    split at h
    · simp only [Option.some.injEq, Prod.mk.injEq] at h
      left
      exact ⟨h.1.symm, s, he, h.2.symm⟩
    · cases hm : solve_manage s with
      | none =>
        rw [hm] at h
        simp at h
      | some s3 =>
        rw [hm] at h
        simp only at h
        cases hsel : select_variable s3 with
        | none =>
          rw [hsel] at h
          simp at h
        | some r =>
          obtain ⟨v, s4⟩ := r
          rw [hsel] at h
          simp only at h
          by_cases hv : v = 0
          · rw [if_pos hv] at h
            simp only [Option.some.injEq, Prod.mk.injEq] at h
            right
            left
            rw [hv] at hsel
            rw [← h.2]
            exact ⟨h.1.symm, s, s3, he, hm, hsel⟩
          · rw [if_neg hv] at h
            cases hd : set_decision bfuel s4
                (if s4.saved v = 0 ∨ s4.save_progress = 0 then nlit v else s4.saved v) with
            | none =>
              rw [hd] at h
              simp at h
            | some r5 =>
              obtain ⟨res, s5⟩ := r5
              rw [hd] at h
              simp only at h
              cases hc : solve_conflict_loop bfuel cfuel s5 res with
              | none =>
                rw [hc] at h
                simp at h
              | some r6 =>
                obtain ⟨result6, s6⟩ := r6
                rw [hc] at h
                simp only at h
                by_cases h0 : result6 = 0
                · rw [if_pos h0] at h
                  simp only [Option.some.injEq, Prod.mk.injEq] at h
                  rcases solve_conflict_loop_cases bfuel cfuel cfuel s5 res result6 s6
                    (fun e => by
                      rw [e] at hd
                      exact conflict_point.decided s s3 s4 s5 v he hm hsel hv hd) hc
                    with x | ⟨_, x⟩
                  · rw [h0] at x
                    omega
                  · right
                    right
                    rw [← h.1, ← h.2]
                    exact ⟨rfl, x⟩
                · rw [if_neg h0] at h
                  exact ih s6 result S
                    (loop_entry.next s s3 s4 s5 s6 v res result6 he hm hsel hv hd hc h0) h

/-! ### The clause base operations leave the assignment alone -/

theorem kb_frame_refl (s : my_manager) : kb_frame s s := ⟨rfl, rfl, rfl, rfl, fun _ => rfl⟩

theorem kb_frame_trans (s s1 s2 : my_manager) (h1 : kb_frame s s1) (h2 : kb_frame s1 s2) :
    kb_frame s s2 :=
  ⟨h2.1.trans h1.1, h2.2.1.trans h1.2.1, h2.2.2.1.trans h1.2.2.1,
    h2.2.2.2.1.trans h1.2.2.2.1, fun c => (h2.2.2.2.2 c).trans (h1.2.2.2.2 c)⟩

theorem remove_watched_clause_kb (s : my_manager) (l c : Nat) (s1 : my_manager)
    (h : remove_watched_clause s l c = some s1) :
    kb_frame s s1 ∧ s1.original_clauses = s.original_clauses
    ∧ s1.learned_clauses = s.learned_clauses := by
  unfold remove_watched_clause at h
  split at h
  · simp at h
  · split at h
    · simp only [Option.some.injEq] at h
      rw [← h]
      exact ⟨kb_frame_refl s, rfl, rfl⟩
    · simp at h

theorem remove_clause_kb (s : my_manager) (c : Nat) (s1 : my_manager)
    (h : remove_clause s c = some s1) :
    kb_frame s s1 ∧ s1.original_clauses = s.original_clauses
    ∧ s1.learned_clauses = s.learned_clauses := by
  unfold remove_clause at h
  simp only at h
  have h0 : (fun S : my_manager => kb_frame s S ∧ S.original_clauses = s.original_clauses
      ∧ S.learned_clauses = s.learned_clauses)
      (if s.reason (var ((s.cl c).lits.getD 0 0)) = some c then
        { s with reason := (Function.update s.reason (var ((s.cl c).lits.getD 0 0)) none) }
      else if s.reason (var ((s.cl c).lits.getD 1 0)) = some c then
        { s with reason := (Function.update s.reason (var ((s.cl c).lits.getD 1 0)) none) }
      else s) := by
    split
    · exact ⟨kb_frame_refl s, rfl, rfl⟩
    · split <;> exact ⟨kb_frame_refl s, rfl, rfl⟩
  generalize (if s.reason (var ((s.cl c).lits.getD 0 0)) = some c then
        { s with reason := (Function.update s.reason (var ((s.cl c).lits.getD 0 0)) none) }
      else if s.reason (var ((s.cl c).lits.getD 1 0)) = some c then
        { s with reason := (Function.update s.reason (var ((s.cl c).lits.getD 1 0)) none) }
      else s) = sa at h0 h
  obtain ⟨hS, hO, hL⟩ := h0
  cases h2 : remove_watched_clause sa ((s.cl c).lits.getD 0 0) c with
  | none =>
    rw [h2] at h
    simp at h
  | some s2 =>
    rw [h2] at h
    simp only at h
    obtain ⟨a1, a2, a3⟩ := remove_watched_clause_kb sa _ c s2 h2
    obtain ⟨b1, b2, b3⟩ := remove_watched_clause_kb s2 _ c s1 h
    exact ⟨kb_frame_trans _ _ _ hS (kb_frame_trans _ _ _ a1 b1),
      by rw [b2, a2, hO], by rw [b3, a3, hL]⟩

theorem simplify_kb_loop_kb :
    ∀ (rest : List Nat) (i j : Nat) (s : my_manager) (kept : List Nat) (s1 : my_manager)
      (kept1 : List Nat),
      simplify_kb_loop rest i j s kept = some (s1, kept1) →
      kb_frame s s1 ∧ s1.original_clauses = s.original_clauses
      ∧ ∀ c ∈ kept1, c ∈ kept ∨ c ∈ rest := by
  intro rest
  induction rest with
  | nil =>
    intro i j s kept s1 kept1 h
    rw [simplify_kb_loop] at h
    simp only [Option.some.injEq, Prod.mk.injEq] at h
    rw [← h.1, ← h.2]
    exact ⟨kb_frame_refl s, rfl, fun c hc => Or.inl hc⟩
  | cons c rest ih =>
    intro i j s kept s1 kept1 h
    rw [simplify_kb_loop] at h
    split at h
    · cases hr : remove_clause s c with
      | none =>
        rw [hr] at h
        simp at h
      | some s2 =>
        rw [hr] at h
        simp only at h
        obtain ⟨a1, a2, _⟩ := remove_clause_kb s c s2 hr
        obtain ⟨b1, b2, b3⟩ := ih _ _ s2 kept s1 kept1 h
        refine ⟨kb_frame_trans _ _ _ a1 b1, by rw [b2, a2], ?_⟩
        intro d hd
        rcases b3 d hd with x | x
        · exact Or.inl x
        · exact Or.inr (List.mem_cons_of_mem _ x)
    · have hf : kb_frame s { s with
          cl := (Function.update s.cl c { s.cl c with index := (j : Int) }),
          learned_clause_scores :=
            (Function.update s.learned_clause_scores j (s.learned_clause_scores i)) } := by
        refine ⟨rfl, rfl, rfl, rfl, ?_⟩
        intro d
        show (Function.update s.cl c { s.cl c with index := (j : Int) } d).lits = (s.cl d).lits
        by_cases e : d = c
        · rw [e, Function.update_same]
        · rw [Function.update_noteq e]
      have h2 := ih (i + 1) (j + 1) _ (kept ++ [c]) s1 kept1 h
      obtain ⟨b1, b2, b3⟩ := h2
      refine ⟨kb_frame_trans _ _ _ hf b1, b2, ?_⟩
      intro d hd
      rcases b3 d hd with x | x
      · rcases List.mem_append.mp x with y | y
        · exact Or.inl y
        · have : d = c := by simpa using y
          rw [this]
          exact Or.inr (List.mem_cons_self _ _)
      · exact Or.inr (List.mem_cons_of_mem _ x)

theorem simplify_kb_kb (s s1 : my_manager) (h : simplify_kb s = some s1) :
    kb_frame s s1 ∧ s1.original_clauses = s.original_clauses
    ∧ ∀ c ∈ s1.learned_clauses, c ∈ s.learned_clauses := by
  unfold simplify_kb at h
  split at h
  · simp only [Option.some.injEq] at h
    rw [← h]
    exact ⟨kb_frame_refl s, rfl, fun c hc => hc⟩
  · split at h
    · simp only [Option.some.injEq] at h
      rw [← h]
      exact ⟨kb_frame_refl s, rfl, fun c hc => hc⟩
    · cases hl : simplify_kb_loop s.learned_clauses 0 0 s [] with
      | none =>
        rw [hl] at h
        simp at h
      | some r =>
        obtain ⟨s2, kept⟩ := r
        rw [hl] at h
        simp only [Option.some.injEq] at h
        obtain ⟨a1, a2, a3⟩ := simplify_kb_loop_kb _ _ _ s [] s2 kept hl
        rw [← h]
        refine ⟨a1, a2, ?_⟩
        intro c hc
        rcases a3 c hc with x | x
        · simp at x
        · exact x

theorem satisfied_congr (s s1 : my_manager) (c : Nat) (h : kb_frame s s1) :
    satisfied s1 c = satisfied s c := by
  unfold satisfied
  rw [h.2.2.2.2 c, h.2.1]

theorem simplify_original_kb_loop_kb :
    ∀ (rest : List Nat) (s : my_manager) (kept : List Nat) (s1 : my_manager)
      (kept1 : List Nat),
      simplify_original_kb_loop rest s kept = some (s1, kept1) →
      kb_frame s s1 ∧ s1.learned_clauses = s.learned_clauses
      ∧ (∀ c ∈ kept1, c ∈ kept ∨ c ∈ rest)
      ∧ (∀ c ∈ kept, c ∈ kept1)
      ∧ (∀ c ∈ rest, c ∈ kept1 ∨ satisfied s c = true) := by
  intro rest
  induction rest with
  | nil =>
    intro s kept s1 kept1 h
    rw [simplify_original_kb_loop] at h
    simp only [Option.some.injEq, Prod.mk.injEq] at h
    rw [← h.1, ← h.2]
    exact ⟨kb_frame_refl s, rfl, fun c hc => Or.inl hc, fun c hc => hc,
      fun c hc => by simp at hc⟩
  | cons c rest ih =>
    intro s kept s1 kept1 h
    rw [simplify_original_kb_loop] at h
    split at h
    · rename_i hsat
      cases hr : remove_clause s c with
      | none =>
        rw [hr] at h
        simp at h
      | some s2 =>
        rw [hr] at h
        simp only at h
        obtain ⟨a1, _, a3⟩ := remove_clause_kb s c s2 hr
        obtain ⟨b1, b2, b3, b4, b5⟩ := ih s2 kept s1 kept1 h
        refine ⟨kb_frame_trans _ _ _ a1 b1, by rw [b2, a3], ?_, b4, ?_⟩
        · intro d hd
          rcases b3 d hd with x | x
          · exact Or.inl x
          · exact Or.inr (List.mem_cons_of_mem _ x)
        · intro d hd
          rcases List.mem_cons.mp hd with x | x
          · right
            rw [x]
            exact hsat
          · rcases b5 d x with y | y
            · exact Or.inl y
            · right
              rw [← satisfied_congr s s2 d a1]
              exact y
    · obtain ⟨b1, b2, b3, b4, b5⟩ := ih s (kept ++ [c]) s1 kept1 h
      refine ⟨b1, b2, ?_, ?_, ?_⟩
      · intro d hd
        rcases b3 d hd with x | x
        · rcases List.mem_append.mp x with y | y
          · exact Or.inl y
          · have : d = c := by simpa using y
            rw [this]
            exact Or.inr (List.mem_cons_self _ _)
        · exact Or.inr (List.mem_cons_of_mem _ x)
      · intro d hd
        exact b4 d (List.mem_append_left _ hd)
      · intro d hd
        rcases List.mem_cons.mp hd with x | x
        · left
          rw [x]
          exact b4 c (List.mem_append_right _ (by simp))
        · exact b5 d x

theorem simplify_original_kb_kb (s s1 : my_manager) (h : simplify_original_kb s = some s1) :
    kb_frame s s1 ∧ s1.learned_clauses = s.learned_clauses
    ∧ (∀ c ∈ s1.original_clauses, c ∈ s.original_clauses)
    ∧ (∀ c ∈ s.original_clauses, c ∈ s1.original_clauses ∨ satisfied s c = true) := by
  unfold simplify_original_kb at h
  split at h
  · simp only [Option.some.injEq] at h
    rw [← h]
    exact ⟨kb_frame_refl s, rfl, fun c hc => hc, fun c hc => Or.inl hc⟩
  · cases hl : simplify_original_kb_loop s.original_clauses s [] with
    | none =>
      rw [hl] at h
      simp at h
    | some r =>
      obtain ⟨s2, kept⟩ := r
      rw [hl] at h
      simp only [Option.some.injEq] at h
      obtain ⟨a1, a2, a3, _, a5⟩ := simplify_original_kb_loop_kb _ s [] s2 kept hl
      rw [← h]
      refine ⟨a1, a2, ?_, a5⟩
      intro c hc
      rcases a3 c hc with x | x
      · simp at x
      · exact x

theorem reduce_kb_loop_kb (n : Nat) (extra_lim : ℚ) :
    ∀ (rest : List Nat) (i j : Nat) (s : my_manager) (kept : List Nat) (s1 : my_manager)
      (kept1 : List Nat),
      reduce_kb_loop n extra_lim rest i j s kept = some (s1, kept1) →
      kb_frame s s1 ∧ s1.original_clauses = s.original_clauses
      ∧ ∀ c ∈ kept1, c ∈ kept ∨ c ∈ rest := by
  intro rest
  induction rest with
  | nil =>
    intro i j s kept s1 kept1 h
    rw [reduce_kb_loop] at h
    simp only [Option.some.injEq, Prod.mk.injEq] at h
    rw [← h.1, ← h.2]
    exact ⟨kb_frame_refl s, rfl, fun c hc => Or.inl hc⟩
  | cons c rest ih =>
    intro i j s kept s1 kept1 h
    rw [reduce_kb_loop] at h
    split at h
    · cases hr : remove_clause s c with
      | none =>
        rw [hr] at h
        simp at h
      | some s2 =>
        rw [hr] at h
        simp only at h
        obtain ⟨a1, a2, _⟩ := remove_clause_kb s c s2 hr
        obtain ⟨b1, b2, b3⟩ := ih _ _ s2 kept s1 kept1 h
        refine ⟨kb_frame_trans _ _ _ a1 b1, by rw [b2, a2], ?_⟩
        intro d hd
        rcases b3 d hd with x | x
        · exact Or.inl x
        · exact Or.inr (List.mem_cons_of_mem _ x)
    · have hf : kb_frame s { s with
          cl := (Function.update s.cl c { s.cl c with index := (j : Int) }),
          learned_clause_scores :=
            (Function.update s.learned_clause_scores j (s.learned_clause_scores i)) } := by
        refine ⟨rfl, rfl, rfl, rfl, ?_⟩
        intro d
        show (Function.update s.cl c { s.cl c with index := (j : Int) } d).lits = (s.cl d).lits
        by_cases e : d = c
        · rw [e, Function.update_same]
        · rw [Function.update_noteq e]
      obtain ⟨b1, b2, b3⟩ := ih (i + 1) (j + 1) _ (kept ++ [c]) s1 kept1 h
      refine ⟨kb_frame_trans _ _ _ hf b1, b2, ?_⟩
      intro d hd
      rcases b3 d hd with x | x
      · rcases List.mem_append.mp x with y | y
        · exact Or.inl y
        · have : d = c := by simpa using y
          rw [this]
          exact Or.inr (List.mem_cons_self _ _)
      · exact Or.inr (List.mem_cons_of_mem _ x)

theorem reduce_kb_kb (s s1 : my_manager) (h : reduce_kb s = some s1) :
    kb_frame s s1 ∧ s1.original_clauses = s.original_clauses
    ∧ ∀ c ∈ s1.learned_clauses, c ∈ s.learned_clauses := by
  unfold reduce_kb at h
  simp only at h
  by_cases hn : s.learned_clauses.length = 0
  · rw [if_pos hn] at h
    simp only [Option.some.injEq] at h
    rw [← h]
    exact ⟨kb_frame_refl s, rfl, fun c hc => hc⟩
  · rw [if_neg hn] at h
    obtain ⟨⟨K, hK⟩, hN⟩ := next_pow2_spec s.learned_clauses.length
    rw [hK] at h hN
    obtain ⟨hp, hl⟩ := sort_clauses_by_scores_perm s.cl
      (fun i => if i < s.learned_clauses.length then s.learned_clauses.get? i else none)
      (fun i => if i < s.learned_clauses.length then s.learned_clause_scores i else -100) K
    generalize sort_clauses_by_scores s.cl
      (fun i => if i < s.learned_clauses.length then s.learned_clauses.get? i else none)
      (fun i => if i < s.learned_clauses.length then s.learned_clause_scores i else -100)
      (2 ^ K) = R at h hp hl
    split at h
    · rename_i hall
      have hperm := sorted_tail_perm s.learned_clauses (2 ^ K) hN _ hp hall
      cases hlo : reduce_kb_loop s.learned_clauses.length
          (s.clause_score_inc / (s.learned_clauses.length : ℚ))
          (List.filterMap id
            (List.map (fun kk => R.1 (2 ^ K - s.learned_clauses.length + kk))
              (List.range s.learned_clauses.length))) 0 0
          { s with
            cl := R.2.2,
            learned_clause_scores :=
              (fun kk => if kk < s.learned_clauses.length then
                R.2.1 (2 ^ K - s.learned_clauses.length + kk)
                else s.learned_clause_scores kk) } [] with
      | none =>
        rw [hlo] at h
        simp at h
      | some r =>
        obtain ⟨s2, kept⟩ := r
        rw [hlo] at h
        simp only [Option.some.injEq] at h
        obtain ⟨a1, a2, a3⟩ := reduce_kb_loop_kb _ _ _ _ _ _ [] s2 kept hlo
        rw [← h]
        refine ⟨?_, a2, ?_⟩
        · have hf0 : kb_frame s { s with
              cl := R.2.2,
              learned_clause_scores :=
                (fun kk => if kk < s.learned_clauses.length then
                  R.2.1 (2 ^ K - s.learned_clauses.length + kk)
                  else s.learned_clause_scores kk) } := ⟨rfl, rfl, rfl, rfl, hl⟩
          exact kb_frame_trans _ _ _ hf0 a1
        · intro c hc
          rcases a3 c hc with x | x
          · simp at x
          · exact (List.Perm.mem_iff hperm).mp x
    · simp at h

/-! ### Entailment and cover through the frames -/

theorem cover_frame_refl (s : my_manager) : cover_frame s s :=
  ⟨rfl, fun _ _ _ h => ⟨rfl, h⟩, fun _ hc => Or.inl ⟨hc, List.Perm.refl _⟩⟩

theorem cover_frame_trans (s s1 s2 : my_manager) (h1 : cover_frame s s1)
    (h2 : cover_frame s1 s2) : cover_frame s s2 := by
  obtain ⟨a1, a2, a3⟩ := h1
  obtain ⟨b1, b2, b3⟩ := h2
  refine ⟨b1.trans a1, ?_, ?_⟩
  · intro v hv hs hl
    obtain ⟨x1, x2⟩ := a2 v hv hs hl
    obtain ⟨y1, y2⟩ := b2 v (by rw [a1]; exact hv) (by rw [x1]; exact hs) x2
    exact ⟨y1.trans x1, y2⟩
  · intro c hc
    rcases a3 c hc with ⟨x1, x2⟩ | ⟨x, x1, x2, x3, x4⟩
    · rcases b3 c x1 with ⟨y1, y2⟩ | ⟨y, y1, y2, y3, y4⟩
      · exact Or.inl ⟨y1, y2.trans x2⟩
      · exact Or.inr ⟨y, (List.Perm.mem_iff x2).mp y1, by rw [← a1]; exact y2, y3, y4⟩
    · right
      have hv := lit_ok_var _ _ x2
      have hne : s1.status (var x) ≠ 0 := by
        rw [x3]
        have := x2.1
        omega
      obtain ⟨y1, y2⟩ := b2 (var x) (by rw [a1]; exact hv.2) hne x4
      exact ⟨x, x1, x2, by rw [y1, x3], y2⟩

/-- A cover of the formula `F`, whose literals are literals of `1..vc`, is
kept along a cover frame. -/
theorem cover_of_frame (F : List (List Nat)) (s s1 : my_manager)
    (hc : cover F s) (hf : cover_frame s s1) : cover F s1 := by
  obtain ⟨a1, a2, a3⟩ := hf
  intro C hC
  rcases hc C hC with ⟨x, x1, hx, x2, x3⟩ | ⟨x, x1, x2, x3⟩ | ⟨c, c1, c2⟩
  · left
    have hne : s.status (var x) ≠ 0 := by
      rw [x2]
      have := hx.1
      omega
    obtain ⟨y1, y2⟩ := a2 (var x) (lit_ok_var _ _ hx).2 hne x3
    exact ⟨x, x1, by rw [a1]; exact hx, by rw [y1, x2], y2⟩
  · right
    left
    exact ⟨x, x1, x2, by rw [a1]; exact x3⟩
  · rcases a3 c c1 with ⟨y1, y2⟩ | ⟨y, y1, y2, y3, y4⟩
    · right
      right
      exact ⟨c, y1, fun x hx => c2 x ((List.Perm.mem_iff y2).mp hx)⟩
    · left
      exact ⟨y, c2 y y1, by rw [a1]; exact y2, y3, y4⟩

theorem cover_frame_of_kb (s s1 : my_manager) (hf : kb_frame s s1)
    (ho : s1.original_clauses = s.original_clauses) : cover_frame s s1 := by
  obtain ⟨f1, f2, f3, _, f5⟩ := hf
  refine ⟨f1, ?_, ?_⟩
  · intro v _ _ hl
    rw [f2, f3]
    exact ⟨rfl, hl⟩
  · intro c hc
    left
    rw [ho, f5 c]
    exact ⟨hc, List.Perm.refl _⟩

theorem cover_frame_of_bcp (s s1 : my_manager) (hf : bcp_frame s s1) : cover_frame s s1 := by
  obtain ⟨f1, f2, f3, f4, f5, f6, f7, f8, f9, f10, f11, f12⟩ := hf
  refine ⟨f1, ?_, ?_⟩
  · intro v _ hs hl
    obtain ⟨a, b, _⟩ := f12 v hs
    exact ⟨a, by rw [b]; exact hl⟩
  · intro c hc
    left
    rw [f2]
    exact ⟨hc, (f11 c).1⟩

theorem cover_frame_of_undone (s s1 : my_manager) (dest : Nat) (h2 : 2 ≤ dest)
    (hf : backtrack_frame s s1) (hu : undone s s1 dest) : cover_frame s s1 := by
  obtain ⟨f1, f2, f3, _⟩ := hf
  refine ⟨f1, ?_, ?_⟩
  · intro v hv _ hl
    obtain ⟨a, b, _⟩ := hu.2 v hv (Or.inr (by omega))
    exact ⟨a, by rw [b]; exact hl⟩
  · intro c hc
    left
    rw [f3, f2]
    exact ⟨hc, List.Perm.refl _⟩

theorem cover_frame_of_same (s s1 : my_manager) (h : same_search s s1) :
    cover_frame s s1 := by
  obtain ⟨a1, a2, a3, _, _, _, _, _, a9, a10, _, _, _, _, _, a16, _⟩ := h
  refine ⟨a1, ?_, ?_⟩
  · intro v _ _ hl
    rw [a2, a3]
    exact ⟨rfl, hl⟩
  · intro c hc
    left
    rw [a9, a16 c (List.mem_append_left _ hc)]
    exact ⟨hc, List.Perm.refl _⟩

/-- The simplification of the original clauses at decision level 1 keeps the
cover: a clause it frees has a literal true at level 1. -/
theorem cover_frame_simplify_original (s s1 : my_manager) (hs : search_inv s)
    (hd : s.decision_level = 1) (h : simplify_original_kb s = some s1) :
    cover_frame s s1 := by
  obtain ⟨⟨f1, f2, f3, f4, f5⟩, _, _, a4⟩ := simplify_original_kb_kb s s1 h
  obtain ⟨hb, _, _, _, ht, _⟩ := hs
  refine ⟨f1, ?_, ?_⟩
  · intro v _ _ hl
    rw [f2, f3]
    exact ⟨rfl, hl⟩
  · intro c hc
    rcases a4 c hc with x | x
    · left
      exact ⟨x, by rw [f5 c]⟩
    · right
      unfold satisfied at x
      rw [List.any_eq_true] at x
      obtain ⟨y, y1, y2⟩ := x
      unfold lit_set at y2
      have y2 : s.status (var y) = y := by simpa using y2
      have hy := (hb.1.1 c (List.mem_append_left _ hc)).2.2 y y1
      have hne : s.status (var y) ≠ 0 := by
        rw [y2]
        have := hy.1
        omega
      obtain ⟨p, p1, p2⟩ := ht.2.1 (var y) (lit_ok_var _ _ hy).2 hne
      obtain ⟨_, _, q3, q4, _⟩ := ht.1 p p1
      rw [p2] at q3 q4
      exact ⟨y, y1, hy, by rw [f2]; exact y2, by rw [f3]; omega⟩

theorem ent_inv_of_kb (P : (Nat → Bool) → Prop) (s s1 : my_manager) (hf : kb_frame s s1)
    (hsub : ∀ c ∈ clause_ptrs s1, c ∈ clause_ptrs s) (he : ent_inv P s) : ent_inv P s1 := by
  obtain ⟨f1, f2, f3, _, f5⟩ := hf
  obtain ⟨e1, e2⟩ := he
  refine ⟨?_, ?_⟩
  · intro c hc
    rw [f5 c]
    exact e1 c (hsub c hc)
  · intro v hv hs hl
    rw [f1] at hv
    rw [f2] at hs ⊢
    rw [f3] at hl
    exact e2 v hv hs hl

theorem ent_inv_of_undone (P : (Nat → Bool) → Prop) (s s1 : my_manager) (dest : Nat)
    (hf : backtrack_frame s s1) (hu : undone s s1 dest) (he : ent_inv P s) :
    ent_inv P s1 := by
  obtain ⟨f1, f2, f3, f4, _⟩ := hf
  obtain ⟨e1, e2⟩ := he
  refine ⟨?_, ?_⟩
  · intro c hc
    rw [f2]
    apply e1 c
    unfold clause_ptrs at hc ⊢
    rw [f3, f4] at hc
    exact hc
  · intro v hv hs hl
    rw [f1] at hv
    by_cases h0 : s.status v ≠ 0 ∧ dest ≤ s.level v
    · exact absurd (hu.1 v hv h0.1 h0.2).1 hs
    · have hc : s.status v = 0 ∨ s.level v < dest := by
        by_cases x : s.status v = 0
        · exact Or.inl x
        · right
          by_contra y
          exact h0 ⟨x, by omega⟩
      obtain ⟨a, b, _⟩ := hu.2 v hv hc
      rw [a] at hs ⊢
      rw [b] at hl
      exact e2 v hv hs hl

theorem ent_inv_of_same (P : (Nat → Bool) → Prop) (s s1 : my_manager)
    (h : same_search s s1) (he : ent_inv P s) : ent_inv P s1 := by
  obtain ⟨a1, a2, a3, _, _, _, _, _, a9, a10, _, _, _, _, _, a16, _⟩ := h
  obtain ⟨e1, e2⟩ := he
  have hp : clause_ptrs s1 = clause_ptrs s := by
    unfold clause_ptrs
    rw [a9, a10]
  refine ⟨?_, ?_⟩
  · intro c hc
    rw [hp] at hc
    rw [a16 c hc]
    exact e1 c hc
  · intro v hv hs hl
    rw [a1] at hv
    rw [a2] at hs ⊢
    rw [a3] at hl
    exact e2 v hv hs hl

/-! ### Entailment and cover through the propagation -/

/-- The propagation of a literal pushed by a caller of `bcp` keeps what the
truth assignments of the class `P` satisfy, and keeps the cover. -/
theorem bcp_sound (P : (Nat → Bool) → Prop) (fuel : Nat) (s : my_manager) (l : Nat)
    (res : Bool) (s' : my_manager) (hinv : bcp_inv s) (hq : s.imp.size = 0)
    (hoff : s.stack_offset = 0)
    (hE : ∀ p, p < s.assign_top →
      lit_ok s.vc (s.assign p) ∧ s.status (var (s.assign p)) = s.assign p
      ∧ 1 ≤ s.level (var (s.assign p)) ∧ s.level (var (s.assign p)) ≤ s.decision_level
      ∧ (∀ q, q < p → var (s.assign q) ≠ var (s.assign p)
          ∧ s.level (var (s.assign q)) ≤ s.level (var (s.assign p)))
      ∧ reason_shape s p (s.reason (var (s.assign p))))
    (hA : ∀ v, v ≤ s.vc → s.status v ≠ 0 → on_trail s v s.assign_top)
    (hU : ∀ v, v ≤ s.vc → s.status v = 0 → v ≠ var l → s.level v = 0)
    (hl : lit_ok s.vc l) (hfree : s.status (var l) = 0)
    (hlv : s.level (var l) = s.decision_level) (hd1 : 1 ≤ s.decision_level)
    (hR : match s.reason (var l) with
      | none => 2 ≤ s.level (var l) →
          ∀ q, q < s.assign_top → s.level (var (s.assign q)) < s.level (var l)
      | some r => r ∈ clause_ptrs s ∧ (s.cl r).lits.getD 0 0 = l
          ∧ ∀ x ∈ (s.cl r).lits.drop 1, s.status (var x) = neg x
              ∧ on_trail s (var x) s.assign_top)
    (hm : trail_marks s s.assign_top)
    (hW : twl_lv (clause_ptrs s) s.cl (Function.update s.status (var l) l) s.level
      (undo s.score s.imp (var l)))
    (he1 : ∀ c ∈ clause_ptrs s, valid P (s.cl c).lits)
    (he2 : ∀ v, v ≤ s.vc → s.status v ≠ 0 → s.level v = 1 →
      ∀ M, P M → lit_val M (s.status v) = true)
    (hel : s.level (var l) = 1 → ∀ M, P M → lit_val M l = true)
    (h : bcp fuel s l = some (res, s')) :
    ent_inv P s' ∧ cover_frame s s' :=
  ⟨bcp_ent P fuel s l res s' hinv hq hoff hE hA hU hl hfree hlv hd1 hR hm he1 he2 hel h,
    cover_frame_of_bcp s s'
      (bcp_all_push fuel s l (clause_ptrs s) res s' hinv hq hoff (fun _ hc => hc) hE hA hU hl
        hfree hlv hd1 hR hm hW h).2.2.2.2.1⟩

/-- A decision keeps what the truth assignments of the class `P` satisfy, and
keeps the cover. -/
theorem set_decision_sound (P : (Nat → Bool) → Prop) (bfuel : Nat) (s : my_manager) (l : Nat)
    (hb : bcp_inv s) (hq : s.imp.size = 0) (hoff : s.stack_offset = 0)
    (hd1 : 1 ≤ s.decision_level) (htr : trail_inv s s.assign_top)
    (hm : trail_marks s s.assign_top)
    (htw : twl_lv (clause_ptrs s) s.cl s.status s.level s.imp)
    (hl : lit_ok s.vc l) (hfree : s.status (var l) = 0) (he : ent_inv P s)
    (res : Bool) (s5 : my_manager) (h : set_decision bfuel s l = some (res, s5)) :
    ent_inv P s5 ∧ cover_frame s s5 := by
  obtain ⟨t1, t2, t3⟩ := htr
  unfold set_decision at h
  obtain ⟨m, em⟩ := set_decision_start_shape s l
  rw [em] at h
  have hnt : ∀ p, p < s.assign_top → var (s.assign p) ≠ var l := by
    intro p hp e
    obtain ⟨a1, a2, _⟩ := t1 p hp
    rw [e, hfree] at a2
    have := a1.1
    omega
  have hres := bcp_sound P bfuel
    { s with
      max_decision_level := m,
      decision_level := s.decision_level + 1,
      decisions := s.decisions + 1,
      level := (Function.update s.level (var l) (s.decision_level + 1)),
      reason := (Function.update s.reason (var l) none),
      decision_lit := (Function.update s.decision_lit (s.decision_level + 1)
        s.assign_top) } l res s5 hb hq hoff ?_ t2 ?_ hl hfree ?_ ?_ ?_ ?_ ?_ he.1 ?_ ?_ h
  · obtain ⟨r1, r2⟩ := hres
    refine ⟨r1, cover_frame_trans _ _ _ ?_ r2⟩
    refine ⟨rfl, ?_, fun c hc => Or.inl ⟨hc, List.Perm.refl _⟩⟩
    intro v _ hs hl1
    refine ⟨rfl, ?_⟩
    show Function.update s.level (var l) (s.decision_level + 1) v = 1
    have hne : v ≠ var l := by
      intro e
      rw [e] at hs
      exact hs hfree
    rw [Function.update_noteq hne]
    exact hl1
  · intro p hp
    have hp : p < s.assign_top := hp
    obtain ⟨a1, a2, a3, a4, a5, a6⟩ := t1 p hp
    have hne := hnt p hp
    show lit_ok s.vc (s.assign p) ∧ s.status (var (s.assign p)) = s.assign p
      ∧ 1 ≤ Function.update s.level (var l) (s.decision_level + 1) (var (s.assign p))
      ∧ Function.update s.level (var l) (s.decision_level + 1) (var (s.assign p))
          ≤ s.decision_level + 1
      ∧ (∀ q, q < p → var (s.assign q) ≠ var (s.assign p)
          ∧ Function.update s.level (var l) (s.decision_level + 1) (var (s.assign q))
            ≤ Function.update s.level (var l) (s.decision_level + 1) (var (s.assign p)))
      ∧ reason_shape _ p
          (Function.update s.reason (var l) none (var (s.assign p)))
    rw [Function.update_noteq hne, Function.update_noteq hne]
    refine ⟨a1, a2, a3, by omega, ?_, ?_⟩
    · intro q hq1
      rw [Function.update_noteq (hnt q (by omega))]
      exact a5 q hq1
    · cases hr : s.reason (var (s.assign p)) with
      | none =>
        rw [hr] at a6
        unfold reason_shape at a6 ⊢
        simp only at a6 ⊢
        rw [Function.update_noteq hne]
        intro x q hq1
        rw [Function.update_noteq (hnt q (by omega))]
        exact a6 x q hq1
      | some r =>
        rw [hr] at a6
        exact a6
  · intro u hu hs hne
    show Function.update s.level (var l) (s.decision_level + 1) u = 0
    rw [Function.update_noteq hne]
    exact t3 u hu hs
  · show Function.update s.level (var l) (s.decision_level + 1) (var l)
      = s.decision_level + 1
    rw [Function.update_same]
  · show 1 ≤ s.decision_level + 1
    omega
  · show match Function.update s.reason (var l) none (var l) with
      | none => 2 ≤ Function.update s.level (var l) (s.decision_level + 1) (var l) →
          ∀ q, q < s.assign_top →
            Function.update s.level (var l) (s.decision_level + 1) (var (s.assign q))
              < Function.update s.level (var l) (s.decision_level + 1) (var l)
      | some r => r ∈ clause_ptrs s ∧ (s.cl r).lits.getD 0 0 = l
          ∧ ∀ x ∈ (s.cl r).lits.drop 1, s.status (var x) = neg x
              ∧ on_trail s (var x) s.assign_top
    rw [Function.update_same]
    simp only
    intro _ q hq1
    rw [Function.update_same, Function.update_noteq (hnt q hq1)]
    have := (t1 q hq1).2.2.2.1
    omega
  · intro L L1 L2
    show Function.update s.decision_lit (s.decision_level + 1) s.assign_top L
        ≤ s.assign_top
      ∧ ∀ p, p < s.assign_top →
        (Function.update s.decision_lit (s.decision_level + 1) s.assign_top L ≤ p
          ↔ L ≤ Function.update s.level (var l) (s.decision_level + 1) (var (s.assign p)))
    have L2' : L ≤ s.decision_level + 1 := L2
    by_cases hL : L = s.decision_level + 1
    · rw [hL, Function.update_same]
      refine ⟨le_refl _, ?_⟩
      intro p hp
      rw [Function.update_noteq (hnt p hp)]
      have := (t1 p hp).2.2.2.1
      constructor <;> intro <;> omega
    · rw [Function.update_noteq hL]
      obtain ⟨m1, m2⟩ := hm L L1 (by omega)
      refine ⟨m1, ?_⟩
      intro p hp
      rw [Function.update_noteq (hnt p hp)]
      exact m2 p hp
  · exact twl_lv_start s.vc _ s.cl s.status s.level s.score s.imp l _ hb.1.1 hb.2.2 hl
      hfree htw
  · intro v hv hs hl1 M hM
    have hv : v ≤ s.vc := hv
    have hs : s.status v ≠ 0 := hs
    have hl1 : Function.update s.level (var l) (s.decision_level + 1) v = 1 := hl1
    have hne : v ≠ var l := by
      intro e
      rw [e] at hs
      exact hs hfree
    rw [Function.update_noteq hne] at hl1
    exact he.2 v hv hs hl1 M hM
  · intro h1
    have h1 : Function.update s.level (var l) (s.decision_level + 1) (var l) = 1 := h1
    rw [Function.update_same] at h1
    omega

/-- A decision on the variable that `select_variable` has returned keeps what
the truth assignments of the class `P` satisfy, and keeps the cover. -/
theorem set_decision_sel_sound (P : (Nat → Bool) → Prop) (bfuel : Nat) (s3 : my_manager)
    (hsol : solve_inv s3) (he : ent_inv P s3)
    (v : Nat) (s4 : my_manager) (hsel : select_variable s3 = some (v, s4)) (hv : v ≠ 0)
    (res : Bool) (s5 : my_manager)
    (h : set_decision bfuel s4
      (if s4.saved v = 0 ∨ s4.save_progress = 0 then nlit v else s4.saved v)
        = some (res, s5)) :
    ent_inv P s5 ∧ cover_frame s3 s5 := by
  obtain ⟨⟨hb, hq, hoff, hd1, htr, hm, hh, hst⟩, htw, hsv⟩ := hsol
  have hl1 : ∀ u, u ≤ s3.vc → s3.status u ≠ 0 → s3.level u ≠ 0 := by
    intro u hu hs
    obtain ⟨p, p1, p2⟩ := htr.2.1 u hu hs
    obtain ⟨_, _, a3, _⟩ := htr.1 p p1
    rw [p2] at a3
    omega
  obtain ⟨e4, g1, g2, _, g4⟩ := select_variable_spec s3 v s4 hh hl1 htr.2.2 hsel
  obtain ⟨v1, v2, v3, v4⟩ := g4 hv
  generalize hlit : (if s4.saved v = 0 ∨ s4.save_progress = 0 then nlit v else s4.saved v)
    = l at h
  have hs4 : s4.saved = s3.saved := by rw [e4]
  have hvl : var l = v := by
    rw [← hlit]
    split
    · rw [var_eq, nlit_eq]; omega
    · rename_i hne
      have : s4.saved v ≠ 0 := fun e => hne (Or.inl e)
      rw [hs4] at this ⊢
      exact hsv v this
  have hl : lit_ok s3.vc l := by
    have hl0 : l ≠ 0 := by
      rw [← hlit]
      split
      · rw [nlit_eq]; omega
      · rename_i hne
        exact fun e => hne (Or.inl e)
    rw [var_eq] at hvl
    unfold lit_ok
    omega
  have hres := set_decision_sound P bfuel s4 l ?_ ?_ ?_ ?_ ?_ ?_ ?_ ?_ ?_ ?_ res s5 h
  · obtain ⟨r1, r2⟩ := hres
    refine ⟨r1, ?_⟩
    rw [e4] at r2
    exact r2
  · rw [e4]; exact hb
  · rw [e4]; exact hq
  · rw [e4]; exact hoff
  · rw [e4]; exact hd1
  · rw [e4]; exact htr
  · rw [e4]; exact hm
  · rw [e4]; exact htw
  · have : s4.vc = s3.vc := by rw [e4]
    rw [this]; exact hl
  · have e2 : s4.status = s3.status := by rw [e4]
    rw [e2, hvl]; exact v3
  · rw [e4]; exact he

/-- The literal at position 0 of a clause valid in `P` is true in every
assignment of `P` when the other literals are false at level 1. -/
theorem asserted_entailed (P : (Nat → Bool) → Prop) (s : my_manager) (L1 : List Nat)
    (htr : trail_inv s s.assign_top) (he : ent_inv P s) (hv : valid P L1)
    (hok : ∀ x ∈ L1, lit_ok s.vc x)
    (hfalse : ∀ x ∈ L1, x ≠ L1.getD 0 0 → s.status (var x) = neg x ∧ s.level (var x) ≤ 1) :
    ∀ M, P M → lit_val M (L1.getD 0 0) = true := by
  intro M hM
  obtain ⟨x, x1, x2⟩ := hv M hM
  by_cases e : x = L1.getD 0 0
  · rw [← e]
    exact x2
  · exfalso
    obtain ⟨y1, y2⟩ := hfalse x x1 e
    have hx := hok x x1
    have hne : s.status (var x) ≠ 0 := by
      rw [y1]
      exact neg_ne_zero _ hx.1
    obtain ⟨p, p1, p2⟩ := htr.2.1 (var x) (lit_ok_var _ _ hx).2 hne
    obtain ⟨_, _, q3, _⟩ := htr.1 p p1
    rw [p2] at q3
    have := he.2 (var x) (lit_ok_var _ _ hx).2 hne (by omega) M hM
    rw [y1, lit_val_neg, x2] at this
    simp at this

/-- The propagation in `assert_conflict_clause` for a learned clause of size
at least 2 that is valid in `P`: what the assignments of `P` satisfy is kept,
and so is the cover. -/
theorem assert_clause_sound (P : (Nat → Bool) → Prop) (fuel : Nat) (s S : my_manager)
    (c : Nat) (ix : Int)
    (L1 : List Nat) (res : Bool) (s5 : my_manager) (hsol : solve_inv s)
    (e_vc : S.vc = s.vc) (e_st : S.status = s.status) (e_as : S.assign = s.assign)
    (e_top : S.assign_top = s.assign_top) (e_dl : S.decision_level = s.decision_level)
    (e_dlit : S.decision_lit = s.decision_lit) (e_imp : S.imp = s.imp)
    (e_off : S.stack_offset = s.stack_offset)
    (e_orig : S.original_clauses = s.original_clauses)
    (e_lv : S.level = Function.update s.level (var (L1.getD 0 0)) s.decision_level)
    (e_rs : S.reason = Function.update s.reason (var (L1.getD 0 0)) (some c))
    (e_cl : S.cl = Function.update s.cl c { index := ix, lits := L1 })
    (e_w : S.watched = Function.update
        (Function.update s.watched (watched_index (L1.getD 0 0))
          (s.watched (watched_index (L1.getD 0 0)) ++ [c]))
        (watched_index (L1.getD 1 0))
        ((Function.update s.watched (watched_index (L1.getD 0 0))
          (s.watched (watched_index (L1.getD 0 0)) ++ [c]))
          (watched_index (L1.getD 1 0)) ++ [c]))
    (e_lc : S.learned_clauses = s.learned_clauses ++ [c])
    (hc : c ∉ clause_ptrs s)
    (hlen : 2 ≤ L1.length) (hnd : (L1.map var).Nodup) (hok : ∀ x ∈ L1, lit_ok s.vc x)
    (hfree : s.status (var (L1.getD 0 0)) = 0)
    (hfalse : ∀ x ∈ L1, x ≠ L1.getD 0 0 →
      s.status (var x) = neg x ∧ s.level (var x) ≤ s.decision_level)
    (hl1 : s.level (var (L1.getD 1 0)) = s.decision_level)
    (he : ent_inv P s) (hval : valid P L1)
    (h : bcp fuel S (L1.getD 0 0) = some (res, s5)) :
    ent_inv P s5 ∧ cover_frame s s5 := by
  obtain ⟨⟨hb, hq, hoff, hd1, htr, hm, hh, hst⟩, htw, hsv⟩ := hsol
  have hndl : L1.Nodup := List.Nodup.of_map var hnd
  have e0 : L1.getD 0 0 = L1.get ⟨0, by omega⟩ := by
    rw [List.getD_eq_getElem _ _ (by omega)]; rfl
  have e1 : L1.getD 1 0 = L1.get ⟨1, by omega⟩ := by
    rw [List.getD_eq_getElem _ _ (by omega)]; rfl
  have m0 : L1.getD 0 0 ∈ L1 := by rw [e0]; exact List.get_mem L1 0 (by omega)
  have m1 : L1.getD 1 0 ∈ L1 := by rw [e1]; exact List.get_mem L1 1 (by omega)
  have hl := hok _ m0
  have hne01 : L1.getD 1 0 ≠ L1.getD 0 0 := by
    rw [e0, e1]
    intro e
    have := (List.Nodup.get_inj_iff hndl).mp e
    simp at this
  have hv01 : var (L1.getD 1 0) ≠ var (L1.getD 0 0) := by
    intro e
    have := hfalse _ m1 hne01
    rw [e, hfree] at this
    exact neg_ne_zero _ (hok _ m1).1 this.1.symm
  have hp : clause_ptrs S = clause_ptrs s ++ [c] := by
    unfold clause_ptrs
    rw [e_orig, e_lc, List.append_assoc]
  have hcp : ∀ r ∈ clause_ptrs s, r ∈ clause_ptrs S ∧ (S.cl r).lits = (s.cl r).lits := by
    intro r hr
    rw [hp, e_cl]
    refine ⟨List.mem_append_left _ hr, ?_⟩
    rw [Function.update_noteq]
    intro e
    rw [e] at hr
    exact hc hr
  have hcS : c ∈ clause_ptrs S := by rw [hp]; exact List.mem_append_right _ (by simp)
  have hclc : (S.cl c).lits = L1 := by rw [e_cl, Function.update_same]
  obtain ⟨hE, hA, hU, hM⟩ := assert_entries s S (L1.getD 0 0) s.decision_level htr hm e_vc e_st
    e_as e_top e_dl e_dlit e_lv
    (fun v hv => by rw [e_rs, Function.update_noteq hv]) hcp hfree
  have hres := bcp_sound P fuel S (L1.getD 0 0) res s5 ?_ (by rw [e_imp]; exact hq)
    (by rw [e_off]; exact hoff) hE hA hU (by rw [e_vc]; exact hl) (by rw [e_st]; exact hfree)
    (by rw [e_lv, e_dl, Function.update_same]) (by rw [e_dl]; exact hd1) ?_ hM ?_ ?_ ?_ ?_ h
  · obtain ⟨r1, r2⟩ := hres
    refine ⟨r1, cover_frame_trans _ _ _ ?_ r2⟩
    refine ⟨e_vc, ?_, ?_⟩
    · intro v _ hs hlv
      rw [e_st, e_lv]
      refine ⟨rfl, ?_⟩
      have hne : v ≠ var (L1.getD 0 0) := by
        intro e
        rw [e] at hs
        exact hs hfree
      rw [Function.update_noteq hne]
      exact hlv
    · intro d hd
      left
      rw [e_orig, (hcp d (List.mem_append_left _ hd)).2]
      exact ⟨hd, List.Perm.refl _⟩
  · refine ⟨?_, by rw [e_vc, e_st]; exact hb.2.1, by rw [e_vc, e_st, e_imp]; exact hb.2.2⟩
    unfold watched_inv
    rw [hp, e_vc, e_cl, e_w]
    exact kb_inv_add s.vc _ s.cl s.watched c ix L1 hb.1 hc hlen hndl hok
  · rw [e_rs, Function.update_same]
    simp only
    refine ⟨hcS, by rw [hclc], ?_⟩
    intro x hx
    rw [hclc] at hx
    obtain ⟨x1, x2⟩ := mem_drop_one L1 x hndl hx
    obtain ⟨y1, _⟩ := hfalse x x1 x2
    rw [e_st]
    refine ⟨y1, ?_⟩
    apply hA
    · rw [e_vc]; exact (lit_ok_var _ _ (hok x x1)).2
    · rw [e_st, y1]
      exact neg_ne_zero _ (hok x x1).1
  · rw [hp, e_st, e_lv, e_imp]
    have hold := twl_lv_start s.vc (clause_ptrs s) s.cl s.status s.level S.score s.imp
      (L1.getD 0 0) s.decision_level hb.1.1 hb.2.2 hl hfree htw
    intro c1 hc1
    rcases List.mem_append.mp hc1 with x | x
    · rw [(hcp c1 x).2]
      exact hold c1 x
    · have : c1 = c := by simpa using x
      rw [this, hclc]
      refine ⟨?_, ?_⟩
      · intro hs
        rw [Function.update_same] at hs
        exact absurd hs.symm (neg_ne _)
      · intro _
        right
        rw [Function.update_same, Function.update_same, Function.update_noteq hv01, hl1]
        exact ⟨rfl, le_refl _⟩
  · intro c1 hc1
    rw [hp] at hc1
    rcases List.mem_append.mp hc1 with x | x
    · rw [(hcp c1 x).2]
      exact he.1 c1 x
    · have : c1 = c := by simpa using x
      rw [this, hclc]
      exact hval
  · intro v hv hs hlv M hM
    rw [e_vc] at hv
    rw [e_st] at hs ⊢
    have hne : v ≠ var (L1.getD 0 0) := by
      intro e
      rw [e] at hs
      exact hs hfree
    rw [e_lv, Function.update_noteq hne] at hlv
    exact he.2 v hv hs hlv M hM
  · intro hlv
    rw [e_lv, Function.update_same] at hlv
    exact asserted_entailed P s L1 htr he hval hok
      (fun x x1 x2 => by
        have := hfalse x x1 x2
        rw [hlv] at this
        exact this)

/-- The propagation in `assert_conflict_clause` for a learned unit clause
that is valid in `P`. -/
theorem assert_unit_sound (P : (Nat → Bool) → Prop) (fuel : Nat) (s S : my_manager) (l : Nat)
    (res : Bool) (s5 : my_manager) (hsol : solve_inv s)
    (e_vc : S.vc = s.vc) (e_st : S.status = s.status) (e_as : S.assign = s.assign)
    (e_top : S.assign_top = s.assign_top) (e_dl : S.decision_level = s.decision_level)
    (e_dlit : S.decision_lit = s.decision_lit) (e_imp : S.imp = s.imp)
    (e_off : S.stack_offset = s.stack_offset)
    (e_orig : S.original_clauses = s.original_clauses)
    (e_lc : S.learned_clauses = s.learned_clauses) (e_w : S.watched = s.watched)
    (e_lv : S.level = Function.update s.level (var l) s.decision_level)
    (e_rs : S.reason = Function.update s.reason (var l) none)
    (e_cl : ∀ r ∈ clause_ptrs s, (S.cl r).lits = (s.cl r).lits)
    (hl : lit_ok s.vc l) (hfree : s.status (var l) = 0) (hdl : s.decision_level = 1)
    (he : ent_inv P s) (hval : ∀ M, P M → lit_val M l = true)
    (h : bcp fuel S l = some (res, s5)) :
    ent_inv P s5 ∧ cover_frame s s5 := by
  obtain ⟨⟨hb, hq, hoff, hd1, htr, hm, hh, hst⟩, htw, hsv⟩ := hsol
  have hp : clause_ptrs S = clause_ptrs s := by
    unfold clause_ptrs
    rw [e_orig, e_lc]
  have hcp : ∀ r ∈ clause_ptrs s, r ∈ clause_ptrs S ∧ (S.cl r).lits = (s.cl r).lits := by
    intro r hr
    rw [hp]
    exact ⟨hr, e_cl r hr⟩
  obtain ⟨hE, hA, hU, hM⟩ := assert_entries s S l s.decision_level htr hm e_vc e_st
    e_as e_top e_dl e_dlit e_lv
    (fun v hv => by rw [e_rs, Function.update_noteq hv]) hcp hfree
  have hres := bcp_sound P fuel S l res s5 ?_ (by rw [e_imp]; exact hq)
    (by rw [e_off]; exact hoff) hE hA hU (by rw [e_vc]; exact hl) (by rw [e_st]; exact hfree)
    (by rw [e_lv, e_dl, Function.update_same]) (by rw [e_dl]; exact hd1) ?_ hM ?_ ?_ ?_
    (fun _ => hval) h
  · obtain ⟨r1, r2⟩ := hres
    refine ⟨r1, cover_frame_trans _ _ _ ?_ r2⟩
    refine ⟨e_vc, ?_, ?_⟩
    · intro v _ hs hlv
      rw [e_st, e_lv]
      refine ⟨rfl, ?_⟩
      have hne : v ≠ var l := by
        intro e
        rw [e] at hs
        exact hs hfree
      rw [Function.update_noteq hne]
      exact hlv
    · intro d hd
      left
      rw [e_orig, e_cl d (List.mem_append_left _ hd)]
      exact ⟨hd, List.Perm.refl _⟩
  · refine ⟨?_, by rw [e_vc, e_st]; exact hb.2.1, by rw [e_vc, e_st, e_imp]; exact hb.2.2⟩
    unfold watched_inv
    rw [hp, e_vc, e_w]
    exact kb_inv_lits_congr _ _ _ _ _ e_cl hb.1
  · rw [e_rs, Function.update_same]
    simp only
    rw [e_lv, Function.update_same, hdl]
    intro h2
    omega
  · rw [hp, e_st, e_lv, e_imp]
    have hold := twl_lv_start s.vc (clause_ptrs s) s.cl s.status s.level S.score s.imp
      l s.decision_level hb.1.1 hb.2.2 hl hfree htw
    exact twl_lv_lits_congr _ _ _ _ _ _ e_cl hold
  · intro c1 hc1
    rw [hp] at hc1
    rw [e_cl c1 hc1]
    exact he.1 c1 hc1
  · intro v hv hs hlv M hM
    rw [e_vc] at hv
    rw [e_st] at hs ⊢
    have hne : v ≠ var l := by
      intro e
      rw [e] at hs
      exact hs hfree
    rw [e_lv, Function.update_noteq hne] at hlv
    exact he.2 v hv hs hlv M hM

/-- What `assert_conflict_clause` does after `backtrack(assertion_level+1)`
with a learned clause that is valid in `P`: what the assignments of `P`
satisfy is kept, and so is the cover. -/
theorem assert_conflict_clause_sound (P : (Nat → Bool) → Prop) (fuel : Nat) (s : my_manager)
    (c : Nat) (res : Bool)
    (s5 : my_manager) (hsol : solve_inv s) (hcc : s.conflict_clause = some c)
    (hc : c ∉ clause_ptrs s) (hL : learned_now s c)
    (he : ent_inv P s) (hval : valid P (s.cl c).lits)
    (h : assert_conflict_clause fuel s = some (res, s5)) :
    ent_inv P s5 ∧ cover_frame s s5 := by
  obtain ⟨q1, q2, q3, q4, q5, q6, q7, q8⟩ := hL
  have e0 : (s.cl c).lits.getD 0 0 = (s.cl c).lits.get ⟨0, by omega⟩ := by
    rw [List.getD_eq_getElem _ _ (by omega)]; rfl
  have m0 : (s.cl c).lits.getD 0 0 ∈ (s.cl c).lits := by
    rw [e0]; exact List.get_mem _ 0 (by omega)
  have hlev0 : s.level (var ((s.cl c).lits.getD 0 0)) = 0 :=
    hsol.1.2.2.2.2.1.2.2 _ (lit_ok_var _ _ (q2 _ m0)).2 q4
  unfold assert_conflict_clause at h
  rw [hcc] at h
  simp only at h
  by_cases hsz : (s.cl c).size > 1
  · have hsz1 : ¬ (s.cl c).size = 1 := by omega
    rw [if_pos hsz, if_pos hsz, if_neg hsz1] at h
    have hk : ∃ k, 1 ≤ k ∧ k < (s.cl c).lits.length
        ∧ s.level (var ((s.cl c).lits.getD k 0)) = s.assertion_level := by
      rcases q6 with ⟨x, _⟩ | x
      · unfold my_clause.size at hsz
        omega
      · exact x
    obtain ⟨sc, si, hp, L1, lcs, csi, e, hh, r0, r1, r3⟩ :=
      add_conflict_clause_shape s c (by rw [hlev0]; omega) hk
    rw [e] at h
    have ec : Function.update s.cl c
        { index := (s.learned_clauses.length : Int), lits := L1 } c
        = { index := (s.learned_clauses.length : Int), lits := L1 } :=
      Function.update_same _ _ _
    simp only [ec] at h
    rw [← q7] at h r3
    refine assert_clause_sound P fuel s _ c (s.learned_clauses.length : Int) L1 res s5
      hsol ?_ ?_ ?_ ?_ ?_ ?_ ?_ ?_
      ?_ ?_ ?_ ?_ ?_ ?_ hc ?_ ?_ ?_ ?_ ?_ r3 he (valid_perm P _ _ r0 hval) h
    all_goals first
      | rfl
      | skip
    · rw [List.Perm.length_eq r0]
      exact hsz
    · exact (List.Perm.map var r0).nodup_iff.mpr q3
    · intro x hx
      exact q2 x ((List.Perm.mem_iff r0).mp hx)
    · rw [r1]; exact q4
    · intro x hx hne
      rw [r1] at hne
      have := q5 x ((List.Perm.mem_iff r0).mp hx) hne
      rw [q7]
      exact this
  · have hsz1 : (s.cl c).size = 1 := by
      unfold my_clause.size at hsz ⊢
      omega
    rw [if_neg hsz, if_neg hsz, if_pos hsz1] at h
    have hal : s.assertion_level = 1 := by
      rcases q6 with ⟨_, x⟩ | ⟨k, k1, k2, _⟩
      · exact x
      · unfold my_clause.size at hsz1
        omega
    rw [← q7] at h
    have hunit : ∀ M, P M → lit_val M ((s.cl c).lits.getD 0 0) = true := by
      intro M hM
      obtain ⟨x, x1, x2⟩ := hval M hM
      have hlen : (s.cl c).lits.length = 1 := hsz1
      obtain ⟨k, k1, k2⟩ := mem_getD _ x x1
      have : k = 0 := by omega
      rw [this] at k2
      rw [k2]
      exact x2
    refine assert_unit_sound P fuel s _ ((s.cl c).lits.getD 0 0) res s5 hsol ?_ ?_ ?_
      ?_ ?_ ?_ ?_ ?_ ?_ ?_ ?_ ?_ ?_ ?_ (q2 _ m0) q4 (by rw [q7]; exact hal) he hunit h
    all_goals first
      | rfl
      | exact fun _ _ => rfl

/-- The clause that `analyze_conflict` learns from a conflict at a decision
level above 1 is valid in every class of truth assignments in which the
stored clauses are valid and the literals of level 1 true. -/
theorem analyze_conflict_sound (P : (Nat → Bool) → Prop) (s : my_manager)
    (hs : search_inv s) (hc : conflict_inv s) (h2 : 2 ≤ s.decision_level)
    (he : ent_inv P s) (s1 : my_manager)
    (h : analyze_conflict s s.conflicting_clause s.decision_level = some s1) :
    valid P (s1.cl s.alloc_next).lits := by
  obtain ⟨hb, hq, hoff, hd1, ht, hm, hh, hst⟩ := hs
  obtain ⟨c, c1, c2, c3, c4⟩ := hc
  have hinv := trail_inv_analysis s ht h2
  have hfal := conflict_falsified s c hb ht c2 c3 c4
  have htv := trail_inv_valid P s ht he
  rw [c1] at h
  have key : ∀ m : my_manager, dcc_frame s m → search_frame s m →
      (match derive_conflict_clause
          { m with conflict_level := s.decision_level, conflicts := m.conflicts + 1 } (some c)
            s.decision_level with
        | none => none
        | some (size, assertion_level, s3) =>
          if size > 0 then
            some { s3 with
              assertion_level := assertion_level,
              cl := (Function.update s3.cl s3.alloc_next
                { index := 1, lits := List.map s3.cdc (List.range size) }),
              conflict_clause := some s3.alloc_next,
              alloc_next := s3.alloc_next + 1 }
          else
            some { s3 with assertion_level := 0, conflict_clause := none }) = some s1 →
      valid P (s1.cl s.alloc_next).lits := by
    intro m hfm hsm hr
    have hfm2 : dcc_frame s
        { m with conflict_level := s.decision_level, conflicts := m.conflicts + 1 } := hfm
    have hsm2 : search_frame s
        { m with conflict_level := s.decision_level, conflicts := m.conflicts + 1 } := hsm
    obtain ⟨size, alevel, s3, hd, hf3, hs1, hL⟩ :=
      derive_conflict_clause_learned s _ c ht hfm2
        (analysis_inv_frame s _ _ hfm2 hinv) (falsified_at_frame s _ c _ hfm2 hfal) h2
    have hs3 := search_frame_trans _ _ _ hsm2 (derive_conflict_clause_search _ _ _ _ _ _ hd)
    have hv := (derive_conflict_clause_sound P _ c s.decision_level h2
      (analysis_inv_frame s _ _ hfm2 hinv) (trail_valid_frame P s _ hfm2 htv)
      (falsified_at_frame s _ c _ hfm2 hfal)
      (by
        have : ({ m with conflict_level := s.decision_level,
                         conflicts := m.conflicts + 1 } : my_manager).cl = s.cl := hfm2.2.2.2.2.1
        rw [this]
        exact he.1 c c2) size alevel s3 hd).2
    rw [hd] at hr
    simp only at hr
    rw [if_pos (by omega)] at hr
    have ea : s3.alloc_next = s.alloc_next := hs3.2.2.2.1
    have e1 := (Option.some.inj hr).symm
    rw [e1]
    show valid P (Function.update s3.cl s3.alloc_next
      { index := 1, lits := List.map s3.cdc (List.range size) } s.alloc_next).lits
    rw [ea, Function.update_same]
    exact hv
  revert h
  unfold analyze_conflict
  simp only
  by_cases hcf : s.conflicts ≥ s.next_sp_switch
  · rw [if_pos hcf]
    by_cases hsp : 1 - s.save_progress ≠ 0
    · rw [if_pos hsp]
      exact key _ ⟨rfl, rfl, rfl, rfl, rfl, rfl, rfl⟩
        ⟨rfl, rfl, rfl, rfl, rfl, rfl, rfl, rfl, rfl, rfl, fun h => ⟨h, fun _ => Iff.rfl⟩⟩
    · rw [if_neg hsp]
      exact key _ ⟨rfl, rfl, rfl, rfl, rfl, rfl, rfl⟩
        ⟨rfl, rfl, rfl, rfl, rfl, rfl, rfl, rfl, rfl, rfl, fun h => ⟨h, fun _ => Iff.rfl⟩⟩
  · rw [if_neg hcf]
    exact key _ ⟨rfl, rfl, rfl, rfl, rfl, rfl, rfl⟩ (search_frame_refl s)

/-- One iteration of the conflict loop of `solve` at a decision level above 1
keeps what the truth assignments of the class `P` satisfy, and keeps the
cover. -/
theorem conflict_step_sound (P : (Nat → Bool) → Prop) (bfuel : Nat) (s s1 : my_manager)
    (hcs : conflict_state s) (h2 : 2 ≤ s.decision_level) (he : ent_inv P s)
    (ha : analyze_conflict s s.conflicting_clause s.decision_level = some s1)
    (res : Bool) (s3 : my_manager)
    (h3 : assert_conflict_clause bfuel (backtrack s1 (s1.assertion_level + 1))
      = some (res, s3)) :
    ent_inv P s3 ∧ cover_frame s s3 := by
  have hval := analyze_conflict_sound P s hcs.1 hcs.2.2.2 h2 he s1 ha
  obtain ⟨hs, htw, hsv, hc⟩ := hcs
  obtain ⟨s1', h', hsame, a1, a2, a3⟩ := analyze_conflict_state s hs hc h2
  rw [ha] at h'
  have : s1 = s1' := Option.some.inj h'
  subst this
  obtain ⟨i1, _, i3, i4, _⟩ := same_search_inv s s1 hsame
  have hs1 := i1 hs
  have e_dl : s1.decision_level = s.decision_level := hsame.2.2.2.2.2.2.1
  obtain ⟨l1, l2, l3, l4, l5, l6, l7, l8⟩ := a3
  obtain ⟨b1, b2, b3, b4, b5⟩ := backtrack_solve_inv s1 (s1.assertion_level + 1) (by omega)
    (by rw [e_dl]; omega) hs1 (i3 htw) (i4 hsv)
  have hp : clause_ptrs (backtrack s1 (s1.assertion_level + 1)) = clause_ptrs s := by
    unfold clause_ptrs
    rw [b2.2.2.1, b2.2.2.2.1, hsame.2.2.2.2.2.2.2.2.1, hsame.2.2.2.2.2.2.2.2.2.1]
  have hL := learned_now_of_backtrack s s1 _ s.alloc_next s.decision_level
    ⟨l1, l2, l3, l4, l5, l6, l7, l8⟩ hsame.1 hsame.2.1 hsame.2.2.1 b2 b3 (by rw [b4]; omega)
  have he1 := ent_inv_of_same P s s1 hsame he
  have he2 := ent_inv_of_undone P s1 _ _ b2 b3 he1
  have hc1 := cover_frame_of_same s s1 hsame
  have hc2 := cover_frame_of_undone s1 _ (s1.assertion_level + 1) (by omega) b2 b3
  obtain ⟨r1, r2⟩ := assert_conflict_clause_sound P bfuel _ s.alloc_next res s3 b1
    (by rw [b2.2.2.2.2.2.2.2.2.2.2.2.2.1]; exact a1)
    (by
      rw [hp]
      intro hin
      have := hs.2.2.2.2.2.2.2.2 _ hin
      omega)
    hL he2 (by rw [b2.2.1]; exact hval) h3
  exact ⟨r1, cover_frame_trans _ _ _ (cover_frame_trans _ _ _ hc1 hc2) r2⟩

/-! ### Entailment and cover along the main loop -/

/-- A conflict at decision level 1 shows that the class `P` of truth
assignments is empty: every literal of the conflicting clause is false at
level 1. -/
theorem conflict_top_unsat (P : (Nat → Bool) → Prop) (s : my_manager)
    (hcs : conflict_state s) (h1 : s.decision_level < 2) (he : ent_inv P s) :
    ∀ M, ¬ P M := by
  obtain ⟨hs, _, _, c, c1, c2, c3, c4⟩ := hcs
  obtain ⟨hb, _, _, _, ht, _⟩ := hs
  intro M hM
  obtain ⟨x, hx, hv⟩ := he.1 c c2 M hM
  have hok := (hb.1.1 c c2).2.2 x hx
  have hvx := (lit_ok_var s.vc x hok).2
  have hst : s.status (var x) ≠ 0 := by
    rw [c3 x hx]
    exact neg_ne_zero x hok.1
  obtain ⟨p, p1, p2⟩ := ht.2.1 _ hvx hst
  obtain ⟨_, _, a3, a4, _⟩ := ht.1 p p1
  rw [p2] at a3 a4
  have := he.2 (var x) hvx hst (by omega) M hM
  rw [c3 x hx, lit_val_neg, hv] at this
  simp at this

/-- The conflict loop of `solve`: when it leaves with 0 no truth assignment
is in the class `P`; otherwise it leaves a state of the search that keeps
what the assignments of `P` satisfy, and keeps the cover. -/
theorem solve_conflict_loop_sound (P : (Nat → Bool) → Prop) (bfuel : Nat) :
    ∀ (f : Nat) (s : my_manager) (res : Bool) (result : Int) (s1 : my_manager),
      (res = true → solve_inv s) → (res = false → conflict_state s) → ent_inv P s →
      solve_conflict_loop bfuel f s res = some (result, s1) →
      (result = 0 ∧ ∀ M, ¬ P M)
      ∨ (result ≠ 0 ∧ solve_inv s1 ∧ ent_inv P s1 ∧ cover_frame s s1) := by
  intro f
  induction f with
  | zero => intro s res result s1 _ _ _ h; simp [solve_conflict_loop] at h
  | succ f ih =>
    intro s res result s1 ht hf he h
    rw [solve_conflict_loop] at h
    by_cases hr : res = true
    · rw [if_pos hr] at h
      simp only [Option.some.injEq, Prod.mk.injEq] at h
      right
      rw [← h.1, ← h.2]
      exact ⟨by omega, ht hr, he, cover_frame_refl s⟩
    · rw [if_neg hr] at h
      have hcs := hf (by simpa using hr)
      rcases Nat.lt_or_ge s.decision_level 2 with hlow | hhigh
      · obtain ⟨s2, e2, e3, _⟩ := analyze_conflict_top s s.conflicting_clause s.decision_level
          (by omega)
        rw [e2] at h
        simp only at h
        rw [if_pos e3] at h
        simp only [Option.some.injEq, Prod.mk.injEq] at h
        left
        exact ⟨h.1.symm, conflict_top_unsat P s hcs hlow he⟩
      · obtain ⟨s2, e2, e3, e4, _, e5⟩ := conflict_step bfuel s hcs hhigh
        rw [e2] at h
        simp only at h
        rw [if_neg (by omega)] at h
        cases h3 : assert_conflict_clause bfuel (backtrack s2 (s2.assertion_level + 1)) with
        | none =>
          rw [h3] at h
          simp at h
        | some r =>
          obtain ⟨res1, s3⟩ := r
          rw [h3] at h
          simp only at h
          obtain ⟨r1, r2, _⟩ := e5 res1 s3 h3
          obtain ⟨q1, q2⟩ := conflict_step_sound P bfuel s s2 hcs hhigh he e2 res1 s3 h3
          rcases ih s3 res1 result s1 r1 r2 q1 h with x | ⟨x1, x2, x3, x4⟩
          · exact Or.inl x
          · exact Or.inr ⟨x1, x2, x3, cover_frame_trans _ _ _ q2 x4⟩

/-- An operation on the clause base that leaves the assignment and the
literals alone, keeps the original store and deletes learned clauses only,
keeps what the assignments of `P` satisfy, and keeps the cover. -/
theorem kb_sound (P : (Nat → Bool) → Prop) (s s1 : my_manager) (hf : kb_frame s s1)
    (ho : s1.original_clauses = s.original_clauses)
    (hl : ∀ c ∈ s1.learned_clauses, c ∈ s.learned_clauses) (he : ent_inv P s) :
    ent_inv P s1 ∧ cover_frame s s1 := by
  refine ⟨ent_inv_of_kb P s s1 hf ?_ he, cover_frame_of_kb s s1 hf ho⟩
  intro c hc
  unfold clause_ptrs at hc ⊢
  rw [List.mem_append] at hc ⊢
  rcases hc with x | x
  · left
    rw [← ho]
    exact x
  · right
    exact hl c x

/-- The simplification of the original clauses at decision level 1 keeps what
the assignments of `P` satisfy, and keeps the cover. -/
theorem simplify_original_kb_sound (P : (Nat → Bool) → Prop) (s s1 : my_manager)
    (hs : search_inv s) (hd : s.decision_level = 1) (he : ent_inv P s)
    (h : simplify_original_kb s = some s1) : ent_inv P s1 ∧ cover_frame s s1 := by
  obtain ⟨hk, k1, k2, _⟩ := simplify_original_kb_kb s s1 h
  refine ⟨ent_inv_of_kb P s s1 hk ?_ he, cover_frame_simplify_original s s1 hs hd h⟩
  intro c hc
  unfold clause_ptrs at hc ⊢
  rw [List.mem_append] at hc ⊢
  rcases hc with x | x
  · left
    exact k2 c x
  · right
    rw [← k1]
    exact x

/-- The function `backtrack(2)` from a state of the search keeps what the
assignments of `P` satisfy, and keeps the cover. -/
theorem backtrack_two_sound (P : (Nat → Bool) → Prop) (s : my_manager) (h : solve_inv s)
    (he : ent_inv P s) : ent_inv P (backtrack s 2) ∧ cover_frame s (backtrack s 2) := by
  rcases Nat.lt_or_ge s.decision_level 2 with hlow | hhigh
  · have e : backtrack s 2 = s := by
      unfold backtrack
      rw [if_pos hlow]
    rw [e]
    exact ⟨he, cover_frame_refl s⟩
  · obtain ⟨_, b, c, _⟩ := backtrack_solve_inv s 2 (le_refl 2) hhigh h.1
      (twl_low_of_lv _ _ _ _ _ _ h.1.2.1 h.2.1) h.2.2
    exact ⟨ent_inv_of_undone P s _ 2 b c he, cover_frame_of_undone s _ 2 (le_refl 2) b c⟩

/-- The restart block of `solve` keeps what the assignments of `P` satisfy,
and keeps the cover. -/
theorem solve_restart_sound (P : (Nat → Bool) → Prop) (s s1 : my_manager) (h : solve_inv s)
    (he : ent_inv P s) (hr : solve_restart s = some s1) :
    ent_inv P s1 ∧ cover_frame s s1 := by
  unfold solve_restart at hr
  by_cases hc : s.conflicts ≥ s.next_restart_conflict
  · rw [if_pos hc] at hr
    simp only at hr
    obtain ⟨a, b⟩ := backtrack_two_inv s h
    obtain ⟨e1, e2⟩ := backtrack_two_sound P s h he
    have hs : search_inv
        { backtrack s 2 with
          restart := (backtrack s 2).restart + 1,
          next_restart_conflict := (backtrack s 2).conflicts
            + get_luby (backtrack s 2).luby_unit (((backtrack s 2).restart + 1 + 1).toNat) } :=
      a.1
    have he' : ent_inv P
        { backtrack s 2 with
          restart := (backtrack s 2).restart + 1,
          next_restart_conflict := (backtrack s 2).conflicts
            + get_luby (backtrack s 2).luby_unit (((backtrack s 2).restart + 1 + 1).toNat) } :=
      e1
    have hc' : cover_frame s
        { backtrack s 2 with
          restart := (backtrack s 2).restart + 1,
          next_restart_conflict := (backtrack s 2).conflicts
            + get_luby (backtrack s 2).luby_unit (((backtrack s 2).restart + 1 + 1).toNat) } :=
      e2
    obtain ⟨x1, x2⟩ := simplify_original_kb_sound P _ s1 hs b he' hr
    exact ⟨x1, cover_frame_trans _ _ _ hc' x2⟩
  · rw [if_neg hc] at hr
    simp only [Option.some.injEq] at hr
    rw [← hr]
    exact ⟨he, cover_frame_refl s⟩

/-- The part of an iteration of `solve` before the decision keeps what the
assignments of `P` satisfy, and keeps the cover. -/
theorem solve_manage_sound (P : (Nat → Bool) → Prop) (s s3 : my_manager) (h : solve_inv s)
    (he : ent_inv P s) (hm : solve_manage s = some s3) :
    ent_inv P s3 ∧ cover_frame s s3 := by
  unfold solve_manage at hm
  obtain ⟨s1, e1, h1, _⟩ := solve_restart_inv s h
  obtain ⟨q1, q2⟩ := solve_restart_sound P s s1 h he e1
  rw [e1] at hm
  simp only at hm
  by_cases hc : s1.simplify_learned_kb ≠ 0 ∧ s1.decision_level = 1
      ∧ s1.conflicts ≥ s1.num_conflicts_for_next_simplify
  · rw [if_pos hc] at hm
    obtain ⟨s2, e2, h2, _⟩ := simplify_kb_inv s1 h1 hc.2.1
    obtain ⟨k1, k2, k3⟩ := simplify_kb_kb s1 s2 e2
    obtain ⟨r1, r2⟩ := kb_sound P s1 s2 k1 k2 k3 q1
    rw [e2] at hm
    simp only at hm
    split at hm
    · obtain ⟨m1, m2, m3⟩ := reduce_kb_kb s2 s3 hm
      obtain ⟨t1, t2⟩ := kb_sound P s2 s3 m1 m2 m3 r1
      exact ⟨t1, cover_frame_trans _ _ _ q2 (cover_frame_trans _ _ _ r2 t2)⟩
    · simp only [Option.some.injEq] at hm
      rw [← hm]
      exact ⟨r1, cover_frame_trans _ _ _ q2 r2⟩
  · rw [if_neg hc] at hm
    simp only at hm
    split at hm
    · obtain ⟨m1, m2, m3⟩ := reduce_kb_kb s1 s3 hm
      obtain ⟨t1, t2⟩ := kb_sound P s1 s3 m1 m2 m3 q1
      exact ⟨t1, cover_frame_trans _ _ _ q2 t2⟩
    · simp only [Option.some.injEq] at hm
      rw [← hm]
      exact ⟨q1, q2⟩

/-- The main loop of `solve` from a state of the search: when it returns 0 no
truth assignment is in the class `P`; when it returns 1, `select_variable`
returned 0 in a state of the search that keeps the cover. -/
theorem solve_loop_sound (P : (Nat → Bool) → Prop) (bfuel cfuel : Nat) (time_up : Nat → Bool) :
    ∀ (fuel : Nat) (s : my_manager) (result : Int) (S : my_manager),
      solve_inv s → ent_inv P s →
      solve_loop bfuel cfuel time_up fuel s = some (result, S) →
      (result = 0 → ∀ M, ¬ P M)
      ∧ (result = 1 → ∃ s3, solve_inv s3 ∧ cover_frame s s3
          ∧ select_variable s3 = some (0, S)) := by
  intro fuel
  induction fuel with
  | zero => intro s result S _ _ h; simp [solve_loop] at h
  | succ f ih =>
    intro s result S hs he h
    rw [solve_loop] at h
    split at h
    · simp only [Option.some.injEq, Prod.mk.injEq] at h
      constructor
      · intro e
        omega
      · intro e
        omega
    · cases hm : solve_manage s with
      | none =>
        rw [hm] at h
        simp at h
      | some s3 =>
        rw [hm] at h
        simp only at h
        have h3 := solve_manage_inv s s3 hs hm
        obtain ⟨e3, c3⟩ := solve_manage_sound P s s3 hs he hm
        cases hsel : select_variable s3 with
        | none =>
          rw [hsel] at h
          simp at h
        | some r =>
          obtain ⟨v, s4⟩ := r
          rw [hsel] at h
          simp only at h
          by_cases hv : v = 0
          · rw [if_pos hv] at h
            simp only [Option.some.injEq, Prod.mk.injEq] at h
            rw [hv] at hsel
            rw [← h.2]
            constructor
            · intro e
              omega
            · intro _
              exact ⟨s3, h3, c3, hsel⟩
          · rw [if_neg hv] at h
            cases hd : set_decision bfuel s4
                (if s4.saved v = 0 ∨ s4.save_progress = 0 then nlit v else s4.saved v) with
            | none =>
              rw [hd] at h
              simp at h
            | some r5 =>
              obtain ⟨res, s5⟩ := r5
              rw [hd] at h
              simp only at h
              obtain ⟨a, b, _⟩ := set_decision_inv bfuel s3 h3 v s4 hsel hv res s5 hd
              obtain ⟨e5, c5⟩ := set_decision_sel_sound P bfuel s3 h3 e3 v s4 hsel hv res s5 hd
              cases hc : solve_conflict_loop bfuel cfuel s5 res with
              | none =>
                rw [hc] at h
                simp at h
              | some r6 =>
                obtain ⟨result6, s6⟩ := r6
                rw [hc] at h
                simp only at h
                rcases solve_conflict_loop_sound P bfuel cfuel s5 res result6 s6 a b e5 hc
                  with ⟨x1, x2⟩ | ⟨x1, x2, x3, x4⟩
                · rw [if_pos x1] at h
                  simp only [Option.some.injEq, Prod.mk.injEq] at h
                  constructor
                  · intro _
                    exact x2
                  · intro e
                    omega
                · rw [if_neg x1] at h
                  obtain ⟨y1, y2⟩ := ih s6 result S x2 x3 h
                  refine ⟨y1, ?_⟩
                  intro e
                  obtain ⟨s', z1, z2, z3⟩ := y2 e
                  exact ⟨s', z1, cover_frame_trans _ _ _ c3
                    (cover_frame_trans _ _ _ c5 (cover_frame_trans _ _ _ x4 z2)), z3⟩

/-- The state in which `select_variable` returns 0: every variable is
assigned, and every clause of a formula covered by the state holds a literal
that is the status of its variable. -/
theorem sat_state_true (F : List (List Nat)) (s3 S : my_manager) (hs : solve_inv s3)
    (hc : cover F s3) (hsel : select_variable s3 = some (0, S)) :
    S.vc = s3.vc ∧ (∀ v, 1 ≤ v → v ≤ S.vc → S.status v ≠ 0)
    ∧ ∀ C ∈ F, ∃ l ∈ C, S.status (var l) = l := by
  obtain ⟨⟨hb, hq, hoff, hd1, htr, hm, hh, hst⟩, htw, hsv⟩ := hs
  have hl1 : ∀ u, u ≤ s3.vc → s3.status u ≠ 0 → s3.level u ≠ 0 := by
    intro u hu hs
    obtain ⟨p, p1, p2⟩ := htr.2.1 u hu hs
    obtain ⟨_, _, a3, _⟩ := htr.1 p p1
    rw [p2] at a3
    omega
  obtain ⟨e4, _, _, g3, _⟩ := select_variable_spec s3 0 S hh hl1 htr.2.2 hsel
  have ev : S.vc = s3.vc := by rw [e4]
  have es : S.status = s3.status := by rw [e4]
  have hall := g3 rfl
  rw [ev, es]
  refine ⟨rfl, hall, ?_⟩
  have htrue : ∀ x, lit_ok s3.vc x → s3.status (var x) = x ∨ s3.status (var x) = neg x := by
    intro x hx
    rcases status_cases s3.vc s3.status hb.2.1 x hx with y | y
    · exact absurd y (hall (var x) (lit_ok_var _ _ hx).1 (lit_ok_var _ _ hx).2)
    · exact y
  intro C hC
  rcases hc C hC with ⟨x, x1, _, x2, _⟩ | ⟨x, x1, x2, x3⟩ | ⟨c, c1, c2⟩
  · exact ⟨x, x1, x2⟩
  · rcases htrue x x3 with y | y
    · exact ⟨x, x1, y⟩
    · exact ⟨neg x, x2, by rw [var_neg]; exact y⟩
  · have hcp : c ∈ clause_ptrs s3 := by
      unfold clause_ptrs
      exact List.mem_append_left _ c1
    obtain ⟨k1, _, _⟩ := hb.1.1 c hcp
    obtain ⟨w0, w1⟩ := watch_lits_ok s3.vc (clause_ptrs s3) s3.cl hb.1.1 c hcp
    have m0 : (s3.cl c).lits.getD 0 0 ∈ (s3.cl c).lits := by
      rw [List.getD_eq_getElem _ _ (by omega)]
      exact List.getElem_mem _
    have m1 : (s3.cl c).lits.getD 1 0 ∈ (s3.cl c).lits := by
      rw [List.getD_eq_getElem _ _ (by omega)]
      exact List.getElem_mem _
    rcases htrue _ w0 with y | y
    · exact ⟨_, c2 _ m0, y⟩
    · rcases (htw c hcp).1 y with z | z
      · exact absurd hq (heap_mem_size _ _ z)
      · exact ⟨_, c2 _ m1, z.1⟩

/-! ### The marks of `removable` -/

/-- C30: for every call `removable(l, minl)` that returns, whatever the number
of iterations its loop is allowed: when it returns 0 the `seen` array on
return is the `seen` array on entry, and when it returns 1 the array differs
from the one on entry only in entries changed from 0 to 1. -/
theorem removable_seen_rollback (s : my_manager) (seen : Nat → Bool) (l minl f : Nat)
    (res : Bool) (seen1 : Nat → Bool)
    (h : removable_loop s minl f seen [l] [] = some (res, seen1)) :
    (res = false → seen1 = seen)
    ∧ (res = true → ∀ v, seen1 v ≠ seen v → seen v = false ∧ seen1 v = true) := by
  obtain ⟨a, b⟩ := removable_loop_marks s minl seen l f seen [l] [] res seen1
    ⟨fun v => by simp, fun v hv => absurd hv (List.not_mem_nil v)⟩
    (fun v hv => by
      have e : v = var l := by simpa using hv
      exact Or.inl ⟨l, List.mem_cons_self _ _, e.symm⟩) h
  refine ⟨fun e => funext (a e), ?_⟩
  intro e v hne
  have hmono := (b e).1 v
  cases hs : seen v with
  | true =>
    rw [hs] at hne
    exact absurd (hmono hs) hne
  | false =>
    rw [hs] at hne
    refine ⟨rfl, ?_⟩
    cases h1 : seen1 v with
    | true => rfl
    | false => exact absurd h1 hne

/-- C30, witness: in the small instance after the decision `-2`, which
implies `-1` through the clause `(-1 2)`, the call `removable` for the
literal `-1` with no variable marked returns 0, and the call with variable 2
marked returns 1. -/
theorem removable_seen_rollback_witness :
    (∃ seen1, removable example_propagated (fun _ => false) 3 0 = some (false, seen1)
      ∧ (false = false → seen1 = fun _ => false))
    ∧ (∃ seen1, removable example_propagated (fun v => decide (v = 2)) 3 0 = some (true, seen1)
      ∧ (true = true → ∀ v, seen1 v ≠ decide (v = 2) → decide (v = 2) = false ∧ seen1 v = true)) := by
  have t1 : (removable example_propagated (fun _ => false) 3 0).map Prod.fst = some false := by
    decide
  have t2 : (removable example_propagated (fun v => decide (v = 2)) 3 0).map Prod.fst
      = some true := by decide
  constructor
  · cases h : removable example_propagated (fun _ => false) 3 0 with
    | none =>
      rw [h] at t1
      simp at t1
    | some r =>
      obtain ⟨res, seen1⟩ := r
      rw [h] at t1
      simp only [Option.map_some', Option.some.injEq] at t1
      subst t1
      exact ⟨seen1, rfl,
        (removable_seen_rollback example_propagated (fun _ => false) 3 0
          (example_propagated.vc + 2) false seen1 h).1⟩
  · cases h : removable example_propagated (fun v => decide (v = 2)) 3 0 with
    | none =>
      rw [h] at t2
      simp at t2
    | some r =>
      obtain ⟨res, seen1⟩ := r
      rw [h] at t2
      simp only [Option.map_some', Option.some.injEq] at t2
      subst t2
      exact ⟨seen1, rfl,
        (removable_seen_rollback example_propagated (fun v => decide (v = 2)) 3 0
          (example_propagated.vc + 2) true seen1 h).2⟩

/-! ### What `read_cnf` does with one clause line -/

/-- The literals that the loop `while(1)` of `read_cnf` keeps of a clause
line: when the clause is not found satisfied, the literals of unassigned
variables, in order, and no literal of the line is true; when it is found
satisfied, a literal of the line is true. -/
theorem read_literals_spec (vc : Nat) (status : Nat → Nat) :
    ∀ (line kept0 kept : List Int) (skip : Bool),
      read_literals vc status line kept0 = some (kept, skip) →
      (skip = false →
        kept = kept0 ++ line.filter (fun y => decide (status y.natAbs = 0))
        ∧ ∀ y ∈ line, 1 ≤ y.natAbs ∧ y.natAbs ≤ vc
          ∧ (status y.natAbs ≠ 0 →
              ¬ ((y < 0 ∧ status y.natAbs ≠ plit y.natAbs)
                ∨ (¬ y < 0 ∧ status y.natAbs = plit y.natAbs))))
      ∧ (skip = true →
        ∃ y ∈ line, 1 ≤ y.natAbs ∧ y.natAbs ≤ vc ∧ status y.natAbs ≠ 0
          ∧ ((y < 0 ∧ status y.natAbs ≠ plit y.natAbs)
            ∨ (¬ y < 0 ∧ status y.natAbs = plit y.natAbs))) := by
  intro line
  induction line with
  | nil =>
    intro kept0 kept skip h
    rw [read_literals] at h
    simp only [Option.some.injEq, Prod.mk.injEq] at h
    obtain ⟨e1, e2⟩ := h
    subst e1 e2
    refine ⟨fun _ => ⟨by simp, fun y hy => absurd hy (List.not_mem_nil y)⟩, ?_⟩
    intro e
    simp at e
  | cons x rest ih =>
    intro kept0 kept skip h
    rw [read_literals] at h
    simp only [var_ind_toNat] at h
    by_cases hr : x.natAbs = 0 ∨ vc < x.natAbs
    · rw [if_pos hr] at h
      simp at h
    · rw [if_neg hr] at h
      have hx : 1 ≤ x.natAbs ∧ x.natAbs ≤ vc := by omega
      by_cases h0 : status x.natAbs = 0
      · rw [if_pos h0] at h
        obtain ⟨a, b⟩ := ih _ _ _ h
        refine ⟨?_, ?_⟩
        · intro e
          obtain ⟨a1, a2⟩ := a e
          refine ⟨?_, ?_⟩
          · rw [a1, List.filter_cons_of_pos (by simpa using h0), List.append_assoc]
            rfl
          · intro y hy
            rcases List.mem_cons.mp hy with e1 | e1
            · rw [e1]
              exact ⟨hx.1, hx.2, fun hne => absurd h0 hne⟩
            · exact a2 y e1
        · intro e
          obtain ⟨y, y1, y2⟩ := b e
          exact ⟨y, List.mem_cons_of_mem _ y1, y2⟩
      · rw [if_neg h0] at h
        by_cases ht : (x < 0 ∧ status x.natAbs ≠ plit x.natAbs)
            ∨ (¬ x < 0 ∧ status x.natAbs = plit x.natAbs)
        · rw [if_pos ht] at h
          simp only [Option.some.injEq, Prod.mk.injEq] at h
          obtain ⟨e1, e2⟩ := h
          subst e1 e2
          refine ⟨fun e => by simp at e, fun _ => ?_⟩
          exact ⟨x, List.mem_cons_self _ _, hx.1, hx.2, h0, ht⟩
        · rw [if_neg ht] at h
          obtain ⟨a, b⟩ := ih _ _ _ h
          refine ⟨?_, ?_⟩
          · intro e
            obtain ⟨a1, a2⟩ := a e
            refine ⟨?_, ?_⟩
            · rw [a1, List.filter_cons_of_neg (by simpa using h0)]
            · intro y hy
              rcases List.mem_cons.mp hy with e1 | e1
              · rw [e1]
                exact ⟨hx.1, hx.2, fun _ => ht⟩
              · exact a2 y e1
          · intro e
            obtain ⟨y, y1, y2⟩ := b e
            exact ⟨y, List.mem_cons_of_mem _ y1, y2⟩

theorem dedupe_scan_one (lits : List Int) (k : Nat) :
    ∀ (n x : Nat), dedupe_scan lits k n x = 1 →
      ∃ y, x ≤ y ∧ y < x + n ∧ lits.getD y 0 = lits.getD k 0 := by
  intro n
  induction n with
  | zero =>
    intro x h
    rw [dedupe_scan] at h
    omega
  | succ n ih =>
    intro x h
    rw [dedupe_scan] at h
    split at h
    · rename_i he
      exact ⟨x, le_refl _, by omega, he⟩
    · split at h
      · omega
      · obtain ⟨y, y1, y2, y3⟩ := ih (x + 1) h
        exact ⟨y, by omega, by omega, y3⟩

/-- Every entry before the closing 0 of the buffer has its value among the
entries that the loop `while(k<=j)` of `read_cnf` retains before the last
one. -/
theorem dedupe_loop_complete (B0 : List Int) (m : Nat) (hnz : ∀ j, j < m → B0.getD j 0 ≠ 0)
    (h0 : B0.getD m 0 = 0) :
    ∀ (f k n : Nat) (B lits : List Int) (n1 : Nat),
      k + f = m + 1 → n ≤ k → B.length = m + 1 →
      (∀ i, n ≤ i → B.getD i 0 = B0.getD i 0) →
      (∀ i, i < n → (k ≤ m ∨ i + 1 < n) → ∃ j, j < m ∧ B.getD i 0 = B0.getD j 0) →
      (∀ j, j < k → j < m →
        ∃ i, i < n ∧ (k ≤ m ∨ i + 1 < n) ∧ B.getD i 0 = B0.getD j 0) →
      dedupe_loop f k n B = some (lits, n1) →
      ∀ j, j < m → ∃ i, i + 1 < n1 ∧ lits.getD i 0 = B0.getD j 0 := by
  intro f
  induction f with
  | zero =>
    intro k n B lits n1 hk hn hlen htail hret hcomp h
    rw [dedupe_loop] at h
    simp only [Option.some.injEq, Prod.mk.injEq] at h
    obtain ⟨e1, e2⟩ := h
    subst e1 e2
    intro j hj
    obtain ⟨i, i1, i2, i3⟩ := hcomp j (by omega) hj
    exact ⟨i, by omega, i3⟩
  | succ f ih =>
    intro k n B lits n1 hk hn hlen htail hret hcomp h
    rw [dedupe_loop] at h
    split at h
    · have hget : ∀ i, i ≠ n → (B.set n (B.getD k 0)).getD i 0 = B.getD i 0 := by
        intro i hi
        simp only [List.getD_eq_getElem?_getD]
        rw [List.getElem?_set_ne (Ne.symm hi)]
      have hgetn : (B.set n (B.getD k 0)).getD n 0 = B.getD k 0 := by
        simp only [List.getD_eq_getElem?_getD]
        rw [List.getElem?_set_self (by omega)]
        rfl
      refine ih (k + 1) (n + 1) _ lits n1 (by omega) (by omega)
        (by rw [List.length_set]; exact hlen) ?_ ?_ ?_ h
      · intro i hi
        rw [hget i (by omega)]
        exact htail i (by omega)
      · intro i hi hc
        by_cases e : i = n
        · rw [e, hgetn]
          refine ⟨k, by omega, htail k hn⟩
        · rw [hget i e]
          exact hret i (by omega) (Or.inl (by omega))
      · intro j hj hjm
        by_cases e : j = k
        · refine ⟨n, by omega, Or.inl (by omega), ?_⟩
          rw [hgetn, e]
          exact htail k hn
        · obtain ⟨i, i1, i2, i3⟩ := hcomp j (by omega) hjm
          refine ⟨i, by omega, Or.inr (by omega), ?_⟩
          rw [hget i (by omega)]
          exact i3
    · rename_i hs
      obtain ⟨y, _, y2, y3⟩ := dedupe_scan_one B k k 0 hs
      have hyval : ∃ j, j < m ∧ B.getD y 0 = B0.getD j 0 := by
        rcases Nat.lt_or_ge y n with c | c
        · exact hret y c (Or.inl (by omega))
        · exact ⟨y, by omega, htail y c⟩
      have hkm : k < m := by
        by_contra hc
        have ek : k = m := by omega
        obtain ⟨j, j1, j2⟩ := hyval
        rw [y3, htail k hn, ek, h0] at j2
        exact hnz j j1 j2.symm
      refine ih (k + 1) n B lits n1 (by omega) (by omega) hlen htail ?_ ?_ h
      · intro i hi _
        exact hret i hi (Or.inl (by omega))
      · intro j hj hjm
        by_cases e : j = k
        · rcases Nat.lt_or_ge y n with c | c
          · refine ⟨y, c, Or.inl (by omega), ?_⟩
            rw [y3, e]
            exact htail k hn
          · obtain ⟨i, i1, i2, i3⟩ := hcomp y (by omega) (by omega)
            refine ⟨i, i1, Or.inl (by omega), ?_⟩
            rw [i3, ← htail y c, y3, e]
            exact htail k hn
        · obtain ⟨i, i1, i2, i3⟩ := hcomp j (by omega) hjm
          exact ⟨i, i1, Or.inl (by omega), i3⟩
    · simp at h

/-- The entries of the buffer that `read_cnf` hands to its loop of duplicate
removal: the literals kept, sorted, and the closing 0. -/
theorem dedupe_buffer (kept : List Int) (hk : ∀ y ∈ kept, y ≠ 0) :
    (sort_literals kept ++ [0]).length = kept.length + 1
    ∧ (∀ j, j < kept.length → (sort_literals kept ++ [0]).getD j 0 ∈ kept)
    ∧ (∀ y ∈ kept, ∃ j, j < kept.length ∧ (sort_literals kept ++ [0]).getD j 0 = y)
    ∧ (∀ j, j < kept.length → (sort_literals kept ++ [0]).getD j 0 ≠ 0)
    ∧ (sort_literals kept ++ [0]).getD kept.length 0 = 0 := by
  have hperm := sort_literals_perm kept
  have hslen : (sort_literals kept).length = kept.length := hperm.length_eq
  have hget : ∀ j, j < kept.length →
      (sort_literals kept ++ [0]).getD j 0 ∈ kept := by
    intro j hj
    have hj2 : j < (sort_literals kept).length := by rw [hslen]; exact hj
    rw [List.getD_eq_getElem _ _ (by rw [List.length_append]; omega),
      List.getElem_append_left hj2]
    exact hperm.subset (List.getElem_mem _)
  refine ⟨by rw [List.length_append, hslen]; rfl, hget, ?_, fun j hj => hk _ (hget j hj), ?_⟩
  · intro y hy
    have hy2 : y ∈ sort_literals kept := hperm.symm.subset hy
    obtain ⟨j, hj, e⟩ := List.getElem_of_mem hy2
    refine ⟨j, by rw [← hslen]; exact hj, ?_⟩
    rw [List.getD_eq_getElem _ _ (by rw [List.length_append]; omega),
      List.getElem_append_left hj]
    exact e
  · simp only [List.getD_eq_getElem?_getD]
    rw [List.getElem?_append_right (by rw [hslen])]
    rw [hslen]
    simp

/-- The literals retained by the duplicate removal of `read_cnf` are the
literals kept: every retained literal is one of them, every one of them is
retained, and no two retained literals are of the same variable. -/
theorem dedupe_retained (kept lits : List Int) (n : Nat) (hk : ∀ y ∈ kept, y ≠ 0)
    (hd : dedupe_loop (kept.length + 1) 0 0 (sort_literals kept ++ [0]) = some (lits, n)) :
    1 ≤ n ∧ n ≤ kept.length + 1 ∧ lits.length = kept.length + 1
    ∧ (∀ y, y ∈ lits.take (n - 1) ↔ y ∈ kept)
    ∧ (∀ i1 i2, i1 < i2 → i2 + 1 < n → (lits.getD i1 0).natAbs ≠ (lits.getD i2 0).natAbs)
    ∧ (kept ≠ [] → 2 ≤ n) := by
  obtain ⟨b1, b2, b3, b4, b5⟩ := dedupe_buffer kept hk
  obtain ⟨d0, d1, d2, d3⟩ := dedupe_loop_inv (sort_literals kept ++ [0]) kept.length
    (kept.length + 1) 0 0 (sort_literals kept ++ [0]) lits n (by omega) (le_refl _)
    b1 (fun _ _ => rfl) (fun i hi => by omega) (fun i1 i2 _ h => by omega) hd
  have hc := dedupe_loop_complete (sort_literals kept ++ [0]) kept.length b4 b5
    (kept.length + 1) 0 0 (sort_literals kept ++ [0]) lits n (by omega) (le_refl _)
    b1 (fun _ _ => rfl) (fun i hi => by omega) (fun j hj => by omega) hd
  have hn1 : 1 ≤ n := by
    -- the closing 0 is always retained
    by_contra hlt
    have hn0 : n = 0 := by omega
    cases hk0 : kept with
    | nil =>
      rw [hk0] at hd
      have : dedupe_loop ([] : List Int).length.succ 0 0 (sort_literals [] ++ [0])
          = some ([0], 1) := by decide
      rw [this] at hd
      simp only [Option.some.injEq, Prod.mk.injEq] at hd
      omega
    | cons a t =>
      obtain ⟨i, i1, _⟩ := hc 0 (by rw [hk0]; simp)
      omega
  have hlen : (lits.take (n - 1)).length = n - 1 := by
    rw [List.length_take]
    omega
  refine ⟨hn1, d0, d1, ?_, fun i1 i2 h12 h2 => d3 i1 i2 h12 (by omega), ?_⟩
  · intro y
    constructor
    · intro hy
      obtain ⟨i, hi, e⟩ := List.getElem_of_mem hy
      rw [List.getElem_take] at e
      rw [hlen] at hi
      obtain ⟨j, j1, j2⟩ := d2 i (by omega)
      rw [List.getD_eq_getElem _ _ (by omega)] at j2
      rw [← e, j2]
      exact b2 j j1
    · intro hy
      obtain ⟨j, j1, j2⟩ := b3 y hy
      obtain ⟨i, i1, i2⟩ := hc j j1
      rw [← j2, ← i2]
      rw [List.getD_eq_getElem _ _ (by omega)]
      have hi : i < (lits.take (n - 1)).length := by rw [hlen]; omega
      have := List.getElem_mem hi
      rw [List.getElem_take] at this
      exact this
  · intro hne
    cases hk0 : kept with
    | nil => exact absurd hk0 hne
    | cons a t =>
      obtain ⟨i, i1, _⟩ := hc 0 (by rw [hk0]; simp)
      omega

/-- The duplicate removal of `read_cnf` leaves through `goto add_clause` when
a literal and its negation are among the literals kept. -/
theorem dedupe_tautology (kept : List Int) (x : Int) (hk : ∀ y ∈ kept, y ≠ 0)
    (hx : x ∈ kept) (hnx : -x ∈ kept) :
    dedupe_loop (kept.length + 1) 0 0 (sort_literals kept ++ [0]) = none := by
  cases hd : dedupe_loop (kept.length + 1) 0 0 (sort_literals kept ++ [0]) with
  | none => rfl
  | some r =>
    obtain ⟨lits, n⟩ := r
    exfalso
    obtain ⟨r1, r2, r3, r4, r5, _⟩ := dedupe_retained kept lits n hk hd
    have hlen : (lits.take (n - 1)).length = n - 1 := by
      rw [List.length_take]
      omega
    obtain ⟨i1, hi1, e1⟩ := List.getElem_of_mem ((r4 x).mpr hx)
    obtain ⟨i2, hi2, e2⟩ := List.getElem_of_mem ((r4 (-x)).mpr hnx)
    rw [List.getElem_take] at e1 e2
    rw [hlen] at hi1 hi2
    have g1 : lits.getD i1 0 = x := by
      rw [List.getD_eq_getElem _ _ (by omega)]; exact e1
    have g2 : lits.getD i2 0 = -x := by
      rw [List.getD_eq_getElem _ _ (by omega)]; exact e2
    have hx0 : x ≠ 0 := hk x hx
    have hne : i1 ≠ i2 := by
      intro e
      rw [e, g2] at g1
      omega
    rcases Nat.lt_or_gt_of_ne hne with c | c
    · apply r5 i1 i2 c (by omega)
      rw [g1, g2, Int.natAbs_neg]
    · apply r5 i2 i1 c (by omega)
      rw [g1, g2, Int.natAbs_neg]

theorem read_literals_total (vc : Nat) (status : Nat → Nat) :
    ∀ (line kept0 : List Int), (∀ y ∈ line, 1 ≤ y.natAbs ∧ y.natAbs ≤ vc) →
      ∃ r, read_literals vc status line kept0 = some r := by
  intro line
  induction line with
  | nil =>
    intro kept0 _
    exact ⟨_, rfl⟩
  | cons x rest ih =>
    intro kept0 h
    rw [read_literals]
    simp only [var_ind_toNat]
    have hx := h x (List.mem_cons_self _ _)
    rw [if_neg (by omega)]
    have hrest : ∀ y ∈ rest, 1 ≤ y.natAbs ∧ y.natAbs ≤ vc :=
      fun y hy => h y (List.mem_cons_of_mem _ hy)
    split
    · exact ih _ hrest
    · split
      · exact ⟨_, rfl⟩
      · exact ih _ hrest

theorem dedupe_scan_other (lits : List Int) (k : Nat) :
    ∀ (n x : Nat), dedupe_scan lits k n x ≠ 0 → dedupe_scan lits k n x ≠ 1 →
      ∃ y, x ≤ y ∧ y < x + n ∧ (lits.getD y 0).natAbs = (lits.getD k 0).natAbs
        ∧ lits.getD y 0 ≠ lits.getD k 0 := by
  intro n
  induction n with
  | zero =>
    intro x h
    rw [dedupe_scan] at h
    exact absurd rfl h
  | succ n ih =>
    intro x h0 h1
    rw [dedupe_scan] at h0 h1
    by_cases he : lits.getD x 0 = lits.getD k 0
    · rw [if_pos he] at h1
      exact absurd rfl h1
    · rw [if_neg he] at h0 h1
      by_cases ha : (lits.getD x 0).natAbs = (lits.getD k 0).natAbs
      · exact ⟨x, le_refl _, by omega, ha, he⟩
      · rw [if_neg ha] at h0 h1
        obtain ⟨y, y1, y2, y3⟩ := ih (x + 1) h0 h1
        exact ⟨y, by omega, by omega, y3⟩

/-- The duplicate removal of `read_cnf` runs to its end when no two entries of
the buffer are a literal and its negation. -/
theorem dedupe_loop_total (B0 : List Int) (m : Nat)
    (hnt : ∀ j1 j2, j1 ≤ m → j2 ≤ m → (B0.getD j1 0).natAbs = (B0.getD j2 0).natAbs →
      B0.getD j1 0 = B0.getD j2 0) :
    ∀ (f k n : Nat) (B : List Int),
      k + f = m + 1 → n ≤ k → B.length = m + 1 →
      (∀ i, n ≤ i → B.getD i 0 = B0.getD i 0) →
      (∀ i, i < n → ∃ j, j ≤ m ∧ B.getD i 0 = B0.getD j 0) →
      ∃ r, dedupe_loop f k n B = some r := by
  intro f
  induction f with
  | zero =>
    intro k n B _ _ _ _ _
    exact ⟨_, rfl⟩
  | succ f ih =>
    intro k n B hk hn hlen htail hret
    rw [dedupe_loop]
    split
    · have hget : ∀ i, i ≠ n → (B.set n (B.getD k 0)).getD i 0 = B.getD i 0 := by
        intro i hi
        simp only [List.getD_eq_getElem?_getD]
        rw [List.getElem?_set_ne (Ne.symm hi)]
      have hgetn : (B.set n (B.getD k 0)).getD n 0 = B.getD k 0 := by
        simp only [List.getD_eq_getElem?_getD]
        rw [List.getElem?_set_self (by omega)]
        rfl
      apply ih (k + 1) (n + 1) _ (by omega) (by omega) (by rw [List.length_set]; exact hlen)
      · intro i hi
        rw [hget i (by omega)]
        exact htail i (by omega)
      · intro i hi
        by_cases e : i = n
        · rw [e, hgetn]
          exact ⟨k, by omega, htail k hn⟩
        · rw [hget i e]
          exact hret i (by omega)
    · exact ih (k + 1) n B (by omega) (by omega) hlen htail hret
    · rename_i h0 h1
      exfalso
      obtain ⟨y, _, y2, y3, y4⟩ := dedupe_scan_other B k k 0 h0 h1
      have hyval : ∃ j, j ≤ m ∧ B.getD y 0 = B0.getD j 0 := by
        rcases Nat.lt_or_ge y n with c | c
        · exact hret y c
        · exact ⟨y, by omega, htail y c⟩
      obtain ⟨j, j1, j2⟩ := hyval
      rw [j2, htail k hn] at y3 y4
      exact y4 (hnt j k j1 (by omega) y3)

theorem lit_from_int_inj (x y : Int) (h : lit_from_int x = lit_from_int y) : x = y := by
  rw [lit_from_int_eq, lit_from_int_eq] at h
  split at h <;> split at h <;> omega

theorem read_clause_ok (cc : Nat) (s s1 : my_manager) (line : List Int)
    (hr : read_clause cc s line = some s1) (h0 : s.ok = 0) : s1.ok = 0 := by
  unfold read_clause at hr
  split at hr
  · simp at hr
  · split at hr
    · simp at hr
    · split at hr
      · simp only [Option.some.injEq] at hr
        rw [← hr]
        exact h0
      · split at hr
        · simp only [Option.some.injEq] at hr
          rw [← hr]
          exact h0
        · split at hr
          · simp only at hr
            split at hr
            · simp only [Option.some.injEq] at hr
              rw [← hr]
              exact h0
            · simp only [Option.some.injEq] at hr
              rw [← hr]
              exact h0
          · simp only at hr
            rename_i lits n _ _
            by_cases h1 : n = 1
            · rw [if_pos h1] at hr
              split at hr
              · simp only [Option.some.injEq] at hr
                rw [← hr]
                rfl
              · simp at hr
            · rw [if_neg h1] at hr
              split at hr
              · simp only [Option.some.injEq] at hr
                rw [← hr]
                exact h0
              · simp at hr

theorem read_clauses_ok (cc : Nat) :
    ∀ (lines : List (List Int)) (s s1 : my_manager),
      read_clauses cc lines s = some s1 → s.ok = 0 → s1.ok = 0 := by
  intro lines
  induction lines with
  | nil =>
    intro s s1 h h0
    rw [read_clauses] at h
    simp only [Option.some.injEq] at h
    rw [← h]
    exact h0
  | cons line rest ih =>
    intro s s1 h h0
    rw [read_clauses] at h
    cases hc : read_clause cc s line with
    | none =>
      rw [hc] at h
      simp at h
    | some s2 =>
      rw [hc] at h
      exact ih s2 s1 h (read_clause_ok cc s s2 line hc h0)

theorem read_clauses_append (cc : Nat) :
    ∀ (a b : List (List Int)) (s : my_manager),
      read_clauses cc (a ++ b) s
        = match read_clauses cc a s with
          | none => none
          | some s1 => read_clauses cc b s1 := by
  intro a
  induction a with
  | nil =>
    intro b s
    rfl
  | cons line rest ih =>
    intro b s
    rw [List.cons_append, read_clauses, read_clauses]
    cases hc : read_clause cc s line with
    | none => rfl
    | some s2 => exact ih b s2

/-- C25: a clause line given to `read_cnf` that holds some variable both
positively and negatively leaves the manager as it is (no clause is added to
the original store, no literal is enqueued), whatever the status of its
variables and whatever other literals and duplicates it holds. -/
theorem tautology_line_dropped (cc : Nat) (s s1 : my_manager) (line : List Int) (x : Int)
    (hx : x ∈ line) (hnx : -x ∈ line) (h : read_clause cc s line = some s1) : s1 = s := by
  unfold read_clause at h
  cases hr : read_literals s.vc s.status line [] with
  | none =>
    rw [hr] at h
    simp at h
  | some r =>
    obtain ⟨kept, skip⟩ := r
    rw [hr] at h
    simp only at h
    split at h
    · simp at h
    · by_cases hs : skip = true
      · rw [if_pos hs] at h
        exact (Option.some.inj h).symm
      · rw [if_neg hs] at h
        have hsf : skip = false := by simpa using hs
        obtain ⟨a1, a2⟩ := (read_literals_spec s.vc s.status line [] kept skip hr).1 hsf
        rw [List.nil_append] at a1
        obtain ⟨x1, x2, x3⟩ := a2 x hx
        obtain ⟨y1, y2, y3⟩ := a2 (-x) hnx
        rw [Int.natAbs_neg] at y3
        have hst : s.status x.natAbs = 0 := by
          by_contra hne
          have p := x3 hne
          have q := y3 hne
          rw [not_or, not_and_or, not_and_or] at p q
          rcases Int.lt_or_lt_of_ne (show x ≠ 0 by omega) with c | c
          · rcases p.1 with p1 | p1
            · exact p1 c
            · rcases q.2 with q1 | q1
              · exact q1 (by omega)
              · exact q1 (not_not.mp p1)
          · rcases p.2 with p1 | p1
            · exact p1 (by omega)
            · rcases q.1 with q1 | q1
              · exact q1 (by omega)
              · exact p1 (not_not.mp q1)
        have hk : ∀ y ∈ kept, y ≠ 0 := by
          intro y hy
          rw [a1] at hy
          have := (a2 y (List.mem_of_mem_filter hy)).1
          omega
        have hxk : x ∈ kept := by
          rw [a1]
          exact List.mem_filter.mpr ⟨hx, by simpa using hst⟩
        have hnxk : -x ∈ kept := by
          rw [a1]
          exact List.mem_filter.mpr ⟨hnx, by rw [Int.natAbs_neg]; simpa using hst⟩
        rw [dedupe_tautology kept x hk hxk hnxk] at h
        exact (Option.some.inj h).symm

/-- C25, witness: the line `1 -1 2 2` read into the fresh manager of two
variables. -/
theorem tautology_line_dropped_witness :
    ∃ s1, read_clause 2 (init_manager 2) [1, -1, 2, 2] = some s1 ∧ s1 = init_manager 2 := by
  have t : (read_clause 2 (init_manager 2) [1, -1, 2, 2]).isSome = true := by decide
  cases h : read_clause 2 (init_manager 2) [1, -1, 2, 2] with
  | none =>
    rw [h] at t
    simp at t
  | some s1 =>
    exact ⟨s1, rfl, tautology_line_dropped 2 (init_manager 2) s1 [1, -1, 2, 2] 1
      (by decide) (by decide) h⟩

/-- C26: a clause line whose variables are all unassigned variables of
`1..vc` when it is read, that holds no literal together with its negation and
at least two distinct literals (and fits the literal buffer and the array of
original clauses), is stored by `read_cnf` through `init_clause` as a new
original clause: its literals are pairwise distinct, they are exactly the
literals of the line, and its size is the number of distinct literals of the
line; nothing is enqueued. -/
theorem stored_clause_literals (cc : Nat) (s : my_manager) (line : List Int)
    (hall : ∀ y ∈ line, 1 ≤ y.natAbs ∧ y.natAbs ≤ s.vc ∧ s.status y.natAbs = 0)
    (hnt : ∀ y ∈ line, -y ∉ line)
    (h2 : 2 ≤ (line.map lit_from_int).toFinset.card)
    (hlen : line.length ≤ 1024) (hcc : s.original_clauses.length < cc) :
    ∃ s1, read_clause cc s line = some s1
      ∧ s1.original_clauses = s.original_clauses ++ [s.alloc_next]
      ∧ (s1.cl s.alloc_next).lits.Nodup
      ∧ (∀ l, l ∈ (s1.cl s.alloc_next).lits ↔ l ∈ line.map lit_from_int)
      ∧ (s1.cl s.alloc_next).size = (line.map lit_from_int).toFinset.card
      ∧ s1.status = s.status ∧ s1.imp = s.imp ∧ s1.ok = s.ok := by
  obtain ⟨r, hr⟩ := read_literals_total s.vc s.status line []
    (fun y hy => ⟨(hall y hy).1, (hall y hy).2.1⟩)
  obtain ⟨kept, skip⟩ := r
  obtain ⟨sp1, sp2⟩ := read_literals_spec s.vc s.status line [] kept skip hr
  have hsf : skip = false := by
    cases skip with
    | false => rfl
    | true =>
      obtain ⟨y, y1, _, _, y4, _⟩ := sp2 rfl
      exact absurd (hall y y1).2.2 y4
  have hkept : kept = line := by
    rw [(sp1 hsf).1, List.nil_append]
    apply List.filter_eq_self.mpr
    intro y hy
    simpa using (hall y hy).2.2
  have hk : ∀ y ∈ kept, y ≠ 0 := by
    intro y hy
    rw [hkept] at hy
    have := (hall y hy).1
    omega
  obtain ⟨b1, b2, b3, b4, b5⟩ := dedupe_buffer kept hk
  have hpair : ∀ a b : Int, a ∈ line → b ∈ line → a.natAbs = b.natAbs → a = b := by
    intro a b ha hb hab
    rcases Int.natAbs_eq_natAbs_iff.mp hab with e | e
    · exact e
    · exfalso
      apply hnt b hb
      rw [← e]
      exact ha
  obtain ⟨rd, hd⟩ := dedupe_loop_total (sort_literals kept ++ [0]) kept.length
    (by
      intro j1 j2 h1 h2 hab
      rcases Nat.lt_or_ge j1 kept.length with c1 | c1
      · rcases Nat.lt_or_ge j2 kept.length with c2 | c2
        · exact hpair _ _ (by rw [← hkept]; exact b2 j1 c1) (by rw [← hkept]; exact b2 j2 c2) hab
        · have e2 : j2 = kept.length := by omega
          rw [e2, b5] at hab ⊢
          exact Int.natAbs_eq_zero.mp hab
      · have e1 : j1 = kept.length := by omega
        rw [e1, b5] at hab ⊢
        exact (Int.natAbs_eq_zero.mp hab.symm).symm)
    (kept.length + 1) 0 0 (sort_literals kept ++ [0]) (by omega) (le_refl _) b1
    (fun _ _ => rfl) (fun i hi => by omega)
  obtain ⟨lits, n⟩ := rd
  obtain ⟨r1, r2, r3, r4, r5, _⟩ := dedupe_retained kept lits n hk hd
  obtain ⟨_, _, q3, q4⟩ := read_clause_lits s.vc s.status line kept lits skip n hr hd
  have hnd : ((lits.take (n - 1)).map lit_from_int).Nodup := List.Nodup.of_map var q3
  have hmem : ∀ l, l ∈ (lits.take (n - 1)).map lit_from_int ↔ l ∈ line.map lit_from_int := by
    intro l
    rw [List.mem_map, List.mem_map]
    constructor
    · rintro ⟨y, y1, y2⟩
      exact ⟨y, by rw [← hkept]; exact (r4 y).mp y1, y2⟩
    · rintro ⟨y, y1, y2⟩
      exact ⟨y, (r4 y).mpr (by rw [hkept]; exact y1), y2⟩
  have hcard : ((lits.take (n - 1)).map lit_from_int).length
      = (line.map lit_from_int).toFinset.card := by
    rw [← List.toFinset_card_of_nodup hnd]
    congr 1
    ext l
    rw [List.mem_toFinset, List.mem_toFinset]
    exact hmem l
  have hn3 : 3 ≤ n := by
    rw [q4] at hcard
    omega
  unfold read_clause
  rw [hr]
  simp only
  rw [if_neg (by rw [hkept, hsf]; simp; omega), if_neg (by rw [hsf]; simp), hd]
  simp only
  rw [if_neg (show ¬ n = 2 by omega), if_neg (show ¬ n = 1 by omega), if_pos hcc]
  refine ⟨_, rfl, rfl, ?_, ?_, ?_, rfl, rfl, rfl⟩
  · show (Function.update s.cl s.alloc_next _ s.alloc_next).lits.Nodup
    rw [Function.update_same]
    exact hnd
  · intro l
    show l ∈ (Function.update s.cl s.alloc_next _ s.alloc_next).lits ↔ _
    rw [Function.update_same]
    exact hmem l
  · show (Function.update s.cl s.alloc_next _ s.alloc_next).size = _
    rw [Function.update_same]
    exact hcard

/-- C26, witness: the line `2 -1 2 3 -1` read into the fresh manager of three
variables is stored with its three distinct literals. -/
theorem stored_clause_literals_witness :
    ∃ s1, read_clause 1 (init_manager 3) [2, -1, 2, 3, -1] = some s1
      ∧ s1.original_clauses = (init_manager 3).original_clauses ++ [(init_manager 3).alloc_next]
      ∧ (s1.cl (init_manager 3).alloc_next).lits.Nodup
      ∧ (∀ l, l ∈ (s1.cl (init_manager 3).alloc_next).lits
          ↔ l ∈ [2, -1, 2, 3, -1].map lit_from_int)
      ∧ (s1.cl (init_manager 3).alloc_next).size
          = ([2, -1, 2, 3, -1].map lit_from_int).toFinset.card
      ∧ s1.status = (init_manager 3).status ∧ s1.imp = (init_manager 3).imp
      ∧ s1.ok = (init_manager 3).ok :=
  stored_clause_literals 1 (init_manager 3) [2, -1, 2, 3, -1] (by decide) (by decide)
    (by decide) (by decide) (by decide)

/-- What `read_cnf` does with a clause line all of whose literals are false
when it is read: it sets `ok = 0` (and stores an empty clause). -/
theorem read_clause_all_false (cc : Nat) (s : my_manager) (line : List Int)
    (hall : ∀ y ∈ line, 1 ≤ y.natAbs ∧ y.natAbs ≤ s.vc
      ∧ s.status (var (lit_from_int y)) = neg (lit_from_int y)) :
    (∀ s1, read_clause cc s line = some s1 → s1.ok = 0)
    ∧ (s.original_clauses.length < cc → ∃ s1, read_clause cc s line = some s1) := by
  obtain ⟨r, hr⟩ := read_literals_total s.vc s.status line []
    (fun y hy => ⟨(hall y hy).1, (hall y hy).2.1⟩)
  obtain ⟨kept, skip⟩ := r
  obtain ⟨sp1, sp2⟩ := read_literals_spec s.vc s.status line [] kept skip hr
  have hst : ∀ y ∈ line, s.status y.natAbs = neg (lit_from_int y)
      ∧ neg (lit_from_int y) ≠ 0 := by
    intro y hy
    obtain ⟨y1, y2, y3⟩ := hall y hy
    rw [var_lit_from_int] at y3
    exact ⟨y3, neg_ne_zero _ (lit_ok_from_int s.vc y y1 y2).1⟩
  have hsf : skip = false := by
    cases skip with
    | false => rfl
    | true =>
      exfalso
      obtain ⟨y, y1, _, _, y4, y5⟩ := sp2 rfl
      obtain ⟨e, _⟩ := hst y y1
      rw [e, neg_eq, lit_from_int_eq, plit_eq] at y5
      rcases y5 with ⟨c1, c2⟩ | ⟨c1, c2⟩
      · rw [if_pos c1] at c2
        split at c2 <;> omega
      · rw [if_neg c1] at c2
        split at c2 <;> omega
  have hkept : kept = [] := by
    rw [(sp1 hsf).1, List.nil_append]
    apply List.filter_eq_nil_iff.mpr
    intro y hy
    obtain ⟨e, e2⟩ := hst y hy
    rw [← e] at e2
    simpa using e2
  have hd : dedupe_loop (([] : List Int).length + 1) 0 0 (sort_literals [] ++ [0])
      = some ([0], 1) := by decide
  have hform : read_clause cc s line
      = if s.original_clauses.length < cc
        then some (init_clause { s with ok := 0 } [] s.original_clauses.length) else none := by
    unfold read_clause
    rw [hr]
    simp only
    rw [hkept, hsf]
    rw [if_neg (by simp), if_neg (by simp), hd]
    simp only
    simp only [if_true]
    rfl
  rw [hform]
  refine ⟨?_, ?_⟩
  · intro s1 h
    split at h
    · rw [← Option.some.inj h]
      rfl
    · simp at h
  · intro hcc
    rw [if_pos hcc]
    exact ⟨_, rfl⟩

/-- C27: when `read_cnf` reads a unit clause line whose literal is false at
that point (its variable was set by an earlier unit line), the line sets
`ok = 0`; `ok` is still 0 when `read_cnf` is done, and `main` gives the result
0 (UNSAT) whatever fuel `finish_up_init_manager` and `solve` would be given:
neither of them is called. -/
theorem falsified_unit_unsat (bfuel cfuel : Nat) (time_up : Nat → Bool) (fuel vc cc : Nat)
    (pre post : List (List Int)) (x : Int) (s : my_manager)
    (h1 : read_clauses cc pre (init_manager vc) = some s)
    (hx : 1 ≤ x.natAbs ∧ x.natAbs ≤ s.vc)
    (hf : s.status (var (lit_from_int x)) = neg (lit_from_int x)) :
    (∀ s1, read_clause cc s [x] = some s1 → s1.ok = 0)
    ∧ (s.original_clauses.length < cc → ∃ s1, read_clause cc s [x] = some s1)
    ∧ (∀ s2, read_cnf vc cc (pre ++ [x] :: post) = some s2 →
        s2.ok = 0
        ∧ main_result bfuel cfuel time_up fuel vc cc (pre ++ [x] :: post) = some 0) := by
  obtain ⟨a, b⟩ := read_clause_all_false cc s [x] (by
    intro y hy
    rw [List.mem_singleton] at hy
    rw [hy]
    exact ⟨hx.1, hx.2, hf⟩)
  refine ⟨a, b, ?_⟩
  intro s2 h2
  have hok : s2.ok = 0 := by
    unfold read_cnf at h2
    rw [read_clauses_append, h1] at h2
    simp only at h2
    rw [read_clauses] at h2
    cases hc : read_clause cc s [x] with
    | none =>
      rw [hc] at h2
      simp at h2
    | some s1 =>
      rw [hc] at h2
      exact read_clauses_ok cc post s1 s2 h2 (a s1 hc)
  refine ⟨hok, ?_⟩
  unfold main_result
  rw [h2]
  simp only
  rw [if_pos hok]

/-- C27, witness: the input `p cnf 1 2`, `1 0`, `-1 0`. -/
theorem falsified_unit_unsat_witness :
    ∃ s s2, read_clauses 2 [[1]] (init_manager 1) = some s
      ∧ s.status (var (lit_from_int (-1))) = neg (lit_from_int (-1))
      ∧ read_cnf 1 2 ([[1]] ++ [-1] :: []) = some s2
      ∧ s2.ok = 0
      ∧ main_result 0 0 (fun _ => false) 0 1 2 ([[1]] ++ [-1] :: []) = some 0 := by
  have t1 : (read_clauses 2 [[1]] (init_manager 1)).map
      (fun s => (s.vc, s.status (var (lit_from_int (-1))))) = some (1, neg (lit_from_int (-1))) := by
    decide
  have t2 : (read_cnf 1 2 ([[1]] ++ [-1] :: [])).isSome = true := by decide
  cases h1 : read_clauses 2 [[1]] (init_manager 1) with
  | none =>
    rw [h1] at t1
    simp at t1
  | some s =>
    rw [h1] at t1
    simp only [Option.map_some', Option.some.injEq, Prod.mk.injEq] at t1
    cases h2 : read_cnf 1 2 ([[1]] ++ [-1] :: []) with
    | none =>
      rw [h2] at t2
      simp at t2
    | some s2 =>
      obtain ⟨r1, r2⟩ := (falsified_unit_unsat 0 0 (fun _ => false) 0 1 2 [[1]] [] (-1) s h1
        (by rw [t1.1]; decide) t1.2).2.2 s2 h2
      exact ⟨s, s2, rfl, t1.2, rfl, r1, r2⟩

/-- C28: for the input `p cnf 3 3` with the clause lines `-1 2 0`, `-2 3 0`
and `1 0`, and no time-out, `read_cnf` followed by `finish_up_init_manager`
(which returns 1) and `solve` gives the result 1 (SAT); in the state that
`solve` leaves, the variables 1, 2 and 3 have their positive literals as
status, all at level 1, and the counter of decisions is 0.  The value
`result` of `main` is 1. -/
theorem root_propagation_sat :
    ∃ s0 s1 S, read_cnf 3 3 [[-1, 2], [-2, 3], [1]] = some s0
      ∧ finish_up_init_manager 10 s0 = some (true, s1)
      ∧ solve 10 10 (fun _ => false) 10 s1 = some (1, S)
      ∧ S.status 1 = plit 1 ∧ S.status 2 = plit 2 ∧ S.status 3 = plit 3
      ∧ S.level 1 = 1 ∧ S.level 2 = 1 ∧ S.level 3 = 1
      ∧ S.decisions = 0
      ∧ main_result 10 10 (fun _ => false) 10 3 3 [[-1, 2], [-2, 3], [1]] = some 1 := by
  have t : ((read_cnf 3 3 [[-1, 2], [-2, 3], [1]]).bind (fun s0 =>
      (finish_up_init_manager 10 s0).bind (fun r =>
        (solve 10 10 (fun _ => false) 10 r.2).map (fun q =>
          (r.1, q.1, [q.2.status 1, q.2.status 2, q.2.status 3,
            q.2.level 1, q.2.level 2, q.2.level 3, q.2.decisions])))))
      = some (true, 1, [plit 1, plit 2, plit 3, 1, 1, 1, 0]) := by decide!
  have tm : main_result 10 10 (fun _ => false) 10 3 3 [[-1, 2], [-2, 3], [1]] = some 1 := by
    decide!
  cases h0 : read_cnf 3 3 [[-1, 2], [-2, 3], [1]] with
  | none =>
    rw [h0] at t
    simp at t
  | some s0 =>
    rw [h0] at t
    simp only [Option.some_bind] at t
    cases h1 : finish_up_init_manager 10 s0 with
    | none =>
      rw [h1] at t
      simp at t
    | some r =>
      obtain ⟨res, s1⟩ := r
      rw [h1] at t
      simp only [Option.some_bind] at t
      cases h2 : solve 10 10 (fun _ => false) 10 s1 with
      | none =>
        rw [h2] at t
        simp at t
      | some q =>
        obtain ⟨result, S⟩ := q
        rw [h2] at t
        simp only [Option.map_some', Option.some.injEq, Prod.mk.injEq, List.cons.injEq,
          and_true] at t
        obtain ⟨e1, e2, e3, e4, e5, e6, e7, e8, e9⟩ := t
        subst e1 e2
        exact ⟨s0, s1, S, rfl, h1, h2, e3, e4, e5, e6, e7, e8, e9, tm⟩

/-! ### What `assert_conflict_clause` asserts -/

/-- The function `assert_conflict_clause` returns when its `bcp` is given
`vc + 2` iterations. -/
theorem assert_conflict_clause_returns (fuel : Nat) (s : my_manager) (c : Nat)
    (hsol : solve_inv s) (hcc : s.conflict_clause = some c)
    (hc : c ∉ clause_ptrs s) (hL : learned_now s c) (hfuel : s.vc + 2 ≤ fuel) :
    ∃ r, assert_conflict_clause fuel s = some r := by
  have hkb := add_conflict_clause_kb s c hsol hc hL
  obtain ⟨q1, q2, q3, q4, q5, q6, q7, q8⟩ := hL
  have e0 : (s.cl c).lits.getD 0 0 = (s.cl c).lits.get ⟨0, by omega⟩ := by
    rw [List.getD_eq_getElem _ _ (by omega)]; rfl
  have m0 : (s.cl c).lits.getD 0 0 ∈ (s.cl c).lits := by
    rw [e0]; exact List.get_mem _ 0 (by omega)
  have hlev0 : s.level (var ((s.cl c).lits.getD 0 0)) = 0 :=
    hsol.1.2.2.2.2.1.2.2 _ (lit_ok_var _ _ (q2 _ m0)).2 q4
  obtain ⟨⟨hb, hq, _⟩, _, _⟩ := hsol
  unfold assert_conflict_clause
  rw [hcc]
  simp only
  by_cases hsz : (s.cl c).size > 1
  · have hsz1 : ¬ (s.cl c).size = 1 := by omega
    rw [if_pos hsz, if_pos hsz, if_neg hsz1]
    have hk : ∃ k, 1 ≤ k ∧ k < (s.cl c).lits.length
        ∧ s.level (var ((s.cl c).lits.getD k 0)) = s.assertion_level := by
      rcases q6 with ⟨x, _⟩ | x
      · unfold my_clause.size at hsz
        omega
      · exact x
    obtain ⟨sc, si, hp, L1, lcs, csi, e, hh, r0, r1, r3⟩ :=
      add_conflict_clause_shape s c (by rw [hlev0]; omega) hk
    have hw := hkb hsz
    rw [e] at hw ⊢
    have ec : Function.update s.cl c
        { index := (s.learned_clauses.length : Int), lits := L1 } c
        = { index := (s.learned_clauses.length : Int), lits := L1 } :=
      Function.update_same _ _ _
    simp only [ec]
    apply bcp_terminates
    · exact ⟨hw, hb.2.1, hb.2.2⟩
    · rw [r1]
      exact q2 _ m0
    · show s.imp.size + s.vc + 2 ≤ fuel
      omega
  · have hsz1 : (s.cl c).size = 1 := by
      unfold my_clause.size at hsz ⊢
      omega
    rw [if_neg hsz, if_neg hsz, if_pos hsz1]
    apply bcp_terminates
    · exact ⟨hb.1, hb.2.1, hb.2.2⟩
    · exact q2 _ m0
    · show s.imp.size + s.vc + 2 ≤ fuel
      omega

/-- The state that `assert_conflict_clause` returns: the first literal of the
learned clause is true at the assertion level; a learned clause of size at
least 2 is its reason and is appended to the learned store; a unit learned
clause leaves the learned store alone, and its literal has no reason, at
level 1. -/
theorem assert_conflict_clause_reason (fuel : Nat) (s : my_manager) (c : Nat) (res : Bool)
    (s5 : my_manager) (hsol : solve_inv s) (hcc : s.conflict_clause = some c)
    (hc : c ∉ clause_ptrs s) (hlt : c < s.alloc_next) (hL : learned_now s c)
    (h : assert_conflict_clause fuel s = some (res, s5)) :
    s5.status (var ((s.cl c).lits.getD 0 0)) = (s.cl c).lits.getD 0 0
    ∧ s5.level (var ((s.cl c).lits.getD 0 0)) = s.assertion_level
    ∧ (1 < (s.cl c).size →
        s5.reason (var ((s.cl c).lits.getD 0 0)) = some c
        ∧ s5.learned_clauses = s.learned_clauses ++ [c])
    ∧ ((s.cl c).size = 1 →
        s.assertion_level = 1 ∧ s5.reason (var ((s.cl c).lits.getD 0 0)) = none
        ∧ s5.learned_clauses = s.learned_clauses)
    ∧ s5.original_clauses = s.original_clauses := by
  obtain ⟨q1, q2, q3, q4, q5, q6, q7, q8⟩ := hL
  have hlev0 : s.level (var ((s.cl c).lits.getD 0 0)) = 0 := by
    have e0 : (s.cl c).lits.getD 0 0 = (s.cl c).lits.get ⟨0, by omega⟩ := by
      rw [List.getD_eq_getElem _ _ (by omega)]; rfl
    have m0 : (s.cl c).lits.getD 0 0 ∈ (s.cl c).lits := by
      rw [e0]; exact List.get_mem _ 0 (by omega)
    exact hsol.1.2.2.2.2.1.2.2 _ (lit_ok_var _ _ (q2 _ m0)).2 q4
  have e0 : (s.cl c).lits.getD 0 0 = (s.cl c).lits.get ⟨0, by omega⟩ := by
    rw [List.getD_eq_getElem _ _ (by omega)]; rfl
  have m0 : (s.cl c).lits.getD 0 0 ∈ (s.cl c).lits := by
    rw [e0]; exact List.get_mem _ 0 (by omega)
  unfold assert_conflict_clause at h
  rw [hcc] at h
  simp only at h
  by_cases hsz : (s.cl c).size > 1
  · have hsz1 : ¬ (s.cl c).size = 1 := by omega
    rw [if_pos hsz, if_pos hsz, if_neg hsz1] at h
    have hk : ∃ k, 1 ≤ k ∧ k < (s.cl c).lits.length
        ∧ s.level (var ((s.cl c).lits.getD k 0)) = s.assertion_level := by
      rcases q6 with ⟨x, _⟩ | x
      · unfold my_clause.size at hsz
        omega
      · exact x
    obtain ⟨sc, si, hp, L1, lcs, csi, e, hh, r0, r1, r3⟩ :=
      add_conflict_clause_shape s c (by rw [hlev0]; omega) hk
    rw [e] at h
    have ec : Function.update s.cl c
        { index := (s.learned_clauses.length : Int), lits := L1 } c
        = { index := (s.learned_clauses.length : Int), lits := L1 } :=
      Function.update_same _ _ _
    simp only [ec] at h
    rw [← q7] at h r3 ⊢
    have hres := assert_clause_contract fuel s _ c (s.learned_clauses.length : Int) L1 res s5
      hsol ?_ ?_ ?_ ?_ ?_ ?_ ?_ ?_
      ?_ ?_ ?_ ?_ ?_ ?_ ?_ ?_ ?_ hc hlt ?_ ?_ ?_ ?_ ?_ r3 h
    · obtain ⟨a1, a2, a3, a4, a5, a6⟩ := hres
      rw [← r1]
      refine ⟨a4, a5, fun _ => ⟨a6, ?_⟩, fun x => absurd x hsz1, ?_⟩
      · rw [a3.2.2.1]
      · rw [a3.2.1]
    all_goals first
      | rfl
      | exact hh
      | skip
    · rw [List.Perm.length_eq r0]
      exact hsz
    · exact (List.Perm.map var r0).nodup_iff.mpr q3
    · intro x hx
      exact q2 x ((List.Perm.mem_iff r0).mp hx)
    · rw [r1]; exact q4
    · intro x hx hne
      rw [r1] at hne
      have := q5 x ((List.Perm.mem_iff r0).mp hx) hne
      rw [q7]
      exact this
  · have hsz1 : (s.cl c).size = 1 := by
      unfold my_clause.size at hsz ⊢
      omega
    rw [if_neg hsz, if_neg hsz, if_pos hsz1] at h
    have hal : s.assertion_level = 1 := by
      rcases q6 with ⟨_, x⟩ | ⟨k, k1, k2, _⟩
      · exact x
      · unfold my_clause.size at hsz1
        omega
    rw [← q7] at h ⊢
    have hres := assert_unit_contract fuel s _ ((s.cl c).lits.getD 0 0) res s5 hsol ?_ ?_ ?_
      ?_ ?_ ?_ ?_ ?_ ?_ ?_ ?_ ?_ ?_ ?_ ?_ ?_ ?_ (q2 _ m0) q4 (by rw [q7]; exact hal) h
    · obtain ⟨a1, a2, a3, a4, a5, a6⟩ := hres
      refine ⟨a4, ?_, fun x => absurd x hsz, fun _ => ⟨by rw [q7]; exact hal, a6, ?_⟩, ?_⟩
      · rw [a5, q7, hal]
      · rw [a3.2.2.1]
      · rw [a3.2.1]
    all_goals first
      | rfl
      | exact fun _ _ => rfl
      | exact fun hw => ⟨hw, fun _ => Iff.rfl⟩

/-- C21: after a conflict at a decision level above 1, `analyze_conflict`,
`backtrack(assertion_level+1)` and `assert_conflict_clause` (its `bcp` given
`vc + 2` iterations) return, and in the state returned the asserting literal
`lits[0]` of the learned clause is the status of its variable, at the level
`assertion_level`.  When the learned clause has at least 2 literals it is the
reason of that variable, still with the asserting literal at position 0, and
it is the new last entry of the learned store.  When it has one literal,
`assertion_level` is 1, the literal is at level 1 with the reason `NULL`, and
the learned store is as before. -/
theorem assert_conflict_clause_asserts (bfuel : Nat) (s : my_manager)
    (hcs : conflict_state s) (h2 : 2 ≤ s.decision_level) (hfuel : s.vc + 2 ≤ bfuel) :
    ∃ s1 res s3, analyze_conflict s s.conflicting_clause s.decision_level = some s1
      ∧ s1.conflict_clause = some s.alloc_next
      ∧ assert_conflict_clause bfuel (backtrack s1 (s1.assertion_level + 1)) = some (res, s3)
      ∧ s3.status (var ((s1.cl s.alloc_next).lits.getD 0 0))
          = (s1.cl s.alloc_next).lits.getD 0 0
      ∧ s3.level (var ((s1.cl s.alloc_next).lits.getD 0 0)) = s1.assertion_level
      ∧ (2 ≤ (s1.cl s.alloc_next).size →
          s3.reason (var ((s1.cl s.alloc_next).lits.getD 0 0)) = some s.alloc_next
          ∧ (s3.cl s.alloc_next).lits.getD 0 0 = (s1.cl s.alloc_next).lits.getD 0 0
          ∧ s3.learned_clauses = s.learned_clauses ++ [s.alloc_next])
      ∧ ((s1.cl s.alloc_next).size = 1 →
          s1.assertion_level = 1
          ∧ s3.level (var ((s1.cl s.alloc_next).lits.getD 0 0)) = 1
          ∧ s3.reason (var ((s1.cl s.alloc_next).lits.getD 0 0)) = none
          ∧ s3.learned_clauses = s.learned_clauses) := by
  obtain ⟨s1, ha, e3, e4, _, e5⟩ := conflict_step bfuel s hcs h2
  obtain ⟨b1, b2, b3, b4, b5⟩ := conflict_step_learned s s1 hcs h2 ha
  obtain ⟨s1', ha', hsame, _, a2, a3⟩ := analyze_conflict_state s hcs.1 hcs.2.2.2 h2
  have hs1 : s1 = s1' := by
    rw [ha] at ha'
    exact Option.some.inj ha'
  subst hs1
  obtain ⟨f1, f2, f3, f4, f5, f6, f7, f8, f9, f10, f11, f12, f13, f14, f15⟩ :=
    (backtrack_solve_inv s1 (s1.assertion_level + 1) (by omega)
      (by rw [hsame.2.2.2.2.2.2.1]; omega) ((same_search_inv s s1 hsame).1 hcs.1)
      ((same_search_inv s s1 hsame).2.2.1 hcs.2.1)
      ((same_search_inv s s1 hsame).2.2.2.1 hcs.2.2.1)).2.1
  have hvc : (backtrack s1 (s1.assertion_level + 1)).vc = s.vc := by rw [f1, hsame.1]
  obtain ⟨r, hr⟩ := assert_conflict_clause_returns bfuel _ s.alloc_next b1 b2 b4 b5
    (by rw [hvc]; exact hfuel)
  obtain ⟨res, s3⟩ := r
  obtain ⟨r1, r2, _⟩ := e5 res s3 hr
  obtain ⟨c1, c2, c3, c4, _⟩ := assert_conflict_clause_reason bfuel _ s.alloc_next res s3 b1 b2
    b4 (by rw [f5, a2]; omega) b5 hr
  rw [f2] at c1 c2 c3 c4
  rw [f14] at c2 c4
  rw [f4, hsame.2.2.2.2.2.2.2.2.2.1] at c3 c4
  have hinv3 : search_inv s3 := by
    cases res with
    | true => exact (r1 rfl).1
    | false => exact (r2 rfl).1
  obtain ⟨_, hrj, _, _⟩ := search_inv_props s3 hinv3
  have hvc3 : s3.vc = s.vc := by
    rw [(assert_conflict_clause_aux bfuel _ res s3 hr).2.1, hvc]
  have hok : lit_ok s.vc ((s1.cl s.alloc_next).lits.getD 0 0) := by
    obtain ⟨q1, q2, _⟩ := b5
    rw [f2, f1, hsame.1] at q2
    rw [f2] at q1
    apply q2
    rw [List.getD_eq_getElem _ _ (by omega)]
    exact List.getElem_mem _
  refine ⟨s1, res, s3, ha, b3, hr, c1, c2, ?_, ?_⟩
  · intro hsz
    obtain ⟨x1, x2⟩ := c3 (by omega)
    refine ⟨x1, ?_, x2⟩
    have hv := lit_ok_var _ _ hok
    have := (hrj _ hv.1 (by rw [hvc3]; exact hv.2)
      (by rw [c1]; have := hok.1; omega) _ x1).2.1
    rw [this, c1]
  · intro hsz
    obtain ⟨x1, x2, x3⟩ := c4 hsz
    exact ⟨x1, by rw [c2, x1], x2, x3⟩

/-- C21, witness: in the second small instance after the decisions `1` and
`2`, the conflict on `(-1 -2 -3)` is analysed and the learned clause
asserted. -/
theorem assert_conflict_clause_asserts_witness :
    ∃ s1 res s3, analyze_conflict example_deep example_deep.conflicting_clause
        example_deep.decision_level = some s1
      ∧ s1.conflict_clause = some example_deep.alloc_next
      ∧ assert_conflict_clause 10 (backtrack s1 (s1.assertion_level + 1)) = some (res, s3)
      ∧ s3.status (var ((s1.cl example_deep.alloc_next).lits.getD 0 0))
          = (s1.cl example_deep.alloc_next).lits.getD 0 0
      ∧ s3.level (var ((s1.cl example_deep.alloc_next).lits.getD 0 0)) = s1.assertion_level
      ∧ (2 ≤ (s1.cl example_deep.alloc_next).size →
          s3.reason (var ((s1.cl example_deep.alloc_next).lits.getD 0 0))
            = some example_deep.alloc_next
          ∧ (s3.cl example_deep.alloc_next).lits.getD 0 0
            = (s1.cl example_deep.alloc_next).lits.getD 0 0
          ∧ s3.learned_clauses = example_deep.learned_clauses ++ [example_deep.alloc_next])
      ∧ ((s1.cl example_deep.alloc_next).size = 1 →
          s1.assertion_level = 1
          ∧ s3.level (var ((s1.cl example_deep.alloc_next).lits.getD 0 0)) = 1
          ∧ s3.reason (var ((s1.cl example_deep.alloc_next).lits.getD 0 0)) = none
          ∧ s3.learned_clauses = example_deep.learned_clauses) :=
  assert_conflict_clause_asserts 10 example_deep example_deep_state.1
    (by rw [example_deep_state.2]; decide) (by decide)

/-! ### The merge sort of `reduce_kb` sorts -/

theorem perm_insert_mid_gen {α : Type} (A B C : List α) (x : α) :
    (A ++ B ++ C ++ [x]).Perm (A ++ (B ++ [x]) ++ C) := by
  simp only [List.append_assoc]
  apply List.Perm.append_left
  apply List.Perm.append_left
  exact List.perm_append_comm

theorem map_range_update_gen {α : Type} (f : Nat → α) (j : Nat) (x : α) :
    (List.range (j + 1)).map (Function.update f j x) = (List.range j).map f ++ [x] := by
  rw [List.range_succ, List.map_append]
  congr 1
  · apply List.map_congr_left
    intro i hi
    have := List.mem_range.mp hi
    rw [Function.update_noteq (by omega)]
  · simp

theorem range_blocks_gen {α : Type} (arr : Nat → α) (b bs : Nat) :
    (List.range b).map arr ++ (List.range' b bs).map arr ++ (List.range' (b + bs) bs).map arr
      = (List.range (b + 2 * bs)).map arr := by
  rw [← List.map_append, ← List.map_append]
  congr 1
  rw [List.range_eq_range', List.range_eq_range']
  have h1 : List.range' 0 b ++ List.range' b bs = List.range' 0 (b + bs) := by
    have := List.range'_append 0 b bs 1
    simp only [Nat.zero_add, Nat.one_mul] at this
    rw [this, Nat.add_comm]
  rw [h1]
  have h2 := List.range'_append 0 (b + bs) bs 1
  simp only [Nat.zero_add, Nat.one_mul] at h2
  rw [h2]
  congr 1
  omega

theorem sort_pair_update (target : Nat → Option Nat) (starget : Nat → ℚ) (j : Nat)
    (x : Option Nat) (y : ℚ) :
    sort_pair (Function.update target j x) (Function.update starget j y)
      = Function.update (sort_pair target starget) j (x, y) := by
  funext i
  unfold sort_pair
  by_cases e : i = j
  · rw [e, Function.update_same, Function.update_same, Function.update_same]
  · rw [Function.update_noteq e, Function.update_noteq e, Function.update_noteq e]

theorem block_mod_two (bs k x : Nat) (hx : x < 2 * bs) : (2 * bs * k + x) % (2 * bs) = x := by
  rw [Nat.mul_add_mod]
  exact Nat.mod_eq_of_lt hx

theorem block_mod_left (bs k x : Nat) (hx : x < bs) : (2 * bs * k + x) % bs = x := by
  have e : 2 * bs * k = bs * (2 * k) := by ring
  rw [e, Nat.mul_add_mod]
  exact Nat.mod_eq_of_lt hx

theorem block_mod_right (bs k x : Nat) (hx : x < bs) : (2 * bs * k + bs + x) % bs = x := by
  have e : 2 * bs * k + bs = bs * (2 * k + 1) := by ring
  rw [e, Nat.mul_add_mod]
  exact Nat.mod_eq_of_lt hx

/-- The body of the loop of one pass of `sort_clauses_by_scores`, by cases:
after a full pair of blocks the counters start on the next pair; then the
next entry of the left block is taken when the right block is used up or the
left score is the smaller one, else the next entry of the right block. -/
theorem sort_step_cases (bs : Nat) (arr : Nat → Option Nat) (score : Nat → ℚ) (j : Nat)
    (st : sort_state) (k : Nat) (h1 : st.lindex = 2 * bs * k + st.l)
    (h2 : st.rindex = 2 * bs * k + bs + st.r) (h3 : st.l ≤ bs) (h4 : st.r ≤ bs)
    (hbs : 1 ≤ bs) :
    ∃ k' L R p,
      ((k' = k + 1 ∧ L = 0 ∧ R = 0 ∧ st.l = bs ∧ st.r = bs)
        ∨ (k' = k ∧ L = st.l ∧ R = st.r ∧ ¬ (st.l = bs ∧ st.r = bs)))
      ∧ (sort_step bs arr score j st).target = Function.update st.target j (arr p)
      ∧ (sort_step bs arr score j st).starget = Function.update st.starget j (score p)
      ∧ (sort_step bs arr score j st).cl
          = (match arr p with
            | some c => Function.update st.cl c { st.cl c with index := (j : Int) }
            | none => st.cl)
      ∧ ((p = 2 * bs * k' + L ∧ L < bs
          ∧ (R = bs ∨ score (2 * bs * k' + L) < score (2 * bs * k' + bs + R))
          ∧ (sort_step bs arr score j st).lindex = 2 * bs * k' + (L + 1)
          ∧ (sort_step bs arr score j st).rindex = 2 * bs * k' + bs + R
          ∧ (sort_step bs arr score j st).l = L + 1
          ∧ (sort_step bs arr score j st).r = R)
        ∨ (p = 2 * bs * k' + bs + R ∧ R < bs
          ∧ (L = bs ∨ ¬ score (2 * bs * k' + L) < score (2 * bs * k' + bs + R))
          ∧ (sort_step bs arr score j st).lindex = 2 * bs * k' + L
          ∧ (sort_step bs arr score j st).rindex = 2 * bs * k' + bs + (R + 1)
          ∧ (sort_step bs arr score j st).l = L
          ∧ (sort_step bs arr score j st).r = R + 1)) := by
  have ek : 2 * bs * (k + 1) = 2 * bs * k + 2 * bs := by ring
  unfold sort_step
  simp only
  by_cases hf : st.l = bs ∧ st.r = bs
  · have hd : decide (st.l = bs ∧ st.r = bs) = true := by simpa using hf
    simp only [hd, if_true]
    have el : st.lindex + bs = 2 * bs * (k + 1) + 0 := by omega
    have er : st.rindex + bs = 2 * bs * (k + 1) + bs + 0 := by omega
    by_cases hl : decide (score (st.lindex + bs) < score (st.rindex + bs)) = true
    · simp only [hl, if_true]
      refine ⟨k + 1, 0, 0, st.lindex + bs, Or.inl ⟨rfl, rfl, rfl, hf.1, hf.2⟩, rfl, rfl, rfl,
        Or.inl ⟨el, by omega, Or.inr ?_, by omega, by omega, rfl, rfl⟩⟩
      rw [← el, ← er]
      simpa using hl
    · have hl' : decide (score (st.lindex + bs) < score (st.rindex + bs)) = false := by
        simpa using hl
      simp only [hl', Bool.false_eq_true, if_false]
      refine ⟨k + 1, 0, 0, st.rindex + bs, Or.inl ⟨rfl, rfl, rfl, hf.1, hf.2⟩, rfl, rfl, rfl,
        Or.inr ⟨er, by omega, Or.inr ?_, by omega, by omega, rfl, rfl⟩⟩
      rw [← el, ← er]
      simpa using hl
  · have hd : decide (st.l = bs ∧ st.r = bs) = false := by simpa using hf
    simp only [hd, Bool.false_eq_true, if_false]
    by_cases hlb : st.l = bs
    · have hr : st.r < bs := by
        rcases Nat.lt_or_ge st.r bs with x | x
        · exact x
        · exact absurd ⟨hlb, by omega⟩ hf
      simp only [if_pos hlb, Bool.false_eq_true, if_false]
      refine ⟨k, st.l, st.r, st.rindex, Or.inr ⟨rfl, rfl, rfl, hf⟩, rfl, rfl, rfl,
        Or.inr ⟨h2, hr, Or.inl hlb, by omega, by omega, by omega, rfl⟩⟩
    · simp only [if_neg hlb]
      by_cases hrb : st.r = bs
      · simp only [if_pos hrb, if_true]
        refine ⟨k, st.l, st.r, st.lindex, Or.inr ⟨rfl, rfl, rfl, hf⟩, rfl, rfl, rfl,
          Or.inl ⟨h1, by omega, Or.inl hrb, by omega, by omega, rfl, by omega⟩⟩
      · simp only [if_neg hrb]
        by_cases hc : decide (score st.lindex < score st.rindex) = true
        · simp only [hc, if_true]
          refine ⟨k, st.l, st.r, st.lindex, Or.inr ⟨rfl, rfl, rfl, hf⟩, rfl, rfl, rfl,
            Or.inl ⟨h1, by omega, Or.inr ?_, by omega, by omega, rfl, rfl⟩⟩
          rw [← h1, ← h2]
          simpa using hc
        · have hc' : decide (score st.lindex < score st.rindex) = false := by
            simpa using hc
          simp only [hc', Bool.false_eq_true, if_false]
          refine ⟨k, st.l, st.r, st.rindex, Or.inr ⟨rfl, rfl, rfl, hf⟩, rfl, rfl, rfl,
            Or.inr ⟨h2, by omega, Or.inr ?_, by omega, by omega, rfl, rfl⟩⟩
          rw [← h1, ← h2]
          simpa using hc

/-- The body of the loop of one pass of `sort_clauses_by_scores` keeps the
invariant of the merge, when the blocks of `bs` entries of the source are
sorted. -/
theorem sort_step_merge (bs m : Nat) (arr : Nat → Option Nat) (score : Nat → ℚ) (j : Nat)
    (st : sort_state) (hbs : 1 ≤ bs) (hj : j < 2 * bs * m)
    (hin : ∀ i, i + 1 < 2 * bs * m → (i + 1) % bs ≠ 0 → score i ≤ score (i + 1))
    (h : sort_merge_inv bs arr score j st) :
    sort_merge_inv bs arr score (j + 1) (sort_step bs arr score j st) := by
  obtain ⟨k, h1, h2, h3, h4, h5, h6, h7, h8, h9, h10⟩ := h
  obtain ⟨k', L, R, p, hnorm, et, es, ec, hcase⟩ :=
    sort_step_cases bs arr score j st k h1 h2 h3 h4 hbs
  have ek : 2 * bs * (k + 1) = 2 * bs * k + 2 * bs := by ring
  have hjk : j = 2 * bs * k' + L + R := by
    rcases hnorm with ⟨a, b, c, d, e⟩ | ⟨a, b, c, _⟩
    · subst a b c
      omega
    · subst a b c
      exact h5
  have hL : L ≤ bs := by
    rcases hnorm with ⟨a, b, c, d, e⟩ | ⟨a, b, c, _⟩ <;> omega
  have hR : R ≤ bs := by
    rcases hnorm with ⟨a, b, c, d, e⟩ | ⟨a, b, c, _⟩ <;> omega
  have hLR : L + R < 2 * bs := by
    rcases hnorm with ⟨a, b, c, d, e⟩ | ⟨a, b, c, f⟩
    · omega
    · subst b c
      by_contra hc
      exact f ⟨by omega, by omega⟩
  have hk'm : k' < m := by
    have : 2 * bs * k' < 2 * bs * m := by omega
    exact Nat.lt_of_mul_lt_mul_left this
  have hblock : 2 * bs * k' + 2 * bs ≤ 2 * bs * m := by
    have h0 := Nat.mul_le_mul_left (2 * bs) (Nat.succ_le_of_lt hk'm)
    have e : 2 * bs * (k' + 1) = 2 * bs * k' + 2 * bs := by ring
    rw [← e]
    exact h0
  have hperm : ((List.range j).map (sort_pair st.target st.starget)).Perm
      ((List.range (2 * bs * k')).map (sort_pair arr score)
        ++ (List.range' (2 * bs * k') L).map (sort_pair arr score)
        ++ (List.range' (2 * bs * k' + bs) R).map (sort_pair arr score)) := by
    rcases hnorm with ⟨a, b, c, d, e⟩ | ⟨a, b, c, _⟩
    · subst a b c
      rw [d, e, range_blocks_gen, ← ek] at h7
      simpa using h7
    · subst a b c
      exact h7
  have hfront : 1 ≤ L + R →
      (L < bs → st.starget (j - 1) ≤ score (2 * bs * k' + L))
      ∧ (R < bs → st.starget (j - 1) ≤ score (2 * bs * k' + bs + R)) := by
    intro hpos
    rcases hnorm with ⟨a, b, c, d, e⟩ | ⟨a, b, c, _⟩
    · omega
    · subst a b c
      have := h9 (by omega)
      rw [h1, h2] at this
      exact this
  have hnew : 0 < j → j % (2 * bs) ≠ 0 → st.starget (j - 1) ≤ score p := by
    intro hj0 hmod
    have hLR1 : 1 ≤ L + R := by
      by_contra hc
      have e0 : L + R = 0 := by omega
      apply hmod
      rw [hjk, Nat.add_assoc, e0]
      exact block_mod_two bs k' 0 (by omega)
    rcases hcase with ⟨c1, c2, _⟩ | ⟨c1, c2, _⟩
    · rw [c1]
      exact (hfront hLR1).1 c2
    · rw [c1]
      exact (hfront hLR1).2 c2
  generalize sort_step bs arr score j st = res at et es ec hcase ⊢
  have hP2 : ∀ i, i + 1 < j + 1 → (i + 1) % (2 * bs) ≠ 0 →
      res.starget i ≤ res.starget (i + 1) := by
    intro i hi hmod
    rw [es]
    by_cases e : i + 1 = j
    · rw [e, Function.update_same, Function.update_noteq (by omega)]
      have := hnew (by omega) (by rw [← e]; exact hmod)
      have e2 : j - 1 = i := by omega
      rw [e2] at this
      exact this
    · rw [Function.update_noteq (by omega), Function.update_noteq (by omega)]
      exact h8 i (by omega) hmod
  have hP4 : ∀ i, i < j + 1 → ∀ c, res.target i = some c →
      ∃ i', i' < j + 1 ∧ i ≤ i' ∧ res.target i' = some c ∧ (res.cl c).index = (i' : Int) := by
    intro i hi c hc
    by_cases hp : arr p = some c
    · refine ⟨j, by omega, by omega, by rw [et, Function.update_same]; exact hp, ?_⟩
      rw [ec, hp]
      simp only
      rw [Function.update_same]
    · have hij : i ≠ j := by
        intro e
        rw [et, e, Function.update_same] at hc
        exact hp hc
      rw [et, Function.update_noteq hij] at hc
      obtain ⟨i', a1, a2, a3, a4⟩ := h10 i (by omega) c hc
      refine ⟨i', by omega, a2, by rw [et, Function.update_noteq (by omega)]; exact a3, ?_⟩
      rw [ec]
      cases harr : arr p with
      | none =>
        simp only
        exact a4
      | some d =>
        simp only
        have hcd : c ≠ d := by
          intro e
          rw [e] at hp
          exact hp harr
        rw [Function.update_noteq hcd]
        exact a4
  have hsj : res.starget j = score p := by rw [es, Function.update_same]
  have hlist : (List.range (j + 1)).map (sort_pair res.target res.starget)
      = (List.range j).map (sort_pair st.target st.starget) ++ [sort_pair arr score p] := by
    rw [et, es, sort_pair_update, map_range_update_gen]
    rfl
  rcases hcase with ⟨c1, c2, c3, c4, c5, c6, c7⟩ | ⟨c1, c2, c3, c4, c5, c6, c7⟩
  · refine ⟨k', by rw [c4, c6], by rw [c5, c7], by omega, by omega, by omega,
      fun _ => by omega, ?_, hP2, ?_, hP4⟩
    · rw [hlist, c6, c7, List.range'_concat, List.map_append]
      simp only [List.map_cons, List.map_nil, Nat.one_mul]
      rw [c1]
      exact (List.Perm.append_right _ hperm).trans (perm_insert_mid_gen _ _ _ _)
    · intro _
      rw [Nat.add_sub_cancel, hsj, c4, c5, c6, c7]
      refine ⟨?_, ?_⟩
      · intro hlt
        have := hin p (by omega) (by
          rw [c1, Nat.add_assoc, block_mod_left bs k' (L + 1) hlt]
          omega)
        rw [c1] at this ⊢
        exact this
      · intro hlt
        rcases c3 with x | x
        · omega
        · rw [c1]
          exact le_of_lt x
  · refine ⟨k', by rw [c4, c6], by rw [c5, c7], by omega, by omega, by omega,
      fun _ => by omega, ?_, hP2, ?_, hP4⟩
    · rw [hlist, c6, c7, List.range'_concat, List.map_append]
      simp only [List.map_cons, List.map_nil, Nat.one_mul]
      rw [c1, ← List.append_assoc]
      exact List.Perm.append_right _ hperm
    · intro _
      rw [Nat.add_sub_cancel, hsj, c4, c5, c6, c7]
      refine ⟨?_, ?_⟩
      · intro hlt
        rcases c3 with x | x
        · omega
        · rw [c1]
          exact not_lt.mp x
      · intro hlt
        have := hin p (by omega) (by
          rw [c1, Nat.add_assoc, block_mod_right bs k' (R + 1) hlt]
          omega)
        rw [c1] at this ⊢
        exact this

theorem sort_pass_merge (bs m : Nat) (arr : Nat → Option Nat) (score : Nat → ℚ)
    (hbs : 1 ≤ bs)
    (hin : ∀ i, i + 1 < 2 * bs * m → (i + 1) % bs ≠ 0 → score i ≤ score (i + 1)) :
    ∀ (n j : Nat) (st : sort_state), j + n ≤ 2 * bs * m → sort_merge_inv bs arr score j st →
      sort_merge_inv bs arr score (j + n) (sort_pass bs arr score n j st) := by
  intro n
  induction n with
  | zero =>
    intro j st _ h
    exact h
  | succ n ih =>
    intro j st hj h
    rw [sort_pass]
    have e : j + (n + 1) = j + 1 + n := by omega
    rw [e]
    exact ih (j + 1) _ (by omega) (sort_step_merge bs m arr score j st hbs (by omega) hin h)

/-- One pass of `sort_clauses_by_scores` over an array of `2 * bs * m` entries
whose blocks of `bs` entries are sorted: the (clause, score) pairs are
permuted, the blocks of `2 * bs` entries of the result are sorted, and every
clause of the result has the greatest position that holds it as its
`index`. -/
theorem sort_pass_sorted (bs m : Nat) (arr : Nat → Option Nat) (score : Nat → ℚ)
    (target : Nat → Option Nat) (starget : Nat → ℚ) (cl : Nat → my_clause)
    (hbs : 1 ≤ bs) (hm : 1 ≤ m)
    (hin : ∀ i, i + 1 < 2 * bs * m → (i + 1) % bs ≠ 0 → score i ≤ score (i + 1))
    (st : sort_state)
    (hst : st = sort_pass bs arr score (2 * bs * m) 0
      { lindex := 0, rindex := bs, l := 0, r := 0, target := target, starget := starget,
        cl := cl }) :
    ((List.range (2 * bs * m)).map (sort_pair st.target st.starget)).Perm
      ((List.range (2 * bs * m)).map (sort_pair arr score))
    ∧ (∀ i, i + 1 < 2 * bs * m → (i + 1) % (2 * bs) ≠ 0 → st.starget i ≤ st.starget (i + 1))
    ∧ (∀ i, i < 2 * bs * m → ∀ c, st.target i = some c →
        ∃ i', i' < 2 * bs * m ∧ i ≤ i' ∧ st.target i' = some c
          ∧ (st.cl c).index = (i' : Int)) := by
  have h0 : sort_merge_inv bs arr score 0
      { lindex := 0, rindex := bs, l := 0, r := 0, target := target, starget := starget,
        cl := cl } := by
    refine ⟨0, by simp, by simp, by simp, by simp, by simp, fun h => by omega, by simp,
      fun i hi => by omega, fun h => by omega, fun i hi => by omega⟩
  have h := sort_pass_merge bs m arr score hbs hin (2 * bs * m) 0 _ (by omega) h0
  rw [← hst, Nat.zero_add] at h
  obtain ⟨k, h1, h2, h3, h4, h5, h6, h7, h8, h9, h10⟩ := h
  have hpos : 0 < 2 * bs * m := Nat.mul_pos (by omega) (by omega)
  have h6' := h6 hpos
  have hk : k < m := by
    have : 2 * bs * k < 2 * bs * m := by omega
    exact Nat.lt_of_mul_lt_mul_left this
  have hk2 : m ≤ k + 1 := by
    have : 2 * bs * m ≤ 2 * bs * (k + 1) := by
      have e : 2 * bs * (k + 1) = 2 * bs * k + 2 * bs := by ring
      omega
    exact Nat.le_of_mul_le_mul_left this (by omega)
  have hmk : m = k + 1 := by omega
  have e : 2 * bs * (k + 1) = 2 * bs * k + 2 * bs := by ring
  have hl : st.l = bs := by
    rw [hmk, e] at h5
    omega
  have hr : st.r = bs := by
    rw [hmk, e] at h5
    omega
  refine ⟨?_, h8, h10⟩
  rw [hl, hr, range_blocks_gen, ← e, ← hmk] at h7
  exact h7

theorem pow_half_lt (K i : Nat) (h : 2 ^ i > 2 ^ K / 2) : K ≤ i := by
  by_contra hc
  have hik : i + 1 ≤ K := by omega
  have h1 : 2 ^ (i + 1) ≤ 2 ^ K := Nat.pow_le_pow_right (by norm_num) hik
  rw [pow_succ] at h1
  omega

/-- The passes of `sort_clauses_by_scores` over an array whose length is a
power of two, entered with sorted blocks: the (clause, score) pairs are
permuted, the scores of the result do not go down, and every clause of the
result has the greatest position that holds it as its `index` (when a pass is
run, or when this holds at the entry). -/
theorem sort_passes_sorted (K : Nat) :
    ∀ (f i : Nat) (arr : Nat → Option Nat) (score : Nat → ℚ) (target : Nat → Option Nat)
      (starget : Nat → ℚ) (cl : Nat → my_clause),
      K ≤ i + f →
      (∀ x, x + 1 < 2 ^ K → (x + 1) % 2 ^ i ≠ 0 → score x ≤ score (x + 1)) →
      ((List.range (2 ^ K)).map
        (sort_pair (sort_passes (2 ^ K) f (2 ^ i) arr score target starget cl).1
          (sort_passes (2 ^ K) f (2 ^ i) arr score target starget cl).2.1)).Perm
        ((List.range (2 ^ K)).map (sort_pair arr score))
      ∧ (∀ x, x + 1 < 2 ^ K →
          (sort_passes (2 ^ K) f (2 ^ i) arr score target starget cl).2.1 x
            ≤ (sort_passes (2 ^ K) f (2 ^ i) arr score target starget cl).2.1 (x + 1))
      ∧ ((i < K ∨ ∀ x, x < 2 ^ K → ∀ c, arr x = some c →
          ∃ x', x' < 2 ^ K ∧ x ≤ x' ∧ arr x' = some c ∧ (cl c).index = (x' : Int)) →
        ∀ x, x < 2 ^ K → ∀ c,
          (sort_passes (2 ^ K) f (2 ^ i) arr score target starget cl).1 x = some c →
          ∃ x', x' < 2 ^ K ∧ x ≤ x'
            ∧ (sort_passes (2 ^ K) f (2 ^ i) arr score target starget cl).1 x' = some c
            ∧ ((sort_passes (2 ^ K) f (2 ^ i) arr score target starget cl).2.2 c).index
                = (x' : Int)) := by
  have hstop : ∀ (i : Nat) (arr : Nat → Option Nat) (score : Nat → ℚ) (cl : Nat → my_clause),
      K ≤ i →
      (∀ x, x + 1 < 2 ^ K → (x + 1) % 2 ^ i ≠ 0 → score x ≤ score (x + 1)) →
      (∀ x, x + 1 < 2 ^ K → score x ≤ score (x + 1))
      ∧ ((i < K ∨ ∀ x, x < 2 ^ K → ∀ c, arr x = some c →
          ∃ x', x' < 2 ^ K ∧ x ≤ x' ∧ arr x' = some c ∧ (cl c).index = (x' : Int)) →
        ∀ x, x < 2 ^ K → ∀ c, arr x = some c →
        ∃ x', x' < 2 ^ K ∧ x ≤ x' ∧ arr x' = some c ∧ (cl c).index = (x' : Int)) := by
    intro i arr score cl hi hin
    refine ⟨?_, ?_⟩
    · intro x hx
      apply hin x hx
      have hle : 2 ^ K ≤ 2 ^ i := Nat.pow_le_pow_right (by norm_num) hi
      rw [Nat.mod_eq_of_lt (by omega)]
      omega
    · intro hidx
      rcases hidx with c | c
      · omega
      · exact c
  intro f
  induction f with
  | zero =>
    intro i arr score target starget cl hK hin
    rw [sort_passes]
    obtain ⟨a, b⟩ := hstop i arr score cl (by omega) hin
    exact ⟨List.Perm.refl _, a, b⟩
  | succ f ih =>
    intro i arr score target starget cl hK hin
    rw [sort_passes]
    by_cases hb : 2 ^ i > 2 ^ K / 2
    · rw [if_pos hb]
      obtain ⟨a, b⟩ := hstop i arr score cl (pow_half_lt K i hb) hin
      exact ⟨List.Perm.refl _, a, b⟩
    · rw [if_neg hb]
      simp only
      obtain ⟨m, m1, m2⟩ := pow_block K i hb
      obtain ⟨p1, p2, p3⟩ := sort_pass_sorted (2 ^ i) m arr score target starget cl
        (Nat.pow_pos (by norm_num)) m1 (by rw [← m2]; exact hin) _ rfl
      rw [← m2] at p1 p2 p3
      have e2 : 2 * 2 ^ i = 2 ^ (i + 1) := by rw [pow_succ]; ring
      rw [e2] at p2 ⊢
      obtain ⟨a, b, c⟩ := ih (i + 1) _ _ arr score _ (by omega) p2
      exact ⟨a.trans p1, b, fun _ => c (Or.inr p3)⟩

theorem count_two {α : Type} [BEq α] [LawfulBEq α] (f : Nat → α) (N x x' : Nat) (a : α)
    (h1 : x < x') (h2 : x' < N) (e1 : f x = a) (e2 : f x' = a) :
    2 ≤ ((List.range N).map f).count a := by
  have hsplit : List.range N = List.range (x + 1) ++ List.range' (x + 1) (N - (x + 1)) := by
    rw [List.range_eq_range', List.range_eq_range']
    have := List.range'_append 0 (x + 1) (N - (x + 1)) 1
    simp only [Nat.zero_add, Nat.one_mul] at this
    rw [this]
    congr 1
    omega
  rw [hsplit, List.map_append, List.count_append]
  have c1 : 1 ≤ ((List.range (x + 1)).map f).count a := by
    apply List.count_pos_iff.mpr
    rw [List.mem_map]
    exact ⟨x, List.mem_range.mpr (by omega), e1⟩
  have c2 : 1 ≤ ((List.range' (x + 1) (N - (x + 1))).map f).count a := by
    apply List.count_pos_iff.mpr
    rw [List.mem_map]
    refine ⟨x', ?_, e2⟩
    rw [List.mem_range'_1]
    omega
  omega

/-- C23: for every size `2^(K+1)` (the powers of two from 2 on) and every
input, `sort_clauses_by_scores` hands back arrays whose (clause, score) pairs
are a permutation of those of the input, with scores that do not go down, and
every clause in the array handed back has as `index` a position that holds it,
the last one; when no clause occurs twice in the input, every clause of the
result has its position as `index`.  The literals of the clauses are not
touched. -/
theorem sort_clauses_by_scores_sorted (cl : Nat → my_clause) (arr : Nat → Option Nat)
    (score : Nat → ℚ) (K : Nat) :
    ((List.range (2 ^ (K + 1))).map
      (sort_pair (sort_clauses_by_scores cl arr score (2 ^ (K + 1))).1
        (sort_clauses_by_scores cl arr score (2 ^ (K + 1))).2.1)).Perm
      ((List.range (2 ^ (K + 1))).map (sort_pair arr score))
    ∧ (∀ x, x + 1 < 2 ^ (K + 1) →
        (sort_clauses_by_scores cl arr score (2 ^ (K + 1))).2.1 x
          ≤ (sort_clauses_by_scores cl arr score (2 ^ (K + 1))).2.1 (x + 1))
    ∧ (∀ x, x < 2 ^ (K + 1) → ∀ c,
        (sort_clauses_by_scores cl arr score (2 ^ (K + 1))).1 x = some c →
        ∃ x', x' < 2 ^ (K + 1) ∧ x ≤ x'
          ∧ (sort_clauses_by_scores cl arr score (2 ^ (K + 1))).1 x' = some c
          ∧ ((sort_clauses_by_scores cl arr score (2 ^ (K + 1))).2.2 c).index = (x' : Int))
    ∧ ((∀ c, ((List.range (2 ^ (K + 1))).map arr).count (some c) ≤ 1) →
        ∀ x, x < 2 ^ (K + 1) → ∀ c,
          (sort_clauses_by_scores cl arr score (2 ^ (K + 1))).1 x = some c →
          ((sort_clauses_by_scores cl arr score (2 ^ (K + 1))).2.2 c).index = (x : Int))
    ∧ (∀ c, ((sort_clauses_by_scores cl arr score (2 ^ (K + 1))).2.2 c).lits = (cl c).lits) := by
  obtain ⟨q1, q2⟩ := sort_clauses_by_scores_perm cl arr score (K + 1)
  have h := sort_passes_sorted (K + 1) (2 ^ (K + 1)) 0 arr score (fun _ => none) (fun _ => 0) cl
    (by
      have := Nat.lt_two_pow (K + 1)
      omega)
    (by
      intro x _ hmod
      rw [pow_zero, Nat.mod_one] at hmod
      exact absurd rfl hmod)
  rw [pow_zero] at h
  obtain ⟨a, b, c0⟩ := h
  have c := c0 (Or.inl (by omega))
  refine ⟨a, b, c, ?_, q2⟩
  intro hd x hx d hxd
  obtain ⟨x', x1, x2, x3, x4⟩ := c x hx d hxd
  rcases Nat.lt_or_ge x x' with lt | ge
  · exfalso
    have h2 := count_two (sort_clauses_by_scores cl arr score (2 ^ (K + 1))).1 (2 ^ (K + 1))
      x x' (some d) lt x1 hxd x3
    have h3 : List.count (some d)
        ((List.range (2 ^ (K + 1))).map (sort_clauses_by_scores cl arr score (2 ^ (K + 1))).1)
        = List.count (some d) ((List.range (2 ^ (K + 1))).map arr) := by
      unfold List.count
      exact List.Perm.countP_eq _ q1
    have h4 := hd d
    omega
  · have e : x' = x := by omega
    rw [← e]
    exact x4

/-- The function `remove_watched_clause` changes the watched lists only. -/
theorem remove_watched_clause_fields (s s1 : my_manager) (l c : Nat)
    (h : remove_watched_clause s l c = some s1) :
    s1.reason = s.reason ∧ s1.cl = s.cl ∧ s1.learned_clause_scores = s.learned_clause_scores
      ∧ s1.status = s.status ∧ s1.clause_score_inc = s.clause_score_inc := by
  unfold remove_watched_clause at h
  split at h
  · exact absurd h (by simp)
  · split at h
    · simp only [Option.some.injEq] at h
      rw [← h]
      exact ⟨rfl, rfl, rfl, rfl, rfl⟩
    · exact absurd h (by simp)

/-- The function `remove_clause` on a clause that is not locked changes no
reason, no clause and no score. -/
theorem remove_clause_unlocked (s s1 : my_manager) (c : Nat) (hl : locked s c = false)
    (h : remove_clause s c = some s1) :
    s1.reason = s.reason ∧ s1.cl = s.cl ∧ s1.learned_clause_scores = s.learned_clause_scores := by
  unfold locked at hl
  split at hl
  · exact absurd hl (by simp)
  · rw [decide_eq_false_iff_not, not_or] at hl
    unfold remove_clause at h
    simp only [if_neg hl.1, if_neg hl.2] at h
    cases h1 : remove_watched_clause s ((s.cl c).lits.getD 0 0) c with
    | none => rw [h1] at h; exact absurd h (by simp)
    | some s2 =>
      rw [h1] at h
      simp only at h
      obtain ⟨a1, a2, a3, _, _⟩ := remove_watched_clause_fields _ _ _ _ h1
      have h' : remove_watched_clause s2 ((s.cl c).lits.getD 1 0) c = some s1 := h
      obtain ⟨b1, b2, b3, _, _⟩ := remove_watched_clause_fields _ _ _ _ h'
      exact ⟨b1.trans a1, b2.trans a2, b3.trans a3⟩

/-- The test of the two removal loops of `reduce_kb` is the condition of the
specification. -/
theorem reduce_kb_test_iff (s0 s : my_manager) (n i c : Nat) (sc : ℚ)
    (hr : s.reason = s0.reason) (hc : ∀ c, (s.cl c).lits = (s0.cl c).lits)
    (hs : s.learned_clause_scores i = sc) :
    (locked s c = false
      ∧ (i < n / 2 ∨ s.learned_clause_scores i < s0.clause_score_inc / (n : ℚ))
      ∧ ¬ (s.cl c).size ≤ 2) ↔ reduce_kb_deletes s0 n i c sc := by
  unfold reduce_kb_deletes locked my_clause.size
  rw [hr, hc c, hs]
  constructor
  · rintro ⟨a, b, d⟩
    rw [if_neg (by omega)] at a
    rw [decide_eq_false_iff_not, not_or] at a
    exact ⟨a.1, a.2, by omega, b⟩
  · rintro ⟨a, b, d, e⟩
    refine ⟨?_, e, by omega⟩
    rw [if_neg (by omega), decide_eq_false_iff_not, not_or]
    exact ⟨a, b⟩

/-- The two removal loops of `reduce_kb` keep, of the sorted (clause, score)
pairs `T` from position `i` on, the pairs the specification keeps, in order,
with the scores moved to the positions `j, j+1, ..`; no reason and no literal
changes. -/
theorem reduce_kb_loop_spec (s0 : my_manager) (n : Nat) :
    ∀ (T : List (Nat × ℚ)) (i j : Nat) (s : my_manager) (kept : List Nat)
      (s1 : my_manager) (kept1 : List Nat),
      s.reason = s0.reason → (∀ c, (s.cl c).lits = (s0.cl c).lits) → j ≤ i →
      (∀ t p, T.get? t = some p → s.learned_clause_scores (i + t) = p.2) →
      reduce_kb_loop n (s0.clause_score_inc / (n : ℚ)) (T.map Prod.fst) i j s kept
        = some (s1, kept1) →
      kept1 = kept ++ (reduce_kb_kept s0 n i T).map Prod.fst
      ∧ s1.reason = s0.reason ∧ (∀ c, (s1.cl c).lits = (s0.cl c).lits)
      ∧ (∀ t p, (reduce_kb_kept s0 n i T).get? t = some p →
          s1.learned_clause_scores (j + t) = p.2)
      ∧ (∀ x, x < j → s1.learned_clause_scores x = s.learned_clause_scores x) := by
  intro T
  induction T with
  | nil =>
    intro i j s kept s1 kept1 hr hc hj hs h
    rw [List.map_nil, reduce_kb_loop] at h
    simp only [Option.some.injEq, Prod.mk.injEq] at h
    rw [← h.1, ← h.2]
    refine ⟨by simp [reduce_kb_kept], hr, hc, ?_, fun _ _ => rfl⟩
    intro t p hp
    simp [reduce_kb_kept] at hp
  | cons p rest ih =>
    intro i j s kept s1 kept1 hr hc hj hs h
    rw [List.map_cons, reduce_kb_loop] at h
    have hsi : s.learned_clause_scores i = p.2 := hs 0 p rfl
    have hiff := reduce_kb_test_iff s0 s n i p.1 p.2 hr hc hsi
    by_cases hd : reduce_kb_deletes s0 n i p.1 p.2
    · rw [if_pos (hiff.mpr hd)] at h
      cases hrm : remove_clause s p.1 with
      | none => rw [hrm] at h; exact absurd h (by simp)
      | some s2 =>
        rw [hrm] at h
        simp only at h
        obtain ⟨a1, a2, a3⟩ := remove_clause_unlocked s s2 p.1 (hiff.mpr hd).1 hrm
        obtain ⟨b1, b2, b3, b4, b5⟩ := ih (i + 1) j s2 kept s1 kept1 (a1.trans hr)
          (fun c => by rw [a2]; exact hc c) (by omega)
          (fun t q hq => by
            rw [a3]
            have := hs (t + 1) q (by simpa using hq)
            rw [← this]
            congr 1
            omega) h
        refine ⟨?_, b2, b3, ?_, ?_⟩
        · rw [b1, reduce_kb_kept, if_pos hd]
        · intro t q hq
          rw [reduce_kb_kept, if_pos hd] at hq
          exact b4 t q hq
        · intro x hx
          rw [b5 x hx, a3]
    · rw [if_neg (fun hh => hd (hiff.mp hh))] at h
      obtain ⟨b1, b2, b3, b4, b5⟩ := ih (i + 1) (j + 1)
        { s with
          cl := (Function.update s.cl p.1 { s.cl p.1 with index := (j : Int) }),
          learned_clause_scores :=
            (Function.update s.learned_clause_scores j (s.learned_clause_scores i)) }
        (kept ++ [p.1]) s1 kept1
        (show s.reason = s0.reason from hr)
        (fun c => by
          show ((Function.update s.cl p.1 { s.cl p.1 with index := (j : Int) }) c).lits = _
          by_cases hcp : c = p.1
          · rw [hcp, Function.update_same]
            exact hc p.1
          · rw [Function.update_noteq hcp]
            exact hc c) (by omega)
        (fun t q hq => by
          show (Function.update s.learned_clause_scores j (s.learned_clause_scores i))
            (i + 1 + t) = q.2
          rw [Function.update_noteq (by omega)]
          have := hs (t + 1) q (by simpa using hq)
          rw [← this]
          congr 1
          omega) h
      have hj0 : s1.learned_clause_scores j = p.2 := by
        rw [b5 j (by omega)]
        show (Function.update s.learned_clause_scores j (s.learned_clause_scores i)) j = p.2
        rw [Function.update_same]
        exact hsi
      refine ⟨?_, b2, b3, ?_, ?_⟩
      · rw [b1, reduce_kb_kept, if_neg hd]
        simp
      · intro t q hq
        rw [reduce_kb_kept, if_neg hd] at hq
        cases t with
        | zero =>
          simp only [List.get?_cons_zero, Option.some.injEq] at hq
          rw [← hq]
          exact hj0
        | succ t =>
          simp only [List.get?_cons_succ] at hq
          have := b4 t q hq
          rw [← this]
          congr 1
          omega
      · intro x hx
        rw [b5 x (by omega)]
        show (Function.update s.learned_clause_scores j (s.learned_clause_scores i)) x = _
        rw [Function.update_noteq (by omega)]



theorem range_split (a N : Nat) (h : a ≤ N) :
    List.range N = List.range a ++ List.range' a (N - a) := by
  rw [List.range_eq_range', List.range_eq_range']
  have := List.range'_append 0 a (N - a) 1
  simp only [Nat.zero_add, Nat.one_mul] at this
  rw [this]
  congr 1
  omega

theorem filterMap_real_pair (res : Nat → Option Nat) (rs : Nat → ℚ) (f : Nat → Nat) :
    ∀ M : List Nat, (M.map (fun x => res (f x))).all Option.isSome = true →
      (M.map (fun x => sort_pair res rs (f x))).filterMap real_pair
        = M.map (fun x => ((res (f x)).getD 0, rs (f x)))
      ∧ (M.map (fun x => res (f x))).filterMap id = M.map (fun x => (res (f x)).getD 0) := by
  intro M
  induction M with
  | nil => intro _; exact ⟨rfl, rfl⟩
  | cons x xs ih =>
    intro h
    simp only [List.map_cons, List.all_cons, Bool.and_eq_true] at h
    obtain ⟨a, b⟩ := ih h.2
    cases hx : res (f x) with
    | none => rw [hx] at h; simp at h
    | some y =>
      constructor
      · simp only [List.map_cons, List.filterMap_cons, real_pair, sort_pair, hx, Option.map_some',
          Option.getD_some]
        rw [← a]
        rfl
      · simp only [List.map_cons, List.filterMap_cons, hx, id_eq, Option.getD_some]
        rw [← b]

/-- The part of the sorted arrays that `reduce_kb` copies back: when it holds
no `NULL`, it holds the learned clauses with their scores, up to order. -/
theorem sorted_tail_pairs (L : List Nat) (sc : Nat → ℚ) (N : Nat) (hN : L.length ≤ N)
    (res : Nat → Option Nat) (rs : Nat → ℚ)
    (hp : ((List.range N).map (sort_pair res rs)).Perm
      ((List.range N).map (sort_pair (fun i => if i < L.length then L.get? i else none)
        (fun i => if i < L.length then sc i else -100))))
    (hall : ((List.range L.length).map (fun kk => res (N - L.length + kk))).all
      Option.isSome = true) :
    ((List.range L.length).map
        (fun kk => ((res (N - L.length + kk)).getD 0, rs (N - L.length + kk)))).Perm
      ((List.range L.length).map (fun i => (L.getD i 0, sc i))) := by
  have hf := List.Perm.filterMap real_pair hp
  have e1 : (List.range N).map (sort_pair res rs)
      = (List.range (N - L.length)).map (sort_pair res rs)
        ++ (List.range L.length).map (fun kk => sort_pair res rs (N - L.length + kk)) := by
    rw [range_split (N - L.length) N (by omega), List.map_append]
    congr 1
    have : N - (N - L.length) = L.length := by omega
    rw [this, List.range'_eq_map_range, List.map_map]
    rfl
  have e2 : ((List.range N).map (sort_pair (fun i => if i < L.length then L.get? i else none)
        (fun i => if i < L.length then sc i else -100))).filterMap real_pair
      = (List.range L.length).map (fun i => (L.getD i 0, sc i)) := by
    rw [range_split L.length N hN, List.map_append, List.filterMap_append]
    have t2 : ((List.range' L.length (N - L.length)).map
        (sort_pair (fun i => if i < L.length then L.get? i else none)
          (fun i => if i < L.length then sc i else -100))).filterMap real_pair = [] := by
      rw [List.filterMap_eq_nil_iff]
      intro p hp
      obtain ⟨i, hi, rfl⟩ := List.mem_map.mp hp
      rw [List.mem_range'_1] at hi
      simp only [sort_pair, real_pair, if_neg (show ¬ i < L.length by omega), Option.map_none']
    rw [t2, List.append_nil, List.filterMap_map]
    apply List.ext_getElem
    · rw [List.length_map, List.length_range]
      have : ∀ M : List Nat, (∀ x ∈ M, x < L.length) →
          (List.filterMap (real_pair ∘ sort_pair (fun i => if i < L.length then L.get? i else none)
            (fun i => if i < L.length then sc i else -100)) M).length = M.length := by
        intro M
        induction M with
        | nil => intro _; rfl
        | cons x xs ih =>
          intro hx
          have hx0 : x < L.length := hx x (List.mem_cons_self _ _)
          have : (real_pair ∘ sort_pair (fun i => if i < L.length then L.get? i else none)
              (fun i => if i < L.length then sc i else -100)) x = some (L.getD x 0, sc x) := by
            simp only [Function.comp, sort_pair, real_pair, if_pos hx0]
            rw [List.get?_eq_getElem?, List.getElem?_eq_getElem hx0, List.getD_eq_getElem _ _ hx0]
            rfl
          rw [List.filterMap_cons, this]
          simp only [List.length_cons]
          rw [ih (fun y hy => hx y (List.mem_cons_of_mem _ hy))]
      rw [this _ (fun x hx => List.mem_range.mp hx), List.length_range]
    · intro i h1 h2
      have key : List.filterMap (real_pair ∘ sort_pair
            (fun i => if i < L.length then L.get? i else none)
            (fun i => if i < L.length then sc i else -100)) (List.range L.length)
          = (List.range L.length).map (fun i => (L.getD i 0, sc i)) := by
        have : ∀ M : List Nat, (∀ x ∈ M, x < L.length) →
            List.filterMap (real_pair ∘ sort_pair
              (fun i => if i < L.length then L.get? i else none)
              (fun i => if i < L.length then sc i else -100)) M
            = M.map (fun i => (L.getD i 0, sc i)) := by
          intro M
          induction M with
          | nil => intro _; rfl
          | cons x xs ih =>
            intro hx
            have hx0 : x < L.length := hx x (List.mem_cons_self _ _)
            have : (real_pair ∘ sort_pair (fun i => if i < L.length then L.get? i else none)
                (fun i => if i < L.length then sc i else -100)) x = some (L.getD x 0, sc x) := by
              simp only [Function.comp, sort_pair, real_pair, if_pos hx0]
              rw [List.get?_eq_getElem?, List.getElem?_eq_getElem hx0,
                List.getD_eq_getElem _ _ hx0]
              rfl
            rw [List.filterMap_cons, this, List.map_cons]
            simp only
            rw [ih (fun y hy => hx y (List.mem_cons_of_mem _ hy))]
        exact this _ (fun x hx => List.mem_range.mp hx)
      simp only [key]
  rw [e2, e1, List.filterMap_append,
    (filterMap_real_pair res rs (fun kk => N - L.length + kk) (List.range L.length) hall).1] at hf
  have hlen := List.Perm.length_eq hf
  simp only [List.length_append, List.length_map, List.length_range] at hlen
  have e3 : List.filterMap real_pair ((List.range (N - L.length)).map (sort_pair res rs)) = [] := by
    apply List.eq_nil_of_length_eq_zero
    omega
  rw [e3, List.nil_append] at hf
  exact hf

/-- The part of the sorted arrays that `reduce_kb` copies back holds no
`NULL` when every score of a learned clause is above the score -100 of the
padding. -/
theorem sorted_tail_some (L : List Nat) (sc : Nat → ℚ) (N : Nat) (hN : L.length ≤ N)
    (res : Nat → Option Nat) (rs : Nat → ℚ)
    (hp : ((List.range N).map (sort_pair res rs)).Perm
      ((List.range N).map (sort_pair (fun i => if i < L.length then L.get? i else none)
        (fun i => if i < L.length then sc i else -100))))
    (hsorted : ∀ x, x + 1 < N → rs x ≤ rs (x + 1))
    (hsc : ∀ i, i < L.length → -100 < sc i) :
    ((List.range L.length).map (fun kk => res (N - L.length + kk))).all Option.isSome = true := by
  have hmono : ∀ d x, x + d < N → rs x ≤ rs (x + d) := by
    intro d
    induction d with
    | zero => intro x _; exact le_refl _
    | succ d ih =>
      intro x hx
      exact le_trans (ih x (by omega)) (hsorted (x + d) (by omega))
  have hin : ∀ x, x < N → ∃ i, i < N
      ∧ res x = (if i < L.length then L.get? i else none)
      ∧ rs x = (if i < L.length then sc i else -100) := by
    intro x hx
    have hm : sort_pair res rs x ∈ (List.range N).map (sort_pair res rs) :=
      List.mem_map.mpr ⟨x, List.mem_range.mpr hx, rfl⟩
    rw [List.Perm.mem_iff hp] at hm
    obtain ⟨i, hi, he⟩ := List.mem_map.mp hm
    simp only [sort_pair, Prod.mk.injEq] at he
    exact ⟨i, List.mem_range.mp hi, he.1.symm, he.2.symm⟩
  rw [List.all_eq_true]
  intro o ho
  obtain ⟨kk, hkk, rfl⟩ := List.mem_map.mp ho
  rw [List.mem_range] at hkk
  by_contra hcon
  have hnone : res (N - L.length + kk) = none := by
    cases hr : res (N - L.length + kk) with
    | none => rfl
    | some y => rw [hr] at hcon; exact absurd rfl hcon
  have hy : N - L.length + kk < N := by omega
  have hry : rs (N - L.length + kk) = -100 := by
    obtain ⟨i, hi, e1, e2⟩ := hin _ hy
    by_cases hil : i < L.length
    · rw [if_pos hil, hnone, List.get?_eq_getElem?, List.getElem?_eq_getElem hil] at e1
      exact absurd e1 (by simp)
    · rw [if_neg hil] at e2
      exact e2
  have hall : ∀ x, x ≤ N - L.length + kk → res x = none := by
    intro x hx
    have hle : rs x ≤ -100 := by
      have := hmono (N - L.length + kk - x) x (by omega)
      have e : x + (N - L.length + kk - x) = N - L.length + kk := by omega
      rw [e, hry] at this
      exact this
    obtain ⟨i, hi, e1, e2⟩ := hin x (by omega)
    by_cases hil : i < L.length
    · rw [if_pos hil] at e2
      have := hsc i hil
      rw [← e2] at this
      exact absurd hle (not_le.mpr this)
    · rw [if_neg hil] at e1
      exact e1
  have hc := List.Perm.countP_eq (fun p : Option Nat × ℚ => p.1.isNone) hp
  have c1 : List.countP (fun p : Option Nat × ℚ => p.1.isNone)
      ((List.range (N - L.length + kk + 1)).map (sort_pair res rs)) = N - L.length + kk + 1 := by
    have := (List.countP_eq_length (p := fun p : Option Nat × ℚ => p.1.isNone)
      (l := (List.range (N - L.length + kk + 1)).map (sort_pair res rs))).mpr (by
        intro p hp
        obtain ⟨x, hx, rfl⟩ := List.mem_map.mp hp
        rw [List.mem_range] at hx
        simp only [sort_pair]
        rw [hall x (by omega)]
        rfl)
    rw [this, List.length_map, List.length_range]
  have c2 : List.countP (fun p : Option Nat × ℚ => p.1.isNone)
      ((List.range L.length).map (sort_pair (fun i => if i < L.length then L.get? i else none)
        (fun i => if i < L.length then sc i else -100))) = 0 := by
    rw [List.countP_eq_zero]
    intro p hp
    obtain ⟨x, hx, rfl⟩ := List.mem_map.mp hp
    rw [List.mem_range] at hx
    simp only [sort_pair]
    rw [if_pos hx, List.get?_eq_getElem?, List.getElem?_eq_getElem hx]
    simp
  have c3 := List.countP_le_length (fun p : Option Nat × ℚ => p.1.isNone)
    (l := (List.range' L.length (N - L.length)).map
      (sort_pair (fun i => if i < L.length then L.get? i else none)
        (fun i => if i < L.length then sc i else -100)))
  rw [List.length_map, List.length_range'] at c3
  have hcL : N - L.length + kk + 1 ≤ List.countP (fun p : Option Nat × ℚ => p.1.isNone)
      ((List.range N).map (sort_pair res rs)) := by
    rw [range_split (N - L.length + kk + 1) N (by omega), List.map_append, List.countP_append, c1]
    omega
  have hcR : List.countP (fun p : Option Nat × ℚ => p.1.isNone)
      ((List.range N).map (sort_pair (fun i => if i < L.length then L.get? i else none)
        (fun i => if i < L.length then sc i else -100))) ≤ N - L.length := by
    rw [range_split L.length N hN, List.map_append, List.countP_append, c2]
    omega
  rw [hc] at hcL
  omega

/-- What the specification keeps: the pairs of the sorted list whose position
does not meet the condition of deletion. -/
theorem reduce_kb_kept_mem (s : my_manager) (n : Nat) :
    ∀ (T : List (Nat × ℚ)) (i : Nat) (p : Nat × ℚ),
      p ∈ reduce_kb_kept s n i T
        ↔ ∃ t, T.get? t = some p ∧ ¬ reduce_kb_deletes s n (i + t) p.1 p.2 := by
  intro T
  induction T with
  | nil =>
    intro i p
    simp [reduce_kb_kept]
  | cons q rest ih =>
    intro i p
    rw [reduce_kb_kept]
    by_cases hd : reduce_kb_deletes s n i q.1 q.2
    · rw [if_pos hd, ih (i + 1) p]
      constructor
      · rintro ⟨t, h1, h2⟩
        refine ⟨t + 1, by simpa using h1, ?_⟩
        have e : i + (t + 1) = i + 1 + t := by omega
        rw [e]; exact h2
      · rintro ⟨t, h1, h2⟩
        cases t with
        | zero =>
          simp only [List.get?_cons_zero, Option.some.injEq] at h1
          rw [← h1] at h2
          exact absurd hd h2
        | succ t =>
          refine ⟨t, by simpa using h1, ?_⟩
          have e : i + (t + 1) = i + 1 + t := by omega
          rw [← e]; exact h2
    · rw [if_neg hd, List.mem_cons, ih (i + 1) p]
      constructor
      · rintro (h | ⟨t, h1, h2⟩)
        · exact ⟨0, by simp [h], by rw [h]; exact hd⟩
        · refine ⟨t + 1, by simpa using h1, ?_⟩
          have e : i + (t + 1) = i + 1 + t := by omega
          rw [e]; exact h2
      · rintro ⟨t, h1, h2⟩
        cases t with
        | zero =>
          simp only [List.get?_cons_zero, Option.some.injEq] at h1
          exact Or.inl h1.symm
        | succ t =>
          refine Or.inr ⟨t, by simpa using h1, ?_⟩
          have e : i + (t + 1) = i + 1 + t := by omega
          rw [← e]; exact h2

/-- C22: `reduce_kb()` on `n ≥ 1` learned clauses.  In a state of the search
whose learned scores are above the score -100 of the padding it returns.
Whenever it returns, there is an arrangement `T` of the (clause, score) pairs
in ascending order of score (a permutation of the pairs that is sorted) such
that the learned clauses afterwards are the pairs of `T` that
`reduce_kb_kept` keeps, in the order of `T`, each with its score at its new
position; a pair is kept exactly when it stands at a position `i` of `T` where
the condition of deletion fails, the condition being: neither
`reason[var(lits[0])]` nor `reason[var(lits[1])]` is the clause, the size is
above 2, and `i < n/2` or the score is below `clause_score_inc / n`.  No
reason and no literal of a clause changes. -/
theorem reduce_kb_deletes_exactly (s : my_manager) (hn : 1 ≤ s.learned_clauses.length) :
    (solve_inv s → (∀ i, i < s.learned_clauses.length → -100 < s.learned_clause_scores i) →
      ∃ s1, reduce_kb s = some s1)
    ∧ ∀ s1, reduce_kb s = some s1 →
      ∃ T : List (Nat × ℚ),
        T.Perm ((List.range s.learned_clauses.length).map
          (fun i => (s.learned_clauses.getD i 0, s.learned_clause_scores i)))
        ∧ T.Pairwise (fun p q => p.2 ≤ q.2)
        ∧ s1.learned_clauses = (reduce_kb_kept s s.learned_clauses.length 0 T).map Prod.fst
        ∧ (∀ j p, (reduce_kb_kept s s.learned_clauses.length 0 T).get? j = some p →
            s1.learned_clause_scores j = p.2)
        ∧ (∀ p, p ∈ reduce_kb_kept s s.learned_clauses.length 0 T
            ↔ ∃ i, T.get? i = some p
              ∧ ¬ (s.reason (var ((s.cl p.1).lits.getD 0 0)) ≠ some p.1
                  ∧ s.reason (var ((s.cl p.1).lits.getD 1 0)) ≠ some p.1
                  ∧ 2 < (s.cl p.1).size
                  ∧ (i < s.learned_clauses.length / 2
                      ∨ p.2 < s.clause_score_inc / (s.learned_clauses.length : ℚ))))
        ∧ s1.reason = s.reason ∧ ∀ c, (s1.cl c).lits = (s.cl c).lits := by
  obtain ⟨⟨K, hK⟩, hN⟩ := next_pow2_spec s.learned_clauses.length
  have hsort := sort_passes_sorted K (2 ^ K) 0
    (fun i => if i < s.learned_clauses.length then s.learned_clauses.get? i else none)
    (fun i => if i < s.learned_clauses.length then s.learned_clause_scores i else -100)
    (fun _ => none) (fun _ => 0) s.cl
    (by have := Nat.lt_two_pow K; omega)
    (by intro x _ hx; rw [pow_zero, Nat.mod_one] at hx; exact absurd rfl hx)
  obtain ⟨_, hl⟩ := sort_clauses_by_scores_perm s.cl
    (fun i => if i < s.learned_clauses.length then s.learned_clauses.get? i else none)
    (fun i => if i < s.learned_clauses.length then s.learned_clause_scores i else -100) K
  have hR : sort_passes (2 ^ K) (2 ^ K) (2 ^ 0)
      (fun i => if i < s.learned_clauses.length then s.learned_clauses.get? i else none)
      (fun i => if i < s.learned_clauses.length then s.learned_clause_scores i else -100)
      (fun _ => none) (fun _ => 0) s.cl
      = sort_clauses_by_scores s.cl
      (fun i => if i < s.learned_clauses.length then s.learned_clauses.get? i else none)
      (fun i => if i < s.learned_clauses.length then s.learned_clause_scores i else -100)
      (2 ^ K) := rfl
  rw [hR] at hsort
  obtain ⟨hp, hsorted, _⟩ := hsort
  have hn0 : ¬ s.learned_clauses.length = 0 := by omega
  rw [hK] at hN
  constructor
  · intro hinv hsc
    have hp0 := sort_clauses_by_scores_perm s.cl
      (fun i => if i < s.learned_clauses.length then s.learned_clauses.get? i else none)
      (fun i => if i < s.learned_clauses.length then s.learned_clause_scores i else -100) K
    unfold reduce_kb
    simp only
    rw [if_neg hn0, hK]
    generalize sort_clauses_by_scores s.cl
      (fun i => if i < s.learned_clauses.length then s.learned_clauses.get? i else none)
      (fun i => if i < s.learned_clauses.length then s.learned_clause_scores i else -100)
      (2 ^ K) = R at hp hsorted hl hp0
    have hall := sorted_tail_some s.learned_clauses s.learned_clause_scores (2 ^ K) hN
      R.1 R.2.1 hp hsorted hsc
    rw [if_pos hall]
    have hperm := sorted_tail_perm s.learned_clauses (2 ^ K) hN _ hp0.1 hall
    have hnd0 : (s.original_clauses ++ s.learned_clauses).Nodup := hinv.1.2.2.2.2.2.2.2.1
    have hsub := store_subst_inv s R.2.2
      (fun kk => if kk < s.learned_clauses.length then
        R.2.1 (2 ^ K - s.learned_clauses.length + kk)
        else s.learned_clause_scores kk)
      s.original_clauses _
      (fun c => by
        unfold clause_ptrs
        rw [List.mem_append, List.mem_append, List.Perm.mem_iff hperm])
      ((List.Perm.append_left _ hperm).nodup_iff.mpr hnd0) hl hinv
    obtain ⟨s2, kept, e, _, _⟩ := reduce_kb_loop_inv s.learned_clauses.length
      (s.clause_score_inc / (s.learned_clauses.length : ℚ))
      (List.filterMap id
        (List.map (fun kk => R.1 (2 ^ K - s.learned_clauses.length + kk))
          (List.range s.learned_clauses.length))) 0 0
      { s with
        cl := R.2.2,
        learned_clause_scores :=
          (fun kk => if kk < s.learned_clauses.length then
            R.2.1 (2 ^ K - s.learned_clauses.length + kk)
            else s.learned_clause_scores kk) } [] (by
        rw [List.nil_append]
        exact hsub)
    rw [e]
    exact ⟨_, rfl⟩
  · intro s1 h
    unfold reduce_kb at h
    simp only at h
    rw [if_neg hn0, hK] at h
    generalize sort_clauses_by_scores s.cl
      (fun i => if i < s.learned_clauses.length then s.learned_clauses.get? i else none)
      (fun i => if i < s.learned_clauses.length then s.learned_clause_scores i else -100)
      (2 ^ K) = R at hp hsorted hl h
    split at h
    · rename_i hall
      have hT := sorted_tail_pairs s.learned_clauses s.learned_clause_scores (2 ^ K) hN
        R.1 R.2.1 hp hall
      have hfm := (filterMap_real_pair R.1 R.2.1
        (fun kk => 2 ^ K - s.learned_clauses.length + kk)
        (List.range s.learned_clauses.length) hall).2
      have hT1 : (List.range s.learned_clauses.length).map
            (fun x => (R.1 (2 ^ K - s.learned_clauses.length + x)).getD 0)
          = ((List.range s.learned_clauses.length).map
            (fun kk => ((R.1 (2 ^ K - s.learned_clauses.length + kk)).getD 0,
              R.2.1 (2 ^ K - s.learned_clauses.length + kk)))).map Prod.fst := by
        rw [List.map_map]
        rfl
      rw [hfm, hT1] at h
      generalize hTd : (List.range s.learned_clauses.length).map
        (fun kk => ((R.1 (2 ^ K - s.learned_clauses.length + kk)).getD 0,
          R.2.1 (2 ^ K - s.learned_clauses.length + kk))) = T at h hT
      have hmono : ∀ d x, x + d < 2 ^ K → R.2.1 x ≤ R.2.1 (x + d) := by
        intro d
        induction d with
        | zero => intro x _; exact le_refl _
        | succ d ih =>
          intro x hx
          exact le_trans (ih x (by omega)) (hsorted (x + d) (by omega))
      have hpw : T.Pairwise (fun p q => p.2 ≤ q.2) := by
        rw [← hTd, List.pairwise_map]
        refine List.Pairwise.imp_of_mem ?_ (List.pairwise_lt_range s.learned_clauses.length)
        · intro a b ha hb hab
          rw [List.mem_range] at ha hb
          have := hmono (b - a) (2 ^ K - s.learned_clauses.length + a) (by omega)
          have e : 2 ^ K - s.learned_clauses.length + a + (b - a)
              = 2 ^ K - s.learned_clauses.length + b := by omega
          rw [e] at this
          exact this
      cases hloop : reduce_kb_loop s.learned_clauses.length
          (s.clause_score_inc / (s.learned_clauses.length : ℚ)) (T.map Prod.fst) 0 0
          { s with
            cl := R.2.2,
            learned_clause_scores :=
              (fun kk => if kk < s.learned_clauses.length then
                R.2.1 (2 ^ K - s.learned_clauses.length + kk)
                else s.learned_clause_scores kk) } [] with
      | none => rw [hloop] at h; exact absurd h (by simp)
      | some r =>
        obtain ⟨s2, kept⟩ := r
        rw [hloop] at h
        simp only [Option.some.injEq] at h
        have hsc : ∀ t p, T.get? t = some p →
            (fun kk => if kk < s.learned_clauses.length then
                R.2.1 (2 ^ K - s.learned_clauses.length + kk)
                else s.learned_clause_scores kk) (0 + t) = p.2 := by
          intro t p htp
          rw [← hTd] at htp
          rw [List.get?_eq_getElem?, List.getElem?_map] at htp
          have hlt : t < s.learned_clauses.length := by
            by_contra hge
            rw [List.getElem?_eq_none (by rw [List.length_range]; omega)] at htp
            exact absurd htp (by simp)
          rw [List.getElem?_eq_getElem (by rw [List.length_range]; exact hlt)] at htp
          simp only [List.getElem_range, Option.map_some', Option.some.injEq] at htp
          rw [← htp]
          simp only [Nat.zero_add, if_pos hlt]
        obtain ⟨b1, b2, b3, b4, _⟩ := reduce_kb_loop_spec s s.learned_clauses.length T 0 0
          { s with
            cl := R.2.2,
            learned_clause_scores :=
              (fun kk => if kk < s.learned_clauses.length then
                R.2.1 (2 ^ K - s.learned_clauses.length + kk)
                else s.learned_clause_scores kk) } [] s2 kept rfl hl (le_refl _) hsc hloop
        refine ⟨T, hT, hpw, ?_, ?_, ?_, ?_, ?_⟩
        · rw [← h, b1, List.nil_append]
        · intro j p hj
          rw [← h]
          have := b4 j p hj
          rw [Nat.zero_add] at this
          exact this
        · intro p
          rw [reduce_kb_kept_mem]
          simp only [Nat.zero_add, reduce_kb_deletes]
        · rw [← h]; exact b2
        · intro c
          rw [← h]; exact b3 c
    · exact absurd h (by simp)

/-- The instance `example_learned` of C22: of the three learned clauses, the one
with the least score goes and the other two stay in ascending order of score. -/
theorem reduce_kb_deletes_exactly_witness :
    1 ≤ example_learned.learned_clauses.length
    ∧ ∃ s1, reduce_kb example_learned = some s1
      ∧ s1.learned_clauses = [3, 1] ∧ s1.learned_clause_scores 0 = 2
      ∧ s1.learned_clause_scores 1 = 3
      ∧ ∃ T : List (Nat × ℚ),
        T.Perm ((List.range example_learned.learned_clauses.length).map
          (fun i => (example_learned.learned_clauses.getD i 0,
            example_learned.learned_clause_scores i)))
        ∧ T.Pairwise (fun p q => p.2 ≤ q.2)
        ∧ s1.learned_clauses
          = (reduce_kb_kept example_learned example_learned.learned_clauses.length 0 T).map
              Prod.fst := by
  refine ⟨by decide, ?_⟩
  have e : (reduce_kb example_learned).map
      (fun s1 => (s1.learned_clauses, s1.learned_clause_scores 0, s1.learned_clause_scores 1))
      = some ([3, 1], 2, 3) := by decide!
  cases h : reduce_kb example_learned with
  | none => rw [h] at e; exact absurd e (by simp)
  | some s1 =>
    rw [h] at e
    simp only [Option.map_some', Option.some.injEq, Prod.mk.injEq] at e
    obtain ⟨T, t1, t2, t3, _⟩ := (reduce_kb_deletes_exactly example_learned (by decide)).2 s1 h
    exact ⟨s1, rfl, e.1, e.2.1, e.2.2, T, t1, t2, t3⟩

theorem sp_frame_refl (s : my_manager) : sp_frame s s := ⟨rfl, rfl, rfl, rfl, rfl, rfl, rfl⟩

theorem sp_frame_trans (s s1 s2 : my_manager) (h1 : sp_frame s s1)
    (h2 : sp_frame s1 s2) : sp_frame s s2 :=
  ⟨h2.1.trans h1.1, h2.2.1.trans h1.2.1, h2.2.2.1.trans h1.2.2.1, h2.2.2.2.1.trans h1.2.2.2.1,
    h2.2.2.2.2.1.trans h1.2.2.2.2.1, h2.2.2.2.2.2.1.trans h1.2.2.2.2.2.1,
    h2.2.2.2.2.2.2.trans h1.2.2.2.2.2.2⟩

theorem bcp_clause_at_sp (slevel : Nat) (s : my_manager) (last clause : Nat)
    (lits1 : List Nat) :
    sp_frame s (bcp_clause_at slevel s last clause lits1).state := by
  unfold bcp_clause_at
  simp only
  split
  · exact ⟨rfl, rfl, rfl, rfl, rfl, rfl, rfl⟩
  · split
    · exact ⟨rfl, rfl, rfl, rfl, rfl, rfl, rfl⟩
    · split
      · exact ⟨rfl, rfl, rfl, rfl, rfl, rfl, rfl⟩
      · split
        · exact ⟨rfl, rfl, rfl, rfl, rfl, rfl, rfl⟩
        · exact ⟨rfl, rfl, rfl, rfl, rfl, rfl, rfl⟩

theorem bcp_clause_sp (slevel neg_lit : Nat) (s : my_manager) (last clause : Nat) :
    sp_frame s (bcp_clause slevel neg_lit s last clause).state := by
  unfold bcp_clause
  exact bcp_clause_at_sp _ _ _ _ _

theorem bcp_watch_loop_sp (slevel neg_lit : Nat) :
    ∀ (rest : List Nat) (s : my_manager) (last : Nat) (kept : List Nat),
      sp_frame s (bcp_watch_loop slevel neg_lit rest s last kept).m := by
  intro rest
  induction rest with
  | nil => intro s last kept; exact ⟨rfl, rfl, rfl, rfl, rfl, rfl, rfl⟩
  | cons clause rest ih =>
    intro s last kept
    have h1 := bcp_clause_sp slevel neg_lit s last clause
    rw [bcp_watch_loop]
    cases hbc : bcp_clause slevel neg_lit s last clause with
    | kept s1 last1 =>
      rw [hbc] at h1
      exact sp_frame_trans _ _ _ h1 (ih s1 last1 _)
    | moved s1 =>
      rw [hbc] at h1
      exact sp_frame_trans _ _ _ h1 (ih s1 last _)
    | conflict s1 =>
      rw [hbc] at h1
      exact h1

theorem bcp_loop_sp (slevel : Nat) :
    ∀ (fuel : Nat) (s : my_manager) (last : Nat) (res : Bool) (s1 : my_manager),
      bcp_loop slevel fuel s last = some (res, s1) → sp_frame s s1 := by
  intro fuel
  induction fuel with
  | zero => intro s last res s1 h; simp [bcp_loop] at h
  | succ f ih =>
    intro s last res s1 h
    rw [bcp_loop] at h
    simp only at h
    split at h
    · simp only [Option.some.injEq, Prod.mk.injEq] at h
      rw [← h.2]
      exact ⟨rfl, rfl, rfl, rfl, rfl, rfl, rfl⟩
    · have hw := bcp_watch_loop_sp slevel (neg (s.status (dequeue s.score s.imp).1))
        (s.watched (watched_index (neg (s.status (dequeue s.score s.imp).1))))
        { s with imp := (dequeue s.score s.imp).2 } last []
      split at h
      · simp only [Option.some.injEq, Prod.mk.injEq] at h
        rw [← h.2]
        exact hw
      · have h2 := ih _ _ res s1 h
        exact sp_frame_trans _ _ _ (sp_frame_trans _ _ _ hw ⟨rfl, rfl, rfl, rfl, rfl, rfl, rfl⟩) h2

theorem bcp_sp (fuel : Nat) (s : my_manager) (l : Nat) (res : Bool) (s1 : my_manager)
    (h : bcp fuel s l = some (res, s1)) : sp_frame s s1 := by
  unfold bcp at h
  simp only at h
  have h2 := bcp_loop_sp _ fuel _ _ res s1 h
  exact sp_frame_trans _ _ _ ⟨rfl, rfl, rfl, rfl, rfl, rfl, rfl⟩ h2

theorem set_decision_sp (fuel : Nat) (s : my_manager) (l : Nat) (res : Bool)
    (s1 : my_manager) (h : set_decision fuel s l = some (res, s1)) : sp_frame s s1 := by
  unfold set_decision at h
  have h1 := bcp_sp fuel _ l res s1 h
  have h0 : sp_frame s (set_decision_start s l) := by
    unfold set_decision_start
    simp only
    split <;> exact ⟨rfl, rfl, rfl, rfl, rfl, rfl, rfl⟩
  exact sp_frame_trans _ _ _ h0 h1

theorem backtrack_loop_sp :
    ∀ (n : Nat) (s : my_manager) (stack : Nat),
      sp_frame s (backtrack_loop n s stack) := by
  intro n
  induction n with
  | zero => intro s stack; exact ⟨rfl, rfl, rfl, rfl, rfl, rfl, rfl⟩
  | succ n ih =>
    intro s stack
    rw [backtrack_loop]
    have h0 : sp_frame s (backtrack_step s stack) := by
      unfold backtrack_step
      simp only
      split <;> exact ⟨rfl, rfl, rfl, rfl, rfl, rfl, rfl⟩
    exact sp_frame_trans _ _ _ h0 (ih _ _)

theorem backtrack_sp (s : my_manager) (dest : Nat) :
    sp_frame s (backtrack s dest) := by
  unfold backtrack
  split
  · exact ⟨rfl, rfl, rfl, rfl, rfl, rfl, rfl⟩
  · exact backtrack_loop_sp _ s _

theorem increment_literal_score_sp (s : my_manager) (l : Nat) :
    sp_frame s (increment_literal_score s l) := by
  unfold increment_literal_score rescale_variable_scores
  simp only
  split <;> exact ⟨rfl, rfl, rfl, rfl, rfl, rfl, rfl⟩

theorem increment_clause_score_sp (s : my_manager) (c : Nat) :
    sp_frame s (increment_clause_score s c) := by
  unfold increment_clause_score rescale_clause_scores
  simp only
  split <;> exact ⟨rfl, rfl, rfl, rfl, rfl, rfl, rfl⟩

theorem sp_frame_cdc (s s1 : my_manager) (cdc : Nat → Nat) (idx : Nat)
    (h : sp_frame s s1) : sp_frame s { s1 with cdc := cdc, cdc_index := idx } := h

theorem dcc_scan_sp (clevel : Nat) :
    ∀ (lits : List Nat) (st : dcc_state), sp_frame st.m (dcc_scan clevel lits st).m := by
  intro lits
  induction lits with
  | nil => intro st; rw [dcc_scan]; exact sp_frame_refl _
  | cons cur rest ih =>
    intro st
    rw [dcc_scan]
    simp only
    have h1 := increment_literal_score_sp st.m cur
    split
    · split
      · exact sp_frame_trans _ _ _ h1 (ih _)
      · exact sp_frame_trans _ _ _ (sp_frame_cdc _ _ _ _ h1) (ih _)
    · exact ih st

theorem dcc_loop_sp (clevel : Nat) :
    ∀ (fuel : Nat) (conf : Option Nat) (next_lit n : Nat) (st st1 : dcc_state) (nl : Nat),
      dcc_loop clevel fuel conf next_lit n st = some (st1, nl) →
      sp_frame st.m st1.m := by
  intro fuel
  induction fuel with
  | zero => intro conf next_lit n st st1 nl h; simp [dcc_loop] at h
  | succ f ih =>
    intro conf next_lit n st st1 nl h
    cases conf with
    | none => simp [dcc_loop] at h
    | some c =>
      rw [dcc_loop] at h
      simp only at h
      have hsc := dcc_scan_sp clevel
        ((st.m.cl c).lits.drop (if next_lit = 0 then 0 else 1)) st
      generalize dcc_scan clevel ((st.m.cl c).lits.drop (if next_lit = 0 then 0 else 1)) st
        = sa at hsc h
      cases hwk : dcc_walk sa.m.assign sa.seen n with
      | none =>
        rw [hwk] at h
        simp at h
      | some k =>
        rw [hwk] at h
        simp only at h
        have hm2 : sp_frame sa.m
            (match sa.m.reason (var (sa.m.assign k)) with
              | some r => if (sa.m.cl r).index ≥ 0 then increment_clause_score sa.m r else sa.m
              | none => sa.m) := by
          cases sa.m.reason (var (sa.m.assign k)) with
          | none => exact sp_frame_refl _
          | some r =>
            simp only
            split
            · exact increment_clause_score_sp _ _
            · exact sp_frame_refl _
        by_cases hgt : sa.num_lits_at_clevel - 1 > 0
        · rw [if_pos hgt] at h
          have := ih _ _ _ _ st1 nl h
          exact sp_frame_trans _ _ _ (sp_frame_trans _ _ _ hsc hm2) this
        · rw [if_neg hgt] at h
          simp only [Option.some.injEq, Prod.mk.injEq] at h
          obtain ⟨h1, _⟩ := h
          rw [← h1]
          exact sp_frame_trans _ _ _ hsc hm2

theorem dcc_min_loop_sp (minl : Nat) :
    ∀ (n i : Nat) (st r : dcc_min_state),
      dcc_min_loop minl n i st = some r → sp_frame st.m r.m := by
  intro n
  induction n with
  | zero =>
    intro i st r h
    rw [dcc_min_loop] at h
    simp only [Option.some.injEq] at h
    rw [← h]
    exact sp_frame_refl _
  | succ n ih =>
    intro i st r h
    rw [dcc_min_loop] at h
    simp only [] at h
    have hk : ∀ (seen1 : Nat → Bool) (asl : Nat),
        dcc_min_loop minl n (i + 1)
          { m := { st.m with cdc := (Function.update st.m.cdc st.j (st.m.cdc i)) },
            seen := seen1, j := st.j + 1, assertion_level := asl } = some r →
        sp_frame st.m r.m := by
      intro seen1 asl hrun
      have := ih (i + 1) _ r hrun
      exact sp_frame_trans _ _ _ ⟨rfl, rfl, rfl, rfl, rfl, rfl, rfl⟩ this
    by_cases hrn : st.m.reason (var (st.m.cdc i)) = none
    · rw [if_pos hrn] at h
      exact hk _ _ h
    · rw [if_neg hrn] at h
      cases hrem : removable st.m st.seen (st.m.cdc i) minl with
      | none =>
        rw [hrem] at h
        simp at h
      | some res =>
        obtain ⟨b, seen1⟩ := res
        rw [hrem] at h
        cases b with
        | false =>
          simp only at h
          exact hk _ _ h
        | true =>
          simp only at h
          exact ih (i + 1) { st with seen := seen1 } r h

theorem derive_conflict_clause_sp (s : my_manager) (conf : Option Nat) (clevel : Nat)
    (size alevel : Nat) (s1 : my_manager)
    (h : derive_conflict_clause s conf clevel = some (size, alevel, s1)) :
    sp_frame s s1 := by
  unfold derive_conflict_clause at h
  simp only at h
  by_cases hc : clevel ≤ 1
  · rw [if_pos hc] at h
    simp only [Option.some.injEq, Prod.mk.injEq] at h
    obtain ⟨_, _, h3⟩ := h
    rw [← h3]
    exact ⟨rfl, rfl, rfl, rfl, rfl, rfl, rfl⟩
  · rw [if_neg hc] at h
    cases hl : dcc_loop clevel (s.assign_top + 1) conf 0 s.assign_top
        { m := { s with assertion_level := 1, cdc := (Function.update s.cdc 0 0),
                        cdc_index := 1 },
          seen := fun _ => false, num_lits_at_clevel := 0 } with
    | none =>
      rw [hl] at h
      simp at h
    | some res =>
      obtain ⟨st1, nl⟩ := res
      rw [hl] at h
      simp only at h
      have h1 := dcc_loop_sp clevel _ _ _ _ _ st1 nl hl
      cases hmin : dcc_min_loop
          (dcc_minl { st1.m with cdc := (Function.update st1.m.cdc 0 (neg nl)) }
            (st1.m.cdc_index - 1) 1 0) (st1.m.cdc_index - 1) 1
          { m := { st1.m with cdc := (Function.update st1.m.cdc 0 (neg nl)) },
            seen := Function.update st1.seen (var nl) true, j := 1, assertion_level := 1 } with
      | none =>
        rw [hmin] at h
        simp at h
      | some r =>
        rw [hmin] at h
        simp only [Option.some.injEq, Prod.mk.injEq] at h
        obtain ⟨_, _, h3⟩ := h
        rw [← h3]
        have h2 := dcc_min_loop_sp _ _ _ _ r hmin
        exact sp_frame_trans _ _ _
          (sp_frame_trans _ _ _ (sp_frame_trans _ _ _ ⟨rfl, rfl, rfl, rfl, rfl, rfl, rfl⟩ h1)
            ⟨rfl, rfl, rfl, rfl, rfl, rfl, rfl⟩) h2

theorem add_conflict_clause_loop_sp (c : Nat) :
    ∀ (n i : Nat) (s : my_manager) (found : Bool),
      sp_frame s (add_conflict_clause_loop c n i s found) := by
  intro n
  induction n with
  | zero => intro i s found; exact ⟨rfl, rfl, rfl, rfl, rfl, rfl, rfl⟩
  | succ n ih =>
    intro i s found
    rw [add_conflict_clause_loop]
    have h1 := increment_literal_score_sp s ((s.cl c).lits.getD i 0)
    split
    · exact sp_frame_trans _ _ _ (sp_frame_trans _ _ _ h1 ⟨rfl, rfl, rfl, rfl, rfl, rfl, rfl⟩) (ih _ _ _)
    · exact sp_frame_trans _ _ _ h1 (ih _ _ _)

theorem add_conflict_clause_sp (s : my_manager) (cdc : Nat) :
    sp_frame s (add_conflict_clause s cdc) := by
  unfold add_conflict_clause declare_watched_literals add_watched_clause
  simp only
  have h1 := add_conflict_clause_loop_sp cdc (s.cl cdc).size 0 s false
  refine sp_frame_trans _ _ _ ?_ (increment_clause_score_sp _ _)
  exact sp_frame_trans _ _ _ h1 ⟨rfl, rfl, rfl, rfl, rfl, rfl, rfl⟩

theorem assert_conflict_clause_sp (fuel : Nat) (s : my_manager) (res : Bool)
    (s1 : my_manager) (h : assert_conflict_clause fuel s = some (res, s1)) :
    sp_frame s s1 := by
  unfold assert_conflict_clause at h
  cases hcc : s.conflict_clause with
  | none =>
    rw [hcc] at h
    simp at h
  | some cc =>
    rw [hcc] at h
    simp only at h
    have hb := bcp_sp fuel _ _ res s1 h
    refine sp_frame_trans _ _ _ ?_ hb
    have h1 : sp_frame s
        (if (s.cl cc).size > 1 then add_conflict_clause s cc else s) := by
      split
      · exact add_conflict_clause_sp s cc
      · exact sp_frame_refl s
    split <;> exact ⟨h1.1, h1.2.1, h1.2.2⟩

theorem remove_watched_clause_sp (s : my_manager) (l c : Nat) (s1 : my_manager)
    (h : remove_watched_clause s l c = some s1) : sp_frame s s1 := by
  unfold remove_watched_clause at h
  split at h
  · simp at h
  · split at h
    · simp only [Option.some.injEq] at h
      rw [← h]
      exact ⟨rfl, rfl, rfl, rfl, rfl, rfl, rfl⟩
    · simp at h

theorem remove_clause_sp (s : my_manager) (c : Nat) (s1 : my_manager)
    (h : remove_clause s c = some s1) : sp_frame s s1 := by
  unfold remove_clause at h
  simp only at h
  have h0 : sp_frame s
      (if s.reason (var ((s.cl c).lits.getD 0 0)) = some c then
        { s with reason := (Function.update s.reason (var ((s.cl c).lits.getD 0 0)) none) }
      else if s.reason (var ((s.cl c).lits.getD 1 0)) = some c then
        { s with reason := (Function.update s.reason (var ((s.cl c).lits.getD 1 0)) none) }
      else s) := by
    split
    · exact ⟨rfl, rfl, rfl, rfl, rfl, rfl, rfl⟩
    · split <;> exact ⟨rfl, rfl, rfl, rfl, rfl, rfl, rfl⟩
  generalize (if s.reason (var ((s.cl c).lits.getD 0 0)) = some c then
        { s with reason := (Function.update s.reason (var ((s.cl c).lits.getD 0 0)) none) }
      else if s.reason (var ((s.cl c).lits.getD 1 0)) = some c then
        { s with reason := (Function.update s.reason (var ((s.cl c).lits.getD 1 0)) none) }
      else s) = sa at h0 h
  cases h1 : remove_watched_clause sa ((s.cl c).lits.getD 0 0) c with
  | none =>
    rw [h1] at h
    simp at h
  | some s2 =>
    rw [h1] at h
    simp only at h
    exact sp_frame_trans _ _ _ (sp_frame_trans _ _ _ h0
      (remove_watched_clause_sp _ _ _ _ h1)) (remove_watched_clause_sp _ _ _ _ h)

theorem simplify_kb_loop_sp :
    ∀ (l : List Nat) (i j : Nat) (s : my_manager) (kept : List Nat) (s1 : my_manager)
      (kept1 : List Nat),
      simplify_kb_loop l i j s kept = some (s1, kept1) → sp_frame s s1 := by
  intro l
  induction l with
  | nil =>
    intro i j s kept s1 kept1 h
    simp only [simplify_kb_loop, Option.some.injEq, Prod.mk.injEq] at h
    rw [← h.1]
    exact sp_frame_refl s
  | cons c rest ih =>
    intro i j s kept s1 kept1 h
    rw [simplify_kb_loop] at h
    split at h
    · cases hr : remove_clause s c with
      | none =>
        rw [hr] at h
        simp at h
      | some s2 =>
        rw [hr] at h
        simp only at h
        exact sp_frame_trans _ _ _ (remove_clause_sp _ _ _ hr) (ih _ _ _ _ _ _ h)
    · refine sp_frame_trans _ _ _ ?_ (ih _ _ _ _ _ _ h)
      exact ⟨rfl, rfl, rfl, rfl, rfl, rfl, rfl⟩

theorem simplify_kb_sp (s s1 : my_manager) (h : simplify_kb s = some s1) :
    sp_frame s s1 := by
  unfold simplify_kb at h
  split at h
  · simp only [Option.some.injEq] at h
    rw [← h]
    exact sp_frame_refl s
  · split at h
    · simp only [Option.some.injEq] at h
      rw [← h]
      exact sp_frame_refl s
    · cases hl : simplify_kb_loop s.learned_clauses 0 0 s [] with
      | none =>
        rw [hl] at h
        simp at h
      | some r =>
        obtain ⟨s2, kept⟩ := r
        rw [hl] at h
        simp only [Option.some.injEq] at h
        rw [← h]
        exact sp_frame_trans _ _ _ (simplify_kb_loop_sp _ _ _ _ _ _ _ hl)
          ⟨rfl, rfl, rfl, rfl, rfl, rfl, rfl⟩

theorem simplify_original_kb_loop_sp :
    ∀ (l : List Nat) (s : my_manager) (kept : List Nat) (s1 : my_manager) (kept1 : List Nat),
      simplify_original_kb_loop l s kept = some (s1, kept1) → sp_frame s s1 := by
  intro l
  induction l with
  | nil =>
    intro s kept s1 kept1 h
    simp only [simplify_original_kb_loop, Option.some.injEq, Prod.mk.injEq] at h
    rw [← h.1]
    exact sp_frame_refl s
  | cons c rest ih =>
    intro s kept s1 kept1 h
    rw [simplify_original_kb_loop] at h
    split at h
    · cases hr : remove_clause s c with
      | none =>
        rw [hr] at h
        simp at h
      | some s2 =>
        rw [hr] at h
        simp only at h
        exact sp_frame_trans _ _ _ (remove_clause_sp _ _ _ hr) (ih _ _ _ _ h)
    · exact ih _ _ _ _ h

theorem simplify_original_kb_sp (s s1 : my_manager)
    (h : simplify_original_kb s = some s1) : sp_frame s s1 := by
  unfold simplify_original_kb at h
  split at h
  · simp only [Option.some.injEq] at h
    rw [← h]
    exact sp_frame_refl s
  · cases hl : simplify_original_kb_loop s.original_clauses s [] with
    | none =>
      rw [hl] at h
      simp at h
    | some r =>
      obtain ⟨s2, kept⟩ := r
      rw [hl] at h
      simp only [Option.some.injEq] at h
      rw [← h]
      exact sp_frame_trans _ _ _ (simplify_original_kb_loop_sp _ _ _ _ _ hl)
        ⟨rfl, rfl, rfl, rfl, rfl, rfl, rfl⟩

theorem reduce_kb_loop_sp (n : Nat) (extra_lim : ℚ) :
    ∀ (l : List Nat) (i j : Nat) (s : my_manager) (kept : List Nat) (s1 : my_manager)
      (kept1 : List Nat),
      reduce_kb_loop n extra_lim l i j s kept = some (s1, kept1) → sp_frame s s1 := by
  intro l
  induction l with
  | nil =>
    intro i j s kept s1 kept1 h
    simp only [reduce_kb_loop, Option.some.injEq, Prod.mk.injEq] at h
    rw [← h.1]
    exact sp_frame_refl s
  | cons c rest ih =>
    intro i j s kept s1 kept1 h
    rw [reduce_kb_loop] at h
    split at h
    · cases hr : remove_clause s c with
      | none =>
        rw [hr] at h
        simp at h
      | some s2 =>
        rw [hr] at h
        simp only at h
        exact sp_frame_trans _ _ _ (remove_clause_sp _ _ _ hr) (ih _ _ _ _ _ _ h)
    · refine sp_frame_trans _ _ _ ?_ (ih _ _ _ _ _ _ h)
      exact ⟨rfl, rfl, rfl, rfl, rfl, rfl, rfl⟩

theorem reduce_kb_sp (s s1 : my_manager) (h : reduce_kb s = some s1) :
    sp_frame s s1 := by
  unfold reduce_kb at h
  simp only at h
  split at h
  · simp only [Option.some.injEq] at h
    rw [← h]
    exact sp_frame_refl s
  · split at h
    · split at h
      · simp at h
      · rename_i s2 kept hl
        simp only [Option.some.injEq] at h
        rw [← h]
        have h2 := reduce_kb_loop_sp _ _ _ _ _ _ _ _ _ hl
        exact ⟨h2.1, h2.2.1, h2.2.2⟩
    · simp at h

theorem select_variable_loop_sp :
    ∀ (f : Nat) (s : my_manager) (v : Nat) (s1 : my_manager),
      select_variable_loop f s = some (v, s1) → sp_frame s s1 := by
  intro f
  induction f with
  | zero => intro s v s1 h; simp [select_variable_loop] at h
  | succ f ih =>
    intro s v s1 h
    rw [select_variable_loop] at h
    split at h
    · simp only [Option.some.injEq, Prod.mk.injEq] at h
      rw [← h.2]
      exact sp_frame_refl s
    · simp only at h
      split at h
      · simp only [Option.some.injEq, Prod.mk.injEq] at h
        rw [← h.2]
        exact ⟨rfl, rfl, rfl, rfl, rfl, rfl, rfl⟩
      · have h2 := ih _ _ _ h
        exact ⟨h2.1, h2.2.1, h2.2.2⟩

theorem select_variable_sp (s : my_manager) (v : Nat) (s1 : my_manager)
    (h : select_variable s = some (v, s1)) : sp_frame s s1 :=
  select_variable_loop_sp _ s v s1 h

theorem sp_inv_of_frame (s s1 : my_manager) (h : sp_inv s) (hf : sp_frame s s1) : sp_inv s1 := by
  obtain ⟨f1, f2, f3, f4, f5, f6, f7⟩ := hf
  unfold sp_inv
  rw [f1, f2, f3, f4, f5, f6, f7]
  exact h

/-- The function `analyze_conflict` leaves the conflict counter and the
schedule of progress saving as its first block sets them, with the counter
incremented. -/
theorem analyze_conflict_sp (s : my_manager) (conf : Option Nat) (clevel : Nat)
    (s1 : my_manager) (h : analyze_conflict s conf clevel = some s1) :
    s1.conflicts = s.conflicts + 1 ∧ s1.on_th_inc = s.on_th_inc ∧ s1.off_th_inc = s.off_th_inc
    ∧ (s.conflicts < s.next_sp_switch →
        s1.save_progress = s.save_progress ∧ s1.next_sp_switch = s.next_sp_switch
        ∧ s1.on_th = s.on_th ∧ s1.off_th = s.off_th)
    ∧ (s.conflicts ≥ s.next_sp_switch → 1 - s.save_progress ≠ 0 →
        s1.save_progress = 1 - s.save_progress
        ∧ s1.next_sp_switch = wrap32 (s.next_sp_switch + s.off_th)
        ∧ s1.on_th = wrap32 (s.on_th + s.on_th_inc) ∧ s1.off_th = s.off_th)
    ∧ (s.conflicts ≥ s.next_sp_switch → 1 - s.save_progress = 0 →
        s1.save_progress = 1 - s.save_progress
        ∧ s1.next_sp_switch = wrap32 (s.next_sp_switch + s.on_th)
        ∧ s1.on_th = s.on_th ∧ s1.off_th = wrap32 (s.off_th + s.off_th_inc)) := by
  unfold analyze_conflict at h
  simp only at h
  have key : ∀ m : my_manager,
      (match derive_conflict_clause
          { m with conflict_level := clevel, conflicts := m.conflicts + 1 } conf clevel with
        | none => none
        | some (size, assertion_level, s3) =>
          if size > 0 then
            some { s3 with
              assertion_level := assertion_level,
              cl := (Function.update s3.cl s3.alloc_next
                { index := 1, lits := List.map s3.cdc (List.range size) }),
              conflict_clause := some s3.alloc_next,
              alloc_next := s3.alloc_next + 1 }
          else
            some { s3 with assertion_level := 0, conflict_clause := none }) = some s1 →
      sp_frame { m with conflicts := m.conflicts + 1 } s1 := by
    intro m hh
    cases hd : derive_conflict_clause
        { m with conflict_level := clevel, conflicts := m.conflicts + 1 } conf clevel with
    | none =>
      rw [hd] at hh
      simp at hh
    | some res =>
      obtain ⟨size, alevel, s3⟩ := res
      rw [hd] at hh
      simp only at hh
      have h3 := derive_conflict_clause_sp _ _ _ _ _ _ hd
      split at hh
      · simp only [Option.some.injEq] at hh
        rw [← hh]
        exact h3
      · simp only [Option.some.injEq] at hh
        rw [← hh]
        exact h3
  by_cases hc : s.conflicts ≥ s.next_sp_switch
  · rw [if_pos hc] at h
    by_cases hsp : 1 - s.save_progress ≠ 0
    · rw [if_pos hsp] at h
      obtain ⟨f1, f2, f3, f4, f5, f6, f7⟩ := key
        { s with
          save_progress := (1 - s.save_progress),
          on_th := wrap32 (s.on_th + s.on_th_inc),
          next_sp_switch := wrap32 (s.next_sp_switch + s.off_th) } h
      exact ⟨f1, f6, f7, fun hlt => absurd hc (not_le.mpr hlt), fun _ _ => ⟨f2, f3, f4, f5⟩,
        fun _ h0 => absurd h0 hsp⟩
    · rw [if_neg hsp] at h
      obtain ⟨f1, f2, f3, f4, f5, f6, f7⟩ := key
        { s with
          save_progress := (1 - s.save_progress),
          off_th := wrap32 (s.off_th + s.off_th_inc),
          next_sp_switch := wrap32 (s.next_sp_switch + s.on_th) } h
      exact ⟨f1, f6, f7, fun hlt => absurd hc (not_le.mpr hlt), fun _ h0 => absurd h0 hsp,
        fun _ _ => ⟨f2, f3, f4, f5⟩⟩
  · rw [if_neg hc] at h
    obtain ⟨f1, f2, f3, f4, f5, f6, f7⟩ := key s h
    exact ⟨f1, f6, f7, fun _ => ⟨f2, f3, f4, f5⟩, fun hge => absurd hge hc,
      fun hge => absurd hge hc⟩

theorem wrap32_small (x : Int) (h1 : -2147483648 ≤ x) (h2 : x ≤ 2147483647) : wrap32 x = x := by
  unfold wrap32
  omega

/-- One call of `analyze_conflict` in a state on the schedule of progress
saving. -/
theorem analyze_conflict_schedule (s : my_manager) (conf : Option Nat) (clevel : Nat)
    (s1 : my_manager) (hi : sp_inv s) (h : analyze_conflict s conf clevel = some s1) :
    sp_inv s1 ∧ s1.conflicts = s.conflicts + 1
    ∧ (s.conflicts ≤ 2147483600 →
      (s1.save_progress = 1 ↔ 100 ≤ s.conflicts ∧ (s.conflicts - 100) % 500 < 400)
      ∧ (s1.save_progress = 0 ∨ s1.save_progress = 1)
      ∧ (s1.save_progress ≠ s.save_progress
          ↔ s.conflicts % 500 = 100 ∨ (500 ≤ s.conflicts ∧ s.conflicts % 500 = 0))
      ∧ (s1.save_progress ≠ s.save_progress → s.conflicts = s.next_sp_switch)
      ∧ (s1.save_progress ≠ s.save_progress → s1.save_progress = 1 →
          s1.next_sp_switch = wrap32 (s.conflicts + s.off_th))
      ∧ (s1.save_progress ≠ s.save_progress → s1.save_progress = 0 →
          s1.next_sp_switch = s.conflicts + s.on_th)
      ∧ (s1.save_progress = s.save_progress → s1.next_sp_switch = s.next_sp_switch)) := by
  obtain ⟨a1, a2, a3, a4, a5, a6⟩ := analyze_conflict_sp s conf clevel s1 h
  obtain ⟨t1, t2, t3, t4, hsch, _⟩ := hi
  have hth : s1.on_th = 100 ∧ s1.off_th = 400 ∧ s1.on_th_inc = 0 ∧ s1.off_th_inc = 0 := by
    by_cases hc : s.conflicts ≥ s.next_sp_switch
    · by_cases hsp : 1 - s.save_progress ≠ 0
      · obtain ⟨_, _, b3, b4⟩ := a5 hc hsp
        rw [t1, t3] at b3
        exact ⟨by rw [b3]; exact wrap32_small _ (by decide) (by decide), by omega, by omega,
          by omega⟩
      · obtain ⟨_, _, b3, b4⟩ := a6 hc (not_not.mp hsp)
        rw [t2, t4] at b4
        exact ⟨by omega, by rw [b4]; exact wrap32_small _ (by decide) (by decide), by omega,
          by omega⟩
    · obtain ⟨_, _, b3, b4⟩ := a4 (not_le.mp hc)
      exact ⟨by omega, by omega, by omega, by omega⟩
  have main : s.conflicts ≤ 2147483600 →
      (s1.conflicts ≤ 2147483600 → ∃ k : Int, 0 ≤ k
        ∧ ((s1.save_progress = 0 ∧ s1.next_sp_switch = 100 + 500 * k
              ∧ 500 * k ≤ s1.conflicts ∧ (k = 0 ∨ 500 * k < s1.conflicts)
              ∧ s1.conflicts ≤ 100 + 500 * k)
          ∨ (s1.save_progress = 1 ∧ s1.next_sp_switch = 500 + 500 * k
              ∧ 100 + 500 * k < s1.conflicts ∧ s1.conflicts ≤ 500 + 500 * k)))
      ∧ (s1.save_progress = 1 ↔ 100 ≤ s.conflicts ∧ (s.conflicts - 100) % 500 < 400)
      ∧ (s1.save_progress = 0 ∨ s1.save_progress = 1)
      ∧ (s1.save_progress ≠ s.save_progress
          ↔ s.conflicts % 500 = 100 ∨ (500 ≤ s.conflicts ∧ s.conflicts % 500 = 0))
      ∧ (s1.save_progress ≠ s.save_progress → s.conflicts = s.next_sp_switch)
      ∧ (s1.save_progress ≠ s.save_progress → s1.save_progress = 1 →
          s1.next_sp_switch = wrap32 (s.conflicts + s.off_th))
      ∧ (s1.save_progress ≠ s.save_progress → s1.save_progress = 0 →
          s1.next_sp_switch = s.conflicts + s.on_th)
      ∧ (s1.save_progress = s.save_progress → s1.next_sp_switch = s.next_sp_switch) := by
    intro hle
    obtain ⟨k, hk, hph⟩ := hsch hle
    rcases hph with ⟨p1, p2, p3, p5, p4⟩ | ⟨p1, p2, p3, p4⟩
    · by_cases hc : s.conflicts ≥ s.next_sp_switch
      · obtain ⟨b1, b2, b3, b4⟩ := a5 hc (by rw [p1]; decide)
        rw [p1] at b1
        have b1' : s1.save_progress = 1 := b1
        have e : s.next_sp_switch = s.conflicts := by omega
        refine ⟨?_, ?_, Or.inr b1', ?_, ?_, ?_, ?_, ?_⟩
        · intro hle1
          have b2' : s1.next_sp_switch = s.next_sp_switch + s.off_th := by
            rw [b2]
            exact wrap32_small _ (by omega) (by omega)
          exact ⟨k, hk, Or.inr ⟨b1', by omega, by omega, by omega⟩⟩
        · constructor
          · intro _; omega
          · intro _; exact b1'
        · constructor
          · intro _; omega
          · intro _; omega
        · intro _; omega
        · intro _ _
          rw [b2, e]
        · intro _ h0; omega
        · intro he; omega
      · have hlt : s.conflicts < s.next_sp_switch := not_le.mp hc
        obtain ⟨b1, b2, b3, b4⟩ := a4 hlt
        refine ⟨?_, ?_, Or.inl (by omega), ?_, ?_, ?_, ?_, ?_⟩
        · intro _
          exact ⟨k, hk, Or.inl ⟨by omega, by omega, by omega, by omega, by omega⟩⟩
        · constructor
          · intro _; omega
          · intro _; omega
        · constructor
          · intro hne; exact absurd b1 hne
          · intro _; omega
        · intro hne; exact absurd b1 hne
        · intro hne; exact absurd b1 hne
        · intro hne; exact absurd b1 hne
        · intro _; exact b2
    · by_cases hc : s.conflicts ≥ s.next_sp_switch
      · obtain ⟨b1, b2, b3, b4⟩ := a6 hc (by rw [p1])
        rw [p1] at b1
        have b1' : s1.save_progress = 0 := b1
        have b2' : s1.next_sp_switch = s.next_sp_switch + s.on_th := by
          rw [b2]
          exact wrap32_small _ (by omega) (by omega)
        refine ⟨?_, ?_, Or.inl b1', ?_, ?_, ?_, ?_, ?_⟩
        · intro _
          exact ⟨k + 1, by omega, Or.inl ⟨b1', by omega, by omega, by omega, by omega⟩⟩
        · constructor
          · intro _; omega
          · intro _; omega
        · constructor
          · intro _; omega
          · intro _; omega
        · intro _; omega
        · intro _ h1; omega
        · intro _ _; omega
        · intro he; omega
      · have hlt : s.conflicts < s.next_sp_switch := not_le.mp hc
        obtain ⟨b1, b2, b3, b4⟩ := a4 hlt
        refine ⟨?_, ?_, Or.inr (by omega), ?_, ?_, ?_, ?_, ?_⟩
        · intro _
          exact ⟨k, hk, Or.inr ⟨by omega, by omega, by omega, by omega⟩⟩
        · constructor
          · intro _; omega
          · intro _; omega
        · constructor
          · intro hne; exact absurd b1 hne
          · intro _; omega
        · intro hne; exact absurd b1 hne
        · intro hne; exact absurd b1 hne
        · intro hne; exact absurd b1 hne
        · intro _; exact b2
  refine ⟨⟨hth.1, hth.2.1, hth.2.2.1, hth.2.2.2, ?_, ?_⟩, a1, fun hle => (main hle).2⟩
  · intro hle1
    exact (main (by omega)).1 hle1
  · intro heq
    have hc0 : s.conflicts = 2147483600 := by omega
    obtain ⟨_, m1, m2, m3, _, m5, _, _⟩ := main (by omega)
    have hon : s1.save_progress = 1 := m1.mpr (by rw [hc0]; decide)
    have hne : s1.save_progress ≠ s.save_progress := m3.mpr (Or.inl (by rw [hc0]; decide))
    refine ⟨hon, ?_⟩
    rw [m5 hne hon, hc0, t2]
    decide

/-- The call of `analyze_conflict` after the one made with the counter at
2147483600: the next switch has left the range of `int`, the test
`conflicts>=next_sp_switch` holds, and the flag is turned off again. -/
theorem analyze_conflict_wrapped (s : my_manager) (conf : Option Nat) (clevel : Nat)
    (s1 : my_manager) (h1 : s.conflicts = 2147483601) (h2 : s.save_progress = 1)
    (h3 : s.next_sp_switch = wrap32 (2147483600 + 400))
    (h : analyze_conflict s conf clevel = some s1) :
    s1.save_progress = 0
    ∧ ¬ (s1.save_progress = 1 ↔ 100 ≤ s.conflicts ∧ (s.conflicts - 100) % 500 < 400) := by
  obtain ⟨_, _, _, _, _, a6⟩ := analyze_conflict_sp s conf clevel s1 h
  have hw : wrap32 (2147483600 + 400) = -2147483296 := by decide
  obtain ⟨b1, _⟩ := a6 (by rw [h3, hw, h1]; decide) (by rw [h2])
  rw [h2] at b1
  have b1' : s1.save_progress = 0 := b1
  refine ⟨b1', ?_⟩
  rw [b1', h1]
  decide

theorem solve_conflict_loop_sp_inv (bfuel : Nat) :
    ∀ (f : Nat) (s : my_manager) (res : Bool) (result : Int) (s1 : my_manager),
      sp_inv s → solve_conflict_loop bfuel f s res = some (result, s1) → sp_inv s1 := by
  intro f
  induction f with
  | zero => intro s res result s1 _ h; simp [solve_conflict_loop] at h
  | succ f ih =>
    intro s res result s1 hi h
    rw [solve_conflict_loop] at h
    by_cases hr : res = true
    · rw [if_pos hr] at h
      simp only [Option.some.injEq, Prod.mk.injEq] at h
      rw [← h.2]
      exact hi
    · rw [if_neg hr] at h
      cases ha : analyze_conflict s s.conflicting_clause s.decision_level with
      | none =>
        rw [ha] at h
        simp at h
      | some sa =>
        rw [ha] at h
        simp only at h
        have h1 := (analyze_conflict_schedule _ _ _ _ hi ha).1
        by_cases hz : sa.assertion_level = 0
        · rw [if_pos hz] at h
          simp only [Option.some.injEq, Prod.mk.injEq] at h
          rw [← h.2]
          exact h1
        · rw [if_neg hz] at h
          cases hac : assert_conflict_clause bfuel (backtrack sa (sa.assertion_level + 1)) with
          | none =>
            rw [hac] at h
            simp at h
          | some r =>
            obtain ⟨res1, s3⟩ := r
            rw [hac] at h
            simp only at h
            have h2 := backtrack_sp sa (sa.assertion_level + 1)
            have h3 := assert_conflict_clause_sp _ _ _ _ hac
            exact ih _ _ _ _ (sp_inv_of_frame _ _ (sp_inv_of_frame _ _ h1 h2) h3) h

theorem solve_restart_sp (s s1 : my_manager) (h : solve_restart s = some s1) :
    sp_frame s s1 := by
  unfold solve_restart at h
  split at h
  · simp only at h
    have h1 := backtrack_sp s 2
    have h2 := simplify_original_kb_sp _ _ h
    exact sp_frame_trans _ _ _ h1 ⟨h2.1, h2.2.1, h2.2.2.1, h2.2.2.2.1, h2.2.2.2.2.1,
      h2.2.2.2.2.2.1, h2.2.2.2.2.2.2⟩
  · simp only [Option.some.injEq] at h
    rw [← h]
    exact sp_frame_refl s

theorem solve_manage_sp (s s3 : my_manager) (h3 : solve_manage s = some s3) :
    sp_frame s s3 := by
  unfold solve_manage at h3
  cases h1 : solve_restart s with
  | none => rw [h1] at h3; simp at h3
  | some s1 =>
    rw [h1] at h3
    simp only at h3
    have f1 := solve_restart_sp s s1 h1
    split at h3
    · simp at h3
    · rename_i s2 h2
      have f2 : sp_frame s1 s2 := by
        split at h2
        · exact simplify_kb_sp _ _ h2
        · simp only [Option.some.injEq] at h2
          rw [← h2]
          exact sp_frame_refl s1
      split at h3
      · exact sp_frame_trans _ _ _ f1 (sp_frame_trans _ _ _ f2 (reduce_kb_sp _ _ h3))
      · simp only [Option.some.injEq] at h3
        rw [← h3]
        exact sp_frame_trans _ _ _ f1 f2

theorem read_clause_sp (cc : Nat) (s s1 : my_manager) (line : List Int)
    (h : read_clause cc s line = some s1) : sp_frame s s1 := by
  unfold read_clause at h
  cases h1 : read_literals s.vc s.status line [] with
  | none => rw [h1] at h; simp at h
  | some r =>
    obtain ⟨kept, skip⟩ := r
    rw [h1] at h
    simp only at h
    split at h
    · simp at h
    · split at h
      · simp only [Option.some.injEq] at h
        rw [← h]; exact sp_frame_refl s
      · cases h2 : dedupe_loop (kept.length + 1) 0 0 (sort_literals kept ++ [0]) with
        | none =>
          rw [h2] at h
          simp only [Option.some.injEq] at h
          rw [← h]; exact sp_frame_refl s
        | some q =>
          obtain ⟨lits, n⟩ := q
          rw [h2] at h
          simp only at h
          have key : ∀ m : my_manager, sp_frame s m →
              (if m.original_clauses.length < cc then
                some (init_clause m (lits.take (n - 1)) m.original_clauses.length)
              else none) = some s1 → sp_frame s s1 := by
            intro m hm hh
            split at hh
            · simp only [Option.some.injEq] at hh
              rw [← hh]
              exact sp_frame_trans _ _ _ hm ⟨rfl, rfl, rfl, rfl, rfl, rfl, rfl⟩
            · simp at hh
          by_cases hn2 : n = 2
          · rw [if_pos hn2] at h
            split at h
            · simp only [Option.some.injEq] at h
              rw [← h]; exact ⟨rfl, rfl, rfl, rfl, rfl, rfl, rfl⟩
            · simp only [Option.some.injEq] at h
              rw [← h]; exact sp_frame_refl s
          · rw [if_neg hn2] at h
            by_cases hn1 : n = 1
            · rw [if_pos hn1] at h
              exact key { s with ok := 0 } ⟨rfl, rfl, rfl, rfl, rfl, rfl, rfl⟩ h
            · rw [if_neg hn1] at h
              exact key s (sp_frame_refl s) h

theorem read_clauses_sp (cc : Nat) :
    ∀ (lines : List (List Int)) (s s1 : my_manager),
      read_clauses cc lines s = some s1 → sp_frame s s1 := by
  intro lines
  induction lines with
  | nil =>
    intro s s1 h
    rw [read_clauses] at h
    simp only [Option.some.injEq] at h
    rw [← h]; exact sp_frame_refl s
  | cons line rest ih =>
    intro s s1 h
    rw [read_clauses] at h
    cases h1 : read_clause cc s line with
    | none => rw [h1] at h; simp at h
    | some s2 =>
      rw [h1] at h
      exact sp_frame_trans _ _ _ (read_clause_sp _ _ _ _ h1) (ih _ _ h)

theorem init_manager_sp_inv (vc : Nat) : sp_inv (init_manager vc) :=
  ⟨rfl, rfl, rfl, rfl, fun _ => ⟨0, le_refl 0, Or.inl ⟨rfl, rfl,
    by show (500 * 0 : Int) ≤ 0; decide,
    Or.inl rfl, by show (0 : Int) ≤ 100 + 500 * 0; decide⟩⟩,
    fun h => absurd (show (0 : Int) = 2147483601 from h) (by decide)⟩

theorem init_watched_literals_sp :
    ∀ (L : List Nat) (s s1 : my_manager),
      init_watched_literals L s = some s1 → sp_frame s s1 := by
  intro L
  induction L with
  | nil =>
    intro s s1 h
    rw [init_watched_literals] at h
    simp only [Option.some.injEq] at h
    rw [← h]; exact sp_frame_refl s
  | cons c rest ih =>
    intro s s1 h
    rw [init_watched_literals] at h
    split at h
    · simp at h
    · have := ih _ _ h
      exact sp_frame_trans _ _ _ (by
        unfold declare_watched_literals add_watched_clause
        exact ⟨rfl, rfl, rfl, rfl, rfl, rfl, rfl⟩) this

theorem insert_all_sp : ∀ (n i : Nat) (s : my_manager), sp_frame s (insert_all n i s) := by
  intro n
  induction n with
  | zero => intro i s; rw [insert_all]; exact sp_frame_refl s
  | succ n ih =>
    intro i s
    rw [insert_all]
    exact sp_frame_trans _ _ _ ⟨rfl, rfl, rfl, rfl, rfl, rfl, rfl⟩ (ih _ _)

theorem process_unit_literal_queue_sp (fuel : Nat) (s : my_manager) (res : Bool)
    (s1 : my_manager) (h : process_unit_literal_queue fuel s = some (res, s1)) :
    sp_frame s s1 := by
  unfold process_unit_literal_queue at h
  simp only at h
  split at h
  · split at h
    · simp at h
    · rename_i r2 s2 hb
      simp only [Option.some.injEq, Prod.mk.injEq] at h
      have := bcp_sp fuel _ _ _ _ hb
      rw [← h.2]
      exact ⟨this.1, this.2.1, this.2.2.1, this.2.2.2.1, this.2.2.2.2.1, this.2.2.2.2.2.1,
        this.2.2.2.2.2.2⟩
  · simp only [Option.some.injEq, Prod.mk.injEq] at h
    rw [← h.2]
    exact ⟨rfl, rfl, rfl, rfl, rfl, rfl, rfl⟩

theorem finish_up_init_manager_sp (fuel : Nat) (s : my_manager) (res : Bool)
    (s1 : my_manager) (h : finish_up_init_manager fuel s = some (res, s1)) :
    sp_frame s s1 := by
  unfold finish_up_init_manager at h
  cases h1 : init_watched_literals s.original_clauses s with
  | none => rw [h1] at h; simp at h
  | some sa =>
    rw [h1] at h
    simp only at h
    have f1 := init_watched_literals_sp _ _ _ h1
    have f2 := insert_all_sp sa.vc 1 sa
    cases h2 : process_unit_literal_queue fuel (insert_all sa.vc 1 sa) with
    | none => rw [h2] at h; simp at h
    | some r =>
      obtain ⟨r1, s3⟩ := r
      rw [h2] at h
      simp only at h
      have f3 := process_unit_literal_queue_sp _ _ _ _ h2
      have f03 := sp_frame_trans _ _ _ (sp_frame_trans _ _ _ f1 f2) f3
      split at h
      · simp only [Option.some.injEq, Prod.mk.injEq] at h
        rw [← h.2]; exact f03
      · cases h4 : simplify_original_kb s3 with
        | none => rw [h4] at h; simp at h
        | some s4 =>
          rw [h4] at h
          simp only [Option.some.injEq, Prod.mk.injEq] at h
          have f4 := simplify_original_kb_sp _ _ h4
          rw [← h.2]
          exact sp_frame_trans _ _ _ f03 ⟨f4.1, f4.2.1, f4.2.2.1, f4.2.2.2.1, f4.2.2.2.2.1,
            f4.2.2.2.2.2.1, f4.2.2.2.2.2.2⟩

/-- Every state at the head of the main loop of `solve` is on the schedule of
progress saving. -/
theorem loop_entry_sp_inv (bfuel cfuel : Nat) (s : my_manager)
    (h : loop_entry bfuel cfuel s) : sp_inv s := by
  induction h with
  | first vc cc lines s0 s h0 h1 =>
    unfold read_cnf at h0
    exact sp_inv_of_frame _ _ (sp_inv_of_frame _ _ (init_manager_sp_inv vc)
      (read_clauses_sp _ _ _ _ h0)) (finish_up_init_manager_sp _ _ _ _ h1)
  | next s s3 s4 s5 s6 v res result _ hm hsel _ hd hc _ ih =>
    have i3 := sp_inv_of_frame _ _ ih (solve_manage_sp _ _ hm)
    have i4 := sp_inv_of_frame _ _ i3 (select_variable_sp _ _ _ hsel)
    have i5 := sp_inv_of_frame _ _ i4 (set_decision_sp _ _ _ _ _ hd)
    exact solve_conflict_loop_sp_inv bfuel cfuel _ _ _ _ i5 hc

/-- Every state in which `solve` calls `analyze_conflict` is on the schedule
of progress saving. -/
theorem conflict_point_sp_inv (bfuel cfuel : Nat) (s : my_manager)
    (h : conflict_point bfuel cfuel s) : sp_inv s := by
  induction h with
  | decided s s3 s4 s5 v he hm hsel _ hd =>
    have i0 := loop_entry_sp_inv bfuel cfuel s he
    have i3 := sp_inv_of_frame _ _ i0 (solve_manage_sp _ _ hm)
    have i4 := sp_inv_of_frame _ _ i3 (select_variable_sp _ _ _ hsel)
    exact sp_inv_of_frame _ _ i4 (set_decision_sp _ _ _ _ _ hd)
  | asserted s s1 s3 _ ha _ hac ih =>
    have i1 := (analyze_conflict_schedule _ _ _ _ ih ha).1
    exact sp_inv_of_frame _ _ (sp_inv_of_frame _ _ i1 (backtrack_sp _ _))
      (assert_conflict_clause_sp _ _ _ _ hac)

theorem example_late_sp_inv : sp_inv example_late := by
  have h1 : example_late.on_th = 100 ∧ example_late.off_th = 400 ∧ example_late.on_th_inc = 0
      ∧ example_late.off_th_inc = 0 ∧ example_late.save_progress = 0 := by decide!
  obtain ⟨a1, a2, a3, a4, a5⟩ := h1
  refine ⟨a1, a2, a3, a4, fun _ => ⟨4294967, by decide, Or.inl ⟨a5, ?_, ?_, ?_, ?_⟩⟩,
    fun h => absurd (show (2147483600 : Int) = 2147483601 from h) (by decide)⟩
  · show (2147483600 : Int) = 100 + 500 * 4294967
    decide
  · show (500 * 4294967 : Int) ≤ 2147483600
    decide
  · right
    show (500 * 4294967 : Int) < 2147483600
    decide
  · show (2147483600 : Int) ≤ 100 + 500 * 4294967
    decide

theorem example_late_analysis :
    (analyze_conflict example_late example_late.conflicting_clause
        example_late.decision_level).map (fun s => (s.save_progress, s.conflicts))
      = some (1, 2147483601)
    ∧ (analyze_conflict example_late example_late.conflicting_clause
        example_late.decision_level).map (fun s => s.next_sp_switch)
      = some (-2147483296) := by
  decide!

theorem example_late_next_fields :
    example_late_next.save_progress = 1 ∧ example_late_next.conflicts = 2147483601
    ∧ example_late_next.next_sp_switch = -2147483296
    ∧ example_late_next.on_th = 100 ∧ example_late_next.off_th = 400
    ∧ example_late_next.on_th_inc = 0 ∧ example_late_next.off_th_inc = 0 := by
  decide!

theorem example_late_next_analysis :
    (analyze_conflict example_late_next example_late_next.conflicting_clause
        example_late_next.decision_level).isSome = true := by
  decide!

/-- C29, amended: in a run of `solve` on a formula read by `read_cnf`, at
every call of `analyze_conflict` made with the conflict counter `c` (its
value before the call, which the call increments) at most 2147483600, the
thresholds are the initial ones (`on_th = 100`, `off_th = 400`, increments 0)
and `save_progress` after the call is 1 if and only if `c ≥ 100` and
`(c - 100) mod 500 < 400`; the flag is 0 or 1; it changes in the call exactly
when `c` is one of 100, 600, 1100, .. or of 500, 1000, 1500, ..; the next
switch is left as it is when the flag is, is set to `c + on_th` when the flag
is turned off, and is set to the 32-bit sum of `c` and `off_th` when the flag
is turned on, which is `c + off_th` for `c < 2147483600` and `-2147483296`
for `c = 2147483600`. -/
theorem save_progress_schedule (bfuel cfuel : Nat) (s s1 : my_manager)
    (hp : conflict_point bfuel cfuel s) (hc : s.conflicts ≤ 2147483600)
    (h : analyze_conflict s s.conflicting_clause s.decision_level = some s1) :
    s.on_th = 100 ∧ s.off_th = 400 ∧ s.on_th_inc = 0 ∧ s.off_th_inc = 0
    ∧ 0 ≤ s.conflicts ∧ s1.conflicts = s.conflicts + 1
    ∧ (s1.save_progress = 1 ↔ 100 ≤ s.conflicts ∧ (s.conflicts - 100) % 500 < 400)
    ∧ (s1.save_progress = 0 ∨ s1.save_progress = 1)
    ∧ (s1.save_progress ≠ s.save_progress
        ↔ s.conflicts % 500 = 100 ∨ (500 ≤ s.conflicts ∧ s.conflicts % 500 = 0))
    ∧ (s1.save_progress ≠ s.save_progress → s1.save_progress = 1 →
        s1.next_sp_switch = wrap32 (s.conflicts + s.off_th)
        ∧ (s.conflicts < 2147483600 → s1.next_sp_switch = s.conflicts + s.off_th)
        ∧ (s.conflicts = 2147483600 → s1.next_sp_switch = -2147483296))
    ∧ (s1.save_progress ≠ s.save_progress → s1.save_progress = 0 →
        s1.next_sp_switch = s.conflicts + s.on_th)
    ∧ (s1.save_progress = s.save_progress → s1.next_sp_switch = s.next_sp_switch) := by
  have hi := conflict_point_sp_inv bfuel cfuel s hp
  obtain ⟨_, a2, hsch⟩ := analyze_conflict_schedule _ _ _ _ hi h
  obtain ⟨a3, a4, a5, _, a7, a8, a9⟩ := hsch hc
  obtain ⟨t1, t2, t3, t4, hk, _⟩ := hi
  obtain ⟨k, hk0, hph⟩ := hk hc
  refine ⟨t1, t2, t3, t4, ?_, a2, a3, a4, a5, ?_, a8, a9⟩
  · rcases hph with ⟨_, _, p3, _, _⟩ | ⟨_, _, p3, _⟩ <;> omega
  · intro hne h1
    have e := a7 hne h1
    have hm : s.conflicts % 500 = 100 := by
      rcases a5.mp hne with hm | ⟨_, hm⟩
      · exact hm
      · exfalso
        have := a3.mp h1
        omega
    refine ⟨e, ?_, ?_⟩
    · intro hlt
      rw [e]
      exact wrap32_small _ (by omega) (by omega)
    · intro heq
      rw [e, heq, t2]
      decide

/-- The instance `example_decided` of C29: the first conflict of the run, met
with the counter at 0, leaves progress saving off. -/
theorem save_progress_schedule_witness :
    conflict_point 10 10 example_decided
    ∧ ∃ s1, analyze_conflict example_decided example_decided.conflicting_clause
          example_decided.decision_level = some s1
        ∧ example_decided.conflicts = 0 ∧ s1.conflicts = 1 ∧ s1.save_progress = 0 := by
  obtain ⟨s1, h, _⟩ := example_decided_analysis
  have hc : example_decided.conflicts = 0 := by decide!
  obtain ⟨_, _, _, _, _, b, c, d, _⟩ :=
    save_progress_schedule 10 10 example_decided s1 example_decided_point.1
      (by rw [hc]; decide) h
  refine ⟨example_decided_point.1, s1, h, hc, by rw [b, hc]; rfl, ?_⟩
  rcases d with d | d
  · exact d
  · rw [c, hc] at d
    exact absurd d.1 (by decide)

/-- In a run of `solve` on a formula read by `read_cnf`, the call of
`analyze_conflict` made with the conflict counter at 2147483601 turns
progress saving off: the call before it has left the next switch at
`-2147483296`. -/
theorem save_progress_after_wrap (bfuel cfuel : Nat) (s s1 : my_manager)
    (hp : conflict_point bfuel cfuel s) (hc : s.conflicts = 2147483601)
    (h : analyze_conflict s s.conflicting_clause s.decision_level = some s1) :
    s1.save_progress = 0
    ∧ ¬ (s1.save_progress = 1 ↔ 100 ≤ s.conflicts ∧ (s.conflicts - 100) % 500 < 400) := by
  obtain ⟨_, _, _, _, _, hw⟩ := conflict_point_sp_inv bfuel cfuel s hp
  obtain ⟨w1, w2⟩ := hw hc
  exact analyze_conflict_wrapped _ _ _ s1 hc w1 (by rw [w2]; decide) h

/-- C29, counterexample: the state `example_late` is on the schedule with
the conflict counter and the next switch at 2147483600 and the flag off.  The
call of `analyze_conflict` turns the flag on and adds `off_th = 400` to the
32-bit `next_sp_switch`, which becomes `-2147483296`.  At the next call, made
with these fields and the counter at `c = 2147483601`, the test
`conflicts>=next_sp_switch` holds and the flag is turned off, although
`c ≥ 100` and `(c - 100) mod 500 = 1 < 400`. -/
theorem save_progress_schedule_wraps :
    sp_inv example_late ∧ example_late.conflicts = 2147483600
    ∧ example_late.save_progress = 0 ∧ example_late.next_sp_switch = 2147483600
    ∧ (∃ s1, analyze_conflict example_late example_late.conflicting_clause
          example_late.decision_level = some s1
        ∧ s1.save_progress = 1 ∧ s1.conflicts = 2147483601
        ∧ s1.next_sp_switch = -2147483296
        ∧ example_late_next.save_progress = s1.save_progress
        ∧ example_late_next.conflicts = s1.conflicts
        ∧ example_late_next.next_sp_switch = s1.next_sp_switch)
    ∧ example_late_next.on_th = 100 ∧ example_late_next.off_th = 400
    ∧ example_late_next.on_th_inc = 0 ∧ example_late_next.off_th_inc = 0
    ∧ (∃ s2, analyze_conflict example_late_next example_late_next.conflicting_clause
          example_late_next.decision_level = some s2
        ∧ s2.save_progress = 0
        ∧ (100 ≤ example_late_next.conflicts
            ∧ (example_late_next.conflicts - 100) % 500 < 400)
        ∧ ¬ (s2.save_progress = 1 ↔ 100 ≤ example_late_next.conflicts
              ∧ (example_late_next.conflicts - 100) % 500 < 400)) := by
  obtain ⟨f1, f2, f3, f4, f5, f6, f7⟩ := example_late_next_fields
  obtain ⟨e1, e2⟩ := example_late_analysis
  refine ⟨example_late_sp_inv, rfl, by decide!, rfl, ?_, f4, f5, f6, f7, ?_⟩
  · cases h : analyze_conflict example_late example_late.conflicting_clause
        example_late.decision_level with
    | none =>
      rw [h] at e1
      simp at e1
    | some s1 =>
      rw [h] at e1 e2
      simp only [Option.map_some', Option.some.injEq, Prod.mk.injEq] at e1 e2
      exact ⟨s1, rfl, e1.1, e1.2, e2, by rw [f1, e1.1], by rw [f2, e1.2], by rw [f3, e2]⟩
  · cases h : analyze_conflict example_late_next example_late_next.conflicting_clause
        example_late_next.decision_level with
    | none =>
      have := example_late_next_analysis
      rw [h] at this
      simp at this
    | some s2 =>
      obtain ⟨g1, g2⟩ := analyze_conflict_wrapped _ _ _ s2 f2 f1 (by rw [f3]; decide) h
      refine ⟨s2, rfl, g1, ?_, g2⟩
      rw [f2]
      decide

/-- The function `remove_clause` changes reasons and watched lists only. -/
theorem remove_clause_fields (s s1 : my_manager) (c : Nat)
    (h : remove_clause s c = some s1) :
    s1.status = s.status ∧ s1.cl = s.cl ∧ s1.learned_clause_scores = s.learned_clause_scores := by
  unfold remove_clause at h
  simp only at h
  have key : ∀ m : my_manager, m.status = s.status → m.cl = s.cl →
      m.learned_clause_scores = s.learned_clause_scores →
      (match remove_watched_clause m ((s.cl c).lits.getD 0 0) c with
        | none => none
        | some s2 => remove_watched_clause s2 ((s.cl c).lits.getD 1 0) c) = some s1 →
      s1.status = s.status ∧ s1.cl = s.cl
        ∧ s1.learned_clause_scores = s.learned_clause_scores := by
    intro m m1 m2 m3 hh
    cases h1 : remove_watched_clause m ((s.cl c).lits.getD 0 0) c with
    | none => rw [h1] at hh; exact absurd hh (by simp)
    | some s2 =>
      rw [h1] at hh
      simp only at hh
      obtain ⟨_, a2, a3, a4, _⟩ := remove_watched_clause_fields _ _ _ _ h1
      obtain ⟨_, b2, b3, b4, _⟩ := remove_watched_clause_fields _ _ _ _ hh
      exact ⟨(b4.trans a4).trans m1, (b2.trans a2).trans m2, (b3.trans a3).trans m3⟩
  by_cases h0 : s.reason (var ((s.cl c).lits.getD 0 0)) = some c
  · rw [if_pos h0] at h
    exact key { s with reason := (Function.update s.reason (var ((s.cl c).lits.getD 0 0)) none) }
      rfl rfl rfl h
  · rw [if_neg h0] at h
    by_cases h1 : s.reason (var ((s.cl c).lits.getD 1 0)) = some c
    · rw [if_pos h1] at h
      exact key
        { s with reason := (Function.update s.reason (var ((s.cl c).lits.getD 1 0)) none) }
        rfl rfl rfl h
    · rw [if_neg h1] at h
      exact key s rfl rfl rfl h

theorem satisfied_of_fields (s0 s : my_manager) (c : Nat) (hs : s.status = s0.status)
    (hc : (s.cl c).lits = (s0.cl c).lits) : satisfied s c = satisfied s0 c := by
  unfold satisfied
  rw [hs, hc]

/-- The loop of `simplify_kb` keeps, of the (clause, score) pairs `T` of the
learned clauses from position `i` on, the pairs whose clause holds no true
literal, in order, with the scores moved to the positions `j, j+1, ..` and
the `index` fields set to these positions. -/
theorem simplify_kb_loop_spec (s0 : my_manager) :
    ∀ (T : List (Nat × ℚ)) (i j : Nat) (s : my_manager) (kept : List Nat)
      (s1 : my_manager) (kept1 : List Nat),
      s.status = s0.status → (∀ c, (s.cl c).lits = (s0.cl c).lits) → j ≤ i →
      (∀ t p, T.get? t = some p → s.learned_clause_scores (i + t) = p.2) →
      (T.map Prod.fst).Nodup →
      simplify_kb_loop (T.map Prod.fst) i j s kept = some (s1, kept1) →
      kept1 = kept ++ (T.filter (fun p => !satisfied s0 p.1)).map Prod.fst
      ∧ s1.status = s0.status ∧ (∀ c, (s1.cl c).lits = (s0.cl c).lits)
      ∧ (∀ t p, (T.filter (fun p => !satisfied s0 p.1)).get? t = some p →
          s1.learned_clause_scores (j + t) = p.2 ∧ (s1.cl p.1).index = ((j + t : Nat) : Int))
      ∧ (∀ x, x < j → s1.learned_clause_scores x = s.learned_clause_scores x)
      ∧ (∀ c, c ∉ T.map Prod.fst → (s1.cl c).index = (s.cl c).index) := by
  intro T
  induction T with
  | nil =>
    intro i j s kept s1 kept1 hst hc hj hs hnd h
    rw [List.map_nil, simplify_kb_loop] at h
    simp only [Option.some.injEq, Prod.mk.injEq] at h
    rw [← h.1, ← h.2]
    refine ⟨by simp, hst, hc, ?_, fun _ _ => rfl, fun _ _ => rfl⟩
    intro t p hp
    simp at hp
  | cons p rest ih =>
    intro i j s kept s1 kept1 hst hc hj hs hnd h
    rw [List.map_cons, simplify_kb_loop] at h
    rw [List.map_cons, List.nodup_cons] at hnd
    have hsi : s.learned_clause_scores i = p.2 := hs 0 p rfl
    have hsat : satisfied s p.1 = satisfied s0 p.1 := satisfied_of_fields s0 s p.1 hst (hc p.1)
    by_cases hd : satisfied s0 p.1 = true
    · rw [if_pos (hsat.trans hd)] at h
      cases hrm : remove_clause s p.1 with
      | none => rw [hrm] at h; exact absurd h (by simp)
      | some s2 =>
        rw [hrm] at h
        simp only at h
        obtain ⟨a1, a2, a3⟩ := remove_clause_fields s s2 p.1 hrm
        obtain ⟨b1, b2, b3, b4, b5, b6⟩ := ih (i + 1) j s2 kept s1 kept1 (a1.trans hst)
          (fun c => by rw [a2]; exact hc c) (by omega)
          (fun t q hq => by
            rw [a3]
            have := hs (t + 1) q (by simpa using hq)
            rw [← this]
            congr 1
            omega) hnd.2 h
        have hf : (p :: rest).filter (fun p => !satisfied s0 p.1)
            = rest.filter (fun p => !satisfied s0 p.1) := by
          rw [List.filter_cons, hd]
          rfl
        rw [hf]
        refine ⟨b1, b2, b3, b4, ?_, ?_⟩
        · intro x hx
          rw [b5 x hx, a3]
        · intro c hcn
          rw [List.map_cons, List.mem_cons, not_or] at hcn
          rw [b6 c hcn.2, a2]
    · have hd' : satisfied s0 p.1 = false := by
        cases hv : satisfied s0 p.1 with
        | true => exact absurd hv hd
        | false => rfl
      rw [if_neg (by rw [hsat, hd']; simp)] at h
      obtain ⟨b1, b2, b3, b4, b5, b6⟩ := ih (i + 1) (j + 1)
        { s with
          cl := (Function.update s.cl p.1 { s.cl p.1 with index := (j : Int) }),
          learned_clause_scores :=
            (Function.update s.learned_clause_scores j (s.learned_clause_scores i)) }
        (kept ++ [p.1]) s1 kept1
        (show s.status = s0.status from hst)
        (fun c => by
          show ((Function.update s.cl p.1 { s.cl p.1 with index := (j : Int) }) c).lits = _
          by_cases hcp : c = p.1
          · rw [hcp, Function.update_same]
            exact hc p.1
          · rw [Function.update_noteq hcp]
            exact hc c) (by omega)
        (fun t q hq => by
          show (Function.update s.learned_clause_scores j (s.learned_clause_scores i))
            (i + 1 + t) = q.2
          rw [Function.update_noteq (by omega)]
          have := hs (t + 1) q (by simpa using hq)
          rw [← this]
          congr 1
          omega) hnd.2 h
      have hf : (p :: rest).filter (fun p => !satisfied s0 p.1)
          = p :: rest.filter (fun p => !satisfied s0 p.1) := by
        rw [List.filter_cons, hd']
        rfl
      rw [hf]
      have hj0 : s1.learned_clause_scores j = p.2 := by
        rw [b5 j (by omega)]
        show (Function.update s.learned_clause_scores j (s.learned_clause_scores i)) j = p.2
        rw [Function.update_same]
        exact hsi
      have hi0 : (s1.cl p.1).index = (j : Int) := by
        rw [b6 p.1 hnd.1]
        show ((Function.update s.cl p.1 { s.cl p.1 with index := (j : Int) }) p.1).index = _
        rw [Function.update_same]
      refine ⟨?_, b2, b3, ?_, ?_, ?_⟩
      · rw [b1]
        simp
      · intro t q hq
        cases t with
        | zero =>
          simp only [List.get?_cons_zero, Option.some.injEq] at hq
          rw [← hq]
          exact ⟨hj0, hi0⟩
        | succ t =>
          simp only [List.get?_cons_succ] at hq
          have := b4 t q hq
          have e : j + (t + 1) = j + 1 + t := by omega
          rw [e]
          exact this
      · intro x hx
        rw [b5 x (by omega)]
        show (Function.update s.learned_clause_scores j (s.learned_clause_scores i)) x = _
        rw [Function.update_noteq (by omega)]
      · intro c hcn
        rw [List.map_cons, List.mem_cons, not_or] at hcn
        rw [b6 c hcn.2]
        show ((Function.update s.cl p.1 { s.cl p.1 with index := (j : Int) }) c).index = _
        rw [Function.update_noteq hcn.1]

/-- The loop of `simplify_original_kb` keeps the clauses that hold no true
literal, in order, and changes no clause and no score. -/
theorem simplify_original_kb_loop_spec (s0 : my_manager) :
    ∀ (rest : List Nat) (s : my_manager) (kept : List Nat) (s1 : my_manager)
      (kept1 : List Nat),
      s.status = s0.status → s.cl = s0.cl →
      simplify_original_kb_loop rest s kept = some (s1, kept1) →
      kept1 = kept ++ rest.filter (fun c => !satisfied s0 c)
      ∧ s1.status = s0.status ∧ s1.cl = s0.cl
      ∧ s1.learned_clause_scores = s.learned_clause_scores := by
  intro rest
  induction rest with
  | nil =>
    intro s kept s1 kept1 hst hc h
    rw [simplify_original_kb_loop] at h
    simp only [Option.some.injEq, Prod.mk.injEq] at h
    rw [← h.1, ← h.2]
    exact ⟨by simp, hst, hc, rfl⟩
  | cons c rest ih =>
    intro s kept s1 kept1 hst hc h
    rw [simplify_original_kb_loop] at h
    have hsat : satisfied s c = satisfied s0 c :=
      satisfied_of_fields s0 s c hst (by rw [hc])
    by_cases hd : satisfied s0 c = true
    · rw [if_pos (hsat.trans hd)] at h
      cases hrm : remove_clause s c with
      | none => rw [hrm] at h; exact absurd h (by simp)
      | some s2 =>
        rw [hrm] at h
        simp only at h
        obtain ⟨a1, a2, a3⟩ := remove_clause_fields s s2 c hrm
        obtain ⟨b1, b2, b3, b4⟩ := ih s2 kept s1 kept1 (a1.trans hst) (a2.trans hc) h
        refine ⟨?_, b2, b3, b4.trans a3⟩
        rw [b1, List.filter_cons, hd]
        rfl
    · have hd' : satisfied s0 c = false := by
        cases hv : satisfied s0 c with
        | true => exact absurd hv hd
        | false => rfl
      rw [if_neg (by rw [hsat, hd']; simp)] at h
      obtain ⟨b1, b2, b3, b4⟩ := ih s (kept ++ [c]) s1 kept1 hst hc h
      refine ⟨?_, b2, b3, b4⟩
      rw [b1, List.filter_cons, hd']
      simp

theorem pairs_map_fst (L : List Nat) (sc : Nat → ℚ) :
    ((List.range L.length).map (fun i => (L.getD i 0, sc i))).map Prod.fst = L := by
  apply List.ext_getElem
  · simp
  · intro i h1 h2
    simp only [List.getElem_map, List.getElem_range]
    exact List.getD_eq_getElem _ _ h2

theorem pairs_get_snd (L : List Nat) (sc : Nat → ℚ) (t : Nat) (p : Nat × ℚ)
    (h : ((List.range L.length).map (fun i => (L.getD i 0, sc i))).get? t = some p) :
    sc t = p.2 := by
  rw [List.get?_eq_getElem?, List.getElem?_map] at h
  have hlt : t < L.length := by
    by_contra hge
    rw [List.getElem?_eq_none (by rw [List.length_range]; omega)] at h
    exact absurd h (by simp)
  rw [List.getElem?_eq_getElem (by rw [List.length_range]; exact hlt)] at h
  simp only [List.getElem_range, Option.map_some', Option.some.injEq] at h
  rw [← h]

theorem filter_pairs_fst (T : List (Nat × ℚ)) (P : Nat → Bool) :
    (T.filter (fun p => P p.1)).map Prod.fst = (T.map Prod.fst).filter P := by
  induction T with
  | nil => rfl
  | cons p rest ih =>
    rw [List.filter_cons, List.map_cons, List.filter_cons]
    by_cases h : P p.1 = true
    · rw [if_pos h, if_pos h, List.map_cons, ih]
    · rw [if_neg h, if_neg h, ih]

/-- C24: in a state of the search at decision level 1, `simplify_kb()` with
its flag `simplify_learned_kb` set and `simplify_original_kb()` with its flag
`simplify_orig_kb` set return.  The learned (resp. original) clauses
afterwards are the former ones for which `satisfied` is false (no literal of
the clause is true), in their former order.  For the learned clauses, the
score and the `index` field of a clause kept are its new position's: the
(clause, score) pairs kept are at the positions `0, 1, ..` in order.  A
clause removed is on no watched list of a literal of `1..vc` afterwards.  The
other store, the assignment and the literals of the clauses are unchanged;
`simplify_original_kb` changes no clause struct (hence no `index` field) and
no score. -/
theorem simplify_kb_keeps_unsatisfied (s : my_manager) (hs : solve_inv s)
    (hd : s.decision_level = 1) :
    (s.simplify_learned_kb ≠ 0 →
      ∃ s1, simplify_kb s = some s1
        ∧ s1.learned_clauses = s.learned_clauses.filter (fun c => !satisfied s c)
        ∧ s1.learned_clauses
            = (((List.range s.learned_clauses.length).map
                (fun i => (s.learned_clauses.getD i 0, s.learned_clause_scores i))).filter
                  (fun p => !satisfied s p.1)).map Prod.fst
        ∧ (∀ j p, (((List.range s.learned_clauses.length).map
                (fun i => (s.learned_clauses.getD i 0, s.learned_clause_scores i))).filter
                  (fun p => !satisfied s p.1)).get? j = some p →
            s1.learned_clause_scores j = p.2 ∧ (s1.cl p.1).index = (j : Int))
        ∧ (∀ c ∈ s.learned_clauses, c ∉ s1.learned_clauses →
            ∀ l, lit_ok s.vc l → c ∉ s1.watched (watched_index l))
        ∧ s1.original_clauses = s.original_clauses ∧ s1.status = s.status
        ∧ ∀ c, (s1.cl c).lits = (s.cl c).lits)
    ∧ (s.simplify_orig_kb ≠ 0 →
      ∃ s1, simplify_original_kb s = some s1
        ∧ s1.original_clauses = s.original_clauses.filter (fun c => !satisfied s c)
        ∧ (∀ c ∈ s.original_clauses, c ∉ s1.original_clauses →
            ∀ l, lit_ok s.vc l → c ∉ s1.watched (watched_index l))
        ∧ s1.learned_clauses = s.learned_clauses
        ∧ s1.learned_clause_scores = s.learned_clause_scores
        ∧ s1.status = s.status ∧ s1.cl = s.cl) := by
  have hnd : (s.original_clauses ++ s.learned_clauses).Nodup := hs.1.2.2.2.2.2.2.2.1
  have hndl : s.learned_clauses.Nodup := (List.nodup_append.mp hnd).2.1
  have hdisj : ∀ c, c ∈ s.original_clauses → c ∈ s.learned_clauses → False :=
    fun c h1 h2 => (List.nodup_append.mp hnd).2.2 h1 h2
  have hwatch : ∀ s1 : my_manager, solve_inv s1 → s1.vc = s.vc →
      ∀ c l, lit_ok s.vc l → c ∈ s1.watched (watched_index l) →
        c ∈ s1.original_clauses ∨ c ∈ s1.learned_clauses := by
    intro s1 h1 hvc c l hl hc
    have hk : kb_inv s1.vc (clause_ptrs s1) s1.cl s1.watched := h1.1.1.1
    have := ((hk.2.1 l hl.1 (by rw [hvc]; exact hl.2)).2 c hc).1
    unfold clause_ptrs at this
    exact List.mem_append.mp this
  constructor
  · intro hflag
    obtain ⟨s1, e, hs1, _⟩ := simplify_kb_inv s hs hd
    obtain ⟨hkf, horig, _⟩ := simplify_kb_kb s s1 e
    have hvc : s1.vc = s.vc := hkf.1
    refine ⟨s1, e, ?_⟩
    have hw : ∀ c ∈ s.learned_clauses, c ∉ s1.learned_clauses →
        ∀ l, lit_ok s.vc l → c ∉ s1.watched (watched_index l) := by
      intro c hc hn l hl hin
      rcases hwatch s1 hs1 hvc c l hl hin with h1 | h1
      · rw [horig] at h1
        exact hdisj c h1 hc
      · exact hn h1
    unfold simplify_kb at e
    rw [if_neg hflag] at e
    by_cases hlen : s.learned_clauses.length = 0
    · rw [if_pos hlen] at e
      simp only [Option.some.injEq] at e
      have hnil : s.learned_clauses = [] := List.eq_nil_of_length_eq_zero hlen
      rw [← e] at hw ⊢
      rw [hnil]
      refine ⟨rfl, rfl, ?_, ?_, rfl, rfl, fun _ => rfl⟩
      · intro j p hp
        simp at hp
      · intro c hc
        simp at hc
    · rw [if_neg hlen] at e
      cases hloop : simplify_kb_loop s.learned_clauses 0 0 s [] with
      | none => rw [hloop] at e; exact absurd e (by simp)
      | some r =>
        obtain ⟨s2, kept⟩ := r
        rw [hloop] at e
        simp only [Option.some.injEq] at e
        have hT := pairs_map_fst s.learned_clauses s.learned_clause_scores
        have hloop' := hloop
        rw [← hT] at hloop'
        obtain ⟨b1, b2, b3, b4, _, _⟩ := simplify_kb_loop_spec s _ 0 0 s [] s2 kept rfl
          (fun _ => rfl) (le_refl _)
          (fun t p hp => by
            rw [Nat.zero_add]
            exact pairs_get_snd _ _ t p hp)
          (by rw [hT]; exact hndl) hloop'
        rw [List.nil_append] at b1
        have hlc : s1.learned_clauses = kept := by rw [← e]
        have hst : s1.status = s2.status := by rw [← e]
        have hcl : s1.cl = s2.cl := by rw [← e]
        have hsc : s1.learned_clause_scores = s2.learned_clause_scores := by rw [← e]
        refine ⟨?_, ?_, ?_, hw, horig, hst.trans b2, ?_⟩
        · rw [hlc, b1, filter_pairs_fst _ (fun c => !satisfied s c), hT]
        · rw [hlc, b1]
        · intro j p hp
          have := b4 j p hp
          rw [Nat.zero_add] at this
          rw [hsc, hcl]
          exact this
        · intro c
          rw [hcl]
          exact b3 c
  · intro hflag
    obtain ⟨s1, e, hs1, _⟩ := simplify_original_kb_inv s hs hd
    obtain ⟨hkf, hlearned, _, _⟩ := simplify_original_kb_kb s s1 e
    have hvc : s1.vc = s.vc := hkf.1
    refine ⟨s1, e, ?_⟩
    have hw : ∀ c ∈ s.original_clauses, c ∉ s1.original_clauses →
        ∀ l, lit_ok s.vc l → c ∉ s1.watched (watched_index l) := by
      intro c hc hn l hl hin
      rcases hwatch s1 hs1 hvc c l hl hin with h1 | h1
      · exact hn h1
      · rw [hlearned] at h1
        exact hdisj c hc h1
    unfold simplify_original_kb at e
    rw [if_neg hflag] at e
    cases hloop : simplify_original_kb_loop s.original_clauses s [] with
    | none => rw [hloop] at e; exact absurd e (by simp)
    | some r =>
      obtain ⟨s2, kept⟩ := r
      rw [hloop] at e
      simp only [Option.some.injEq] at e
      obtain ⟨b1, b2, b3, b4⟩ := simplify_original_kb_loop_spec s _ s [] s2 kept rfl rfl hloop
      rw [List.nil_append] at b1
      have hoc : s1.original_clauses = kept := by rw [← e]
      have hst : s1.status = s2.status := by rw [← e]
      have hcl : s1.cl = s2.cl := by rw [← e]
      have hsc : s1.learned_clause_scores = s2.learned_clause_scores := by rw [← e]
      exact ⟨by rw [hoc, b1], hw, hlearned, hsc.trans b4, hst.trans b2, hcl.trans b3⟩

/-- The fifth instance is a state of the search at decision level 1. -/
theorem example_units_solve_inv :
    solve_inv example_units ∧ example_units.decision_level = 1 := by
  have t0 : (((read_cnf 3 4 [[1, 2], [2, 3], [1, 3], [-2, -3], [1]]).bind
      (fun s0 => init_watched_literals s0.original_clauses s0)).bind
      (fun s1 => (process_unit_literal_queue 10 (insert_all s1.vc 1 s1)).map
        (fun r => (r.1, r.2.original_clauses, r.2.learned_clauses)))) = some (true, [1, 2, 3, 4], [])
      := by decide!
  unfold example_units
  cases h0 : read_cnf 3 4 [[1, 2], [2, 3], [1, 3], [-2, -3], [1]] with
  | none => rw [h0] at t0; exact absurd t0 (by simp)
  | some s0 =>
    rw [h0] at t0
    simp only [Option.some_bind] at t0
    simp only
    obtain ⟨a, b, _⟩ := read_cnf_load _ _ _ _ h0
    cases h1 : init_watched_literals s0.original_clauses s0 with
    | none => rw [h1] at t0; exact absurd t0 (by simp)
    | some s1 =>
      rw [h1] at t0
      simp only [Option.some_bind] at t0
      simp only
      obtain ⟨c1, c2, c3, _⟩ := init_watched_heap s0 s1 a b h1
      cases h2 : process_unit_literal_queue 10 (insert_all s1.vc 1 s1) with
      | none => rw [h2] at t0; exact absurd t0 (by simp)
      | some r =>
        obtain ⟨res, s3⟩ := r
        rw [h2] at t0
        simp only [Option.map_some', Option.some.injEq, Prod.mk.injEq] at t0
        simp only
        obtain ⟨d1, _, d3, _⟩ := process_unit_literal_queue_inv 10 _ res s3 c1 c2 c3 h2
        have hsol := d1 t0.1
        have hsub := store_subst_inv s3 s3.cl
          (fun i => if i = 0 then 5 else if i = 1 then 7 else 0)
          (s3.original_clauses.take 2) (s3.original_clauses.drop 2)
          (fun c => by
            unfold clause_ptrs
            rw [List.take_append_drop, t0.2.2, List.append_nil])
          (by
            rw [List.take_append_drop, t0.2.1]
            decide)
          (fun _ => rfl) hsol
        exact ⟨hsub, d3⟩

/-- The instance `example_units` of C24: variable 1 is true at level 1, so the
original clause `(1 2)` and the learned clause `(1 3)` go, and the learned
clause `(-2 -3)` moves to position 0 with its score 7. -/
theorem simplify_kb_keeps_unsatisfied_witness :
    solve_inv example_units ∧ example_units.decision_level = 1
    ∧ example_units.simplify_learned_kb ≠ 0 ∧ example_units.simplify_orig_kb ≠ 0
    ∧ example_units.original_clauses = [1, 2] ∧ example_units.learned_clauses = [3, 4]
    ∧ (∃ s1, simplify_kb example_units = some s1 ∧ s1.learned_clauses = [4]
        ∧ s1.learned_clause_scores 0 = 7 ∧ (s1.cl 4).index = 0
        ∧ ∀ l, lit_ok example_units.vc l → 3 ∉ s1.watched (watched_index l))
    ∧ (∃ s1, simplify_original_kb example_units = some s1 ∧ s1.original_clauses = [2]
        ∧ ∀ l, lit_ok example_units.vc l → 1 ∉ s1.watched (watched_index l)) := by
  have hf1 : example_units.simplify_learned_kb ≠ 0 := by decide!
  have hf2 : example_units.simplify_orig_kb ≠ 0 := by decide!
  have ho : example_units.original_clauses = [1, 2] := by decide!
  have hl : example_units.learned_clauses = [3, 4] := by decide!
  have hsat : [satisfied example_units 1, satisfied example_units 2,
      satisfied example_units 3, satisfied example_units 4] = [true, false, true, false] := by
    decide!
  simp only [List.cons.injEq, and_true] at hsat
  obtain ⟨z1, z2, z3, z4⟩ := hsat
  have hsc : example_units.learned_clause_scores 1 = 7 := by decide!
  obtain ⟨k1, k2⟩ := simplify_kb_keeps_unsatisfied example_units example_units_solve_inv.1
    example_units_solve_inv.2
  refine ⟨example_units_solve_inv.1, example_units_solve_inv.2, hf1, hf2, ho, hl, ?_, ?_⟩
  · obtain ⟨s1, e, a1, _, a3, a4, _⟩ := k1 hf1
    have e1 : s1.learned_clauses = [4] := by
      rw [a1, hl]
      simp [List.filter, z3, z4]
    have a3' := a3 0 (4, 7) (by
      rw [hl]
      simp [List.range, List.range.loop, List.filter, z3, z4, hsc])
    refine ⟨s1, e, e1, a3'.1, a3'.2, ?_⟩
    intro l hl0
    exact a4 3 (by rw [hl]; simp) (by rw [e1]; simp) l hl0
  · obtain ⟨s1, e, a1, a2, _⟩ := k2 hf2
    have e1 : s1.original_clauses = [2] := by
      rw [a1, ho]
      simp [List.filter, z1, z2]
    refine ⟨s1, e, e1, ?_⟩
    intro l hl0
    exact a2 1 (by rw [ho]; simp) (by rw [e1]; simp) l hl0

theorem lit_from_int_neg (y : Int) (hy : y ≠ 0) : lit_from_int (-y) = neg (lit_from_int y) := by
  rw [lit_from_int_eq, lit_from_int_eq, neg_eq, Int.natAbs_neg]
  split <;> split <;> split <;> omega

/-- When the loop `while(k<=j)` of `read_cnf` leaves by `goto add_clause`, the
literals kept hold a literal and its negation. -/
theorem dedupe_none_pair (kept : List Int) (hk : ∀ y ∈ kept, y ≠ 0)
    (hd : dedupe_loop (kept.length + 1) 0 0 (sort_literals kept ++ [0]) = none) :
    ∃ y, y ∈ kept ∧ -y ∈ kept := by
  by_contra hno
  have hpair : ∀ a b, a ∈ kept → b ∈ kept → a.natAbs = b.natAbs → a = b := by
    intro a b ha hb hab
    rcases Int.natAbs_eq_natAbs_iff.mp hab with e | e
    · exact e
    · exfalso
      apply hno
      refine ⟨b, hb, ?_⟩
      rw [← e]
      exact ha
  obtain ⟨b1, b2, b3, b4, b5⟩ := dedupe_buffer kept hk
  obtain ⟨rd, hd'⟩ := dedupe_loop_total (sort_literals kept ++ [0]) kept.length
    (by
      intro j1 j2 h1 h2 hab
      rcases Nat.lt_or_ge j1 kept.length with c1 | c1
      · rcases Nat.lt_or_ge j2 kept.length with c2 | c2
        · exact hpair _ _ (b2 j1 c1) (b2 j2 c2) hab
        · have e2 : j2 = kept.length := by omega
          rw [e2, b5] at hab ⊢
          exact Int.natAbs_eq_zero.mp hab
      · have e1 : j1 = kept.length := by omega
        rw [e1, b5] at hab ⊢
        exact (Int.natAbs_eq_zero.mp hab.symm).symm)
    (kept.length + 1) 0 0 (sort_literals kept ++ [0]) (by omega) (le_refl _) b1
    (fun _ _ => rfl) (fun i hi => by omega)
  rw [hd] at hd'
  exact absurd hd' (by simp)

/-- A literal of a clause line that is true in an assignment of `P` is one of
the literals that `read_literals` keeps, when the line is not skipped: the
literals dropped are false at level 1. -/
theorem read_literals_true_kept (P : (Nat → Bool) → Prop) (s : my_manager) (line kept : List Int)
    (hvar : ∀ v, s.status v ≠ 0 → 1 ≤ v ∧ v ≤ s.vc ∧ var (s.status v) = v)
    (hlv : ∀ v, s.status v ≠ 0 → s.level v = 1)
    (he : ent_inv P s) (hv : valid P (line.map lit_from_int))
    (h1 : read_literals s.vc s.status line [] = some (kept, false)) :
    (∀ y, y ∈ kept ↔ y ∈ line ∧ s.status y.natAbs = 0)
    ∧ (∀ y ∈ line, 1 ≤ y.natAbs ∧ y.natAbs ≤ s.vc)
    ∧ ∀ M, P M → ∃ y ∈ kept, lit_val M (lit_from_int y) = true := by
  obtain ⟨sp1, _⟩ := read_literals_spec s.vc s.status line [] kept false h1
  obtain ⟨k1, k2⟩ := sp1 rfl
  have hmem : ∀ y, y ∈ kept ↔ y ∈ line ∧ s.status y.natAbs = 0 := by
    intro y
    rw [k1, List.nil_append, List.mem_filter]
    simp
  refine ⟨hmem, fun y hy => ⟨(k2 y hy).1, (k2 y hy).2.1⟩, ?_⟩
  intro M hM
  obtain ⟨x, hx, hxt⟩ := hv M hM
  obtain ⟨y, hy, rfl⟩ := List.mem_map.mp hx
  obtain ⟨r1, r2, r3⟩ := k2 y hy
  by_cases h0 : s.status y.natAbs = 0
  · exact ⟨y, (hmem y).mpr ⟨hy, h0⟩, hxt⟩
  · exfalso
    have hnt := r3 h0
    obtain ⟨v1, v2, v3⟩ := hvar _ h0
    have hcase := lit_of_var (lit_from_int y) (s.status y.natAbs)
      (by rw [v3, var_lit_from_int])
    rcases hcase with e | e
    · apply hnt
      rw [e, lit_from_int_eq, plit_eq]
      by_cases hneg : y < 0
      · left
        rw [if_pos hneg]
        exact ⟨hneg, by omega⟩
      · right
        rw [if_neg hneg]
        exact ⟨hneg, rfl⟩
    · have := he.2 y.natAbs v2 h0 (hlv _ h0) M hM
      rw [e, lit_val_neg, hxt] at this
      exact absurd this (by simp)

/-- What `read_cnf` does with one clause line, with respect to the truth
assignments of a class `P` in which the clause of the line is valid: the
state stays entailed, the cover is kept, and the clause of the line is
covered. -/
theorem read_clause_sound (P : (Nat → Bool) → Prop) (cc : Nat) (s s1 : my_manager)
    (line : List Int) (hl : load_inv s) (he : ent_inv P s)
    (hv : valid P (line.map lit_from_int)) (hr : read_clause cc s line = some s1) :
    ent_inv P s1 ∧ cover_frame s s1 ∧ cover [line.map lit_from_int] s1 := by
  obtain ⟨a1, a2, a3, a4, a5, a6, a7, a8, a9, a10, a11, a12, a13, a14, a15, a16⟩ := hl
  have hvar : ∀ v, s.status v ≠ 0 → 1 ≤ v ∧ v ≤ s.vc ∧ var (s.status v) = v := by
    intro v hv
    obtain ⟨p, p1, p2⟩ := a14 v hv
    obtain ⟨b1, b2, _⟩ := a13 p p1
    have := lit_ok_var _ _ b1
    rw [← p2, b2]
    exact ⟨this.1, this.2, rfl⟩
  have hlv : ∀ v, s.status v ≠ 0 → s.level v = 1 := fun v hv => (a15 v hv).1
  have hptr : clause_ptrs s = s.original_clauses := by
    unfold clause_ptrs
    rw [a1, List.append_nil]
  unfold read_clause at hr
  cases h1 : read_literals s.vc s.status line [] with
  | none => rw [h1] at hr; exact absurd hr (by simp)
  | some r =>
    obtain ⟨kept, skip⟩ := r
    rw [h1] at hr
    simp only at hr
    split at hr
    · exact absurd hr (by simp)
    · cases skip with
      | true =>
        simp only [if_true, Option.some.injEq] at hr
        rw [← hr]
        refine ⟨he, cover_frame_refl s, ?_⟩
        obtain ⟨_, sp2⟩ := read_literals_spec s.vc s.status line [] kept true h1
        obtain ⟨y, y1, y2, y3, y4, y5⟩ := sp2 rfl
        intro C hC
        rw [List.mem_singleton] at hC
        subst hC
        left
        refine ⟨lit_from_int y, List.mem_map.mpr ⟨y, y1, rfl⟩, lit_ok_from_int _ _ y2 y3, ?_, ?_⟩
        · rw [var_lit_from_int]
          obtain ⟨_, _, v3⟩ := hvar _ y4
          rcases lit_of_var (lit_from_int y) (s.status y.natAbs)
            (by rw [v3, var_lit_from_int]) with e | e
          · exact e
          · exfalso
            rw [e, lit_from_int_eq, plit_eq, neg_eq] at y5
            rcases y5 with ⟨q1, q2⟩ | ⟨q1, q2⟩
            · rw [if_pos q1] at q2
              apply q2
              split <;> omega
            · rw [if_neg q1] at q2
              split at q2 <;> omega
        · rw [var_lit_from_int]
          exact hlv _ y4
      | false =>
        simp only [Bool.false_eq_true, if_false] at hr
        obtain ⟨hmem, hrange, hkeep⟩ := read_literals_true_kept P s line kept hvar hlv he hv h1
        have hk0 : ∀ y ∈ kept, y ≠ 0 := by
          intro y hy e
          have := (hrange y ((hmem y).mp hy).1).1
          rw [e] at this
          simp at this
        cases h2 : dedupe_loop (kept.length + 1) 0 0 (sort_literals kept ++ [0]) with
        | none =>
          rw [h2] at hr
          simp only [Option.some.injEq] at hr
          rw [← hr]
          refine ⟨he, cover_frame_refl s, ?_⟩
          obtain ⟨y, y1, y2⟩ := dedupe_none_pair kept hk0 h2
          intro C hC
          rw [List.mem_singleton] at hC
          subst hC
          right
          left
          have hy := (hmem y).mp y1
          refine ⟨lit_from_int y, List.mem_map.mpr ⟨y, hy.1, rfl⟩, ?_,
            lit_ok_from_int _ _ (hrange y hy.1).1 (hrange y hy.1).2⟩
          rw [← lit_from_int_neg y (hk0 y y1)]
          exact List.mem_map.mpr ⟨-y, ((hmem (-y)).mp y2).1, rfl⟩
        | some q =>
          obtain ⟨lits, n⟩ := q
          rw [h2] at hr
          simp only at hr
          obtain ⟨r1, r2, r3, r4, r5, r6⟩ := dedupe_retained kept lits n hk0 h2
          by_cases hn2 : n = 2
          · rw [if_pos hn2] at hr
            have h0in : lits.getD 0 0 ∈ kept := by
              rw [← r4]
              rw [hn2]
              have hlen : 0 < lits.length := by omega
              rw [List.getD_eq_getElem _ _ hlen]
              exact List.mem_take_iff_getElem.mpr ⟨0, by simp; omega, rfl⟩
            have hin := (hmem _).mp h0in
            have hfree : s.status (var (lit_from_int (lits.getD 0 0))) = 0 := by
              rw [var_lit_from_int]
              exact hin.2
            rw [if_pos hfree] at hr
            simp only [Option.some.injEq] at hr
            have hlok : lit_ok s.vc (lit_from_int (lits.getD 0 0)) :=
              lit_ok_from_int _ _ (hrange _ hin.1).1 (hrange _ hin.1).2
            have honly : ∀ y ∈ kept, y = lits.getD 0 0 := by
              intro y hy
              rw [← r4, hn2] at hy
              obtain ⟨i, hi, e⟩ := List.mem_take_iff_getElem.mp hy
              have hi0 : i = 0 := by
                simp at hi
                omega
              subst hi0
              rw [← e, List.getD_eq_getElem _ _ (by omega)]
            generalize hL : lit_from_int (lits.getD 0 0) = L at hr hfree hlok
            have hst1 : s1.status = Function.update s.status (var L) L := by rw [← hr]; rfl
            have hlv1 : s1.level = Function.update s.level (var L) 1 := by
              rw [← hr]
              show Function.update (Function.update s.level (var L) 1) (var L) 1 = _
              rw [Function.update_idem]
            have hcl1 : s1.cl = s.cl := by rw [← hr]; rfl
            have hoc1 : s1.original_clauses = s.original_clauses := by rw [← hr]; rfl
            have hlc1 : s1.learned_clauses = s.learned_clauses := by rw [← hr]; rfl
            have hvc1 : s1.vc = s.vc := by rw [← hr]; rfl
            refine ⟨⟨?_, ?_⟩, ⟨hvc1, ?_, ?_⟩, ?_⟩
            · intro c hc
              unfold clause_ptrs at hc
              rw [hoc1, hlc1] at hc
              rw [hcl1]
              exact he.1 c hc
            · intro v hv hs hlvl M hM
              rw [hst1] at hs ⊢
              by_cases e : v = var L
              · rw [e, Function.update_same]
                obtain ⟨y, y1, y2⟩ := hkeep M hM
                rw [honly y y1, hL] at y2
                exact y2
              · rw [Function.update_noteq e] at hs ⊢
                rw [hvc1] at hv
                exact he.2 v hv hs (hlv v hs) M hM
            · intro v _ hs hlvl
              have e : v ≠ var L := by
                intro e
                rw [e] at hs
                exact hs hfree
              rw [hst1, hlv1, Function.update_noteq e, Function.update_noteq e]
              exact ⟨rfl, hlvl⟩
            · intro c hc
              left
              rw [hoc1, hcl1]
              exact ⟨hc, List.Perm.refl _⟩
            · intro C hC
              rw [List.mem_singleton] at hC
              subst hC
              left
              refine ⟨L, ?_, by rw [hvc1]; exact hlok, ?_, ?_⟩
              · rw [← hL]
                exact List.mem_map.mpr ⟨_, hin.1, rfl⟩
              · rw [hst1, Function.update_same]
              · rw [hlv1, Function.update_same]
          · rw [if_neg hn2] at hr
            have key : ∀ m : my_manager, m.vc = s.vc → m.cl = s.cl → m.status = s.status →
                m.level = s.level → m.original_clauses = s.original_clauses →
                m.learned_clauses = s.learned_clauses → m.alloc_next = s.alloc_next →
                (if m.original_clauses.length < cc then
                  some (init_clause m (lits.take (n - 1)) m.original_clauses.length)
                else none) = some s1 →
                ent_inv P s1 ∧ cover_frame s s1 ∧ cover [line.map lit_from_int] s1 := by
              intro m m1 m2 m3 m4 m5 m6 m7 hh
              split at hh
              · simp only [Option.some.injEq] at hh
                have hst1 : s1.status = s.status := by rw [← hh]; exact m3
                have hlv1 : s1.level = s.level := by rw [← hh]; exact m4
                have hvc1 : s1.vc = s.vc := by rw [← hh]; exact m1
                have hcl1 : s1.cl = Function.update s.cl s.alloc_next
                    { index := -((s.original_clauses.length : Int) + 1),
                      lits := (lits.take (n - 1)).map lit_from_int } := by
                  rw [← hh]
                  unfold init_clause
                  simp only
                  rw [m2, m5, m7]
                have hoc1 : s1.original_clauses = s.original_clauses ++ [s.alloc_next] := by
                  rw [← hh]
                  unfold init_clause
                  simp only
                  rw [m5, m7]
                have hlc1 : s1.learned_clauses = s.learned_clauses := by rw [← hh]; exact m6
                have hold : ∀ c ∈ s.original_clauses, s1.cl c = s.cl c := by
                  intro c hc
                  have := a6.2 c (by rw [hptr]; exact hc)
                  rw [hcl1, Function.update_noteq (by omega)]
                have hnew : (s1.cl s.alloc_next).lits = (lits.take (n - 1)).map lit_from_int := by
                  rw [hcl1, Function.update_same]
                refine ⟨⟨?_, ?_⟩, ⟨hvc1, ?_, ?_⟩, ?_⟩
                · intro c hc
                  unfold clause_ptrs at hc
                  rw [hoc1, hlc1, a1, List.append_nil, List.mem_append, List.mem_singleton] at hc
                  rcases hc with hc | hc
                  · rw [hold c hc]
                    exact he.1 c (by rw [hptr]; exact hc)
                  · rw [hc, hnew]
                    intro M hM
                    obtain ⟨y, y1, y2⟩ := hkeep M hM
                    exact ⟨lit_from_int y, List.mem_map.mpr ⟨y, (r4 y).mpr y1, rfl⟩, y2⟩
                · intro v hv hs hlvl M hM
                  rw [hst1] at hs ⊢
                  rw [hvc1] at hv
                  exact he.2 v hv hs (hlv v hs) M hM
                · intro v _ hs hlvl
                  rw [hst1, hlv1]
                  exact ⟨rfl, hlvl⟩
                · intro c hc
                  left
                  rw [hoc1, hold c hc]
                  exact ⟨List.mem_append_left _ hc, List.Perm.refl _⟩
                · intro C hC
                  rw [List.mem_singleton] at hC
                  subst hC
                  right
                  right
                  refine ⟨s.alloc_next, by rw [hoc1]; simp, ?_⟩
                  intro x hx
                  rw [hnew] at hx
                  obtain ⟨y, y1, rfl⟩ := List.mem_map.mp hx
                  exact List.mem_map.mpr ⟨y, ((hmem y).mp ((r4 y).mp y1)).1, rfl⟩
              · exact absurd hh (by simp)
            by_cases hn1 : n = 1
            · rw [if_pos hn1] at hr
              exact key { s with ok := 0 } rfl rfl rfl rfl rfl rfl rfl hr
            · rw [if_neg hn1] at hr
              exact key s rfl rfl rfl rfl rfl rfl rfl hr

theorem cover_append (F G : List (List Nat)) (s : my_manager) (h1 : cover F s) (h2 : cover G s) :
    cover (F ++ G) s := by
  intro C hC
  rcases List.mem_append.mp hC with h | h
  · exact h1 C h
  · exact h2 C h

/-- The clause lines of `read_cnf`, with respect to the truth assignments of a
class `P` in which the clause of every line is valid: the state stays
entailed, and the clauses of the lines are covered. -/
theorem read_clauses_sound (P : (Nat → Bool) → Prop) (cc : Nat) :
    ∀ (lines : List (List Int)) (s s1 : my_manager) (F0 : List (List Nat)),
      load_inv s → unwatched s → ent_inv P s → cover F0 s →
      (∀ line ∈ lines, valid P (line.map lit_from_int)) →
      read_clauses cc lines s = some s1 →
      ent_inv P s1 ∧ cover (F0 ++ lines.map (List.map lit_from_int)) s1 := by
  intro lines
  induction lines with
  | nil =>
    intro s s1 F0 _ _ he hc _ h
    rw [read_clauses] at h
    simp only [Option.some.injEq] at h
    rw [← h, List.map_nil, List.append_nil]
    exact ⟨he, hc⟩
  | cons line rest ih =>
    intro s s1 F0 hl hu he hc hv h
    rw [read_clauses] at h
    cases h1 : read_clause cc s line with
    | none => rw [h1] at h; exact absurd h (by simp)
    | some s2 =>
      rw [h1] at h
      simp only at h
      obtain ⟨b1, b2, b3⟩ := read_clause_sound P cc s s2 line hl he
        (hv line (List.mem_cons_self _ _)) h1
      obtain ⟨c1, c2, _⟩ := read_clause_load cc s s2 line hl hu h1
      have hc2 : cover (F0 ++ [line.map lit_from_int]) s2 :=
        cover_append _ _ _ (cover_of_frame F0 s s2 hc b2) b3
      have := ih s2 s1 (F0 ++ [line.map lit_from_int]) c1 c2 b1 hc2
        (fun l hl' => hv l (List.mem_cons_of_mem _ hl')) h
      rw [List.map_cons]
      rw [List.append_assoc] at this
      exact this

/-- The state that `read_cnf` returns is entailed by the clauses of the lines
and covers them. -/
theorem read_cnf_sound (vc cc : Nat) (lines : List (List Int)) (s : my_manager)
    (h : read_cnf vc cc lines = some s) :
    ent_inv (models (lines.map (List.map lit_from_int))) s
    ∧ cover (lines.map (List.map lit_from_int)) s := by
  unfold read_cnf at h
  obtain ⟨a, b⟩ := init_manager_load vc
  have he : ent_inv (models (lines.map (List.map lit_from_int))) (init_manager vc) := by
    refine ⟨?_, ?_⟩
    · intro c hc
      have : c ∈ ([] ++ [] : List Nat) := hc
      simp at this
    · intro v _ hs
      exact absurd rfl hs
  have hc : cover [] (init_manager vc) := by
    intro C hC
    simp at hC
  have := read_clauses_sound (models (lines.map (List.map lit_from_int))) cc lines
    (init_manager vc) s [] a b he hc
    (fun line hl M hM => hM _ (List.mem_map.mpr ⟨line, hl, rfl⟩)) h
  rw [List.nil_append] at this
  exact this

theorem init_watched_literals_fields :
    ∀ (L : List Nat) (s s1 : my_manager), init_watched_literals L s = some s1 →
      s1.vc = s.vc ∧ s1.original_clauses = s.original_clauses
      ∧ s1.learned_clauses = s.learned_clauses ∧ s1.cl = s.cl ∧ s1.status = s.status
      ∧ s1.level = s.level := by
  intro L
  induction L with
  | nil =>
    intro s s1 h
    rw [init_watched_literals] at h
    simp only [Option.some.injEq] at h
    rw [← h]
    exact ⟨rfl, rfl, rfl, rfl, rfl, rfl⟩
  | cons c rest ih =>
    intro s s1 h
    rw [init_watched_literals] at h
    split at h
    · exact absurd h (by simp)
    · obtain ⟨a1, a2, a3, a4, a5, a6⟩ := ih _ _ h
      rw [declare_watched_literals_shape] at a1 a2 a3 a4 a5 a6
      exact ⟨a1, a2, a3, a4, a5, a6⟩

theorem insert_all_fields :
    ∀ (n i : Nat) (s : my_manager),
      (insert_all n i s).vc = s.vc ∧ (insert_all n i s).original_clauses = s.original_clauses
      ∧ (insert_all n i s).learned_clauses = s.learned_clauses
      ∧ (insert_all n i s).cl = s.cl ∧ (insert_all n i s).status = s.status
      ∧ (insert_all n i s).level = s.level := by
  intro n
  induction n with
  | zero =>
    intro i s
    rw [insert_all]
    exact ⟨rfl, rfl, rfl, rfl, rfl, rfl⟩
  | succ n ih =>
    intro i s
    rw [insert_all]
    obtain ⟨a1, a2, a3, a4, a5, a6⟩ := ih (i + 1)
      { s with var_order_heap := (insert s.score s.var_order_heap i) }
    exact ⟨a1, a2, a3, a4, a5, a6⟩

/-- The function `process_unit_literal_queue` on the state that `read_cnf`
built keeps what the truth assignments of the class `P` satisfy, and keeps
the cover. -/
theorem process_unit_literal_queue_sound (P : (Nat → Bool) → Prop) (fuel : Nat)
    (s : my_manager) (res : Bool) (s1 : my_manager) (h : load_inv s) (hk : watched_inv s)
    (he : ent_inv P s) (hr : process_unit_literal_queue fuel s = some (res, s1)) :
    ent_inv P s1 ∧ cover_frame s s1 := by
  obtain ⟨a1, a2, a3, a4, a5, a6, a7, a8, a9, a10, a11, a12, a13, a14, a15, a16⟩ := h
  have hvar : ∀ v, s.status v ≠ 0 → 1 ≤ v ∧ v ≤ s.vc ∧ var (s.status v) = v := by
    intro v hv
    obtain ⟨p, p1, p2⟩ := a14 v hv
    obtain ⟨b1, b2, _⟩ := a13 p p1
    have := lit_ok_var _ _ b1
    rw [← p2, b2]
    exact ⟨this.1, this.2, rfl⟩
  have hstok : status_ok s.vc s.status := fun v _ hv => (hvar v hv).2.2
  have hsaved : saved_ok s := fun v hv => absurd (a5 v) hv
  have hcl : clauses_ok s.vc (clause_ptrs s) s.cl := hk.1
  unfold process_unit_literal_queue at hr
  simp only at hr
  split at hr
  · rename_i hne
    have hsz : s.imp.size ≠ 0 := by
      intro e
      rw [dequeue_empty _ _ e] at hne
      exact hne rfl
    rw [dequeue_nonempty _ _ hsz] at hr
    obtain ⟨g1, g2, g3, g4, g5⟩ := get_min_element_mem s.score s.imp (by omega)
    have hgw := get_min_element_wf s.score s.imp a10 (by omega)
    have hk1 : 1 ≤ s.stack_offset.toNat := by omega
    obtain ⟨e1, e2, _⟩ := a13 0 hk1
    have hr1 : (get_min_element s.score s.imp).1 = var (s.assign 0) := by
      rw [g1]; exact a12 (by omega)
    have hl : s.status (get_min_element s.score s.imp).1 = s.assign 0 := by
      rw [hr1]; exact e2
    rw [hl] at hr
    split at hr
    · simp at hr
    · rename_i r2 s2 hb
      simp only [Option.some.injEq, Prod.mk.injEq] at hr
      obtain ⟨hres, hs1⟩ := hr
      subst hres
      have hst0 : s.status (var (s.assign 0)) ≠ 0 := by
        rw [e2]
        have := e1.1
        omega
      have hlv1 : s.level (var (s.assign 0)) = 1 := (a15 _ hst0).1
      have es : Function.update s.status (var (s.assign 0)) (s.assign 0) = s.status := by
        have := Function.update_eq_self (var (s.assign 0)) s.status
        rw [e2] at this
        exact this
      have ea : Function.update s.assign s.assign_top (s.assign 0) = s.assign := by
        rw [a2]
        exact Function.update_eq_self 0 s.assign
      have hlast : (((s.assign_top : Nat) : Int) + 1 + (s.stack_offset - 1)).toNat
          = s.stack_offset.toNat := by
        rw [a2]
        omega
      have hb2 : bcp_loop 1 fuel
          { s with imp := (undo s.score (get_min_element s.score s.imp).2 (var (s.assign 0))),
                   simplify_orig_kb := 1, simplify_learned_kb := 1,
                   stack_offset := s.stack_offset - 1 } s.stack_offset.toNat
          = some (r2, s2) := by
        rw [← hb]
        unfold bcp
        simp only
        rw [hlv1, hlast, es, ea]
      -- the queue when the loop of `bcp` starts holds the assigned variables
      have hd : (get_min_element s.score s.imp).2.indices (var (s.assign 0)) ≠ 0 →
          heap_mem (get_min_element s.score s.imp).2 (var (s.assign 0)) :=
        fun hx => (heap_wf_mem _ hgw _).mpr hx
      obtain ⟨u1, u2, _, _⟩ := undo_mem s.score (get_min_element s.score s.imp).2
        (var (s.assign 0)) hd
      have huw := undo_wf s.score (get_min_element s.score s.imp).2 (var (s.assign 0)) hgw
      have hmem : ∀ w, heap_mem (undo s.score (get_min_element s.score s.imp).2
          (var (s.assign 0))) w ↔ s.status w ≠ 0 := by
        intro w
        rw [u2 w, ← a11 w]
        constructor
        · rintro (x | x)
          · exact g3 w x
          · rw [x, ← a12 (by omega)]
            exact ⟨1, by omega, le_refl _, rfl⟩
        · intro x
          rcases g4 w x with y | y
          · right
            rw [y]
            exact a12 (by omega)
          · left
            exact y
      have hinv : bcp_inv
          { s with imp := (undo s.score (get_min_element s.score s.imp).2 (var (s.assign 0))),
                   simplify_orig_kb := 1, simplify_learned_kb := 1,
                   stack_offset := s.stack_offset - 1 } := by
        refine ⟨hk, hstok, ?_⟩
        apply queue_ok_of_mem
        · intro w hw
          have := hvar w ((hmem w).mp hw)
          exact ⟨this.1, this.2.1, (hmem w).mp hw⟩
        · intro v _ hv
          exact (heap_wf_mem _ huw v).mpr hv
      have hT : bcp_trail
          { s with imp := (undo s.score (get_min_element s.score s.imp).2 (var (s.assign 0))),
                   simplify_orig_kb := 1, simplify_learned_kb := 1,
                   stack_offset := s.stack_offset - 1 } s.stack_offset.toNat 1 := by
        refine ⟨⟨?_, ?_, ?_⟩, ?_, ?_, a3.symm, le_refl _⟩
        · intro p hp
          obtain ⟨b1, b2, b3⟩ := a13 p hp
          have hne0 : s.status (var (s.assign p)) ≠ 0 := by
            rw [b2]
            have := b1.1
            omega
          obtain ⟨c1, c2⟩ := a15 _ hne0
          refine ⟨b1, b2, ?_, ?_, ?_, ?_⟩
          · show 1 ≤ s.level (var (s.assign p))
            omega
          · show s.level (var (s.assign p)) ≤ s.decision_level
            omega
          · intro q hq
            refine ⟨b3 q hq, ?_⟩
            obtain ⟨d1, d2, _⟩ := a13 q (by omega)
            have hq0 : s.status (var (s.assign q)) ≠ 0 := by
              rw [d2]
              have := d1.1
              omega
            show s.level (var (s.assign q)) ≤ s.level (var (s.assign p))
            rw [c1, (a15 _ hq0).1]
          · show reason_shape _ p (s.reason (var (s.assign p)))
            rw [c2]
            intro h2
            have h2 : 2 ≤ s.level (var (s.assign p)) := h2
            omega
        · intro v _ hv
          exact a14 v hv
        · intro v _ hv
          exact a16 v hv
        · intro L hL1 hL2
          have : L ≤ s.decision_level := hL2
          omega
        · intro w hw
          exact (a15 w ((hmem w).mp hw)).1
      have hW : twl_lv (clause_ptrs s) s.cl s.status s.level
          (undo s.score (get_min_element s.score s.imp).2 (var (s.assign 0))) := by
        intro c hc
        obtain ⟨w0, w1⟩ := watch_lits_ok s.vc (clause_ptrs s) s.cl hcl c hc
        constructor
        · intro hf
          left
          apply (hmem _).mpr
          rw [hf]
          exact neg_ne_zero _ w0.1
        · intro hf
          left
          apply (hmem _).mpr
          rw [hf]
          exact neg_ne_zero _ w1.1
      obtain ⟨_, j2, _, _, _⟩ := bcp_loop_all 1 (clause_ptrs s) fuel _ _ r2 s2 hinv
        (fun _ hc => hc) hT hW hb2
      have hen := bcp_loop_ent P 1 fuel _ _ r2 s2 hinv hT
        (ent_inv_congr P s _ rfl rfl rfl rfl rfl rfl he) hb2
      have hcf := cover_frame_of_bcp _ _ j2
      rw [← hs1]
      exact ⟨ent_inv_congr P s2 _ rfl rfl rfl rfl rfl rfl hen, ⟨hcf.1, hcf.2.1, hcf.2.2⟩⟩
  · rename_i hz
    have hz : (dequeue s.score s.imp).1 = 0 := by
      by_contra hc
      exact hz hc
    have hsz : s.imp.size = 0 := by
      by_contra hc
      rw [dequeue_nonempty _ _ hc] at hz
      obtain ⟨g1, _⟩ := get_min_element_mem s.score s.imp (by omega)
      rw [g1, a12 (by omega)] at hz
      obtain ⟨e1, _⟩ := a13 0 (by omega)
      have := (lit_ok_var _ _ e1).1
      omega
    rw [dequeue_empty _ _ hsz] at hr
    simp only [Option.some.injEq, Prod.mk.injEq] at hr
    obtain ⟨hres, hs1⟩ := hr
    rw [← hs1]
    exact ⟨ent_inv_congr P s _ rfl rfl rfl rfl rfl rfl he,
      ⟨rfl, fun v _ _ hl => ⟨rfl, hl⟩, fun c hc => Or.inl ⟨hc, List.Perm.refl _⟩⟩⟩

/-- The function `finish_up_init_manager` on the state that `read_cnf` built
keeps what the truth assignments of the class `P` satisfy, and keeps the
cover. -/
theorem finish_up_init_manager_sound (P : (Nat → Bool) → Prop) (fuel : Nat) (s : my_manager)
    (res : Bool) (s5 : my_manager) (h : load_inv s) (hu : unwatched s) (he : ent_inv P s)
    (hr : finish_up_init_manager fuel s = some (res, s5)) :
    ent_inv P s5 ∧ cover_frame s s5 := by
  unfold finish_up_init_manager at hr
  cases hw : init_watched_literals s.original_clauses s with
  | none => rw [hw] at hr; exact absurd hr (by simp)
  | some s1 =>
    rw [hw] at hr
    simp only at hr
    obtain ⟨b1, b2, b3, _, _, _⟩ := init_watched_heap s s1 h hu hw
    obtain ⟨w1, w2, w3, w4, w5, w6⟩ := init_watched_literals_fields _ _ _ hw
    obtain ⟨i1, i2, i3, i4, i5, i6⟩ := insert_all_fields s1.vc 1 s1
    have he1 : ent_inv P (insert_all s1.vc 1 s1) :=
      ent_inv_congr P s _ (i1.trans w1) (i2.trans w2) (i3.trans w3) (i4.trans w4)
        (i5.trans w5) (i6.trans w6) he
    have hf1 : cover_frame s (insert_all s1.vc 1 s1) := by
      refine ⟨i1.trans w1, ?_, ?_⟩
      · intro v _ _ hl
        rw [i5, w5, i6, w6]
        exact ⟨rfl, hl⟩
      · intro c hc
        left
        rw [i2, w2, i4, w4]
        exact ⟨hc, List.Perm.refl _⟩
    cases hp : process_unit_literal_queue fuel (insert_all s1.vc 1 s1) with
    | none => rw [hp] at hr; exact absurd hr (by simp)
    | some r =>
      obtain ⟨r1, s3⟩ := r
      rw [hp] at hr
      simp only at hr
      obtain ⟨c1, c2⟩ := process_unit_literal_queue_sound P fuel _ r1 s3 b1 b2 he1 hp
      obtain ⟨d1, _, d3, _⟩ := process_unit_literal_queue_inv fuel _ r1 s3 b1 b2 b3 hp
      have hf3 := cover_frame_trans _ _ _ hf1 c2
      by_cases hf : r1 = false
      · rw [if_pos hf] at hr
        simp only [Option.some.injEq, Prod.mk.injEq] at hr
        rw [← hr.2]
        exact ⟨c1, hf3⟩
      · rw [if_neg hf] at hr
        have ht : r1 = true := by simpa using hf
        cases h4 : simplify_original_kb s3 with
        | none => rw [h4] at hr; exact absurd hr (by simp)
        | some s4 =>
          rw [h4] at hr
          simp only [Option.some.injEq, Prod.mk.injEq] at hr
          obtain ⟨e1, e2⟩ := simplify_original_kb_sound P s3 s4 (d1 ht).1 d3 c1 h4
          have hf4 := cover_frame_trans _ _ _ hf3 e2
          rw [← hr.2]
          exact ⟨ent_inv_congr P s4 _ rfl rfl rfl rfl rfl rfl e1,
            ⟨hf4.1, hf4.2.1, hf4.2.2⟩⟩

/-- The flag `ok`, which `main` sets to the value that `finish_up_init_manager`
returned, is not looked at by the invariants of the search. -/
theorem solve_inv_set_ok (s : my_manager) (k : Nat) (h : solve_inv s) :
    solve_inv { s with ok := k } := by
  have hs : same_search s { s with ok := k } := by
    refine ⟨rfl, rfl, rfl, rfl, rfl, rfl, rfl, rfl, rfl, rfl, rfl, rfl, rfl, rfl, rfl, ?_,
      fun hw => ⟨hw, fun _ => Iff.rfl⟩, le_refl _⟩
    intro r _
    rfl
  obtain ⟨i1, i2, _, i4, _⟩ := same_search_inv _ _ hs
  exact ⟨i1 h.1, i2 h.2.1, i4 h.2.2⟩

/-- The state in which `main` calls `solve`: a state of the search that is
entailed by the clauses of the input lines and covers them. -/
theorem solve_entry_sound (bfuel vc cc : Nat) (lines : List (List Int)) (s0 s : my_manager)
    (h0 : read_cnf vc cc lines = some s0)
    (h1 : finish_up_init_manager bfuel s0 = some (true, s)) :
    solve_inv { s with ok := 1 }
    ∧ ent_inv (models (lines.map (List.map lit_from_int))) { s with ok := 1 }
    ∧ cover (lines.map (List.map lit_from_int)) { s with ok := 1 }
    ∧ s.vc = vc := by
  obtain ⟨a, b, c⟩ := read_cnf_load vc cc lines s0 h0
  obtain ⟨e0, c0⟩ := read_cnf_sound vc cc lines s0 h0
  obtain ⟨f1, _, _, f4⟩ := finish_up_init_manager_inv bfuel s0 true s a b h1
  obtain ⟨g1, g2⟩ := finish_up_init_manager_sound _ bfuel s0 true s a b e0 h1
  refine ⟨solve_inv_set_ok s 1 (f1 rfl), ent_inv_congr _ s _ rfl rfl rfl rfl rfl rfl g1, ?_,
    f4.trans c⟩
  have hc := cover_of_frame _ s0 s c0 g2
  intro C hC
  exact hc C hC

/-- C1: when `solve()`, called by `main` on the state that `read_cnf` and
`finish_up_init_manager` (returning 1) produced, returns 1, its main loop
returned 1 in the state `S` in which `select_variable` had just returned 0
(`solve` then hands back `backtrack(2)` of it); in `S` every variable of
`1..vc` is assigned and every clause line of the input, whether stored,
dropped at load or freed by the simplification at level 1, holds a literal
`l` with `status[var(l)] = l`. -/
theorem solve_sat_sound (bfuel cfuel : Nat) (time_up : Nat → Bool) (fuel vc cc : Nat)
    (lines : List (List Int)) (s0 s S' : my_manager)
    (h0 : read_cnf vc cc lines = some s0)
    (h1 : finish_up_init_manager bfuel s0 = some (true, s))
    (h2 : solve bfuel cfuel time_up fuel { s with ok := 1 } = some (1, S')) :
    ∃ s3 S, solve_loop bfuel cfuel time_up fuel { s with ok := 1 } = some (1, S)
      ∧ S' = backtrack S 2
      ∧ select_variable s3 = some (0, S)
      ∧ S.vc = vc
      ∧ (∀ v, 1 ≤ v → v ≤ vc → S.status v ≠ 0)
      ∧ ∀ line ∈ lines, ∃ x ∈ line, S.status (var (lit_from_int x)) = lit_from_int x := by
  obtain ⟨hs, he, hc, hvc⟩ := solve_entry_sound bfuel vc cc lines s0 s h0 h1
  unfold solve at h2
  cases hl : solve_loop bfuel cfuel time_up fuel { s with ok := 1 } with
  | none => rw [hl] at h2; exact absurd h2 (by simp)
  | some r =>
    obtain ⟨result, S⟩ := r
    rw [hl] at h2
    simp only at h2
    by_cases hr : result = 1
    · rw [if_pos hr] at h2
      simp only [Option.some.injEq, Prod.mk.injEq, true_and] at h2
      subst hr
      obtain ⟨_, k⟩ := solve_loop_sound _ bfuel cfuel time_up fuel _ 1 S hs he hl
      obtain ⟨s3, k1, k2, k3⟩ := k rfl
      have hc3 := cover_of_frame _ _ s3 hc k2
      obtain ⟨t1, t2, t3⟩ := sat_state_true _ s3 S k1 hc3 k3
      have hv3 : s3.vc = vc := by
        rw [k2.1]
        exact hvc
      refine ⟨s3, S, rfl, h2.symm, k3, t1.trans hv3, ?_, ?_⟩
      · intro v v1 v2
        exact t2 v v1 (by rw [t1, hv3]; exact v2)
      · intro line hline
        obtain ⟨l, l1, l2⟩ := t3 _ (List.mem_map.mpr ⟨line, hline, rfl⟩)
        obtain ⟨x, x1, rfl⟩ := List.mem_map.mp l1
        exact ⟨x, x1, l2⟩
    · rw [if_neg hr] at h2
      simp only [Option.some.injEq, Prod.mk.injEq] at h2
      exact absurd h2.1 hr

/-- C2: when `solve()`, called by `main` on the state that `read_cnf` and
`finish_up_init_manager` (returning 1) produced, returns 0, no truth
assignment of the variables satisfies every clause line of the input: every
assignment makes all literals of some line false. -/
theorem solve_unsat_sound (bfuel cfuel : Nat) (time_up : Nat → Bool) (fuel vc cc : Nat)
    (lines : List (List Int)) (s0 s S' : my_manager)
    (h0 : read_cnf vc cc lines = some s0)
    (h1 : finish_up_init_manager bfuel s0 = some (true, s))
    (h2 : solve bfuel cfuel time_up fuel { s with ok := 1 } = some (0, S')) :
    (∀ M : Nat → Bool, ¬ models (lines.map (List.map lit_from_int)) M)
    ∧ ∀ M : Nat → Bool, ∃ line ∈ lines, ∀ x ∈ line, lit_val M (lit_from_int x) = false := by
  obtain ⟨hs, he, _, _⟩ := solve_entry_sound bfuel vc cc lines s0 s h0 h1
  have key : ∀ M : Nat → Bool, ¬ models (lines.map (List.map lit_from_int)) M := by
    unfold solve at h2
    cases hl : solve_loop bfuel cfuel time_up fuel { s with ok := 1 } with
    | none => rw [hl] at h2; exact absurd h2 (by simp)
    | some r =>
      obtain ⟨result, S⟩ := r
      rw [hl] at h2
      simp only at h2
      by_cases hr : result = 1
      · rw [if_pos hr] at h2
        simp only [Option.some.injEq, Prod.mk.injEq] at h2
        exact absurd h2.1 (by decide)
      · rw [if_neg hr] at h2
        simp only [Option.some.injEq, Prod.mk.injEq] at h2
        obtain ⟨k, _⟩ := solve_loop_sound _ bfuel cfuel time_up fuel _ result S hs he hl
        exact k h2.1
  refine ⟨key, ?_⟩
  intro M
  by_contra hcon
  apply key M
  intro C hC
  obtain ⟨line, hline, rfl⟩ := List.mem_map.mp hC
  by_contra hno
  apply hcon
  refine ⟨line, hline, ?_⟩
  intro x hx
  cases hv : lit_val M (lit_from_int x) with
  | false => rfl
  | true => exact absurd ⟨lit_from_int x, List.mem_map.mpr ⟨x, hx, rfl⟩, hv⟩ hno

/-- The instance of C1 on the input `p cnf 2 2`, `1 2 0`, `1 -2 0`. -/
theorem solve_sat_sound_witness :
    ∃ s0 s S', read_cnf 2 2 [[1, 2], [1, -2]] = some s0
      ∧ finish_up_init_manager 10 s0 = some (true, s)
      ∧ solve 10 10 (fun _ => false) 10 { s with ok := 1 } = some (1, S')
      ∧ ∃ s3 S, solve_loop 10 10 (fun _ => false) 10 { s with ok := 1 } = some (1, S)
        ∧ S' = backtrack S 2
        ∧ select_variable s3 = some (0, S)
        ∧ S.vc = 2
        ∧ (∀ v, 1 ≤ v → v ≤ 2 → S.status v ≠ 0)
        ∧ ∀ line ∈ [[1, 2], [1, -2]], ∃ x ∈ line,
            S.status (var (lit_from_int x)) = lit_from_int x := by
  have t : ((read_cnf 2 2 [[1, 2], [1, -2]]).bind (fun s0 =>
      (finish_up_init_manager 10 s0).bind (fun r =>
        (solve 10 10 (fun _ => false) 10 { r.2 with ok := 1 }).map (fun q => (r.1, q.1)))))
      = some (true, 1) := by decide!
  cases h0 : read_cnf 2 2 [[1, 2], [1, -2]] with
  | none => rw [h0] at t; exact absurd t (by simp)
  | some s0 =>
    rw [h0] at t
    simp only [Option.some_bind] at t
    cases h1 : finish_up_init_manager 10 s0 with
    | none => rw [h1] at t; exact absurd t (by simp)
    | some r =>
      obtain ⟨res, s⟩ := r
      rw [h1] at t
      simp only [Option.some_bind] at t
      cases h2 : solve 10 10 (fun _ => false) 10 { s with ok := 1 } with
      | none => rw [h2] at t; exact absurd t (by simp)
      | some q =>
        obtain ⟨result, S'⟩ := q
        rw [h2] at t
        simp only [Option.map_some', Option.some.injEq, Prod.mk.injEq] at t
        obtain ⟨t1, t2⟩ := t
        subst t1 t2
        exact ⟨s0, s, S', rfl, h1, h2,
          solve_sat_sound 10 10 (fun _ => false) 10 2 2 [[1, 2], [1, -2]] s0 s S' h0 h1 h2⟩

/-- The instance of C2 on the input `p cnf 2 4` with the four clauses over two
variables. -/
theorem solve_unsat_sound_witness :
    ∃ s0 s S', read_cnf 2 4 [[1, 2], [1, -2], [-1, 2], [-1, -2]] = some s0
      ∧ finish_up_init_manager 10 s0 = some (true, s)
      ∧ solve 10 10 (fun _ => false) 10 { s with ok := 1 } = some (0, S')
      ∧ ∀ M : Nat → Bool, ∃ line ∈ [[1, 2], [1, -2], [-1, 2], [-1, -2]],
          ∀ x ∈ line, lit_val M (lit_from_int x) = false := by
  have t : ((read_cnf 2 4 [[1, 2], [1, -2], [-1, 2], [-1, -2]]).bind (fun s0 =>
      (finish_up_init_manager 10 s0).bind (fun r =>
        (solve 10 10 (fun _ => false) 10 { r.2 with ok := 1 }).map (fun q => (r.1, q.1)))))
      = some (true, 0) := by decide!
  cases h0 : read_cnf 2 4 [[1, 2], [1, -2], [-1, 2], [-1, -2]] with
  | none => rw [h0] at t; exact absurd t (by simp)
  | some s0 =>
    rw [h0] at t
    simp only [Option.some_bind] at t
    cases h1 : finish_up_init_manager 10 s0 with
    | none => rw [h1] at t; exact absurd t (by simp)
    | some r =>
      obtain ⟨res, s⟩ := r
      rw [h1] at t
      simp only [Option.some_bind] at t
      cases h2 : solve 10 10 (fun _ => false) 10 { s with ok := 1 } with
      | none => rw [h2] at t; exact absurd t (by simp)
      | some q =>
        obtain ⟨result, S'⟩ := q
        rw [h2] at t
        simp only [Option.map_some', Option.some.injEq, Prod.mk.injEq] at t
        obtain ⟨t1, t2⟩ := t
        subst t1 t2
        exact ⟨s0, s, S', rfl, h1, h2,
          (solve_unsat_sound 10 10 (fun _ => false) 10 2 4
            [[1, 2], [1, -2], [-1, 2], [-1, -2]] s0 s S' h0 h1 h2).2⟩

/-- C33: `double_decision_lit_len()` leaves the first (old capacity) entries
of `decision_lit` as they are, but the capacity after the call is four times
the previous one for every array and every capacity, not twice: at the
capacity 4 it is 16, and the first decision on an input with two variables
(capacity 2, level 2) leaves the capacity 8. -/
theorem double_decision_lit_len_quadruples :
    (∀ (decision_lit : Nat → Nat) (size : Nat),
      (double_decision_lit_len decision_lit size).2 = 4 * size
      ∧ ∀ i, i < size → (double_decision_lit_len decision_lit size).1 i = decision_lit i)
    ∧ (double_decision_lit_len (fun i => i + 7) 4).2 = 16
    ∧ (double_decision_lit_len (fun i => i + 7) 4).2 ≠ 2 * 4
    ∧ (double_array_len (fun i => i + 7) 4).2 = 2 * 4
    ∧ init_decision_lit_size 2 = 2
    ∧ (set_decision_decision_lit_access 1 (init_decision_lit_size 2)).1 = 8 := by
  refine ⟨?_, by decide, by decide, by decide, by decide, by decide⟩
  intro decision_lit size
  unfold double_decision_lit_len double_array_len
  simp only
  refine ⟨by omega, ?_⟩
  intro i hi
  rw [if_pos (by omega), if_pos hi]

/-- C37: `init_manager` writes `decision_lit[1]` in an array allocated with the
capacity `init_decision_lit_size vc`, which is 1 for one variable and 0 for
none: the index 1 is not below the capacity then.  From two variables on the
index is inside the array, and the index that `set_decision` writes is below
the capacity it leaves whenever the capacity on entry is at least 1 and above
the level on entry. -/
theorem init_manager_decision_lit_overflow :
    ¬ init_manager_decision_lit_index < init_decision_lit_size 1
    ∧ ¬ init_manager_decision_lit_index < init_decision_lit_size 0
    ∧ (∀ vc, 2 ≤ vc → init_manager_decision_lit_index < init_decision_lit_size vc)
    ∧ (∀ level size, level < size →
        (set_decision_decision_lit_access level size).2
          < (set_decision_decision_lit_access level size).1)
    ∧ (set_decision_decision_lit_access 1 0).1 = 0 := by
  refine ⟨by decide, by decide, ?_, ?_, by decide⟩
  · intro vc hvc
    unfold init_manager_decision_lit_index init_decision_lit_size
    split <;> omega
  · intro level size h
    unfold set_decision_decision_lit_access double_decision_lit_len double_array_len
    simp only
    split <;> omega

theorem bcp_frame_fields (s s1 s2 : my_manager) (h : bcp_frame s s1)
    (e1 : s2.vc = s1.vc) (e2 : s2.original_clauses = s1.original_clauses)
    (e3 : s2.learned_clauses = s1.learned_clauses) (e4 : s2.alloc_next = s1.alloc_next)
    (e5 : s2.var_order_heap = s1.var_order_heap) (e6 : s2.score = s1.score)
    (e7 : s2.decision_level = s1.decision_level) (e8 : s2.decision_lit = s1.decision_lit)
    (e9 : s2.stack_offset = s1.stack_offset) (e10 : s2.ok = s1.ok) (e11 : s2.cl = s1.cl)
    (e12 : s2.status = s1.status) (e13 : s2.level = s1.level) (e14 : s2.reason = s1.reason) :
    bcp_frame s s2 := by
  obtain ⟨b1, b2, b3, b4, b5, b6, b7, b8, b9, b10, b11, b12⟩ := h
  refine ⟨e1.trans b1, e2.trans b2, e3.trans b3, e4.trans b4, e5.trans b5, e6.trans b6,
    e7.trans b7, e8.trans b8, e9.trans b9, e10.trans b10, ?_, ?_⟩
  · intro c
    rw [e11]
    exact b11 c
  · intro v hv
    rw [e12, e13, e14]
    exact b12 v hv

theorem bcp_watch_loop_bframe (slevel neg_lit : Nat) :
    ∀ (rest : List Nat) (s : my_manager) (last : Nat) (kept : List Nat),
      lit_ok s.vc neg_lit →
      bcp_inv { s with watched :=
        (Function.update s.watched (watched_index neg_lit) (kept ++ rest)) } →
      s.status (var neg_lit) = neg neg_lit →
      bcp_frame s (bcp_watch_loop slevel neg_lit rest s last kept).m := by
  intro rest
  induction rest with
  | nil =>
    intro s last kept _ _ _
    rw [bcp_watch_loop]
    exact bcp_frame_refl s
  | cons clause rest ih =>
    intro s last kept hn hinv hfalse
    obtain ⟨k1, k2, k3⟩ := bcp_clause_inv slevel neg_lit s last clause kept rest hn hinv hfalse
    have hf := (bcp_clause_bcp_frame slevel neg_lit s last clause kept rest hn hinv).1
    rw [bcp_watch_loop]
    cases hb : bcp_clause slevel neg_lit s last clause with
    | kept s1 last1 =>
      obtain ⟨a1, a2, a3, a4⟩ := k1 s1 last1 hb
      rw [hb] at hf
      simp only
      exact bcp_frame_trans _ _ _ hf
        (ih s1 last1 (kept ++ [clause]) (by rw [a2]; exact hn) a1 a4)
    | moved s1 =>
      obtain ⟨a1, a2, a3, a4⟩ := k2 s1 hb
      rw [hb] at hf
      simp only
      exact bcp_frame_trans _ _ _ hf (ih s1 last kept (by rw [a2]; exact hn) a1 a4)
    | conflict s1 =>
      rw [hb] at hf
      simp only
      exact bcp_frame_fields s s1 _ hf rfl rfl rfl rfl rfl rfl rfl rfl rfl rfl rfl rfl rfl rfl

theorem bcp_loop_bframe (slevel : Nat) :
    ∀ (fuel : Nat) (s : my_manager) (last : Nat) (res : Bool) (s' : my_manager),
      bcp_inv s → bcp_loop slevel fuel s last = some (res, s') → bcp_frame s s' := by
  intro fuel
  induction fuel with
  | zero => intro s last res s' _ h; simp [bcp_loop] at h
  | succ f ih =>
    intro s last res s' hinv h
    rw [bcp_loop] at h
    simp only at h
    obtain ⟨hkb, hst, hq⟩ := hinv
    by_cases hd : (dequeue s.score s.imp).1 = 0
    · rw [if_pos hd] at h
      simp only [Option.some.injEq, Prod.mk.injEq] at h
      obtain ⟨h1, h2⟩ := h
      subst h1 h2
      exact bcp_frame_fields s s _ (bcp_frame_refl s)
        rfl rfl rfl rfl rfl rfl rfl rfl rfl rfl rfl rfl rfl rfl
    · rw [if_neg hd] at h
      have hne : s.imp.size ≠ 0 := by
        intro e
        rw [dequeue_empty s.score s.imp e] at hd
        exact hd rfl
      obtain ⟨d1, d2, _, _, _⟩ := queue_ok_dequeue s.score s.vc s.status s.imp hq hne
      obtain ⟨v1, v2, v3⟩ := queue_ok_mem s.vc s.status s.imp hq _ d2
      have hvar : var (s.status (dequeue s.score s.imp).1) = (dequeue s.score s.imp).1 :=
        hst _ v2 v3
      have hlit : lit_ok s.vc (s.status (dequeue s.score s.imp).1) := by
        unfold lit_ok
        rw [var_eq] at hvar
        omega
      have hn := lit_ok_neg s.vc _ hlit
      have hfalse : s.status (var (neg (s.status (dequeue s.score s.imp).1)))
          = neg (neg (s.status (dequeue s.score s.imp).1)) := by
        rw [var_neg, neg_neg, hvar]
      have hinv0 : bcp_inv { ({ s with imp := (dequeue s.score s.imp).2 } : my_manager) with
          watched := (Function.update s.watched
            (watched_index (neg (s.status (dequeue s.score s.imp).1)))
            ([] ++ s.watched (watched_index (neg (s.status (dequeue s.score s.imp).1))))) } := by
        rw [List.nil_append, Function.update_eq_self]
        exact ⟨hkb, hst, d1⟩
      obtain ⟨r1, r2, r3, r4⟩ := bcp_watch_loop_inv slevel
        (neg (s.status (dequeue s.score s.imp).1))
        (s.watched (watched_index (neg (s.status (dequeue s.score s.imp).1))))
        { s with imp := (dequeue s.score s.imp).2 } last [] hn hinv0 hfalse
      have hw := bcp_watch_loop_bframe slevel
        (neg (s.status (dequeue s.score s.imp).1))
        (s.watched (watched_index (neg (s.status (dequeue s.score s.imp).1))))
        { s with imp := (dequeue s.score s.imp).2 } last [] hn hinv0 hfalse
      have hw1 : bcp_frame s (bcp_watch_loop slevel (neg (s.status (dequeue s.score s.imp).1))
          (s.watched (watched_index (neg (s.status (dequeue s.score s.imp).1))))
          { s with imp := (dequeue s.score s.imp).2 } last []).m := hw
      by_cases hc : (bcp_watch_loop slevel (neg (s.status (dequeue s.score s.imp).1))
          (s.watched (watched_index (neg (s.status (dequeue s.score s.imp).1))))
          { s with imp := (dequeue s.score s.imp).2 } last []).conflict = true
      · rw [if_pos hc] at h
        simp only [Option.some.injEq, Prod.mk.injEq] at h
        obtain ⟨h1, h2⟩ := h
        subst h1 h2
        exact bcp_frame_fields s _ _ hw1 rfl rfl rfl rfl rfl rfl rfl rfl rfl rfl rfl rfl rfl rfl
      · rw [if_neg hc] at h
        have i1 := ih _ _ res s' r1 h
        exact bcp_frame_trans _ _ _
          (bcp_frame_fields s _ _ hw1 rfl rfl rfl rfl rfl rfl rfl rfl rfl rfl rfl rfl rfl rfl) i1

/-- C40: a call `bcp(l)` from a state satisfying the watched-literal
invariant, for a literal `l` of the instance whose variable is unassigned (as
in `set_decision` and `assert_conflict_clause`) or already holds `l` (as in
`process_unit_literal_queue`), only permutes the literals of the clauses:
every clause has the same multiset of literals, hence the same size, after
the call as before; the original and the learned store hold the same clause
pointers; and every variable assigned before the call keeps its status, its
level and its reason. -/
theorem bcp_clauses_kept (fuel : Nat) (s : my_manager) (l : Nat) (res : Bool)
    (s' : my_manager) (hinv : bcp_inv s) (hl : lit_ok s.vc l)
    (hfree : s.status (var l) = 0 ∨ s.status (var l) = l)
    (h : bcp fuel s l = some (res, s')) :
    (∀ c, ((s'.cl c).lits).Perm ((s.cl c).lits)
      ∧ (s'.cl c).lits.length = (s.cl c).lits.length)
    ∧ s'.original_clauses = s.original_clauses
    ∧ s'.learned_clauses = s.learned_clauses
    ∧ (∀ v, s.status v ≠ 0 →
        s'.status v = s.status v ∧ s'.level v = s.level v ∧ s'.reason v = s.reason v) := by
  unfold bcp at h
  have hf := bcp_loop_bframe _ fuel _ _ res s' (bcp_start_inv s l hinv hl) h
  obtain ⟨_, b2, b3, _, _, _, _, _, _, _, b11, b12⟩ := hf
  refine ⟨fun c => ⟨(b11 c).1, (b11 c).1.length_eq⟩, b2, b3, ?_⟩
  intro v hv
  have hsame : Function.update s.status (var l) l v = s.status v := by
    by_cases e : v = var l
    · rw [e, Function.update_same]
      rw [e] at hv
      rcases hfree with h0 | h1
      · exact absurd h0 hv
      · exact h1.symm
    · rw [Function.update_noteq e]
  obtain ⟨c1, c2, c3⟩ := b12 v (by
    show Function.update s.status (var l) l v ≠ 0
    rw [hsame]
    exact hv)
  exact ⟨c1.trans hsame, c2, c3⟩

/-! ### `bcp`: the list walked and the list appended to -/

theorem bcp_clause_walked (slevel neg_lit : Nat) (s : my_manager) (last clause : Nat)
    (kept rest : List Nat) (hn : lit_ok s.vc neg_lit)
    (hinv : bcp_inv { s with watched :=
      (Function.update s.watched (watched_index neg_lit) (kept ++ clause :: rest)) })
    (hfalse : s.status (var neg_lit) = neg neg_lit) :
    (∀ s1, bcp_clause slevel neg_lit s last clause = clause_outcome.moved s1 →
      ∃ temp2 s2 k, s1 = add_watched_clause s2 temp2 clause ∧ s2.watched = s.watched
        ∧ 2 ≤ k ∧ k < (s.cl clause).lits.length ∧ temp2 = (s.cl clause).lits.getD k 0
        ∧ s.status (var temp2) ≠ neg temp2
        ∧ temp2 ≠ neg_lit ∧ watched_index temp2 ≠ watched_index neg_lit)
    ∧ (bcp_clause slevel neg_lit s last clause).state.watched (watched_index neg_lit)
        = s.watched (watched_index neg_lit) := by
  obtain ⟨hptr, a, b, t, o, hl, hnd, hoks, ho, hcases⟩ :=
    bcp_clause_cases slevel neg_lit s last clause kept rest hn hinv
  rcases hcases with ⟨_, e⟩ | ⟨_, m, hm, hu, e⟩ | ⟨_, _, _, e⟩ | ⟨_, _, _, h0, e⟩ | ⟨_, _, _, _, e⟩
  · rw [e]
    exact ⟨fun s1 h => by simp at h, rfl⟩
  · rw [e]
    have hmem : t.getD m 0 ∈ a :: b :: t := by
      rw [List.getD_eq_getElem t 0 hm]
      exact List.mem_cons_of_mem _ (List.mem_cons_of_mem _ (List.getElem_mem hm))
    have hne : t.getD m 0 ≠ neg_lit := by
      intro x
      rw [x] at hu
      exact hu hfalse
    have hwi : watched_index (t.getD m 0) ≠ watched_index neg_lit := by
      intro x
      exact hne (watched_index_inj _ _ (hoks _ hmem).1 hn.1 x)
    constructor
    · intro s1 h
      simp only [clause_outcome.moved.injEq] at h
      refine ⟨t.getD m 0, set_lits s clause (o :: t.getD m 0 :: t.set m neg_lit), m + 2,
        h.symm, rfl, by omega, ?_, ?_, hu, hne, hwi⟩
      · rw [hl]
        simp only [List.length_cons]
        omega
      · rw [hl]
        rfl
    · show Function.update s.watched (watched_index (t.getD m 0)) _ (watched_index neg_lit)
        = s.watched (watched_index neg_lit)
      rw [Function.update_noteq (Ne.symm hwi)]
  · rw [e]
    exact ⟨fun s1 h => by simp at h, rfl⟩
  · rw [e]
    exact ⟨fun s1 h => by simp at h, rfl⟩
  · rw [e]
    exact ⟨fun s1 h => by simp at h, rfl⟩

theorem bcp_watch_loop_walked (slevel neg_lit : Nat) :
    ∀ (rest : List Nat) (s : my_manager) (last : Nat) (kept : List Nat),
      lit_ok s.vc neg_lit →
      bcp_inv { s with watched :=
        (Function.update s.watched (watched_index neg_lit) (kept ++ rest)) } →
      s.status (var neg_lit) = neg neg_lit →
      (bcp_watch_loop slevel neg_lit rest s last kept).m.watched (watched_index neg_lit)
        = s.watched (watched_index neg_lit) := by
  intro rest
  induction rest with
  | nil =>
    intro s last kept _ _ _
    rw [bcp_watch_loop]
  | cons clause rest ih =>
    intro s last kept hn hinv hfalse
    obtain ⟨k1, k2, k3⟩ := bcp_clause_inv slevel neg_lit s last clause kept rest hn hinv hfalse
    have hw := (bcp_clause_walked slevel neg_lit s last clause kept rest hn hinv hfalse).2
    rw [bcp_watch_loop]
    cases hb : bcp_clause slevel neg_lit s last clause with
    | kept s1 last1 =>
      obtain ⟨a1, a2, a3, a4⟩ := k1 s1 last1 hb
      rw [hb] at hw
      simp only
      exact (ih s1 last1 (kept ++ [clause]) (by rw [a2]; exact hn) a1 a4).trans hw
    | moved s1 =>
      obtain ⟨a1, a2, a3, a4⟩ := k2 s1 hb
      rw [hb] at hw
      simp only
      exact (ih s1 last kept (by rw [a2]; exact hn) a1 a4).trans hw
    | conflict s1 =>
      rw [hb] at hw
      simp only
      exact hw

/-- C39: in the walk of `bcp` over the watched list of `neg_lit` (a false
literal of the instance, the state satisfying the watched-literal invariant
with the clauses written back so far and the clauses still to be read on that
list), whenever the clause step moves the clause to a new watch by
`add_watched_clause(temp2, clause)`, the literal `temp2` is an unresolved
literal of the clause from a position `k ≥ 2`, so `temp2 ≠ neg_lit` and its
watched list is another list than the one walked; the list of `neg_lit` is
not changed by the step, nor by the rest of the walk. -/
theorem moved_watch_differs (slevel neg_lit : Nat) (s : my_manager) (last clause : Nat)
    (kept rest : List Nat) (hn : lit_ok s.vc neg_lit)
    (hinv : bcp_inv { s with watched :=
      (Function.update s.watched (watched_index neg_lit) (kept ++ clause :: rest)) })
    (hfalse : s.status (var neg_lit) = neg neg_lit) :
    (∀ s1, bcp_clause slevel neg_lit s last clause = clause_outcome.moved s1 →
      ∃ temp2 s2 k, s1 = add_watched_clause s2 temp2 clause ∧ s2.watched = s.watched
        ∧ 2 ≤ k ∧ k < (s.cl clause).lits.length ∧ temp2 = (s.cl clause).lits.getD k 0
        ∧ s.status (var temp2) ≠ neg temp2
        ∧ temp2 ≠ neg_lit ∧ watched_index temp2 ≠ watched_index neg_lit
        ∧ s1.watched (watched_index neg_lit) = s.watched (watched_index neg_lit))
    ∧ (bcp_watch_loop slevel neg_lit (clause :: rest) s last kept).m.watched
          (watched_index neg_lit) = s.watched (watched_index neg_lit) := by
  obtain ⟨h1, h2⟩ := bcp_clause_walked slevel neg_lit s last clause kept rest hn hinv hfalse
  refine ⟨?_, bcp_watch_loop_walked slevel neg_lit (clause :: rest) s last kept hn hinv hfalse⟩
  intro s1 h
  obtain ⟨temp2, s2, k, x1, x2, x3, x4, x5, x6, x7, x8⟩ := h1 s1 h
  rw [h] at h2
  exact ⟨temp2, s2, k, x1, x2, x3, x4, x5, x6, x7, x8, h2⟩

/-- C39, witness: in the second instance, the walk over the list of literal 3
after the decision `1` moves the clause at pointer 1 to the list of its
literal 6. -/
theorem moved_watch_differs_witness :
    lit_ok example_walk.vc 3
    ∧ example_walk.watched (watched_index 3) = [1, 2]
    ∧ example_walk.status (var 3) = neg 3
    ∧ (∃ s1, bcp_clause 2 3 example_walk 1 1 = clause_outcome.moved s1
      ∧ ∃ temp2 s2 k, s1 = add_watched_clause s2 temp2 1 ∧ s2.watched = example_walk.watched
        ∧ 2 ≤ k ∧ k < (example_walk.cl 1).lits.length
        ∧ temp2 = (example_walk.cl 1).lits.getD k 0
        ∧ example_walk.status (var temp2) ≠ neg temp2
        ∧ temp2 ≠ 3 ∧ watched_index temp2 ≠ watched_index 3
        ∧ s1.watched (watched_index 3) = example_walk.watched (watched_index 3))
    ∧ (bcp_watch_loop 2 3 [1, 2] example_walk 1 []).m.watched (watched_index 3)
        = example_walk.watched (watched_index 3) := by
  have h := moved_watch_differs 2 3 example_walk 1 1 [] [2] (by decide) (by decide) (by decide)
  refine ⟨by decide, by decide, by decide, ?_, h.2⟩
  cases hb : bcp_clause 2 3 example_walk 1 1 with
  | kept s1 last1 =>
    have hk : (match bcp_clause 2 3 example_walk 1 1 with
      | clause_outcome.moved _ => true | _ => false) = true := by decide
    rw [hb] at hk
    exact absurd hk (by simp)
  | conflict s1 =>
    have hk : (match bcp_clause 2 3 example_walk 1 1 with
      | clause_outcome.moved _ => true | _ => false) = true := by decide
    rw [hb] at hk
    exact absurd hk (by simp)
  | moved s1 => exact ⟨s1, rfl, h.1 s1 hb⟩

theorem example_two_decided_eq :
    bcp 10 (set_decision_start example_two 2) 2 = some (true, example_two_decided) :=
  option_result_eq (bcp 10 (set_decision_start example_two 2) 2) example_two true
    (by decide)

/-- C40, witness: the decision `1` on the second instance turns the clause
`[3, 5, 6]` at pointer 1 into `[5, 6, 3]` and assigns nothing but variable
1. -/
theorem bcp_clauses_kept_witness :
    bcp_inv (set_decision_start example_two 2)
    ∧ (set_decision_start example_two 2).status (var 2) = 0
    ∧ (example_two_decided.cl 1).lits = [5, 6, 3]
    ∧ ((∀ c, ((example_two_decided.cl c).lits).Perm
          (((set_decision_start example_two 2).cl c).lits)
        ∧ (example_two_decided.cl c).lits.length
          = ((set_decision_start example_two 2).cl c).lits.length)
      ∧ example_two_decided.original_clauses
          = (set_decision_start example_two 2).original_clauses
      ∧ example_two_decided.learned_clauses
          = (set_decision_start example_two 2).learned_clauses
      ∧ (∀ v, (set_decision_start example_two 2).status v ≠ 0 →
          example_two_decided.status v = (set_decision_start example_two 2).status v
          ∧ example_two_decided.level v = (set_decision_start example_two 2).level v
          ∧ example_two_decided.reason v = (set_decision_start example_two 2).reason v)) :=
  ⟨by decide, by decide, by decide,
    bcp_clauses_kept 10 (set_decision_start example_two 2) 2 true example_two_decided
      (by decide) (by decide) (Or.inl (by decide)) example_two_decided_eq⟩

/-! ### Conflict analysis: the minimised clause is a subsequence -/

theorem dcc_min_loop_kept (minl : Nat) :
    ∀ (n i : Nat) (st r : dcc_min_state), st.j ≤ i →
      dcc_min_loop minl n i st = some r →
      ∃ kept : List Nat, kept.Sublist (List.range' i n)
        ∧ r.j = st.j + kept.length
        ∧ (∀ p, p < st.j → r.m.cdc p = st.m.cdc p)
        ∧ (∀ q, q < kept.length → r.m.cdc (st.j + q) = st.m.cdc (kept.getD q 0))
        ∧ (∀ k, i ≤ k → k < i + n → st.m.reason (var (st.m.cdc k)) = none → k ∈ kept)
        ∧ r.m.reason = st.m.reason := by
  intro n
  induction n with
  | zero =>
    intro i st r _ h
    rw [dcc_min_loop] at h
    simp only [Option.some.injEq] at h
    subst h
    refine ⟨[], List.Sublist.refl _, rfl, fun _ _ => rfl, ?_, ?_, rfl⟩
    · intro q hq
      simp at hq
    · intro k k1 k2
      omega
  | succ n ih =>
    intro i st r hji h
    -- the state after the literal at `i` is retained
    have hkeep : ∀ seen1 : Nat → Bool,
        dcc_min_loop minl n (i + 1)
            { m := { st.m with cdc := (Function.update st.m.cdc st.j (st.m.cdc i)) },
              seen := seen1,
              j := st.j + 1,
              assertion_level :=
                if st.m.level (var (st.m.cdc i)) > st.assertion_level
                then st.m.level (var (st.m.cdc i)) else st.assertion_level } = some r →
        ∃ kept : List Nat, kept.Sublist (List.range' i (n + 1))
          ∧ r.j = st.j + kept.length
          ∧ (∀ p, p < st.j → r.m.cdc p = st.m.cdc p)
          ∧ (∀ q, q < kept.length → r.m.cdc (st.j + q) = st.m.cdc (kept.getD q 0))
          ∧ (∀ k, i ≤ k → k < i + (n + 1) → st.m.reason (var (st.m.cdc k)) = none → k ∈ kept)
          ∧ r.m.reason = st.m.reason := by
      intro seen1 hr
      obtain ⟨kept, k1, k2, k3, k4, k5, k6⟩ := ih (i + 1) _ r (by show st.j + 1 ≤ i + 1; omega) hr
      simp only at k2 k3 k4 k5 k6
      refine ⟨i :: kept, ?_, ?_, ?_, ?_, ?_, k6⟩
      · rw [List.range'_succ]
        exact k1.cons₂ i
      · rw [k2, List.length_cons]
        omega
      · intro p hp
        rw [k3 p (by omega), Function.update_noteq (by omega)]
      · intro q hq
        cases q with
        | zero =>
          rw [Nat.add_zero, k3 st.j (by omega), Function.update_same]
          rfl
        | succ q =>
          have hq1 : q < kept.length := by
            rw [List.length_cons] at hq
            omega
          have hm : kept.getD q 0 ∈ List.range' (i + 1) n := by
            rw [List.getD_eq_getElem kept 0 hq1]
            exact k1.subset (List.getElem_mem hq1)
          rw [List.mem_range'_1] at hm
          have e := k4 q hq1
          rw [Function.update_noteq (by omega)] at e
          have e2 : st.j + (q + 1) = st.j + 1 + q := by omega
          rw [e2, e]
          rfl
      · intro k h1 h2 h3
        by_cases hk : k = i
        · rw [hk]
          exact List.mem_cons_self _ _
        · refine List.mem_cons_of_mem _ (k5 k (by omega) (by omega) ?_)
          rw [Function.update_noteq (by omega)]
          exact h3
    rw [dcc_min_loop] at h
    simp only at h
    by_cases hr : st.m.reason (var (st.m.cdc i)) = none
    · rw [if_pos hr] at h
      exact hkeep _ h
    · rw [if_neg hr] at h
      cases hrem : removable st.m st.seen (st.m.cdc i) minl with
      | none =>
        rw [hrem] at h
        simp at h
      | some x =>
        obtain ⟨b, seen1⟩ := x
        rw [hrem] at h
        cases b with
        | false => exact hkeep _ h
        | true =>
          simp only at h
          obtain ⟨kept, k1, k2, k3, k4, k5, k6⟩ := ih (i + 1) _ r
            (by show st.j ≤ i + 1; omega) h
          simp only at k2 k3 k4 k5 k6
          refine ⟨kept, ?_, k2, k3, k4, ?_, k6⟩
          · rw [List.range'_succ]
            exact k1.cons i
          · intro k h1 h2 h3
            by_cases hk : k = i
            · rw [hk] at h3
              exact absurd h3 hr
            · exact k5 k (by omega) (by omega) h3

theorem map_range_kept (f g : Nat → Nat) (kept : List Nat)
    (h : ∀ q, q < kept.length → f (1 + q) = g (kept.getD q 0)) :
    List.map f (List.range (1 + kept.length)) = f 0 :: kept.map g := by
  apply List.ext_getElem
  · simp
    omega
  · intro n h1 h2
    cases n with
    | zero => simp
    | succ n =>
      simp only [List.length_cons, List.length_map] at h2
      have hn : n < kept.length := by omega
      simp only [List.getElem_map, List.getElem_range, List.getElem_cons_succ]
      have e := h n hn
      rw [List.getD_eq_getElem kept 0 hn] at e
      rw [← e]
      congr 1
      omega

/-- C32: the minimisation loop of `derive_conflict_clause` (for a conflict
level above 1) leaves in `cdc[0..size)` a subsequence of the first-UIP clause
it was entered with, which is `neg next_lit` at position 0 followed by
`cdc[1..cdc_index)`: position 0 is unchanged, the retained literals are those
of a sublist `kept` of the positions `1 .. cdc_index - 1`, in their order,
nothing else is added, and every position whose variable has reason `NULL` is
among the retained ones. -/
theorem minimisation_subsequence (s : my_manager) (conf : Option Nat)
    (clevel size alevel : Nat) (m : my_manager) (hc : 1 < clevel)
    (h : derive_conflict_clause s conf clevel = some (size, alevel, m)) :
    ∃ (st : dcc_state) (next_lit : Nat) (kept : List Nat),
      dcc_loop clevel (s.assign_top + 1) conf 0 s.assign_top
        { m := { s with assertion_level := 1, cdc := (Function.update s.cdc 0 0),
                        cdc_index := 1 },
          seen := fun _ => false, num_lits_at_clevel := 0 } = some (st, next_lit)
      ∧ kept.Sublist (List.range' 1 (st.m.cdc_index - 1))
      ∧ List.map m.cdc (List.range size) = neg next_lit :: kept.map st.m.cdc
      ∧ (List.map m.cdc (List.range size)).Sublist
          (neg next_lit :: (List.range' 1 (st.m.cdc_index - 1)).map st.m.cdc)
      ∧ m.cdc 0 = neg next_lit
      ∧ size = 1 + kept.length
      ∧ m.reason = st.m.reason
      ∧ (∀ k, 1 ≤ k → k < st.m.cdc_index →
          st.m.reason (var (st.m.cdc k)) = none → k ∈ kept) := by
  unfold derive_conflict_clause at h
  simp only at h
  rw [if_neg (by omega)] at h
  cases hl : dcc_loop clevel (s.assign_top + 1) conf 0 s.assign_top
      { m := { s with assertion_level := 1, cdc := (Function.update s.cdc 0 0),
                      cdc_index := 1 },
        seen := fun _ => false, num_lits_at_clevel := 0 } with
  | none =>
    rw [hl] at h
    simp at h
  | some x =>
    obtain ⟨st, nl⟩ := x
    rw [hl] at h
    simp only at h
    cases hm : dcc_min_loop
        (dcc_minl { st.m with cdc := (Function.update st.m.cdc 0 (neg nl)) }
          (st.m.cdc_index - 1) 1 0) (st.m.cdc_index - 1) 1
        { m := { st.m with cdc := (Function.update st.m.cdc 0 (neg nl)) },
          seen := Function.update st.seen (var nl) true, j := 1, assertion_level := 1 } with
    | none =>
      rw [hm] at h
      simp at h
    | some r =>
      rw [hm] at h
      simp only [Option.some.injEq, Prod.mk.injEq] at h
      obtain ⟨e1, e2, e3⟩ := h
      subst e1 e2 e3
      obtain ⟨kept, k1, k2, k3, k4, k5, k6⟩ := dcc_min_loop_kept _ _ 1 _ r (le_refl _) hm
      simp only at k2 k3 k4 k5 k6
      have hpos : ∀ x ∈ kept, 1 ≤ x := by
        intro x hx
        have := k1.subset hx
        rw [List.mem_range'_1] at this
        exact this.1
      have hk4 : ∀ q, q < kept.length → r.m.cdc (1 + q) = st.m.cdc (kept.getD q 0) := by
        intro q hq
        rw [k4 q hq, Function.update_noteq]
        have := hpos (kept.getD q 0) (by
          rw [List.getD_eq_getElem kept 0 hq]
          exact List.getElem_mem hq)
        omega
      have h0 : r.m.cdc 0 = neg nl := by
        rw [k3 0 (by omega), Function.update_same]
      have hmap : List.map r.m.cdc (List.range r.j) = neg nl :: kept.map st.m.cdc := by
        rw [k2, map_range_kept r.m.cdc st.m.cdc kept hk4, h0]
      refine ⟨st, nl, kept, rfl, k1, hmap, ?_, h0, k2, k6, ?_⟩
      · rw [hmap]
        exact (k1.map st.m.cdc).cons₂ _
      · intro k h1 h2 h3
        refine k5 k h1 (by omega) ?_
        rw [Function.update_noteq (by omega)]
        exact h3

/-- C32, witness: the conflict of the second instance at level 3. -/
theorem minimisation_subsequence_witness :
    ∃ size alevel m, derive_conflict_clause example_deep (some 2) 3 = some (size, alevel, m)
      ∧ ∃ (st : dcc_state) (next_lit : Nat) (kept : List Nat),
        dcc_loop 3 (example_deep.assign_top + 1) (some 2) 0 example_deep.assign_top
          { m := { example_deep with assertion_level := 1,
                                     cdc := (Function.update example_deep.cdc 0 0),
                                     cdc_index := 1 },
            seen := fun _ => false, num_lits_at_clevel := 0 } = some (st, next_lit)
        ∧ kept.Sublist (List.range' 1 (st.m.cdc_index - 1))
        ∧ List.map m.cdc (List.range size) = neg next_lit :: kept.map st.m.cdc
        ∧ (List.map m.cdc (List.range size)).Sublist
            (neg next_lit :: (List.range' 1 (st.m.cdc_index - 1)).map st.m.cdc)
        ∧ m.cdc 0 = neg next_lit
        ∧ size = 1 + kept.length
        ∧ m.reason = st.m.reason
        ∧ (∀ k, 1 ≤ k → k < st.m.cdc_index →
            st.m.reason (var (st.m.cdc k)) = none → k ∈ kept) := by
  cases h : derive_conflict_clause example_deep (some 2) 3 with
  | none =>
    have hs : (derive_conflict_clause example_deep (some 2) 3).isSome = true := by decide!
    rw [h] at hs
    simp at hs
  | some r =>
    exact ⟨r.1, r.2.1, r.2.2, rfl,
      minimisation_subsequence example_deep (some 2) 3 r.1 r.2.1 r.2.2 (by decide) h⟩

/-! ### `remove_clause`: what it changes -/

theorem filter_erase_self (c : Nat) :
    ∀ L : List Nat, (L.erase c).filter (fun d => decide (d ≠ c))
      = L.filter (fun d => decide (d ≠ c)) := by
  intro L
  induction L with
  | nil => rfl
  | cons x xs ih =>
    by_cases hx : x = c
    · subst hx
      rw [List.erase_cons_head]
      simp
    · rw [List.erase_cons_tail (by simpa using hx)]
      simp only [List.filter_cons, ih]

/-- C34: for a stored clause `c` (of size at least 2) in a state satisfying
the watched-literal invariant and the reason invariant, `remove_clause(c)`
returns; afterwards `c` is on no watched list and is the reason of no
variable; every watched list holds its other clauses as before, in the same
order, and every reason entry other than `c` is unchanged, as is the rest of
the manager. -/
theorem remove_clause_frame (s : my_manager) (c : Nat) (hk : watched_inv s)
    (hst : status_ok s.vc s.status) (hr : reason_inv s) (hc : c ∈ clause_ptrs s) :
    2 ≤ (s.cl c).lits.length
    ∧ ∃ s1, remove_clause s c = some s1
      ∧ (∀ l, lit_ok s.vc l → c ∉ s1.watched (watched_index l))
      ∧ (∀ v, v ≤ s.vc → s1.reason v ≠ some c)
      ∧ (∀ w, (s1.watched w).filter (fun d => decide (d ≠ c))
          = (s.watched w).filter (fun d => decide (d ≠ c)))
      ∧ (∀ l, lit_ok s.vc l → s1.watched (watched_index l)
          = (s.watched (watched_index l)).filter (fun d => decide (d ≠ c)))
      ∧ (∀ v, s.reason v ≠ some c → s1.reason v = s.reason v)
      ∧ s1 = { s with reason := s1.reason, watched := s1.watched } := by
  obtain ⟨k1, k2, k3⟩ := hk
  obtain ⟨c1, c2, c3⟩ := k1 c hc
  obtain ⟨m0, m1⟩ := k3 c hc
  have e0 : (s.cl c).lits.getD 0 0 = (s.cl c).lits.get ⟨0, by omega⟩ := by
    rw [List.getD_eq_getElem _ _ (by omega)]; rfl
  have e1 : (s.cl c).lits.getD 1 0 = (s.cl c).lits.get ⟨1, by omega⟩ := by
    rw [List.getD_eq_getElem _ _ (by omega)]; rfl
  have hl0 : lit_ok s.vc ((s.cl c).lits.getD 0 0) := by
    rw [e0]
    exact c3 _ (List.get_mem _ _ _)
  have hl1 : lit_ok s.vc ((s.cl c).lits.getD 1 0) := by
    rw [e1]
    exact c3 _ (List.get_mem _ _ _)
  have hne : (s.cl c).lits.getD 0 0 ≠ (s.cl c).lits.getD 1 0 := by
    rw [e0, e1]
    intro e
    have := (List.Nodup.get_inj_iff c2).mp e
    simp at this
  have hwne : watched_index ((s.cl c).lits.getD 0 0)
      ≠ watched_index ((s.cl c).lits.getD 1 0) := by
    intro e
    exact hne (watched_index_inj _ _ hl0.1 hl1.1 e)
  obtain ⟨R, e, r1, r2, _⟩ := remove_clause_shape s c c1 m0 m1 hwne
  refine ⟨c1, _, e, ?_, ?_, ?_, ?_, ?_, rfl⟩
  · intro l hl hin
    have hin' : c ∈ Function.update
        (Function.update s.watched (watched_index ((s.cl c).lits.getD 0 0))
          ((s.watched (watched_index ((s.cl c).lits.getD 0 0))).erase c))
        (watched_index ((s.cl c).lits.getD 1 0))
        ((s.watched (watched_index ((s.cl c).lits.getD 1 0))).erase c) (watched_index l) := hin
    by_cases w1 : watched_index l = watched_index ((s.cl c).lits.getD 1 0)
    · rw [w1, Function.update_same] at hin'
      exact ((List.Nodup.mem_erase_iff (k2 _ hl1.1 hl1.2).1).mp hin').1 rfl
    · rw [Function.update_noteq w1] at hin'
      by_cases w0 : watched_index l = watched_index ((s.cl c).lits.getD 0 0)
      · rw [w0, Function.update_same] at hin'
        exact ((List.Nodup.mem_erase_iff (k2 _ hl0.1 hl0.2).1).mp hin').1 rfl
      · rw [Function.update_noteq w0] at hin'
        rcases ((k2 l hl.1 hl.2).2 c hin').2 with x | x
        · exact w0 (by rw [x])
        · exact w1 (by rw [x])
  · intro v hv hv1
    have hv1' : R v = some c := hv1
    rcases r1 v with x | ⟨x, _⟩
    · rw [x] at hv1'
      obtain ⟨a1, a2⟩ := hr v hv c hv1'
      have hvar : var ((s.cl c).lits.getD 0 0) = v := by
        rw [a2]
        exact hst v hv a1
      rw [← hvar] at hv1' x
      have := r2 hv1'
      rw [x, hv1'] at this
      simp at this
    · rw [x] at hv1'
      simp at hv1'
  · intro w
    show (Function.update
        (Function.update s.watched (watched_index ((s.cl c).lits.getD 0 0))
          ((s.watched (watched_index ((s.cl c).lits.getD 0 0))).erase c))
        (watched_index ((s.cl c).lits.getD 1 0))
        ((s.watched (watched_index ((s.cl c).lits.getD 1 0))).erase c) w).filter _ = _
    by_cases w1 : w = watched_index ((s.cl c).lits.getD 1 0)
    · rw [w1, Function.update_same, filter_erase_self]
    · rw [Function.update_noteq w1]
      by_cases w0 : w = watched_index ((s.cl c).lits.getD 0 0)
      · rw [w0, Function.update_same, filter_erase_self]
      · rw [Function.update_noteq w0]
  · intro l hl
    show Function.update
        (Function.update s.watched (watched_index ((s.cl c).lits.getD 0 0))
          ((s.watched (watched_index ((s.cl c).lits.getD 0 0))).erase c))
        (watched_index ((s.cl c).lits.getD 1 0))
        ((s.watched (watched_index ((s.cl c).lits.getD 1 0))).erase c) (watched_index l) = _
    have hnd := (k2 l hl.1 hl.2).1
    by_cases w1 : watched_index l = watched_index ((s.cl c).lits.getD 1 0)
    · rw [w1, Function.update_same]
      rw [w1] at hnd
      rw [List.Nodup.erase_eq_filter hnd]
      apply List.filter_congr
      intro x _
      by_cases hxc : x = c <;> simp [hxc]
    · rw [Function.update_noteq w1]
      by_cases w0 : watched_index l = watched_index ((s.cl c).lits.getD 0 0)
      · rw [w0, Function.update_same]
        rw [w0] at hnd
        rw [List.Nodup.erase_eq_filter hnd]
        apply List.filter_congr
        intro x _
        by_cases hxc : x = c <;> simp [hxc]
      · rw [Function.update_noteq w0]
        symm
        rw [List.filter_eq_self]
        intro x hx
        have hxc : x ≠ c := by
          intro e'
          rw [e'] at hx
          rcases ((k2 l hl.1 hl.2).2 c hx).2 with y | y
          · exact w0 (by rw [y])
          · exact w1 (by rw [y])
        simpa using hxc
  · intro v hv
    show R v = s.reason v
    rcases r1 v with x | ⟨_, x⟩
    · exact x
    · exact absurd x hv

/-- C34, witness: the small instance after the decision `-2`, where the clause
at pointer 1 is the reason of variable 1. -/
theorem remove_clause_frame_witness :
    example_propagated.reason 1 = some 1
    ∧ 2 ≤ (example_propagated.cl 1).lits.length
    ∧ ∃ s1, remove_clause example_propagated 1 = some s1
      ∧ (∀ l, lit_ok example_propagated.vc l → 1 ∉ s1.watched (watched_index l))
      ∧ (∀ v, v ≤ example_propagated.vc → s1.reason v ≠ some 1)
      ∧ (∀ w, (s1.watched w).filter (fun d => decide (d ≠ 1))
          = (example_propagated.watched w).filter (fun d => decide (d ≠ 1)))
      ∧ (∀ l, lit_ok example_propagated.vc l → s1.watched (watched_index l)
          = (example_propagated.watched (watched_index l)).filter (fun d => decide (d ≠ 1)))
      ∧ (∀ v, example_propagated.reason v ≠ some 1 → s1.reason v = example_propagated.reason v)
      ∧ s1 = { example_propagated with reason := s1.reason, watched := s1.watched } :=
  ⟨by decide, remove_clause_frame example_propagated 1 (by decide) (by decide) (by decide)
    (by decide)⟩

/-! ### `process_unit_literal_queue`: the stack it leaves -/

theorem unit_trace_same (s0 : my_manager) (n : Nat) (s s1 : my_manager) (last : Nat)
    (h : unit_trace s0 n s last) (hs : same_assignment s s1) :
    unit_trace s0 n s1 last := by
  obtain ⟨e1, e2, e3, e4, e5, e6⟩ := hs
  obtain ⟨a, b, c, d⟩ := h
  unfold unit_trace
  rw [e1, e2, e3, e4]
  exact ⟨a, b, c, d⟩

theorem unit_trace_imply (s0 : my_manager) (n : Nat) (s s1 : my_manager) (last : Nat)
    (o : Nat) (x : Nat) (y : Nat)
    (h : unit_trace s0 n s last) (ho : s.status (var o) = 0)
    (h1 : s1.status = Function.update s.status (var o) o)
    (h2 : s1.level = Function.update s.level (var o) x)
    (h3 : s1.reason = Function.update s.reason (var o) (some y))
    (h4 : s1.assign = Function.update s.assign last o) :
    unit_trace s0 n s1 (last + 1) := by
  obtain ⟨a, b, c, d⟩ := h
  have ho0 : s0.status (var o) = 0 := by
    by_contra hne
    rw [(d _ hne).1] at ho
    exact hne ho
  refine ⟨by omega, ?_, ?_, ?_⟩
  · intro p hp
    rw [h4, Function.update_noteq (by omega)]
    exact b p hp
  · intro p p1 p2
    rw [h4, h3]
    by_cases hp : p = last
    · rw [hp, Function.update_same, Function.update_same]
      exact ⟨ho0, by simp⟩
    · rw [Function.update_noteq hp]
      obtain ⟨c1, c2⟩ := c p p1 (by omega)
      refine ⟨c1, ?_⟩
      by_cases hv : var (s.assign p) = var o
      · rw [hv, Function.update_same]
        simp
      · rw [Function.update_noteq hv]
        exact c2
  · intro v hv
    have hvo : v ≠ var o := by
      intro e
      rw [e] at hv
      exact hv ho0
    rw [h1, h2, h3, Function.update_noteq hvo, Function.update_noteq hvo,
      Function.update_noteq hvo]
    exact d v hv

theorem bcp_watch_loop_unit (slevel neg_lit : Nat) (s0 : my_manager) (n : Nat) :
    ∀ (rest : List Nat) (s : my_manager) (last : Nat) (kept : List Nat),
      unit_trace s0 n s last →
      unit_trace s0 n (bcp_watch_loop slevel neg_lit rest s last kept).m
        (bcp_watch_loop slevel neg_lit rest s last kept).last
      ∧ ((bcp_watch_loop slevel neg_lit rest s last kept).conflict = true →
          (bcp_watch_loop slevel neg_lit rest s last kept).m.assign_top
            = (bcp_watch_loop slevel neg_lit rest s last kept).last) := by
  intro rest
  induction rest with
  | nil =>
    intro s last kept h
    rw [bcp_watch_loop]
    exact ⟨h, fun hc => by simp at hc⟩
  | cons clause rest ih =>
    intro s last kept h
    obtain ⟨k1, k2, k3⟩ := bcp_clause_frame slevel neg_lit s last clause
    rw [bcp_watch_loop]
    cases hb : bcp_clause slevel neg_lit s last clause with
    | kept s1 last1 =>
      simp only
      rcases k1 s1 last1 hb with ⟨y1, y2⟩ | ⟨o, o0, o1, o2, o3, o4, o5, o6, o7⟩
      · rw [y2]
        exact ih s1 last _ (unit_trace_same s0 n s s1 last h y1)
      · rw [o7]
        exact ih s1 (last + 1) _ (unit_trace_imply s0 n s s1 last o _ _ h o0 o1 o2 o3 o4)
    | moved s1 =>
      simp only
      exact ih s1 last _ (unit_trace_same s0 n s s1 last h (k2 s1 hb))
    | conflict s1 =>
      simp only
      refine ⟨?_, fun _ => trivial⟩
      have := unit_trace_same s0 n s s1 last h (k3 s1 hb)
      exact unit_trace_same s0 n s1 _ last this ⟨rfl, rfl, rfl, rfl, rfl, rfl⟩

theorem bcp_loop_unit (slevel : Nat) (s0 : my_manager) (n : Nat) :
    ∀ (fuel : Nat) (s : my_manager) (last : Nat) (res : Bool) (s' : my_manager),
      unit_trace s0 n s last → bcp_loop slevel fuel s last = some (res, s') →
      unit_trace s0 n s' s'.assign_top := by
  intro fuel
  induction fuel with
  | zero => intro s last res s' _ h; simp [bcp_loop] at h
  | succ f ih =>
    intro s last res s' ht h
    rw [bcp_loop] at h
    simp only at h
    by_cases hd : (dequeue s.score s.imp).1 = 0
    · rw [if_pos hd] at h
      simp only [Option.some.injEq, Prod.mk.injEq] at h
      obtain ⟨_, h2⟩ := h
      subst h2
      exact unit_trace_same s0 n s _ last ht ⟨rfl, rfl, rfl, rfl, rfl, rfl⟩
    · rw [if_neg hd] at h
      have ht0 : unit_trace s0 n { s with imp := (dequeue s.score s.imp).2 } last :=
        unit_trace_same s0 n s _ last ht ⟨rfl, rfl, rfl, rfl, rfl, rfl⟩
      obtain ⟨r1, r2⟩ := bcp_watch_loop_unit slevel (neg (s.status (dequeue s.score s.imp).1))
        s0 n (s.watched (watched_index (neg (s.status (dequeue s.score s.imp).1))))
        { s with imp := (dequeue s.score s.imp).2 } last [] ht0
      by_cases hc : (bcp_watch_loop slevel (neg (s.status (dequeue s.score s.imp).1))
          (s.watched (watched_index (neg (s.status (dequeue s.score s.imp).1))))
          { s with imp := (dequeue s.score s.imp).2 } last []).conflict = true
      · rw [if_pos hc] at h
        simp only [Option.some.injEq, Prod.mk.injEq] at h
        obtain ⟨_, h2⟩ := h
        subst h2
        have e := r2 hc
        show unit_trace s0 n _ (bcp_watch_loop slevel _ _ _ last []).m.assign_top
        rw [e]
        exact unit_trace_same s0 n _ _ _ r1 ⟨rfl, rfl, rfl, rfl, rfl, rfl⟩
      · rw [if_neg hc] at h
        refine ih _ _ res s' ?_ h
        exact unit_trace_same s0 n _ _ _ r1 ⟨rfl, rfl, rfl, rfl, rfl, rfl⟩

theorem process_unit_literal_queue_trail (fuel : Nat) (s s1 : my_manager)
    (h : load_inv s) (hk : watched_inv s) (hh : heap_inv s) (hn : 1 ≤ s.stack_offset)
    (hr : process_unit_literal_queue fuel s = some (true, s1)) :
    (dequeue s.score s.imp).1 = var (s.assign 0)
    ∧ s.status (dequeue s.score s.imp).1 = s.assign 0
    ∧ Function.update s.assign s.assign_top (s.status (dequeue s.score s.imp).1) = s.assign
    ∧ s.stack_offset.toNat ≤ s1.assign_top
    ∧ (∀ p, p < s.stack_offset.toNat → s1.assign p = s.assign p)
    ∧ (∀ p, s.stack_offset.toNat ≤ p → p < s1.assign_top →
        s.status (var (s1.assign p)) = 0 ∧ s1.reason (var (s1.assign p)) ≠ none)
    ∧ (∀ p, p < s1.assign_top →
        lit_ok s.vc (s1.assign p) ∧ s1.status (var (s1.assign p)) = s1.assign p)
    ∧ (∀ p q, p < q → q < s1.assign_top → var (s1.assign p) ≠ var (s1.assign q))
    ∧ (∀ v, v ≤ s.vc → s1.status v ≠ 0 → ∃ p, p < s1.assign_top ∧ s1.assign p = s1.status v)
    ∧ (∀ v, s.status v ≠ 0 → s1.status v = s.status v)
    ∧ s1.assign_top = s.stack_offset.toNat
        + ((Finset.range (s.vc + 1)).filter
            (fun v => s.status v = 0 ∧ s1.status v ≠ 0)).card := by
  obtain ⟨hsol, _, _, hvc, _, _⟩ := process_unit_literal_queue_inv fuel s true s1 h hk hh hr
  have hsol := hsol rfl
  obtain ⟨a1, a2, a3, a4, a5, a6, a7, a8, a9, a10, a11, a12, a13, a14, a15, a16⟩ := h
  unfold process_unit_literal_queue at hr
  simp only at hr
  have hsz : s.imp.size ≠ 0 := by omega
  obtain ⟨g1, g2, g3, g4, g5⟩ := get_min_element_mem s.score s.imp (by omega)
  have hk1 : 1 ≤ s.stack_offset.toNat := by omega
  obtain ⟨e1, e2, _⟩ := a13 0 hk1
  have hr1 : (get_min_element s.score s.imp).1 = var (s.assign 0) := by
    rw [g1]; exact a12 (by omega)
  have hd1 : (dequeue s.score s.imp).1 = var (s.assign 0) := by
    rw [dequeue_nonempty _ _ hsz]
    exact hr1
  have hl : s.status (dequeue s.score s.imp).1 = s.assign 0 := by
    rw [hd1]; exact e2
  have hv0 := lit_ok_var _ _ e1
  have hne : (dequeue s.score s.imp).1 ≠ 0 := by
    rw [hd1]
    omega
  have ea : Function.update s.assign s.assign_top (s.assign 0) = s.assign := by
    rw [a2]
    exact Function.update_eq_self 0 s.assign
  rw [if_pos hne, hl] at hr
  split at hr
  · simp at hr
  · rename_i r2 s2 hb
    simp only [Option.some.injEq, Prod.mk.injEq] at hr
    obtain ⟨hres, hs1⟩ := hr
    subst hres
    have es : Function.update s.status (var (s.assign 0)) (s.assign 0) = s.status := by
      have := Function.update_eq_self (var (s.assign 0)) s.status
      rw [e2] at this
      exact this
    have hlast : (((s.assign_top : Nat) : Int) + 1 + (s.stack_offset - 1)).toNat
        = s.stack_offset.toNat := by
      rw [a2]
      omega
    unfold bcp at hb
    simp only at hb
    rw [hlast, es, ea] at hb
    have ht : unit_trace s s.stack_offset.toNat s2 s2.assign_top := by
      refine bcp_loop_unit _ s s.stack_offset.toNat fuel _ _ true s2 ?_ hb
      exact ⟨le_refl _, fun _ _ => rfl, fun p p1 p2 => by omega, fun _ _ => ⟨rfl, rfl, rfl⟩⟩
    obtain ⟨t1, t2, t3, t4⟩ := ht
    have htop : s1.assign_top = s2.assign_top := by rw [← hs1]
    have hasg : s1.assign = s2.assign := by rw [← hs1]
    have hsta : s1.status = s2.status := by rw [← hs1]
    have hrea : s1.reason = s2.reason := by rw [← hs1]
    obtain ⟨⟨_, _, _, _, ⟨tr1, tr2, _⟩, _⟩, _⟩ := hsol
    have hdist : ∀ p q, p < q → q < s1.assign_top → var (s1.assign p) ≠ var (s1.assign q) := by
      intro p q hpq hq
      exact ((tr1 q hq).2.2.2.2.1 p hpq).1
    have hent : ∀ p, p < s1.assign_top →
        lit_ok s.vc (s1.assign p) ∧ s1.status (var (s1.assign p)) = s1.assign p := by
      intro p hp
      obtain ⟨x1, x2, _⟩ := tr1 p hp
      rw [hvc] at x1
      exact ⟨x1, x2⟩
    have hnew : ∀ p, s.stack_offset.toNat ≤ p → p < s1.assign_top →
        s.status (var (s1.assign p)) = 0 ∧ s1.reason (var (s1.assign p)) ≠ none := by
      intro p p1 p2
      rw [hasg, hrea]
      exact t3 p p1 (by rw [← htop]; exact p2)
    have hon : ∀ v, v ≤ s.vc → s1.status v ≠ 0 →
        ∃ p, p < s1.assign_top ∧ s1.assign p = s1.status v := by
      intro v hv hs
      obtain ⟨p, p1, p2⟩ := tr2 v (by rw [hvc]; exact hv) hs
      refine ⟨p, p1, ?_⟩
      rw [← (hent p p1).2, p2]
    refine ⟨hd1, hl, by rw [hl]; exact ea, by rw [htop]; exact t1, ?_, hnew, hent, hdist, hon,
      ?_, ?_⟩
    · intro p hp
      rw [hasg]
      exact t2 p hp
    · intro v hv
      rw [hsta]
      exact (t4 v hv).1
    · have hcard : (Finset.Ico s.stack_offset.toNat s1.assign_top).card
          = ((Finset.range (s.vc + 1)).filter
              (fun v => s.status v = 0 ∧ s1.status v ≠ 0)).card := by
        apply Finset.card_bij (fun p _ => var (s1.assign p))
        · intro p hp
          rw [Finset.mem_Ico] at hp
          obtain ⟨x1, x2⟩ := hent p hp.2
          have hv := lit_ok_var _ _ x1
          rw [Finset.mem_filter, Finset.mem_range]
          refine ⟨by omega, (hnew p hp.1 hp.2).1, ?_⟩
          rw [x2]
          have := x1.1
          omega
        · intro p hp q hq hpq
          rw [Finset.mem_Ico] at hp hq
          by_contra hne'
          rcases Nat.lt_or_gt_of_ne hne' with c | c
          · exact hdist p q c hq.2 hpq
          · exact hdist q p c hp.2 hpq.symm
        · intro v hv
          rw [Finset.mem_filter, Finset.mem_range] at hv
          obtain ⟨v1, v2, v3⟩ := hv
          obtain ⟨p, p1, p2⟩ := tr2 v (by rw [hvc]; omega) v3
          refine ⟨p, ?_, p2⟩
          rw [Finset.mem_Ico]
          refine ⟨?_, p1⟩
          by_contra hlt
          have hlt : p < s.stack_offset.toNat := by omega
          obtain ⟨y1, y2, _⟩ := a13 p hlt
          have e' : s1.assign p = s.assign p := by
            rw [hasg]
            exact t2 p hlt
          rw [e'] at p2
          rw [p2] at y2
          rw [v2] at y2
          have := y1.1
          omega
      rw [Nat.card_Ico] at hcard
      have : s.stack_offset.toNat ≤ s1.assign_top := by rw [htop]; exact t1
      omega

theorem init_watched_literals_stack :
    ∀ (L : List Nat) (s s1 : my_manager), init_watched_literals L s = some s1 →
      s1.assign = s.assign ∧ s1.stack_offset = s.stack_offset := by
  intro L
  induction L with
  | nil =>
    intro s s1 h
    rw [init_watched_literals] at h
    simp only [Option.some.injEq] at h
    rw [← h]
    exact ⟨rfl, rfl⟩
  | cons c rest ih =>
    intro s s1 h
    rw [init_watched_literals] at h
    split at h
    · exact absurd h (by simp)
    · obtain ⟨a1, a2⟩ := ih _ _ h
      rw [declare_watched_literals_shape] at a1 a2
      exact ⟨a1, a2⟩

theorem insert_all_stack :
    ∀ (n i : Nat) (s : my_manager),
      (insert_all n i s).assign = s.assign
      ∧ (insert_all n i s).stack_offset = s.stack_offset := by
  intro n
  induction n with
  | zero =>
    intro i s
    rw [insert_all]
    exact ⟨rfl, rfl⟩
  | succ n ih =>
    intro i s
    rw [insert_all]
    obtain ⟨a1, a2⟩ := ih (i + 1)
      { s with var_order_heap := (insert s.score s.var_order_heap i) }
    exact ⟨a1, a2⟩

/-- C38: `enqueue(l)` writes `l` at `assign[stack_offset]` and moves
`stack_offset` up by one, so that after `read_cnf` the `n = stack_offset`
unit literals are `assign[0..n)` in the order of their enqueueing, all scores
being 0.  When `n ≥ 1`, in the state `s` in which `finish_up_init_manager`
calls `process_unit_literal_queue`, the variable dequeued is the variable of
`assign[0]`, the first one enqueued, and the literal that `bcp` is called with
and writes to `assign[assign_top]` (which is `assign[0]`) is the literal
already there.  When the call returns 1, the stack `assign[0..assign_top)` of
the result holds the `n` enqueued literals at their positions, followed by
implied literals, each of a variable that was unassigned and has a reason;
the entries are true literals of pairwise distinct variables, every assigned
variable has its entry, every variable assigned before is as it was, and
`assign_top` is `n` plus the number of variables that got assigned. -/
theorem unit_queue_trail (fuel vc cc : Nat) (lines : List (List Int))
    (s0 sw s s1 : my_manager) (h0 : read_cnf vc cc lines = some s0)
    (hw : init_watched_literals s0.original_clauses s0 = some sw)
    (hs : s = insert_all sw.vc 1 sw) (hn : 1 ≤ s0.stack_offset)
    (hr : process_unit_literal_queue fuel s = some (true, s1)) :
    (∀ (m : my_manager) (l : Nat), (enqueue m l).assign m.stack_offset.toNat = l
      ∧ (enqueue m l).stack_offset = m.stack_offset + 1
      ∧ ∀ p, p ≠ m.stack_offset.toNat → (enqueue m l).assign p = m.assign p)
    ∧ s.assign = s0.assign ∧ s.stack_offset = s0.stack_offset ∧ s.status = s0.status
    ∧ (∀ v, s.score v = 0)
    ∧ (dequeue s.score s.imp).1 = var (s.assign 0)
    ∧ s.status (dequeue s.score s.imp).1 = s.assign 0
    ∧ Function.update s.assign s.assign_top (s.status (dequeue s.score s.imp).1) = s.assign
    ∧ s.stack_offset.toNat ≤ s1.assign_top
    ∧ (∀ p, p < s.stack_offset.toNat → s1.assign p = s.assign p)
    ∧ (∀ p, s.stack_offset.toNat ≤ p → p < s1.assign_top →
        s.status (var (s1.assign p)) = 0 ∧ s1.reason (var (s1.assign p)) ≠ none)
    ∧ (∀ p, p < s1.assign_top →
        lit_ok s.vc (s1.assign p) ∧ s1.status (var (s1.assign p)) = s1.assign p)
    ∧ (∀ p q, p < q → q < s1.assign_top → var (s1.assign p) ≠ var (s1.assign q))
    ∧ (∀ v, v ≤ s.vc → s1.status v ≠ 0 → ∃ p, p < s1.assign_top ∧ s1.assign p = s1.status v)
    ∧ (∀ v, s.status v ≠ 0 → s1.status v = s.status v)
    ∧ s1.assign_top = s.stack_offset.toNat
        + ((Finset.range (s.vc + 1)).filter
            (fun v => s.status v = 0 ∧ s1.status v ≠ 0)).card := by
  obtain ⟨hl, hu, _⟩ := read_cnf_load vc cc lines s0 h0
  obtain ⟨b1, b2, b3, _, _, _⟩ := init_watched_heap s0 sw hl hu hw
  rw [← hs] at b1 b2 b3
  obtain ⟨w1, w2⟩ := init_watched_literals_stack _ s0 sw hw
  obtain ⟨_, _, _, _, w3, _⟩ := init_watched_literals_fields _ s0 sw hw
  obtain ⟨i1, i2⟩ := insert_all_stack sw.vc 1 sw
  obtain ⟨_, _, _, _, i3, _⟩ := insert_all_fields sw.vc 1 sw
  rw [← hs] at i1 i2 i3
  have hso : s.stack_offset = s0.stack_offset := i2.trans w2
  have hn1 : 1 ≤ s.stack_offset := by rw [hso]; exact hn
  refine ⟨?_, i1.trans w1, hso, i3.trans w3, b1.2.2.2.1,
    process_unit_literal_queue_trail fuel s s1 b1 b2 b3 hn1 hr⟩
  intro m l
  refine ⟨?_, rfl, ?_⟩
  · show Function.update m.assign m.stack_offset.toNat l m.stack_offset.toNat = l
    rw [Function.update_same]
  · intro p hp
    show Function.update m.assign m.stack_offset.toNat l p = m.assign p
    rw [Function.update_noteq hp]

/-- C38, witness: the input lines `-1 2 3 0`, `1 0` and `-3 0` over three
variables enqueue the literals `1` and `-3`; the call dequeues variable 1 and
implies `2`, leaving the stack `1, -3, 2`. -/
theorem unit_queue_trail_witness :
    ∃ s0 sw s1, read_cnf 3 1 [[-1, 2, 3], [1], [-3]] = some s0
      ∧ init_watched_literals s0.original_clauses s0 = some sw
      ∧ s0.stack_offset = 2
      ∧ process_unit_literal_queue 10 (insert_all sw.vc 1 sw) = some (true, s1)
      ∧ [s1.assign 0, s1.assign 1, s1.assign 2, s1.assign_top] = [2, 7, 4, 3]
      ∧ (dequeue (insert_all sw.vc 1 sw).score (insert_all sw.vc 1 sw).imp).1
          = var ((insert_all sw.vc 1 sw).assign 0)
      ∧ (insert_all sw.vc 1 sw).stack_offset.toNat ≤ s1.assign_top
      ∧ (∀ p, p < (insert_all sw.vc 1 sw).stack_offset.toNat →
          s1.assign p = (insert_all sw.vc 1 sw).assign p)
      ∧ s1.assign_top = (insert_all sw.vc 1 sw).stack_offset.toNat
          + ((Finset.range ((insert_all sw.vc 1 sw).vc + 1)).filter
              (fun v => (insert_all sw.vc 1 sw).status v = 0 ∧ s1.status v ≠ 0)).card := by
  have t1 : ((read_cnf 3 1 [[-1, 2, 3], [1], [-3]]).bind
      (fun s0 => (init_watched_literals s0.original_clauses s0).bind
        (fun sw => (process_unit_literal_queue 10 (insert_all sw.vc 1 sw)).map
          (fun r => (r.1, [r.2.assign 0, r.2.assign 1, r.2.assign 2, r.2.assign_top])))))
      = some (true, [2, 7, 4, 3]) := by decide!
  have t2 : (read_cnf 3 1 [[-1, 2, 3], [1], [-3]]).map (fun s => s.stack_offset)
      = some 2 := by decide!
  cases h0 : read_cnf 3 1 [[-1, 2, 3], [1], [-3]] with
  | none =>
    rw [h0] at t2
    simp at t2
  | some s0 =>
    rw [h0] at t1 t2
    simp only [Option.some_bind, Option.map_some', Option.some.injEq] at t1 t2
    cases hw : init_watched_literals s0.original_clauses s0 with
    | none =>
      rw [hw] at t1
      simp at t1
    | some sw =>
      rw [hw] at t1
      simp only [Option.some_bind] at t1
      cases hp : process_unit_literal_queue 10 (insert_all sw.vc 1 sw) with
      | none =>
        rw [hp] at t1
        simp at t1
      | some r =>
        rw [hp] at t1
        simp only [Option.map_some', Option.some.injEq, Prod.mk.injEq] at t1
        obtain ⟨r1, r2⟩ := t1
        have hr : process_unit_literal_queue 10 (insert_all sw.vc 1 sw) = some (true, r.2) := by
          rw [hp, ← r1]
        obtain ⟨_, _, _, _, _, c1, _, _, c2, c3, _, _, _, _, _, c4⟩ :=
          unit_queue_trail 10 3 1 [[-1, 2, 3], [1], [-3]] s0 sw (insert_all sw.vc 1 sw) r.2
            h0 hw rfl (by rw [t2]; decide) hr
        exact ⟨s0, sw, r.2, rfl, hw, t2, hr, r2, c1, c2, c3, c4⟩

/-! ### The learned clauses of a run follow from the input -/

theorem run_entry_loop_entry (bfuel cfuel vc cc : Nat) (lines : List (List Int))
    (s : my_manager) (h : run_entry bfuel cfuel vc cc lines s) : loop_entry bfuel cfuel s := by
  induction h with
  | first s0 s h0 h1 => exact loop_entry.first vc cc lines s0 s h0 h1
  | next s s3 s4 s5 s6 v res result _ hm hs hv hd hc hr ih =>
    exact loop_entry.next s s3 s4 s5 s6 v res result ih hm hs hv hd hc hr

theorem run_conflict_point (bfuel cfuel vc cc : Nat) (lines : List (List Int))
    (s : my_manager) (h : run_conflict bfuel cfuel vc cc lines s) :
    conflict_point bfuel cfuel s := by
  induction h with
  | decided s s3 s4 s5 v he hm hs hv hd =>
    exact conflict_point.decided s s3 s4 s5 v
      (run_entry_loop_entry bfuel cfuel vc cc lines s he) hm hs hv hd
  | asserted s s1 s3 _ ha hne h3 ih => exact conflict_point.asserted s s1 s3 ih ha hne h3

theorem run_entry_sound (bfuel cfuel vc cc : Nat) (lines : List (List Int))
    (s : my_manager) (h : run_entry bfuel cfuel vc cc lines s) :
    ent_inv (models (lines.map (List.map lit_from_int))) s := by
  induction h with
  | first s0 s h0 h1 =>
    obtain ⟨a, b, _⟩ := read_cnf_load vc cc lines s0 h0
    obtain ⟨e0, _⟩ := read_cnf_sound vc cc lines s0 h0
    exact (finish_up_init_manager_sound _ bfuel s0 true s a b e0 h1).1
  | next s s3 s4 s5 s6 v res result he hm hs hv hd hc hr ih =>
    have hsol := loop_entry_solve_inv bfuel cfuel s
      (run_entry_loop_entry bfuel cfuel vc cc lines s he)
    have h3 := solve_manage_inv s s3 hsol hm
    obtain ⟨e3, _⟩ := solve_manage_sound _ s s3 hsol ih hm
    obtain ⟨a, b, _⟩ := set_decision_inv bfuel s3 h3 v s4 hs hv res s5 hd
    obtain ⟨e5, _⟩ := set_decision_sel_sound _ bfuel s3 h3 e3 v s4 hs hv res s5 hd
    rcases solve_conflict_loop_sound _ bfuel cfuel s5 res result s6 a b e5 hc
      with ⟨x1, _⟩ | ⟨_, _, x3, _⟩
    · exact absurd x1 hr
    · exact x3

theorem run_conflict_sound (bfuel cfuel vc cc : Nat) (lines : List (List Int))
    (s : my_manager) (h : run_conflict bfuel cfuel vc cc lines s) :
    ent_inv (models (lines.map (List.map lit_from_int))) s := by
  induction h with
  | decided s s3 s4 s5 v he hm hs hv hd =>
    have hsol := loop_entry_solve_inv bfuel cfuel s
      (run_entry_loop_entry bfuel cfuel vc cc lines s he)
    have h3 := solve_manage_inv s s3 hsol hm
    obtain ⟨e3, _⟩ := solve_manage_sound _ s s3 hsol
      (run_entry_sound bfuel cfuel vc cc lines s he) hm
    exact (set_decision_sel_sound _ bfuel s3 h3 e3 v s4 hs hv false s5 hd).1
  | asserted s s1 s3 hp ha hne h3 ih =>
    have hcs := conflict_point_state bfuel cfuel s
      (run_conflict_point bfuel cfuel vc cc lines s hp)
    have h2 : 2 ≤ s.decision_level := by
      by_contra hc
      obtain ⟨s2, e2, e3, _⟩ := analyze_conflict_top s s.conflicting_clause s.decision_level
        (by omega)
      rw [ha] at e2
      have : s1 = s2 := Option.some.inj e2
      rw [← this] at e3
      exact hne e3
    exact (conflict_step_sound _ bfuel s s1 hcs h2 ih ha false s3 h3).1

theorem analyze_conflict_lits (s : my_manager) (conf : Option Nat) (clevel : Nat)
    (s1 : my_manager) (h : analyze_conflict s conf clevel = some s1) :
    ∀ c, s1.conflict_clause = some c →
      (s1.cl c).lits = (List.range (s1.cl c).lits.length).map s1.cdc := by
  unfold analyze_conflict at h
  simp only at h
  split at h
  · simp at h
  · rename_i size al s3 hd
    split at h
    · simp only [Option.some.injEq] at h
      intro c hc
      rw [← h] at hc ⊢
      simp only [Option.some.injEq] at hc
      rw [← hc]
      simp only [Function.update_same, List.length_map, List.length_range]
    · simp only [Option.some.injEq] at h
      intro c hc
      rw [← h] at hc
      simp at hc

/-- C35: in the run on the input `p cnf vc cc` with the clause lines `lines`,
at every conflict (a state in which the conflict loop of `solve` starts an
iteration) `analyze_conflict` returns, and the clause it builds from the
result of `derive_conflict_clause`, minimised and without the literals of
level 1, is a consequence of the input: every truth assignment that makes a
literal of every clause line true makes a literal of the learned clause true.
At a decision level of 2 or more the clause is the new clause at
`alloc_next`, holding `cdc[0..size)`; at level 1 it is the empty clause, and
no truth assignment satisfies the input. -/
theorem learned_clause_entailed (bfuel cfuel vc cc : Nat) (lines : List (List Int))
    (s : my_manager) (hp : run_conflict bfuel cfuel vc cc lines s) :
    ∃ s1, analyze_conflict s s.conflicting_clause s.decision_level = some s1
      ∧ (∀ M, models (lines.map (List.map lit_from_int)) M →
          ∃ x ∈ (match s1.conflict_clause with
              | some c => (s1.cl c).lits
              | none => []), lit_val M x = true)
      ∧ (2 ≤ s.decision_level → s1.conflict_clause = some s.alloc_next
          ∧ (s1.cl s.alloc_next).lits
              = (List.range (s1.cl s.alloc_next).lits.length).map s1.cdc
          ∧ valid (models (lines.map (List.map lit_from_int))) (s1.cl s.alloc_next).lits)
      ∧ (s.decision_level < 2 → s1.conflict_clause = none
          ∧ ∀ M, ¬ models (lines.map (List.map lit_from_int)) M) := by
  have hcs := conflict_point_state bfuel cfuel s (run_conflict_point bfuel cfuel vc cc lines s hp)
  have he := run_conflict_sound bfuel cfuel vc cc lines s hp
  rcases Nat.lt_or_ge s.decision_level 2 with hlow | hhigh
  · obtain ⟨s2, e2, _, e4⟩ := analyze_conflict_top s s.conflicting_clause s.decision_level
      (by omega)
    have hun := conflict_top_unsat _ s hcs hlow he
    refine ⟨s2, e2, ?_, fun h => by omega, fun _ => ⟨e4, hun⟩⟩
    intro M hM
    exact absurd hM (hun M)
  · obtain ⟨s1, e1, _, a1, _, _⟩ := analyze_conflict_state s hcs.1 hcs.2.2.2 hhigh
    have hval := analyze_conflict_sound _ s hcs.1 hcs.2.2.2 hhigh he s1 e1
    refine ⟨s1, e1, ?_, fun _ => ⟨a1, ?_, hval⟩, fun h => by omega⟩
    · intro M hM
      rw [a1]
      exact hval M hM
    · exact analyze_conflict_lits s _ _ s1 e1 _ a1

theorem example_loaded_run : run_entry 10 10 2 2 [[1, 2], [1, -2]] example_loaded := by
  have t2 : ((read_cnf 2 2 [[1, 2], [1, -2]]).bind
      (fun s0 => (finish_up_init_manager 10 s0).map Prod.fst)) = some true := by decide
  unfold example_loaded
  cases h0 : read_cnf 2 2 [[1, 2], [1, -2]] with
  | none =>
    rw [h0] at t2
    simp at t2
  | some s0 =>
    rw [h0] at t2
    simp only [Option.some_bind] at t2
    simp only
    cases h1 : finish_up_init_manager 10 s0 with
    | none =>
      rw [h1] at t2
      simp at t2
    | some r =>
      obtain ⟨res, s⟩ := r
      rw [h1] at t2
      simp only [Option.map_some', Option.some.injEq] at t2
      subst t2
      exact run_entry.first s0 s h0 h1

theorem example_decided_run :
    run_conflict 10 10 2 2 [[1, 2], [1, -2]] example_decided := by
  have t4 : (select_variable example_loaded).map Prod.fst = some 1 := by decide
  have t5 : ((select_variable example_loaded).bind (fun r => (set_decision 10 r.2
      (if r.2.saved r.1 = 0 ∨ r.2.save_progress = 0 then nlit r.1 else r.2.saved r.1)).map
        Prod.fst)) = some false := by decide
  unfold example_decided
  rw [example_loaded_manage]
  simp only
  cases h4 : select_variable example_loaded with
  | none =>
    rw [h4] at t4
    simp at t4
  | some r =>
    obtain ⟨v, s4⟩ := r
    rw [h4] at t4 t5
    simp only [Option.map_some', Option.some.injEq] at t4
    simp only [Option.some_bind] at t5
    simp only
    cases h5 : set_decision 10 s4
        (if s4.saved v = 0 ∨ s4.save_progress = 0 then nlit v else s4.saved v) with
    | none =>
      rw [h5] at t5
      simp at t5
    | some r5 =>
      obtain ⟨res, s5⟩ := r5
      rw [h5] at t5
      simp only [Option.map_some', Option.some.injEq] at t5
      subst t5
      exact run_conflict.decided example_loaded example_loaded s4 s5 v example_loaded_run
        example_loaded_manage h4 (by omega) h5

/-- C35, witness: the run on the input lines `1 2 0` and `1 -2 0`, at the
conflict of its first decision. -/
theorem learned_clause_entailed_witness :
    run_conflict 10 10 2 2 [[1, 2], [1, -2]] example_decided
    ∧ ∃ s1, analyze_conflict example_decided example_decided.conflicting_clause
          example_decided.decision_level = some s1
      ∧ (∀ M, models ([[1, 2], [1, -2]].map (List.map lit_from_int)) M →
          ∃ x ∈ (match s1.conflict_clause with
              | some c => (s1.cl c).lits
              | none => []), lit_val M x = true)
      ∧ (2 ≤ example_decided.decision_level →
          s1.conflict_clause = some example_decided.alloc_next
          ∧ (s1.cl example_decided.alloc_next).lits
              = (List.range (s1.cl example_decided.alloc_next).lits.length).map s1.cdc
          ∧ valid (models ([[1, 2], [1, -2]].map (List.map lit_from_int)))
              (s1.cl example_decided.alloc_next).lits)
      ∧ (example_decided.decision_level < 2 → s1.conflict_clause = none
          ∧ ∀ M, ¬ models ([[1, 2], [1, -2]].map (List.map lit_from_int)) M) :=
  ⟨example_decided_run,
    learned_clause_entailed 10 10 2 2 [[1, 2], [1, -2]] example_decided example_decided_run⟩

/-! ### The `index` fields of the stored clauses -/

theorem ix_frame_refl (s : my_manager) : ix_frame s s := ⟨rfl, rfl, fun _ => rfl⟩

theorem ix_frame_trans (s s1 s2 : my_manager) (h1 : ix_frame s s1) (h2 : ix_frame s1 s2) :
    ix_frame s s2 :=
  ⟨h2.1.trans h1.1, h2.2.1.trans h1.2.1, fun c => (h2.2.2 c).trans (h1.2.2 c)⟩

theorem index_inv_of_frame (s s1 : my_manager) (h : index_inv s) (hf : ix_frame s s1) :
    index_inv s1 := by
  obtain ⟨f1, f2, f3⟩ := hf
  unfold index_inv
  rw [f1, f2]
  exact ⟨fun i hi => (f3 _).trans (h.1 i hi), fun c hc => by rw [f3]; exact h.2 c hc⟩

theorem set_lits_index (s : my_manager) (c : Nat) (L : List Nat) (d : Nat) :
    ((set_lits s c L).cl d).index = (s.cl d).index := by
  show (Function.update s.cl c { s.cl c with lits := L } d).index = _
  by_cases e : d = c
  · rw [e, Function.update_same]
  · rw [Function.update_noteq e]

theorem bcp_clause_at_ix (slevel : Nat) (s : my_manager) (last clause : Nat)
    (lits1 : List Nat) :
    ix_frame s (bcp_clause_at slevel s last clause lits1).state := by
  unfold bcp_clause_at
  simp only
  split
  · exact ⟨rfl, rfl, set_lits_index s clause lits1⟩
  · split
    · exact ⟨rfl, rfl, fun d => (set_lits_index _ clause _ d).trans
        (set_lits_index s clause lits1 d)⟩
    · split
      · exact ⟨rfl, rfl, set_lits_index s clause lits1⟩
      · split
        · exact ⟨rfl, rfl, set_lits_index s clause lits1⟩
        · exact ⟨rfl, rfl, set_lits_index s clause lits1⟩

theorem bcp_clause_ix (slevel neg_lit : Nat) (s : my_manager) (last clause : Nat) :
    ix_frame s (bcp_clause slevel neg_lit s last clause).state := by
  unfold bcp_clause
  exact bcp_clause_at_ix _ _ _ _ _

theorem bcp_watch_loop_ix (slevel neg_lit : Nat) :
    ∀ (rest : List Nat) (s : my_manager) (last : Nat) (kept : List Nat),
      ix_frame s (bcp_watch_loop slevel neg_lit rest s last kept).m := by
  intro rest
  induction rest with
  | nil => intro s last kept; exact ⟨rfl, rfl, fun _ => rfl⟩
  | cons clause rest ih =>
    intro s last kept
    have h1 := bcp_clause_ix slevel neg_lit s last clause
    rw [bcp_watch_loop]
    cases hbc : bcp_clause slevel neg_lit s last clause with
    | kept s1 last1 =>
      rw [hbc] at h1
      exact ix_frame_trans _ _ _ h1 (ih s1 last1 _)
    | moved s1 =>
      rw [hbc] at h1
      exact ix_frame_trans _ _ _ h1 (ih s1 last _)
    | conflict s1 =>
      rw [hbc] at h1
      exact h1

theorem bcp_loop_ix (slevel : Nat) :
    ∀ (fuel : Nat) (s : my_manager) (last : Nat) (res : Bool) (s1 : my_manager),
      bcp_loop slevel fuel s last = some (res, s1) → ix_frame s s1 := by
  intro fuel
  induction fuel with
  | zero => intro s last res s1 h; simp [bcp_loop] at h
  | succ f ih =>
    intro s last res s1 h
    rw [bcp_loop] at h
    simp only at h
    split at h
    · simp only [Option.some.injEq, Prod.mk.injEq] at h
      rw [← h.2]
      exact ⟨rfl, rfl, fun _ => rfl⟩
    · have hw := bcp_watch_loop_ix slevel (neg (s.status (dequeue s.score s.imp).1))
        (s.watched (watched_index (neg (s.status (dequeue s.score s.imp).1))))
        { s with imp := (dequeue s.score s.imp).2 } last []
      split at h
      · simp only [Option.some.injEq, Prod.mk.injEq] at h
        rw [← h.2]
        exact hw
      · have h2 := ih _ _ res s1 h
        exact ix_frame_trans _ _ _ (ix_frame_trans _ _ _ hw ⟨rfl, rfl, fun _ => rfl⟩) h2

theorem bcp_ix (fuel : Nat) (s : my_manager) (l : Nat) (res : Bool) (s1 : my_manager)
    (h : bcp fuel s l = some (res, s1)) : ix_frame s s1 := by
  unfold bcp at h
  simp only at h
  have h2 := bcp_loop_ix _ fuel _ _ res s1 h
  exact ix_frame_trans _ _ _ ⟨rfl, rfl, fun _ => rfl⟩ h2

theorem set_decision_ix (fuel : Nat) (s : my_manager) (l : Nat) (res : Bool)
    (s1 : my_manager) (h : set_decision fuel s l = some (res, s1)) : ix_frame s s1 := by
  unfold set_decision at h
  have h1 := bcp_ix fuel _ l res s1 h
  have h0 : ix_frame s (set_decision_start s l) := by
    unfold set_decision_start
    simp only
    split <;> exact ⟨rfl, rfl, fun _ => rfl⟩
  exact ix_frame_trans _ _ _ h0 h1

theorem backtrack_ix (s : my_manager) (dest : Nat) : ix_frame s (backtrack s dest) := by
  unfold backtrack
  split
  · exact ⟨rfl, rfl, fun _ => rfl⟩
  · obtain ⟨_, b2, b3, b4, _⟩ := backtrack_loop_frame (s.assign_top - s.decision_lit dest) s
      s.assign_top
    exact ⟨b3, b4, fun c => by rw [b2]⟩

theorem add_conflict_clause_index (s : my_manager) (c : Nat) (h : index_inv s)
    (hc : c ∉ clause_ptrs s) : index_inv (add_conflict_clause s c) := by
  obtain ⟨sc, si, hp, L1, e, _⟩ := add_conflict_clause_loop_shape c (s.cl c).size 0 s false
  unfold add_conflict_clause
  simp only
  rw [e]
  obtain ⟨lcs, csi, e2⟩ := increment_clause_score_shape
    ({ (declare_watched_literals
        { s with score := sc, score_inc := si, var_order_heap := hp,
                 cl := (Function.update s.cl c { s.cl c with lits := L1 }) } c) with
        learned_clauses := (declare_watched_literals
          { s with score := sc, score_inc := si, var_order_heap := hp,
                   cl := (Function.update s.cl c { s.cl c with lits := L1 }) } c).learned_clauses
            ++ [c],
        learned_clause_scores := (Function.update (declare_watched_literals
          { s with score := sc, score_inc := si, var_order_heap := hp,
                   cl := (Function.update s.cl c { s.cl c with lits := L1 }) }
            c).learned_clause_scores (declare_watched_literals
          { s with score := sc, score_inc := si, var_order_heap := hp,
                   cl := (Function.update s.cl c { s.cl c with lits := L1 }) }
            c).learned_clauses.length 0),
        cl := (Function.update (declare_watched_literals
          { s with score := sc, score_inc := si, var_order_heap := hp,
                   cl := (Function.update s.cl c { s.cl c with lits := L1 }) } c).cl c
          { (declare_watched_literals
          { s with score := sc, score_inc := si, var_order_heap := hp,
                   cl := (Function.update s.cl c { s.cl c with lits := L1 }) } c).cl c with
            index := ((declare_watched_literals
          { s with score := sc, score_inc := si, var_order_heap := hp,
                   cl := (Function.update s.cl c { s.cl c with lits := L1 }) }
              c).learned_clauses.length : Int) }) } : my_manager) c
  rw [e2]
  have hco : c ∉ s.original_clauses := fun x => hc (List.mem_append.mpr (Or.inl x))
  have hcl : c ∉ s.learned_clauses := fun x => hc (List.mem_append.mpr (Or.inr x))
  constructor
  · intro i hi
    have hi : i < (s.learned_clauses ++ [c]).length := hi
    show (Function.update (Function.update s.cl c _) c _
      ((s.learned_clauses ++ [c]).getD i 0)).index = (i : Int)
    rw [List.length_append, List.length_singleton] at hi
    by_cases hlast : i = s.learned_clauses.length
    · have eg : (s.learned_clauses ++ [c]).getD i 0 = c := by
        rw [hlast, List.getD_eq_getElem _ _ (by simp)]
        simp
      rw [eg, Function.update_same, hlast]
      rfl
    · have hlt : i < s.learned_clauses.length := by omega
      have eg : (s.learned_clauses ++ [c]).getD i 0 = s.learned_clauses.getD i 0 := by
        rw [List.getD_eq_getElem _ _ (by simp; omega), List.getD_eq_getElem _ _ hlt,
          List.getElem_append_left hlt]
      have hne : s.learned_clauses.getD i 0 ≠ c := by
        intro x
        apply hcl
        rw [← x, List.getD_eq_getElem _ _ hlt]
        exact List.getElem_mem hlt
      rw [eg, Function.update_noteq hne, Function.update_noteq hne]
      exact h.1 i hlt
  · intro d hd
    have hd : d ∈ s.original_clauses := hd
    have hne : d ≠ c := fun x => hco (x ▸ hd)
    show (Function.update (Function.update s.cl c _) c _ d).index < 0
    rw [Function.update_noteq hne, Function.update_noteq hne]
    exact h.2 d hd

theorem assert_conflict_clause_index (fuel : Nat) (s : my_manager) (res : Bool)
    (s1 : my_manager) (hi : index_inv s)
    (hc : ∀ c, s.conflict_clause = some c → c ∉ clause_ptrs s)
    (h : assert_conflict_clause fuel s = some (res, s1)) : index_inv s1 := by
  unfold assert_conflict_clause at h
  cases hcc : s.conflict_clause with
  | none =>
    rw [hcc] at h
    simp at h
  | some cc =>
    rw [hcc] at h
    simp only at h
    have hb := bcp_ix fuel _ _ res s1 h
    refine index_inv_of_frame _ _ ?_ hb
    have h1 : index_inv (if (s.cl cc).size > 1 then add_conflict_clause s cc else s) := by
      split
      · exact add_conflict_clause_index s cc hi (hc cc hcc)
      · exact hi
    split <;> exact h1


theorem sort_step_other (bs : Nat) (arr : Nat → Option Nat) (score : Nat → ℚ) (j : Nat)
    (st : sort_state) (c : Nat) (ha : ∀ x, arr x ≠ some c) :
    ((sort_step bs arr score j st).cl c).index = (st.cl c).index
    ∧ ((∀ x, st.target x ≠ some c) → ∀ x, (sort_step bs arr score j st).target x ≠ some c) := by
  unfold sort_step
  simp only
  have key : ∀ fi : Nat,
      ((match arr fi with
        | some d => Function.update st.cl d { st.cl d with index := (j : Int) }
        | none => st.cl) c).index = (st.cl c).index := by
    intro fi
    cases hd : arr fi with
    | none => rfl
    | some d =>
      have hne : c ≠ d := by
        intro e
        rw [← e] at hd
        exact ha _ hd
      simp only
      rw [Function.update_noteq hne]
  constructor
  · exact key _
  · intro ht x
    by_cases hx : x = j
    · rw [hx, Function.update_same]
      exact ha _
    · rw [Function.update_noteq hx]
      exact ht x

theorem sort_pass_other (bs : Nat) (arr : Nat → Option Nat) (score : Nat → ℚ) (c : Nat)
    (ha : ∀ x, arr x ≠ some c) :
    ∀ (n j : Nat) (st : sort_state),
      ((sort_pass bs arr score n j st).cl c).index = (st.cl c).index
      ∧ ((∀ x, st.target x ≠ some c) →
          ∀ x, (sort_pass bs arr score n j st).target x ≠ some c) := by
  intro n
  induction n with
  | zero =>
    intro j st
    rw [sort_pass]
    exact ⟨rfl, fun h => h⟩
  | succ n ih =>
    intro j st
    rw [sort_pass]
    obtain ⟨a1, a2⟩ := sort_step_other bs arr score j st c ha
    obtain ⟨b1, b2⟩ := ih (j + 1) (sort_step bs arr score j st)
    exact ⟨b1.trans a1, fun h => b2 (a2 h)⟩

theorem sort_passes_other (size c : Nat) :
    ∀ (f bs : Nat) (arr : Nat → Option Nat) (score : Nat → ℚ) (target : Nat → Option Nat)
      (starget : Nat → ℚ) (cl : Nat → my_clause),
      (∀ x, arr x ≠ some c) → (∀ x, target x ≠ some c) →
      ((sort_passes size f bs arr score target starget cl).2.2 c).index = (cl c).index := by
  intro f
  induction f with
  | zero =>
    intro bs arr score target starget cl _ _
    rw [sort_passes]
  | succ f ih =>
    intro bs arr score target starget cl ha ht
    rw [sort_passes]
    split
    · rfl
    · simp only
      obtain ⟨a1, a2⟩ := sort_pass_other bs arr score c ha size 0
        { lindex := 0, rindex := bs, l := 0, r := 0,
          target := target, starget := starget, cl := cl }
      rw [ih _ _ _ _ _ _ (a2 ht) ha]
      exact a1

theorem sort_clauses_by_scores_other (cl : Nat → my_clause) (arr : Nat → Option Nat)
    (score : Nat → ℚ) (size c : Nat) (ha : ∀ x, arr x ≠ some c) :
    ((sort_clauses_by_scores cl arr score size).2.2 c).index = (cl c).index := by
  unfold sort_clauses_by_scores
  exact sort_passes_other size c size 1 arr score _ _ cl ha (fun _ => by simp)

theorem simplify_kb_loop_index :
    ∀ (L : List Nat) (i j : Nat) (s : my_manager) (kept : List Nat)
      (s1 : my_manager) (kept1 : List Nat), L.Nodup →
      simplify_kb_loop L i j s kept = some (s1, kept1) →
      ∃ K, kept1 = kept ++ K ∧ K.Sublist L
        ∧ (∀ t, t < K.length → (s1.cl (K.getD t 0)).index = ((j + t : Nat) : Int))
        ∧ (∀ c, c ∉ L → (s1.cl c).index = (s.cl c).index)
        ∧ s1.original_clauses = s.original_clauses := by
  intro L
  induction L with
  | nil =>
    intro i j s kept s1 kept1 _ h
    rw [simplify_kb_loop] at h
    simp only [Option.some.injEq, Prod.mk.injEq] at h
    rw [← h.1, ← h.2]
    exact ⟨[], by simp, List.Sublist.refl _, fun t ht => by simp at ht, fun _ _ => rfl, rfl⟩
  | cons c rest ih =>
    intro i j s kept s1 kept1 hnd h
    obtain ⟨hc, hnd'⟩ := List.nodup_cons.mp hnd
    rw [simplify_kb_loop] at h
    split at h
    · cases hr : remove_clause s c with
      | none =>
        rw [hr] at h
        simp at h
      | some s2 =>
        rw [hr] at h
        simp only at h
        obtain ⟨_, r2, _⟩ := remove_clause_fields s s2 c hr
        obtain ⟨_, r4, _⟩ := remove_clause_kb s c s2 hr
        obtain ⟨K, k1, k2, k3, k4, k5⟩ := ih _ _ _ _ _ _ hnd' h
        refine ⟨K, k1, k2.cons c, k3, ?_, k5.trans r4⟩
        intro d hd
        rw [k4 d (fun x => hd (List.mem_cons_of_mem _ x)), r2]
    · obtain ⟨K, k1, k2, k3, k4, k5⟩ := ih _ _ _ _ _ _ hnd' h
      refine ⟨c :: K, by rw [k1]; simp, k2.cons₂ c, ?_, ?_, k5⟩
      · intro t ht
        cases t with
        | zero =>
          show (s1.cl c).index = _
          rw [k4 c hc]
          show (Function.update s.cl c _ c).index = _
          rw [Function.update_same]
          rfl
        | succ t =>
          have ht' : t < K.length := by
            rw [List.length_cons] at ht
            omega
          have := k3 t ht'
          show (s1.cl (K.getD t 0)).index = _
          rw [this]
          congr 1
          omega
      · intro d hd
        rw [k4 d (fun x => hd (List.mem_cons_of_mem _ x))]
        show (Function.update s.cl c _ d).index = _
        rw [Function.update_noteq (fun x => hd (by rw [x]; exact List.mem_cons_self _ _))]

theorem reduce_kb_loop_index (n : Nat) (lim : ℚ) :
    ∀ (L : List Nat) (i j : Nat) (s : my_manager) (kept : List Nat)
      (s1 : my_manager) (kept1 : List Nat), L.Nodup →
      reduce_kb_loop n lim L i j s kept = some (s1, kept1) →
      ∃ K, kept1 = kept ++ K ∧ K.Sublist L
        ∧ (∀ t, t < K.length → (s1.cl (K.getD t 0)).index = ((j + t : Nat) : Int))
        ∧ (∀ c, c ∉ L → (s1.cl c).index = (s.cl c).index)
        ∧ s1.original_clauses = s.original_clauses := by
  intro L
  induction L with
  | nil =>
    intro i j s kept s1 kept1 _ h
    rw [reduce_kb_loop] at h
    simp only [Option.some.injEq, Prod.mk.injEq] at h
    rw [← h.1, ← h.2]
    exact ⟨[], by simp, List.Sublist.refl _, fun t ht => by simp at ht, fun _ _ => rfl, rfl⟩
  | cons c rest ih =>
    intro i j s kept s1 kept1 hnd h
    obtain ⟨hc, hnd'⟩ := List.nodup_cons.mp hnd
    rw [reduce_kb_loop] at h
    split at h
    · cases hr : remove_clause s c with
      | none =>
        rw [hr] at h
        simp at h
      | some s2 =>
        rw [hr] at h
        simp only at h
        obtain ⟨_, r2, _⟩ := remove_clause_fields s s2 c hr
        obtain ⟨_, r4, _⟩ := remove_clause_kb s c s2 hr
        obtain ⟨K, k1, k2, k3, k4, k5⟩ := ih _ _ _ _ _ _ hnd' h
        refine ⟨K, k1, k2.cons c, k3, ?_, k5.trans r4⟩
        intro d hd
        rw [k4 d (fun x => hd (List.mem_cons_of_mem _ x)), r2]
    · obtain ⟨K, k1, k2, k3, k4, k5⟩ := ih _ _ _ _ _ _ hnd' h
      refine ⟨c :: K, by rw [k1]; simp, k2.cons₂ c, ?_, ?_, k5⟩
      · intro t ht
        cases t with
        | zero =>
          show (s1.cl c).index = _
          rw [k4 c hc]
          show (Function.update s.cl c _ c).index = _
          rw [Function.update_same]
          rfl
        | succ t =>
          have ht' : t < K.length := by
            rw [List.length_cons] at ht
            omega
          have := k3 t ht'
          show (s1.cl (K.getD t 0)).index = _
          rw [this]
          congr 1
          omega
      · intro d hd
        rw [k4 d (fun x => hd (List.mem_cons_of_mem _ x))]
        show (Function.update s.cl c _ d).index = _
        rw [Function.update_noteq (fun x => hd (by rw [x]; exact List.mem_cons_self _ _))]

theorem simplify_kb_index (s s1 : my_manager) (hi : index_inv s)
    (hnd : (clause_ptrs s).Nodup) (h : simplify_kb s = some s1) : index_inv s1 := by
  unfold simplify_kb at h
  split at h
  · simp only [Option.some.injEq] at h
    rw [← h]
    exact hi
  · split at h
    · simp only [Option.some.injEq] at h
      rw [← h]
      exact hi
    · have hnd2 := List.nodup_append.mp hnd
      cases hl : simplify_kb_loop s.learned_clauses 0 0 s [] with
      | none =>
        rw [hl] at h
        simp at h
      | some r =>
        obtain ⟨s2, kept⟩ := r
        rw [hl] at h
        simp only [Option.some.injEq] at h
        obtain ⟨K, k1, k2, k3, k4, k5⟩ := simplify_kb_loop_index _ _ _ _ _ _ _ hnd2.2.1 hl
        rw [List.nil_append] at k1
        rw [← h]
        constructor
        · intro i hlen
          have hlen : i < kept.length := hlen
          show (s2.cl (kept.getD i 0)).index = (i : Int)
          rw [k1] at hlen ⊢
          rw [k3 i hlen]
          congr 1
          omega
        · intro c hc
          have hc : c ∈ s2.original_clauses := hc
          rw [k5] at hc
          show (s2.cl c).index < 0
          rw [k4 c (fun x => hnd2.2.2 hc x)]
          exact hi.2 c hc

theorem reduce_kb_index (s s1 : my_manager) (hi : index_inv s)
    (hnd : (clause_ptrs s).Nodup) (h : reduce_kb s = some s1) : index_inv s1 := by
  unfold reduce_kb at h
  simp only at h
  by_cases hn : s.learned_clauses.length = 0
  · rw [if_pos hn] at h
    simp only [Option.some.injEq] at h
    rw [← h]
    exact hi
  · rw [if_neg hn] at h
    have hnd2 := List.nodup_append.mp hnd
    obtain ⟨⟨K, hK⟩, hN⟩ := next_pow2_spec s.learned_clauses.length
    rw [hK] at h hN
    obtain ⟨hp, _⟩ := sort_clauses_by_scores_perm s.cl
      (fun i => if i < s.learned_clauses.length then s.learned_clauses.get? i else none)
      (fun i => if i < s.learned_clauses.length then s.learned_clause_scores i else -100) K
    have hother : ∀ c, c ∉ s.learned_clauses →
        ((sort_clauses_by_scores s.cl
          (fun i => if i < s.learned_clauses.length then s.learned_clauses.get? i else none)
          (fun i => if i < s.learned_clauses.length then s.learned_clause_scores i else -100)
          (2 ^ K)).2.2 c).index = (s.cl c).index := by
      intro c hc
      apply sort_clauses_by_scores_other
      intro x hx
      split at hx
      · exact hc (List.get?_mem hx)
      · simp at hx
    generalize sort_clauses_by_scores s.cl
      (fun i => if i < s.learned_clauses.length then s.learned_clauses.get? i else none)
      (fun i => if i < s.learned_clauses.length then s.learned_clause_scores i else -100)
      (2 ^ K) = R at h hp hother
    split at h
    · rename_i hall
      have hperm := sorted_tail_perm s.learned_clauses (2 ^ K) hN _ hp hall
      cases hlo : reduce_kb_loop s.learned_clauses.length
          (s.clause_score_inc / (s.learned_clauses.length : ℚ))
          (List.filterMap id
            (List.map (fun kk => R.1 (2 ^ K - s.learned_clauses.length + kk))
              (List.range s.learned_clauses.length))) 0 0
          { s with
            cl := R.2.2,
            learned_clause_scores :=
              (fun kk => if kk < s.learned_clauses.length then
                R.2.1 (2 ^ K - s.learned_clauses.length + kk)
                else s.learned_clause_scores kk) } [] with
      | none =>
        rw [hlo] at h
        simp at h
      | some r =>
        obtain ⟨s2, kept⟩ := r
        rw [hlo] at h
        simp only [Option.some.injEq] at h
        obtain ⟨K', k1, k2, k3, k4, k5⟩ := reduce_kb_loop_index _ _ _ _ _ _ _ _ _
          (hperm.nodup_iff.mpr hnd2.2.1) hlo
        rw [List.nil_append] at k1
        rw [← h]
        constructor
        · intro i hlen
          have hlen : i < kept.length := hlen
          show (s2.cl (kept.getD i 0)).index = (i : Int)
          rw [k1] at hlen ⊢
          rw [k3 i hlen]
          congr 1
          omega
        · intro c hc
          have hc : c ∈ s2.original_clauses := hc
          rw [k5] at hc
          have hc' : c ∈ s.original_clauses := hc
          have hnl : c ∉ s.learned_clauses := fun x => hnd2.2.2 hc' x
          show (s2.cl c).index < 0
          rw [k4 c (fun x => hnl ((List.Perm.mem_iff hperm).mp x))]
          show (R.2.2 c).index < 0
          rw [hother c hnl]
          exact hi.2 c hc'
    · simp at h

theorem simplify_original_kb_index (s s1 : my_manager) (hi : index_inv s)
    (h : simplify_original_kb s = some s1) : index_inv s1 := by
  obtain ⟨_, k1, k2, _⟩ := simplify_original_kb_kb s s1 h
  have hcl : s1.cl = s.cl := by
    unfold simplify_original_kb at h
    split at h
    · simp only [Option.some.injEq] at h
      rw [← h]
    · cases hl : simplify_original_kb_loop s.original_clauses s [] with
      | none =>
        rw [hl] at h
        simp at h
      | some r =>
        obtain ⟨s2, kept⟩ := r
        rw [hl] at h
        simp only [Option.some.injEq] at h
        obtain ⟨_, _, a3, _⟩ := simplify_original_kb_loop_spec s _ _ _ _ _ rfl rfl hl
        rw [← h]
        exact a3
  unfold index_inv
  rw [k1, hcl]
  exact ⟨hi.1, fun c hc => hi.2 c (k2 c hc)⟩

theorem solve_restart_index (s s1 : my_manager) (hi : index_inv s)
    (h : solve_restart s = some s1) : index_inv s1 := by
  unfold solve_restart at h
  split at h
  · simp only at h
    refine simplify_original_kb_index _ s1 ?_ h
    have hb := index_inv_of_frame s _ hi (backtrack_ix s 2)
    exact hb
  · simp only [Option.some.injEq] at h
    rw [← h]
    exact hi

theorem solve_manage_index (s s3 : my_manager) (h : solve_inv s) (hi : index_inv s)
    (hm : solve_manage s = some s3) : index_inv s3 := by
  unfold solve_manage at hm
  obtain ⟨s1, e1, h1, _⟩ := solve_restart_inv s h
  have i1 := solve_restart_index s s1 hi e1
  rw [e1] at hm
  simp only at hm
  by_cases hc : s1.simplify_learned_kb ≠ 0 ∧ s1.decision_level = 1
      ∧ s1.conflicts ≥ s1.num_conflicts_for_next_simplify
  · rw [if_pos hc] at hm
    obtain ⟨s2, e2, h2, _⟩ := simplify_kb_inv s1 h1 hc.2.1
    have i2 := simplify_kb_index s1 s2 i1 h1.1.2.2.2.2.2.2.2.1 e2
    rw [e2] at hm
    simp only at hm
    split at hm
    · exact reduce_kb_index s2 s3 i2 h2.1.2.2.2.2.2.2.2.1 hm
    · simp only [Option.some.injEq] at hm
      rw [← hm]
      exact i2
  · rw [if_neg hc] at hm
    simp only at hm
    split at hm
    · exact reduce_kb_index s1 s3 i1 h1.1.2.2.2.2.2.2.2.1 hm
    · simp only [Option.some.injEq] at hm
      rw [← hm]
      exact i1

theorem select_variable_index (s : my_manager) (v : Nat) (s1 : my_manager)
    (hsol : solve_inv s) (hi : index_inv s) (h : select_variable s = some (v, s1)) :
    index_inv s1 := by
  obtain ⟨⟨hb, hq, hoff, hd1, htr, hm, hh, hst⟩, htw, hsv⟩ := hsol
  have hl1 : ∀ u, u ≤ s.vc → s.status u ≠ 0 → s.level u ≠ 0 := by
    intro u hu hs
    obtain ⟨p, p1, p2⟩ := htr.2.1 u hu hs
    obtain ⟨_, _, a3, _⟩ := htr.1 p p1
    rw [p2] at a3
    omega
  obtain ⟨e4, _⟩ := select_variable_spec s v s1 hh hl1 htr.2.2 h
  rw [e4]
  exact hi

theorem analyze_conflict_index (s s1 : my_manager) (hs : search_inv s)
    (hc : conflict_inv s) (h2 : 2 ≤ s.decision_level) (hi : index_inv s)
    (h : analyze_conflict s s.conflicting_clause s.decision_level = some s1) :
    index_inv s1 := by
  obtain ⟨s1', e, _, _, a3, _, _, a6⟩ := analyze_conflict_spec s hs hc h2
  rw [h] at e
  have : s1 = s1' := Option.some.inj e
  subst this
  have ho : s1.original_clauses = s.original_clauses := a6.1
  have hl : s1.learned_clauses = s.learned_clauses := a6.2.1
  have hlt := hs.2.2.2.2.2.2.2.2
  unfold index_inv
  rw [ho, hl]
  constructor
  · intro i hlen
    have hm : s.learned_clauses.getD i 0 ∈ clause_ptrs s := by
      rw [List.getD_eq_getElem _ _ hlen]
      exact List.mem_append.mpr (Or.inr (List.getElem_mem hlen))
    rw [a3 _ (by have := hlt _ hm; omega)]
    exact hi.1 i hlen
  · intro c hc'
    have hm : c ∈ clause_ptrs s := List.mem_append.mpr (Or.inl hc')
    rw [a3 _ (by have := hlt _ hm; omega)]
    exact hi.2 c hc'

theorem conflict_step_index (bfuel : Nat) (s s1 : my_manager) (hcs : conflict_state s)
    (h2 : 2 ≤ s.decision_level) (hi : index_inv s)
    (ha : analyze_conflict s s.conflicting_clause s.decision_level = some s1) :
    index_inv (backtrack s1 (s1.assertion_level + 1))
    ∧ (∀ c, s1.conflict_clause = some c →
        index_inv (add_conflict_clause (backtrack s1 (s1.assertion_level + 1)) c))
    ∧ (∀ res s3,
        assert_conflict_clause bfuel (backtrack s1 (s1.assertion_level + 1)) = some (res, s3) →
        index_inv s3) := by
  have i1 := analyze_conflict_index s s1 hcs.1 hcs.2.2.2 h2 hi ha
  have i2 := index_inv_of_frame _ _ i1 (backtrack_ix s1 (s1.assertion_level + 1))
  obtain ⟨_, b2, b3, b4, _⟩ := conflict_step_learned s s1 hcs h2 ha
  refine ⟨i2, ?_, ?_⟩
  · intro c hc
    rw [b3] at hc
    have : s.alloc_next = c := Option.some.inj hc
    rw [← this]
    exact add_conflict_clause_index _ _ i2 b4
  · intro res s3 h3
    refine assert_conflict_clause_index bfuel _ res s3 i2 ?_ h3
    intro c hc
    rw [b2] at hc
    have : s.alloc_next = c := Option.some.inj hc
    rw [← this]
    exact b4

theorem solve_conflict_loop_index (bfuel : Nat) :
    ∀ (f : Nat) (s : my_manager) (res : Bool) (result : Int) (s1 : my_manager),
      (res = true → solve_inv s) → (res = false → conflict_state s) → index_inv s →
      solve_conflict_loop bfuel f s res = some (result, s1) → result ≠ 0 →
      index_inv s1 := by
  intro f
  induction f with
  | zero => intro s res result s1 _ _ _ h; simp [solve_conflict_loop] at h
  | succ f ih =>
    intro s res result s1 ht hf hi h hne
    rw [solve_conflict_loop] at h
    by_cases hr : res = true
    · rw [if_pos hr] at h
      simp only [Option.some.injEq, Prod.mk.injEq] at h
      rw [← h.2]
      exact hi
    · rw [if_neg hr] at h
      have hcs := hf (by simpa using hr)
      rcases Nat.lt_or_ge s.decision_level 2 with hlow | hhigh
      · obtain ⟨s2, e2, e3, _⟩ := analyze_conflict_top s s.conflicting_clause
          s.decision_level (by omega)
        rw [e2] at h
        simp only at h
        rw [if_pos e3] at h
        simp only [Option.some.injEq, Prod.mk.injEq] at h
        exact absurd h.1.symm hne
      · obtain ⟨s2, e2, e3, e4, _, e5⟩ := conflict_step bfuel s hcs hhigh
        obtain ⟨_, _, j3⟩ := conflict_step_index bfuel s s2 hcs hhigh hi e2
        rw [e2] at h
        simp only at h
        rw [if_neg (by omega)] at h
        cases h3 : assert_conflict_clause bfuel (backtrack s2 (s2.assertion_level + 1)) with
        | none =>
          rw [h3] at h
          simp at h
        | some r =>
          obtain ⟨res1, s3⟩ := r
          rw [h3] at h
          simp only at h
          obtain ⟨r1, r2, _⟩ := e5 res1 s3 h3
          exact ih s3 res1 result s1 r1 r2 (j3 res1 s3 h3) h hne

theorem read_clause_index (cc : Nat) (s s1 : my_manager) (line : List Int)
    (hl : s.learned_clauses = []) (hi : index_inv s)
    (hr : read_clause cc s line = some s1) : index_inv s1 := by
  have key : ∀ (m : my_manager) (lits : List Int), m.cl = s.cl →
      m.original_clauses = s.original_clauses → m.learned_clauses = s.learned_clauses →
      index_inv (init_clause m lits m.original_clauses.length) := by
    intro m lits m1 m2 m3
    constructor
    · intro i hlen
      have hlen : i < m.learned_clauses.length := hlen
      rw [m3, hl] at hlen
      simp at hlen
    · intro c hc
      have hc : c ∈ m.original_clauses ++ [m.alloc_next] := hc
      show (Function.update m.cl m.alloc_next _ c).index < 0
      by_cases e : c = m.alloc_next
      · rw [e, Function.update_same]
        show -((m.original_clauses.length : Int) + 1) < 0
        omega
      · rw [Function.update_noteq e, m1]
        rcases List.mem_append.mp hc with x | x
        · rw [m2] at x
          exact hi.2 c x
        · simp at x
          exact absurd x e
  unfold read_clause at hr
  split at hr
  · simp at hr
  · split at hr
    · simp at hr
    · split at hr
      · simp only [Option.some.injEq] at hr
        rw [← hr]
        exact hi
      · split at hr
        · simp only [Option.some.injEq] at hr
          rw [← hr]
          exact hi
        · split at hr
          · simp only at hr
            split at hr
            · simp only [Option.some.injEq] at hr
              rw [← hr]
              exact hi
            · simp only [Option.some.injEq] at hr
              rw [← hr]
              exact hi
          · simp only at hr
            split at hr
            · split at hr
              · simp only [Option.some.injEq] at hr
                rw [← hr]
                exact key _ _ rfl rfl rfl
              · simp at hr
            · split at hr
              · simp only [Option.some.injEq] at hr
                rw [← hr]
                exact key _ _ rfl rfl rfl
              · simp at hr

theorem read_clauses_index (cc : Nat) :
    ∀ (lines : List (List Int)) (s s1 : my_manager),
      load_inv s → unwatched s → index_inv s → read_clauses cc lines s = some s1 →
      index_inv s1 := by
  intro lines
  induction lines with
  | nil =>
    intro s s1 _ _ hi hr
    rw [read_clauses] at hr
    simp only [Option.some.injEq] at hr
    rw [← hr]
    exact hi
  | cons line rest ih =>
    intro s s1 h hu hi hr
    rw [read_clauses] at hr
    split at hr
    · simp at hr
    · rename_i s2 h2
      obtain ⟨b1, b2, _⟩ := read_clause_load cc s s2 line h hu h2
      exact ih s2 s1 b1 b2 (read_clause_index cc s s2 line h.1 hi h2) hr

theorem read_cnf_index (vc cc : Nat) (lines : List (List Int)) (s : my_manager)
    (h : read_cnf vc cc lines = some s) : index_inv s := by
  unfold read_cnf at h
  obtain ⟨a, b⟩ := init_manager_load vc
  refine read_clauses_index cc lines _ s a b ?_ h
  constructor
  · intro i hlen
    have hlen : i < ([] : List Nat).length := hlen
    simp at hlen
  · intro c hc
    have hc : c ∈ ([] : List Nat) := hc
    simp at hc

theorem process_unit_literal_queue_ix (fuel : Nat) (s : my_manager) (res : Bool)
    (s1 : my_manager) (h : process_unit_literal_queue fuel s = some (res, s1)) :
    ix_frame s s1 := by
  unfold process_unit_literal_queue at h
  simp only at h
  split at h
  · split at h
    · simp at h
    · rename_i r2 s2 hb
      simp only [Option.some.injEq, Prod.mk.injEq] at h
      have := bcp_ix fuel _ _ _ _ hb
      rw [← h.2]
      exact ⟨this.1, this.2.1, this.2.2⟩
  · simp only [Option.some.injEq, Prod.mk.injEq] at h
    rw [← h.2]
    exact ⟨rfl, rfl, fun _ => rfl⟩

theorem finish_up_init_manager_index (fuel : Nat) (s : my_manager) (res : Bool)
    (s5 : my_manager) (hi : index_inv s)
    (hr : finish_up_init_manager fuel s = some (res, s5)) : index_inv s5 := by
  unfold finish_up_init_manager at hr
  cases hw : init_watched_literals s.original_clauses s with
  | none => rw [hw] at hr; exact absurd hr (by simp)
  | some s1 =>
    rw [hw] at hr
    simp only at hr
    obtain ⟨_, w2, w3, w4, _, _⟩ := init_watched_literals_fields _ _ _ hw
    obtain ⟨_, i2, i3, i4, _, _⟩ := insert_all_fields s1.vc 1 s1
    have h1 : index_inv (insert_all s1.vc 1 s1) :=
      index_inv_of_frame s _ hi ⟨i2.trans w2, i3.trans w3, fun c => by rw [i4, w4]⟩
    cases hp : process_unit_literal_queue fuel (insert_all s1.vc 1 s1) with
    | none => rw [hp] at hr; exact absurd hr (by simp)
    | some r =>
      obtain ⟨res3, s3⟩ := r
      rw [hp] at hr
      simp only at hr
      have h3 := index_inv_of_frame _ _ h1 (process_unit_literal_queue_ix fuel _ res3 s3 hp)
      split at hr
      · simp only [Option.some.injEq, Prod.mk.injEq] at hr
        rw [← hr.2]
        exact h3
      · cases hs : simplify_original_kb s3 with
        | none => rw [hs] at hr; exact absurd hr (by simp)
        | some s4 =>
          rw [hs] at hr
          simp only [Option.some.injEq, Prod.mk.injEq] at hr
          rw [← hr.2]
          exact simplify_original_kb_index s3 s4 h3 hs

theorem loop_entry_index (bfuel cfuel : Nat) (s : my_manager)
    (h : loop_entry bfuel cfuel s) : index_inv s := by
  induction h with
  | first vc cc lines s0 s h0 h1 =>
    exact finish_up_init_manager_index bfuel s0 true s (read_cnf_index vc cc lines s0 h0) h1
  | next s s3 s4 s5 s6 v res result he hm hs hv hd hc hr ih =>
    have hsol := loop_entry_solve_inv bfuel cfuel s he
    have h3 := solve_manage_inv s s3 hsol hm
    have i3 := solve_manage_index s s3 hsol ih hm
    have i4 := select_variable_index s3 v s4 h3 i3 hs
    have i5 := index_inv_of_frame _ _ i4 (set_decision_ix bfuel s4 _ res s5 hd)
    obtain ⟨a, b, _⟩ := set_decision_inv bfuel s3 h3 v s4 hs hv res s5 hd
    exact solve_conflict_loop_index bfuel cfuel s5 res result s6 a b i5 hc hr

theorem conflict_point_index (bfuel cfuel : Nat) (s : my_manager)
    (h : conflict_point bfuel cfuel s) : index_inv s := by
  induction h with
  | decided s s3 s4 s5 v he hm hs hv hd =>
    have hsol := loop_entry_solve_inv bfuel cfuel s he
    have h3 := solve_manage_inv s s3 hsol hm
    have i3 := solve_manage_index s s3 hsol (loop_entry_index bfuel cfuel s he) hm
    have i4 := select_variable_index s3 v s4 h3 i3 hs
    exact index_inv_of_frame _ _ i4 (set_decision_ix bfuel s4 _ false s5 hd)
  | asserted s s1 s3 hp ha hne h3 ih =>
    have hcs := conflict_point_state bfuel cfuel s hp
    have h2 : 2 ≤ s.decision_level := by
      by_contra hc
      obtain ⟨s2, e2, e3, _⟩ := analyze_conflict_top s s.conflicting_clause s.decision_level
        (by omega)
      rw [ha] at e2
      have : s1 = s2 := Option.some.inj e2
      rw [← this] at e3
      exact hne e3
    exact (conflict_step_index bfuel s s1 hcs h2 ih ha).2.2 false s3 h3

/-- C36: in a run of the solver on a formula read by `read_cnf`, the index
invariant holds at every entry of the main loop of `solve` and at every
conflict: the learned clause at position `i` of the learned store has
`index = i` (so `learned_clause_scores[c->index]` is the entry of the score
array at the position of `c`), and every original clause has a negative
index.  It holds again after the restart block, after `simplify_kb` and
after `reduce_kb` in `solve_manage`, after `add_conflict_clause` and after
`assert_conflict_clause` in the conflict loop.  The three functions keep it
from any state that satisfies it (the stored pointers being pairwise
distinct, the added clause new). -/
theorem index_kept (bfuel cfuel : Nat) :
    (∀ s, loop_entry bfuel cfuel s →
      index_inv s
      ∧ (∀ s1, solve_restart s = some s1 →
          index_inv s1
          ∧ (∀ s2, s1.decision_level = 1 → simplify_kb s1 = some s2 →
              index_inv s2 ∧ ∀ s3, reduce_kb s2 = some s3 → index_inv s3)
          ∧ (∀ s3, reduce_kb s1 = some s3 → index_inv s3))
      ∧ (∀ s3, solve_manage s = some s3 → index_inv s3))
    ∧ (∀ s, conflict_point bfuel cfuel s → index_inv s)
    ∧ (∀ s s1, conflict_point bfuel cfuel s →
        analyze_conflict s s.conflicting_clause s.decision_level = some s1 →
        s1.assertion_level ≠ 0 →
        (∀ c, s1.conflict_clause = some c →
          index_inv (add_conflict_clause (backtrack s1 (s1.assertion_level + 1)) c))
        ∧ (∀ res s3,
            assert_conflict_clause bfuel (backtrack s1 (s1.assertion_level + 1))
              = some (res, s3) → index_inv s3))
    ∧ (∀ s c, index_inv s → c ∉ clause_ptrs s → index_inv (add_conflict_clause s c))
    ∧ (∀ s s1, index_inv s → (clause_ptrs s).Nodup → simplify_kb s = some s1 → index_inv s1)
    ∧ (∀ s s1, index_inv s → (clause_ptrs s).Nodup → reduce_kb s = some s1 → index_inv s1)
    ∧ (∀ s, index_inv s → ∀ i, i < s.learned_clauses.length →
        ((s.cl (s.learned_clauses.getD i 0)).index).toNat = i
        ∧ s.learned_clause_scores ((s.cl (s.learned_clauses.getD i 0)).index).toNat
            = s.learned_clause_scores i) := by
  refine ⟨?_, conflict_point_index bfuel cfuel, ?_, add_conflict_clause_index,
    simplify_kb_index, reduce_kb_index, ?_⟩
  · intro s h
    have hi := loop_entry_index bfuel cfuel s h
    obtain ⟨_, _, c, _, _⟩ := entry_points bfuel cfuel s h
    refine ⟨hi, ?_, fun s3 hm =>
      solve_manage_index s s3 (loop_entry_solve_inv bfuel cfuel s h) hi hm⟩
    intro s1 h1
    obtain ⟨c1, c2, _⟩ := c s1 h1
    have i1 := solve_restart_index s s1 hi h1
    refine ⟨i1, ?_, fun s3 h3 => reduce_kb_index s1 s3 i1 c1.2.2.2.2.2.2.2.1 h3⟩
    intro s2 hd h2
    obtain ⟨d1, _⟩ := c2 s2 hd h2
    have i2 := simplify_kb_index s1 s2 i1 c1.2.2.2.2.2.2.2.1 h2
    exact ⟨i2, fun s3 h3 => reduce_kb_index s2 s3 i2 d1.2.2.2.2.2.2.2.1 h3⟩
  · intro s s1 h ha hne
    have hcs := conflict_point_state bfuel cfuel s h
    have h2 : 2 ≤ s.decision_level := by
      by_contra hc
      obtain ⟨s2, e2, e3, _⟩ := analyze_conflict_top s s.conflicting_clause s.decision_level
        (by omega)
      rw [ha] at e2
      have : s1 = s2 := Option.some.inj e2
      rw [← this] at e3
      exact hne e3
    obtain ⟨_, j2, j3⟩ := conflict_step_index bfuel s s1 hcs h2
      (conflict_point_index bfuel cfuel s h) ha
    exact ⟨j2, j3⟩
  · intro s hi i hlen
    have e := hi.1 i hlen
    have e' : ((s.cl (s.learned_clauses.getD i 0)).index).toNat = i := by
      rw [e]
      exact Int.toNat_natCast i
    exact ⟨e', by rw [e']⟩

/-- C36, witness: the formula `(1 2)(1 -2)` after loading and at the conflict
of its first decision, and `reduce_kb` on the fourth instance, which leaves
the learned clauses at the pointers 3 and 1 with the indices 0 and 1. -/
theorem index_kept_witness :
    index_inv example_loaded ∧ index_inv example_decided
    ∧ index_inv example_learned
    ∧ ∃ s1, reduce_kb example_learned = some s1 ∧ s1.learned_clauses = [3, 1]
      ∧ index_inv s1 ∧ (s1.cl 3).index = 0 ∧ (s1.cl 1).index = 1 := by
  have e : (reduce_kb example_learned).map (fun s1 => s1.learned_clauses)
      = some [3, 1] := by decide!
  refine ⟨((index_kept 10 10).1 example_loaded example_loaded_entry).1,
    (index_kept 10 10).2.1 example_decided example_decided_point.1, by decide, ?_⟩
  cases h : reduce_kb example_learned with
  | none => rw [h] at e; exact absurd e (by simp)
  | some s1 =>
    rw [h] at e
    simp only [Option.map_some', Option.some.injEq] at e
    have hi := (index_kept 10 10).2.2.2.2.2.1 example_learned s1 (by decide) (by decide) h
    have h0 := hi.1 0 (by rw [e]; decide)
    have h1 := hi.1 1 (by rw [e]; decide)
    rw [e] at h0 h1
    exact ⟨s1, rfl, e, hi, h0, h1⟩

end RSat
